import Mathlib

/-!
The text-buffer engine of nano (nano.c, cut.c).

A shallow embedding of the line store, the partition engine and the
cut/paste primitives, followed by theorems about them.

Conventions of the embedding.

* A `linestruct *` is an address (`Nat`); a nullable pointer is an
  `Option Nat` with `none` for `NULL`.  The heap maps an address to the
  `linestruct` stored there, or to `none` when nothing is allocated there
  (never allocated, or already freed).  Dereferencing such an address is
  undefined behaviour in C; here the operation returns `none`.
* `nmalloc` is a bump allocator: it hands out the address `brk` and
  increments it, so an address is never reused.
* A C string is the list of its bytes before the terminating NUL
  (`List Nat`); `strlen` is `List.length`.  Reading or writing past the
  terminator is undefined behaviour and makes the operation return `none`.
* A `while` loop over a linked list takes fuel; the fuel that callers pass is
  `brk`, the number of cells ever allocated, which no acyclic list exceeds.
  Running out of fuel (a cyclic list, on which the C loop does not return)
  gives `none`.
* `totsize` is a `size_t`.  It is kept as a natural number: adding to it
  does not overflow for a text that fits in memory, and taking from it is the
  truncated subtraction, which is the C subtraction whenever the amount taken
  away is not more than `totsize` (as it is when `totsize` counts the text
  that the amount is part of).  Line numbers (`ssize_t`) are integers.
* Screen state that only the rendering side reads (`placewewant`,
  `refresh_needed`, `focusing`, soft-wrap chunk counts, `spillage_line`) is
  not part of the state; `edittop` is, because the core dereferences it.
-/

namespace Nano

/-- One node of the line list: `struct linestruct` with its text, its line
number and its two links. -/
structure linestruct where
  data : List Nat
  lineno : Int
  next : Option Nat
  prev : Option Nat
deriving DecidableEq

/-- The heap: what is stored at each address. -/
abbrev Heap := Nat → Option linestruct

/-- Store `v` at address `p`. -/
def Heap.set (h : Heap) (p : Nat) (v : Option linestruct) : Heap :=
  fun q => if q = p then v else h q

/-- The record `struct partition`: what `partition_buffer` saves so that
`unpartition_buffer` can undo it. -/
structure partition where
  filetop : Option Nat
  top_prev : Option Nat
  top_data : List Nat
  filebot : Option Nat
  bot_next : Option Nat
  bot_data : List Nat
deriving DecidableEq

/-- The kinds of undoable action that the two source files name. -/
inductive undo_type where
  | ADD | BACK | DEL | JOIN | CUT | CUT_TO_EOF | PASTE | ZAP | OTHER
deriving DecidableEq

/-- One undo record, with the fields that nano.c and cut.c read or write. -/
structure undo where
  type : undo_type
  lineno : Int
  begin_x : Nat
  mark_begin_lineno : Int
  mark_begin_x : Nat
  wassize : Nat
  newsize : Nat
  cutbuffer : Option Nat
  cutbottom : Option Nat
  xflags : Nat
deriving DecidableEq

/-- The editor state: the heap of lines, the fields of the current
`openfile`, and the globals of the cut engine. -/
structure State where
  heap : Heap
  brk : Nat
  filetop : Nat
  filebot : Nat
  edittop : Nat
  current : Nat
  current_x : Nat
  mark : Option Nat
  mark_x : Nat
  totsize : Nat
  modified : Bool
  last_action : undo_type
  undotop : List undo
  current_undo : Option Nat
  cutbuffer : Option Nat
  cutbottom : Option Nat
  keep_cutbuffer : Bool
  filepart : Option partition
  NO_NEWLINES : Bool
  CUT_FROM_CURSOR : Bool

/-- Overwrite the node at `p` by `f` of it; fails when `p` is not allocated. -/
def State.modify (s : State) (p : Nat) (f : linestruct → linestruct) : Option State :=
  match s.heap p with
  | none => none
  | some n => some { s with heap := s.heap.set p (some (f n)) }

/-- Allocation by `nmalloc`: store `n` at the fresh address `brk`. -/
def State.alloc (s : State) (n : linestruct) : State × Nat :=
  ({ s with heap := s.heap.set s.brk (some n), brk := s.brk + 1 }, s.brk)

/-- Create a new linestruct node.  Note that we do not set prevnode->next. -/
def make_new_node (s : State) (prevnode : Option Nat) : Option (State × Nat) :=
  match prevnode with
  | none => some (s.alloc { data := [], prev := none, next := none, lineno := 1 })
  | some q =>
    match s.heap q with
    | none => none
    | some n => some (s.alloc { data := [], prev := some q, next := none, lineno := n.lineno + 1 })

/-- Make a copy of a linestruct node. -/
def copy_node (s : State) (src : Nat) : Option (State × Nat) :=
  match s.heap src with
  | none => none
  | some n => some (s.alloc { data := n.data, next := n.next, prev := n.prev, lineno := n.lineno })

/-- Free the data structures in the given node. -/
def delete_node (s : State) (fileptr : Nat) : Option State :=
  match s.heap fileptr with
  | none => none
  | some _ => some { s with heap := s.heap.set fileptr none }

/-- Splice a new node into an existing linked list of linestructs. -/
def splice_node (s : State) (afterthis newnode : Nat) : Option State := do
  let a ← s.heap afterthis
  let s ← s.modify newnode (fun n => { n with next := a.next })
  let s ← s.modify newnode (fun n => { n with prev := some afterthis })
  let a ← s.heap afterthis
  let s ← (match a.next with
    | none => some s
    | some q => s.modify q (fun n => { n with prev := some newnode }))
  let s ← s.modify afterthis (fun n => { n with next := some newnode })
  some (if s.filebot = afterthis then { s with filebot := newnode } else s)

/-- Disconnect a node from a linked list of linestructs and delete it. -/
def unlink_node (s : State) (fileptr : Nat) : Option State := do
  let f ← s.heap fileptr
  let s ← (match f.prev with
    | none => some s
    | some q => s.modify q (fun n => { n with next := f.next }))
  let f ← s.heap fileptr
  let s ← (match f.next with
    | none => some s
    | some q => s.modify q (fun n => { n with prev := f.prev }))
  let f ← s.heap fileptr
  let s := if s.filebot = fileptr then
      (match f.prev with
       | none => none
       | some q => some { s with filebot := q })
    else some s
  let s ← s
  delete_node s fileptr

/-- The loop of `copy_buffer`: `copy` is the last node copied so far, `src`
the next node to copy. -/
def copy_buffer_loop : Nat → State → Nat → Option Nat → Option (State × Nat)
  | _, s, copy, none => some (s, copy)
  | 0, _, _, some _ => none
  | fuel + 1, s, copy, some p => do
    let (s, c) ← copy_node s p
    let s ← s.modify copy (fun n => { n with next := some c })
    let s ← s.modify c (fun n => { n with prev := some copy })
    let n ← s.heap p
    copy_buffer_loop fuel s c n.next

/-- Duplicate an entire linked list of linestructs. -/
def copy_buffer (s : State) (src : Nat) : Option (State × Nat) := do
  let fuel := s.brk
  let (s, copy) ← copy_node s src
  let s ← s.modify copy (fun n => { n with prev := none })
  let head := copy
  let n ← s.heap src
  let (s, copy) ← copy_buffer_loop fuel s copy n.next
  let s ← s.modify copy (fun n => { n with next := none })
  some (s, head)

/-- The loop of `free_lines`, entered with `src` not null. -/
def free_lines_loop : Nat → State → Nat → Option State
  | 0, _, _ => none
  | fuel + 1, s, src =>
    match s.heap src with
    | none => none
    | some n =>
      match n.next with
      | none => delete_node s src
      | some q =>
        match s.heap q with
        | none => none
        | some m =>
          match m.prev with
          | none => none
          | some r =>
            match delete_node s r with
            | none => none
            | some s1 => free_lines_loop fuel s1 q

/-- Free an entire linked list of linestructs. -/
def free_lines (s : State) (src : Option Nat) : Option State :=
  match src with
  | none => some s
  | some p => free_lines_loop s.brk s p

/-- The loop of `renumber`: `number` is the number given to the line before
`line`. -/
def renumber_loop : Nat → State → Option Nat → Int → Option State
  | _, s, none, _ => some s
  | 0, _, some _, _ => none
  | fuel + 1, s, some p, number =>
    match s.heap p with
    | none => none
    | some n =>
      renumber_loop fuel { s with heap := s.heap.set p (some { n with lineno := number + 1 }) }
        n.next (number + 1)

/-- Renumber the lines in a buffer, starting with the given line. -/
def renumber (s : State) (line : Nat) : Option State :=
  match s.heap line with
  | none => none
  | some n =>
    match n.prev with
    | none => renumber_loop s.brk s (some line) 0
    | some q =>
      match s.heap q with
      | none => none
      | some m => renumber_loop s.brk s (some line) m.lineno

/-- Partition the current buffer so that it appears to begin at (top, top_x)
and appears to end at (bot, bot_x).  The caller stores the returned record in
`filepart`.  The top and bottom of the buffer are saved in the record only
when they differ from `top` and `bot`; setting them to `top` and `bot` when
they do not differ changes nothing, so they are set in both cases. -/
def partition_buffer (s : State) (top top_x bot bot_x : Nat) : Option (State × partition) := do
  let p_filetop := if top ≠ s.filetop then some s.filetop else none
  let p_filebot := if bot ≠ s.filebot then some s.filebot else none
  let s := { s with filetop := top, filebot := bot }
  let t ← s.heap top
  let p_top_prev := t.prev
  let s ← s.modify top (fun n => { n with prev := none })
  let p_top_data := t.data.take top_x
  let b ← s.heap bot
  let p_bot_next := b.next
  let s ← s.modify bot (fun n => { n with next := none })
  let b ← s.heap bot
  if bot_x ≤ b.data.length then
    let p_bot_data := b.data.drop bot_x
    let s ← s.modify bot (fun n => { n with data := n.data.take bot_x })
    let t ← s.heap top
    if top_x ≤ t.data.length then
      let s ← s.modify top (fun n => { n with data := n.data.drop top_x })
      some (s, { filetop := p_filetop, top_prev := p_top_prev, top_data := p_top_data,
                 filebot := p_filebot, bot_next := p_bot_next, bot_data := p_bot_data })
    else none
  else none

/-- Unpartition the current buffer so that it stretches from (filetop, 0)
to (filebot, $) again.  The record is the one in `filepart`, which is reset
to null. -/
def unpartition_buffer (s : State) : Option State := do
  let p ← s.filepart
  let s ← s.modify s.filetop (fun n => { n with prev := p.top_prev })
  let ft ← s.heap s.filetop
  let s ← (match ft.prev with
    | none => some s
    | some q => s.modify q (fun n => { n with next := some s.filetop }))
  let s ← s.modify s.filetop (fun n => { n with data := p.top_data ++ n.data })
  let s ← s.modify s.filebot (fun n => { n with next := p.bot_next })
  let fb ← s.heap s.filebot
  let s ← (match fb.next with
    | none => some s
    | some q => s.modify q (fun n => { n with prev := some s.filebot }))
  let s ← s.modify s.filebot (fun n => { n with data := n.data ++ p.bot_data })
  let s := match p.filetop with
    | none => s
    | some q => { s with filetop := q }
  let s := match p.filebot with
    | none => s
    | some q => { s with filebot := q }
  some { s with filepart := none }

/-- Modelled from the spec: `get_totsize` (utils.c) is not among the sources.
The size of the text from line `begin` to line `end`: the sum of the byte
lengths of the lines plus one separator per line except the last. -/
def get_totsize_loop : Nat → State → Nat → Nat → Option Nat
  | 0, _, _, _ => none
  | fuel + 1, s, line, end_line =>
    match s.heap line with
    | none => none
    | some n =>
      if line = end_line then some n.data.length
      else
        match n.next with
        | none => none
        | some q =>
          match get_totsize_loop fuel s q end_line with
          | none => none
          | some k => some (n.data.length + 1 + k)

/-- Modelled from the spec: `get_totsize` (utils.c) is not among the sources;
see `get_totsize_loop`. -/
def get_totsize (s : State) (begin_line end_line : Nat) : Option Nat :=
  get_totsize_loop s.brk s begin_line end_line

/-- Modelled from the spec: `new_magicline` (utils.c) is not among the
sources.  Appends the mandatory trailing empty line after the last line of
the buffer and counts the separator that now ends the former last line. -/
def new_magicline (s : State) : Option State := do
  let (s, m) ← make_new_node s (some s.filebot)
  let s ← s.modify s.filebot (fun n => { n with next := some m })
  let s ← s.modify m (fun n => { n with data := [] })
  some { s with filebot := m, totsize := s.totsize + 1 }

/-- Modelled from the spec: `mark_order` (utils.c) is not among the sources.
Orders the cursor and the mark by line number, then by offset, and returns
(top, top_x, bot, bot_x, right_side_up), where `right_side_up` says that the
mark is the upper boundary.  Called only with the mark set. -/
def mark_order (s : State) : Option (Nat × Nat × Nat × Nat × Bool) := do
  let m ← s.mark
  let c ← s.heap s.current
  let mk ← s.heap m
  if (c.lineno = mk.lineno ∧ s.current_x > s.mark_x) ∨ c.lineno > mk.lineno then
    some (m, s.mark_x, s.current, s.current_x, true)
  else
    some (s.current, s.current_x, m, s.mark_x, false)

/-- Modelled from the spec: `adjust_viewport` (winio.c) belongs to the
rendering side, which is not among the sources.  It puts the viewport anchor
back in range of the cursor; here the anchor becomes the current line. -/
def adjust_viewport (s : State) : State :=
  { s with edittop := s.current }

/-- Lines 301-313 of `extract_buffer`: whether the top of the edit window and
the mark are inside the partition, and whether the mark is on its first
line.  Returns (edittop_inside, mark_inside, same_line). -/
def extract_buffer_inside (s : State) (top_x bot_x : Nat) : Option (Bool × Bool × Bool) :=
  match s.heap s.edittop, s.heap s.filetop, s.heap s.filebot with
  | some et, some ft, some fb =>
    let edittop_inside : Bool := decide (et.lineno ≥ ft.lineno ∧ et.lineno ≤ fb.lineno)
    match s.mark with
    | none => some (edittop_inside, false, false)
    | some m =>
      match s.heap m with
      | none => none
      | some mk =>
        some (edittop_inside,
              decide (mk.lineno ≥ ft.lineno ∧ mk.lineno ≤ fb.lineno ∧
                (m ≠ s.filetop ∨ s.mark_x ≥ top_x) ∧ (m ≠ s.filebot ∨ s.mark_x ≤ bot_x)),
              decide (m = s.filetop))
  | _, _, _ => none

/-- Lines 318-350 of `extract_buffer`: hand the partitioned text to the
destination `(file_top, file_bot)`. -/
def extract_buffer_move (s : State) (file_top file_bot : Option Nat) :
    Option (State × Option Nat × Option Nat) :=
  match file_top with
  | none =>
    match renumber s s.filetop with
    | none => none
    | some s1 => some (s1, some s1.filetop, some s1.filebot)
  | some ft => do
    let file_bot_save ← file_bot
    let t ← s.heap s.filetop
    let s ← s.modify file_bot_save (fun n => { n with data := n.data ++ t.data })
    let t ← s.heap s.filetop
    let s ← s.modify file_bot_save (fun n => { n with next := t.next })
    let b ← s.heap file_bot_save
    let (s, fb) ← (match b.next with
      | none => some (s, file_bot_save)
      | some q =>
        match s.modify q (fun n => { n with prev := some file_bot_save }) with
        | none => none
        | some s1 => some (s1, s1.filebot))
    let s ← delete_node s s.filetop
    let s ← renumber s file_bot_save
    some (s, some ft, some fb)

/-- Lines 352-369 of `extract_buffer`: replace the partitioned text by one
empty line and put the cursor (and the mark, if it was inside) there. -/
def extract_buffer_blank (s : State) (top_x : Nat) (mark_inside same_line : Bool) :
    Option State :=
  match make_new_node s none with
  | none => none
  | some (s1, n) =>
    match State.modify { s1 with filetop := n } n (fun l => { l with data := [] }) with
    | none => none
    | some s2 =>
      let s3 : State := { s2 with filebot := s2.filetop, current := s2.filetop, current_x := top_x }
      if mark_inside then some { s3 with mark := some s3.current, mark_x := s3.current_x }
      else if same_line then some { s3 with mark := some s3.current }
      else some s3

/-- Lines 384-389 of `extract_buffer` and, word for word, lines 481-486 of
`ingraft_buffer`: renumber, starting with the beginning line of the old
partition, and if the text doesn't end with a newline, and it should, add
one. -/
def renumber_and_magic (s : State) (top_save : Nat) : Option State :=
  match renumber s top_save with
  | none => none
  | some s1 =>
    match s1.heap s1.filebot with
    | none => none
    | some fb => if ¬ s1.NO_NEWLINES ∧ fb.data ≠ [] then new_magicline s1 else some s1

/-- Lines 371-389 of `extract_buffer`: unpartition, renumber from the line
that replaced the text, and add a magic line when one is due. -/
def extract_buffer_finish (s : State) (edittop_inside : Bool) : Option State :=
  let top_save := s.filetop
  match unpartition_buffer s with
  | none => none
  | some s1 => renumber_and_magic (if edittop_inside then adjust_viewport s1 else s1) top_save

/-- Move all the text between (top, top_x) and (bot, bot_x) in the
current buffer to a new buffer beginning with file_top and ending
with file_bot.  If no text is between (top, top_x) and (bot, bot_x),
don't do anything.  The two pointer variables are passed in and their new
values returned. -/
def extract_buffer (s : State) (file_top file_bot : Option Nat)
    (top top_x bot bot_x : Nat) : Option (State × Option Nat × Option Nat) :=
  if top = bot ∧ top_x = bot_x then some (s, file_top, file_bot)
  else
    match partition_buffer s top top_x bot bot_x with
    | none => none
    | some (s1, p) =>
      let s2 : State := { s1 with filepart := some p }
      match extract_buffer_inside s2 top_x bot_x with
      | none => none
      | some (edittop_inside, mark_inside, same_line) =>
        match get_totsize s2 top bot with
        | none => none
        | some size =>
          match extract_buffer_move { s2 with totsize := s2.totsize - size } file_top file_bot with
          | none => none
          | some (s3, ft, fb) =>
            match extract_buffer_blank s3 top_x mark_inside same_line with
            | none => none
            | some s4 =>
              match extract_buffer_finish s4 edittop_inside with
              | none => none
              | some s5 => some (s5, ft, fb)

/-- The loop at lines 428-429 of `ingraft_buffer`: move `filebot` down to the
last line of the list. -/
def ingraft_buffer_last : Nat → State → Option State
  | 0, _ => none
  | fuel + 1, s =>
    match s.heap s.filebot with
    | none => none
    | some n =>
      match n.next with
      | none => some s
      | some q => ingraft_buffer_last fuel { s with filebot := q }

/-- Lines 403-415 of `ingraft_buffer`: returns (right_side_up, single_line). -/
def ingraft_buffer_order (s : State) : Option (Bool × Bool) :=
  match s.mark with
  | none => some (false, false)
  | some _ =>
    match mark_order s with
    | none => none
    | some (top, _, bot, _, rsu) => some (rsu, decide (top = bot))

/-- Lines 431-458 of `ingraft_buffer`: put the cursor at the end of the pasted
text and compensate the mark.  The sum `mark_x += current_x - current_x_save`
is taken modulo 2^64, as `size_t` arithmetic does. -/
def ingraft_buffer_cursor (s : State) (current_x_save : Nat) (right_side_up single_line : Bool) :
    Option State :=
  match s.heap s.filebot with
  | none => none
  | some fb =>
    let s1 : State := { s with current := s.filebot, current_x := fb.data.length }
    if s1.filetop = s1.filebot then
      let s2 : State :=
        if s1.mark ≠ none ∧ single_line then
          if ¬ right_side_up then
            { s1 with mark := some s1.current, mark_x := (s1.mark_x + s1.current_x) % 2 ^ 64 }
          else { s1 with mark := some s1.current }
        else s1
      some { s2 with current_x := s2.current_x + current_x_save }
    else if s1.mark ≠ none ∧ single_line then
      if right_side_up then some { s1 with mark := some s1.filetop }
      else some { s1 with mark := some s1.current,
                          mark_x := (s1.mark_x + s1.current_x +
                            (2 ^ 64 - current_x_save % 2 ^ 64)) % 2 ^ 64 }
    else some s1

/-- Lines 464-486 of `ingraft_buffer`: add the size of the pasted text,
unpartition, renumber, and add a magic line when one is due. -/
def ingraft_buffer_finish (s : State) (edittop_inside : Bool) : Option State :=
  match get_totsize s s.filetop s.filebot with
  | none => none
  | some size =>
    let s1 : State := { s with totsize := s.totsize + size }
    let s2 : State := if edittop_inside then { s1 with edittop := s1.filetop } else s1
    let top_save := s2.filetop
    match unpartition_buffer s2 with
    | none => none
    | some s3 => renumber_and_magic s3 top_save

/-- Meld the given buffer into the current file buffer
at the current cursor position. -/
def ingraft_buffer (s : State) (somebuffer : Nat) : Option State :=
  let current_x_save := s.current_x
  match ingraft_buffer_order s with
  | none => none
  | some (right_side_up, single_line) =>
    match partition_buffer s s.current s.current_x s.current s.current_x with
    | none => none
    | some (s1, p) =>
      let s2 : State := { s1 with filepart := some p }
      let edittop_inside : Bool := decide (s2.edittop = s2.filetop)
      match free_lines s2 (some s2.filetop) with
      | none => none
      | some s3 =>
        match ingraft_buffer_last s3.brk { s3 with filetop := somebuffer, filebot := somebuffer } with
        | none => none
        | some s4 =>
          match ingraft_buffer_cursor s4 current_x_save right_side_up single_line with
          | none => none
          | some s5 => ingraft_buffer_finish s5 edittop_inside

/-- Meld a copy of the given buffer into the current file buffer. -/
def copy_from_buffer (s : State) (somebuffer : Nat) : Option State :=
  match copy_buffer s somebuffer with
  | none => none
  | some (s1, the_copy) => ingraft_buffer s1 the_copy

/-- Modelled from the spec: `set_modified` (files.c) is not among the sources.
Raises the buffer's modified flag. -/
def set_modified (s : State) : State :=
  { s with modified := true }

/-- Modelled from the spec: `add_undo` (text.c) is not among the sources.
Starts a new undo record for `action` at the cursor: the records that were
undone past are discarded, the new record notes the kind of action, the line
number and offset where it begins and the buffer size, and it becomes the
current record. -/
def add_undo (s : State) (action : undo_type) : Option State :=
  match s.heap s.current with
  | none => none
  | some c =>
    let u : undo :=
      { type := action, lineno := c.lineno, begin_x := s.current_x,
        mark_begin_lineno := c.lineno, mark_begin_x := s.current_x,
        wassize := s.totsize, newsize := s.totsize,
        cutbuffer := none, cutbottom := none, xflags := 0 }
    let older : List undo :=
      match s.current_undo with
      | none => []
      | some i => s.undotop.drop i
    some { s with undotop := u :: older, current_undo := some 0, last_action := action }

/-- Modelled from the spec: `update_undo` (text.c) is not among the sources.
Updates the current undo record as the edit grows: it notes where the edit
now ends and the resulting buffer size, and a ZAP record becomes the holder of
the lines that the cutbuffer designates at that moment (the private cutbuffer
"scoped to the undo record", which holds the zapped text).  The copy of the
removed text that the records of the other destructive actions keep is not
part of the model. -/
def update_undo (s : State) (action : undo_type) : Option State :=
  match s.current_undo with
  | none => none
  | some i =>
    match s.undotop[i]?, s.heap s.current with
    | some u, some c =>
      let u1 : undo := { u with mark_begin_lineno := c.lineno, mark_begin_x := s.current_x,
                                newsize := s.totsize }
      let u2 : undo :=
        if action = undo_type.ZAP then
          { u1 with cutbuffer := s.cutbuffer, cutbottom := s.cutbottom }
        else u1
      some { s with undotop := s.undotop.set i u2 }
    | _, _ => none

/-- Lines 102-114 of `do_deletion`: adjust the file size, remember it in the
current undo record, and mark the buffer as modified. -/
def do_deletion_finish (s : State) : Option State :=
  let s1 : State := { s with totsize := s.totsize - 1 }
  match s1.current_undo with
  | none => none
  | some i =>
    match s1.undotop[i]? with
    | none => none
    | some u =>
      let u1 : undo := { u with newsize := s1.totsize }
      some (set_modified { s1 with undotop := s1.undotop.set i u1 })

/-- Lines 42-50 of `do_deletion`: create a new undo item when the type of
action changed or the cursor moved to a different line, otherwise update the
existing item. -/
def do_deletion_undo (s : State) (action : undo_type) : Option State :=
  if action ≠ s.last_action then add_undo s action
  else
    match s.current_undo, s.heap s.current with
    | some i, some c =>
      match s.undotop[i]? with
      | none => none
      | some u => if c.lineno ≠ u.lineno then add_undo s action else update_undo s action
    | _, _ => none

/-- Lines 64-98 of `do_deletion`: at the end of a line that is not the last,
join this line with the next.  The result says whether the buffer changed. -/
def do_deletion_join (s : State) (action : undo_type) : Option (State × Bool) :=
  match s.heap s.current with
  | none => none
  | some c =>
    let joining := c.next
    if joining = some s.filebot ∧ s.current_x ≠ 0 ∧ ¬ s.NO_NEWLINES then
      if action = undo_type.BACK then
        match add_undo s undo_type.BACK with
        | none => none
        | some s1 => some (s1, false)
      else some (s, false)
    else
      match joining with
      | none => none
      | some j => do
        let s ← add_undo s action
        let jn ← s.heap j
        let s ← s.modify s.current (fun n => { n with data := n.data ++ jn.data })
        let s := if s.mark = some j then
            { s with mark := some s.current, mark_x := s.mark_x + s.current_x }
          else s
        let s ← unlink_node s j
        let s ← renumber s s.current
        some (s, true)

/-- Delete the character under the cursor.  Single-byte characters. -/
def do_deletion (s : State) (action : undo_type) : Option State :=
  match s.heap s.current with
  | none => none
  | some c =>
    if s.current_x < c.data.length then
      match do_deletion_undo s action with
      | none => none
      | some s1 =>
        match s1.modify s1.current
            (fun n => { n with data := n.data.take s1.current_x ++ n.data.drop (s1.current_x + 1) }) with
        | none => none
        | some s2 =>
          do_deletion_finish
            (if s2.mark = some s2.current ∧ s2.mark_x > s2.current_x then
              { s2 with mark_x := s2.mark_x - 1 } else s2)
    else if s.current_x = c.data.length then
      if s.current ≠ s.filebot then
        match do_deletion_join s action with
        | none => none
        | some (s1, true) => do_deletion_finish s1
        | some (s1, false) => some s1
      else some s
    else none

/-- Lines 1884-1890 of `do_output`: only add a new undo item when the current
item is not an ADD or when the current typing is not contiguous with the
previous typing. -/
def do_output_undo (s : State) : Option State :=
  match s.heap s.current with
  | none => none
  | some c =>
    let fresh_item : Bool :=
      match s.current_undo with
      | none => true
      | some i =>
        match s.undotop[i]? with
        | none => true
        | some u => decide (s.last_action ≠ undo_type.ADD ∨
            u.mark_begin_lineno ≠ c.lineno ∨ u.mark_begin_x ≠ s.current_x)
    if fresh_item then add_undo s undo_type.ADD else some s

/-- One round of the loop of `do_output` (lines 1866-1912), for the byte `b`
that is to be inserted. -/
def do_output_char (s : State) (current_len b : Nat) : Option State :=
  match s.heap s.current with
  | none => none
  | some c =>
    if s.current_x ≤ current_len ∧ current_len = c.data.length then
      match s.modify s.current
          (fun n => { n with data := n.data.take s.current_x ++ b :: n.data.drop s.current_x }) with
      | none => none
      | some s1 =>
        match do_output_undo (set_modified { s1 with totsize := s1.totsize + 1 }) with
        | none => none
        | some s2 =>
          let s3 : State := if some s2.current = s2.mark ∧ s2.current_x < s2.mark_x then
              { s2 with mark_x := s2.mark_x + 1 } else s2
          match update_undo { s3 with current_x := s3.current_x + 1 } undo_type.ADD with
          | none => none
          | some s4 =>
            if s4.filebot = s4.current ∧ ¬ s4.NO_NEWLINES then new_magicline s4 else some s4
    else none

/-- The loop of `do_output` over the bytes of `output`; `current_len` is the
local variable of that name.  `is_ascii_cntrl_char` (chars.c) is not among
the sources and is a parameter. -/
def do_output_loop (is_ascii_cntrl_char : Nat → Bool) (allow_cntrls : Bool) :
    List Nat → Nat → State → Option State
  | [], _, s => some s
  | b :: rest, current_len, s =>
    let b1 := if b = 0 then 10 else b
    if ¬ allow_cntrls ∧ is_ascii_cntrl_char b1 then
      do_output_loop is_ascii_cntrl_char allow_cntrls rest current_len s
    else
      match do_output_char s current_len b1 with
      | none => none
      | some s1 => do_output_loop is_ascii_cntrl_char allow_cntrls rest (current_len + 1) s1

/-- The user typed the bytes of `output`.  Add them to the edit buffer,
filtering out all ASCII control characters if allow_cntrls is false.
Single-byte characters, hard-wrapping off. -/
def do_output (is_ascii_cntrl_char : Nat → Bool) (s : State) (output : List Nat)
    (allow_cntrls : Bool) : Option State :=
  match s.heap s.current with
  | none => none
  | some c => do_output_loop is_ascii_cntrl_char allow_cntrls output c.data.length s

/-- Copy text from the cutbuffer into the current buffer. -/
def do_uncut_text (s : State) : Option State :=
  match s.cutbuffer with
  | none => some s
  | some cb =>
    match add_undo s undo_type.PASTE with
    | none => none
    | some s1 =>
      match copy_from_buffer s1 cb with
      | none => none
      | some s2 =>
        match update_undo s2 undo_type.PASTE with
        | none => none
        | some s3 => some (set_modified s3)

/-! ## Observations and well-formedness -/

/-- The nodes reached from `p` by following `next` up to the null pointer;
`none` when a dead cell is met or the fuel runs out. -/
def nodes_from : Nat → Heap → Option Nat → Option (List linestruct)
  | _, _, none => some []
  | 0, _, some _ => none
  | fuel + 1, h, some p =>
    match h p with
    | none => none
    | some n =>
      match nodes_from fuel h n.next with
      | none => none
      | some l => some (n :: l)

/-- The nodes reached from `p` by following `prev` up to the null pointer. -/
def nodes_back : Nat → Heap → Option Nat → Option (List linestruct)
  | _, _, none => some []
  | 0, _, some _ => none
  | fuel + 1, h, some p =>
    match h p with
    | none => none
    | some n =>
      match nodes_back fuel h n.prev with
      | none => none
      | some l => some (n :: l)

/-- The addresses reached from `p` by following `next` up to the null
pointer. -/
def addrs_from : Nat → Heap → Option Nat → Option (List Nat)
  | _, _, none => some []
  | 0, _, some _ => none
  | fuel + 1, h, some p =>
    match h p with
    | none => none
    | some n =>
      match addrs_from fuel h n.next with
      | none => none
      | some l => some (p :: l)

/-- The addresses reached from `p` by following `prev` up to the null
pointer. -/
def addrs_back : Nat → Heap → Option Nat → Option (List Nat)
  | _, _, none => some []
  | 0, _, some _ => none
  | fuel + 1, h, some p =>
    match h p with
    | none => none
    | some n =>
      match addrs_back fuel h n.prev with
      | none => none
      | some l => some (p :: l)

/-- The last line of the list that starts at `p` (null for the empty list). -/
def last_from (s : State) (p : Option Nat) : Option (Option Nat) :=
  (addrs_from s.brk s.heap p).map List.getLast?

/-- The (content, line number) pairs of the list that starts at `p`. -/
def lines_from (s : State) (p : Option Nat) : Option (List (List Nat × Int)) :=
  (nodes_from s.brk s.heap p).map (fun l => l.map (fun n => (n.data, n.lineno)))

/-- The (content, line number) pairs of the buffer, from its first line on. -/
def buffer_lines (s : State) : Option (List (List Nat × Int)) :=
  lines_from s (some s.filetop)

/-- The contents of the lines of the buffer, from its first line on. -/
def buffer_text (s : State) : Option (List (List Nat)) :=
  (nodes_from s.brk s.heap (some s.filetop)).map (fun l => l.map linestruct.data)

/-- The contents of the lines of the list that starts at `p`. -/
def text_from (s : State) (p : Option Nat) : Option (List (List Nat)) :=
  (nodes_from s.brk s.heap p).map (fun l => l.map linestruct.data)

/-- Apply `f` to the node at `p`, if there is one. -/
def Heap.upd (h : Heap) (p : Nat) (f : linestruct → linestruct) : Heap :=
  fun q => if q = p then (h p).map f else h q

/-- Set the `prev` link of the node at `p`. -/
def Heap.setPrev (h : Heap) (p : Nat) (v : Option Nat) : Heap :=
  h.upd p (fun n => { n with prev := v })

/-- Set the `next` link of the node at `p`. -/
def Heap.setNext (h : Heap) (p : Nat) (v : Option Nat) : Heap :=
  h.upd p (fun n => { n with next := v })

/-- Replace the text `d` of the node at `p` by `g d`. -/
def Heap.mapData (h : Heap) (p : Nat) (g : List Nat → List Nat) : Heap :=
  h.upd p (fun n => { n with data := g n.data })

/-- Set the line number of the node at `p`. -/
def Heap.setLineno (h : Heap) (p : Nat) (k : Int) : Heap :=
  h.upd p (fun n => { n with lineno := k })

/-- Set the `prev` link of the node that `p` points to, if `p` is not null. -/
def Heap.setPrevOpt (h : Heap) (p : Option Nat) (v : Option Nat) : Heap :=
  match p with
  | none => h
  | some q => h.setPrev q v

/-- Set the `next` link of the node that `p` points to, if `p` is not null. -/
def Heap.setNextOpt (h : Heap) (p : Option Nat) (v : Option Nat) : Heap :=
  match p with
  | none => h
  | some q => h.setNext q v

/-- Give the nodes `ps` the line numbers `k + 1`, `k + 2`, ... in order. -/
def Heap.renum (h : Heap) : List Nat → Int → Heap
  | [], _ => h
  | p :: rest, k => Heap.renum (h.setLineno p (k + 1)) rest (k + 1)

/-- The node at `p`; an empty unlinked node when nothing is there. -/
def getNode (h : Heap) (p : Nat) : linestruct :=
  match h p with
  | none => { data := [], lineno := 0, next := none, prev := none }
  | some n => n

/-- The text of the node at `p`, if there is one. -/
def dataAt (h : Heap) (p : Nat) : Option (List Nat) :=
  (h p).map linestruct.data

/-- The two links of the node at `p`. -/
def linksAt (h : Heap) (p : Nat) : Option (Option Nat × Option Nat) :=
  (h p).map (fun n => (n.prev, n.next))

/-- The text of the node at `p` (empty when nothing is there). -/
def dataOf (h : Heap) (p : Nat) : List Nat :=
  match h p with
  | none => []
  | some n => n.data

/-- The line number of the node at `p`, if there is one. -/
def linenoAt (h : Heap) (p : Nat) : Option Int :=
  (h p).map linestruct.lineno

/-- The `next` pointer of a node that is followed by the nodes `rest` in a
segment whose last node points to `nx`. -/
def nextOf (rest : List Nat) (nx : Option Nat) : Option Nat :=
  match rest with
  | [] => nx
  | q :: _ => some q

/-- The node before the position that follows `ps` in a segment entered from
`pv`. -/
def lastOf (pv : Option Nat) (ps : List Nat) : Option Nat :=
  match ps.getLast? with
  | none => pv
  | some q => some q

/-- The addresses `ps` form a doubly linked segment in `h`: every node is
allocated, its `prev` is the node before it (`pv` for the first) and its
`next` is the node after it (`nx` for the last). -/
def Seg (h : Heap) : Option Nat → List Nat → Option Nat → Prop
  | _, [], _ => True
  | pv, p :: rest, nx => linksAt h p = some (pv, nextOf rest nx) ∧ Seg h (some p) rest nx

/-- Whether a list of addresses is a segment can be computed. -/
def Seg.decide (h : Heap) : (ps : List Nat) → (pv nx : Option Nat) → Decidable (Seg h pv ps nx)
  | [], _, _ => isTrue trivial
  | p :: rest, pv, nx =>
    match Seg.decide h rest (some p) nx with
    | isTrue h2 =>
      if h1 : linksAt h p = some (pv, nextOf rest nx) then isTrue ⟨h1, h2⟩
      else isFalse (fun hs => h1 hs.1)
    | isFalse h2 => isFalse (fun hs => h2 hs.2)

instance (h : Heap) (pv : Option Nat) (ps : List Nat) (nx : Option Nat) :
    Decidable (Seg h pv ps nx) :=
  Seg.decide h ps pv nx

/-- The nodes `ps` carry the line numbers `k + 1`, `k + 2`, ... in order. -/
def Numbered (h : Heap) : Int → List Nat → Prop
  | _, [] => True
  | k, p :: rest => linenoAt h p = some (k + 1) ∧ Numbered h (k + 1) rest

/-- The addresses `ps` are the lines of a standalone list in `s`, from first
to last: distinct, doubly linked, with null pointers at both ends. -/
structure IsList (s : State) (ps : List Nat) : Prop where
  nodup : ps.Nodup
  seg : Seg s.heap none ps none

/-- The addresses `ps` are the lines of the buffer of `s`, from first to last:
a standalone list that starts at `filetop` and ends at `filebot`, in a heap
in which no cell at or above `brk` is allocated. -/
structure Buf (s : State) (ps : List Nat) : Prop where
  nodup : ps.Nodup
  seg : Seg s.heap none ps none
  top : ps.head? = some s.filetop
  bot : ps.getLast? = some s.filebot
  fresh : ∀ p, s.brk ≤ p → s.heap p = none

/-- The state `s` is partitioned: the buffer seen from `filetop` to `filebot`
is the list `S`, the lines `A` that were above the partition and the lines `B`
that were below it are still linked among themselves, and the record `p` in
`filepart` remembers how to attach them again. -/
structure Parted (s : State) (A S B : List Nat) (p : partition) : Prop where
  nodup : (A ++ S ++ B).Nodup
  segA : ∃ nx, Seg s.heap none A nx
  segS : ∃ pv nx, Seg s.heap pv S nx
  segB : ∃ pv, Seg s.heap pv B none
  top_prev : p.top_prev = lastOf none A
  bot_next : p.bot_next = nextOf B none
  ptop : p.filetop = A.head?
  pbot : p.filebot = B.getLast?
  ftop : S.head? = some s.filetop
  fbot : S.getLast? = some s.filebot
  part : s.filepart = some p
  fresh : ∀ x, s.brk ≤ x → s.heap x = none

/-- The line number of the last of the lines `A`, and 0 when there is none:
the number from which the lines that follow `A` are counted. -/
def lastNumber (h : Heap) (A : List Nat) : Int :=
  match A.getLast? with
  | none => 0
  | some q => (getNode h q).lineno

/-- The size that `totsize` must have for the lines `ps`: the sum of their
lengths plus one separator per line except the last. -/
def sizeOf (h : Heap) (ps : List Nat) : Nat :=
  (ps.map (fun p => (dataOf h p).length)).sum + (ps.length - 1)

/-- Apply `f` to the first line of a text. -/
def mapHead (f : List Nat → List Nat) : List (List Nat) → List (List Nat)
  | [] => []
  | d :: ds => f d :: ds

/-- Apply `f` to the last line of a text. -/
def mapLast (f : List Nat → List Nat) : List (List Nat) → List (List Nat)
  | [] => []
  | [d] => [f d]
  | d :: e :: ds => d :: mapLast f (e :: ds)

/-- The text between offset `top_x` of the first line and offset `bot_x` of
the last line of the lines `ds`: the last line is cut off at `bot_x`, then the
first `top_x` bytes of the first line are dropped. -/
def rangeText (ds : List (List Nat)) (top_x bot_x : Nat) : List (List Nat) :=
  mapHead (List.drop top_x) (mapLast (List.take bot_x) ds)

/-- The text `rs` appended to the text `ds`: the first line of `rs` continues
the last line of `ds`. -/
def appendText (ds rs : List (List Nat)) : List (List Nat) :=
  match rs with
  | [] => ds
  | r :: rs1 => if ds = [] then r :: rs1 else mapLast (fun d => d ++ r) ds ++ rs1

/-- The number of characters of a text: the bytes of its lines plus one
separator per line except the last. -/
def textSize (ds : List (List Nat)) : Nat :=
  (ds.map List.length).sum + (ds.length - 1)

/-- The heap after the loop of `copy_buffer` has copied the lines `ps` to the
addresses from `b` on, `copy` being the node that was copied last before. -/
def copyRest : Heap → Nat → Nat → List Nat → Heap
  | h, _, _, [] => h
  | h, b, copy, p :: rest =>
    copyRest (((h.set b (h p)).setNext copy (some b)).setPrev b (some copy)) (b + 1) b rest

/-- The heap after `copy_buffer` has copied the list `src :: rest` to the
addresses from `b` on. -/
def copyHeap (h : Heap) (b : Nat) (src : Nat) (rest : List Nat) : Heap :=
  (copyRest ((h.set b (h src)).setPrev b none) (b + 1) b rest).setNext (b + rest.length) none

/-- The text `src` inserted at offset `x` of the line `c`: the first line of
`src` continues `c[0..x)` and the last line of `src` is continued by `c[x..]`. -/
def insertText (c : List Nat) (x : Nat) (src : List (List Nat)) : List (List Nat) :=
  mapHead (fun d => c.take x ++ d) (mapLast (fun d => d ++ c.drop x) src)

/-- The text `T` of a buffer after the text `src` has been pasted at offset `x`
of its line `i`; `nn` is the NO_NEWLINES flag: when it is unset and the last
line is not empty afterwards, an empty line is appended. -/
def pasteText (T : List (List Nat)) (i x : Nat) (src : List (List Nat)) (nn : Bool) :
    List (List Nat) :=
  (T.take i ++ insertText (T.getD i []) x src ++ T.drop (i + 1)) ++
    (if nn = false ∧
        (T.take i ++ insertText (T.getD i []) x src ++ T.drop (i + 1)).getLast? ≠ some []
      then [[]] else [])

/-- The size invariant: `totsize` is the sum of the lengths of the lines of
the buffer plus one separator per line except the last. -/
def size_invariant (s : State) : Prop :=
  (buffer_text s).map textSize = some s.totsize

/-- The line numbers of the list that starts at `p` are 1, 2, ..., n in
next-order. -/
def numbered_from_one (s : State) (p : Option Nat) : Prop :=
  ∃ L, addrs_from s.brk s.heap p = some L ∧
    L.map (linenoAt s.heap) = (List.range L.length).map (fun (i : Nat) => some ((i : Int) + 1))

/-- The numbering invariant of the buffer: its lines are numbered 1, 2, ..., n
in next-order from `filetop`, and following `prev` from `filebot` visits the
same lines in the exact reverse order. -/
def numbering_invariant (s : State) : Prop :=
  ∃ L, addrs_from s.brk s.heap (some s.filetop) = some L ∧
    addrs_back s.brk s.heap (some s.filebot) = some L.reverse ∧
    L.map (linenoAt s.heap) = (List.range L.length).map (fun (i : Nat) => some ((i : Int) + 1))

/-- A buffer that can be edited at the cursor: its lines are `L`, the cursor is
on one of them and inside it, and when the last action was a deletion there is
a current undo record (which `do_deletion` then reads). -/
structure Editable (s : State) (L : List Nat) : Prop where
  buf : Buf s L
  cur : s.current ∈ L
  x_le : s.current_x ≤ (dataOf s.heap s.current).length
  undo : (s.last_action = undo_type.DEL ∨ s.last_action = undo_type.BACK) →
    ∃ i u, s.current_undo = some i ∧ s.undotop[i]? = some u

/-- An edit at the cursor: typing some bytes, or deleting the character under
the cursor as the Delete key (`DEL`) or the Backspace key (`BACK`) does. -/
inductive edit where
  | output (bytes : List Nat) (allow_cntrls : Bool)
  | deletion (back : Bool)

/-- Perform one edit. -/
def do_edit (is_ascii_cntrl_char : Nat → Bool) (s : State) : edit → Option State
  | edit.output bytes allow_cntrls => do_output is_ascii_cntrl_char s bytes allow_cntrls
  | edit.deletion back => do_deletion s (if back then undo_type.BACK else undo_type.DEL)

/-- Perform a sequence of edits, one after the other. -/
def do_edits (is_ascii_cntrl_char : Nat → Bool) : List edit → State → Option State
  | [], s => some s
  | e :: es, s =>
    match do_edit is_ascii_cntrl_char s e with
    | none => none
    | some s1 => do_edits is_ascii_cntrl_char es s1

/-- What `extract_buffer` is called with: the buffer is `A ++ R ++ B`, the
range runs from offset `top_x` of `top`, the first line of `R`, to offset
`bot_x` of `bot`, the last line of `R`, and is not empty; the edit window's
top line and the mark are allocated; the destination is the standalone list
`D`, apart from the buffer, with `file_top` at its head and, when it is not
empty, `file_bot` at its last line. -/
structure ExtractPre (s : State) (A R B D : List Nat) (file_top file_bot : Option Nat)
    (top top_x bot bot_x : Nat) : Prop where
  buf : Buf s (A ++ R ++ B)
  head : R.head? = some top
  last : R.getLast? = some bot
  top_le : top_x ≤ (dataOf s.heap top).length
  bot_le : bot_x ≤ (dataOf s.heap bot).length
  nonempty : top = bot → top_x < bot_x
  edittop : (s.heap s.edittop).isSome
  mark : ∀ m, s.mark = some m → (s.heap m).isSome
  dest : Seg s.heap none D none
  dest_nodup : D.Nodup
  dest_disj : ∀ x, x ∈ D → x ∉ A ++ R ++ B
  dest_top : file_top = D.head?
  dest_bot : D ≠ [] → file_bot = D.getLast?

/-- What `extract_buffer` leaves: the buffer is `A ++ [N] ++ B ++ M`, where
`N = brk` is the line that replaced the range and `M` is the magic line if one
was added; the destination is the list `E`. -/
structure ExtractPost (s t : State) (A R B D : List Nat) (top_x bot_x : Nat)
    (M E : List Nat) (ft fb : Option Nat) : Prop where
  buf : Buf t (A ++ [s.brk] ++ B ++ M)
  magic : M = [] ∨ M = [s.brk + 1]
  magic_iff : M ≠ [] ↔ (s.NO_NEWLINES = false ∧
    ∃ q, (A ++ [s.brk] ++ B).getLast? = some q ∧ dataOf t.heap q ≠ [])
  data_old : ∀ y, y ∈ A ++ B → dataOf t.heap y = dataOf s.heap y
  data_new : ∀ top bot, R.head? = some top → R.getLast? = some bot →
    dataOf t.heap s.brk = (dataOf s.heap top).take top_x ++ (dataOf s.heap bot).drop bot_x
  data_magic : ∀ y, y ∈ M → dataOf t.heap y = []
  num_old : ∀ y, y ∈ A → linenoAt t.heap y = linenoAt s.heap y
  num_new : Numbered t.heap (lastNumber s.heap A) ([s.brk] ++ B ++ M)
  dest_seg : Seg t.heap none E none
  dest_nodup : E.Nodup
  dest_disj : ∀ x, x ∈ E → x ∉ A ++ [s.brk] ++ B ++ M
  dest_shape : E = if D = [] then R else D ++ R.tail
  dest_top : ft = E.head?
  dest_bot : fb = E.getLast?
  dest_text : E.map (dataOf t.heap) =
    appendText (D.map (dataOf s.heap)) (rangeText (R.map (dataOf s.heap)) top_x bot_x)
  dest_num_old : ∀ y, y ∈ D.dropLast → linenoAt t.heap y = linenoAt s.heap y
  dest_num_new : Numbered t.heap (lastNumber s.heap D.dropLast) (E.drop (D.length - 1))
  totsize : t.totsize =
    s.totsize - textSize (rangeText (R.map (dataOf s.heap)) top_x bot_x) + M.length
  mark : t.mark = s.mark ∨ (s.mark ≠ none ∧ t.mark = some s.brk)
  edittop : t.edittop = s.edittop ∨ t.edittop = s.brk
  edittop_in : ∀ k, s.edittop ∈ R → Numbered s.heap k (A ++ R ++ B) → t.edittop = s.brk
  mark_rule : ∀ m top bot, s.mark = some m → R.head? = some top → R.getLast? = some bot →
    ∃ km kt kb : Int, linenoAt s.heap m = some km ∧ linenoAt s.heap top = some kt ∧
      linenoAt s.heap bot = some kb ∧
      t.mark =
        (if (kt ≤ km ∧ km ≤ kb ∧ (m ≠ top ∨ top_x ≤ s.mark_x) ∧ (m ≠ bot ∨ s.mark_x ≤ bot_x)) ∨
            m = top then some s.brk else some m) ∧
      t.mark_x =
        (if kt ≤ km ∧ km ≤ kb ∧ (m ≠ top ∨ top_x ≤ s.mark_x) ∧ (m ≠ bot ∨ s.mark_x ≤ bot_x)
          then top_x else s.mark_x)
  frame : ∀ y, y ∉ A ++ R ++ B ++ D ++ [s.brk] ++ M → t.heap y = s.heap y
  rest : t = { s with heap := t.heap, brk := s.brk + 1 + M.length, filetop := t.filetop,
                      filebot := t.filebot, edittop := t.edittop, current := s.brk,
                      current_x := top_x, mark := t.mark, mark_x := t.mark_x,
                      totsize := t.totsize, filepart := none }

/-- What `ingraft_buffer` is called with: the buffer is `A ++ [current] ++ B`
with the cursor inside its line, the mark is allocated, and `somebuffer` is
the head of the standalone list `Src`, which is apart from the buffer. -/
structure IngraftPre (s : State) (A B Src : List Nat) (somebuffer : Nat) : Prop where
  buf : Buf s (A ++ [s.current] ++ B)
  x_le : s.current_x ≤ (dataOf s.heap s.current).length
  mark : ∀ m, s.mark = some m → (s.heap m).isSome
  src : Seg s.heap none Src none
  src_nodup : Src.Nodup
  src_disj : ∀ y, y ∈ Src → y ∉ A ++ [s.current] ++ B
  src_head : Src.head? = some somebuffer

/-- What `ingraft_buffer` leaves: the buffer is `A ++ Src ++ B ++ M`, where
`M` is the magic line if one was added; the text before the cursor now starts
the first line of `Src` and the text after it ends the last line of `Src`. -/
structure IngraftPost (s t : State) (A B Src M : List Nat) : Prop where
  buf : Buf t (A ++ Src ++ B ++ M)
  magic : M = [] ∨ M = [s.brk]
  magic_iff : M ≠ [] ↔ (s.NO_NEWLINES = false ∧
    ∃ q, (A ++ Src ++ B).getLast? = some q ∧ dataOf t.heap q ≠ [])
  data_old : ∀ y, y ∈ A ++ B → dataOf t.heap y = dataOf s.heap y
  data_src : Src.map (dataOf t.heap) =
    mapHead (fun d => (dataOf s.heap s.current).take s.current_x ++ d)
      (mapLast (fun d => d ++ (dataOf s.heap s.current).drop s.current_x)
        (Src.map (dataOf s.heap)))
  data_magic : ∀ y, y ∈ M → dataOf t.heap y = []
  num_old : ∀ y, y ∈ A → linenoAt t.heap y = linenoAt s.heap y
  num_new : Numbered t.heap (lastNumber s.heap A) (Src ++ B ++ M)
  totsize : t.totsize = s.totsize + textSize (Src.map (dataOf s.heap)) + M.length
  cursor : Src.getLast? = some t.current
  cursor_x : t.current_x =
    (if Src.length = 1 then s.current_x else 0) + (dataOf s.heap t.current).length
  mark : ∀ m, t.mark = some m → (t.heap m).isSome
  mark_rule : (s.mark = none → t.mark = none) ∧ ∀ m, s.mark = some m →
    (m ≠ s.current → t.mark = some m ∧ t.mark_x = s.mark_x) ∧
    (m = s.current → s.mark_x < s.current_x → t.mark = Src.head? ∧ t.mark_x = s.mark_x) ∧
    (m = s.current → s.current_x ≤ s.mark_x → t.mark = Src.getLast? ∧
      t.mark_x =
        if Src.length = 1 then (s.mark_x + (dataOf s.heap t.current).length) % 2 ^ 64
        else (s.mark_x + (dataOf s.heap t.current).length +
          (2 ^ 64 - s.current_x % 2 ^ 64)) % 2 ^ 64)
  frame : ∀ y, y ∉ A ++ [s.current] ++ B ++ Src ++ M → t.heap y = s.heap y
  rest : t = { s with heap := t.heap, brk := s.brk + M.length, filetop := t.filetop,
                      filebot := t.filebot, edittop := t.edittop, current := t.current,
                      current_x := t.current_x, mark := t.mark, mark_x := t.mark_x,
                      totsize := t.totsize, filepart := none }

/-- A heap given by the list of its cells, cell `i` at address `i`. -/
def heapOf (cells : List (Option linestruct)) : Heap :=
  fun p => (cells.get? p).join

/-- The cells of the lines `ds`, laid out at consecutive addresses from `a`,
linked in both directions and numbered from `k + 1`; `pv` is the address
before the first. -/
def cellsOf : Nat → Int → Option Nat → List (List Nat) → List (Option linestruct)
  | _, _, _, [] => []
  | _, k, pv, [d] => [some { data := d, lineno := k + 1, prev := pv, next := none }]
  | a, k, pv, d :: d1 :: r =>
    some { data := d, lineno := k + 1, prev := pv, next := some (a + 1) } ::
      cellsOf (a + 1) (k + 1) (some a) (d1 :: r)

/-- A state whose buffer holds the lines `buf` (at addresses 0, 1, ...) and
whose heap holds after them the lines `cut` of a second list; the cursor is at
line `cur` and offset `x`, everything else is at rest. -/
def stateOf (buf cut : List (List Nat)) (cur x : Nat) : State :=
  { heap := heapOf (cellsOf 0 0 none buf ++ cellsOf buf.length 0 none cut),
    brk := buf.length + cut.length,
    filetop := 0, filebot := buf.length - 1, edittop := 0,
    current := cur, current_x := x, mark := none, mark_x := 0,
    totsize := (buf.map List.length).sum + (buf.length - 1),
    modified := false, last_action := undo_type.OTHER, undotop := [], current_undo := none,
    cutbuffer := if cut = [] then none else some buf.length,
    cutbottom := if cut = [] then none else some (buf.length + cut.length - 1),
    keep_cutbuffer := false, filepart := none, NO_NEWLINES := false, CUT_FROM_CURSOR := false }

/-- A concrete state: the buffer holds the four lines `[1,2,3]`, `[4,5]`, `[6]`
and the empty magic line at the addresses 0 to 3, the cutbuffer holds the two
lines `[7,8]` and `[9]` at the addresses 4 and 5, and the cursor is at offset 1
of the second line. -/
def demoPaste : State := stateOf [[1, 2, 3], [4, 5], [6], []] [[7, 8], [9]] 1 1

/-- The ASCII control characters, the bytes below 32 and the byte 127: a
concrete value for the parameter `is_ascii_cntrl_char` of `do_output`. -/
def ascii_cntrl (b : Nat) : Bool :=
  decide (b < 32 ∨ b = 127)

/-! ## The cut engine (cut.c)

`config.h` leaves `NANO_TINY` undefined, so the code under `#ifndef NANO_TINY`
is part of the program. -/

/-- The call `extract_buffer(&cutbuffer, &cutbottom, top, top_x, bot, bot_x)`
that every cutting function makes: the two globals are passed by reference,
and what `extract_buffer` leaves in them is stored back. -/
def extract_to_cutbuffer (s : State) (top top_x bot bot_x : Nat) : Option State :=
  match extract_buffer s s.cutbuffer s.cutbottom top top_x bot bot_x with
  | none => none
  | some (s1, ft, fb) => some { s1 with cutbuffer := ft, cutbottom := fb }

/-- Move the whole current line from the current buffer to the cutbuffer.
When not on the last line of the buffer, move the text from the head of this
line to the head of the next line into the cutbuffer; otherwise, move all of
the text of this line into the cutbuffer. -/
def cut_line (s : State) : Option State :=
  match s.heap s.current with
  | none => none
  | some c =>
    if s.current ≠ s.filebot then
      match c.next with
      | none => none
      | some nx => extract_to_cutbuffer s s.current 0 nx 0
    else extract_to_cutbuffer s s.current 0 s.current c.data.length

/-- Move all marked text from the current buffer into the cutbuffer.  The
second component is `right_side_up`. -/
def cut_marked (s : State) : Option (State × Bool) :=
  match mark_order s with
  | none => none
  | some (top, top_x, bot, bot_x, right_side_up) =>
    match extract_to_cutbuffer s top top_x bot bot_x with
    | none => none
    | some s1 => some (s1, right_side_up)

/-- Move all text from the cursor position until the end of this line into
the cutbuffer.  But when already at the end of a line, then move this
"newline" to the cutbuffer. -/
def cut_to_eol (s : State) : Option State :=
  match s.heap s.current with
  | none => none
  | some c =>
    if s.current_x < c.data.length then
      extract_to_cutbuffer s s.current s.current_x s.current c.data.length
    else if s.current ≠ s.filebot then
      match c.next with
      | none => none
      | some nx => extract_to_cutbuffer s s.current s.current_x nx 0
    else some s

/-- Move all text from the cursor position to end-of-file into the cutbuffer. -/
def cut_to_eof (s : State) : Option State :=
  match s.heap s.filebot with
  | none => none
  | some fb => extract_to_cutbuffer s s.current s.current_x s.filebot fb.data.length

/-- Lines 288-294 of `do_cut_text`: if cuts were not continuous, or when
cutting a region, clear the slate; after a line cut, future line cuts should
add to the cutbuffer. -/
def do_cut_text_clear (s : State) (marked cut_till_eof append : Bool) : Option State :=
  if append = false ∧ (s.keep_cutbuffer = false ∨ marked = true ∨ cut_till_eof = true) then
    match free_lines s s.cutbuffer with
    | none => none
    | some s1 => some { s1 with cutbuffer := none, keep_cutbuffer := !marked && !cut_till_eof }
  else some s

/-- Lines 297-305 of `do_cut_text`, taken when copying: if the cutbuffer isn't
empty, remember where it currently ends, and don't add a magic line when
moving text to the cutbuffer.  Returns the state with `cb_save` and
`cb_save_len`. -/
def do_cut_text_save (s : State) : Option (State × Option Nat × Nat) :=
  match s.cutbuffer with
  | none => some ({ s with NO_NEWLINES := true }, none, 0)
  | some _ =>
    match s.cutbottom with
    | none => none
    | some cb =>
      match s.heap cb with
      | none => none
      | some n => some ({ s with NO_NEWLINES := true }, some cb, n.data.length)

/-- Lines 307-320 of `do_cut_text`: the choice of the cutting function.  The
second component is `right_side_up`. -/
def do_cut_text_move (s : State) (cut_till_eof : Bool) : Option (State × Bool) :=
  if cut_till_eof = true then
    match cut_to_eof s with
    | none => none
    | some s1 => some (s1, true)
  else if s.mark ≠ none then
    match cut_marked s with
    | none => none
    | some (s1, right_side_up) => some ({ s1 with mark := none }, right_side_up)
  else if s.CUT_FROM_CURSOR = true then
    match cut_to_eol s with
    | none => none
    | some s1 => some (s1, true)
  else
    match cut_line s with
    | none => none
    | some s1 => some (s1, true)

/-- Lines 328-332 of `do_cut_text`: `cb_save->data += cb_save_len`, then
`copy_from_buffer(cb_save)`, then `cb_save->data -= cb_save_len`.  While the
pointer is advanced the line shows only the bytes after the first
`cb_save_len`; moving it back brings those first bytes into view again. -/
def do_cut_text_copy_saved (s : State) (cb_save cb_save_len : Nat) : Option State :=
  match s.heap cb_save with
  | none => none
  | some n =>
    if cb_save_len ≤ n.data.length then
      match s.modify cb_save (fun l => { l with data := l.data.drop cb_save_len }) with
      | none => none
      | some s1 =>
        match copy_from_buffer s1 cb_save with
        | none => none
        | some s2 =>
          s2.modify cb_save (fun l => { l with data := n.data.take cb_save_len ++ l.data })
    else none

/-- Lines 322-343 of `do_cut_text`, taken when copying: copy the text that is
in the cutbuffer (starting at its saved end, if there is one) back into the
current buffer, and restore the magic-line behavior. -/
def do_cut_text_copy (s : State) (cb_save : Option Nat) (cb_save_len : Nat)
    (using_magicline : Bool) : Option State :=
  match (match s.cutbuffer with
      | none => some s
      | some cb =>
        match cb_save with
        | some q => do_cut_text_copy_saved s q cb_save_len
        | none => copy_from_buffer s cb) with
  | none => none
  | some s1 => some (if using_magicline = true then { s1 with NO_NEWLINES := false } else s1)

/-- Move text from the current buffer into the cutbuffer.  If copy_text is
TRUE, copy the text back into the buffer afterward.  If cut_till_eof is TRUE,
move all text from the current cursor position to the end of the file into
the cutbuffer.  If append is TRUE (when zapping), always append the cut to the
cutbuffer. -/
def do_cut_text (s : State) (copy_text marked cut_till_eof append : Bool) : Option State :=
  let using_magicline : Bool := !s.NO_NEWLINES
  match do_cut_text_clear s marked cut_till_eof append with
  | none => none
  | some s1 =>
    if copy_text = true then
      match do_cut_text_save s1 with
      | none => none
      | some (s2, cb_save, cb_save_len) =>
        match do_cut_text_move s2 cut_till_eof with
        | none => none
        | some (s3, _) => do_cut_text_copy s3 cb_save cb_save_len using_magicline
    else
      match do_cut_text_move s1 cut_till_eof with
      | none => none
      | some (s3, _) => some (set_modified s3)

/-- The test `data[x] == 0` on a C string: true at the terminator, false
before it; reading past the terminator is undefined. -/
def at_terminator (data : List Nat) (x : Nat) : Option Bool :=
  if x < data.length then some false else if x = data.length then some true else none

/-- The third alternative of the test in `is_cuttable`, evaluated only when
the first two are false: with test_cliff, the cursor is at the end of the
last line that has text, so that the magic line would be cut. -/
def is_cuttable_cliff (s : State) (c : linestruct) (test_cliff : Bool) : Option Bool :=
  if test_cliff = true then
    match at_terminator c.data s.current_x with
    | none => none
    | some false => some false
    | some true =>
      if s.NO_NEWLINES = true then some (decide (s.current = s.filebot))
      else
        match s.heap s.filebot with
        | none => none
        | some fb => some (decide (some s.current = fb.prev))
  else some false

/-- Return FALSE when a cut command would not actually cut anything: when on
an empty line at EOF, or when the mark covers zero characters, or (when
test_cliff is TRUE) when the magic line would be cut.  In that case the mark
is turned off.  The message on the status bar is not part of the state. -/
def is_cuttable (s : State) (test_cliff : Bool) : Option (State × Bool) :=
  match s.heap s.current with
  | none => none
  | some c =>
    if (c.next = none ∧ c.data = [] ∧ s.mark = none) ∨
        (s.mark = some s.current ∧ s.mark_x = s.current_x) then
      some ({ s with mark := none }, false)
    else
      match is_cuttable_cliff s c test_cliff with
      | none => none
      | some true => some ({ s with mark := none }, false)
      | some false => some (s, true)

/-- Lines 381-386 of `do_cut_text_void`: only add a new undo item when the
current item is not a CUT or when the current cut is not contiguous with the
previous cutting. -/
def do_cut_text_void_undo (s : State) : Option State :=
  if s.last_action ≠ undo_type.CUT then add_undo s undo_type.CUT
  else
    match s.current_undo with
    | none => add_undo s undo_type.CUT
    | some i =>
      match s.undotop[i]?, s.heap s.current with
      | some u, some c =>
        if u.mark_begin_lineno ≠ c.lineno ∨ s.keep_cutbuffer = false then
          add_undo s undo_type.CUT
        else some s
      | _, _ => none

/-- Move text from the current buffer into the cutbuffer. -/
def do_cut_text_void (s : State) : Option State :=
  match is_cuttable s (s.CUT_FROM_CURSOR && s.mark.isNone) with
  | none => none
  | some (s1, false) => some s1
  | some (s1, true) =>
    match do_cut_text_void_undo s1 with
    | none => none
    | some s2 =>
      match do_cut_text s2 false s2.mark.isSome false false with
      | none => none
      | some s3 => update_undo s3 undo_type.CUT

/-- The test with which `do_cut_till_eof` refuses: the cursor is on the empty
last line, or (with a magic line) at the end of the line before it. -/
def do_cut_till_eof_refuses (s : State) : Option Bool :=
  match s.heap s.current with
  | none => none
  | some c =>
    if s.current = s.filebot ∧ c.data = [] then some true
    else if s.NO_NEWLINES = false ∧ c.next = some s.filebot then at_terminator c.data s.current_x
    else some false

/-- Cut from the current cursor position to the end of the file. -/
def do_cut_till_eof (s : State) : Option State :=
  match do_cut_till_eof_refuses s with
  | none => none
  | some true => some s
  | some false =>
    match add_undo s undo_type.CUT_TO_EOF with
    | none => none
    | some s1 =>
      match do_cut_text s1 false false true false with
      | none => none
      | some s2 => update_undo s2 undo_type.CUT_TO_EOF

/-- Lines 455-459 of `zap_text`: add a new undo item only when the current
item is not a ZAP or when the current zap is not contiguous with the previous
zapping.  `mark_flags` is `MARK_WAS_SET|WAS_MARKED_FORWARD`; the two bits are
named in nano.h, which is not among the sources, so the mask is a parameter. -/
def zap_text_undo (mark_flags : Nat) (s : State) : Option State :=
  if s.last_action ≠ undo_type.ZAP then add_undo s undo_type.ZAP
  else
    match s.current_undo with
    | none => add_undo s undo_type.ZAP
    | some i =>
      match s.undotop[i]?, s.heap s.current with
      | some u, some c =>
        if u.mark_begin_lineno ≠ c.lineno ∨ Nat.land u.xflags mark_flags ≠ 0 then
          add_undo s undo_type.ZAP
        else some s
      | _, _ => none

/-- Lines 461-470 of `zap_text`: use the cutbuffer from the ZAP undo item, so
the cut can be undone, cut, and put the cutbuffer that was there back. -/
def zap_text_cut (s : State) (was_cutbuffer was_cutbottom : Option Nat) : Option State :=
  match s.current_undo with
  | none => none
  | some i =>
    match s.undotop[i]? with
    | none => none
    | some u =>
      match do_cut_text { s with cutbuffer := u.cutbuffer, cutbottom := u.cutbottom }
          false s.mark.isSome false true with
      | none => none
      | some s1 =>
        match update_undo s1 undo_type.ZAP with
        | none => none
        | some s2 => some { s2 with cutbuffer := was_cutbuffer, cutbottom := was_cutbottom }

/-- Erase text (current line or marked region), sending it into oblivion. -/
def zap_text (mark_flags : Nat) (s : State) : Option State :=
  match is_cuttable s (s.CUT_FROM_CURSOR && s.mark.isNone) with
  | none => none
  | some (s1, false) => some s1
  | some (s1, true) =>
    match zap_text_undo mark_flags s1 with
    | none => none
    | some s2 => zap_text_cut s2 s.cutbuffer s.cutbottom

/-! ## Reading a keystroke (`do_input` of nano.c)

`config.h` defines neither `ENABLE_MOUSE` nor `ENABLE_NANORC`, so the two
blocks of `do_input` under them (mouse clicks, and keys bound to a string,
which are handed to `implant`) are not part of the program; the same holds for
the two paragraph functions in `wanted_to_move`, which are under
`ENABLE_JUSTIFY`. -/

/-- The functions that a shortcut can be bound to: the ones that `do_input`
and `wanted_to_move` compare the function pointer with, the ones of cut.c
that are embedded here, and all the others, told apart by a number. -/
inductive funcptr where
  | do_cut_text_void | do_copy_text | do_toggle_void | do_cut_till_eof | do_uncut_text
  | do_delete | do_backspace | complete_a_word
  | do_left | do_right | do_up | do_down | do_home | do_end
  | do_prev_word_void | do_next_word_void | do_prev_block | do_next_block
  | do_page_up | do_page_down | to_first_line | to_last_line
  | other (k : Nat)
deriving DecidableEq

/-- The flags that `do_toggle` and `do_input` name, and all the others. -/
inductive flag_id where
  | CUT_FROM_CURSOR | NO_NEWLINES | VIEW_MODE | RESTRICTED | SUSPEND
  | other (k : Nat)
deriving DecidableEq

/-- A key binding (`keystruct`): the function it runs and, for a toggle, the
flag it toggles. -/
structure keystruct where
  func : funcptr
  toggle : flag_id
deriving DecidableEq

/-- What one call of `do_input` gets from the keyboard side (winio.c and
global.c, which are not among the sources): whether the key read by
`get_kbinput` is `KEY_WINCH`; the byte it stands for; the binding that
`get_shortcut` finds for it, if any; whether an unbound key is thrown out
(`is_ascii_cntrl_char(input) || meta_key || !is_byte(input)`); what
`get_key_buffer_len` returns; `shift_held`; and what `okay_for_view` answers
for the binding. -/
structure keystroke where
  winch : Bool
  input : Nat
  shortcut : Option keystruct
  thrown_out : Bool
  key_buffer_len : Nat
  shift_held : Bool
  okay_for_view : Bool

/-- The state that `do_input` works on: the buffer state, the static input
buffer `puddle` (`none` for the null pointer; `depth` is its length), whether
the mark is a soft mark (`openfile->kind_of_mark == SOFTMARK`), and the two
flags `VIEW_MODE` and `RESTRICTED`. -/
structure Session where
  st : State
  puddle : Option (List Nat)
  soft_mark : Bool
  VIEW_MODE : Bool
  RESTRICTED : Bool

/-- Return TRUE when the given function is a cursor-moving command. -/
def wanted_to_move (func : funcptr) : Bool :=
  func = funcptr.do_left || func = funcptr.do_right ||
  func = funcptr.do_up || func = funcptr.do_down ||
  func = funcptr.do_home || func = funcptr.do_end ||
  func = funcptr.do_prev_word_void || func = funcptr.do_next_word_void ||
  func = funcptr.do_prev_block || func = funcptr.do_next_block ||
  func = funcptr.do_page_up || func = funcptr.do_page_down ||
  func = funcptr.to_first_line || func = funcptr.to_last_line

/-- Toggle the given flag.  Of the flags, the model keeps `CUT_FROM_CURSOR`,
`NO_NEWLINES`, `VIEW_MODE` and `RESTRICTED`; toggling another flag, and what
`do_toggle` does besides for some of them (windows, signals, the status bar),
changes nothing that the model keeps. -/
def do_toggle (e : Session) (flag : flag_id) : Session :=
  if flag = flag_id.SUSPEND ∧ e.RESTRICTED = true then e
  else
    match flag with
    | flag_id.CUT_FROM_CURSOR =>
      { e with st := { e.st with CUT_FROM_CURSOR := !e.st.CUT_FROM_CURSOR } }
    | flag_id.NO_NEWLINES => { e with st := { e.st with NO_NEWLINES := !e.st.NO_NEWLINES } }
    | flag_id.VIEW_MODE => { e with VIEW_MODE := !e.VIEW_MODE }
    | flag_id.RESTRICTED => { e with RESTRICTED := !e.RESTRICTED }
    | _ => e

/-- The call `shortcut->func()`: the functions of cut.c that are embedded
here are run; for every other function the table `others` says what it does. -/
def call_func (others : funcptr → Session → Option Session) (func : funcptr) (e : Session) :
    Option Session :=
  match func with
  | funcptr.do_cut_text_void =>
    match do_cut_text_void e.st with
    | none => none
    | some s => some { e with st := s }
  | funcptr.do_cut_till_eof =>
    match do_cut_till_eof e.st with
    | none => none
    | some s => some { e with st := s }
  | funcptr.do_uncut_text =>
    match do_uncut_text e.st with
    | none => none
    | some s => some { e with st := s }
  | f => others f e

/-- Lines 1708-1732 of `do_input`: if the keystroke isn't a shortcut nor a
toggle, it's a normal text character: add the character to the input buffer
(not in view mode), and discard a soft mark. -/
def do_input_character (k : keystroke) (e : Session) : Session :=
  if k.shortcut = none ∧ k.thrown_out = false then
    let e1 : Session :=
      if e.VIEW_MODE = true then e
      else { e with puddle := some (e.puddle.getD [] ++ [k.input]) }
    if e1.st.mark ≠ none ∧ e1.soft_mark = true then
      { e1 with st := { e1.st with mark := none } }
    else e1
  else e

/-- Lines 1734-1750 of `do_input`: if we got a shortcut or toggle, or if there
aren't any other characters waiting after the one we read in, output all
available characters in the input puddle, and empty it. -/
def do_input_flush (is_ascii_cntrl_char : Nat → Bool) (k : keystroke) (e : Session) :
    Option Session :=
  if k.shortcut ≠ none ∨ k.key_buffer_len = 0 then
    match e.puddle with
    | none => some e
    | some bytes =>
      match do_output is_ascii_cntrl_char e.st bytes false with
      | none => none
      | some s => some { e with st := s, puddle := none }
  else some e

/-- Lines 1786-1813 of `do_input`: run the function of the shortcut; if
Shifted movement occurs, set the mark before, and when the marked region
changes without Shift being held, discard a soft mark afterwards. -/
def do_input_run (others : funcptr → Session → Option Session) (k : keystroke)
    (func : funcptr) (e : Session) : Option Session :=
  let was_current := e.st.current
  let was_x := e.st.current_x
  let e1 : Session :=
    if k.shift_held = true ∧ e.st.mark = none then
      { e with st := { e.st with mark := some e.st.current, mark_x := e.st.current_x },
               soft_mark := true }
    else e
  match call_func others func e1 with
  | none => none
  | some e2 =>
    if e2.st.mark ≠ none ∧ k.shift_held = false ∧ e2.soft_mark = true ∧
        (e2.st.current ≠ was_current ∨ e2.st.current_x ≠ was_x ∨ wanted_to_move func = true) then
      some { e2 with st := { e2.st with mark := none } }
    else some e2

/-- Lines 1752-1825 of `do_input`, for a keystroke that is a shortcut: refuse
it in view mode when it is not admissible there, remember whether it cuts or
copies, and run the toggle or the function.  The second component is
`retain_cuts`; `none` in the first stands for the early return. -/
def do_input_shortcut (others : funcptr → Session → Option Session) (k : keystroke)
    (sc : keystruct) (e : Session) : Option (Option Session × Bool) :=
  if e.VIEW_MODE = true ∧ k.okay_for_view = false then some (none, false)
  else
    let retain_cuts : Bool :=
      decide (sc.func = funcptr.do_cut_text_void ∨ sc.func = funcptr.do_copy_text)
    if sc.func = funcptr.do_toggle_void then
      some (some (do_toggle e sc.toggle),
        if sc.toggle ≠ flag_id.CUT_FROM_CURSOR then true else retain_cuts)
    else
      match do_input_run others k sc.func e with
      | none => none
      | some e1 => some (some e1, retain_cuts)

/-- Read in a keystroke.  Act on the keystroke if it is a shortcut or a
toggle; otherwise, insert it into the edit buffer.  At the end, if we aren't
cutting or copying text, and the key wasn't a toggle, blow away the text in
the cutbuffer upon the next cutting action. -/
def do_input (is_ascii_cntrl_char : Nat → Bool) (others : funcptr → Session → Option Session)
    (k : keystroke) (e : Session) : Option Session :=
  if k.winch = true then some e
  else
    match do_input_flush is_ascii_cntrl_char k (do_input_character k e) with
    | none => none
    | some e1 =>
      match k.shortcut with
      | none => some { e1 with st := { e1.st with keep_cutbuffer := false } }
      | some sc =>
        match do_input_shortcut others k sc e1 with
        | none => none
        | some (none, _) => some e1
        | some (some e2, true) => some e2
        | some (some e2, false) => some { e2 with st := { e2.st with keep_cutbuffer := false } }

/-! ## What the theorems about cutting are stated with -/

/-- The range `(top, top_x, bot, bot_x)` that the cutting function chosen by
`do_cut_text` hands to `extract_buffer`, read off `cut_to_eof`, `cut_marked`,
`cut_to_eol` and `cut_line`; when `cut_to_eol` makes no call, the empty range
at the cursor. -/
def cut_range (s : State) (cut_till_eof : Bool) : Option (Nat × Nat × Nat × Nat) :=
  if cut_till_eof = true then
    match s.heap s.filebot with
    | none => none
    | some fb => some (s.current, s.current_x, s.filebot, fb.data.length)
  else if s.mark ≠ none then
    match mark_order s with
    | none => none
    | some (top, top_x, bot, bot_x, _) => some (top, top_x, bot, bot_x)
  else
    match s.heap s.current with
    | none => none
    | some c =>
      if s.CUT_FROM_CURSOR = true then
        if s.current_x < c.data.length then
          some (s.current, s.current_x, s.current, c.data.length)
        else if s.current ≠ s.filebot then
          match c.next with
          | none => none
          | some nx => some (s.current, s.current_x, nx, 0)
        else some (s.current, s.current_x, s.current, s.current_x)
      else if s.current ≠ s.filebot then
        match c.next with
        | none => none
        | some nx => some (s.current, 0, nx, 0)
      else some (s.current, 0, s.current, c.data.length)

/-- What the cutting functions are called with: the buffer has the lines `L`,
the cursor and the mark are inside lines of `L`, the top line of the edit
window is allocated, the last line is empty when the buffer must end with a
line separator (the magic line), and the cutbuffer is the standalone list `D`,
apart from the buffer. -/
structure CutPre (s : State) (L D : List Nat) : Prop where
  buf : Buf s L
  cur : s.current ∈ L
  x_le : s.current_x ≤ (dataOf s.heap s.current).length
  edittop : (s.heap s.edittop).isSome
  mark : ∀ m, s.mark = some m → m ∈ L ∧ s.mark_x ≤ (dataOf s.heap m).length
  magic : s.NO_NEWLINES = false → dataOf s.heap s.filebot = []
  cut : Seg s.heap none D none
  cut_nodup : D.Nodup
  cut_disj : ∀ x, x ∈ D → x ∉ L
  cut_top : s.cutbuffer = D.head?
  cut_bot : D ≠ [] → s.cutbottom = D.getLast?

/-- The empty line that a round trip of cutting and pasting leaves behind at
the end of the buffer: one when the buffer must end with a line separator and
the range that was cut started inside a line (`0 < top_x`) and reached the end
of the last line `bot`, none otherwise. -/
def round_trip_extra (s : State) (top_x bot : Nat) : List (List Nat) :=
  if s.NO_NEWLINES = false ∧ bot = s.filebot ∧ 0 < top_x then [[]] else []

/-- What a cut leaves, as the theorems about what follows a cut need it: `s`
is the state before the cut, `s0` the state after the cutbuffer was cleared or
kept (it is the list `D0` then), `t` the state that `extract_buffer` leaves
and `s4` the state after the cut.  The buffer was `L = A ++ R ++ B`, the range
ran from `(top, top_x)` at the head of `R` to `(bot, bot_x)` at its end. -/
structure CutRun (s s0 t s4 : State) (L D0 A R B M E : List Nat) (ft fb : Option Nat)
    (top top_x bot bot_x : Nat) : Prop where
  list : L = A ++ R ++ B
  pre0 : CutPre s0 L D0
  pre : ExtractPre s0 A R B D0 s0.cutbuffer s0.cutbottom top top_x bot bot_x
  post : ExtractPost s0 t A R B D0 top_x bot_x M E ft fb
  heapL : ∀ y, y ∈ L → s0.heap y = s.heap y
  heapD : ∀ y, y ∈ D0 → s0.heap y = s.heap y
  eq0 : s0 = { s with heap := s0.heap, cutbuffer := s0.cutbuffer,
                      keep_cutbuffer := s0.keep_cutbuffer, undotop := s0.undotop,
                      current_undo := s0.current_undo, last_action := s0.last_action }
  eq4 : s4 = { t with cutbuffer := ft, cutbottom := fb, mark := s4.mark, modified := true,
                      undotop := s4.undotop, current_undo := s4.current_undo,
                      last_action := s4.last_action }
  mark4 : s4.mark = t.mark ∨ s4.mark = none

/-! ## Concrete states for the cut engine -/

/-- The state `demoPaste` with the flag CUT_FROM_CURSOR set. -/
def demoEol : State := { demoPaste with CUT_FROM_CURSOR := true }

/-- The state `demoPaste` with the mark at offset 2 of the first line; the
cursor is at offset 1 of the second line. -/
def demoMark : State := { demoPaste with mark := some 0, mark_x := 2 }

/-- The state `demoPaste` with the mark at the cursor. -/
def demoZero : State := { demoPaste with mark := some 1, mark_x := 1 }

/-- The buffer that holds the line "hello" and the magic line, with the
cursor at offset `x` of the first line, no mark and an empty cutbuffer. -/
def helloBuf (x : Nat) : State := stateOf [[104, 101, 108, 108, 111], []] [] 0 x

/-- The buffer that holds the line "ab" and the magic line, with the mark at
offset 1 of the first line and the cursor on the magic line. -/
def tailMark : State := { stateOf [[97, 98], []] [] 1 0 with mark := some 0, mark_x := 1 }

/-- The buffer that holds the lines "ab", "cd" and the magic line, with the
cursor at offset 1 of the first line. -/
def tailCut : State := stateOf [[97, 98], [99, 100], []] [] 0 1

/-- A concrete session: the state `demoPaste`, no typed characters pending,
not in view mode. -/
def demoSession : Session :=
  { st := demoPaste, puddle := none, soft_mark := false, VIEW_MODE := false,
    RESTRICTED := false }

/-- A concrete table for `others`: every function puts the cursor and the top
of the edit window at the start of the first line, as `to_first_line` does. -/
def demoOthers : funcptr → Session → Option Session :=
  fun _ e =>
    some { e with st := { e.st with current := e.st.filetop, current_x := 0,
                                    edittop := e.st.filetop } }

/-- A keystroke that is bound to `do_cut_text_void`. -/
def demoKeyCut : keystroke :=
  { winch := false, input := 11,
    shortcut := some { func := funcptr.do_cut_text_void, toggle := flag_id.other 0 },
    thrown_out := false, key_buffer_len := 0, shift_held := false, okay_for_view := false }

/-- A keystroke that is bound to `to_first_line`. -/
def demoKeyTop : keystroke :=
  { winch := false, input := 28,
    shortcut := some { func := funcptr.to_first_line, toggle := flag_id.other 0 },
    thrown_out := false, key_buffer_len := 0, shift_held := false, okay_for_view := true }

/-- A keystroke that is the typed character "a", with another keystroke
waiting after it. -/
def demoKeyChar : keystroke :=
  { winch := false, input := 97, shortcut := none, thrown_out := false,
    key_buffer_len := 1, shift_held := false, okay_for_view := true }

/-! ## Copying without cutting (`do_copy_text` of cut.c) -/

/-- The walk of `fsfromline` along the `next` pointers. -/
def fsfromline_loop : Nat → State → Option Nat → Int → Option Nat
  | 0, _, _, _ => none
  | _ + 1, _, none, _ => none
  | fuel + 1, s, some p, lineno =>
    match s.heap p with
    | none => none
    | some n => if n.lineno = lineno then some p else fsfromline_loop fuel s n.next lineno

/-- Modelled from the spec: `fsfromline` (utils.c) is not among the sources.
The line of the buffer that has the given line number, with which
`do_copy_text` restores the viewport and the cursor position that it
remembered as line numbers.  There is no result when no line of the buffer has
that number: the function would hand back a null pointer, with which the
cursor cannot be placed. -/
def fsfromline (s : State) (lineno : Int) : Option Nat :=
  fsfromline_loop s.brk s (some s.filetop) lineno

/-- Lines 418-424 of `do_copy_text`: if the mark was set, restore the viewport
and cursor position.  `firstcolumn` belongs to the display of softwrapped
lines and is not part of the state. -/
def do_copy_text_restore (s : State) (is_edittop_lineno is_current_lineno : Int)
    (is_current_x : Nat) : Option State :=
  match fsfromline s is_edittop_lineno with
  | none => none
  | some e =>
    match fsfromline { s with edittop := e } is_current_lineno with
    | none => none
    | some c => some { s with edittop := e, current := c, current_x := is_current_x }

/-- Move text from the current buffer into the cutbuffer, and copy it back
into the buffer afterward.  If the mark is set or the cursor was moved, blow
away previous contents of the cutbuffer.  The static variable
`next_contiguous_line` is handed in and its new value is handed back. -/
def do_copy_text (next_contiguous_line : Option Nat) (s : State) :
    Option (State × Option Nat) :=
  let mark_is_set : Bool := s.mark.isSome
  match s.heap s.edittop, s.heap s.current with
  | some et, some c =>
    let s1 : State :=
      if mark_is_set = true ∨ some s.current ≠ next_contiguous_line then
        { s with keep_cutbuffer := false }
      else s
    match do_cut_text s1 true mark_is_set false false with
    | none => none
    | some s2 =>
      if mark_is_set = true then
        match do_copy_text_restore s2 et.lineno c.lineno s.current_x with
        | none => none
        | some s3 => some (s3, none)
      else some (s2, some s2.current)
  | _, _ => none

/-! ## What the theorems about undo records are stated with -/

/-- The undo records that stay on the stack when `add_undo` puts a new record
on top: the current record and the ones below it. -/
def kept_records (s : State) : List undo :=
  match s.current_undo with
  | none => []
  | some i => s.undotop.drop i

/-- What `zap_text` finds when it continues the current undo record `u`: it is
a ZAP record, and its private cutbuffer is the standalone list `P`, apart from
the lines `L` of the buffer and the lines `D` of the shared cutbuffer. -/
structure ZapRecord (s : State) (L D P : List Nat) (u : undo) : Prop where
  type : u.type = undo_type.ZAP
  seg : Seg s.heap none P none
  nodup : P.Nodup
  disj : ∀ x, x ∈ P → x ∉ L ∧ x ∉ D
  top : u.cutbuffer = P.head?
  bot : P ≠ [] → u.cutbottom = P.getLast?

/-- What a copy finds between its two halves, after `do_cut_text` has moved
the text of the range into the cutbuffer and before it copies that text back:
`s1` is the state after the cutbuffer was cleared or kept (it is the list `D0`
then), `s3` the state after the move.  The buffer was `A ++ R ++ B`, the range
ran from offset `top_x` of the first line of `R` (with the text `dt`) to
offset `bot_x` of its last line (with the text `db`), and `X` is its text;
`empty` says that the range is empty.  The cursor line of `s3` stands where
`R` stood, and the cutbuffer is the list `E`. -/
structure CopyMid (s1 s3 : State) (A R B D0 E : List Nat) (top_x bot_x : Nat)
    (dt db : List Nat) (X : List (List Nat)) (empty : Prop) : Prop where
  buf : Buf s3 (A ++ [s3.current] ++ B)
  cur_x : s3.current_x = top_x
  cur_data : dataOf s3.heap s3.current = dt.take top_x ++ db.drop bot_x
  data_old : ∀ y, y ∈ A ++ B → dataOf s3.heap y = dataOf s1.heap y
  mark : s3.mark = none
  cut : Seg s3.heap none E none
  cut_nodup : E.Nodup
  cut_disj : ∀ y, y ∈ E → y ∉ A ++ [s3.current] ++ B
  cut_top : s3.cutbuffer = E.head?
  cut_shape : (empty → E = D0) ∧ (¬ empty → E = if D0 = [] then R else D0 ++ R.tail)
  cut_text : (empty → E.map (dataOf s3.heap) = D0.map (dataOf s1.heap)) ∧
    (¬ empty → E.map (dataOf s3.heap) = appendText (D0.map (dataOf s1.heap)) X)
  totsize : s3.totsize = s1.totsize - textSize X
  num_old : ∀ y, y ∈ A → linenoAt s3.heap y = linenoAt s1.heap y
  num_new : Numbered s3.heap (lastNumber s1.heap A) ([s3.current] ++ B)
  brk : s1.brk ≤ s3.brk
  rest : s3 = { s1 with heap := s3.heap, brk := s3.brk, filetop := s3.filetop,
                        filebot := s3.filebot, edittop := s3.edittop, current := s3.current,
                        current_x := s3.current_x, mark := none, mark_x := s3.mark_x,
                        totsize := s3.totsize, filepart := s3.filepart,
                        cutbuffer := s3.cutbuffer, cutbottom := s3.cutbottom,
                        NO_NEWLINES := true }

/-! ## Further concrete states -/

/-- The state `demoPaste` with the mark at offset 1 of the third line, after
the range that runs from offset 1 of the second line to the start of the
third line. -/
def demoAfter : State := { demoPaste with mark := some 2, mark_x := 1 }

/-! ## What the theorems about typing are stated with -/

/-- The bytes that `do_output` inserts for the input `output`: every NUL byte
is encoded as 0x0A, and when controls are not allowed the bytes that
`is_ascii_cntrl_char` reports are left out. -/
def typed_bytes (is_ascii_cntrl_char : Nat → Bool) (allow_cntrls : Bool)
    (output : List Nat) : List Nat :=
  (output.map (fun b => if b = 0 then 10 else b)).filter
    (fun b => allow_cntrls || !is_ascii_cntrl_char b)

/-! ## Further concrete states -/

/-- The buffer that holds the line "ab" and the magic line, with the mark at
the end of "ab" and the cursor on the magic line: the marked region is the
line separator before the magic line. -/
def cliffMark : State := { stateOf [[97, 98], []] [] 1 0 with mark := some 0, mark_x := 2 }

/-! ## The heap -/

@[simp] theorem Heap.set_same (h : Heap) (p : Nat) (v : Option linestruct) :
    h.set p v p = v := by
  simp [Heap.set]

theorem Heap.set_ne (h : Heap) {p q : Nat} (v : Option linestruct) (hne : q ≠ p) :
    h.set p v q = h q := by
  simp [Heap.set, hne]

theorem Heap.set_set (h : Heap) (p : Nat) (v w : Option linestruct) :
    (h.set p v).set p w = h.set p w := by
  funext q
  by_cases hq : q = p <;> simp [Heap.set, hq]

theorem Heap.set_comm (h : Heap) {p q : Nat} (v w : Option linestruct) (hne : p ≠ q) :
    (h.set p v).set q w = (h.set q w).set p v := by
  funext r
  by_cases h1 : r = p
  · have h2 : r ≠ q := fun e => hne (h1.symm.trans e)
    simp [Heap.set, h1, hne]
  · by_cases h2 : r = q
    · simp [Heap.set, h2, Ne.symm hne]
    · simp [Heap.set, h1, h2]

theorem Heap.set_self (h : Heap) {p : Nat} {v : Option linestruct} (hv : h p = v) :
    h.set p v = h := by
  funext q
  by_cases hq : q = p <;> simp [Heap.set, hq, hv]

@[simp] theorem linksAt_set_same (h : Heap) (p : Nat) (n : linestruct) :
    linksAt (h.set p (some n)) p = some (n.prev, n.next) := by
  simp [linksAt]

theorem linksAt_set_ne (h : Heap) {p q : Nat} (v : Option linestruct) (hne : q ≠ p) :
    linksAt (h.set p v) q = linksAt h q := by
  simp [linksAt, Heap.set_ne h v hne]

theorem linksAt_of_eq {h : Heap} {p : Nat} {n : linestruct} (hp : h p = some n) :
    linksAt h p = some (n.prev, n.next) := by
  simp [linksAt, hp]

theorem linksAt_some {h : Heap} {p : Nat} {l : Option Nat × Option Nat}
    (hl : linksAt h p = some l) : ∃ n, h p = some n ∧ n.prev = l.1 ∧ n.next = l.2 := by
  unfold linksAt at hl
  cases hp : h p with
  | none => simp [hp] at hl
  | some n =>
    simp [hp] at hl
    exact ⟨n, rfl, by rw [← hl], by rw [← hl]⟩

@[simp] theorem dataOf_set_same (h : Heap) (p : Nat) (n : linestruct) :
    dataOf (h.set p (some n)) p = n.data := by
  simp [dataOf]

theorem dataOf_set_ne (h : Heap) {p q : Nat} (v : Option linestruct) (hne : q ≠ p) :
    dataOf (h.set p v) q = dataOf h q := by
  simp [dataOf, Heap.set_ne h v hne]

theorem dataOf_of_eq {h : Heap} {p : Nat} {n : linestruct} (hp : h p = some n) :
    dataOf h p = n.data := by
  simp [dataOf, hp]

@[simp] theorem linenoAt_set_same (h : Heap) (p : Nat) (n : linestruct) :
    linenoAt (h.set p (some n)) p = some n.lineno := by
  simp [linenoAt]

theorem linenoAt_set_ne (h : Heap) {p q : Nat} (v : Option linestruct) (hne : q ≠ p) :
    linenoAt (h.set p v) q = linenoAt h q := by
  simp [linenoAt, Heap.set_ne h v hne]

theorem linenoAt_of_eq {h : Heap} {p : Nat} {n : linestruct} (hp : h p = some n) :
    linenoAt h p = some n.lineno := by
  simp [linenoAt, hp]

/-! ## Segments -/

@[simp] theorem nextOf_nil (nx : Option Nat) : nextOf [] nx = nx := rfl

@[simp] theorem nextOf_cons (q : Nat) (r : List Nat) (nx : Option Nat) :
    nextOf (q :: r) nx = some q := rfl

@[simp] theorem lastOf_nil (pv : Option Nat) : lastOf pv [] = pv := rfl

@[simp] theorem lastOf_cons (pv : Option Nat) (p : Nat) (r : List Nat) :
    lastOf pv (p :: r) = lastOf (some p) r := by
  cases r with
  | nil => simp [lastOf]
  | cons q r =>
    have : ∃ x, (q :: r).getLast? = some x := ⟨(q :: r).getLast (by simp), List.getLast?_eq_getLast _ _⟩
    obtain ⟨x, hx⟩ := this
    simp [lastOf, List.getLast?_cons_cons, hx]

theorem lastOf_append_singleton (pv : Option Nat) (a : List Nat) (p : Nat) :
    lastOf pv (a ++ [p]) = some p := by
  simp [lastOf]

theorem nextOf_append (a b : List Nat) (nx : Option Nat) :
    nextOf (a ++ b) nx = nextOf a (nextOf b nx) := by
  cases a <;> simp

theorem lastOf_append (pv : Option Nat) (a b : List Nat) :
    lastOf pv (a ++ b) = lastOf (lastOf pv a) b := by
  induction a generalizing pv with
  | nil => simp
  | cons p a ih => simp [ih]

theorem lastOf_of_getLast? {ps : List Nat} {q : Nat} (pv : Option Nat)
    (h : ps.getLast? = some q) : lastOf pv ps = some q := by
  simp [lastOf, h]

theorem nextOf_of_head? {ps : List Nat} {q : Nat} (nx : Option Nat)
    (h : ps.head? = some q) : nextOf ps nx = some q := by
  cases ps with
  | nil => simp at h
  | cons p r => simp at h; simp [h]

@[simp] theorem Seg_nil (h : Heap) (pv nx : Option Nat) : Seg h pv [] nx := trivial

theorem Seg_cons (h : Heap) (pv nx : Option Nat) (p : Nat) (rest : List Nat) :
    Seg h pv (p :: rest) nx ↔
      linksAt h p = some (pv, nextOf rest nx) ∧ Seg h (some p) rest nx := Iff.rfl

theorem Seg.frame {h h1 : Heap} {ps : List Nat} {pv nx : Option Nat}
    (hf : ∀ p ∈ ps, linksAt h1 p = linksAt h p) (hs : Seg h pv ps nx) : Seg h1 pv ps nx := by
  induction ps generalizing pv with
  | nil => trivial
  | cons p rest ih =>
    rw [Seg_cons] at hs ⊢
    refine ⟨?_, ih (fun q hq => hf q (List.mem_cons_of_mem _ hq)) hs.2⟩
    rw [hf p (List.mem_cons_self _ _)]
    exact hs.1

theorem Seg.append (h : Heap) (pv nx : Option Nat) (a b : List Nat) :
    Seg h pv (a ++ b) nx ↔ Seg h pv a (nextOf b nx) ∧ Seg h (lastOf pv a) b nx := by
  induction a generalizing pv with
  | nil => simp
  | cons p a ih =>
    simp only [List.cons_append, Seg_cons, ih, lastOf_cons, nextOf_append]
    tauto

theorem Seg.live {h : Heap} {ps : List Nat} {pv nx : Option Nat} (hs : Seg h pv ps nx)
    {p : Nat} (hp : p ∈ ps) : ∃ n, h p = some n := by
  induction ps generalizing pv with
  | nil => simp at hp
  | cons q rest ih =>
    rw [Seg_cons] at hs
    rcases List.mem_cons.1 hp with rfl | hp
    · obtain ⟨n, hn, _⟩ := linksAt_some hs.1
      exact ⟨n, hn⟩
    · exact ih hs.2 hp

/-- Redirect the far end of a segment: the last node gets a new `next`. -/
theorem Seg.set_last_next {h : Heap} {a : List Nat} {q : Nat} {pv nx : Option Nat}
    {n : linestruct} (hnd : (a ++ [q]).Nodup) (hs : Seg h pv (a ++ [q]) nx)
    (hq : h q = some n) (x : Option Nat) :
    Seg (h.set q (some { n with next := x })) pv (a ++ [q]) x := by
  rw [Seg.append] at hs ⊢
  have hqa : q ∉ a := by
    intro hm
    have := List.nodup_append.1 hnd
    exact this.2.2 hm (List.mem_singleton_self q) 
  refine ⟨?_, ?_⟩
  · simp only [nextOf_cons] at hs ⊢
    exact Seg.frame (fun p hp => linksAt_set_ne h _ (fun e => hqa (e ▸ hp))) hs.1
  · have h2 := hs.2
    rw [Seg_cons] at h2 ⊢
    simp only [nextOf_nil, Seg_nil, and_true] at h2 ⊢
    rw [linksAt_of_eq hq] at h2
    simp only [Option.some.injEq, Prod.mk.injEq] at h2
    simp [h2.1]

/-- Redirect the near end of a segment: the first node gets a new `prev`. -/
theorem Seg.set_head_prev {h : Heap} {b : List Nat} {q : Nat} {pv nx : Option Nat}
    {n : linestruct} (hnd : (q :: b).Nodup) (hs : Seg h pv (q :: b) nx)
    (hq : h q = some n) (x : Option Nat) :
    Seg (h.set q (some { n with prev := x })) x (q :: b) nx := by
  rw [Seg_cons] at hs ⊢
  have hqb : q ∉ b := (List.nodup_cons.1 hnd).1
  refine ⟨?_, Seg.frame (fun p hp => linksAt_set_ne h _ (fun e => hqb (e ▸ hp))) hs.2⟩
  have h1 := hs.1
  rw [linksAt_of_eq hq] at h1
  simp only [Option.some.injEq, Prod.mk.injEq] at h1
  simp [h1.2]

/-! ## Field updates and what they leave alone -/

theorem Heap.upd_apply (h : Heap) (p q : Nat) (f : linestruct → linestruct) :
    h.upd p f q = if q = p then (h p).map f else h q := rfl

theorem Heap.upd_same (h : Heap) (p : Nat) (f : linestruct → linestruct) :
    h.upd p f p = (h p).map f := by
  simp [Heap.upd]

theorem Heap.upd_ne (h : Heap) {p q : Nat} (f : linestruct → linestruct) (hne : q ≠ p) :
    h.upd p f q = h q := by
  simp [Heap.upd, hne]

@[simp] theorem upd_isSome (h : Heap) (p q : Nat) (f : linestruct → linestruct) :
    (h.upd p f q).isSome = (h q).isSome := by
  by_cases e : q = p
  · subst e; simp [Heap.upd]
  · simp [Heap.upd, e]

@[simp] theorem setPrev_isSome (h : Heap) (p q : Nat) (v : Option Nat) :
    (h.setPrev p v q).isSome = (h q).isSome := upd_isSome h p q _

@[simp] theorem setNext_isSome (h : Heap) (p q : Nat) (v : Option Nat) :
    (h.setNext p v q).isSome = (h q).isSome := upd_isSome h p q _

@[simp] theorem mapData_isSome (h : Heap) (p q : Nat) (g : List Nat → List Nat) :
    (h.mapData p g q).isSome = (h q).isSome := upd_isSome h p q _

@[simp] theorem setLineno_isSome (h : Heap) (p q : Nat) (k : Int) :
    (h.setLineno p k q).isSome = (h q).isSome := upd_isSome h p q _

@[simp] theorem setPrevOpt_isSome (h : Heap) (p : Option Nat) (q : Nat) (v : Option Nat) :
    (h.setPrevOpt p v q).isSome = (h q).isSome := by
  cases p <;> simp [Heap.setPrevOpt]

@[simp] theorem setNextOpt_isSome (h : Heap) (p : Option Nat) (q : Nat) (v : Option Nat) :
    (h.setNextOpt p v q).isSome = (h q).isSome := by
  cases p <;> simp [Heap.setNextOpt]

@[simp] theorem renum_isSome (h : Heap) (ps : List Nat) (k : Int) (q : Nat) :
    (h.renum ps k q).isSome = (h q).isSome := by
  induction ps generalizing h k with
  | nil => rfl
  | cons p rest ih => simp [Heap.renum, ih]

theorem set_isSome (h : Heap) (p q : Nat) (v : Option linestruct) :
    (h.set p v q).isSome = if q = p then v.isSome else (h q).isSome := by
  by_cases e : q = p <;> simp [Heap.set, e]

/-! ### Links -/

theorem linksAt_set (h : Heap) (p q : Nat) (v : Option linestruct) :
    linksAt (h.set p v) q =
      if q = p then v.map (fun n => (n.prev, n.next)) else linksAt h q := by
  by_cases e : q = p <;> simp [linksAt, Heap.set, e]

theorem linksAt_setPrev (h : Heap) (p q : Nat) (v : Option Nat) :
    linksAt (h.setPrev p v) q =
      if q = p then (linksAt h p).map (fun l => (v, l.2)) else linksAt h q := by
  by_cases e : q = p
  · subst e; cases hq : h q <;> simp [linksAt, Heap.setPrev, Heap.upd, hq]
  · simp [linksAt, Heap.setPrev, Heap.upd, e]

theorem linksAt_setNext (h : Heap) (p q : Nat) (v : Option Nat) :
    linksAt (h.setNext p v) q =
      if q = p then (linksAt h p).map (fun l => (l.1, v)) else linksAt h q := by
  by_cases e : q = p
  · subst e; cases hq : h q <;> simp [linksAt, Heap.setNext, Heap.upd, hq]
  · simp [linksAt, Heap.setNext, Heap.upd, e]

@[simp] theorem linksAt_mapData (h : Heap) (p q : Nat) (g : List Nat → List Nat) :
    linksAt (h.mapData p g) q = linksAt h q := by
  by_cases e : q = p
  · subst e; cases hq : h q <;> simp [linksAt, Heap.mapData, Heap.upd, hq]
  · simp [linksAt, Heap.mapData, Heap.upd, e]

@[simp] theorem linksAt_setLineno (h : Heap) (p q : Nat) (k : Int) :
    linksAt (h.setLineno p k) q = linksAt h q := by
  by_cases e : q = p
  · subst e; cases hq : h q <;> simp [linksAt, Heap.setLineno, Heap.upd, hq]
  · simp [linksAt, Heap.setLineno, Heap.upd, e]

@[simp] theorem linksAt_renum (h : Heap) (ps : List Nat) (k : Int) (q : Nat) :
    linksAt (h.renum ps k) q = linksAt h q := by
  induction ps generalizing h k with
  | nil => rfl
  | cons p rest ih => simp [Heap.renum, ih]

theorem linksAt_setPrevOpt (h : Heap) (p : Option Nat) (q : Nat) (v : Option Nat) :
    linksAt (h.setPrevOpt p v) q =
      if some q = p then (linksAt h q).map (fun l => (v, l.2)) else linksAt h q := by
  cases p with
  | none => simp [Heap.setPrevOpt]
  | some r =>
    by_cases e : q = r
    · subst e; simp [Heap.setPrevOpt, linksAt_setPrev]
    · simp [Heap.setPrevOpt, linksAt_setPrev, e]

theorem linksAt_setNextOpt (h : Heap) (p : Option Nat) (q : Nat) (v : Option Nat) :
    linksAt (h.setNextOpt p v) q =
      if some q = p then (linksAt h q).map (fun l => (l.1, v)) else linksAt h q := by
  cases p with
  | none => simp [Heap.setNextOpt]
  | some r =>
    by_cases e : q = r
    · subst e; simp [Heap.setNextOpt, linksAt_setNext]
    · simp [Heap.setNextOpt, linksAt_setNext, e]

/-! ### Text -/

theorem dataAt_set (h : Heap) (p q : Nat) (v : Option linestruct) :
    dataAt (h.set p v) q = if q = p then v.map linestruct.data else dataAt h q := by
  by_cases e : q = p <;> simp [dataAt, Heap.set, e]

@[simp] theorem dataAt_setPrev (h : Heap) (p q : Nat) (v : Option Nat) :
    dataAt (h.setPrev p v) q = dataAt h q := by
  by_cases e : q = p
  · subst e; cases hq : h q <;> simp [dataAt, Heap.setPrev, Heap.upd, hq]
  · simp [dataAt, Heap.setPrev, Heap.upd, e]

@[simp] theorem dataAt_setNext (h : Heap) (p q : Nat) (v : Option Nat) :
    dataAt (h.setNext p v) q = dataAt h q := by
  by_cases e : q = p
  · subst e; cases hq : h q <;> simp [dataAt, Heap.setNext, Heap.upd, hq]
  · simp [dataAt, Heap.setNext, Heap.upd, e]

@[simp] theorem dataAt_setPrevOpt (h : Heap) (p : Option Nat) (q : Nat) (v : Option Nat) :
    dataAt (h.setPrevOpt p v) q = dataAt h q := by
  cases p <;> simp [Heap.setPrevOpt]

@[simp] theorem dataAt_setNextOpt (h : Heap) (p : Option Nat) (q : Nat) (v : Option Nat) :
    dataAt (h.setNextOpt p v) q = dataAt h q := by
  cases p <;> simp [Heap.setNextOpt]

theorem dataAt_mapData (h : Heap) (p q : Nat) (g : List Nat → List Nat) :
    dataAt (h.mapData p g) q = if q = p then (dataAt h p).map g else dataAt h q := by
  by_cases e : q = p
  · subst e; cases hq : h q <;> simp [dataAt, Heap.mapData, Heap.upd, hq]
  · simp [dataAt, Heap.mapData, Heap.upd, e]

@[simp] theorem dataAt_setLineno (h : Heap) (p q : Nat) (k : Int) :
    dataAt (h.setLineno p k) q = dataAt h q := by
  by_cases e : q = p
  · subst e; cases hq : h q <;> simp [dataAt, Heap.setLineno, Heap.upd, hq]
  · simp [dataAt, Heap.setLineno, Heap.upd, e]

@[simp] theorem dataAt_renum (h : Heap) (ps : List Nat) (k : Int) (q : Nat) :
    dataAt (h.renum ps k) q = dataAt h q := by
  induction ps generalizing h k with
  | nil => rfl
  | cons p rest ih => simp [Heap.renum, ih]

theorem dataOf_eq (h : Heap) (p : Nat) : dataOf h p = (dataAt h p).getD [] := by
  unfold dataOf dataAt
  cases h p <;> rfl

theorem dataAt_of_eq {h : Heap} {p : Nat} {n : linestruct} (hp : h p = some n) :
    dataAt h p = some n.data := by
  simp [dataAt, hp]

theorem dataOf_of_dataAt {h : Heap} {p : Nat} {d : List Nat} (hp : dataAt h p = some d) :
    dataOf h p = d := by
  simp [dataOf_eq, hp]

theorem dataAt_of_live {h : Heap} {p : Nat} (hp : (h p).isSome) :
    dataAt h p = some (dataOf h p) := by
  unfold dataOf dataAt
  cases hq : h p with
  | none => simp [hq] at hp
  | some n => rfl

/-! ### Line numbers -/

theorem linenoAt_set (h : Heap) (p q : Nat) (v : Option linestruct) :
    linenoAt (h.set p v) q = if q = p then v.map linestruct.lineno else linenoAt h q := by
  by_cases e : q = p <;> simp [linenoAt, Heap.set, e]

@[simp] theorem linenoAt_setPrev (h : Heap) (p q : Nat) (v : Option Nat) :
    linenoAt (h.setPrev p v) q = linenoAt h q := by
  by_cases e : q = p
  · subst e; cases hq : h q <;> simp [linenoAt, Heap.setPrev, Heap.upd, hq]
  · simp [linenoAt, Heap.setPrev, Heap.upd, e]

@[simp] theorem linenoAt_setNext (h : Heap) (p q : Nat) (v : Option Nat) :
    linenoAt (h.setNext p v) q = linenoAt h q := by
  by_cases e : q = p
  · subst e; cases hq : h q <;> simp [linenoAt, Heap.setNext, Heap.upd, hq]
  · simp [linenoAt, Heap.setNext, Heap.upd, e]

@[simp] theorem linenoAt_setPrevOpt (h : Heap) (p : Option Nat) (q : Nat) (v : Option Nat) :
    linenoAt (h.setPrevOpt p v) q = linenoAt h q := by
  cases p <;> simp [Heap.setPrevOpt]

@[simp] theorem linenoAt_setNextOpt (h : Heap) (p : Option Nat) (q : Nat) (v : Option Nat) :
    linenoAt (h.setNextOpt p v) q = linenoAt h q := by
  cases p <;> simp [Heap.setNextOpt]

@[simp] theorem linenoAt_mapData (h : Heap) (p q : Nat) (g : List Nat → List Nat) :
    linenoAt (h.mapData p g) q = linenoAt h q := by
  by_cases e : q = p
  · subst e; cases hq : h q <;> simp [linenoAt, Heap.mapData, Heap.upd, hq]
  · simp [linenoAt, Heap.mapData, Heap.upd, e]

theorem linenoAt_setLineno (h : Heap) (p q : Nat) (k : Int) :
    linenoAt (h.setLineno p k) q =
      if q = p then (linenoAt h p).map (fun _ => k) else linenoAt h q := by
  by_cases e : q = p
  · subst e; cases hq : h q <;> simp [linenoAt, Heap.setLineno, Heap.upd, hq]
  · simp [linenoAt, Heap.setLineno, Heap.upd, e]

theorem linenoAt_renum_not_mem (h : Heap) (ps : List Nat) (k : Int) {q : Nat} (hq : q ∉ ps) :
    linenoAt (h.renum ps k) q = linenoAt h q := by
  induction ps generalizing h k with
  | nil => rfl
  | cons p rest ih =>
    have h1 : q ≠ p := fun e => hq (by simp [e])
    have h2 : q ∉ rest := fun e => hq (by simp [e])
    simp [Heap.renum, ih _ _ h2, linenoAt_setLineno, h1]

theorem renum_not_mem (h : Heap) (ps : List Nat) (k : Int) {q : Nat} (hq : q ∉ ps) :
    h.renum ps k q = h q := by
  induction ps generalizing h k with
  | nil => rfl
  | cons p rest ih =>
    have h1 : q ≠ p := fun e => hq (by simp [e])
    have h2 : q ∉ rest := fun e => hq (by simp [e])
    rw [Heap.renum, ih _ _ h2]
    exact Heap.upd_ne _ _ h1

theorem isSome_of_linksAt {h : Heap} {p : Nat} {l : Option Nat × Option Nat}
    (hl : linksAt h p = some l) : (h p).isSome := by
  obtain ⟨n, hn, -⟩ := linksAt_some hl
  simp [hn]

theorem Numbered_renum (h : Heap) (ps : List Nat) (k : Int) (hnd : ps.Nodup)
    (hlive : ∀ p ∈ ps, (h p).isSome) : Numbered (h.renum ps k) k ps := by
  induction ps generalizing h k with
  | nil => trivial
  | cons p rest ih =>
    have hp : p ∉ rest := (List.nodup_cons.1 hnd).1
    refine ⟨?_, ?_⟩
    · simp only [Heap.renum]
      rw [linenoAt_renum_not_mem _ _ _ hp, linenoAt_setLineno]
      have := hlive p (by simp)
      cases hq : h p with
      | none => simp [hq] at this
      | some n => simp [linenoAt, hq]
    · exact ih _ _ (List.nodup_cons.1 hnd).2 (fun q hq => by
        simpa using hlive q (by simp [hq]))

theorem Numbered.of_frame {h h1 : Heap} {ps : List Nat} {k : Int}
    (hf : ∀ p ∈ ps, linenoAt h1 p = linenoAt h p) (hn : Numbered h k ps) : Numbered h1 k ps := by
  induction ps generalizing k with
  | nil => trivial
  | cons p rest ih =>
    refine ⟨?_, ih (fun q hq => hf q (by simp [hq])) hn.2⟩
    rw [hf p (by simp)]
    exact hn.1

theorem Numbered.append_iff (h : Heap) (k : Int) (a b : List Nat) :
    Numbered h k (a ++ b) ↔ Numbered h k a ∧ Numbered h (k + a.length) b := by
  induction a generalizing k with
  | nil => simp [Numbered]
  | cons p a ih =>
    have e : k + 1 + (a.length : Int) = k + ((a.length : Int) + 1) := by ring
    have h1 := ih (k + 1)
    rw [e] at h1
    show (_ ∧ Numbered h (k + 1) (a ++ b)) ↔ _
    rw [h1]
    simp only [Numbered, List.length_cons, Nat.cast_add, Nat.cast_one]
    tauto

/-! ### Segments under field updates -/

theorem Seg.frame_iff {h h1 : Heap} {ps : List Nat} {pv nx : Option Nat}
    (hf : ∀ p ∈ ps, linksAt h1 p = linksAt h p) : Seg h1 pv ps nx ↔ Seg h pv ps nx :=
  ⟨Seg.frame (fun p hp => (hf p hp).symm), Seg.frame hf⟩

theorem Seg.setPrev_not_mem {h : Heap} {ps : List Nat} {pv nx : Option Nat} {q : Nat}
    (v : Option Nat) (hq : q ∉ ps) (hs : Seg h pv ps nx) : Seg (h.setPrev q v) pv ps nx :=
  Seg.frame (fun p hp => by
    rw [linksAt_setPrev, if_neg (fun e : p = q => hq (e ▸ hp))]) hs

theorem Seg.setNext_not_mem {h : Heap} {ps : List Nat} {pv nx : Option Nat} {q : Nat}
    (v : Option Nat) (hq : q ∉ ps) (hs : Seg h pv ps nx) : Seg (h.setNext q v) pv ps nx :=
  Seg.frame (fun p hp => by
    rw [linksAt_setNext, if_neg (fun e : p = q => hq (e ▸ hp))]) hs

theorem Seg.set_not_mem {h : Heap} {ps : List Nat} {pv nx : Option Nat} {q : Nat}
    (v : Option linestruct) (hq : q ∉ ps) (hs : Seg h pv ps nx) : Seg (h.set q v) pv ps nx :=
  Seg.frame (fun p hp => by
    rw [linksAt_set, if_neg (fun e : p = q => hq (e ▸ hp))]) hs

theorem Seg.mapData {h : Heap} {ps : List Nat} {pv nx : Option Nat} (q : Nat)
    (g : List Nat → List Nat) (hs : Seg h pv ps nx) : Seg (h.mapData q g) pv ps nx :=
  Seg.frame (fun p _ => linksAt_mapData h q p g) hs

theorem Seg.setLineno {h : Heap} {ps : List Nat} {pv nx : Option Nat} (q : Nat)
    (k : Int) (hs : Seg h pv ps nx) : Seg (h.setLineno q k) pv ps nx :=
  Seg.frame (fun p _ => linksAt_setLineno h q p k) hs

theorem Seg.renum {h : Heap} {ps : List Nat} {pv nx : Option Nat} (qs : List Nat)
    (k : Int) (hs : Seg h pv ps nx) : Seg (h.renum qs k) pv ps nx :=
  Seg.frame (fun p _ => linksAt_renum h qs k p) hs

/-- Redirect the near end of a segment: the first node gets a new `prev`. -/
theorem Seg.setPrev_head {h : Heap} {b : List Nat} {q : Nat} {pv nx : Option Nat}
    (hnd : (q :: b).Nodup) (hs : Seg h pv (q :: b) nx) (x : Option Nat) :
    Seg (h.setPrev q x) x (q :: b) nx := by
  rw [Seg_cons] at hs ⊢
  have hqb : q ∉ b := (List.nodup_cons.1 hnd).1
  refine ⟨?_, Seg.setPrev_not_mem x hqb hs.2⟩
  rw [linksAt_setPrev, if_pos rfl, hs.1]
  rfl

/-- Redirect the far end of a segment: the last node gets a new `next`. -/
theorem Seg.setNext_last {h : Heap} {a : List Nat} {q : Nat} {pv nx : Option Nat}
    (hnd : (a ++ [q]).Nodup) (hs : Seg h pv (a ++ [q]) nx) (x : Option Nat) :
    Seg (h.setNext q x) pv (a ++ [q]) x := by
  rw [Seg.append] at hs ⊢
  have hqa : q ∉ a := by
    intro hm
    exact (List.nodup_append.1 hnd).2.2 hm (List.mem_singleton_self q)
  refine ⟨?_, ?_⟩
  · simp only [nextOf_cons] at hs ⊢
    exact Seg.setNext_not_mem x hqa hs.1
  · have h2 := hs.2
    rw [Seg_cons] at h2 ⊢
    simp only [nextOf_nil, Seg_nil, and_true] at h2 ⊢
    rw [linksAt_setNext, if_pos rfl, h2]
    rfl

theorem modify_live {s : State} {p : Nat} {n : linestruct} (f : linestruct → linestruct)
    (hp : s.heap p = some n) :
    s.modify p f = some { s with heap := s.heap.upd p f } := by
  unfold State.modify
  rw [hp]
  simp only [Option.some.injEq]
  congr 1
  funext q
  by_cases hq : q = p <;> simp [Heap.set, Heap.upd, hq, hp]

theorem modify_eq (s : State) (p : Nat) (f : linestruct → linestruct) :
    s.modify p f = (s.heap p).map (fun _ => { s with heap := s.heap.upd p f }) := by
  unfold State.modify
  cases hp : s.heap p with
  | none => rfl
  | some n =>
    simp only [Option.map_some', Option.some.injEq]
    congr 1
    funext q
    by_cases hq : q = p <;> simp [Heap.set, Heap.upd, hq, hp]

theorem upd_live {h : Heap} {p q : Nat} {n : linestruct} (f : linestruct → linestruct)
    (hq : h q = some n) : ∃ m, h.upd p f q = some m := by
  by_cases e : q = p
  · subst e; exact ⟨f n, by simp [Heap.upd, hq]⟩
  · exact ⟨n, by simp [Heap.upd, e, hq]⟩

theorem partition_buffer_eq {s : State} {top bot : Nat} {t b : linestruct} (top_x bot_x : Nat)
    (ht : s.heap top = some t) (hb : s.heap bot = some b)
    (htx : top_x ≤ t.data.length) (hbx : bot_x ≤ b.data.length)
    (hsame : top = bot → top_x ≤ bot_x) :
    partition_buffer s top top_x bot bot_x = some
      ({ s with
          filetop := top, filebot := bot,
          heap := (((s.heap.setPrev top none).setNext bot none).mapData bot
                      (List.take bot_x)).mapData top (List.drop top_x) },
       { filetop := if top ≠ s.filetop then some s.filetop else none,
         top_prev := t.prev, top_data := t.data.take top_x,
         filebot := if bot ≠ s.filebot then some s.filebot else none,
         bot_next := b.next, bot_data := b.data.drop bot_x }) := by
  unfold Heap.setPrev Heap.setNext Heap.mapData
  unfold partition_buffer
  by_cases hne : top = bot
  · subst hne
    rw [ht] at hb
    cases hb
    have h3 := hsame rfl
    simp [modify_eq, Heap.upd_apply, ht, hbx, htx, h3]
  · have hne2 : ¬ bot = top := fun e => hne e.symm
    simp [modify_eq, Heap.upd_apply, ht, hb, hbx, htx, hne, hne2]

theorem modify_isSome (s : State) (p : Nat) (f : linestruct → linestruct) :
    s.modify p f = if (s.heap p).isSome then some { s with heap := s.heap.upd p f } else none := by
  rw [modify_eq]
  cases s.heap p <;> simp

theorem isSome_of_eq {h : Heap} {p : Nat} {n : linestruct} (hp : h p = some n) :
    (h p).isSome = true := by
  simp [hp]

theorem bind_map_opt {α β γ : Type} (x : Option α) (f : α → β) (g : β → Option γ) :
    (x.map f).bind g = x.bind (fun a => g (f a)) := by
  cases x <;> rfl

theorem bind_const_opt {α β : Type} (x : Option α) (k : Option β) :
    (x.bind fun _ => k) = if x.isSome then k else none := by
  cases x <;> rfl

theorem unpartition_buffer_eq {s : State} {p : partition} {ft fb : linestruct}
    (hp : s.filepart = some p)
    (hft : s.heap s.filetop = some ft) (hfb : s.heap s.filebot = some fb)
    (hprev : ∀ q, p.top_prev = some q → (s.heap q).isSome)
    (hnext : ∀ q, p.bot_next = some q → (s.heap q).isSome) :
    unpartition_buffer s = some
      { s with
          heap := (((((s.heap.setPrev s.filetop p.top_prev).setNextOpt p.top_prev
                      (some s.filetop)).mapData s.filetop (fun d => p.top_data ++ d)).setNext
                      s.filebot p.bot_next).setPrevOpt p.bot_next (some s.filebot)).mapData
                      s.filebot (fun d => d ++ p.bot_data),
          filetop := p.filetop.getD s.filetop,
          filebot := p.filebot.getD s.filebot,
          filepart := none } := by
  unfold Heap.setPrevOpt Heap.setNextOpt Heap.setPrev Heap.setNext Heap.mapData
  unfold unpartition_buffer
  cases h1 : p.top_prev with
  | none =>
    cases h2 : p.bot_next with
    | none =>
      simp [hp, modify_isSome, hft, hfb, Heap.upd_same, bind_map_opt, bind_const_opt, h1, h2]
      cases h3 : p.filetop <;> cases h4 : p.filebot <;> simp
    | some r =>
      have hr := hnext r h2
      simp [hp, modify_isSome, hft, hfb, Heap.upd_same, bind_map_opt, bind_const_opt, h1, h2, hr]
      cases h3 : p.filetop <;> cases h4 : p.filebot <;> simp
  | some q =>
    have hq := hprev q h1
    cases h2 : p.bot_next with
    | none =>
      simp [hp, modify_isSome, hft, hfb, Heap.upd_same, bind_map_opt, bind_const_opt, h1, h2, hq]
      cases h3 : p.filetop <;> cases h4 : p.filebot <;> simp
    | some r =>
      have hr := hnext r h2
      simp [hp, modify_isSome, hft, hfb, Heap.upd_same, bind_map_opt, bind_const_opt, h1, h2, hr, hq]
      cases h3 : p.filetop <;> cases h4 : p.filebot <;> simp

/-! ## Walking a segment -/

theorem getNode_of_eq {h : Heap} {p : Nat} {n : linestruct} (hp : h p = some n) :
    getNode h p = n := by
  simp [getNode, hp]

theorem getNode_data (h : Heap) (p : Nat) : (getNode h p).data = dataOf h p := by
  unfold getNode dataOf
  cases h p <;> rfl

theorem nodes_from_seg {h : Heap} {ps : List Nat} {pv : Option Nat}
    (hs : Seg h pv ps none) (fuel : Nat) (hf : ps.length ≤ fuel) :
    nodes_from fuel h (nextOf ps none) = some (ps.map (getNode h)) := by
  induction ps generalizing pv fuel with
  | nil => cases fuel <;> simp [nodes_from]
  | cons p rest ih =>
    rw [Seg_cons] at hs
    obtain ⟨n, hn, -, hnx⟩ := linksAt_some hs.1
    cases fuel with
    | zero => simp at hf
    | succ fuel =>
      have hlen : rest.length ≤ fuel := by simpa using hf
      simp only [nextOf_cons, nodes_from, hn, hnx, ih hs.2 fuel hlen, List.map_cons,
        getNode_of_eq hn]

theorem nodes_back_seg {h : Heap} {ps : List Nat} {nx : Option Nat}
    (hs : Seg h none ps nx) (fuel : Nat) (hf : ps.length ≤ fuel) :
    nodes_back fuel h (lastOf none ps) = some (ps.reverse.map (getNode h)) := by
  induction ps using List.reverseRecOn generalizing nx fuel with
  | nil => cases fuel <;> simp [nodes_back]
  | append_singleton a p ih =>
    rw [Seg.append] at hs
    have h2 := hs.2
    rw [Seg_cons] at h2
    obtain ⟨n, hn, hpv, -⟩ := linksAt_some h2.1
    cases fuel with
    | zero => simp at hf
    | succ fuel =>
      have hlen : a.length ≤ fuel := by simpa using hf
      simp only [lastOf_append_singleton, nodes_back, hn, hpv, ih hs.1 fuel hlen,
        List.reverse_append, List.reverse_cons, List.reverse_nil, List.nil_append,
        List.singleton_append, List.map_cons, getNode_of_eq hn]

theorem length_le_of_nodup_lt {ps : List Nat} {n : Nat} (hnd : ps.Nodup)
    (hlt : ∀ p ∈ ps, p < n) : ps.length ≤ n := by
  have h1 : ps.toFinset ⊆ Finset.range n := by
    intro p hp
    simp only [List.mem_toFinset] at hp
    simpa using hlt p hp
  have h2 := Finset.card_le_card h1
  rwa [List.toFinset_card_of_nodup hnd, Finset.card_range] at h2

theorem Buf.lt_brk {s : State} {ps : List Nat} (hb : Buf s ps) {p : Nat} (hp : p ∈ ps) :
    p < s.brk := by
  by_contra hge
  obtain ⟨n, hn⟩ := hb.seg.live hp
  rw [hb.fresh p (Nat.le_of_not_lt hge)] at hn
  cases hn

theorem Buf.length_le {s : State} {ps : List Nat} (hb : Buf s ps) : ps.length ≤ s.brk :=
  length_le_of_nodup_lt hb.nodup (fun _ hp => hb.lt_brk hp)

theorem Buf.nodes {s : State} {ps : List Nat} (hb : Buf s ps) :
    nodes_from s.brk s.heap (some s.filetop) = some (ps.map (getNode s.heap)) := by
  have h := nodes_from_seg hb.seg s.brk hb.length_le
  rwa [nextOf_of_head? none hb.top] at h

theorem Buf.lines {s : State} {ps : List Nat} (hb : Buf s ps) :
    buffer_lines s = some (ps.map (fun p => ((getNode s.heap p).data, (getNode s.heap p).lineno))) := by
  simp [buffer_lines, lines_from, hb.nodes, List.map_map, Function.comp_def]

theorem Buf.text {s : State} {ps : List Nat} (hb : Buf s ps) :
    buffer_text s = some (ps.map (dataOf s.heap)) := by
  simp [buffer_text, hb.nodes, List.map_map, Function.comp_def, getNode_data]

/-! ## Neighbours in a segment -/

theorem Seg.links_mid {h : Heap} {a b : List Nat} {p : Nat} {pv nx : Option Nat}
    (hs : Seg h pv (a ++ p :: b) nx) : linksAt h p = some (lastOf pv a, nextOf b nx) := by
  rw [Seg.append, Seg_cons] at hs
  exact hs.2.1

theorem lastOf_none_eq_some {a : List Nat} {q : Nat} (h : lastOf none a = some q) :
    ∃ a0, a = a0 ++ [q] := by
  induction a using List.reverseRecOn with
  | nil => simp at h
  | append_singleton a0 p _ =>
    rw [lastOf_append_singleton] at h
    cases h
    exact ⟨a0, rfl⟩

theorem nextOf_none_eq_some {b : List Nat} {r : Nat} (h : nextOf b none = some r) :
    ∃ b0, b = r :: b0 := by
  cases b with
  | nil => simp at h
  | cons x b0 =>
    simp at h
    exact ⟨b0, by rw [h]⟩

theorem Seg.prev_info {h : Heap} {a b : List Nat} {p q : Nat} {n : linestruct}
    (hs : Seg h none (a ++ p :: b) none) (hp : h p = some n) (hq : n.prev = some q) :
    q ∈ a ∧ ∃ m, h q = some m ∧ m.next = some p := by
  have hl := hs.links_mid
  rw [linksAt_of_eq hp] at hl
  simp only [Option.some.injEq, Prod.mk.injEq] at hl
  obtain ⟨a0, rfl⟩ := lastOf_none_eq_some (hl.1.symm.trans hq)
  refine ⟨by simp, ?_⟩
  rw [List.append_assoc] at hs
  have hl2 := hs.links_mid
  obtain ⟨m, hm, -, hmn⟩ := linksAt_some hl2
  exact ⟨m, hm, by simpa using hmn⟩

theorem Seg.next_info {h : Heap} {a b : List Nat} {p r : Nat} {n : linestruct}
    (hs : Seg h none (a ++ p :: b) none) (hp : h p = some n) (hr : n.next = some r) :
    r ∈ b ∧ ∃ m, h r = some m ∧ m.prev = some p := by
  have hl := hs.links_mid
  rw [linksAt_of_eq hp] at hl
  simp only [Option.some.injEq, Prod.mk.injEq] at hl
  obtain ⟨b0, rfl⟩ := nextOf_none_eq_some (hl.2.symm.trans hr)
  refine ⟨by simp, ?_⟩
  have hs2 : Seg h none ((a ++ [p]) ++ r :: b0) none := by simpa using hs
  have hl2 := hs2.links_mid
  obtain ⟨m, hm, hmp, -⟩ := linksAt_some hl2
  exact ⟨m, hm, by simpa [lastOf_append_singleton] using hmp⟩

theorem mem_of_head? {l : List Nat} {x : Nat} (h : l.head? = some x) : x ∈ l := by
  cases l with
  | nil => simp at h
  | cons y r => simp at h; simp [h]

theorem eq_cons_of_head? {l : List Nat} {x : Nat} (h : l.head? = some x) :
    ∃ r, l = x :: r := by
  cases l with
  | nil => simp at h
  | cons y r => simp at h; exact ⟨r, by rw [h]⟩

theorem eq_append_of_getLast? {l : List Nat} {x : Nat} (h : l.getLast? = some x) :
    ∃ r, l = r ++ [x] := by
  induction l using List.reverseRecOn with
  | nil => simp at h
  | append_singleton r y _ => simp at h; exact ⟨r, by rw [h]⟩

/-- A buffer over a heap that is given by its list of cells. -/
theorem Buf.of_cells {s : State} {ps : List Nat} (cells : List (Option linestruct))
    (hh : s.heap = heapOf cells) (hk : cells.length ≤ s.brk) (hnd : ps.Nodup)
    (hseg : Seg s.heap none ps none) (ht : ps.head? = some s.filetop)
    (hb : ps.getLast? = some s.filebot) : Buf s ps where
  nodup := hnd
  seg := hseg
  top := ht
  bot := hb
  fresh := by
    intro p hp
    rw [hh]
    unfold heapOf
    rw [List.get?_eq_none.2 (le_trans hk hp)]
    rfl

theorem take_drop_take_drop (d : List Nat) {x y : Nat} (hxy : x ≤ y) :
    List.take x d ++ (List.drop x (List.take y d) ++ List.drop y d) = d := by
  have : List.take x d = List.take x (List.take y d) := by
    rw [List.take_take, Nat.min_eq_left hxy]
  rw [this, ← List.append_assoc, List.take_append_drop, List.take_append_drop]

theorem roundtrip_heap {h : Heap} {top bot : Nat} {t b : linestruct} (top_x bot_x : Nat)
    (ht : h top = some t) (hb : h bot = some b)
    (hq : ∀ q, t.prev = some q → q ≠ top ∧ q ≠ bot ∧ ∃ n, h q = some n ∧ n.next = some top)
    (hr : ∀ r, b.next = some r → r ≠ top ∧ r ≠ bot ∧ ∃ n, h r = some n ∧ n.prev = some bot)
    (hsame : top = bot → top_x ≤ bot_x) :
    ((((((((((h.setPrev top none).setNext bot none).mapData bot (List.take bot_x)).mapData top
      (List.drop top_x)).setPrev top t.prev).setNextOpt t.prev (some top)).mapData top
      (fun d => t.data.take top_x ++ d)).setNext bot b.next).setPrevOpt b.next (some bot)).mapData
      bot (fun d => d ++ b.data.drop bot_x)) = h := by
  unfold Heap.setPrevOpt Heap.setNextOpt Heap.setPrev Heap.setNext Heap.mapData
  funext x
  obtain ⟨td, tl, tn, tp⟩ := t
  obtain ⟨bd, bl, bn, bp⟩ := b
  simp only at hq hr ⊢
  by_cases e : top = bot
  · subst e
    rw [ht] at hb
    simp only [Option.some.injEq, linestruct.mk.injEq] at hb
    obtain ⟨rfl, rfl, rfl, rfl⟩ := hb
    have hd := take_drop_take_drop td (hsame rfl)
    cases tp with
    | none =>
      cases tn with
      | none =>
        by_cases ex : x = top
        · subst ex
          simp [Heap.upd, ht, hd]
        · simp [Heap.upd, ht, ex]
      | some r =>
        obtain ⟨hr1, -, ⟨md, ml, mn, mp⟩, hm, hmp⟩ := hr r rfl
        simp only at hmp
        subst hmp
        by_cases ex : x = top
        · subst ex
          simp [Heap.upd, ht, hd, Ne.symm hr1]
        · by_cases exr : x = r
          · subst exr
            simp [Heap.upd, ht, hr1, hm]
          · simp [Heap.upd, ht, ex, exr]
    | some q =>
      obtain ⟨hq1, -, ⟨nd, nl, nn, np⟩, hmq, hmqn⟩ := hq q rfl
      simp only at hmqn
      subst hmqn
      cases tn with
      | none =>
        by_cases ex : x = top
        · subst ex
          simp [Heap.upd, ht, hd, Ne.symm hq1]
        · by_cases exq : x = q
          · subst exq
            simp [Heap.upd, ht, hq1, hmq]
          · simp [Heap.upd, ht, ex, exq]
      | some r =>
        obtain ⟨hr1, -, ⟨md, ml, mn, mp⟩, hm, hmp⟩ := hr r rfl
        simp only at hmp
        subst hmp
        by_cases ex : x = top
        · subst ex
          simp [Heap.upd, ht, hd, Ne.symm hr1, Ne.symm hq1]
        · by_cases exq : x = q
          · subst exq
            by_cases eqr : x = r
            · subst eqr
              rw [hmq] at hm
              simp only [Option.some.injEq, linestruct.mk.injEq] at hm
              obtain ⟨rfl, rfl, rfl, rfl⟩ := hm
              simp [Heap.upd, ht, hq1, hmq]
            · simp [Heap.upd, ht, hq1, hmq, eqr]
          · by_cases exr : x = r
            · subst exr
              simp [Heap.upd, ht, hr1, hm, exq]
            · simp [Heap.upd, ht, ex, exq, exr]
  · have e2 : ¬ bot = top := fun e3 => e (e3.symm)
    cases tp with
    | none =>
      cases bn with
      | none =>
        by_cases ex : x = top
        · subst ex
          simp [Heap.upd, ht, hb, e, e2]
        · by_cases exb : x = bot
          · subst exb
            simp [Heap.upd, ht, hb, e, e2]
          · simp [Heap.upd, ht, hb, ex, exb]
      | some r =>
        obtain ⟨hr1, hr2, ⟨md, ml, mn, mp⟩, hm, hmp⟩ := hr r rfl
        simp only at hmp
        subst hmp
        by_cases ex : x = top
        · subst ex
          simp [Heap.upd, ht, hb, e, e2, Ne.symm hr1]
        · by_cases exb : x = bot
          · subst exb
            simp [Heap.upd, ht, hb, e, e2, Ne.symm hr2]
          · by_cases exr : x = r
            · subst exr
              simp [Heap.upd, ht, hb, hr1, hr2, hm]
            · simp [Heap.upd, ht, hb, ex, exb, exr]
    | some q =>
      obtain ⟨hq1, hq2, ⟨nd, nl, nn, np⟩, hmq, hmqn⟩ := hq q rfl
      simp only at hmqn
      subst hmqn
      cases bn with
      | none =>
        by_cases ex : x = top
        · subst ex
          simp [Heap.upd, ht, hb, e, e2, Ne.symm hq1]
        · by_cases exb : x = bot
          · subst exb
            simp [Heap.upd, ht, hb, e, e2, Ne.symm hq2]
          · by_cases exq : x = q
            · subst exq
              simp [Heap.upd, ht, hb, hq1, hq2, hmq]
            · simp [Heap.upd, ht, hb, ex, exb, exq]
      | some r =>
        obtain ⟨hr1, hr2, ⟨md, ml, mn, mp⟩, hm, hmp⟩ := hr r rfl
        simp only at hmp
        subst hmp
        by_cases ex : x = top
        · subst ex
          simp [Heap.upd, ht, hb, e, e2, Ne.symm hr1, Ne.symm hq1]
        · by_cases exb : x = bot
          · subst exb
            simp [Heap.upd, ht, hb, e, e2, Ne.symm hr2, Ne.symm hq2]
          · by_cases exq : x = q
            · subst exq
              by_cases eqr : x = r
              · subst eqr
                rw [hmq] at hm
                simp only [Option.some.injEq, linestruct.mk.injEq] at hm
                obtain ⟨rfl, rfl, rfl, rfl⟩ := hm
                simp [Heap.upd, ht, hb, hq1, hq2, hmq]
              · simp [Heap.upd, ht, hb, hq1, hq2, hmq, eqr]
            · by_cases exr : x = r
              · subst exr
                simp [Heap.upd, ht, hb, hr1, hr2, hm, exq]
              · simp [Heap.upd, ht, hb, ex, exb, exq, exr]

/-- C1: for a buffer with lines `A ++ R ++ B`, where the range `R` starts at
line `top` and ends at line `bot` (so `top` is not after `bot`), and offsets
within their lines with `top_x ≤ bot_x` when `top = bot`:
`partition_buffer` followed at once by `unpartition_buffer` succeeds and
leaves the same sequence of (content, line number) pairs, the same `filetop`
and `filebot`, and indeed the same heap. -/
theorem partition_unpartition_restores (s : State) (A R B : List Nat)
    (top top_x bot bot_x : Nat)
    (hbuf : Buf s (A ++ R ++ B)) (htop : R.head? = some top) (hbot : R.getLast? = some bot)
    (htx : top_x ≤ (dataOf s.heap top).length) (hbx : bot_x ≤ (dataOf s.heap bot).length)
    (hsame : top = bot → top_x ≤ bot_x) :
    ∃ s1 p s2, partition_buffer s top top_x bot bot_x = some (s1, p) ∧
      unpartition_buffer { s1 with filepart := some p } = some s2 ∧
      buffer_lines s2 = buffer_lines s ∧
      (∃ ls, buffer_lines s = some ls ∧ ls.length = (A ++ R ++ B).length) ∧
      s2.filetop = s.filetop ∧ s2.filebot = s.filebot ∧ s2.heap = s.heap := by
  obtain ⟨R1, rfl⟩ := eq_cons_of_head? htop
  obtain ⟨R0, hR0⟩ := eq_append_of_getLast? hbot
  have hmt : top ∈ A ++ top :: R1 ++ B := by simp
  have hmb : bot ∈ A ++ top :: R1 ++ B := by
    rw [hR0]; simp
  obtain ⟨t, ht⟩ := hbuf.seg.live hmt
  obtain ⟨b, hb⟩ := hbuf.seg.live hmb
  rw [dataOf_of_eq ht] at htx
  rw [dataOf_of_eq hb] at hbx
  have hnd := hbuf.nodup
  have hseg1 : Seg s.heap none (A ++ top :: (R1 ++ B)) none := by simpa using hbuf.seg
  have hseg2 : Seg s.heap none ((A ++ R0) ++ bot :: B) none := by
    have := hbuf.seg
    rw [hR0] at this
    simpa using this
  have hq : ∀ q, t.prev = some q → q ≠ top ∧ q ≠ bot ∧
      ∃ n, s.heap q = some n ∧ n.next = some top := by
    intro q hq
    obtain ⟨hqa, hm⟩ := hseg1.prev_info ht hq
    have hnd1 : (A ++ (top :: R1 ++ B)).Nodup := by simpa using hnd
    have hdis := (List.nodup_append.1 hnd1).2.2
    refine ⟨fun e => hdis hqa (by simp [e]), fun e => hdis hqa ?_, hm⟩
    rw [hR0, ← e]; simp
  have hr : ∀ r, b.next = some r → r ≠ top ∧ r ≠ bot ∧
      ∃ n, s.heap r = some n ∧ n.prev = some bot := by
    intro r hr
    obtain ⟨hrb, hm⟩ := hseg2.next_info hb hr
    have hdis := (List.nodup_append.1 hnd).2.2
    refine ⟨fun e => hdis (a := r) ?_ hrb, fun e => hdis (a := r) ?_ hrb, hm⟩
    · rw [e]; simp
    · rw [hR0, e]; simp
  have hpart := partition_buffer_eq top_x bot_x ht hb htx hbx hsame
  have hlt : ((((s.heap.setPrev top none).setNext bot none).mapData bot
      (List.take bot_x)).mapData top (List.drop top_x) top).isSome := by simp [ht]
  have hlb : ((((s.heap.setPrev top none).setNext bot none).mapData bot
      (List.take bot_x)).mapData top (List.drop top_x) bot).isSome := by simp [hb]
  obtain ⟨t1, ht1⟩ := Option.isSome_iff_exists.1 hlt
  obtain ⟨b1, hb1⟩ := Option.isSome_iff_exists.1 hlb
  have hun := unpartition_buffer_eq
      (p := { filetop := (if top ≠ s.filetop then some s.filetop else none),
              top_prev := t.prev, top_data := t.data.take top_x,
              filebot := (if bot ≠ s.filebot then some s.filebot else none),
              bot_next := b.next, bot_data := b.data.drop bot_x })
      (s := { s with
          filetop := top, filebot := bot,
          filepart := some { filetop := (if top ≠ s.filetop then some s.filetop else none),
                             top_prev := t.prev, top_data := t.data.take top_x,
                             filebot := (if bot ≠ s.filebot then some s.filebot else none),
                             bot_next := b.next, bot_data := b.data.drop bot_x },
          heap := (((s.heap.setPrev top none).setNext bot none).mapData bot
                      (List.take bot_x)).mapData top (List.drop top_x) }) rfl ht1 hb1
      (by
        intro q hq0
        obtain ⟨-, -, n, hn, -⟩ := hq q hq0
        simp [hn])
      (by
        intro q hq0
        obtain ⟨-, -, n, hn, -⟩ := hr q hq0
        simp [hn])
  simp only [roundtrip_heap top_x bot_x ht hb hq hr hsame] at hun
  refine ⟨_, _, _, hpart, hun, ?_, ⟨_, hbuf.lines, by simp⟩, ?_, ?_, rfl⟩
  · by_cases e : top = s.filetop <;> by_cases e2 : bot = s.filebot <;>
      simp [e, e2, buffer_lines, lines_from]
  · by_cases e : top = s.filetop <;> simp [e]
  · by_cases e : bot = s.filebot <;> simp [e]

/-! ## Closed forms of the loops -/

theorem set_eq_setLineno {h : Heap} {p : Nat} {n : linestruct} (hp : h p = some n) (k : Int) :
    h.set p (some { n with lineno := k }) = h.setLineno p k := by
  funext q
  by_cases e : q = p
  · subst e; simp [Heap.set, Heap.setLineno, Heap.upd, hp]
  · simp [Heap.set, Heap.setLineno, Heap.upd, e]

theorem renumber_loop_eq {s : State} {ps : List Nat} {pv : Option Nat}
    (hs : Seg s.heap pv ps none) (fuel : Nat) (hf : ps.length ≤ fuel) (k : Int) :
    renumber_loop fuel s (nextOf ps none) k = some { s with heap := s.heap.renum ps k } := by
  induction ps generalizing s fuel pv k with
  | nil => cases fuel <;> rfl
  | cons p rest ih =>
    rw [Seg_cons] at hs
    obtain ⟨n, hn, -, hnx⟩ := linksAt_some hs.1
    cases fuel with
    | zero => simp at hf
    | succ fuel =>
      have hlen : rest.length ≤ fuel := by simpa using hf
      have hnx1 : n.next = nextOf rest none := hnx
      simp only [nextOf_cons, renumber_loop, hn]
      rw [set_eq_setLineno hn, hnx1]
      have := ih (s := { s with heap := s.heap.setLineno p (k + 1) })
        (Seg.setLineno p (k + 1) hs.2) fuel hlen (k + 1)
      simp only at this
      rw [this]
      rfl

theorem renumber_eq {s : State} {line : Nat} {rest : List Nat} {pv : Option Nat} {k : Int}
    (hs : Seg s.heap pv (line :: rest) none) (hf : (line :: rest).length ≤ s.brk)
    (hk : (pv = none → k = 0) ∧ (∀ q, pv = some q → linenoAt s.heap q = some k)) :
    renumber s line = some { s with heap := s.heap.renum (line :: rest) k } := by
  have hl := hs
  rw [Seg_cons] at hl
  obtain ⟨n, hn, hpv, -⟩ := linksAt_some hl.1
  have hloop := renumber_loop_eq hs s.brk hf k
  simp only [nextOf_cons] at hloop
  unfold renumber
  simp only [hn]
  cases pv with
  | none =>
    simp only at hpv
    have hk0 := hk.1 rfl
    simp only [hpv, hk0] at hloop ⊢
    exact hloop
  | some q =>
    simp only at hpv
    have hk1 := hk.2 q rfl
    unfold linenoAt at hk1
    cases hq : s.heap q with
    | none => simp [hq] at hk1
    | some m =>
      simp only [hq, Option.map_some', Option.some.injEq] at hk1
      simp only [hpv, hq, hk1]
      exact hloop

theorem sizeOf_cons (h : Heap) (p q : Nat) (rest : List Nat) :
    sizeOf h (p :: q :: rest) = (dataOf h p).length + 1 + sizeOf h (q :: rest) := by
  simp [sizeOf]
  omega

theorem sizeOf_singleton (h : Heap) (p : Nat) : sizeOf h [p] = (dataOf h p).length := by
  simp [sizeOf]

theorem get_totsize_loop_eq {s : State} {R : List Nat} {pv nx : Option Nat} {top bot : Nat}
    (hs : Seg s.heap pv R nx) (hnd : R.Nodup) (htop : R.head? = some top)
    (hbot : R.getLast? = some bot) (fuel : Nat) (hf : R.length ≤ fuel) :
    get_totsize_loop fuel s top bot = some (sizeOf s.heap R) := by
  induction R generalizing fuel pv top with
  | nil => simp at htop
  | cons p rest ih =>
    simp only [List.head?_cons, Option.some.injEq] at htop
    subst htop
    rw [Seg_cons] at hs
    obtain ⟨n, hn, -, hnx⟩ := linksAt_some hs.1
    cases fuel with
    | zero => simp at hf
    | succ fuel =>
      have hlen : rest.length ≤ fuel := by simpa using hf
      cases rest with
      | nil =>
        simp only [List.getLast?_singleton, Option.some.injEq] at hbot
        subst hbot
        simp [get_totsize_loop, hn, sizeOf_singleton, dataOf_of_eq hn]
      | cons q rest =>
        have hne : p ≠ bot := by
          intro e
          have : bot ∈ q :: rest := by
            rw [List.getLast?_cons_cons] at hbot
            exact List.mem_of_getLast?_eq_some hbot
          exact (List.nodup_cons.1 hnd).1 (e ▸ this)
        rw [List.getLast?_cons_cons] at hbot
        have := ih hs.2 (List.nodup_cons.1 hnd).2 rfl hbot fuel hlen
        simp only [nextOf_cons] at hnx
        simp [get_totsize_loop, hn, hne, hnx, this, sizeOf_cons, dataOf_of_eq hn]

/-! ## Unpartitioning -/

theorem Seg.retarget_next {h : Heap} {a : List Nat} {pv nx : Option Nat}
    (hnd : a.Nodup) (hs : Seg h pv a nx) (x : Option Nat) :
    Seg (h.setNextOpt (lastOf none a) x) pv a x := by
  induction a using List.reverseRecOn with
  | nil => simp
  | append_singleton a0 q _ =>
    rw [lastOf_append_singleton]
    exact Seg.setNext_last hnd hs x

theorem Seg.retarget_prev {h : Heap} {b : List Nat} {pv nx : Option Nat}
    (hnd : b.Nodup) (hs : Seg h pv b nx) (x : Option Nat) :
    Seg (h.setPrevOpt (nextOf b none) x) x b nx := by
  cases b with
  | nil => simp
  | cons q b0 =>
    rw [nextOf_cons]
    exact Seg.setPrev_head hnd hs x

theorem Seg.setNextOpt_not_mem {h : Heap} {ps : List Nat} {pv nx : Option Nat} {q : Option Nat}
    (v : Option Nat) (hq : ∀ x, q = some x → x ∉ ps) (hs : Seg h pv ps nx) :
    Seg (h.setNextOpt q v) pv ps nx := by
  cases q with
  | none => exact hs
  | some x => exact Seg.setNext_not_mem v (hq x rfl) hs

theorem Seg.setPrevOpt_not_mem {h : Heap} {ps : List Nat} {pv nx : Option Nat} {q : Option Nat}
    (v : Option Nat) (hq : ∀ x, q = some x → x ∉ ps) (hs : Seg h pv ps nx) :
    Seg (h.setPrevOpt q v) pv ps nx := by
  cases q with
  | none => exact hs
  | some x => exact Seg.setPrev_not_mem v (hq x rfl) hs

theorem lastOf_mem {a : List Nat} {x : Nat} (h : lastOf none a = some x) : x ∈ a := by
  obtain ⟨a0, rfl⟩ := lastOf_none_eq_some h
  simp

theorem nextOf_mem {b : List Nat} {x : Nat} (h : nextOf b none = some x) : x ∈ b := by
  obtain ⟨b0, rfl⟩ := nextOf_none_eq_some h
  simp

theorem lastOf_some_of_ne_nil {a : List Nat} (pv : Option Nat) (h : a ≠ []) :
    ∃ x, lastOf pv a = some x ∧ a.getLast? = some x := by
  induction a using List.reverseRecOn with
  | nil => exact absurd rfl h
  | append_singleton a0 q _ => exact ⟨q, lastOf_append_singleton _ _ _, by simp⟩

/-- The heap that `unpartition_buffer` leaves. -/
theorem unpartition_buffer_parted {s : State} {A S B : List Nat} {p : partition}
    (hp : Parted s A S B p) :
    unpartition_buffer s = some
      { s with
          heap := (((((s.heap.setPrev s.filetop p.top_prev).setNextOpt p.top_prev
                      (some s.filetop)).mapData s.filetop (fun d => p.top_data ++ d)).setNext
                      s.filebot p.bot_next).setPrevOpt p.bot_next (some s.filebot)).mapData
                      s.filebot (fun d => d ++ p.bot_data),
          filetop := p.filetop.getD s.filetop,
          filebot := p.filebot.getD s.filebot,
          filepart := none } ∧
    Seg ((((((s.heap.setPrev s.filetop p.top_prev).setNextOpt p.top_prev
                      (some s.filetop)).mapData s.filetop (fun d => p.top_data ++ d)).setNext
                      s.filebot p.bot_next).setPrevOpt p.bot_next (some s.filebot)).mapData
                      s.filebot (fun d => d ++ p.bot_data)) none (A ++ S ++ B) none ∧
    (A ++ S ++ B).head? = some (p.filetop.getD s.filetop) ∧
    (A ++ S ++ B).getLast? = some (p.filebot.getD s.filebot) := by
  obtain ⟨nxA, hA⟩ := hp.segA
  obtain ⟨pvS, nxS, hS⟩ := hp.segS
  obtain ⟨pvB, hB⟩ := hp.segB
  obtain ⟨S1, hS1⟩ := eq_cons_of_head? hp.ftop
  obtain ⟨S0, hS0⟩ := eq_append_of_getLast? hp.fbot
  have hnd := hp.nodup
  have hndA : A.Nodup := (List.nodup_append.1 (List.nodup_append.1 hnd).1).1
  have hndS : S.Nodup := (List.nodup_append.1 (List.nodup_append.1 hnd).1).2.1
  have hndB : B.Nodup := (List.nodup_append.1 hnd).2.1
  have hAS : ∀ x, x ∈ A → x ∉ S := fun x h1 h2 =>
    (List.nodup_append.1 (List.nodup_append.1 hnd).1).2.2 h1 h2
  have hAB : ∀ x, x ∈ A → x ∉ B := fun x h1 h2 =>
    (List.nodup_append.1 hnd).2.2 (List.mem_append_left _ h1) h2
  have hSB : ∀ x, x ∈ S → x ∉ B := fun x h1 h2 =>
    (List.nodup_append.1 hnd).2.2 (List.mem_append_right _ h1) h2
  have hft : s.filetop ∈ S := by rw [hS1]; simp
  have hfb : s.filebot ∈ S := by rw [hS0]; simp
  obtain ⟨ft, hftn⟩ := hS.live hft
  obtain ⟨fb, hfbn⟩ := hS.live hfb
  refine ⟨?_, ?_, ?_, ?_⟩
  · refine unpartition_buffer_eq hp.part hftn hfbn ?_ ?_
    · intro q hq
      rw [hp.top_prev] at hq
      obtain ⟨n, hn⟩ := hA.live (lastOf_mem hq)
      simp [hn]
    · intro q hq
      rw [hp.bot_next] at hq
      obtain ⟨n, hn⟩ := hB.live (nextOf_mem hq)
      simp [hn]
  · rw [Seg.append, Seg.append]
    refine ⟨⟨?_, ?_⟩, ?_⟩
    · -- the lines above
      apply Seg.mapData
      apply Seg.setPrevOpt_not_mem
      · intro x hx
        rw [hp.bot_next] at hx
        exact fun h1 => hAB x h1 (nextOf_mem hx)
      apply Seg.setNext_not_mem _ (fun h1 => hAS _ h1 hfb)
      apply Seg.mapData
      rw [nextOf_of_head? _ hp.ftop, hp.top_prev]
      apply Seg.retarget_next hndA
      exact Seg.setPrev_not_mem _ (fun h1 => hAS _ h1 hft) hA
    · -- the partition
      apply Seg.mapData
      apply Seg.setPrevOpt_not_mem
      · intro x hx
        rw [hp.bot_next] at hx
        exact fun h1 => hSB x h1 (nextOf_mem hx)
      rw [hS0, hp.bot_next]
      apply Seg.setNext_last (by rw [← hS0]; exact hndS)
      rw [← hS0]
      apply Seg.mapData
      apply Seg.setNextOpt_not_mem
      · intro x hx
        rw [hp.top_prev] at hx
        exact fun h1 => hAS x (lastOf_mem hx) h1
      rw [hS1, hp.top_prev]
      apply Seg.setPrev_head (by rw [← hS1]; exact hndS)
      rw [← hS1]
      exact hS
    · -- the lines below
      apply Seg.mapData
      have e : lastOf none (A ++ S) = some s.filebot := by
        rw [lastOf_append]; exact lastOf_of_getLast? _ hp.fbot
      rw [e, hp.bot_next]
      apply Seg.retarget_prev hndB
      apply Seg.setNext_not_mem _ (fun h1 => hSB _ hfb h1)
      apply Seg.mapData
      apply Seg.setNextOpt_not_mem
      · intro x hx
        rw [hp.top_prev] at hx
        exact fun h1 => hAB x (lastOf_mem hx) h1
      exact Seg.setPrev_not_mem _ (fun h1 => hSB _ hft h1) hB
  · rw [hp.ptop]
    cases A with
    | nil => simp [hS1]
    | cons a A0 => simp
  · rw [hp.pbot]
    induction B using List.reverseRecOn with
    | nil => simp [hS0]
    | append_singleton B0 b _ =>
      simp [← List.append_assoc]

/-! ## Renumbering and the magic line -/

theorem lastNumber_spec {h : Heap} {A : List Nat} {nx : Option Nat} (hA : Seg h none A nx) :
    (lastOf none A = none → lastNumber h A = 0) ∧
      (∀ q, lastOf none A = some q → linenoAt h q = some (lastNumber h A)) := by
  induction A using List.reverseRecOn with
  | nil => simp [lastNumber]
  | append_singleton A0 q _ =>
    rw [lastOf_append_singleton]
    obtain ⟨n, hn⟩ := hA.live (show q ∈ A0 ++ [q] by simp)
    simp [lastNumber, linenoAt, hn, getNode]

theorem lastNumber_frame {h h1 : Heap} {A : List Nat}
    (hf : ∀ x ∈ A, h1 x = h x) : lastNumber h1 A = lastNumber h A := by
  induction A using List.reverseRecOn with
  | nil => simp [lastNumber]
  | append_singleton A0 q _ =>
    simp [lastNumber, getNode, hf q (by simp)]

theorem Numbered.last {h : Heap} {k : Int} {a : List Nat} {q : Nat}
    (hn : Numbered h k (a ++ [q])) : linenoAt h q = some (k + a.length + 1) := by
  rw [Numbered.append_iff] at hn
  exact hn.2.1

theorem Numbered.getLast {h : Heap} {k : Int} {a : List Nat} {q : Nat}
    (hn : Numbered h k a) (hq : a.getLast? = some q) : linenoAt h q = some (k + a.length) := by
  obtain ⟨a0, rfl⟩ := eq_append_of_getLast? hq
  have := hn.last
  rw [this]
  simp
  ring

theorem eq_none_of_isSome_eq {α : Type} {a b : Option α} (h : a.isSome = b.isSome)
    (hb : b = none) : a = none := by
  subst hb
  cases a with
  | none => rfl
  | some x => simp at h

theorem eq_of_getLast?_append {A SB : List Nat} {q : Nat} (hne : SB ≠ [])
    (h : (A ++ SB).getLast? = some q) : SB.getLast? = some q := by
  rwa [List.getLast?_append_of_ne_nil _ hne] at h

theorem getLast?_snoc (L : List Nat) (q : Nat) : (L ++ [q]).getLast? = some q := by
  simp

theorem lastNumber_of_numbered {h : Heap} {k : Int} {a : List Nat} (hne : a ≠ [])
    (hn : Numbered h k a) : lastNumber h a = k + a.length := by
  induction a using List.reverseRecOn with
  | nil => exact absurd rfl hne
  | append_singleton a0 q _ =>
    have := hn.last
    unfold linenoAt at this
    cases hq : h q with
    | none => simp [hq] at this
    | some n =>
      simp only [hq, Option.map_some', Option.some.injEq] at this
      simp [lastNumber, getNode, hq, this]
      ring

theorem magic_heap_eq (h : Heap) (b fbp : Nat) (k : Int) (hne : fbp ≠ b) :
    (((h.set b (some ⟨[], k, none, some fbp⟩)).upd fbp
        (fun n => { n with next := some b })).upd b (fun n => { n with data := [] })) =
      (h.set b (some ⟨[], k, none, some fbp⟩)).setNext fbp (some b) := by
  funext x
  by_cases e : x = b
  · subst e
    simp [Heap.upd, Heap.setNext, Heap.set, Ne.symm hne]
  · simp [Heap.upd, Heap.setNext, Heap.set, e]

theorem new_magicline_eq {s : State} {fb : linestruct} (hfb : s.heap s.filebot = some fb)
    (hne : s.filebot ≠ s.brk) :
    new_magicline s = some
      { s with
          heap := (s.heap.set s.brk (some ⟨[], fb.lineno + 1, none, some s.filebot⟩)).setNext
                      s.filebot (some s.brk),
          brk := s.brk + 1, filebot := s.brk, totsize := s.totsize + 1 } := by
  unfold new_magicline make_new_node State.alloc
  simp [hfb, modify_isSome, Heap.set, hne, Ne.symm hne]
  have := magic_heap_eq s.heap s.brk s.filebot (fb.lineno + 1) hne
  unfold Heap.set at this
  exact this

theorem Buf.mem_live {s : State} {L : List Nat} (hb : Buf s L) {x : Nat} (hx : x ∈ L) :
    (s.heap x).isSome := by
  obtain ⟨n, hn⟩ := hb.seg.live hx
  simp [hn]

theorem Buf.filebot_mem {s : State} {L : List Nat} (hb : Buf s L) : s.filebot ∈ L :=
  List.mem_of_getLast?_eq_some hb.bot

theorem Buf.filetop_mem {s : State} {L : List Nat} (hb : Buf s L) : s.filetop ∈ L :=
  mem_of_head? hb.top

/-- What `renumber_and_magic` does to a buffer `A ++ SB` when renumbering
starts at the first line of `SB`. -/
theorem renumber_and_magic_spec {s : State} {A SB : List Nat} {x : Nat}
    (hb : Buf s (A ++ SB)) (hx : SB.head? = some x) :
    ∃ H M, renumber_and_magic s x = some
        { s with heap := H, brk := s.brk + M.length,
                 filebot := (M.head?).getD s.filebot,
                 totsize := s.totsize + M.length } ∧
      Seg H none (A ++ SB ++ M) none ∧
      (A ++ SB ++ M).Nodup ∧
      (A ++ SB ++ M).getLast? = some ((M.head?).getD s.filebot) ∧
      (∀ y, s.brk + M.length ≤ y → H y = none) ∧
      (∀ y ∈ A ++ SB, dataAt H y = dataAt s.heap y) ∧
      (∀ y ∈ M, dataAt H y = some []) ∧
      (∀ y, y ∉ SB → y ∉ M → linenoAt H y = linenoAt s.heap y) ∧
      Numbered H (lastNumber s.heap A) (SB ++ M) ∧
      (∀ y, y ∉ A ++ SB ++ M → H y = s.heap y) ∧
      (M = [] ∨ M = [s.brk]) ∧
      (M ≠ [] ↔ (s.NO_NEWLINES = false ∧ dataOf s.heap s.filebot ≠ [])) := by
  obtain ⟨SB1, rfl⟩ := eq_cons_of_head? hx
  have hseg := hb.seg
  rw [Seg.append] at hseg
  have hk := lastNumber_spec hseg.1
  have hndSB : (x :: SB1).Nodup := (List.nodup_append.1 hb.nodup).2.1
  have hlen : (x :: SB1).length ≤ s.brk :=
    length_le_of_nodup_lt hndSB (fun y hy => hb.lt_brk (List.mem_append_right _ hy))
  have hren := renumber_eq (k := lastNumber s.heap A) hseg.2 hlen hk
  have hfbm := hb.filebot_mem
  obtain ⟨fb, hfb⟩ := hb.seg.live hfbm
  have hfb2 : (s.heap.renum (x :: SB1) (lastNumber s.heap A) s.filebot).isSome := by
    simp [hfb]
  obtain ⟨fb2, hfb2⟩ := Option.isSome_iff_exists.1 hfb2
  have hd2 : fb2.data = fb.data := by
    have h1 := dataAt_renum s.heap (x :: SB1) (lastNumber s.heap A) s.filebot
    rw [dataAt_of_eq hfb2, dataAt_of_eq hfb] at h1
    simpa using h1
  have hnum2 : Numbered (s.heap.renum (x :: SB1) (lastNumber s.heap A)) (lastNumber s.heap A)
      (x :: SB1) :=
    Numbered_renum _ _ _ hndSB (fun y hy => hb.mem_live (List.mem_append_right _ hy))
  unfold renumber_and_magic
  rw [hren]
  simp only [hfb2, hd2]
  by_cases hc : ¬ s.NO_NEWLINES = true ∧ fb.data ≠ []
  · -- a magic line is added
    rw [if_pos hc]
    have hne : s.filebot ≠ s.brk := Nat.ne_of_lt (hb.lt_brk hfbm)
    have hbrk : s.brk ∉ A ++ x :: SB1 := fun hm => Nat.lt_irrefl _ (hb.lt_brk hm)
    refine ⟨((s.heap.renum (x :: SB1) (lastNumber s.heap A)).set s.brk
        (some ⟨[], fb2.lineno + 1, none, some s.filebot⟩)).setNext s.filebot (some s.brk),
      [s.brk], ?_, ?_, ?_, ?_, ?_, ?_, ?_, ?_, ?_, ?_, Or.inr rfl, ?_⟩
    · rw [new_magicline_eq (s := { s with heap := s.heap.renum (x :: SB1) (lastNumber s.heap A) })
        hfb2 hne]
      rfl
    · rw [Seg.append]
      obtain ⟨L0, hL0⟩ := eq_append_of_getLast? hb.bot
      refine ⟨?_, ?_⟩
      · rw [hL0]
        apply Seg.setNext_last (by rw [← hL0]; exact hb.nodup)
        rw [← hL0]
        apply Seg.set_not_mem _ hbrk
        exact Seg.renum _ _ hb.seg
      · rw [lastOf_of_getLast? _ hb.bot, Seg_cons]
        simp [linksAt_setNext, Ne.symm hne, linksAt_set]
    · rw [List.nodup_append]
      refine ⟨hb.nodup, by simp, ?_⟩
      intro a ha hb2
      simp only [List.mem_singleton] at hb2
      exact hbrk (hb2 ▸ ha)
    · exact getLast?_snoc _ _
    · intro y hy
      have h1 : y ≠ s.brk := by simp at hy; omega
      have h2 : y ≠ s.filebot := by
        have := hb.lt_brk hfbm
        simp at hy; omega
      have h3 : s.heap y = none := hb.fresh y (by simp at hy; omega)
      simp only [Heap.setNext, Heap.upd_ne _ _ h2, Heap.set_ne _ _ h1]
      exact eq_none_of_isSome_eq (renum_isSome s.heap (x :: SB1) (lastNumber s.heap A) y) h3
    · intro y hy
      have h1 : y ≠ s.brk := fun e => hbrk (e ▸ hy)
      simp [dataAt_set, h1]
    · intro y hy
      simp only [List.mem_singleton] at hy
      subst hy
      simp [dataAt_set]
    · intro y hy1 hy2
      have h1 : y ≠ s.brk := by simpa using hy2
      simp [linenoAt_set, h1, linenoAt_renum_not_mem _ _ _ hy1]
    · have e : x :: SB1 ++ [s.brk] = (x :: SB1) ++ [s.brk] := rfl
      rw [e, Numbered.append_iff]
      refine ⟨?_, ?_⟩
      · refine Numbered.of_frame ?_ hnum2
        intro y hy
        have h1 : y ≠ s.brk := fun e => hbrk (e ▸ List.mem_append_right _ hy)
        simp [linenoAt_set, h1]
      · have h5 : (x :: SB1).getLast? = some s.filebot :=
          eq_of_getLast?_append (by simp) hb.bot
        have h7 := hnum2.getLast h5
        rw [linenoAt_of_eq hfb2] at h7
        simp only [Option.some.injEq] at h7
        refine ⟨?_, trivial⟩
        simp [linenoAt_set, linenoAt_setNext, Ne.symm hne, h7]
    · intro y hy
      have h1 : y ≠ s.brk := fun e => hy (by simp [e])
      have h2 : y ≠ s.filebot := fun e => hy (by
        rw [e]; exact List.mem_append_left _ hfbm)
      have h3 : y ∉ x :: SB1 := fun e => hy (by
        exact List.mem_append_left _ (List.mem_append_right _ e))
      simp only [Heap.setNext, Heap.upd_ne _ _ h2, Heap.set_ne _ _ h1]
      exact renum_not_mem _ _ _ h3
    · simp only [ne_eq, List.cons_ne_self, not_false_eq_true, true_iff]
      refine ⟨by simpa using hc.1, ?_⟩
      rw [dataOf_of_eq hfb]
      exact hc.2
  · -- no magic line
    rw [if_neg hc]
    refine ⟨s.heap.renum (x :: SB1) (lastNumber s.heap A), [], ?_, ?_, ?_, ?_, ?_, ?_, ?_, ?_,
      ?_, ?_, Or.inl rfl, ?_⟩
    · rfl
    · simpa using Seg.renum _ _ hb.seg
    · simpa using hb.nodup
    · simpa using hb.bot
    · intro y hy
      have h3 : s.heap y = none := hb.fresh y (by simpa using hy)
      exact eq_none_of_isSome_eq (renum_isSome s.heap (x :: SB1) (lastNumber s.heap A) y) h3
    · intro y _
      simp
    · intro y hy
      simp at hy
    · intro y hy1 _
      exact linenoAt_renum_not_mem _ _ _ hy1
    · simpa using hnum2
    · intro y hy
      have h3 : y ∉ x :: SB1 := fun e => hy (by
        simpa using Or.inr e)
      exact renum_not_mem _ _ _ h3
    · simp only [ne_eq, not_true_eq_false, false_iff]
      intro h
      apply hc
      refine ⟨by simp [h.1], ?_⟩
      have := h.2
      rwa [dataOf_of_eq hfb] at this

/-! ## Partitioning a range of the buffer -/

theorem nodup_parts {A R B : List Nat} (hnd : (A ++ R ++ B).Nodup) :
    A.Nodup ∧ R.Nodup ∧ B.Nodup ∧ (∀ x, x ∈ A → x ∉ R) ∧ (∀ x, x ∈ A → x ∉ B) ∧
      (∀ x, x ∈ R → x ∉ B) := by
  have h1 := List.nodup_append.1 hnd
  have h2 := List.nodup_append.1 h1.1
  exact ⟨h2.1, h2.2.1, h1.2.1, fun x ha hr => h2.2.2 ha hr,
    fun x ha hb => h1.2.2 (List.mem_append_left _ ha) hb,
    fun x hr hb => h1.2.2 (List.mem_append_right _ hr) hb⟩

/-- The partition record and the partitioned state that `partition_buffer`
produces for the range `R` of the buffer `A ++ R ++ B`. -/
theorem partition_buffer_spec {s : State} {A R B : List Nat} {top bot : Nat} (top_x bot_x : Nat)
    (hbuf : Buf s (A ++ R ++ B)) (htop : R.head? = some top) (hbot : R.getLast? = some bot)
    (htx : top_x ≤ (dataOf s.heap top).length) (hbx : bot_x ≤ (dataOf s.heap bot).length)
    (hsame : top = bot → top_x ≤ bot_x) :
    ∃ p : partition,
      partition_buffer s top top_x bot bot_x = some
        ({ s with
            filetop := top, filebot := bot,
            heap := (((s.heap.setPrev top none).setNext bot none).mapData bot
                        (List.take bot_x)).mapData top (List.drop top_x) }, p) ∧
      Parted { s with
            filetop := top, filebot := bot, filepart := some p,
            heap := (((s.heap.setPrev top none).setNext bot none).mapData bot
                        (List.take bot_x)).mapData top (List.drop top_x) } A R B p ∧
      Seg ((((s.heap.setPrev top none).setNext bot none).mapData bot
                        (List.take bot_x)).mapData top (List.drop top_x)) none R none ∧
      p.top_data = (dataOf s.heap top).take top_x ∧
      p.bot_data = (dataOf s.heap bot).drop bot_x := by
  obtain ⟨R1, hR1⟩ := eq_cons_of_head? htop
  obtain ⟨R0, hR0⟩ := eq_append_of_getLast? hbot
  have hmt : top ∈ A ++ R ++ B := by rw [hR1]; simp
  have hmb : bot ∈ A ++ R ++ B := by rw [hR0]; simp
  have htR : top ∈ R := by rw [hR1]; simp
  have hbR : bot ∈ R := by rw [hR0]; simp
  obtain ⟨t, ht⟩ := hbuf.seg.live hmt
  obtain ⟨b, hb⟩ := hbuf.seg.live hmb
  rw [dataOf_of_eq ht] at htx ⊢
  rw [dataOf_of_eq hb] at hbx ⊢
  obtain ⟨hndA, hndR, hndB, hAR, hAB, hRB⟩ := nodup_parts hbuf.nodup
  have hseg := hbuf.seg
  rw [Seg.append, Seg.append] at hseg
  obtain ⟨⟨hsA, hsR⟩, hsB⟩ := hseg
  have hlt : linksAt s.heap top = some (lastOf none A, nextOf (R1 ++ B) none) := by
    have h1 : Seg s.heap none (A ++ top :: (R1 ++ B)) none := by
      have := hbuf.seg
      rw [hR1] at this
      simpa using this
    exact h1.links_mid
  have hlb : linksAt s.heap bot = some (lastOf none (A ++ R0), nextOf B none) := by
    have h1 : Seg s.heap none ((A ++ R0) ++ bot :: B) none := by
      have := hbuf.seg
      rw [hR0] at this
      simpa using this
    exact h1.links_mid
  rw [linksAt_of_eq ht] at hlt
  rw [linksAt_of_eq hb] at hlb
  simp only [Option.some.injEq, Prod.mk.injEq] at hlt hlb
  have hSR : Seg ((((s.heap.setPrev top none).setNext bot none).mapData bot
      (List.take bot_x)).mapData top (List.drop top_x)) none R none := by
    apply Seg.mapData
    apply Seg.mapData
    rw [hR0]
    apply Seg.setNext_last (by rw [← hR0]; exact hndR)
    rw [← hR0, hR1]
    apply Seg.setPrev_head (by rw [← hR1]; exact hndR)
    rw [← hR1]
    exact hsR
  refine ⟨_, partition_buffer_eq top_x bot_x ht hb htx hbx hsame, ?_, hSR, rfl, rfl⟩
  refine
    { nodup := hbuf.nodup
      segA := ⟨nextOf R (nextOf B none), ?_⟩
      segS := ⟨_, _, hSR⟩
      segB := ⟨lastOf none (A ++ R), ?_⟩
      top_prev := hlt.1
      bot_next := hlb.2
      ptop := ?_
      pbot := ?_
      ftop := htop
      fbot := hbot
      part := rfl
      fresh := ?_ }
  · apply Seg.mapData
    apply Seg.mapData
    apply Seg.setNext_not_mem _ (fun h1 => hAR _ h1 hbR)
    exact Seg.setPrev_not_mem _ (fun h1 => hAR _ h1 htR) hsA
  · apply Seg.mapData
    apply Seg.mapData
    apply Seg.setNext_not_mem _ (fun h1 => hRB _ hbR h1)
    exact Seg.setPrev_not_mem _ (fun h1 => hRB _ htR h1) hsB
  · show (if top ≠ s.filetop then some s.filetop else none) = A.head?
    have h1 := hbuf.top
    cases A with
    | nil =>
      rw [hR1] at h1
      simp at h1
      simp [h1]
    | cons a A0 =>
      simp at h1
      have : top ≠ a := fun e => hAR a (by simp) (e ▸ htR)
      simp [← h1, this]
  · show (if bot ≠ s.filebot then some s.filebot else none) = B.getLast?
    have h1 := hbuf.bot
    induction B using List.reverseRecOn with
    | nil =>
      rw [hR0] at h1
      simp at h1
      simp [h1]
    | append_singleton B0 x _ =>
      rw [← List.append_assoc, getLast?_snoc] at h1
      simp only [Option.some.injEq] at h1
      have : bot ≠ x := fun e => hRB bot hbR (by simp [e])
      simp [← h1, this]
  · intro y hy
    exact eq_none_of_isSome_eq (by simp) (hbuf.fresh y hy)

/-! ## The stages of `extract_buffer` -/

theorem extract_buffer_inside_some {s : State} (top_x bot_x : Nat)
    (he : (s.heap s.edittop).isSome) (hft : (s.heap s.filetop).isSome)
    (hfb : (s.heap s.filebot).isSome) (hm : ∀ m, s.mark = some m → (s.heap m).isSome) :
    ∃ r, extract_buffer_inside s top_x bot_x = some r := by
  obtain ⟨et, het⟩ := Option.isSome_iff_exists.1 he
  obtain ⟨ft, hft⟩ := Option.isSome_iff_exists.1 hft
  obtain ⟨fb, hfb⟩ := Option.isSome_iff_exists.1 hfb
  unfold extract_buffer_inside
  simp only [het, hft, hfb]
  cases hmk : s.mark with
  | none => exact ⟨_, rfl⟩
  | some m =>
    obtain ⟨mk, hmk2⟩ := Option.isSome_iff_exists.1 (hm m hmk)
    simp only [hmk2]
    exact ⟨_, rfl⟩

theorem extract_buffer_inside_mark_none {s : State} {top_x bot_x : Nat} {r : Bool × Bool × Bool}
    (h : extract_buffer_inside s top_x bot_x = some r) (hm : s.mark = none) :
    r.2.1 = false ∧ r.2.2 = false := by
  unfold extract_buffer_inside at h
  cases h1 : s.heap s.edittop with
  | none => simp [h1] at h
  | some et =>
    cases h2 : s.heap s.filetop with
    | none => simp [h1, h2] at h
    | some ft =>
      cases h3 : s.heap s.filebot with
      | none => simp [h1, h2, h3] at h
      | some fb =>
        simp only [h1, h2, h3, hm, Option.some.injEq] at h
        rw [← h]
        exact ⟨rfl, rfl⟩

theorem extract_buffer_blank_eq (s : State) (top_x : Nat) (mark_inside same_line : Bool) :
    extract_buffer_blank s top_x mark_inside same_line = some
      { s with
          heap := s.heap.set s.brk (some ⟨[], 1, none, none⟩),
          brk := s.brk + 1, filetop := s.brk, filebot := s.brk,
          current := s.brk, current_x := top_x,
          mark := if mark_inside = true ∨ same_line = true then some s.brk else s.mark,
          mark_x := if mark_inside = true then top_x else s.mark_x } := by
  unfold extract_buffer_blank make_new_node State.alloc State.modify
  simp only [Heap.set_same, Heap.set_set]
  cases mark_inside <;> cases same_line <;> simp

theorem get_totsize_eq {s : State} {R : List Nat} {pv nx : Option Nat} {top bot : Nat}
    (hs : Seg s.heap pv R nx) (hnd : R.Nodup) (htop : R.head? = some top)
    (hbot : R.getLast? = some bot) (hf : R.length ≤ s.brk) :
    get_totsize s top bot = some (sizeOf s.heap R) :=
  get_totsize_loop_eq hs hnd htop hbot s.brk hf

theorem extract_buffer_move_none {s : State} {R : List Nat} (fbo : Option Nat)
    (hS : Seg s.heap none R none) (hft : R.head? = some s.filetop) (hlen : R.length ≤ s.brk) :
    extract_buffer_move s none fbo = some
      ({ s with heap := s.heap.renum R 0 }, some s.filetop, some s.filebot) := by
  obtain ⟨R1, rfl⟩ := eq_cons_of_head? hft
  unfold extract_buffer_move
  simp only
  rw [renumber_eq (k := 0) hS hlen ⟨fun _ => rfl, fun q hq => by cases hq⟩]

theorem delete_node_eq {s : State} {p : Nat} (hp : (s.heap p).isSome) :
    delete_node s p = some { s with heap := s.heap.set p none } := by
  obtain ⟨n, hn⟩ := Option.isSome_iff_exists.1 hp
  simp [delete_node, hn]

theorem lastNumber_congr {h h1 : Heap} {A : List Nat}
    (hf : ∀ x ∈ A, linenoAt h1 x = linenoAt h x) (hl : ∀ x ∈ A, (h x).isSome)
    (hl1 : ∀ x ∈ A, (h1 x).isSome) : lastNumber h1 A = lastNumber h A := by
  induction A using List.reverseRecOn with
  | nil => simp [lastNumber]
  | append_singleton A0 q _ =>
    have e := hf q (by simp)
    obtain ⟨n, hn⟩ := Option.isSome_iff_exists.1 (hl q (by simp))
    obtain ⟨n1, hn1⟩ := Option.isSome_iff_exists.1 (hl1 q (by simp))
    simp only [linenoAt, hn, hn1, Option.map_some', Option.some.injEq] at e
    simp [lastNumber, getNode, hn, hn1, e]

theorem extract_buffer_move_some {s : State} {R1 D0 : List Nat} {dm : Nat} (ft0 : Nat)
    (hS : Seg s.heap none (s.filetop :: R1) none)
    (hbot : (s.filetop :: R1).getLast? = some s.filebot)
    (hD : Seg s.heap none (D0 ++ [dm]) none)
    (hnd : ((D0 ++ [dm]) ++ (s.filetop :: R1)).Nodup)
    (hlen : (dm :: R1).length ≤ s.brk) :
    extract_buffer_move s (some ft0) (some dm) = some
      ({ s with
          heap := ((((s.heap.mapData dm (fun d => d ++ dataOf s.heap s.filetop)).setNext dm
                      (nextOf R1 none)).setPrevOpt (nextOf R1 none) (some dm)).set s.filetop
                      none).renum (dm :: R1) (lastNumber s.heap D0) },
       some ft0, some (if R1 = [] then dm else s.filebot)) ∧
    Seg (((((s.heap.mapData dm (fun d => d ++ dataOf s.heap s.filetop)).setNext dm
            (nextOf R1 none)).setPrevOpt (nextOf R1 none) (some dm)).set s.filetop none).renum
            (dm :: R1) (lastNumber s.heap D0)) none (D0 ++ dm :: R1) none := by
  have hnd2 := List.nodup_append.1 hnd
  have hndD : (D0 ++ [dm]).Nodup := hnd2.1
  have hndR : (s.filetop :: R1).Nodup := hnd2.2.1
  have hdis : ∀ x, x ∈ D0 ++ [dm] → x ∉ s.filetop :: R1 := fun x h1 h2 => hnd2.2.2 h1 h2
  have hdm : dm ∈ D0 ++ [dm] := by simp
  have htopD : s.filetop ∉ D0 ++ [dm] := fun h1 => hdis _ h1 (by simp)
  have htopR1 : s.filetop ∉ R1 := (List.nodup_cons.1 hndR).1
  have hne : dm ≠ s.filetop := fun e => htopD (e ▸ hdm)
  have hdmR1 : dm ∉ R1 := fun h1 => hdis dm hdm (by simp [h1])
  obtain ⟨t, ht⟩ := hS.live (show s.filetop ∈ s.filetop :: R1 by simp)
  obtain ⟨dn, hdn⟩ := hD.live hdm
  have hS' := hS
  rw [Seg_cons] at hS'
  have htl := hS'.1
  rw [linksAt_of_eq ht] at htl
  simp only [Option.some.injEq, Prod.mk.injEq] at htl
  -- the segments after the pointer surgery
  have hseg : Seg ((((s.heap.mapData dm (fun d => d ++ dataOf s.heap s.filetop)).setNext dm
            (nextOf R1 none)).setPrevOpt (nextOf R1 none) (some dm)).set s.filetop none)
      none (D0 ++ dm :: R1) none := by
    have e : D0 ++ dm :: R1 = (D0 ++ [dm]) ++ R1 := by simp
    rw [e, Seg.append]
    refine ⟨?_, ?_⟩
    · apply Seg.set_not_mem _ htopD
      apply Seg.setPrevOpt_not_mem
      · intro x hx h1
        exact hdis x h1 (by simp [nextOf_mem hx])
      apply Seg.setNext_last hndD
      exact Seg.mapData _ _ hD
    · rw [lastOf_append_singleton]
      apply Seg.set_not_mem _ htopR1
      apply Seg.retarget_prev (List.nodup_cons.1 hndR).2
      apply Seg.setNext_not_mem _ hdmR1
      exact Seg.mapData _ _ hS'.2
  have hD0 : Seg s.heap none D0 (some dm) := by
    have := hD
    rw [Seg.append] at this
    simpa using this.1
  have hk := lastNumber_spec hD0
  have hseg2 := hseg
  rw [Seg.append] at hseg2
  have hren := renumber_eq (s := { s with
          heap := ((((s.heap.mapData dm (fun d => d ++ dataOf s.heap s.filetop)).setNext dm
                      (nextOf R1 none)).setPrevOpt (nextOf R1 none) (some dm)).set s.filetop
                      none) })
      (k := lastNumber s.heap D0) hseg2.2 hlen
      ⟨hk.1, by
        intro q hq
        have hq1 := hk.2 q hq
        have hqD0 : q ∈ D0 := lastOf_mem hq
        have hq2 : q ≠ s.filetop := fun e => htopD (by simp [← e, hqD0])
        simp only [linenoAt_set, if_neg hq2, linenoAt_setPrevOpt, linenoAt_setNext,
          linenoAt_mapData]
        exact hq1⟩
  refine ⟨?_, Seg.renum _ _ hseg⟩
  unfold extract_buffer_move
  simp only [Option.bind_eq_bind, Option.some_bind, ht, modify_isSome, hdn, Option.isSome_some,
    if_true, Heap.upd_ne _ _ (Ne.symm hne), Heap.upd_same, Option.map_some']
  cases R1 with
  | nil =>
    simp only [nextOf_nil] at htl
    simp only [htl.2, Option.some_bind]
    rw [delete_node_eq (by simp [Heap.upd_ne _ _ (Ne.symm hne), ht])]
    simp only [Option.some_bind]
    have := hren
    simp only [nextOf_nil, Heap.setPrevOpt, Heap.setNext, Heap.mapData, dataOf_of_eq ht,
      htl.2] at this
    rw [this]
    simp [Heap.setPrevOpt, Heap.setNext, Heap.setPrev, Heap.mapData, dataOf_of_eq ht]
  | cons q R2 =>
    simp only [nextOf_cons] at htl
    obtain ⟨qn, hqn⟩ := hS.live (show q ∈ s.filetop :: q :: R2 by simp)
    have hqdm : q ≠ dm := fun e => hdmR1 (by simp [← e])
    simp only [htl.2, Heap.upd_ne _ _ hqdm, hqn, Option.isSome_some, if_true, Option.some_bind]
    have hqt : s.filetop ≠ q := fun e => htopR1 (by simp [e])
    rw [delete_node_eq (by simp [Heap.upd_ne _ _ (Ne.symm hne), Heap.upd_ne _ _ hqt, ht])]
    simp only [Option.some_bind]
    have := hren
    simp only [nextOf_cons, Heap.setPrevOpt, Heap.setNext, Heap.setPrev, Heap.mapData,
      dataOf_of_eq ht, htl.2] at this
    rw [this]
    have hb2 : s.filetop :: q :: R2 ≠ [] := by simp
    simp [Heap.setPrevOpt, Heap.setNext, Heap.setPrev, Heap.mapData, dataOf_of_eq ht]

theorem Numbered.mem_lineno {h : Heap} {A : List Nat} : ∀ {k : Int}, Numbered h k A →
    ∀ {y : Nat}, y ∈ A → ∃ j : Nat, j < A.length ∧ linenoAt h y = some (k + j + 1) := by
  induction A with
  | nil => intro k _ y hy; cases hy
  | cons p rest ih =>
    intro k hn y hy
    rcases List.mem_cons.1 hy with e | hy2
    · subst e
      exact ⟨0, by simp, by rw [hn.1]; simp⟩
    · obtain ⟨j, hj, he⟩ := ih hn.2 hy2
      refine ⟨j + 1, by simp [hj], ?_⟩
      rw [he]
      congr 1
      push_cast
      ring

/-- The line numbers of a range of consecutively numbered lines lie between
the numbers of its first and its last line. -/
theorem Numbered.range_bounds {h : Heap} {A R B : List Nat} {k : Int} {top bot y : Nat}
    (hn : Numbered h k (A ++ R ++ B)) (hhead : R.head? = some top)
    (hlast : R.getLast? = some bot) (hy : y ∈ R) :
    ∃ a b c : Int, linenoAt h top = some a ∧ linenoAt h y = some b ∧ linenoAt h bot = some c ∧
      a ≤ b ∧ b ≤ c := by
  rw [Numbered.append_iff, Numbered.append_iff] at hn
  have hR := hn.1.2
  obtain ⟨j, hj, hyj⟩ := hR.mem_lineno hy
  have hb := hR.getLast hlast
  obtain ⟨R1, rfl⟩ := eq_cons_of_head? hhead
  have ht : linenoAt h top = some (k + A.length + 1) := hR.1
  refine ⟨_, _, _, ht, hyj, hb, ?_, ?_⟩
  · omega
  · have : (j : Int) + 1 ≤ ((top :: R1).length : Int) := by exact_mod_cast hj
    omega

/-- The top of the edit window is inside the partition when its line number
lies between those of the first and the last line. -/
theorem extract_buffer_inside_edittop {s : State} {top_x bot_x : Nat} {r : Bool × Bool × Bool}
    (h : extract_buffer_inside s top_x bot_x = some r) {a b c : Int}
    (ha : linenoAt s.heap s.filetop = some a) (hb : linenoAt s.heap s.edittop = some b)
    (hc : linenoAt s.heap s.filebot = some c) (h1 : a ≤ b) (h2 : b ≤ c) : r.1 = true := by
  unfold extract_buffer_inside at h
  unfold linenoAt at ha hb hc
  cases h1e : s.heap s.edittop with
  | none => simp [h1e] at h
  | some et =>
    cases h2e : s.heap s.filetop with
    | none => simp [h1e, h2e] at h
    | some ft =>
      cases h3e : s.heap s.filebot with
      | none => simp [h1e, h2e, h3e] at h
      | some fb =>
        rw [h1e] at hb
        rw [h2e] at ha
        rw [h3e] at hc
        simp only [Option.map_some', Option.some.injEq] at ha hb hc
        have hin : decide (et.lineno ≥ ft.lineno ∧ et.lineno ≤ fb.lineno) = true := by
          rw [decide_eq_true_iff, ha, hb, hc]
          exact ⟨h1, h2⟩
        simp only [h1e, h2e, h3e] at h
        cases hm : s.mark with
        | none =>
          simp only [hm, Option.some.injEq] at h
          rw [← h]
          exact hin
        | some m =>
          cases hmk : s.heap m with
          | none => simp [hm, hmk] at h
          | some mk =>
            simp only [hm, hmk, Option.some.injEq] at h
            rw [← h]
            exact hin

/-- What `extract_buffer` notes about the mark: whether it begins inside the
partition, and whether it is on the first line of the partition. -/
theorem extract_buffer_inside_mark {s : State} {top_x bot_x : Nat} {r : Bool × Bool × Bool}
    (h : extract_buffer_inside s top_x bot_x = some r) {m : Nat} (hm : s.mark = some m) :
    ∃ mk ft fb, s.heap m = some mk ∧ s.heap s.filetop = some ft ∧ s.heap s.filebot = some fb ∧
      r.2.1 = decide (mk.lineno ≥ ft.lineno ∧ mk.lineno ≤ fb.lineno ∧
        (m ≠ s.filetop ∨ s.mark_x ≥ top_x) ∧ (m ≠ s.filebot ∨ s.mark_x ≤ bot_x)) ∧
      r.2.2 = decide (m = s.filetop) := by
  unfold extract_buffer_inside at h
  cases h1e : s.heap s.edittop with
  | none => simp [h1e] at h
  | some et =>
    cases h2e : s.heap s.filetop with
    | none => simp [h1e, h2e] at h
    | some ft =>
      cases h3e : s.heap s.filebot with
      | none => simp [h1e, h2e, h3e] at h
      | some fb =>
        simp only [h1e, h2e, h3e, hm] at h
        cases hmk : s.heap m with
        | none => simp [hmk] at h
        | some mk =>
          simp only [hmk, Option.some.injEq] at h
          refine ⟨mk, ft, fb, rfl, rfl, rfl, ?_, ?_⟩
          · rw [← h]
          · rw [← h]

/-! ## Texts -/

@[simp] theorem dataOf_setPrev (h : Heap) (p q : Nat) (v : Option Nat) :
    dataOf (h.setPrev p v) q = dataOf h q := by
  simp [dataOf_eq]

@[simp] theorem dataOf_setNext (h : Heap) (p q : Nat) (v : Option Nat) :
    dataOf (h.setNext p v) q = dataOf h q := by
  simp [dataOf_eq]

@[simp] theorem dataOf_setPrevOpt (h : Heap) (p : Option Nat) (q : Nat) (v : Option Nat) :
    dataOf (h.setPrevOpt p v) q = dataOf h q := by
  simp [dataOf_eq]

@[simp] theorem dataOf_setNextOpt (h : Heap) (p : Option Nat) (q : Nat) (v : Option Nat) :
    dataOf (h.setNextOpt p v) q = dataOf h q := by
  simp [dataOf_eq]

@[simp] theorem dataOf_setLineno (h : Heap) (p q : Nat) (k : Int) :
    dataOf (h.setLineno p k) q = dataOf h q := by
  simp [dataOf_eq]

@[simp] theorem dataOf_renum (h : Heap) (ps : List Nat) (k : Int) (q : Nat) :
    dataOf (h.renum ps k) q = dataOf h q := by
  simp [dataOf_eq]

theorem dataOf_mapData_ne (h : Heap) {p q : Nat} (g : List Nat → List Nat) (hne : q ≠ p) :
    dataOf (h.mapData p g) q = dataOf h q := by
  simp [dataOf_eq, dataAt_mapData, hne]

theorem dataOf_mapData_same {h : Heap} {p : Nat} (g : List Nat → List Nat)
    (hp : (h p).isSome) : dataOf (h.mapData p g) p = g (dataOf h p) := by
  obtain ⟨n, hn⟩ := Option.isSome_iff_exists.1 hp
  simp [dataOf_eq, dataAt_mapData, dataAt_of_eq hn]

theorem dataOf_setHeap_ne (h : Heap) {p q : Nat} (v : Option linestruct) (hne : q ≠ p) :
    dataOf (h.set p v) q = dataOf h q := by
  simp [dataOf, Heap.set_ne h v hne]

theorem dataOf_congr {h h1 : Heap} {q : Nat} (e : h1 q = h q) : dataOf h1 q = dataOf h q := by
  simp [dataOf, e]

theorem linenoAt_congr {h h1 : Heap} {q : Nat} (e : h1 q = h q) :
    linenoAt h1 q = linenoAt h q := by
  simp [linenoAt, e]

theorem linksAt_congr {h h1 : Heap} {q : Nat} (e : h1 q = h q) :
    linksAt h1 q = linksAt h q := by
  simp [linksAt, e]

theorem mapLast_append_singleton (f : List Nat → List Nat) (l : List (List Nat))
    (x : List Nat) : mapLast f (l ++ [x]) = l ++ [f x] := by
  induction l with
  | nil => rfl
  | cons d l ih =>
    cases l with
    | nil => rfl
    | cons e l =>
      simp only [List.cons_append] at ih ⊢
      rw [mapLast, ih]

theorem appendText_nil_left (rs : List (List Nat)) : appendText [] rs = rs := by
  cases rs <;> simp [appendText]

theorem appendText_snoc_cons (l : List (List Nat)) (x r : List Nat) (rs : List (List Nat)) :
    appendText (l ++ [x]) (r :: rs) = l ++ [x ++ r] ++ rs := by
  simp [appendText, mapLast_append_singleton]

theorem map_congr_mem {α β : Type} {f g : α → β} {l : List α} (h : ∀ x ∈ l, f x = g x) :
    l.map f = l.map g :=
  List.map_congr_left h

theorem sizeOf_eq_textSize (h : Heap) (ps : List Nat) :
    sizeOf h ps = textSize (ps.map (dataOf h)) := by
  simp [sizeOf, textSize, List.map_map, Function.comp_def]

/-! ## Handing the partitioned text to the destination -/

theorem extract_buffer_move_spec {s : State} {R D : List Nat} {fto fbo : Option Nat}
    (hS : Seg s.heap none R none) (hft : R.head? = some s.filetop)
    (hfb : R.getLast? = some s.filebot) (hD : Seg s.heap none D none)
    (hnd : (D ++ R).Nodup) (hDt : fto = D.head?) (hDb : D ≠ [] → fbo = D.getLast?)
    (hlt : ∀ y, y ∈ D ++ R → y < s.brk) :
    ∃ H E ft fb, extract_buffer_move s fto fbo = some ({ s with heap := H }, ft, fb) ∧
      Seg H none E none ∧ E = (if D = [] then R else D ++ R.tail) ∧
      ft = E.head? ∧ fb = E.getLast? ∧
      (∀ y, y ∉ D ++ R → H y = s.heap y) ∧
      (∀ y, s.heap y = none → H y = none) ∧
      E.map (dataOf H) = appendText (D.map (dataOf s.heap)) (R.map (dataOf s.heap)) ∧
      (∀ y, y ∈ D.dropLast → linenoAt H y = linenoAt s.heap y) ∧
      Numbered H (lastNumber s.heap D.dropLast) (E.drop (D.length - 1)) := by
  have hnd2 := List.nodup_append.1 hnd
  obtain ⟨R1, hR1⟩ := eq_cons_of_head? hft
  induction D using List.reverseRecOn with
  | nil =>
    simp only [List.head?_nil] at hDt
    subst hDt
    have hlen : R.length ≤ s.brk :=
      length_le_of_nodup_lt hnd2.2.1 (fun y hy => hlt y (by simp [hy]))
    refine ⟨s.heap.renum R 0, R, some s.filetop, some s.filebot,
      extract_buffer_move_none fbo hS hft hlen, Seg.renum _ _ hS, by simp, hft.symm, hfb.symm,
      ?_, ?_, ?_, ?_, ?_⟩
    · intro y hy
      exact renum_not_mem _ _ _ (by simpa using hy)
    · intro y hy
      exact eq_none_of_isSome_eq (renum_isSome _ _ _ _) hy
    · simp [appendText_nil_left]
    · intro y hy
      simp at hy
    · simp only [List.length_nil, Nat.zero_sub, List.drop_zero, List.dropLast_nil]
      have : lastNumber s.heap [] = 0 := rfl
      rw [this]
      exact Numbered_renum _ _ _ hnd2.2.1 (fun y hy => by
        obtain ⟨n, hn⟩ := hS.live hy
        simp [hn])
  | append_singleton D0 dm _ =>
    subst hR1
    have hDb' := hDb (by simp)
    simp only [getLast?_snoc] at hDb'
    subst hDb'
    have hlen : (dm :: R1).length ≤ s.brk := by
      apply length_le_of_nodup_lt
      · have h1 : dm ∉ R1 := fun h1 => hnd2.2.2 (show dm ∈ D0 ++ [dm] by simp) (by simp [h1])
        exact List.nodup_cons.2 ⟨h1, (List.nodup_cons.1 hnd2.2.1).2⟩
      · intro y hy
        apply hlt
        rcases List.mem_cons.1 hy with rfl | hy
        · simp
        · simp [hy]
    obtain ⟨d0, hd0⟩ : ∃ d0, fto = some d0 := by
      rw [hDt]
      cases D0 <;> simp
    subst hd0
    obtain ⟨hmove, hseg⟩ := extract_buffer_move_some d0 hS hfb hD hnd hlen
    have htopD : s.filetop ∉ D0 ++ [dm] := fun h1 => hnd2.2.2 h1 (by simp)
    have hdmR : dm ∉ s.filetop :: R1 := fun h1 => hnd2.2.2 (show dm ∈ D0 ++ [dm] by simp) h1
    have hD0R : ∀ y, y ∈ D0 → y ∉ s.filetop :: R1 := fun y hy h1 =>
      hnd2.2.2 (show y ∈ D0 ++ [dm] by simp [hy]) h1
    have hdmD0 : dm ∉ D0 := fun h1 =>
      (List.nodup_append.1 hnd2.1).2.2 h1 (by simp)
    have hR1nd := List.nodup_cons.1 hnd2.2.1
    refine ⟨_, D0 ++ dm :: R1, some d0, _, hmove, hseg, by simp, ?_, ?_, ?_, ?_, ?_, ?_, ?_⟩
    · rw [hDt]
      cases D0 <;> simp
    · cases R1 with
      | nil => simp
      | cons q R2 =>
        simp only [if_neg (List.cons_ne_nil q R2)]
        rw [List.getLast?_cons_cons] at hfb
        have e : D0 ++ dm :: q :: R2 = (D0 ++ [dm]) ++ (q :: R2) := by simp
        rw [e, List.getLast?_append_of_ne_nil _ (by simp), hfb]
    · intro y hy
      have h1 : y ∉ dm :: R1 := fun h1 => hy (by
        rcases List.mem_cons.1 h1 with rfl | h1
        · simp
        · simp [h1])
      have h2 : y ≠ s.filetop := fun e => hy (by simp [e])
      have h3 : y ≠ dm := fun e => hy (by simp [e])
      have h4 : ∀ x, nextOf R1 none = some x → y ≠ x := fun x hx e =>
        hy (by simp [e, nextOf_mem hx])
      rw [renum_not_mem _ _ _ h1, Heap.set_ne _ _ h2]
      cases hn : nextOf R1 none with
      | none => simp [Heap.setPrevOpt, Heap.setNext, Heap.mapData, Heap.upd_ne _ _ h3]
      | some x =>
        simp [Heap.setPrevOpt, Heap.setPrev, Heap.setNext, Heap.mapData, Heap.upd_ne _ _ h3,
          Heap.upd_ne _ _ (h4 x hn)]
    · intro y hy
      apply eq_none_of_isSome_eq (renum_isSome _ _ _ _)
      by_cases e : y = s.filetop
      · subst e; simp
      · rw [Heap.set_ne _ _ e]
        exact eq_none_of_isSome_eq (by simp) hy
    · simp only [List.map_append, List.map_cons, List.map_nil]
      rw [appendText_snoc_cons]
      simp only [List.append_assoc, List.singleton_append]
      congr 1
      · apply map_congr_mem
        intro y hy
        have h1 : y ≠ s.filetop := fun e => hD0R y hy (by simp [e])
        have h2 : y ≠ dm := fun e => hdmD0 (e ▸ hy)
        simp [dataOf_setHeap_ne _ _ h1, dataOf_mapData_ne _ _ h2]
      · congr 1
        · obtain ⟨n, hn⟩ := hD.live (show dm ∈ D0 ++ [dm] by simp)
          have h1 : dm ≠ s.filetop := fun e => hdmR (by simp [e])
          simp [dataOf_setHeap_ne _ _ h1]
          exact dataOf_mapData_same _ (by simp [hn])
        · apply map_congr_mem
          intro y hy
          have h1 : y ≠ s.filetop := fun e => hR1nd.1 (e ▸ hy)
          have h2 : y ≠ dm := fun e => hdmR (by simp [← e, hy])
          simp [dataOf_setHeap_ne _ _ h1, dataOf_mapData_ne _ _ h2]
    · intro y hy
      simp only [List.dropLast_concat] at hy
      have h1 : y ∉ dm :: R1 := fun h1 => by
        rcases List.mem_cons.1 h1 with rfl | h1
        · exact hdmD0 hy
        · exact hD0R y hy (by simp [h1])
      have h2 : y ≠ s.filetop := fun e => hD0R y hy (by simp [e])
      rw [linenoAt_renum_not_mem _ _ _ h1, linenoAt_set, if_neg h2]
      simp
    · simp only [List.dropLast_concat, List.length_append, List.length_singleton,
        Nat.add_sub_cancel, List.drop_left]
      apply Numbered_renum
      · exact List.nodup_cons.2 ⟨fun h1 => hdmR (by simp [h1]), hR1nd.2⟩
      · intro y hy
        have h2 : y ≠ s.filetop := by
          rcases List.mem_cons.1 hy with rfl | hy
          · exact fun e => hdmR (by simp [e])
          · exact fun e => hR1nd.1 (e ▸ hy)
        rw [set_isSome, if_neg h2]
        simp only [setPrevOpt_isSome, setNext_isSome, mapData_isSome]
        rcases List.mem_cons.1 hy with rfl | hy
        · exact isSome_of_linksAt (hD.links_mid (a := D0) (b := []) |> fun h => by simpa using h)
        · obtain ⟨n, hn⟩ := hS.live (show y ∈ s.filetop :: R1 by simp [hy])
          simp [hn]

/-! ## `extract_buffer` as a whole -/

theorem unpart_heap_frame (h : Heap) (ft fb : Nat) (p : partition) {y : Nat}
    (h1 : y ≠ ft) (h2 : y ≠ fb) (h3 : p.top_prev ≠ some y) (h4 : p.bot_next ≠ some y) :
    ((((((h.setPrev ft p.top_prev).setNextOpt p.top_prev (some ft)).mapData ft
        (fun d => p.top_data ++ d)).setNext fb p.bot_next).setPrevOpt p.bot_next
        (some fb)).mapData fb (fun d => d ++ p.bot_data)) y = h y := by
  have e1 : ∀ (g : Heap) (v : Option Nat), g.setNextOpt p.top_prev v y = g y := by
    intro g v
    cases hq : p.top_prev with
    | none => rfl
    | some q =>
      have : y ≠ q := fun e => h3 (by rw [hq, e])
      simp [Heap.setNextOpt, Heap.setNext, Heap.upd_ne _ _ this]
  have e2 : ∀ (g : Heap) (v : Option Nat), g.setPrevOpt p.bot_next v y = g y := by
    intro g v
    cases hq : p.bot_next with
    | none => rfl
    | some q =>
      have : y ≠ q := fun e => h4 (by rw [hq, e])
      simp [Heap.setPrevOpt, Heap.setPrev, Heap.upd_ne _ _ this]
  simp only [Heap.mapData, Heap.setNext, Heap.setPrev, Heap.upd_ne _ _ h1, Heap.upd_ne _ _ h2]
  rw [e2]
  simp only [Heap.upd_ne _ _ h1, Heap.upd_ne _ _ h2]
  rw [e1]
  simp only [Heap.upd_ne _ _ h1, Heap.upd_ne _ _ h2]

theorem mapHead_mapLast_map_partition {h : Heap} {R : List Nat} {top bot : Nat}
    (top_x bot_x : Nat) (hnd : R.Nodup) (htop : R.head? = some top)
    (hbot : R.getLast? = some bot) (hlive : ∀ y, y ∈ R → (h y).isSome) :
    R.map (dataOf ((((h.setPrev top none).setNext bot none).mapData bot
        (List.take bot_x)).mapData top (List.drop top_x))) =
      rangeText (R.map (dataOf h)) top_x bot_x := by
  obtain ⟨R1, rfl⟩ := eq_cons_of_head? htop
  have hlt := hlive top (by simp)
  unfold rangeText
  cases R1 with
  | nil =>
    simp only [List.getLast?_singleton, Option.some.injEq] at hbot
    subst hbot
    simp only [List.map_cons, List.map_nil, mapLast, mapHead]
    rw [dataOf_mapData_same _ (by simpa using hlt), dataOf_mapData_same _ (by simpa using hlt)]
    simp
  | cons q R2 =>
    rw [List.getLast?_cons_cons] at hbot
    obtain ⟨R0, hR0⟩ := eq_append_of_getLast? hbot
    have hne : top ≠ bot := by
      intro e
      have : bot ∈ q :: R2 := by rw [hR0]; simp
      exact (List.nodup_cons.1 hnd).1 (e ▸ this)
    have hbR0 : bot ∉ R0 := by
      have h2 := (List.nodup_cons.1 hnd).2
      rw [hR0] at h2
      exact fun hm => (List.nodup_append.1 h2).2.2 hm (by simp)
    have htR0 : top ∉ R0 := fun hm => (List.nodup_cons.1 hnd).1 (by rw [hR0]; simp [hm])
    rw [hR0]
    have e : top :: (R0 ++ [bot]) = (top :: R0) ++ [bot] := rfl
    rw [e, List.map_append, List.map_append]
    simp only [List.map_cons, List.map_nil]
    rw [mapLast_append_singleton]
    simp only [List.cons_append, mapHead]
    have hlb := hlive bot (by rw [hR0]; simp)
    congr 1
    · rw [dataOf_mapData_same _ (by simpa using hlt), dataOf_mapData_ne _ _ hne]
      simp
    · congr 1
      · apply map_congr_mem
        intro y hy
        have h1 : y ≠ top := fun e => htR0 (e ▸ hy)
        have h2 : y ≠ bot := fun e => hbR0 (e ▸ hy)
        simp [dataOf_mapData_ne _ _ h1, dataOf_mapData_ne _ _ h2]
      · rw [dataOf_mapData_ne _ _ (Ne.symm hne), dataOf_mapData_same _ (by simpa using hlb)]
        simp

theorem extract_buffer_spec {s : State} {A R B D : List Nat} {fto fbo : Option Nat}
    {top top_x bot bot_x : Nat} (h : ExtractPre s A R B D fto fbo top top_x bot bot_x) :
    ∃ t ft fb M E, extract_buffer s fto fbo top top_x bot bot_x = some (t, ft, fb) ∧
      ExtractPost s t A R B D top_x bot_x M E ft fb := by
  have hne : ¬ (top = bot ∧ top_x = bot_x) := fun ⟨e1, e2⟩ => by
    have := h.nonempty e1
    omega
  obtain ⟨p, hpart, hParted, hSR, hptd, hpbd⟩ := partition_buffer_spec top_x bot_x h.buf h.head
    h.last h.top_le h.bot_le (fun e => le_of_lt (h.nonempty e))
  obtain ⟨hndA, hndR, hndB, hAR, hAB, hRB⟩ := nodup_parts h.buf.nodup
  have htR : top ∈ R := mem_of_head? h.head
  have hbR : bot ∈ R := List.mem_of_getLast?_eq_some h.last
  have hliveR : ∀ y, y ∈ R → (s.heap y).isSome := fun y hy =>
    h.buf.mem_live (by simp [hy])
  have hdataR := mapHead_mapLast_map_partition top_x bot_x hndR h.head h.last hliveR
  -- name the partitioned heap
  obtain ⟨H1, hH1⟩ : ∃ H1 : Heap, H1 = (((s.heap.setPrev top none).setNext bot none).mapData bot
      (List.take bot_x)).mapData top (List.drop top_x) := ⟨_, rfl⟩
  rw [← hH1] at hpart hParted hSR hdataR
  have hH1some : ∀ y, (H1 y).isSome = (s.heap y).isSome := by
    intro y; rw [hH1]; simp
  have hH1frame : ∀ y, y ≠ top → y ≠ bot → H1 y = s.heap y := by
    intro y h1 h2
    rw [hH1]
    simp [Heap.mapData, Heap.setNext, Heap.setPrev, Heap.upd_ne _ _ h1, Heap.upd_ne _ _ h2]
  have hH1lineno : ∀ y, linenoAt H1 y = linenoAt s.heap y := by
    intro y; rw [hH1]; simp
  have hDR : ∀ y, y ∈ D → y ∉ R := fun y hy h1 => h.dest_disj y hy (by simp [h1])
  have hDframe : ∀ y, y ∈ D → H1 y = s.heap y := fun y hy =>
    hH1frame y (fun e => hDR y hy (e ▸ htR)) (fun e => hDR y hy (e ▸ hbR))
  have hlenR : R.length ≤ s.brk :=
    length_le_of_nodup_lt hndR (fun y hy => h.buf.lt_brk (by simp [hy]))
  have hDlt : ∀ y, y ∈ D → y < s.brk := by
    intro y hy
    by_contra hge
    obtain ⟨n, hn⟩ := h.dest.live hy
    rw [h.buf.fresh y (Nat.le_of_not_lt hge)] at hn
    cases hn
  -- inside
  obtain ⟨⟨ei, mi, sl⟩, hin⟩ := extract_buffer_inside_some
    (s := { s with filetop := top, filebot := bot, heap := H1, filepart := some p }) top_x bot_x
    (by simpa [hH1some] using h.edittop)
    (by simpa [hH1some] using hliveR top htR)
    (by simpa [hH1some] using hliveR bot hbR)
    (by
      intro m hm
      simpa [hH1some] using h.mark m hm)
  -- size
  have hts := get_totsize_eq
    (s := { s with filetop := top, filebot := bot, heap := H1, filepart := some p })
    hSR hndR h.head h.last hlenR
  -- move
  obtain ⟨H3, E, ft, fb, hmove, hsegE, hE, hft, hfb, hframe3, hnone3, hdata3, hnum3old,
      hnum3new⟩ := extract_buffer_move_spec
    (s := { s with filetop := top, filebot := bot, heap := H1, filepart := some p,
                   totsize := s.totsize - sizeOf H1 R })
    (R := R) (D := D) hSR h.head h.last
    (Seg.frame (fun y hy => linksAt_congr (hDframe y hy)) h.dest)
    (List.nodup_append.2 ⟨h.dest_nodup, hndR, fun y h1 h2 => hDR y h1 h2⟩)
    h.dest_top h.dest_bot
    (by
      intro y hy
      rcases List.mem_append.1 hy with h1 | h1
      · exact hDlt y h1
      · exact h.buf.lt_brk (by simp [h1]))
  simp only at hmove hframe3 hnone3 hdata3 hnum3old hnum3new hin hts
  have hEsub : ∀ y, y ∈ E → y ∈ D ∨ y ∈ R := by
    intro y hy
    rw [hE] at hy
    by_cases hD0 : D = []
    · rw [if_pos hD0] at hy; exact Or.inr hy
    · rw [if_neg hD0] at hy
      rcases List.mem_append.1 hy with h1 | h1
      · exact Or.inl h1
      · exact Or.inr (List.mem_of_mem_tail h1)
  have hEA : ∀ y, y ∈ E → y ∉ A := by
    intro y hy hA
    rcases hEsub y hy with h1 | h1
    · exact h.dest_disj y h1 (by simp [hA])
    · exact hAR y hA h1
  have hEB : ∀ y, y ∈ E → y ∉ B := by
    intro y hy hB
    rcases hEsub y hy with h1 | h1
    · exact h.dest_disj y h1 (by simp [hB])
    · exact hRB y h1 hB
  have hElt : ∀ y, y ∈ E → y < s.brk := by
    intro y hy
    rcases hEsub y hy with h1 | h1
    · exact hDlt y h1
    · exact h.buf.lt_brk (by simp [h1])
  have hABframe3 : ∀ y, y ∈ A ++ B → H3 y = s.heap y := by
    intro y hy
    have h1 : y ∉ D ++ R := by
      intro h2
      rcases List.mem_append.1 h2 with h3 | h3
      · exact h.dest_disj y h3 (by
          rcases List.mem_append.1 hy with h4 | h4 <;> simp [h4])
      · rcases List.mem_append.1 hy with h4 | h4
        · exact hAR y h4 h3
        · exact hRB y h3 h4
    rw [hframe3 y h1]
    apply hH1frame
    · intro e
      rcases List.mem_append.1 hy with h4 | h4
      · exact hAR y h4 (e ▸ htR)
      · exact hRB y (e ▸ htR) h4
    · intro e
      rcases List.mem_append.1 hy with h4 | h4
      · exact hAR y h4 (e ▸ hbR)
      · exact hRB y (e ▸ hbR) h4
  have hfresh3 : ∀ y, s.brk ≤ y → H3 y = none := by
    intro y hy
    apply hnone3
    exact eq_none_of_isSome_eq (hH1some y) (h.buf.fresh y hy)
  -- the line that replaces the range
  have hbrkA : s.brk ∉ A := fun hm => Nat.lt_irrefl _ (h.buf.lt_brk (by simp [hm]))
  have hbrkB : s.brk ∉ B := fun hm => Nat.lt_irrefl _ (h.buf.lt_brk (by simp [hm]))
  have hbrkE : s.brk ∉ E := fun hm => Nat.lt_irrefl _ (hElt _ hm)
  have hseg0 := h.buf.seg
  rw [Seg.append, Seg.append] at hseg0
  obtain ⟨⟨hsA, -⟩, hsB⟩ := hseg0
  obtain ⟨H4, hH4⟩ : ∃ H4 : Heap, H4 = H3.set s.brk (some ⟨[], 1, none, none⟩) := ⟨_, rfl⟩
  have hH4frame : ∀ y, y ≠ s.brk → H4 y = H3 y := by
    intro y hy; rw [hH4]; exact Heap.set_ne _ _ hy
  have hH4brk : H4 s.brk = some ⟨[], 1, none, none⟩ := by
    rw [hH4]; exact Heap.set_same _ _ _
  have hABframe4 : ∀ y, y ∈ A ++ B → H4 y = s.heap y := by
    intro y hy
    rw [hH4frame y (fun e => by
      rcases List.mem_append.1 hy with h4 | h4
      · exact hbrkA (e ▸ h4)
      · exact hbrkB (e ▸ h4)), hABframe3 y hy]
  have hP4 : Parted { s with
      heap := H4, brk := s.brk + 1, filetop := s.brk, filebot := s.brk, current := s.brk,
      current_x := top_x,
      mark := if mi = true ∨ sl = true then some s.brk else s.mark,
      mark_x := if mi = true then top_x else s.mark_x,
      filepart := some p, totsize := s.totsize - sizeOf H1 R } A [s.brk] B p :=
    { nodup := by
        rw [List.nodup_append, List.nodup_append]
        refine ⟨⟨hndA, by simp, ?_⟩, hndB, ?_⟩
        · intro y h1 h2
          simp only [List.mem_singleton] at h2
          exact hbrkA (h2 ▸ h1)
        · intro y h1 h2
          rcases List.mem_append.1 h1 with h3 | h3
          · exact hAB y h3 h2
          · simp only [List.mem_singleton] at h3
            exact hbrkB (h3 ▸ h2)
      segA := ⟨_, Seg.frame (fun y hy => linksAt_congr (hABframe4 y (by simp [hy]))) hsA⟩
      segS := ⟨none, none, by
        rw [Seg_cons]
        exact ⟨by simp [linksAt, hH4brk], trivial⟩⟩
      segB := ⟨_, Seg.frame (fun y hy => linksAt_congr (hABframe4 y (by simp [hy]))) hsB⟩
      top_prev := hParted.top_prev
      bot_next := hParted.bot_next
      ptop := hParted.ptop
      pbot := hParted.pbot
      ftop := rfl
      fbot := rfl
      part := rfl
      fresh := by
        intro y hy
        have h1 : y ≠ s.brk := by simp at hy; omega
        show H4 y = none
        rw [hH4frame y h1]
        exact hfresh3 y (by simp at hy; omega) }
  obtain ⟨hun, hsegU, hheadU, hlastU⟩ := unpartition_buffer_parted hP4
  simp only at hun hsegU hheadU hlastU
  obtain ⟨Hu, hHu⟩ : ∃ Hu : Heap, Hu = (((((H4.setPrev s.brk p.top_prev).setNextOpt p.top_prev
      (some s.brk)).mapData s.brk (fun d => p.top_data ++ d)).setNext s.brk p.bot_next).setPrevOpt
      p.bot_next (some s.brk)).mapData s.brk (fun d => d ++ p.bot_data) := ⟨_, rfl⟩
  rw [← hHu] at hun hsegU
  have hHuframe : ∀ y, y ∉ A ++ [s.brk] ++ B → Hu y = H4 y := by
    intro y hy
    rw [hHu]
    apply unpart_heap_frame
    · exact fun e => hy (by simp [e])
    · exact fun e => hy (by simp [e])
    · intro e
      rw [hParted.top_prev] at e
      exact hy (by simp [lastOf_mem e])
    · intro e
      rw [hParted.bot_next] at e
      exact hy (by simp [nextOf_mem e])
  have hHusome : ∀ y, (Hu y).isSome = (H4 y).isSome := by
    intro y; rw [hHu]; simp
  have hHulineno : ∀ y, linenoAt Hu y = linenoAt H4 y := by
    intro y; rw [hHu]; simp
  have hHudata : ∀ y, y ≠ s.brk → dataOf Hu y = dataOf H4 y := by
    intro y hy
    rw [hHu]
    simp [dataOf_mapData_ne _ _ hy]
  have hHudataN : dataOf Hu s.brk = p.top_data ++ p.bot_data := by
    rw [hHu, dataOf_mapData_same _ (by simp [hH4brk])]
    simp only [dataOf_setPrevOpt, dataOf_setNext]
    rw [dataOf_mapData_same _ (by simp [hH4brk])]
    simp [dataOf_of_eq hH4brk]
  have hbufU : ∀ (et mk : Option Nat) (e : Nat) (mx : Nat), Buf { s with
      heap := Hu, brk := s.brk + 1, filetop := p.filetop.getD s.brk,
      filebot := p.filebot.getD s.brk, edittop := e, current := s.brk, current_x := top_x,
      mark := mk, mark_x := mx, filepart := none,
      totsize := s.totsize - sizeOf H1 R } (A ++ ([s.brk] ++ B)) := by
    intro _ mk e mx
    exact
      { nodup := by simpa using hP4.nodup
        seg := by simpa using hsegU
        top := by simpa using hheadU
        bot := by simpa using hlastU
        fresh := by
          intro y hy
          have h1 : y ≠ s.brk := by simp at hy; omega
          show Hu y = none
          apply eq_none_of_isSome_eq (hHusome y)
          rw [hH4frame y h1]
          exact hfresh3 y (by simp at hy; omega) }
  obtain ⟨H6, M, hrm, hseg6, hnd6, hlast6, hfresh6, hdata6, hdataM, hlineno6, hnum6, hframe6,
      hM, hMiff⟩ := renumber_and_magic_spec (A := A) (x := s.brk)
    (hbufU none (if mi = true ∨ sl = true then some s.brk else s.mark)
      (if ei = true then s.brk else s.edittop) (if mi = true then top_x else s.mark_x)) rfl
  simp only at hrm hseg6 hnd6 hlast6 hfresh6 hdata6 hdataM hlineno6 hnum6 hframe6 hM hMiff
  have hcomp : extract_buffer s fto fbo top top_x bot bot_x = some
      ({ s with
          heap := H6, brk := s.brk + 1 + M.length, filetop := p.filetop.getD s.brk,
          filebot := (M.head?).getD (p.filebot.getD s.brk),
          edittop := if ei = true then s.brk else s.edittop,
          current := s.brk, current_x := top_x,
          mark := if mi = true ∨ sl = true then some s.brk else s.mark,
          mark_x := if mi = true then top_x else s.mark_x,
          filepart := none,
          totsize := s.totsize - sizeOf H1 R + M.length }, ft, fb) := by
    unfold extract_buffer
    rw [if_neg hne]
    simp only [hpart, hin, hts, hmove, extract_buffer_blank_eq]
    rw [← hH4]
    unfold extract_buffer_finish
    simp only [hun]
    cases ei with
    | false =>
      simp only [Bool.false_eq_true, if_false] at hrm ⊢
      rw [hrm]
    | true =>
      simp only [if_true, adjust_viewport] at hrm ⊢
      rw [hrm]
  have hMmem : ∀ y, y ∈ M → y = s.brk + 1 := by
    intro y hy
    rcases hM with e | e
    · rw [e] at hy; cases hy
    · rw [e] at hy; simpa using hy
  have hframeDR : ∀ y, (y ∈ D ∨ y ∈ R) → H6 y = H3 y := by
    intro y hy
    have hlt : y < s.brk := by
      rcases hy with h1 | h1
      · exact hDlt y h1
      · exact h.buf.lt_brk (by simp [h1])
    have hyA : y ∉ A := by
      rcases hy with h1 | h1
      · exact fun h2 => h.dest_disj y h1 (by simp [h2])
      · exact fun h2 => hAR y h2 h1
    have hyB : y ∉ B := by
      rcases hy with h1 | h1
      · exact fun h2 => h.dest_disj y h1 (by simp [h2])
      · exact fun h2 => hRB y h1 h2
    have hyN : y ≠ s.brk := Nat.ne_of_lt hlt
    have hyM : y ∉ M := fun h2 => by
      have := hMmem y h2
      omega
    rw [hframe6 y (by simp [hyA, hyB, hyN, hyM]), hHuframe y (by simp [hyA, hyB, hyN]),
      hH4frame y hyN]
  have hframeE : ∀ y, y ∈ E → H6 y = H3 y := fun y hy => hframeDR y (hEsub y hy)
  have hdataAB : ∀ y, y ∈ A ++ B → dataOf H6 y = dataOf s.heap y := by
    intro y hy
    have h1 : y ∈ A ++ ([s.brk] ++ B) := by
      rcases List.mem_append.1 hy with h2 | h2 <;> simp [h2]
    have h2 : y ≠ s.brk := by
      rcases List.mem_append.1 hy with h3 | h3
      · exact fun e => hbrkA (e ▸ h3)
      · exact fun e => hbrkB (e ▸ h3)
    rw [dataOf_eq, hdata6 y h1, ← dataOf_eq, hHudata y h2]
    exact dataOf_congr (hABframe4 y hy)
  have hlastne : (A ++ [s.brk] ++ B) ≠ [] := by simp
  refine ⟨_, ft, fb, M, E, hcomp, ?_⟩
  exact
    { buf :=
        { nodup := by simpa using hnd6
          seg := by simpa using hseg6
          top := by
            show (A ++ [s.brk] ++ B ++ M).head? = some (p.filetop.getD s.brk)
            rw [List.head?_append_of_ne_nil _ hlastne]
            exact hheadU
          bot := by simpa using hlast6
          fresh := by
            intro y hy
            exact hfresh6 y (by simpa [Nat.add_assoc] using hy) }
      magic := hM
      magic_iff := by
        rw [hMiff]
        constructor
        · rintro ⟨h1, h2⟩
          refine ⟨h1, _, hlastU, ?_⟩
          have hm : p.filebot.getD s.brk ∈ A ++ ([s.brk] ++ B) := by
            have := List.mem_of_getLast?_eq_some hlastU
            simpa using this
          show dataOf H6 _ ≠ []
          rw [dataOf_eq, hdata6 _ hm, ← dataOf_eq]
          exact h2
        · rintro ⟨h1, q, hq, h2⟩
          refine ⟨h1, ?_⟩
          rw [hlastU] at hq
          cases hq
          have hm : p.filebot.getD s.brk ∈ A ++ ([s.brk] ++ B) := by
            have := List.mem_of_getLast?_eq_some hlastU
            simpa using this
          have h3 : dataOf H6 (p.filebot.getD s.brk) ≠ [] := h2
          rw [dataOf_eq, hdata6 _ hm, ← dataOf_eq] at h3
          exact h3
      data_old := hdataAB
      data_new := by
        intro top' bot' ht' hb'
        rw [h.head] at ht'
        rw [h.last] at hb'
        cases ht'
        cases hb'
        show dataOf H6 s.brk = _
        rw [dataOf_eq, hdata6 s.brk (by simp), ← dataOf_eq, hHudataN, hptd, hpbd]
      data_magic := by
        intro y hy
        show dataOf H6 y = []
        rw [dataOf_eq, hdataM y hy]
        rfl
      num_old := by
        intro y hy
        have h1 : y ∉ [s.brk] ++ B := by
          intro h2
          rcases List.mem_append.1 h2 with h3 | h3
          · simp only [List.mem_singleton] at h3
            exact hbrkA (h3 ▸ hy)
          · exact hAB y hy h3
        have h2 : y ∉ M := fun h3 => by
          have := hMmem y h3
          have := h.buf.lt_brk (show y ∈ A ++ R ++ B by simp [hy])
          omega
        show linenoAt H6 y = _
        rw [hlineno6 y h1 h2, hHulineno]
        exact linenoAt_congr (hABframe4 y (by simp [hy]))
      num_new := by
        have e : lastNumber Hu A = lastNumber s.heap A := by
          apply lastNumber_congr
          · intro y hy
            rw [hHulineno]
            exact linenoAt_congr (hABframe4 y (by simp [hy]))
          · intro y hy
            exact h.buf.mem_live (by simp [hy])
          · intro y hy
            rw [hHusome, hABframe4 y (by simp [hy])]
            exact h.buf.mem_live (by simp [hy])
        rw [← e]
        exact hnum6
      dest_seg := Seg.frame (fun y hy => linksAt_congr (hframeE y hy)) hsegE
      dest_nodup := by
        rw [hE]
        by_cases hD0 : D = []
        · rw [if_pos hD0]; exact hndR
        · rw [if_neg hD0]
          rw [List.nodup_append]
          refine ⟨h.dest_nodup, hndR.sublist (List.tail_sublist R), ?_⟩
          intro y h1 h2
          exact hDR y h1 (List.mem_of_mem_tail h2)
      dest_disj := by
        intro y hy h1
        have hlt := hElt y hy
        simp only [List.mem_append, List.mem_singleton] at h1
        rcases h1 with ((h2 | h2) | h2) | h2
        · exact hEA y hy h2
        · omega
        · exact hEB y hy h2
        · have := hMmem y h2
          omega
      dest_shape := hE
      dest_top := hft
      dest_bot := hfb
      dest_text := by
        have e1 : E.map (dataOf H6) = E.map (dataOf H3) :=
          map_congr_mem (fun y hy => dataOf_congr (hframeE y hy))
        have e2 : D.map (dataOf H1) = D.map (dataOf s.heap) :=
          map_congr_mem (fun y hy => dataOf_congr (hDframe y hy))
        show E.map (dataOf H6) = _
        rw [e1, hdata3, e2, hdataR]
      dest_num_old := by
        intro y hy
        have hyD : y ∈ D := List.mem_of_mem_dropLast hy
        show linenoAt H6 y = _
        rw [linenoAt_congr (hframeDR y (Or.inl hyD)), hnum3old y hy, hH1lineno]
      dest_num_new := by
        have e : lastNumber H1 D.dropLast = lastNumber s.heap D.dropLast :=
          lastNumber_frame (fun y hy => hDframe y (List.mem_of_mem_dropLast hy))
        rw [← e]
        refine Numbered.of_frame ?_ hnum3new
        intro y hy
        exact linenoAt_congr (hframeE y (List.mem_of_mem_drop hy))
      totsize := by
        show s.totsize - sizeOf H1 R + M.length = _
        rw [sizeOf_eq_textSize, hdataR]
      mark := by
        show (if mi = true ∨ sl = true then some s.brk else s.mark) = s.mark ∨
          (s.mark ≠ none ∧
            (if mi = true ∨ sl = true then some s.brk else s.mark) = some s.brk)
        by_cases hmn : s.mark = none
        · have h2 := extract_buffer_inside_mark_none hin hmn
          simp only at h2
          rw [h2.1, h2.2]
          exact Or.inl (by simp)
        · split_ifs
          · exact Or.inr ⟨hmn, rfl⟩
          · exact Or.inl rfl
      edittop := by
        show (if ei = true then s.brk else s.edittop) = s.edittop ∨
          (if ei = true then s.brk else s.edittop) = s.brk
        split_ifs
        · exact Or.inr rfl
        · exact Or.inl rfl
      edittop_in := by
        intro k hR hN
        show (if ei = true then s.brk else s.edittop) = s.brk
        obtain ⟨a, b, c, ha, hb, hc, h1, h2⟩ := hN.range_bounds h.head h.last hR
        have hei := extract_buffer_inside_edittop hin
          (by rw [hH1lineno]; exact ha) (by rw [hH1lineno]; exact hb)
          (by rw [hH1lineno]; exact hc) h1 h2
        simp only at hei
        rw [if_pos hei]
      mark_rule := by
        intro m top1 bot1 hm hh1 hl1
        have et : top1 = top := Option.some.inj (hh1.symm.trans h.head)
        have eb : bot1 = bot := Option.some.inj (hl1.symm.trans h.last)
        subst et
        subst eb
        obtain ⟨mk, ft, fb, hmk, hft, hfb, hmi, hsl⟩ := extract_buffer_inside_mark hin hm
        simp only at hmk hft hfb hmi hsl
        refine ⟨mk.lineno, ft.lineno, fb.lineno, ?_, ?_, ?_, ?_, ?_⟩
        · rw [← hH1lineno, linenoAt_of_eq hmk]
        · rw [← hH1lineno, linenoAt_of_eq hft]
        · rw [← hH1lineno, linenoAt_of_eq hfb]
        · show (if mi = true ∨ sl = true then some s.brk else s.mark) = _
          rw [hmi, hsl, hm]
          simp only [decide_eq_true_eq, ge_iff_le]
        · show (if mi = true then _ else s.mark_x) = _
          rw [hmi]
          simp only [decide_eq_true_eq, ge_iff_le]
      frame := by
        intro y hy
        simp only [List.mem_append, List.mem_singleton, not_or] at hy
        obtain ⟨⟨⟨⟨⟨hyA, hyR⟩, hyB⟩, hyD⟩, hyN⟩, hyM⟩ := hy
        show H6 y = s.heap y
        rw [hframe6 y (by simp [hyA, hyB, hyN, hyM]), hHuframe y (by simp [hyA, hyB, hyN]),
          hH4frame y hyN, hframe3 y (by simp [hyD, hyR])]
        exact hH1frame y (fun e => hyR (e ▸ htR)) (fun e => hyR (e ▸ hbR))
      rest := rfl }

theorem addrs_from_seg {h : Heap} {ps : List Nat} {pv : Option Nat}
    (hs : Seg h pv ps none) (fuel : Nat) (hf : ps.length ≤ fuel) :
    addrs_from fuel h (nextOf ps none) = some ps := by
  induction ps generalizing pv fuel with
  | nil => cases fuel <;> simp [addrs_from]
  | cons p rest ih =>
    rw [Seg_cons] at hs
    obtain ⟨n, hn, -, hnx⟩ := linksAt_some hs.1
    cases fuel with
    | zero => simp at hf
    | succ fuel =>
      have hlen : rest.length ≤ fuel := by simpa using hf
      simp only [nextOf_cons, addrs_from, hn, hnx, ih hs.2 fuel hlen]

theorem nextOf_eq_head? (ps : List Nat) : nextOf ps none = ps.head? := by
  cases ps <;> rfl

theorem getLast?_map' {α β : Type} (f : α → β) (l : List α) :
    (l.map f).getLast? = l.getLast?.map f := by
  induction l using List.reverseRecOn with
  | nil => rfl
  | append_singleton l x _ => simp

/-- The text of a standalone list whose lines are allocated below `brk`. -/
theorem text_from_list {s : State} {E : List Nat} (hs : Seg s.heap none E none)
    (hnd : E.Nodup) (hlt : ∀ y, y ∈ E → y < s.brk) :
    text_from s E.head? = some (E.map (dataOf s.heap)) := by
  have h1 := nodes_from_seg hs s.brk (length_le_of_nodup_lt hnd hlt)
  rw [nextOf_eq_head?] at h1
  simp [text_from, h1, List.map_map, Function.comp_def, getNode_data]

theorem last_from_list {s : State} {E : List Nat} (hs : Seg s.heap none E none)
    (hnd : E.Nodup) (hlt : ∀ y, y ∈ E → y < s.brk) :
    last_from s E.head? = some E.getLast? := by
  have h1 := addrs_from_seg hs s.brk (length_le_of_nodup_lt hnd hlt)
  rw [nextOf_eq_head?] at h1
  simp [last_from, h1]

theorem lines_from_list {s : State} {E : List Nat} (hs : Seg s.heap none E none)
    (hnd : E.Nodup) (hlt : ∀ y, y ∈ E → y < s.brk) :
    lines_from s E.head? =
      some (E.map (fun p => (dataOf s.heap p, (getNode s.heap p).lineno))) := by
  have h1 := nodes_from_seg hs s.brk (length_le_of_nodup_lt hnd hlt)
  rw [nextOf_eq_head?] at h1
  simp [lines_from, h1, List.map_map, Function.comp_def, getNode_data]

/-- The text of the buffer after `extract_buffer`. -/
theorem ExtractPost.text_after {s t : State} {A R B D : List Nat} {top_x bot_x : Nat}
    {M E : List Nat} {ft fb : Option Nat} {top bot : Nat}
    (hp : ExtractPost s t A R B D top_x bot_x M E ft fb)
    (htop : R.head? = some top) (hbot : R.getLast? = some bot) :
    buffer_text t = some
      ((A.map (dataOf s.heap) ++
          [(dataOf s.heap top).take top_x ++ (dataOf s.heap bot).drop bot_x] ++
          B.map (dataOf s.heap)) ++
        (if s.NO_NEWLINES = false ∧
            (A.map (dataOf s.heap) ++
              [(dataOf s.heap top).take top_x ++ (dataOf s.heap bot).drop bot_x] ++
              B.map (dataOf s.heap)).getLast? ≠ some [] then [[]] else [])) := by
  have e1 : A.map (dataOf t.heap) = A.map (dataOf s.heap) :=
    map_congr_mem (fun y hy => hp.data_old y (by simp [hy]))
  have e2 : B.map (dataOf t.heap) = B.map (dataOf s.heap) :=
    map_congr_mem (fun y hy => hp.data_old y (by simp [hy]))
  have e3 := hp.data_new top bot htop hbot
  have e4 : (A ++ [s.brk] ++ B).map (dataOf t.heap) = A.map (dataOf s.heap) ++
      [(dataOf s.heap top).take top_x ++ (dataOf s.heap bot).drop bot_x] ++
      B.map (dataOf s.heap) := by
    simp [e1, e2, e3]
  rw [hp.buf.text, List.map_append, e4]
  congr 2
  have hne : A ++ [s.brk] ++ B ≠ [] := by simp
  obtain ⟨q, hq1, hq2⟩ := lastOf_some_of_ne_nil none hne
  have e5 : (A.map (dataOf s.heap) ++
      [(dataOf s.heap top).take top_x ++ (dataOf s.heap bot).drop bot_x] ++
      B.map (dataOf s.heap)).getLast? = some (dataOf t.heap q) := by
    rw [← e4, getLast?_map', hq2]
    rfl
  rw [e5]
  by_cases hM : M = []
  · have h1 : ¬ (s.NO_NEWLINES = false ∧ some (dataOf t.heap q) ≠ some []) := by
      intro ⟨h2, h3⟩
      have := hp.magic_iff.2 ⟨h2, q, hq2, fun e => h3 (by rw [e])⟩
      exact this hM
    rw [if_neg h1, hM]
    rfl
  · have h1 := hp.magic_iff.1 hM
    obtain ⟨h2, q', hq', h3⟩ := h1
    rw [hq2] at hq'
    cases hq'
    rw [if_pos ⟨h2, fun e => h3 (by simpa using e)⟩]
    rcases hp.magic with e | e
    · exact absurd e hM
    · rw [e]
      simp [hp.data_magic (s.brk + 1) (by simp [e])]

/-- C2: for every valid non-empty range of the buffer `A ++ R ++ B`
(`R` from `top` to `bot`, offsets within their lines), `extract_buffer`
succeeds, and afterwards the text of the buffer is: the lines of `A`
unchanged, one line with the content `old_top[0..top_x) ++ old_bot[bot_x..]`,
the lines of `B` unchanged, and one more empty line exactly when NO_NEWLINES
is unset and the last of these lines is not empty. -/
theorem extract_buffer_removes_range (s : State) (A R B D : List Nat)
    (file_top file_bot : Option Nat) (top top_x bot bot_x : Nat)
    (h : ExtractPre s A R B D file_top file_bot top top_x bot bot_x) :
    ∃ t ft fb, extract_buffer s file_top file_bot top top_x bot bot_x = some (t, ft, fb) ∧
      buffer_text s = some (A.map (dataOf s.heap) ++ R.map (dataOf s.heap) ++
        B.map (dataOf s.heap)) ∧
      buffer_text t = some
        ((A.map (dataOf s.heap) ++
            [(dataOf s.heap top).take top_x ++ (dataOf s.heap bot).drop bot_x] ++
            B.map (dataOf s.heap)) ++
          (if s.NO_NEWLINES = false ∧
              (A.map (dataOf s.heap) ++
                [(dataOf s.heap top).take top_x ++ (dataOf s.heap bot).drop bot_x] ++
                B.map (dataOf s.heap)).getLast? ≠ some [] then [[]] else [])) := by
  obtain ⟨t, ft, fb, M, E, hrun, hpost⟩ := extract_buffer_spec h
  refine ⟨t, ft, fb, hrun, ?_, hpost.text_after h.head h.last⟩
  rw [h.buf.text]
  simp

/-- C3: for every valid non-empty range, `extract_buffer` delivers exactly
the text of the range to the destination: the destination's text becomes its
old text with the text of the range appended (the first extracted line
continuing the old last line; all of the range's lines when the destination
was empty), and the returned `file_bot` is the last line of the
destination. -/
theorem extract_buffer_fills_destination (s : State) (A R B D : List Nat)
    (file_top file_bot : Option Nat) (top top_x bot bot_x : Nat)
    (h : ExtractPre s A R B D file_top file_bot top top_x bot bot_x) :
    ∃ t ft fb, extract_buffer s file_top file_bot top top_x bot bot_x = some (t, ft, fb) ∧
      text_from t ft = some
        (appendText (D.map (dataOf s.heap)) (rangeText (R.map (dataOf s.heap)) top_x bot_x)) ∧
      (D = [] → text_from t ft = some (rangeText (R.map (dataOf s.heap)) top_x bot_x)) ∧
      (∀ D0 dm r rs, D = D0 ++ [dm] →
        rangeText (R.map (dataOf s.heap)) top_x bot_x = r :: rs →
        text_from t ft = some (D0.map (dataOf s.heap) ++ [dataOf s.heap dm ++ r] ++ rs)) ∧
      (rangeText (R.map (dataOf s.heap)) top_x bot_x).length = R.length ∧
      ft ≠ none ∧ last_from t ft = some fb := by
  obtain ⟨t, ft, fb, M, E, hrun, hpost⟩ := extract_buffer_spec h
  have hlt : ∀ y, y ∈ E → y < t.brk := by
    intro y hy
    by_contra hge
    obtain ⟨n, hn⟩ := hpost.dest_seg.live hy
    rw [hpost.buf.fresh y (Nat.le_of_not_lt hge)] at hn
    cases hn
  have htext : text_from t ft = some
      (appendText (D.map (dataOf s.heap)) (rangeText (R.map (dataOf s.heap)) top_x bot_x)) := by
    rw [hpost.dest_top, text_from_list hpost.dest_seg hpost.dest_nodup hlt, hpost.dest_text]
  obtain ⟨R1, hR1⟩ := eq_cons_of_head? h.head
  have hEne : E ≠ [] := by
    rw [hpost.dest_shape]
    by_cases hD : D = []
    · rw [if_pos hD, hR1]; simp
    · rw [if_neg hD]; simp [hD]
  refine ⟨t, ft, fb, hrun, htext, ?_, ?_, ?_, ?_, ?_⟩
  · intro hD
    rw [htext, hD]
    simp [appendText_nil_left]
  · intro D0 dm r rs hD hr
    rw [htext, hD, hr]
    simp only [List.map_append, List.map_cons, List.map_nil]
    rw [appendText_snoc_cons]
  · unfold rangeText
    have e1 : ∀ (f : List Nat → List Nat) (l : List (List Nat)), (mapHead f l).length = l.length := by
      intro f l; cases l <;> rfl
    have e2 : ∀ (f : List Nat → List Nat) (l : List (List Nat)), (mapLast f l).length = l.length := by
      intro f l
      induction l using List.reverseRecOn with
      | nil => rfl
      | append_singleton l x _ => rw [mapLast_append_singleton]; simp
    rw [e1, e2, List.length_map]
  · rw [hpost.dest_top]
    cases E with
    | nil => exact absurd rfl hEne
    | cons e E1 => simp
  · rw [hpost.dest_top, last_from_list hpost.dest_seg hpost.dest_nodup hlt, hpost.dest_bot]

/-- C4: `extract_buffer` called with `top = bot` and `top_x = bot_x` returns at
once: the whole state (the buffer's lines and line numbers, totsize, cursor,
mark, partition state) and the destination pointers are unchanged. -/
theorem extract_buffer_empty_range (s : State) (file_top file_bot : Option Nat)
    (top top_x : Nat) :
    extract_buffer s file_top file_bot top top_x top top_x = some (s, file_top, file_bot) := by
  simp [extract_buffer]

/-! ## The stages of `ingraft_buffer` -/

theorem ingraft_buffer_order_spec {s : State} (hc : (s.heap s.current).isSome)
    (hm : ∀ m, s.mark = some m → (s.heap m).isSome) :
    ∃ rsu sl, ingraft_buffer_order s = some (rsu, sl) ∧
      (∀ m, s.mark = some m → (sl = true ↔ m = s.current)) := by
  unfold ingraft_buffer_order
  cases hmk : s.mark with
  | none => exact ⟨_, _, rfl, fun m e => by cases e⟩
  | some m =>
    obtain ⟨c, hc⟩ := Option.isSome_iff_exists.1 hc
    obtain ⟨mk, hmk2⟩ := Option.isSome_iff_exists.1 (hm m hmk)
    simp only [mark_order, hmk, hc, hmk2, Option.bind_eq_bind, Option.some_bind]
    split_ifs
    · refine ⟨_, _, rfl, ?_⟩
      intro m1 e
      cases e
      simp
    · refine ⟨_, _, rfl, ?_⟩
      intro m1 e
      cases e
      simp [eq_comm]

/-- With the mark on the line of the cursor, `right_side_up` says that the
mark is before the cursor. -/
theorem ingraft_buffer_order_rsu {s : State} {rsu sl : Bool}
    (h : ingraft_buffer_order s = some (rsu, sl)) (hm : s.mark = some s.current) :
    rsu = true ↔ s.mark_x < s.current_x := by
  unfold ingraft_buffer_order at h
  cases hc : s.heap s.current with
  | none => simp [mark_order, hm, hc] at h
  | some c =>
    simp only [mark_order, hm, hc, Option.bind_eq_bind, Option.some_bind] at h
    by_cases hx : s.current_x > s.mark_x
    · simp only [hx, gt_iff_lt, lt_self_iff_false, and_self, or_false, if_true,
        Option.some.injEq, Prod.mk.injEq, true_and] at h
      rw [← h.1]
      exact ⟨fun _ => hx, fun _ => rfl⟩
    · simp only [hx, gt_iff_lt, lt_self_iff_false, and_false, or_false, if_false,
        Option.some.injEq, Prod.mk.injEq] at h
      rw [← h.1]
      exact ⟨fun e => Bool.noConfusion e, fun e => absurd e hx⟩

theorem free_lines_single {s : State} {c : Nat} {n : linestruct} (hc : s.heap c = some n)
    (hn : n.next = none) (hb : 0 < s.brk) :
    free_lines s (some c) = some { s with heap := s.heap.set c none } := by
  unfold free_lines
  obtain ⟨k, hk⟩ : ∃ k, s.brk = k + 1 := ⟨s.brk - 1, by omega⟩
  simp only [hk, free_lines_loop, hc, hn, delete_node]

theorem ingraft_buffer_last_eq {s : State} {q : Nat} {rest : List Nat} {pv : Option Nat}
    (hs : Seg s.heap pv (q :: rest) none) (fuel : Nat) (hf : (q :: rest).length ≤ fuel)
    (hq : s.filebot = q) :
    ∃ l, (q :: rest).getLast? = some l ∧
      ingraft_buffer_last fuel s = some { s with filebot := l } := by
  induction rest generalizing s q pv fuel with
  | nil =>
    rw [Seg_cons] at hs
    obtain ⟨n, hn, -, hnx⟩ := linksAt_some hs.1
    cases fuel with
    | zero => simp at hf
    | succ fuel =>
      refine ⟨q, by simp, ?_⟩
      have hnx1 : n.next = none := hnx
      simp only [ingraft_buffer_last, hq, hn, hnx1]
      rw [← hq]
  | cons r rest ih =>
    rw [Seg_cons] at hs
    obtain ⟨n, hn, -, hnx⟩ := linksAt_some hs.1
    cases fuel with
    | zero => simp at hf
    | succ fuel =>
      have hlen : (r :: rest).length ≤ fuel := by simpa using hf
      have hnx1 : n.next = some r := hnx
      obtain ⟨l, hl, hrun⟩ := ih (s := { s with filebot := r }) hs.2 fuel hlen rfl
      refine ⟨l, by rw [List.getLast?_cons_cons]; exact hl, ?_⟩
      simp only [ingraft_buffer_last, hq, hn, hnx1]
      exact hrun

theorem ingraft_buffer_cursor_eq {s : State} {fb : linestruct} (x : Nat) (rsu sl : Bool)
    (hfb : s.heap s.filebot = some fb) :
    ingraft_buffer_cursor s x rsu sl = some
      { s with
          current := s.filebot,
          current_x := if s.filetop = s.filebot then fb.data.length + x else fb.data.length,
          mark := if s.mark ≠ none ∧ sl = true then
              (if s.filetop = s.filebot then some s.filebot
               else if rsu = true then some s.filetop else some s.filebot)
            else s.mark,
          mark_x := if s.mark ≠ none ∧ sl = true ∧ rsu = false then
              (if s.filetop = s.filebot then (s.mark_x + fb.data.length) % 2 ^ 64
               else (s.mark_x + fb.data.length + (2 ^ 64 - x % 2 ^ 64)) % 2 ^ 64)
            else s.mark_x } := by
  unfold ingraft_buffer_cursor
  simp only [hfb]
  by_cases e : s.filetop = s.filebot <;> by_cases hm : s.mark ≠ none ∧ sl = true <;>
    cases rsu <;> simp [e, hm]

/-! ## `ingraft_buffer` as a whole -/

theorem map_mapHead_mapLast {h h1 : Heap} {S : List Nat} {ft fb : Nat}
    (f g : List Nat → List Nat) (hnd : S.Nodup) (htop : S.head? = some ft)
    (hbot : S.getLast? = some fb)
    (hother : ∀ y, y ∈ S → y ≠ ft → y ≠ fb → dataOf h1 y = dataOf h y)
    (hft : ft ≠ fb → dataOf h1 ft = f (dataOf h ft))
    (hfb : ft ≠ fb → dataOf h1 fb = g (dataOf h fb))
    (hsame : ft = fb → dataOf h1 ft = f (g (dataOf h ft))) :
    S.map (dataOf h1) = mapHead f (mapLast g (S.map (dataOf h))) := by
  obtain ⟨S1, rfl⟩ := eq_cons_of_head? htop
  rcases List.eq_nil_or_concat S1 with rfl | ⟨S0, b, rfl⟩
  · simp only [List.getLast?_singleton, Option.some.injEq] at hbot
    simp [mapLast, mapHead, hsame hbot]
  · rw [List.concat_eq_append] at hnd hbot hother ⊢
    rw [← List.cons_append, getLast?_snoc] at hbot
    simp only [Option.some.injEq] at hbot
    subst hbot
    have hne : ft ≠ b := by
      intro e
      simp [e] at hnd
    have hS0 : ∀ y, y ∈ S0 → dataOf h1 y = dataOf h y := by
      intro y hy
      apply hother y (by simp [hy])
      · intro e
        subst e
        simp [hy] at hnd
      · intro e
        subst e
        have := (List.nodup_cons.1 hnd).2
        have := (List.nodup_append.1 this).2.2 hy (by simp)
        exact this
    simp only [List.map_cons, List.map_append, List.map_nil]
    rw [← List.cons_append (dataOf h ft), mapLast_append_singleton]
    simp only [List.cons_append, mapHead]
    rw [hft hne, hfb hne, map_congr_mem hS0]

theorem head_eq_last_iff {S : List Nat} {a b : Nat} (hnd : S.Nodup) (ha : S.head? = some a)
    (hb : S.getLast? = some b) : a = b ↔ S.length = 1 := by
  obtain ⟨S1, rfl⟩ := eq_cons_of_head? ha
  rcases List.eq_nil_or_concat S1 with rfl | ⟨S0, c, rfl⟩
  · simp at hb
    simp [hb]
  · rw [List.concat_eq_append] at hnd hb ⊢
    rw [← List.cons_append, getLast?_snoc] at hb
    simp only [Option.some.injEq] at hb
    subst hb
    constructor
    · intro e
      simp [e] at hnd
    · intro e
      simp at e

theorem dataOf_unpart {h : Heap} {ft fb : Nat} (tp bn : Option Nat) (td bd : List Nat)
    (hft : (h ft).isSome) (hfb : (h fb).isSome) (y : Nat) :
    dataOf ((((((h.setPrev ft tp).setNextOpt tp (some ft)).mapData ft
        (fun d => td ++ d)).setNext fb bn).setPrevOpt bn (some fb)).mapData fb
        (fun d => d ++ bd)) y =
      if y = fb then (if y = ft then td ++ dataOf h y else dataOf h y) ++ bd
      else if y = ft then td ++ dataOf h y else dataOf h y := by
  by_cases e1 : y = fb
  · subst e1
    rw [if_pos rfl, dataOf_mapData_same _ (by simpa using hfb)]
    simp only [dataOf_setPrevOpt, dataOf_setNext]
    by_cases e2 : y = ft
    · subst e2
      rw [if_pos rfl, dataOf_mapData_same _ (by simpa using hft)]
      simp
    · rw [if_neg e2, dataOf_mapData_ne _ _ e2]
      simp
  · rw [if_neg e1, dataOf_mapData_ne _ _ e1]
    simp only [dataOf_setPrevOpt, dataOf_setNext]
    by_cases e2 : y = ft
    · subst e2
      rw [if_pos rfl, dataOf_mapData_same _ (by simpa using hft)]
      simp
    · rw [if_neg e2, dataOf_mapData_ne _ _ e2]
      simp

theorem ingraft_buffer_spec {s : State} {A B Src : List Nat} {somebuffer : Nat}
    (h : IngraftPre s A B Src somebuffer) :
    ∃ t M, ingraft_buffer s somebuffer = some t ∧ IngraftPost s t A B Src M := by
  have hcm : s.current ∈ A ++ [s.current] ++ B := by simp
  obtain ⟨rsu, sl, hord, hsl⟩ := ingraft_buffer_order_spec (h.buf.mem_live hcm) h.mark
  obtain ⟨p, hpart, hParted, hSR, hptd, hpbd⟩ := @partition_buffer_spec s A [s.current] B s.current
    s.current s.current_x s.current_x h.buf rfl rfl h.x_le h.x_le (fun _ => le_refl _)
  obtain ⟨hndA, -, hndB, hAR, hAB, hRB⟩ := nodup_parts h.buf.nodup
  obtain ⟨H1, hH1⟩ : ∃ H1 : Heap, H1 = (((s.heap.setPrev s.current none).setNext s.current
      none).mapData s.current (List.take s.current_x)).mapData s.current
      (List.drop s.current_x) := ⟨_, rfl⟩
  rw [← hH1] at hpart hParted hSR
  have hcA : s.current ∉ A := fun hm => hAR _ hm (by simp)
  have hcB : s.current ∉ B := fun hm => hRB _ (by simp) hm
  have hcS : s.current ∉ Src := fun hm => h.src_disj _ hm hcm
  have hH1frame : ∀ y, y ≠ s.current → H1 y = s.heap y := by
    intro y h1
    rw [hH1]
    simp [Heap.mapData, Heap.setNext, Heap.setPrev, Heap.upd_ne _ _ h1]
  have hH1some : ∀ y, (H1 y).isSome = (s.heap y).isSome := by
    intro y; rw [hH1]; simp
  have hclt : s.current < s.brk := h.buf.lt_brk hcm
  have hSlt : ∀ y, y ∈ Src → y < s.brk := by
    intro y hy
    by_contra hge
    obtain ⟨n, hn⟩ := h.src.live hy
    rw [h.buf.fresh y (Nat.le_of_not_lt hge)] at hn
    cases hn
  have hlenS : Src.length ≤ s.brk := length_le_of_nodup_lt h.src_nodup hSlt
  -- free the empty line of the partition
  have hl1 : linksAt H1 s.current = some (none, none) := by
    have := hSR
    rw [Seg_cons] at this
    exact this.1
  obtain ⟨n1, hn1, -, hn1n⟩ := linksAt_some hl1
  simp only at hn1n
  have hfree := free_lines_single
    (s := { s with filetop := s.current, filebot := s.current, heap := H1, filepart := some p })
    hn1 hn1n (Nat.lt_of_le_of_lt (Nat.zero_le _) hclt)
  simp only at hfree
  obtain ⟨H2, hH2⟩ : ∃ H2 : Heap, H2 = H1.set s.current none := ⟨_, rfl⟩
  rw [← hH2] at hfree
  have hH2frame : ∀ y, y ≠ s.current → H2 y = s.heap y := by
    intro y hy
    rw [hH2, Heap.set_ne _ _ hy, hH1frame y hy]
  have hH2S : ∀ y, y ∈ Src → H2 y = s.heap y := fun y hy =>
    hH2frame y (fun e => hcS (e ▸ hy))
  have hH2A : ∀ y, y ∈ A → H2 y = s.heap y := fun y hy =>
    hH2frame y (fun e => hcA (e ▸ hy))
  have hH2B : ∀ y, y ∈ B → H2 y = s.heap y := fun y hy =>
    hH2frame y (fun e => hcB (e ▸ hy))
  have hfresh2 : ∀ y, s.brk ≤ y → H2 y = none := by
    intro y hy
    rw [hH2frame y (by omega)]
    exact h.buf.fresh y hy
  have hsegS2 : Seg H2 none Src none :=
    Seg.frame (fun y hy => linksAt_congr (hH2S y hy)) h.src
  -- walk to the last line of the pasted text
  obtain ⟨Src1, hSrc1⟩ := eq_cons_of_head? h.src_head
  have hlast := @ingraft_buffer_last_eq
    { s with filetop := somebuffer, filebot := somebuffer, heap := H2, filepart := some p }
    somebuffer Src1 none (by rw [← hSrc1]; exact hsegS2) s.brk
    (by rw [← hSrc1]; exact hlenS) rfl
  rw [← hSrc1] at hlast
  obtain ⟨l, hl, hlast⟩ := hlast
  simp only at hlast
  have hlS : l ∈ Src := List.mem_of_getLast?_eq_some hl
  have hsS : somebuffer ∈ Src := mem_of_head? h.src_head
  obtain ⟨fbn, hfbn⟩ := hsegS2.live hlS
  have hfbn0 : s.heap l = some fbn := by rw [← hH2S l hlS]; exact hfbn
  have hcur := ingraft_buffer_cursor_eq
    (s := { s with filetop := somebuffer, filebot := l, heap := H2, filepart := some p })
    s.current_x rsu sl hfbn
  simp only at hcur
  obtain ⟨MK, hMK⟩ : ∃ MK : Option Nat, MK = if s.mark ≠ none ∧ sl = true then
      (if somebuffer = l then some l else if rsu = true then some somebuffer else some l)
      else s.mark := ⟨_, rfl⟩
  obtain ⟨MX, hMX⟩ : ∃ MX : Nat, MX = if s.mark ≠ none ∧ sl = true ∧ rsu = false then
      (if somebuffer = l then (s.mark_x + fbn.data.length) % 2 ^ 64
       else (s.mark_x + fbn.data.length + (2 ^ 64 - s.current_x % 2 ^ 64)) % 2 ^ 64)
      else s.mark_x := ⟨_, rfl⟩
  obtain ⟨CX, hCX⟩ : ∃ CX : Nat, CX =
      if somebuffer = l then fbn.data.length + s.current_x else fbn.data.length := ⟨_, rfl⟩
  rw [← hMK, ← hMX, ← hCX] at hcur
  -- size
  have hts := get_totsize_eq
    (s := { s with filetop := somebuffer, filebot := l, heap := H2, filepart := some p,
                   current := l, current_x := CX, mark := MK, mark_x := MX })
    hsegS2 h.src_nodup h.src_head hl hlenS
  simp only at hts
  -- unpartition
  have hSA : ∀ y, y ∈ Src → y ∉ A := fun y hy h1 => h.src_disj y hy (by simp [h1])
  have hSB : ∀ y, y ∈ Src → y ∉ B := fun y hy h1 => h.src_disj y hy (by simp [h1])
  obtain ⟨nxA, hsA1⟩ := hParted.segA
  obtain ⟨pvB, hsB1⟩ := hParted.segB
  simp only at hsA1 hsB1
  have hH21 : ∀ y, y ≠ s.current → H2 y = H1 y := by
    intro y hy
    rw [hH2, Heap.set_ne _ _ hy]
  have hP : ∀ e : Nat, Parted { s with
      heap := H2, filetop := somebuffer, filebot := l, edittop := e, current := l,
      current_x := CX, mark := MK, mark_x := MX, filepart := some p,
      totsize := s.totsize + sizeOf H2 Src } A Src B p := by
    intro e
    exact
    { nodup := by
        rw [List.nodup_append, List.nodup_append]
        refine ⟨⟨hndA, h.src_nodup, ?_⟩, hndB, ?_⟩
        · intro y h1 h2
          exact hSA y h2 h1
        · intro y h1 h2
          rcases List.mem_append.1 h1 with h3 | h3
          · exact hAB y h3 h2
          · exact hSB y h3 h2
      segA := ⟨_, Seg.frame (fun y hy =>
        linksAt_congr (hH21 y (fun e => hcA (e ▸ hy)))) hsA1⟩
      segS := ⟨none, none, hsegS2⟩
      segB := ⟨_, Seg.frame (fun y hy =>
        linksAt_congr (hH21 y (fun e => hcB (e ▸ hy)))) hsB1⟩
      top_prev := hParted.top_prev
      bot_next := hParted.bot_next
      ptop := hParted.ptop
      pbot := hParted.pbot
      ftop := h.src_head
      fbot := hl
      part := rfl
      fresh := hfresh2 }
  obtain ⟨Hu, hHu⟩ : ∃ Hu : Heap, Hu = (((((H2.setPrev somebuffer p.top_prev).setNextOpt
      p.top_prev (some somebuffer)).mapData somebuffer (fun d => p.top_data ++ d)).setNext l
      p.bot_next).setPrevOpt p.bot_next (some l)).mapData l (fun d => d ++ p.bot_data) :=
    ⟨_, rfl⟩
  have hU := fun e => unpartition_buffer_parted (hP e)
  simp only at hU
  simp only [← hHu] at hU
  have hHuframe : ∀ y, y ∉ A ++ Src ++ B → Hu y = H2 y := by
    intro y hy
    rw [hHu]
    apply unpart_heap_frame
    · exact fun e => hy (by simp [e, hsS])
    · exact fun e => hy (by simp [e, hlS])
    · intro e
      rw [hParted.top_prev] at e
      exact hy (by simp [lastOf_mem e])
    · intro e
      rw [hParted.bot_next] at e
      exact hy (by simp [nextOf_mem e])
  have hHusome : ∀ y, (Hu y).isSome = (H2 y).isSome := by
    intro y; rw [hHu]; simp
  have hHulineno : ∀ y, linenoAt Hu y = linenoAt H2 y := by
    intro y; rw [hHu]; simp
  have hsbsome : (H2 somebuffer).isSome := by
    obtain ⟨n, hn⟩ := hsegS2.live hsS
    simp [hn]
  have hlsome : (H2 l).isSome := by simp [hfbn]
  have hHudata : ∀ y, dataOf Hu y =
      if y = l then (if y = somebuffer then p.top_data ++ dataOf H2 y else dataOf H2 y)
        ++ p.bot_data
      else if y = somebuffer then p.top_data ++ dataOf H2 y else dataOf H2 y := by
    intro y
    rw [hHu]
    exact dataOf_unpart _ _ _ _ hsbsome hlsome y
  have hbufU : ∀ e : Nat, Buf { s with
      heap := Hu, filetop := p.filetop.getD somebuffer, filebot := p.filebot.getD l,
      edittop := e, current := l,
      current_x := CX, mark := MK, mark_x := MX, filepart := none,
      totsize := s.totsize + sizeOf H2 Src } (A ++ (Src ++ B)) := by
    intro e
    obtain ⟨-, hsegU, hheadU, hlastU⟩ := hU e
    exact
      { nodup := by simpa using (hP e).nodup
        seg := by simpa using hsegU
        top := by simpa using hheadU
        bot := by simpa using hlastU
        fresh := by
          intro y hy
          show Hu y = none
          exact eq_none_of_isSome_eq (hHusome y) (hfresh2 y hy) }
  obtain ⟨ei, hei⟩ : ∃ ei : Nat, ei = if decide (s.edittop = s.current) = true then somebuffer
      else s.edittop := ⟨_, rfl⟩
  obtain ⟨-, -, hheadU, hlastU⟩ := hU ei
  have hheadSB : (Src ++ B).head? = some somebuffer := by
    rw [hSrc1]; rfl
  obtain ⟨H6, M, hrm, hseg6, hnd6, hlast6, hfresh6, hdata6, hdataM, hlineno6, hnum6, hframe6,
      hM, hMiff⟩ := renumber_and_magic_spec (hbufU ei) hheadSB
  simp only at hrm hseg6 hnd6 hlast6 hfresh6 hdata6 hdataM hlineno6 hnum6 hframe6 hM hMiff
  have hcomp : ingraft_buffer s somebuffer = some
      { s with
          heap := H6, brk := s.brk + M.length, filetop := p.filetop.getD somebuffer,
          filebot := (M.head?).getD (p.filebot.getD l),
          edittop := ei,
          current := l, current_x := CX, mark := MK, mark_x := MX,
          filepart := none,
          totsize := s.totsize + sizeOf H2 Src + M.length } := by
    unfold ingraft_buffer
    simp only [hord, hpart, hfree, hlast, hcur]
    unfold ingraft_buffer_finish
    simp only [hts]
    by_cases he : s.edittop = s.current
    · simp only [he, decide_True, if_true] at hei ⊢
      rw [hei] at hrm ⊢
      rw [(hU somebuffer).1]
      exact hrm
    · simp only [he, decide_False, Bool.false_eq_true, if_false] at hei ⊢
      rw [hei] at hrm ⊢
      rw [(hU s.edittop).1]
      exact hrm
  have hMmem : ∀ y, y ∈ M → y = s.brk := by
    intro y hy
    rcases hM with e | e
    · rw [e] at hy; cases hy
    · rw [e] at hy; simpa using hy
  have hAlt : ∀ y, y ∈ A → y < s.brk := fun y hy => h.buf.lt_brk (by simp [hy])
  have hBlt : ∀ y, y ∈ B → y < s.brk := fun y hy => h.buf.lt_brk (by simp [hy])
  have hdata60 : ∀ y, y ∈ A ++ (Src ++ B) → dataOf H6 y = dataOf Hu y := by
    intro y hy
    rw [dataOf_eq, hdata6 y hy, ← dataOf_eq]
  have hne_l : ∀ y, y ∈ A ++ B → y ≠ l := by
    intro y hy e
    rcases List.mem_append.1 hy with h1 | h1
    · exact hSA l hlS (e ▸ h1)
    · exact hSB l hlS (e ▸ h1)
  have hne_s : ∀ y, y ∈ A ++ B → y ≠ somebuffer := by
    intro y hy e
    rcases List.mem_append.1 hy with h1 | h1
    · exact hSA _ hsS (e ▸ h1)
    · exact hSB _ hsS (e ▸ h1)
  have hne_c : ∀ y, y ∈ A ++ B → y ≠ s.current := by
    intro y hy e
    rcases List.mem_append.1 hy with h1 | h1
    · exact hcA (e ▸ h1)
    · exact hcB (e ▸ h1)
  have hlastne : (A ++ Src ++ B) ≠ [] := by rw [hSrc1]; simp
  refine ⟨_, M, hcomp, ?_⟩
  exact
    { buf :=
        { nodup := by simpa using hnd6
          seg := by simpa using hseg6
          top := by
            show (A ++ Src ++ B ++ M).head? = some (p.filetop.getD somebuffer)
            rw [List.head?_append_of_ne_nil _ hlastne]
            exact hheadU
          bot := by simpa using hlast6
          fresh := by
            intro y hy
            exact hfresh6 y hy }
      magic := hM
      magic_iff := by
        rw [hMiff]
        have hm : p.filebot.getD l ∈ A ++ (Src ++ B) := by
          have := List.mem_of_getLast?_eq_some hlastU
          simpa using this
        constructor
        · rintro ⟨h1, h2⟩
          refine ⟨h1, _, hlastU, ?_⟩
          show dataOf H6 _ ≠ []
          rw [hdata60 _ hm]
          exact h2
        · rintro ⟨h1, q, hq, h2⟩
          refine ⟨h1, ?_⟩
          rw [hlastU] at hq
          cases hq
          have h3 : dataOf H6 (p.filebot.getD l) ≠ [] := h2
          rw [hdata60 _ hm] at h3
          exact h3
      data_old := by
        intro y hy
        show dataOf H6 y = _
        have h1 : y ∈ A ++ (Src ++ B) := by
          rcases List.mem_append.1 hy with h2 | h2 <;> simp [h2]
        rw [hdata60 y h1, hHudata, if_neg (hne_l y hy), if_neg (hne_s y hy)]
        exact dataOf_congr (hH2frame y (hne_c y hy))
      data_src := by
        show Src.map (dataOf H6) = _
        have hmemS : ∀ y, y ∈ Src → dataOf H6 y = dataOf Hu y := fun y hy =>
          hdata60 y (by simp [hy])
        rw [← hptd, ← hpbd]
        apply map_mapHead_mapLast _ _ h.src_nodup h.src_head hl
        · intro y hy h1 h2
          rw [hmemS y hy, hHudata, if_neg h2, if_neg h1]
          exact dataOf_congr (hH2S y hy)
        · intro hne
          rw [hmemS _ hsS, hHudata, if_neg hne, if_pos rfl, dataOf_congr (hH2S _ hsS)]
        · intro hne
          rw [hmemS _ hlS, hHudata, if_pos rfl, if_neg (Ne.symm hne), dataOf_congr (hH2S _ hlS)]
        · intro he
          rw [hmemS _ hsS, hHudata, if_pos he, if_pos rfl, dataOf_congr (hH2S _ hsS)]
          simp
      data_magic := by
        intro y hy
        show dataOf H6 y = []
        rw [dataOf_eq, hdataM y hy]
        rfl
      num_old := by
        intro y hy
        have h1 : y ∉ Src ++ B := by
          intro h2
          rcases List.mem_append.1 h2 with h3 | h3
          · exact hSA y h3 hy
          · exact hAB y hy h3
        have h2 : y ∉ M := fun h3 => by
          have := hMmem y h3
          have := hAlt y hy
          omega
        show linenoAt H6 y = _
        rw [hlineno6 y h1 h2, hHulineno]
        exact linenoAt_congr (hH2A y hy)
      num_new := by
        have e : lastNumber Hu A = lastNumber s.heap A := by
          apply lastNumber_congr
          · intro y hy
            rw [hHulineno]
            exact linenoAt_congr (hH2A y hy)
          · intro y hy
            exact h.buf.mem_live (by simp [hy])
          · intro y hy
            rw [hHusome, hH2A y hy]
            exact h.buf.mem_live (by simp [hy])
        rw [← e]
        simpa using hnum6
      totsize := by
        show s.totsize + sizeOf H2 Src + M.length = _
        rw [sizeOf_eq_textSize, map_congr_mem (fun y hy => dataOf_congr (hH2S y hy))]
      cursor := hl
      cursor_x := by
        show CX = _
        rw [hCX, dataOf_of_eq hfbn0]
        by_cases e : somebuffer = l
        · rw [if_pos e, if_pos ((head_eq_last_iff h.src_nodup h.src_head hl).1 e)]
          omega
        · rw [if_neg e, if_neg (fun e1 => e ((head_eq_last_iff h.src_nodup h.src_head hl).2 e1))]
          omega
      mark := by
        intro m hm
        show (H6 m).isSome
        have hm1 : MK = some m := hm
        have hliveS : ∀ y, y ∈ Src → (H6 y).isSome := by
          intro y hy
          obtain ⟨n, hn⟩ := hseg6.live (show y ∈ A ++ (Src ++ B) ++ M by simp [hy])
          simp [hn]
        by_cases hcnd : s.mark ≠ none ∧ sl = true
        · rw [hMK, if_pos hcnd] at hm1
          split_ifs at hm1 <;> cases hm1
          · exact hliveS _ hlS
          · exact hliveS _ hsS
          · exact hliveS _ hlS
        · rw [hMK, if_neg hcnd] at hm1
          have hmc : m ≠ s.current := by
            intro e
            exact hcnd ⟨by rw [hm1]; simp, (hsl m hm1).2 e⟩
          by_cases hin : m ∈ A ++ (Src ++ B) ++ M
          · obtain ⟨n, hn⟩ := hseg6.live hin
            simp [hn]
          · simp only [List.mem_append, not_or] at hin
            obtain ⟨⟨hyA, hyS, hyB⟩, hyM⟩ := hin
            rw [hframe6 m (by simp [hyA, hyB, hyS, hyM]), hHuframe m (by simp [hyA, hyB, hyS]),
              hH2frame m hmc]
            exact h.mark m hm1
      mark_rule := by
        refine ⟨?_, ?_⟩
        · intro hnone
          show MK = none
          rw [hMK, if_neg (fun hcnd => hcnd.1 hnone), hnone]
        · intro m hm
          have hsome : s.mark ≠ none := by rw [hm]; simp
          have h1len : Src.length = 1 ↔ somebuffer = l :=
            (head_eq_last_iff h.src_nodup h.src_head hl).symm
          refine ⟨?_, ?_, ?_⟩
          · intro hmc
            have hsl0 : ¬ sl = true := fun e => hmc ((hsl m hm).1 e)
            refine ⟨?_, ?_⟩
            · show MK = some m
              rw [hMK, if_neg (fun hcnd => hsl0 hcnd.2), hm]
            · show MX = s.mark_x
              rw [hMX, if_neg (fun hcnd => hsl0 hcnd.2.1)]
          · intro hmc hlt
            have hsl1 : sl = true := (hsl m hm).2 hmc
            have hrsu : rsu = true := (ingraft_buffer_order_rsu hord (hmc ▸ hm)).2 hlt
            refine ⟨?_, ?_⟩
            · show MK = Src.head?
              rw [hMK, if_pos ⟨hsome, hsl1⟩, h.src_head]
              by_cases e : somebuffer = l
              · rw [if_pos e, e]
              · rw [if_neg e, if_pos hrsu]
            · show MX = s.mark_x
              rw [hMX, if_neg (fun hcnd => by rw [hrsu] at hcnd; cases hcnd.2.2)]
          · intro hmc hle
            have hsl1 : sl = true := (hsl m hm).2 hmc
            have hrsu : rsu = false := by
              cases hr : rsu with
              | false => rfl
              | true =>
                have := (ingraft_buffer_order_rsu hord (hmc ▸ hm)).1 hr
                omega
            refine ⟨?_, ?_⟩
            · show MK = Src.getLast?
              rw [hMK, if_pos ⟨hsome, hsl1⟩, hl]
              by_cases e : somebuffer = l
              · rw [if_pos e]
              · rw [if_neg e, if_neg (by rw [hrsu]; decide)]
            · show MX = _
              rw [hMX, if_pos ⟨hsome, hsl1, hrsu⟩]
              show _ = if Src.length = 1
                then (s.mark_x + (dataOf s.heap l).length) % 2 ^ 64
                else (s.mark_x + (dataOf s.heap l).length +
                  (2 ^ 64 - s.current_x % 2 ^ 64)) % 2 ^ 64
              rw [dataOf_of_eq hfbn0]
              by_cases e : somebuffer = l
              · rw [if_pos e, if_pos (h1len.2 e)]
              · rw [if_neg e, if_neg (fun e1 => e (h1len.1 e1))]
      frame := by
        intro y hy
        simp only [List.mem_append, List.mem_singleton, not_or] at hy
        obtain ⟨⟨⟨⟨hyA, hyC⟩, hyB⟩, hyS⟩, hyM⟩ := hy
        show H6 y = s.heap y
        rw [hframe6 y (by simp [hyA, hyB, hyS, hyM]), hHuframe y (by simp [hyA, hyB, hyS]),
          hH2frame y hyC]
      rest := rfl }

theorem Buf.addrs {s : State} {ps : List Nat} (hb : Buf s ps) :
    addrs_from s.brk s.heap (some s.filetop) = some ps := by
  have h := addrs_from_seg hb.seg s.brk hb.length_le
  rwa [nextOf_of_head? none hb.top] at h

/-- The text of a buffer that ends in an optional magic line. -/
theorem text_with_magic {t : State} {L M : List Nat} {T : List (List Nat)} {nn : Bool}
    (hbuf : Buf t (L ++ M)) (hT : L.map (dataOf t.heap) = T) (hne : L ≠ [])
    (hmagic : M = [] ∨ ∃ m, M = [m])
    (hiff : M ≠ [] ↔ (nn = false ∧ ∃ q, L.getLast? = some q ∧ dataOf t.heap q ≠ []))
    (hdm : ∀ y, y ∈ M → dataOf t.heap y = []) :
    buffer_text t = some (T ++ (if nn = false ∧ T.getLast? ≠ some [] then [[]] else [])) := by
  rw [hbuf.text, List.map_append, hT]
  congr 2
  obtain ⟨q, -, hq2⟩ := lastOf_some_of_ne_nil none hne
  have e5 : T.getLast? = some (dataOf t.heap q) := by
    rw [← hT, getLast?_map', hq2]
    rfl
  rw [e5]
  by_cases hM : M = []
  · have h1 : ¬ (nn = false ∧ some (dataOf t.heap q) ≠ some []) := by
      intro ⟨h2, h3⟩
      exact hiff.2 ⟨h2, q, hq2, fun e => h3 (by rw [e])⟩ hM
    rw [if_neg h1, hM]
    rfl
  · obtain ⟨h2, q1, hq1, h3⟩ := hiff.1 hM
    rw [hq2] at hq1
    cases hq1
    rw [if_pos ⟨h2, fun e => h3 (by simpa using e)⟩]
    rcases hmagic with e | ⟨m, e⟩
    · exact absurd e hM
    · rw [e]
      simp [hdm m (by simp [e])]

/-- The text of the buffer after `ingraft_buffer`. -/
theorem IngraftPost.text_pasted {s t : State} {A B Src M : List Nat}
    (hp : IngraftPost s t A B Src M) (hne : Src ≠ []) :
    buffer_text t = some
      ((A.map (dataOf s.heap) ++
          insertText (dataOf s.heap s.current) s.current_x (Src.map (dataOf s.heap)) ++
          B.map (dataOf s.heap)) ++
        (if s.NO_NEWLINES = false ∧
            (A.map (dataOf s.heap) ++
              insertText (dataOf s.heap s.current) s.current_x (Src.map (dataOf s.heap)) ++
              B.map (dataOf s.heap)).getLast? ≠ some [] then [[]] else [])) := by
  have e1 : A.map (dataOf t.heap) = A.map (dataOf s.heap) :=
    map_congr_mem (fun y hy => hp.data_old y (by simp [hy]))
  have e2 : B.map (dataOf t.heap) = B.map (dataOf s.heap) :=
    map_congr_mem (fun y hy => hp.data_old y (by simp [hy]))
  apply text_with_magic hp.buf
  · rw [List.map_append, List.map_append, e1, e2, hp.data_src]
    rfl
  · simp [hne]
  · rcases hp.magic with e | e
    · exact Or.inl e
    · exact Or.inr ⟨_, e⟩
  · exact hp.magic_iff
  · exact hp.data_magic

theorem insertText_single (c : List Nat) (x : Nat) (s1 : List Nat) :
    insertText c x [s1] = [c.take x ++ s1 ++ c.drop x] := by
  simp [insertText, mapLast, mapHead]

theorem insertText_many (c : List Nat) (x : Nat) (s1 sk : List Nat) (mid : List (List Nat)) :
    insertText c x (s1 :: (mid ++ [sk])) = (c.take x ++ s1) :: (mid ++ [sk ++ c.drop x]) := by
  unfold insertText
  rw [← List.cons_append, mapLast_append_singleton]
  rfl

/-- C5: for every buffer `A ++ [current] ++ B` with the cursor at offset
`current_x` of its line `c`, and every non-empty source list `Src` with the
lines `s1..sk`, `ingraft_buffer` succeeds and afterwards the text of the
buffer is: the lines of `A` unchanged, then `c[0..x) ++ s1 ++ c[x..]` when
`k = 1` or `c[0..x) ++ s1, s2, ..., s(k-1), sk ++ c[x..]` when `k >= 2`, then
the lines of `B` unchanged, and one more empty line exactly when NO_NEWLINES
is unset and the last of these lines is not empty. -/
theorem ingraft_buffer_inserts_text (s : State) (A B Src : List Nat) (somebuffer : Nat)
    (h : IngraftPre s A B Src somebuffer) :
    ∃ t, ingraft_buffer s somebuffer = some t ∧
      buffer_text s = some (A.map (dataOf s.heap) ++ [dataOf s.heap s.current] ++
        B.map (dataOf s.heap)) ∧
      text_from s (some somebuffer) = some (Src.map (dataOf s.heap)) ∧
      buffer_text t = some
        ((A.map (dataOf s.heap) ++
            insertText (dataOf s.heap s.current) s.current_x (Src.map (dataOf s.heap)) ++
            B.map (dataOf s.heap)) ++
          (if s.NO_NEWLINES = false ∧
              (A.map (dataOf s.heap) ++
                insertText (dataOf s.heap s.current) s.current_x (Src.map (dataOf s.heap)) ++
                B.map (dataOf s.heap)).getLast? ≠ some [] then [[]] else [])) ∧
      (∀ s1, Src.map (dataOf s.heap) = [s1] →
        insertText (dataOf s.heap s.current) s.current_x (Src.map (dataOf s.heap)) =
          [(dataOf s.heap s.current).take s.current_x ++ s1 ++
            (dataOf s.heap s.current).drop s.current_x]) ∧
      (∀ s1 mid sk, Src.map (dataOf s.heap) = s1 :: (mid ++ [sk]) →
        insertText (dataOf s.heap s.current) s.current_x (Src.map (dataOf s.heap)) =
          ((dataOf s.heap s.current).take s.current_x ++ s1) ::
            (mid ++ [sk ++ (dataOf s.heap s.current).drop s.current_x])) := by
  obtain ⟨t, M, hrun, hpost⟩ := ingraft_buffer_spec h
  obtain ⟨Src1, hSrc1⟩ := eq_cons_of_head? h.src_head
  have hne : Src ≠ [] := by rw [hSrc1]; simp
  have hlt : ∀ y, y ∈ Src → y < s.brk := by
    intro y hy
    by_contra hge
    obtain ⟨n, hn⟩ := h.src.live hy
    rw [h.buf.fresh y (Nat.le_of_not_lt hge)] at hn
    cases hn
  refine ⟨t, hrun, ?_, ?_, hpost.text_pasted hne, ?_, ?_⟩
  · rw [h.buf.text]
    simp
  · rw [← h.src_head, text_from_list h.src h.src_nodup hlt]
  · intro s1 e
    rw [e, insertText_single]
  · intro s1 mid sk e
    rw [e, insertText_many]

/-- The text of the line under the cursor after `ingraft_buffer`. -/
theorem IngraftPost.cursor_data {s t : State} {A B Src M : List Nat}
    (hpost : IngraftPost s t A B Src M) :
    dataOf t.heap t.current =
      (if Src.length = 1 then (dataOf s.heap s.current).take s.current_x else []) ++
        dataOf s.heap t.current ++ (dataOf s.heap s.current).drop s.current_x := by
  obtain ⟨S0, hS0⟩ := eq_append_of_getLast? hpost.cursor
  have h1 := hpost.data_src
  rw [hS0] at h1
  rcases List.eq_nil_or_concat S0 with e | ⟨S1, b, e⟩
  · rw [e] at h1
    simp only [List.nil_append, List.map_cons, List.map_nil, mapLast, mapHead,
      List.cons.injEq, and_true] at h1
    rw [h1, hS0, e]
    simp
  · rw [e, List.concat_eq_append] at h1
    simp only [List.map_append, List.map_cons, List.map_nil] at h1
    rw [mapLast_append_singleton] at h1
    have h2 := congrArg List.getLast? h1
    have h3 : ∀ (f : List Nat → List Nat) (l : List (List Nat)) (z : List Nat),
        (mapHead f (l ++ [z])).getLast? = if l = [] then some (f z) else some z := by
      intro f l z
      cases l with
      | nil => rfl
      | cons a l =>
        have e : ∀ (l : List (List Nat)) (z : List Nat), (l ++ [z]).getLast? = some z := by
          intro l z
          simp
        rw [if_neg (by simp)]
        exact e (f a :: l) z
    rw [h3] at h2
    simp at h2
    rw [h2, hS0, e]
    simp

/-- C6: after `ingraft_buffer` of the source lines `s1..sk` at the cursor
`(c, x)`, the cursor is on the last line of the source, which is in the
buffer right after the lines that were above `c` and the first `k - 1` lines
of the source; its offset is `length(sk)` when `k >= 2` and `x + length(s1)`
when `k = 1`; the text of its line before the cursor ends with `sk` and the
text after the cursor is `c[x..]`. -/
theorem ingraft_buffer_cursor_at_end (s : State) (A B Src : List Nat) (somebuffer : Nat)
    (h : IngraftPre s A B Src somebuffer) :
    ∃ t, ingraft_buffer s somebuffer = some t ∧
      Src.getLast? = some t.current ∧
      (∃ L, addrs_from t.brk t.heap (some t.filetop) = some L ∧
        L.get? (A.length + Src.length - 1) = some t.current) ∧
      t.current_x = (if Src.length = 1 then s.current_x else 0) +
        (dataOf s.heap t.current).length ∧
      (dataOf t.heap t.current).take t.current_x =
        (if Src.length = 1 then (dataOf s.heap s.current).take s.current_x else []) ++
          dataOf s.heap t.current ∧
      (dataOf t.heap t.current).drop t.current_x =
        (dataOf s.heap s.current).drop s.current_x := by
  obtain ⟨t, M, hrun, hpost⟩ := ingraft_buffer_spec h
  obtain ⟨S0, hS0⟩ := eq_append_of_getLast? hpost.cursor
  have hxle : s.current_x ≤ (dataOf s.heap s.current).length := h.x_le
  have hdata := hpost.cursor_data
  refine ⟨t, hrun, hpost.cursor, ⟨_, hpost.buf.addrs, ?_⟩, hpost.cursor_x, ?_, ?_⟩
  · rw [hS0]
    have e : A ++ (S0 ++ [t.current]) ++ B ++ M = (A ++ S0) ++ t.current :: (B ++ M) := by
      simp
    have e2 : A.length + (S0 ++ [t.current]).length - 1 = (A ++ S0).length := by
      simp
    rw [e, e2, List.get?_eq_getElem?, List.getElem?_append_right (le_refl _)]
    simp
  · rw [hdata, hpost.cursor_x]
    split_ifs <;> simp [List.take_append_eq_append_take, hxle]
  · rw [hdata, hpost.cursor_x]
    split_ifs <;> simp [List.drop_append_eq_append_drop, hxle]

/-! ## `copy_buffer` -/

theorem copy_buffer_loop_eq {ps : List Nat} : ∀ {s : State} {copy : Nat} {pv : Option Nat}
    (b0 : Nat), Seg s.heap pv ps none → (∀ p, p ∈ ps → p < b0) → b0 ≤ copy →
    s.brk = copy + 1 → (s.heap copy).isSome → ∀ fuel, ps.length ≤ fuel →
    copy_buffer_loop fuel s copy (nextOf ps none) = some
      ({ s with heap := copyRest s.heap s.brk copy ps, brk := s.brk + ps.length },
        copy + ps.length) := by
  induction ps with
  | nil =>
    intro s copy pv b0 _ _ _ _ _ fuel _
    cases fuel <;> rfl
  | cons p rest ih =>
    intro s copy pv b0 hs hlt hb0 hbrk hcl fuel hf
    rw [Seg_cons] at hs
    obtain ⟨n, hn, -, hnx⟩ := linksAt_some hs.1
    obtain ⟨nd, nl, nn, np⟩ := n
    simp only at hnx
    subst hnx
    cases fuel with
    | zero => simp at hf
    | succ fuel =>
      have hlen : rest.length ≤ fuel := by simpa using hf
      have hpb0 : p < b0 := hlt p (by simp)
      have hpc : p ≠ copy := by omega
      have hpb : p ≠ s.brk := by omega
      have hcb : copy ≠ s.brk := by omega
      obtain ⟨H3, hH3⟩ : ∃ H3 : Heap, H3 =
          ((s.heap.set s.brk (s.heap p)).setNext copy (some s.brk)).setPrev s.brk (some copy) :=
        ⟨_, rfl⟩
      have hH3frame : ∀ y, y ≠ copy → y ≠ s.brk → H3 y = s.heap y := by
        intro y h1 h2
        rw [hH3]
        simp [Heap.setPrev, Heap.setNext, Heap.upd_ne _ _ h1, Heap.upd_ne _ _ h2,
          Heap.set_ne _ _ h2]
      have hseg3 : Seg H3 (some p) rest none := by
        refine Seg.frame (fun y hy => linksAt_congr (hH3frame y ?_ ?_)) hs.2
        · have := hlt y (by simp [hy]); omega
        · have := hlt y (by simp [hy]); omega
      have hlive3 : (H3 s.brk).isSome := by
        rw [hH3]
        simp [hn]
      have hrec := @ih { s with heap := H3, brk := s.brk + 1 } s.brk (some p) b0 hseg3
        (fun y hy => hlt y (by simp [hy])) (by omega) rfl hlive3 fuel hlen
      simp only at hrec
      have hstep : copy_buffer_loop (fuel + 1) s copy (some p) =
          copy_buffer_loop fuel { s with heap := H3, brk := s.brk + 1 } s.brk
            (nextOf rest none) := by
        simp only [copy_buffer_loop, copy_node, hn, State.alloc, Option.bind_eq_bind,
          Option.some_bind, modify_isSome]
        simp only [Heap.set_ne _ _ hcb, hcl, if_true, Option.some_bind, upd_isSome,
          Heap.set_same, Option.isSome_some, Heap.upd_ne _ _ hpb, Heap.upd_ne _ _ hpc,
          Heap.set_ne _ _ hpb, hn]
        rw [hH3, hn]
        rfl
      rw [nextOf_cons, hstep, hrec]
      simp only [copyRest, List.length_cons, ← hH3, Option.some.injEq, Prod.mk.injEq]
      refine ⟨?_, by omega⟩
      congr 1
      omega

theorem copyRest_frame {ps : List Nat} : ∀ (h : Heap) (b copy y : Nat), copy < b →
    (y < b ∨ b + ps.length ≤ y) → y ≠ copy → copyRest h b copy ps y = h y := by
  induction ps with
  | nil => intro h b copy y _ _ _; rfl
  | cons p rest ih =>
    intro h b copy y hcb hy hyc
    have hyb : y ≠ b := by
      rcases hy with h1 | h1
      · omega
      · simp at h1; omega
    rw [copyRest, ih _ (b + 1) b y (by omega) (by
      rcases hy with h1 | h1
      · left; omega
      · right; simp at h1; omega) hyb]
    simp [Heap.setPrev, Heap.setNext, Heap.upd_ne _ _ hyc, Heap.upd_ne _ _ hyb,
      Heap.set_ne _ _ hyb]

theorem copyRest_copy (ps : List Nat) (h : Heap) (b copy : Nat) (hcb : copy < b) :
    copyRest h b copy ps copy =
      if ps = [] then h copy else (h copy).map (fun n => { n with next := some b }) := by
  cases ps with
  | nil => rfl
  | cons p rest =>
    have hne : copy ≠ b := by omega
    rw [copyRest, copyRest_frame _ (b + 1) b copy (by omega) (Or.inl (by omega)) hne,
      if_neg (by simp)]
    simp [Heap.setPrev, Heap.setNext, Heap.upd_ne _ _ hne, Heap.upd_same, Heap.set_ne _ _ hne]

theorem copyRest_seg {ps : List Nat} : ∀ (h : Heap) (b copy : Nat) (pv : Option Nat) (b0 : Nat),
    Seg h pv ps none → (∀ p, p ∈ ps → p < b0) → b0 ≤ copy → copy < b →
    Seg (copyRest h b copy ps) (some copy) (List.range' b ps.length) none ∧
      (List.range' b ps.length).map (dataOf (copyRest h b copy ps)) = ps.map (dataOf h) := by
  induction ps with
  | nil =>
    intro h b copy pv b0 _ _ _ _
    exact ⟨trivial, rfl⟩
  | cons p rest ih =>
    intro h b copy pv b0 hs hlt hb0 hcb
    rw [Seg_cons] at hs
    obtain ⟨n, hn, -, hnx⟩ := linksAt_some hs.1
    obtain ⟨nd, nl, nn, np⟩ := n
    simp only at hnx
    subst hnx
    have hpb0 : p < b0 := hlt p (by simp)
    obtain ⟨H3, hH3⟩ : ∃ H3 : Heap, H3 =
        ((h.set b (h p)).setNext copy (some b)).setPrev b (some copy) := ⟨_, rfl⟩
    have hH3frame : ∀ y, y ≠ copy → y ≠ b → H3 y = h y := by
      intro y h1 h2
      rw [hH3]
      simp [Heap.setPrev, Heap.setNext, Heap.upd_ne _ _ h1, Heap.upd_ne _ _ h2,
        Heap.set_ne _ _ h2]
    have hrest : ∀ y, y ∈ rest → H3 y = h y := by
      intro y hy
      have := hlt y (by simp [hy])
      exact hH3frame y (by omega) (by omega)
    have hseg3 : Seg H3 (some p) rest none :=
      Seg.frame (fun y hy => linksAt_congr (hrest y hy)) hs.2
    have hH3b : H3 b = some ⟨nd, nl, nextOf rest none, some copy⟩ := by
      have hne : b ≠ copy := by omega
      rw [hH3]
      simp [Heap.setPrev, Heap.setNext, Heap.upd_ne _ _ hne, Heap.upd_same, hn]
    obtain ⟨ih1, ih2⟩ := ih H3 (b + 1) b (some p) b0 hseg3 (fun y hy => hlt y (by simp [hy]))
      (by omega) (by omega)
    have hb := copyRest_copy rest H3 (b + 1) b (by omega)
    rw [hH3b] at hb
    simp only [copyRest, List.length_cons, List.range'_succ, ← hH3]
    refine ⟨?_, ?_⟩
    · rw [Seg_cons]
      refine ⟨?_, ih1⟩
      cases rest with
      | nil =>
        rw [if_pos rfl] at hb
        simp [linksAt, hb, nextOf]
      | cons r rest1 =>
        rw [if_neg (by simp)] at hb
        simp [linksAt, hb, nextOf, List.range'_succ]
    · rw [List.map_cons, List.map_cons, ih2, map_congr_mem (fun y hy => dataOf_congr (hrest y hy))]
      congr 1
      rw [dataOf_of_eq hn]
      cases rest with
      | nil =>
        rw [if_pos rfl] at hb
        rw [dataOf_of_eq hb]
      | cons r rest1 =>
        rw [if_neg (by simp)] at hb
        simp only [Option.map_some'] at hb
        rw [dataOf_of_eq hb]

/-- What `copy_buffer` does with a list whose lines are allocated. -/
theorem copy_buffer_spec {s : State} {src : Nat} {rest : List Nat} {pv : Option Nat}
    (hs : Seg s.heap pv (src :: rest) none) (hnd : (src :: rest).Nodup)
    (hlt : ∀ p, p ∈ src :: rest → p < s.brk) :
    copy_buffer s src = some
        ({ s with heap := copyHeap s.heap s.brk src rest, brk := s.brk + (rest.length + 1) },
          s.brk) ∧
      Seg (copyHeap s.heap s.brk src rest) none (List.range' s.brk (rest.length + 1)) none ∧
      (List.range' s.brk (rest.length + 1)).map (dataOf (copyHeap s.heap s.brk src rest)) =
        (src :: rest).map (dataOf s.heap) ∧
      (∀ y, (y < s.brk ∨ s.brk + (rest.length + 1) ≤ y) →
        copyHeap s.heap s.brk src rest y = s.heap y) := by
  have hs0 := hs
  rw [Seg_cons] at hs
  obtain ⟨n, hn, -, hnx⟩ := linksAt_some hs.1
  obtain ⟨nd, nl, nn, np⟩ := n
  simp only at hnx
  subst hnx
  have hsb : src < s.brk := hlt src (by simp)
  have hne : src ≠ s.brk := by omega
  obtain ⟨H0, hH0⟩ : ∃ H0 : Heap, H0 = (s.heap.set s.brk (s.heap src)).setPrev s.brk none :=
    ⟨_, rfl⟩
  have hH0frame : ∀ y, y ≠ s.brk → H0 y = s.heap y := by
    intro y h2
    rw [hH0]
    simp [Heap.setPrev, Heap.upd_ne _ _ h2, Heap.set_ne _ _ h2]
  have hH0b : H0 s.brk = some ⟨nd, nl, nextOf rest none, none⟩ := by
    rw [hH0]
    simp [Heap.setPrev, Heap.upd_same, hn]
  have hrest : ∀ y, y ∈ rest → H0 y = s.heap y := by
    intro y hy
    have := hlt y (by simp [hy])
    exact hH0frame y (by omega)
  have hseg0 : Seg H0 (some src) rest none :=
    Seg.frame (fun y hy => linksAt_congr (hrest y hy)) hs.2
  have hlen : rest.length ≤ s.brk := by
    have := length_le_of_nodup_lt hnd hlt
    simp at this
    omega
  have hloop := @copy_buffer_loop_eq rest { s with heap := H0, brk := s.brk + 1 }
    s.brk (some src) s.brk hseg0 (fun y hy => hlt y (by simp [hy])) (le_refl _) rfl
    (by simp [hH0b]) s.brk hlen
  simp only at hloop
  obtain ⟨hsegR, hdataR⟩ := copyRest_seg H0 (s.brk + 1) s.brk (some src) s.brk hseg0
    (fun y hy => hlt y (by simp [hy])) (le_refl _) (by omega)
  have hcopy := copyRest_copy rest H0 (s.brk + 1) s.brk (by omega)
  rw [hH0b] at hcopy
  have hsegAll : Seg (copyRest H0 (s.brk + 1) s.brk rest) none
      (List.range' s.brk (rest.length + 1)) none := by
    rw [List.range'_succ, Seg_cons]
    refine ⟨?_, hsegR⟩
    cases rest with
    | nil =>
      rw [if_pos rfl] at hcopy
      simp [linksAt, hcopy, nextOf]
    | cons r rest1 =>
      rw [if_neg (by simp)] at hcopy
      simp [linksAt, hcopy, nextOf, List.range'_succ]
  have hlastlive : (copyRest H0 (s.brk + 1) s.brk rest (s.brk + rest.length)).isSome := by
    obtain ⟨m, hm⟩ := hsegAll.live (p := s.brk + rest.length) (by
      simp [List.mem_range'_1])
    simp [hm]
  have hrun : copy_buffer s src = some
      ({ s with heap := copyHeap s.heap s.brk src rest, brk := s.brk + (rest.length + 1) },
        s.brk) := by
    unfold copy_buffer
    simp only [copy_node, hn, State.alloc, Option.bind_eq_bind, Option.some_bind, modify_isSome,
      Heap.set_same, Option.isSome_some, if_true, Heap.upd_ne _ _ hne, Heap.set_ne _ _ hne]
    have e : (s.heap.set s.brk (some ⟨nd, nl, nextOf rest none, np⟩)).upd s.brk
        (fun n => { n with prev := none }) = H0 := by
      rw [hH0, hn]
      rfl
    rw [e, hloop]
    simp only [Option.some_bind, hlastlive, if_true, Option.some.injEq, Prod.mk.injEq, and_true]
    unfold copyHeap
    rw [← hH0]
    simp only [Heap.setNext, Nat.add_assoc, Nat.add_comm 1]
  refine ⟨hrun, ?_, ?_, ?_⟩
  · unfold copyHeap
    rw [← hH0]
    have e : List.range' s.brk (rest.length + 1) =
        List.range' s.brk rest.length ++ [s.brk + rest.length] := by
      rw [List.range'_concat]
      simp
    have hnd2 : (List.range' s.brk rest.length ++ [s.brk + rest.length]).Nodup := by
      rw [← e]
      exact List.nodup_range' _ _
    have := Seg.setNext_last hnd2 (by rw [← e]; exact hsegAll) none
    rwa [← e] at this
  · unfold copyHeap
    rw [← hH0]
    have e1 : ∀ y, dataOf ((copyRest H0 (s.brk + 1) s.brk rest).setNext (s.brk + rest.length)
        none) y = dataOf (copyRest H0 (s.brk + 1) s.brk rest) y := by
      intro y
      simp
    rw [map_congr_mem (fun y _ => e1 y), List.range'_succ, List.map_cons, List.map_cons, hdataR,
      map_congr_mem (fun y hy => dataOf_congr (hrest y hy))]
    congr 1
    rw [dataOf_of_eq hn]
    cases rest with
    | nil =>
      rw [if_pos rfl] at hcopy
      rw [dataOf_of_eq hcopy]
    | cons r rest1 =>
      rw [if_neg (by simp)] at hcopy
      simp only [Option.map_some'] at hcopy
      rw [dataOf_of_eq hcopy]
  · intro y hy
    unfold copyHeap
    rw [← hH0]
    have h1 : y ≠ s.brk + rest.length := by omega
    have h2 : y ≠ s.brk := by omega
    rw [Heap.setNext, Heap.upd_ne _ _ h1, copyRest_frame _ _ _ _ (by omega) (by omega) h2]
    exact hH0frame y h2

/-! ## Pasting a copy: `copy_from_buffer` and `do_uncut_text` -/

theorem getD_append_cons (a : List (List Nat)) (x : List Nat) (b : List (List Nat))
    (n : Nat) (hn : n = a.length) : (a ++ x :: b).getD n [] = x := by
  subst hn
  induction a with
  | nil => rfl
  | cons y a ih => simpa using ih

/-- The text after `ingraft_buffer`, in terms of the text before. -/
theorem IngraftPost.paste_text {s t : State} {A B Src M : List Nat} {somebuffer : Nat}
    (h : IngraftPre s A B Src somebuffer) (hp : IngraftPost s t A B Src M) :
    ∃ T, buffer_text s = some T ∧
      buffer_text t = some
        (pasteText T A.length s.current_x (Src.map (dataOf s.heap)) s.NO_NEWLINES) := by
  obtain ⟨Src1, hSrc1⟩ := eq_cons_of_head? h.src_head
  have hne : Src ≠ [] := by rw [hSrc1]; simp
  refine ⟨_, h.buf.text, ?_⟩
  rw [hp.text_pasted hne]
  have e1 : ((A ++ [s.current] ++ B).map (dataOf s.heap)).take A.length =
      A.map (dataOf s.heap) := by
    simp [List.take_append_eq_append_take]
  have e2 : ((A ++ [s.current] ++ B).map (dataOf s.heap)).getD A.length [] =
      dataOf s.heap s.current := by
    simp only [List.map_append, List.map_cons, List.map_nil, List.append_assoc,
      List.singleton_append]
    exact getD_append_cons _ _ _ _ (by simp)
  have e3 : ((A ++ [s.current] ++ B).map (dataOf s.heap)).drop (A.length + 1) =
      B.map (dataOf s.heap) := by
    simp [List.drop_append_eq_append_drop]
  unfold pasteText
  rw [e1, e2, e3]

/-- `IngraftPre` reads only some of the fields of the state. -/
theorem IngraftPre.of_fields {s s1 : State} {A B Src : List Nat} {somebuffer : Nat}
    (h : IngraftPre s A B Src somebuffer) (hh : s1.heap = s.heap) (hb : s1.brk = s.brk)
    (hft : s1.filetop = s.filetop) (hfb : s1.filebot = s.filebot)
    (hc : s1.current = s.current) (hx : s1.current_x = s.current_x) (hm : s1.mark = s.mark) :
    IngraftPre s1 A B Src somebuffer where
  buf :=
    { nodup := by rw [hc]; exact h.buf.nodup
      seg := by rw [hc, hh]; exact h.buf.seg
      top := by rw [hc, hft]; exact h.buf.top
      bot := by rw [hc, hfb]; exact h.buf.bot
      fresh := by rw [hh, hb]; exact h.buf.fresh }
  x_le := by rw [hx, hh, hc]; exact h.x_le
  mark := by rw [hm, hh]; exact h.mark
  src := by rw [hh]; exact h.src
  src_nodup := h.src_nodup
  src_disj := by rw [hc]; exact h.src_disj
  src_head := h.src_head

theorem copy_from_buffer_spec {s : State} {A B Src : List Nat} {somebuffer : Nat}
    (h : IngraftPre s A B Src somebuffer) :
    ∃ (t : State) (C M : List Nat), copy_from_buffer s somebuffer = some t ∧
      IngraftPre t (A ++ C.dropLast) (B ++ M) Src somebuffer ∧
      C.length = Src.length ∧
      (∃ T, buffer_text s = some T ∧ buffer_text t = some
        (pasteText T A.length s.current_x (Src.map (dataOf s.heap)) s.NO_NEWLINES)) ∧
      (∀ y, y ∈ Src → t.heap y = s.heap y) ∧
      s.brk ≤ t.brk ∧
      t.cutbuffer = s.cutbuffer ∧ t.undotop = s.undotop ∧ t.current_undo = s.current_undo ∧
      t.NO_NEWLINES = s.NO_NEWLINES ∧
      t.current_x = (if Src.length = 1 then s.current_x else 0) +
        ((Src.map (dataOf s.heap)).getLast?.getD []).length := by
  obtain ⟨rest, hSrc⟩ := eq_cons_of_head? h.src_head
  have hSlt : ∀ y, y ∈ Src → y < s.brk := by
    intro y hy
    by_contra hge
    obtain ⟨n, hn⟩ := h.src.live hy
    rw [h.buf.fresh y (Nat.le_of_not_lt hge)] at hn
    cases hn
  obtain ⟨hcopy, hsegC, hdataC, hframeC⟩ := @copy_buffer_spec s somebuffer
    rest none (by rw [← hSrc]; exact h.src) (by rw [← hSrc]; exact h.src_nodup)
    (by rw [← hSrc]; exact hSlt)
  obtain ⟨Hc, hHc⟩ : ∃ Hc : Heap, Hc = copyHeap s.heap s.brk somebuffer rest := ⟨_, rfl⟩
  rw [← hHc] at hcopy hsegC hdataC hframeC
  rw [← hSrc] at hdataC
  obtain ⟨C, hC⟩ : ∃ C : List Nat, C = List.range' s.brk (rest.length + 1) := ⟨_, rfl⟩
  rw [← hC] at hsegC hdataC
  have hClen : C.length = Src.length := by rw [hC, hSrc]; simp
  have hCge : ∀ y, y ∈ C → s.brk ≤ y := by
    intro y hy
    rw [hC, List.mem_range'_1] at hy
    exact hy.1
  have hClt : ∀ y, y ∈ C → y < s.brk + (rest.length + 1) := by
    intro y hy
    rw [hC, List.mem_range'_1] at hy
    exact hy.2
  have hbuflt : ∀ y, y ∈ A ++ [s.current] ++ B → y < s.brk := fun y hy => h.buf.lt_brk hy
  have hpre1 : IngraftPre { s with heap := Hc, brk := s.brk + (rest.length + 1) } A B C s.brk :=
    { buf :=
        { nodup := h.buf.nodup
          seg := Seg.frame (fun y hy => linksAt_congr (hframeC y (Or.inl (hbuflt y hy))))
            h.buf.seg
          top := h.buf.top
          bot := h.buf.bot
          fresh := by
            intro y hy
            show Hc y = none
            rw [hframeC y (Or.inr hy)]
            exact h.buf.fresh y (le_trans (Nat.le_add_right _ _) hy) }
      x_le := by
        show s.current_x ≤ (dataOf Hc s.current).length
        rw [dataOf_congr (hframeC _ (Or.inl (hbuflt _ (by simp))))]
        exact h.x_le
      mark := by
        intro m hm
        show (Hc m).isSome
        have hl := h.mark m hm
        have hlt : m < s.brk := by
          by_contra hge
          rw [h.buf.fresh m (Nat.le_of_not_lt hge)] at hl
          simp at hl
        rw [hframeC m (Or.inl hlt)]
        exact hl
      src := hsegC
      src_nodup := by rw [hC]; exact List.nodup_range' _ _
      src_disj := by
        intro y hy hm
        have h1 := hCge y hy
        have h2 := hbuflt y hm
        omega
      src_head := by rw [hC]; rfl }
  obtain ⟨t, M, hrun, hpost⟩ := ingraft_buffer_spec hpre1
  have hrun2 : copy_from_buffer s somebuffer = some t := by
    unfold copy_from_buffer
    rw [hcopy]
    exact hrun
  have hMmem : ∀ y, y ∈ M → y = s.brk + (rest.length + 1) := by
    intro y hy
    rcases hpost.magic with e | e
    · rw [e] at hy; cases hy
    · rw [e] at hy; simpa using hy
  have hsrcframe : ∀ y, y ∈ Src → t.heap y = s.heap y := by
    intro y hy
    have hlt := hSlt y hy
    have h1 : y ∉ A ++ [s.current] ++ B ++ C ++ M := by
      intro hm
      rcases List.mem_append.1 hm with h2 | h2
      · rcases List.mem_append.1 h2 with h3 | h3
        · exact h.src_disj y hy h3
        · have := hCge y h3; omega
      · have := hMmem y h2; omega
    rw [hpost.frame y h1]
    exact hframeC y (Or.inl hlt)
  have hCsplit : C.dropLast ++ [t.current] = C :=
    List.dropLast_append_getLast? t.current (by rw [hpost.cursor]; simp)
  have hlist : A ++ C.dropLast ++ [t.current] ++ (B ++ M) = A ++ C ++ B ++ M := by
    rw [← hCsplit]
    simp
  have hdatac := hpost.cursor_data
  have hcx := hpost.cursor_x
  have hxle : s.current_x ≤ (dataOf Hc s.current).length := hpre1.x_le
  have hbt := hpost.paste_text hpre1
  have hrest := hpost.rest
  refine ⟨t, C, M, hrun2, ?_, hClen, ?_, hsrcframe, ?_, ?_, ?_, ?_, ?_, ?_⟩
  · exact
    { buf := by rw [hlist]; exact hpost.buf
      x_le := by
        rw [hdatac, hcx]
        simp only [List.length_append, List.length_drop]
        split_ifs
        · simp only [List.length_take]
          have : min s.current_x (dataOf Hc s.current).length = s.current_x :=
            Nat.min_eq_left hxle
          show s.current_x + _ ≤ min s.current_x (dataOf Hc s.current).length + _ + _
          omega
        · simp
      mark := hpost.mark
      src := Seg.frame (fun y hy => linksAt_congr (hsrcframe y hy)) h.src
      src_nodup := h.src_nodup
      src_disj := by
        intro y hy hm
        rw [hlist] at hm
        have hlt := hSlt y hy
        simp only [List.mem_append] at hm
        rcases hm with ((h2 | h2) | h2) | h2
        · exact h.src_disj y hy (by simp [h2])
        · have := hCge y h2; omega
        · exact h.src_disj y hy (by simp [h2])
        · have := hMmem y h2; omega
      src_head := h.src_head }
  · obtain ⟨T, hT1, hT2⟩ := hbt
    refine ⟨T, ?_, ?_⟩
    · rw [← hT1]
      have e := h.buf.text
      have e1 := hpre1.buf.text
      rw [e]
      rw [e1]
      congr 1
      exact map_congr_mem (fun y hy =>
        (dataOf_congr (hframeC y (Or.inl (hbuflt y hy)))).symm)
    · rw [hT2, hdataC]
  · rw [hrest]
    show s.brk ≤ s.brk + (rest.length + 1) + M.length
    omega
  · rw [hrest]
  · rw [hrest]
  · rw [hrest]
  · rw [hrest]
  · have e : (Src.map (dataOf s.heap)).getLast?.getD [] = dataOf Hc t.current := by
      rw [← hdataC, getLast?_map', hpost.cursor]
      rfl
    rw [e, hcx, hClen]

theorem do_uncut_text_spec {s : State} {A B Src : List Nat} {somebuffer : Nat}
    (h : IngraftPre s A B Src somebuffer) (hcb : s.cutbuffer = some somebuffer) :
    ∃ (t : State) (C M : List Nat), do_uncut_text s = some t ∧
      IngraftPre t (A ++ C.dropLast) (B ++ M) Src somebuffer ∧
      C.length = Src.length ∧
      (∃ T, buffer_text s = some T ∧ buffer_text t = some
        (pasteText T A.length s.current_x (Src.map (dataOf s.heap)) s.NO_NEWLINES)) ∧
      (∀ y, y ∈ Src → t.heap y = s.heap y) ∧
      s.brk ≤ t.brk ∧
      t.cutbuffer = s.cutbuffer ∧ t.NO_NEWLINES = s.NO_NEWLINES ∧
      t.current_x = (if Src.length = 1 then s.current_x else 0) +
        ((Src.map (dataOf s.heap)).getLast?.getD []).length := by
  obtain ⟨c, hc⟩ := Option.isSome_iff_exists.1 (h.buf.mem_live (x := s.current) (by simp))
  obtain ⟨sa, hsa, hsah, hsab, hsaft, hsafb, hsac, hsax, hsam, hsacb, hsann, hsau, hsaut⟩ :
      ∃ sa, add_undo s undo_type.PASTE = some sa ∧ sa.heap = s.heap ∧ sa.brk = s.brk ∧
        sa.filetop = s.filetop ∧ sa.filebot = s.filebot ∧ sa.current = s.current ∧
        sa.current_x = s.current_x ∧ sa.mark = s.mark ∧ sa.cutbuffer = s.cutbuffer ∧
        sa.NO_NEWLINES = s.NO_NEWLINES ∧ sa.current_undo = some 0 ∧
        ∃ u older, sa.undotop = u :: older := by
    unfold add_undo
    rw [hc]
    exact ⟨_, rfl, rfl, rfl, rfl, rfl, rfl, rfl, rfl, rfl, rfl, rfl, _, _, rfl⟩
  obtain ⟨u, older, hsaut⟩ := hsaut
  have hpa : IngraftPre sa A B Src somebuffer := h.of_fields hsah hsab hsaft hsafb hsac hsax hsam
  obtain ⟨t1, C, M, hrun, hpre, hlen, ⟨T, hT1, hT2⟩, hframe, hbrk, hcut, hut, hcu, hnn, hcx1⟩ :=
    copy_from_buffer_spec hpa
  obtain ⟨c1, hc1⟩ := Option.isSome_iff_exists.1 (hpre.buf.mem_live (x := t1.current) (by simp))
  obtain ⟨t2, ht2, ht2h, ht2b, ht2ft, ht2fb, ht2c, ht2x, ht2m, ht2cb, ht2nn⟩ :
      ∃ t2, update_undo t1 undo_type.PASTE = some t2 ∧ t2.heap = t1.heap ∧ t2.brk = t1.brk ∧
        t2.filetop = t1.filetop ∧ t2.filebot = t1.filebot ∧ t2.current = t1.current ∧
        t2.current_x = t1.current_x ∧ t2.mark = t1.mark ∧ t2.cutbuffer = t1.cutbuffer ∧
        t2.NO_NEWLINES = t1.NO_NEWLINES := by
    unfold update_undo
    rw [hcu, hsau]
    simp only [hut, hsaut, List.getElem?_cons_zero, hc1]
    exact ⟨_, rfl, rfl, rfl, rfl, rfl, rfl, rfl, rfl, rfl, rfl⟩
  have hrun2 : do_uncut_text s = some (set_modified t2) := by
    unfold do_uncut_text
    rw [hcb]
    simp only [hsa, hrun, ht2]
  have hbt : ∀ a b : State, a.heap = b.heap → a.brk = b.brk → a.filetop = b.filetop →
      buffer_text a = buffer_text b := by
    intro a b e1 e2 e3
    unfold buffer_text
    rw [e1, e2, e3]
  refine ⟨set_modified t2, C, M, hrun2, ?_, hlen, ⟨T, ?_, ?_⟩, ?_, ?_, ?_, ?_, ?_⟩
  · exact hpre.of_fields ht2h ht2b ht2ft ht2fb ht2c ht2x ht2m
  · rw [← hT1]
    exact hbt _ _ hsah.symm hsab.symm hsaft.symm
  · have e : buffer_text (set_modified t2) = buffer_text t1 := hbt _ _ ht2h ht2b ht2ft
    rw [e, hT2, hsah, hsax, hsann]
  · intro y hy
    show t2.heap y = s.heap y
    rw [ht2h, hframe y hy, hsah]
  · show s.brk ≤ t2.brk
    rw [ht2b, ← hsab]
    exact hbrk
  · show t2.cutbuffer = s.cutbuffer
    rw [ht2cb, hcut, hsacb]
  · show t2.NO_NEWLINES = s.NO_NEWLINES
    rw [ht2nn, hnn, hsann]
  · show t2.current_x = _
    rw [ht2x, hcx1, hsax, hsah]

theorem lines_from_congr {s t : State} {Src : List Nat} (hs : Seg s.heap none Src none)
    (hnd : Src.Nodup) (hlt : ∀ y, y ∈ Src → y < s.brk) (hbrk : s.brk ≤ t.brk)
    (hframe : ∀ y, y ∈ Src → t.heap y = s.heap y) :
    lines_from t Src.head? = lines_from s Src.head? ∧
      lines_from s Src.head? =
        some (Src.map (fun p => (dataOf s.heap p, (getNode s.heap p).lineno))) := by
  have h1 := lines_from_list hs hnd hlt
  have h2 := lines_from_list (s := t)
    (Seg.frame (fun y hy => linksAt_congr (hframe y hy)) hs) hnd
    (fun y hy => lt_of_lt_of_le (hlt y hy) hbrk)
  refine ⟨?_, h1⟩
  rw [h1, h2]
  congr 1
  apply map_congr_mem
  intro y hy
  simp [dataOf, getNode, hframe y hy]

/-- C7: `copy_from_buffer` leaves the source list untouched: afterwards the
source has the same lines, with the same contents and line numbers, as before,
while the buffer holds the source's text merged into the line of the cursor.
In particular `do_uncut_text` leaves the cutbuffer unchanged, and a second
`do_uncut_text` pastes the same text again, at the cursor position that the
first one left, which is the end of the text pasted first. -/
theorem copy_from_buffer_keeps_source (s : State) (A B Src : List Nat) (somebuffer : Nat)
    (h : IngraftPre s A B Src somebuffer) :
    (∃ t T, copy_from_buffer s somebuffer = some t ∧
      lines_from t (some somebuffer) = lines_from s (some somebuffer) ∧
      lines_from s (some somebuffer) =
        some (Src.map (fun p => (dataOf s.heap p, (getNode s.heap p).lineno))) ∧
      buffer_text s = some T ∧
      buffer_text t = some
        (pasteText T A.length s.current_x (Src.map (dataOf s.heap)) s.NO_NEWLINES)) ∧
    (s.cutbuffer = some somebuffer →
      ∃ u u2 T T1, do_uncut_text s = some u ∧
        u.cutbuffer = s.cutbuffer ∧
        lines_from u u.cutbuffer = lines_from s s.cutbuffer ∧
        buffer_text s = some T ∧
        buffer_text u = some T1 ∧
        T1 = pasteText T A.length s.current_x (Src.map (dataOf s.heap)) s.NO_NEWLINES ∧
        u.current_x = (if Src.length = 1 then s.current_x else 0) +
          ((Src.map (dataOf s.heap)).getLast?.getD []).length ∧
        do_uncut_text u = some u2 ∧
        u2.cutbuffer = s.cutbuffer ∧
        lines_from u2 u2.cutbuffer = lines_from s s.cutbuffer ∧
        buffer_text u2 = some
          (pasteText T1 (A.length + Src.length - 1) u.current_x (Src.map (dataOf s.heap))
            s.NO_NEWLINES)) := by
  have hSlt : ∀ y, y ∈ Src → y < s.brk := by
    intro y hy
    by_contra hge
    obtain ⟨n, hn⟩ := h.src.live hy
    rw [h.buf.fresh y (Nat.le_of_not_lt hge)] at hn
    cases hn
  constructor
  · obtain ⟨t, C, M, hrun, hpre, hlen, ⟨T, hT1, hT2⟩, hframe, hbrk, -⟩ :=
      copy_from_buffer_spec h
    obtain ⟨e1, e2⟩ := lines_from_congr h.src h.src_nodup hSlt hbrk hframe
    rw [h.src_head] at e1 e2
    exact ⟨t, T, hrun, e1, e2, hT1, hT2⟩
  · intro hcb
    obtain ⟨u, C, M, hrun, hpre, hlen, ⟨T, hT1, hT2⟩, hframe, hbrk, hcut, hnn, hcx⟩ :=
      do_uncut_text_spec h hcb
    obtain ⟨u2, C2, M2, hrun2, hpre2, hlen2, ⟨T1, hT3, hT4⟩, hframe2, hbrk2, hcut2, hnn2, -⟩ :=
      do_uncut_text_spec hpre (hcut.trans hcb)
    obtain ⟨e1, e2⟩ := lines_from_congr h.src h.src_nodup hSlt hbrk hframe
    obtain ⟨e3, e4⟩ := lines_from_congr h.src h.src_nodup hSlt (le_trans hbrk hbrk2)
      (fun y hy => (hframe2 y hy).trans (hframe y hy))
    rw [h.src_head] at e1 e3
    have hT1u : T1 = pasteText T A.length s.current_x (Src.map (dataOf s.heap)) s.NO_NEWLINES := by
      rw [hT2] at hT3
      exact (Option.some.inj hT3).symm
    have hmap : Src.map (dataOf u.heap) = Src.map (dataOf s.heap) :=
      map_congr_mem (fun y hy => dataOf_congr (hframe y hy))
    have hidx : (A ++ C.dropLast).length = A.length + Src.length - 1 := by
      rw [List.length_append, List.length_dropLast, hlen]
      have : 0 < Src.length := by
        obtain ⟨r, hr⟩ := eq_cons_of_head? h.src_head
        rw [hr]; simp
      omega
    refine ⟨u, u2, T, T1, hrun, hcut, ?_, hT1, hT3, hT1u, hcx, hrun2, hcut2.trans hcut, ?_, ?_⟩
    · rw [hcut, hcb]
      exact e1
    · rw [hcut2, hcut, hcb]
      exact e3
    · rw [hT4, hidx, hmap, hnn]

/-! ## Typing: `do_output` -/

theorem add_undo_eq {s : State} {c : linestruct} (hc : s.heap s.current = some c)
    (a : undo_type) :
    ∃ u older, add_undo s a = some
      { s with undotop := u :: older, current_undo := some 0, last_action := a } := by
  unfold add_undo
  rw [hc]
  exact ⟨_, _, rfl⟩

theorem update_undo_eq {s : State} {c : linestruct} {i : Nat} {u : undo}
    (hc : s.heap s.current = some c) (hi : s.current_undo = some i)
    (hu : s.undotop[i]? = some u) (a : undo_type) :
    ∃ ut u1, update_undo s a = some { s with undotop := ut, current_undo := some i } ∧
      ut[i]? = some u1 := by
  unfold update_undo
  simp only [hi, hu, hc]
  have hlt : i < s.undotop.length := by
    by_contra hge
    rw [List.getElem?_eq_none (Nat.le_of_not_lt hge)] at hu
    cases hu
  exact ⟨_, _, rfl, List.getElem?_set_self hlt⟩

theorem do_output_undo_eq {s : State} {c : linestruct} (hc : s.heap s.current = some c) :
    ∃ ut i u la, do_output_undo s = some
        { s with undotop := ut, current_undo := some i, last_action := la } ∧
      ut[i]? = some u := by
  unfold do_output_undo
  simp only [hc]
  obtain ⟨u0, older, hadd⟩ := add_undo_eq hc undo_type.ADD
  split_ifs with hfresh
  · exact ⟨u0 :: older, 0, u0, undo_type.ADD, hadd, by simp⟩
  · cases hcu : s.current_undo with
    | none => simp [hcu] at hfresh
    | some i =>
      cases hu : s.undotop[i]? with
      | none => simp [hcu, hu] at hfresh
      | some u =>
        refine ⟨s.undotop, i, u, s.last_action, ?_, hu⟩
        rw [← hcu]

theorem sum_length_update {h h1 : Heap} {L : List Nat} {c : Nat} (hnd : L.Nodup) (hc : c ∈ L)
    (hother : ∀ y, y ∈ L → y ≠ c → dataOf h1 y = dataOf h y) :
    (L.map (fun p => (dataOf h1 p).length)).sum + (dataOf h c).length =
      (L.map (fun p => (dataOf h p).length)).sum + (dataOf h1 c).length := by
  induction L with
  | nil => simp at hc
  | cons p rest ih =>
    have hp : p ∉ rest := (List.nodup_cons.1 hnd).1
    by_cases e : p = c
    · subst e
      have e1 : rest.map (fun q => (dataOf h1 q).length) =
          rest.map (fun q => (dataOf h q).length) := by
        apply map_congr_mem
        intro y hy
        rw [hother y (by simp [hy]) (fun e => hp (e ▸ hy))]
      simp only [List.map_cons, List.sum_cons, e1]
      omega
    · have hc2 : c ∈ rest := by
        rcases List.mem_cons.1 hc with h1 | h1
        · exact absurd h1.symm e
        · exact h1
      have := ih (List.nodup_cons.1 hnd).2 hc2 (fun y hy => hother y (by simp [hy]))
      simp only [List.map_cons, List.sum_cons, hother p (by simp) e]
      omega

theorem sizeOf_update {h h1 : Heap} {L : List Nat} {c : Nat} (hnd : L.Nodup) (hc : c ∈ L)
    (hother : ∀ y, y ∈ L → y ≠ c → dataOf h1 y = dataOf h y) :
    sizeOf h1 L + (dataOf h c).length = sizeOf h L + (dataOf h1 c).length := by
  have := sum_length_update hnd hc hother
  unfold sizeOf
  omega

theorem sizeOf_snoc_empty {h h1 : Heap} {L : List Nat} {m : Nat} (hne : L ≠ [])
    (hold : ∀ y, y ∈ L → dataOf h1 y = dataOf h y) (hm : dataOf h1 m = []) :
    sizeOf h1 (L ++ [m]) = sizeOf h L + 1 := by
  have e1 : L.map (fun q => (dataOf h1 q).length) = L.map (fun q => (dataOf h q).length) := by
    apply map_congr_mem
    intro y hy
    rw [hold y hy]
  have hlen : 0 < L.length := List.length_pos.2 hne
  unfold sizeOf
  simp only [List.map_append, List.sum_append, e1, List.map_cons, List.map_nil, hm,
    List.length_nil, List.sum_cons, List.sum_nil, List.length_append, List.length_singleton]
  omega

/-- What `new_magicline` does to a buffer. -/
theorem new_magicline_spec {s : State} {L : List Nat} (hb : Buf s L) :
    ∃ H, new_magicline s = some
        { s with heap := H, brk := s.brk + 1, filebot := s.brk, totsize := s.totsize + 1 } ∧
      Buf { s with heap := H, brk := s.brk + 1, filebot := s.brk, totsize := s.totsize + 1 }
        (L ++ [s.brk]) ∧
      (∀ y, y ≠ s.brk → dataOf H y = dataOf s.heap y) ∧
      dataOf H s.brk = [] ∧
      (∀ y, y ≠ s.brk → linenoAt H y = linenoAt s.heap y) ∧
      linenoAt H s.brk = (linenoAt s.heap s.filebot).map (fun k => k + 1) ∧
      (∀ y, y ≠ s.brk → y ≠ s.filebot → H y = s.heap y) := by
  have hfbm := hb.filebot_mem
  obtain ⟨fb, hfb⟩ := hb.seg.live hfbm
  have hne : s.filebot ≠ s.brk := Nat.ne_of_lt (hb.lt_brk hfbm)
  have hbrk : s.brk ∉ L := fun hm => Nat.lt_irrefl _ (hb.lt_brk hm)
  refine ⟨_, new_magicline_eq hfb hne, ?_, ?_, ?_, ?_, ?_, ?_⟩
  · exact
      { nodup := by
          rw [List.nodup_append]
          refine ⟨hb.nodup, by simp, ?_⟩
          intro a ha hb2
          simp only [List.mem_singleton] at hb2
          exact hbrk (hb2 ▸ ha)
        seg := by
          show Seg ((s.heap.set s.brk (some ⟨[], fb.lineno + 1, none, some s.filebot⟩)).setNext
            s.filebot (some s.brk)) none (L ++ [s.brk]) none
          rw [Seg.append]
          obtain ⟨L0, hL0⟩ := eq_append_of_getLast? hb.bot
          refine ⟨?_, ?_⟩
          · rw [hL0]
            apply Seg.setNext_last (by rw [← hL0]; exact hb.nodup)
            rw [← hL0]
            exact Seg.set_not_mem _ hbrk hb.seg
          · rw [lastOf_of_getLast? _ hb.bot, Seg_cons]
            simp [linksAt_setNext, Ne.symm hne, linksAt_set]
        top := by
          have hLne : L ≠ [] := fun e => by rw [e] at hfbm; cases hfbm
          show (L ++ [s.brk]).head? = some s.filetop
          rw [List.head?_append_of_ne_nil _ hLne]
          exact hb.top
        bot := getLast?_snoc _ _
        fresh := by
          intro y hy
          have h1 : y ≠ s.brk := by simp at hy; omega
          have h2 : y ≠ s.filebot := by
            have := hb.lt_brk hfbm
            simp at hy; omega
          show ((s.heap.set s.brk _).setNext s.filebot (some s.brk)) y = none
          simp only [Heap.setNext, Heap.upd_ne _ _ h2, Heap.set_ne _ _ h1]
          exact hb.fresh y (by simp at hy; omega) }
  · intro y hy
    simp [dataOf_setHeap_ne _ _ hy]
  · simp [dataOf_eq, dataAt_set]
  · intro y hy
    simp [linenoAt_set, hy]
  · simp [linenoAt_set, linenoAt_of_eq hfb]
  · intro y h1 h2
    simp only [Heap.setNext, Heap.upd_ne _ _ h2, Heap.set_ne _ _ h1]

theorem Numbered.snoc {h : Heap} {L : List Nat} {m : Nat} {k : Int} (hn : Numbered h k L)
    (hm : linenoAt h m = some (k + L.length + 1)) : Numbered h k (L ++ [m]) := by
  rw [Numbered.append_iff]
  exact ⟨hn, hm, trivial⟩

/-- One round of the loop of `do_output`, with the state that it leaves: the
byte is inserted at the cursor, the cursor and a mark after it on the same
line move one place to the right, and `M` is the magic line that is appended
when the byte was typed on the last line. -/
theorem do_output_char_run {s : State} {L : List Nat} (hE : Editable s L) (cl b : Nat)
    (hcl : cl = (dataOf s.heap s.current).length) :
    ∃ t M, do_output_char s cl b = some t ∧ Editable t (L ++ M) ∧ t.current = s.current ∧
      (dataOf t.heap t.current).length = cl + 1 ∧
      (s.totsize = sizeOf s.heap L → t.totsize = sizeOf t.heap (L ++ M)) ∧
      (Numbered s.heap 0 L → Numbered t.heap 0 (L ++ M)) ∧
      M = (if s.filebot = s.current ∧ ¬ s.NO_NEWLINES = true then [s.brk] else []) ∧
      t.current_x = s.current_x + 1 ∧
      dataOf t.heap s.current = (dataOf s.heap s.current).take s.current_x ++
        b :: (dataOf s.heap s.current).drop s.current_x ∧
      (∀ y, y ∈ L → y ≠ s.current → dataOf t.heap y = dataOf s.heap y) ∧
      (∀ y, y ∈ M → dataOf t.heap y = []) ∧
      t.mark = s.mark ∧
      t.mark_x = (if some s.current = s.mark ∧ s.current_x < s.mark_x
        then s.mark_x + 1 else s.mark_x) ∧
      t.totsize = s.totsize + 1 + M.length ∧ t.NO_NEWLINES = s.NO_NEWLINES ∧
      t.brk = s.brk + M.length ∧
      t.filebot = (if s.filebot = s.current ∧ ¬ s.NO_NEWLINES = true
        then s.brk else s.filebot) ∧
      t.filetop = s.filetop := by
  obtain ⟨c, hc⟩ := hE.buf.seg.live hE.cur
  have hxle := hE.x_le
  rw [dataOf_of_eq hc] at hxle hcl
  obtain ⟨H1, hH1⟩ : ∃ H1 : Heap, H1 = s.heap.mapData s.current
      (fun d => d.take s.current_x ++ b :: d.drop s.current_x) := ⟨_, rfl⟩
  have hmod : s.modify s.current
      (fun n => { n with data := n.data.take s.current_x ++ b :: n.data.drop s.current_x }) =
      some { s with heap := H1 } := by
    rw [modify_live _ hc, hH1]
    rfl
  have hH1c : H1 s.current =
      some ⟨c.data.take s.current_x ++ b :: c.data.drop s.current_x, c.lineno, c.next, c.prev⟩ := by
    rw [hH1]
    simp [Heap.mapData, Heap.upd_same, hc]
  have hH1some : ∀ y, (H1 y).isSome = (s.heap y).isSome := by
    intro y; rw [hH1]; simp
  have hH1data : ∀ y, y ≠ s.current → dataOf H1 y = dataOf s.heap y := by
    intro y hy
    rw [hH1, dataOf_mapData_ne _ _ hy]
  have hH1len : (dataOf H1 s.current).length = cl + 1 := by
    rw [dataOf_of_eq hH1c, hcl]
    simp
    omega
  have hH1lineno : ∀ y, linenoAt H1 y = linenoAt s.heap y := by
    intro y; rw [hH1]; simp
  obtain ⟨ut, i, u, la, hundo, hut⟩ := do_output_undo_eq
    (s := set_modified { s with heap := H1, totsize := s.totsize + 1 }) hH1c
  obtain ⟨MX, hMX⟩ : ∃ MX : Nat, MX =
      if some s.current = s.mark ∧ s.current_x < s.mark_x then s.mark_x + 1 else s.mark_x :=
    ⟨_, rfl⟩
  obtain ⟨ut2, u2, hupd, hut2⟩ := update_undo_eq
    (s := { s with
              heap := H1, totsize := s.totsize + 1, modified := true, undotop := ut,
              current_undo := some i, last_action := la, mark_x := MX,
              current_x := s.current_x + 1 })
    hH1c rfl hut undo_type.ADD
  simp only at hupd
  have hbuf4 : Buf { s with
      heap := H1, totsize := s.totsize + 1, modified := true,
      undotop := ut2, current_undo := some i, last_action := la, mark_x := MX,
      current_x := s.current_x + 1 } L :=
    { nodup := hE.buf.nodup
      seg := by
        show Seg H1 none L none
        rw [hH1]
        exact Seg.mapData _ _ hE.buf.seg
      top := hE.buf.top
      bot := hE.buf.bot
      fresh := by
        intro y hy
        exact eq_none_of_isSome_eq (hH1some y) (hE.buf.fresh y hy) }
  have hsize1 : sizeOf H1 L = sizeOf s.heap L + 1 := by
    have := @sizeOf_update s.heap H1 L s.current hE.buf.nodup hE.cur
      (fun y _ hy => hH1data y hy)
    rw [hH1len, dataOf_of_eq hc, ← hcl] at this
    omega
  have hstart : do_output_char s cl b =
      if s.filebot = s.current ∧ ¬ s.NO_NEWLINES = true then
        new_magicline { s with
          heap := H1, totsize := s.totsize + 1, modified := true,
          undotop := ut2, current_undo := some i, last_action := la, mark_x := MX,
          current_x := s.current_x + 1 }
      else some { s with
          heap := H1, totsize := s.totsize + 1, modified := true,
          undotop := ut2, current_undo := some i, last_action := la, mark_x := MX,
          current_x := s.current_x + 1 } := by
    unfold do_output_char
    simp only [hc]
    rw [if_pos ⟨by omega, hcl⟩, hmod]
    simp only [set_modified] at hundo
    simp only [set_modified, hundo]
    have e : (if some s.current = s.mark ∧ s.current_x < s.mark_x then
        ({ s with
            heap := H1, totsize := s.totsize + 1, modified := true, undotop := ut,
            current_undo := some i, last_action := la, mark_x := s.mark_x + 1 } : State)
        else
          { s with
            heap := H1, totsize := s.totsize + 1, modified := true, undotop := ut,
            current_undo := some i, last_action := la }) =
        { s with
            heap := H1, totsize := s.totsize + 1, modified := true, undotop := ut,
            current_undo := some i, last_action := la, mark_x := MX } := by
      rw [hMX]
      split_ifs <;> rfl
    simp only [e, hupd]
  by_cases hmg : s.filebot = s.current ∧ ¬ s.NO_NEWLINES = true
  · rw [if_pos hmg] at hstart
    obtain ⟨H, hnm, hbufm, hdata, hdatam, hlineno, hlinenom, hframe⟩ := new_magicline_spec hbuf4
    simp only at hnm hbufm hdata hdatam hlineno hlinenom hframe
    have hcb : s.current ≠ s.brk := Nat.ne_of_lt (hE.buf.lt_brk hE.cur)
    have hdc : dataOf H1 s.current = (dataOf s.heap s.current).take s.current_x ++
        b :: (dataOf s.heap s.current).drop s.current_x := by
      rw [dataOf_of_eq hH1c, dataOf_of_eq hc]
    refine ⟨_, [s.brk], hstart.trans hnm, ?_, rfl, ?_, ?_, ?_, by rw [if_pos hmg], rfl,
      by rw [← hdc]; exact hdata _ hcb,
      fun y hy hyc => (hdata y (fun e => by
        have := hE.buf.lt_brk hy
        omega)).trans (hH1data y hyc),
      fun y hy => by rw [List.mem_singleton.1 hy]; exact hdatam,
      rfl, hMX, rfl, rfl, rfl, by rw [if_pos hmg], rfl⟩
    · exact
        { buf := hbufm
          cur := List.mem_append_left _ hE.cur
          x_le := by
            show s.current_x + 1 ≤ (dataOf H s.current).length
            rw [hdata _ hcb, hH1len]
            omega
          undo := fun _ => ⟨i, u2, rfl, hut2⟩ }
    · show (dataOf H s.current).length = cl + 1
      rw [hdata _ hcb, hH1len]
    · intro hsz
      show s.totsize + 1 + 1 = sizeOf H (L ++ [s.brk])
      rw [sizeOf_snoc_empty (h := H1) (fun e => by rw [e] at hE; exact absurd hE.cur (by simp))
        (fun y hy => hdata y (fun e => by
          have := hE.buf.lt_brk hy
          omega)) hdatam, hsize1, hsz]
    · intro hnum
      apply Numbered.snoc
      · refine Numbered.of_frame ?_ hnum
        intro y hy
        rw [hlineno y (fun e => by
          have := hE.buf.lt_brk hy
          omega), hH1lineno]
      · show linenoAt H s.brk = _
        rw [hlinenom, hH1lineno, hnum.getLast hE.buf.bot]
        rfl
  · rw [if_neg hmg] at hstart
    have hdc : dataOf H1 s.current = (dataOf s.heap s.current).take s.current_x ++
        b :: (dataOf s.heap s.current).drop s.current_x := by
      rw [dataOf_of_eq hH1c, dataOf_of_eq hc]
    refine ⟨_, [], hstart, ?_, rfl, hH1len, ?_, ?_, by rw [if_neg hmg], rfl, hdc,
      fun y _ hyc => hH1data y hyc, fun y hy => absurd hy (List.not_mem_nil y),
      rfl, hMX, rfl, rfl, rfl, by rw [if_neg hmg], rfl⟩
    · rw [List.append_nil]
      exact
        { buf := hbuf4
          cur := hE.cur
          x_le := by
            show s.current_x + 1 ≤ (dataOf H1 s.current).length
            rw [hH1len]
            omega
          undo := fun _ => ⟨i, u2, rfl, hut2⟩ }
    · intro hsz
      rw [List.append_nil]
      show s.totsize + 1 = sizeOf H1 L
      rw [hsize1, hsz]
    · intro hnum
      rw [List.append_nil]
      exact Numbered.of_frame (fun y _ => hH1lineno y) hnum

/-- One round of the loop of `do_output` keeps the buffer editable and keeps
the size and numbering invariants. -/
theorem do_output_char_spec {s : State} {L : List Nat} (hE : Editable s L) (cl b : Nat)
    (hcl : cl = (dataOf s.heap s.current).length) :
    ∃ t L1, do_output_char s cl b = some t ∧ Editable t L1 ∧ t.current = s.current ∧
      (dataOf t.heap t.current).length = cl + 1 ∧
      (s.totsize = sizeOf s.heap L → t.totsize = sizeOf t.heap L1) ∧
      (Numbered s.heap 0 L → Numbered t.heap 0 L1) := by
  obtain ⟨t, M, hrun, hE1, hcur, hlen, hsz, hnum, -⟩ := do_output_char_run hE cl b hcl
  exact ⟨t, L ++ M, hrun, hE1, hcur, hlen, hsz, hnum⟩

theorem do_output_loop_spec (f : Nat → Bool) (allow : Bool) (output : List Nat) :
    ∀ {s : State} {L : List Nat} (cl : Nat), Editable s L →
      cl = (dataOf s.heap s.current).length →
      ∃ t L1, do_output_loop f allow output cl s = some t ∧ Editable t L1 ∧
        (s.totsize = sizeOf s.heap L → t.totsize = sizeOf t.heap L1) ∧
        (Numbered s.heap 0 L → Numbered t.heap 0 L1) := by
  induction output with
  | nil =>
    intro s L cl hE _
    exact ⟨s, L, rfl, hE, fun h => h, fun h => h⟩
  | cons b rest ih =>
    intro s L cl hE hcl
    unfold do_output_loop
    simp only
    generalize (if b = 0 then 10 else b) = b1
    split_ifs with hskip
    · exact ih cl hE hcl
    · obtain ⟨t, L1, hrun, hE1, hcur, hlen, hsz, hnum⟩ :=
        do_output_char_spec hE cl b1 hcl
      rw [hrun]
      obtain ⟨t2, L2, hrun2, hE2, hsz2, hnum2⟩ := ih (cl + 1) hE1 hlen.symm
      exact ⟨t2, L2, hrun2, hE2, fun h => hsz2 (hsz h), fun h => hnum2 (hnum h)⟩

/-- Typing keeps the buffer editable and keeps the size and numbering
invariants. -/
theorem do_output_spec (f : Nat → Bool) {s : State} {L : List Nat} (hE : Editable s L)
    (output : List Nat) (allow : Bool) :
    ∃ t L1, do_output f s output allow = some t ∧ Editable t L1 ∧
      (s.totsize = sizeOf s.heap L → t.totsize = sizeOf t.heap L1) ∧
      (Numbered s.heap 0 L → Numbered t.heap 0 L1) := by
  obtain ⟨c, hc⟩ := hE.buf.seg.live hE.cur
  unfold do_output
  simp only [hc]
  exact do_output_loop_spec f allow output c.data.length hE (by rw [dataOf_of_eq hc])

/-! ## Deleting: `do_deletion` -/

theorem do_deletion_undo_eq {s : State} {c : linestruct} (hc : s.heap s.current = some c)
    (a : undo_type)
    (hv : a = s.last_action → ∃ i u, s.current_undo = some i ∧ s.undotop[i]? = some u) :
    ∃ ut i u la, do_deletion_undo s a = some
        { s with undotop := ut, current_undo := some i, last_action := la } ∧
      ut[i]? = some u := by
  unfold do_deletion_undo
  obtain ⟨u0, older, hadd⟩ := add_undo_eq hc a
  split_ifs with hne
  · exact ⟨u0 :: older, 0, u0, a, hadd, by simp⟩
  · obtain ⟨i, u, hi, hu⟩ := hv (not_not.1 hne)
    obtain ⟨ut, u1, hupd, hut⟩ := update_undo_eq hc hi hu a
    simp only [hi, hc, hu]
    split_ifs
    · exact ⟨u0 :: older, 0, u0, a, hadd, by simp⟩
    · exact ⟨ut, i, u1, s.last_action, hupd, hut⟩

theorem do_deletion_finish_eq {s : State} {i : Nat} {u : undo} (hi : s.current_undo = some i)
    (hu : s.undotop[i]? = some u) :
    ∃ ut u1, do_deletion_finish s = some
        { s with totsize := s.totsize - 1, undotop := ut, current_undo := some i,
                 modified := true } ∧
      ut[i]? = some u1 := by
  unfold do_deletion_finish
  simp only [hi, hu, set_modified]
  have hlt : i < s.undotop.length := by
    by_contra hge
    rw [List.getElem?_eq_none (Nat.le_of_not_lt hge)] at hu
    cases hu
  exact ⟨_, _, rfl, List.getElem?_set_self hlt⟩

/-- The step `do_deletion_finish`, with the record that it leaves. -/
theorem do_deletion_finish_run {s : State} {i : Nat} {u : undo} (hi : s.current_undo = some i)
    (hu : s.undotop[i]? = some u) :
    do_deletion_finish s = some
      { s with totsize := s.totsize - 1,
               undotop := s.undotop.set i { u with newsize := s.totsize - 1 },
               modified := true } := by
  unfold do_deletion_finish
  simp only [hi, hu, set_modified]

theorem unlink_node_eq {s : State} {j c : Nat} {fj : linestruct} (hj : s.heap j = some fj)
    (hp : fj.prev = some c) (hcl : (s.heap c).isSome) (hcj : c ≠ j)
    (hn : ∀ q, fj.next = some q → (s.heap q).isSome ∧ q ≠ j) :
    unlink_node s j = some
      { s with heap := ((s.heap.setNext c fj.next).setPrevOpt fj.next (some c)).set j none,
               filebot := if s.filebot = j then c else s.filebot } := by
  obtain ⟨fd, fl, fn, fp⟩ := fj
  simp only at hp hn
  subst hp
  have hjc : j ≠ c := Ne.symm hcj
  unfold unlink_node
  cases fn with
  | none =>
    simp only [hj, Option.bind_eq_bind, Option.some_bind, modify_isSome, hcl, if_true,
      Heap.upd_ne _ _ hjc, delete_node, Heap.setPrevOpt, Heap.setNext]
    split_ifs <;> simp [hj, Heap.upd_ne _ _ hjc]
  | some q =>
    obtain ⟨hql, hqj⟩ := hn q rfl
    have hjq : j ≠ q := Ne.symm hqj
    simp only [hj, Option.bind_eq_bind, Option.some_bind, modify_isSome, hcl, if_true,
      Heap.upd_ne _ _ hjc, upd_isSome, hql, Heap.upd_ne _ _ hjq, delete_node, Heap.setPrevOpt,
      Heap.setNext, Heap.setPrev]
    split_ifs <;> simp [hj, Heap.upd_ne _ _ hjc, Heap.upd_ne _ _ hjq]

theorem renumber_spec {s : State} {A rest : List Nat} {x : Nat}
    (hseg : Seg s.heap none (A ++ x :: rest) none) (hnd : (A ++ x :: rest).Nodup)
    (hlt : ∀ y, y ∈ A ++ x :: rest → y < s.brk) :
    renumber s x = some { s with heap := s.heap.renum (x :: rest) (lastNumber s.heap A) } ∧
      Numbered (s.heap.renum (x :: rest) (lastNumber s.heap A)) (lastNumber s.heap A)
        (x :: rest) := by
  have hseg2 := hseg
  rw [Seg.append] at hseg2
  have hk := lastNumber_spec hseg2.1
  have hndSB : (x :: rest).Nodup := (List.nodup_append.1 hnd).2.1
  have hlen : (x :: rest).length ≤ s.brk :=
    length_le_of_nodup_lt hndSB (fun y hy => hlt y (List.mem_append_right _ hy))
  refine ⟨renumber_eq hseg2.2 hlen hk, ?_⟩
  refine Numbered_renum _ _ _ hndSB (fun y hy => ?_)
  obtain ⟨n, hn⟩ := hseg.live (List.mem_append_right _ hy)
  simp [hn]

theorem lastNumber_numbered {h : Heap} {A : List Nat} (hn : Numbered h 0 A) :
    lastNumber h A = A.length := by
  by_cases hA : A = []
  · rw [hA]; rfl
  · rw [lastNumber_of_numbered hA hn]
    simp

theorem sizeOf_join {h h1 : Heap} {A B : List Nat} {c j : Nat}
    (hA : ∀ y, y ∈ A → dataOf h1 y = dataOf h y) (hB : ∀ y, y ∈ B → dataOf h1 y = dataOf h y)
    (hc : dataOf h1 c = dataOf h c ++ dataOf h j) :
    sizeOf h1 (A ++ c :: B) + 1 = sizeOf h (A ++ c :: j :: B) := by
  have e1 : A.map (fun q => (dataOf h1 q).length) = A.map (fun q => (dataOf h q).length) :=
    map_congr_mem (fun y hy => by rw [hA y hy])
  have e2 : B.map (fun q => (dataOf h1 q).length) = B.map (fun q => (dataOf h q).length) :=
    map_congr_mem (fun y hy => by rw [hB y hy])
  unfold sizeOf
  simp only [List.map_append, List.map_cons, List.sum_append, List.sum_cons, e1, e2, hc,
    List.length_append, List.length_cons]
  omega

/-- Deleting in the middle of a line, with the state that it leaves: `ut`, `i`
and `la` are the undo stack, the current record and the last action that
`do_deletion_undo` leaves. -/
theorem do_deletion_mid_run {s : State} {L : List Nat} (hE : Editable s L) (a : undo_type)
    (ha : a = undo_type.DEL ∨ a = undo_type.BACK) {c : linestruct}
    (hc : s.heap s.current = some c) (hmid : s.current_x < c.data.length) :
    ∃ (t : State) (ut : List undo) (i : Nat) (u : undo) (la : undo_type),
      do_deletion s a = some t ∧
      do_deletion_undo s a = some
        { s with undotop := ut, current_undo := some i, last_action := la } ∧
      ut[i]? = some u ∧
      t = { s with
              heap := s.heap.mapData s.current
                (fun d => d.take s.current_x ++ d.drop (s.current_x + 1)),
              undotop := ut.set i { u with newsize := s.totsize - 1 },
              current_undo := some i, last_action := la,
              mark_x := if s.mark = some s.current ∧ s.mark_x > s.current_x
                then s.mark_x - 1 else s.mark_x,
              totsize := s.totsize - 1, modified := true } ∧
      Editable t L ∧
      (s.totsize = sizeOf s.heap L → t.totsize = sizeOf t.heap L) ∧
      (Numbered s.heap 0 L → Numbered t.heap 0 L) := by
  have hv : a = s.last_action → ∃ i u, s.current_undo = some i ∧ s.undotop[i]? = some u :=
    fun e => hE.undo (by rw [← e]; exact ha)
  obtain ⟨ut, i, u, la, hundo, hut⟩ := do_deletion_undo_eq hc a hv
  obtain ⟨H1, hH1⟩ : ∃ H1 : Heap, H1 = s.heap.mapData s.current
      (fun d => d.take s.current_x ++ d.drop (s.current_x + 1)) := ⟨_, rfl⟩
  have hmod : State.modify
      { s with undotop := ut, current_undo := some i, last_action := la } s.current
      (fun n => { n with data := n.data.take s.current_x ++ n.data.drop (s.current_x + 1) }) =
      some { s with heap := H1, undotop := ut, current_undo := some i, last_action := la } := by
    rw [modify_live (s := { s with undotop := ut, current_undo := some i, last_action := la })
      _ hc, hH1]
    rfl
  have hH1c : H1 s.current =
      some ⟨c.data.take s.current_x ++ c.data.drop (s.current_x + 1), c.lineno, c.next,
        c.prev⟩ := by
    rw [hH1]
    simp [Heap.mapData, Heap.upd_same, hc]
  have hH1some : ∀ y, (H1 y).isSome = (s.heap y).isSome := by
    intro y; rw [hH1]; simp
  have hH1data : ∀ y, y ≠ s.current → dataOf H1 y = dataOf s.heap y := by
    intro y hy
    rw [hH1, dataOf_mapData_ne _ _ hy]
  have hH1len : (dataOf H1 s.current).length + 1 = c.data.length := by
    rw [dataOf_of_eq hH1c]
    simp
    omega
  have hH1lineno : ∀ y, linenoAt H1 y = linenoAt s.heap y := by
    intro y; rw [hH1]; simp
  obtain ⟨MX, hMX⟩ : ∃ MX : Nat, MX =
      if s.mark = some s.current ∧ s.mark_x > s.current_x then s.mark_x - 1 else s.mark_x :=
    ⟨_, rfl⟩
  have hilt : i < ut.length := by
    by_contra hge
    rw [List.getElem?_eq_none (Nat.le_of_not_lt hge)] at hut
    cases hut
  obtain ⟨ut2, hut2d⟩ : ∃ ut2 : List undo, ut2 =
      ut.set i { u with newsize := s.totsize - 1 } := ⟨_, rfl⟩
  have hut2 : ut2[i]? = some { u with newsize := s.totsize - 1 } := by
    rw [hut2d]
    exact List.getElem?_set_self hilt
  have hfin := do_deletion_finish_run
    (s := { s with
              heap := H1, undotop := ut, current_undo := some i, last_action := la,
              mark_x := MX })
    (i := i) (u := u) rfl hut
  simp only at hfin
  rw [← hut2d] at hfin
  have hsize1 : sizeOf H1 L + 1 = sizeOf s.heap L := by
    have := @sizeOf_update s.heap H1 L s.current hE.buf.nodup hE.cur
      (fun y _ hy => hH1data y hy)
    rw [dataOf_of_eq hc] at this
    omega
  have hrun : do_deletion s a = some
      { s with
          heap := H1, undotop := ut2, current_undo := some i, last_action := la,
          mark_x := MX, totsize := s.totsize - 1, modified := true } := by
    unfold do_deletion
    simp only [hc]
    rw [if_pos hmid, hundo]
    simp only [hmod]
    have e : (if s.mark = some s.current ∧ s.mark_x > s.current_x then
        ({ s with
            heap := H1, undotop := ut, current_undo := some i, last_action := la,
            mark_x := s.mark_x - 1 } : State)
        else
          { s with
            heap := H1, undotop := ut, current_undo := some i, last_action := la }) =
        { s with
            heap := H1, undotop := ut, current_undo := some i, last_action := la,
            mark_x := MX } := by
      rw [hMX]
      split_ifs <;> rfl
    rw [e, hfin]
  refine ⟨_, ut, i, u, la, hrun, hundo, hut, ?_, ?_, ?_, ?_⟩
  · rw [hH1, hMX, hut2d]
  · exact
      { buf :=
          { nodup := hE.buf.nodup
            seg := by
              show Seg H1 none L none
              rw [hH1]
              exact Seg.mapData _ _ hE.buf.seg
            top := hE.buf.top
            bot := hE.buf.bot
            fresh := by
              intro y hy
              exact eq_none_of_isSome_eq (hH1some y) (hE.buf.fresh y hy) }
        cur := hE.cur
        x_le := by
          show s.current_x ≤ (dataOf H1 s.current).length
          omega
        undo := fun _ => ⟨i, _, rfl, hut2⟩ }
  · intro hsz
    show s.totsize - 1 = sizeOf H1 L
    omega
  · intro hnum
    exact Numbered.of_frame (fun y _ => hH1lineno y) hnum

/-- Deleting in the middle of a line. -/
theorem do_deletion_mid_spec {s : State} {L : List Nat} (hE : Editable s L) (a : undo_type)
    (ha : a = undo_type.DEL ∨ a = undo_type.BACK) {c : linestruct}
    (hc : s.heap s.current = some c) (hmid : s.current_x < c.data.length) :
    ∃ t L1, do_deletion s a = some t ∧ Editable t L1 ∧
      (s.totsize = sizeOf s.heap L → t.totsize = sizeOf t.heap L1) ∧
      (Numbered s.heap 0 L → Numbered t.heap 0 L1) := by
  obtain ⟨t, ut, i, u, la, hrun, -, -, -, hE1, hsz, hnum⟩ := do_deletion_mid_run hE a ha hc hmid
  exact ⟨t, L, hrun, hE1, hsz, hnum⟩

theorem Seg.unlink {h : Heap} {A B : List Nat} {c j : Nat} (hnd : (A ++ c :: j :: B).Nodup)
    (hs : Seg h none (A ++ c :: j :: B) none) :
    Seg (((h.setNext c (nextOf B none)).setPrevOpt (nextOf B none) (some c)).set j none) none
      (A ++ c :: B) none := by
  have h1 := List.nodup_append.1 hnd
  have hndA : A.Nodup := h1.1
  have h2 := List.nodup_cons.1 h1.2.1
  have h3 := List.nodup_cons.1 h2.2
  have hndB : B.Nodup := h3.2
  have hcA : c ∉ A := fun hm => h1.2.2 hm (by simp)
  have hjA : j ∉ A := fun hm => h1.2.2 hm (by simp)
  have hBA : ∀ x, x ∈ B → x ∉ A := fun x hx hm => h1.2.2 hm (by simp [hx])
  have hcj : c ≠ j := fun e => h2.1 (by simp [e])
  have hcB : c ∉ B := fun hm => h2.1 (by simp [hm])
  have hjB : j ∉ B := h3.1
  rw [Seg.append, Seg_cons, Seg_cons] at hs
  obtain ⟨hsA, hlc, hlj, hsB⟩ := hs
  rw [Seg.append, Seg_cons]
  refine ⟨?_, ?_, ?_⟩
  · apply Seg.set_not_mem _ hjA
    apply Seg.setPrevOpt_not_mem _ (fun x hx => hBA x (nextOf_mem hx))
    apply Seg.setNext_not_mem _ hcA
    simpa using hsA
  · rw [linksAt_set, if_neg hcj, linksAt_setPrevOpt,
      if_neg (fun e => hcB (nextOf_mem e.symm)), linksAt_setNext, if_pos rfl, hlc]
    rfl
  · apply Seg.set_not_mem _ hjB
    apply Seg.retarget_prev hndB
    exact Seg.setNext_not_mem _ hcB hsB

theorem getLast?_cons_cons' (a b : Nat) (l : List Nat) :
    (a :: b :: l).getLast? = (b :: l).getLast? := by
  simp [List.getLast?_cons_cons]

/-- Deleting at the end of a line that is not the last, when the next line
is joined to it, with the state that it leaves: `j` is the line that is
removed, and `u0 :: older` is the undo stack that `add_undo` leaves. -/
theorem do_deletion_join_run {s : State} {L : List Nat} (hE : Editable s L) (a : undo_type)
    {c : linestruct}
    (hc : s.heap s.current = some c) (hx : s.current_x = c.data.length)
    (hfb : s.current ≠ s.filebot)
    (hguard : ¬ (c.next = some s.filebot ∧ s.current_x ≠ 0 ∧ ¬ s.NO_NEWLINES = true)) :
    ∃ (t : State) (A B : List Nat) (j : Nat) (fj : linestruct) (u0 : undo)
        (older : List undo),
      do_deletion s a = some t ∧ L = A ++ s.current :: j :: B ∧ c.next = some j ∧
      s.heap j = some fj ∧
      add_undo s a = some
        { s with undotop := u0 :: older, current_undo := some 0, last_action := a } ∧
      t = { s with
              heap := t.heap,
              filebot := if s.filebot = j then s.current else s.filebot,
              undotop := { u0 with newsize := s.totsize - 1 } :: older,
              current_undo := some 0, last_action := a,
              mark := if s.mark = some j then some s.current else s.mark,
              mark_x := if s.mark = some j then s.mark_x + s.current_x else s.mark_x,
              totsize := s.totsize - 1, modified := true } ∧
      Editable t (A ++ s.current :: B) ∧
      (∀ y, y ∈ A ∨ y ∈ B → dataOf t.heap y = dataOf s.heap y) ∧
      dataOf t.heap s.current = c.data ++ fj.data ∧
      (s.totsize = sizeOf s.heap L → t.totsize = sizeOf t.heap (A ++ s.current :: B)) ∧
      (Numbered s.heap 0 L → Numbered t.heap 0 (A ++ s.current :: B)) := by
  obtain ⟨A, rest, hL⟩ := List.append_of_mem hE.cur
  have hbot := hE.buf.bot
  obtain ⟨j, B, hrest⟩ : ∃ j B, rest = j :: B := by
    cases rest with
    | nil =>
      rw [hL] at hbot
      simp at hbot
      exact absurd hbot hfb
    | cons j B => exact ⟨j, B, rfl⟩
  rw [hrest] at hL
  have hnd : (A ++ s.current :: j :: B).Nodup := by rw [← hL]; exact hE.buf.nodup
  have hseg : Seg s.heap none (A ++ s.current :: j :: B) none := by
    rw [← hL]; exact hE.buf.seg
  have hlt : ∀ y, y ∈ A ++ s.current :: j :: B → y < s.brk := by
    intro y hy
    exact hE.buf.lt_brk (by rw [hL]; exact hy)
  have h1 := List.nodup_append.1 hnd
  have h2 := List.nodup_cons.1 h1.2.1
  have h3 := List.nodup_cons.1 h2.2
  have hcA : s.current ∉ A := fun hm => h1.2.2 hm (by simp)
  have hjA : j ∉ A := fun hm => h1.2.2 hm (by simp)
  have hcj : s.current ≠ j := fun e => h2.1 (by simp [e])
  have hcB : s.current ∉ B := fun hm => h2.1 (by simp [hm])
  have hjB : j ∉ B := h3.1
  have hseg2 := hseg
  rw [Seg.append, Seg_cons, Seg_cons] at hseg2
  obtain ⟨hsA, hlc, hlj, hsB⟩ := hseg2
  have hcn : c.next = some j := by
    rw [linksAt_of_eq hc] at hlc
    simp only [Option.some.injEq, Prod.mk.injEq] at hlc
    rw [hlc.2]
    rfl
  obtain ⟨fj, hfj, hfjp, hfjn⟩ := linksAt_some hlj
  simp only at hfjp hfjn
  obtain ⟨u0, older, hadd⟩ := add_undo_eq hc a
  obtain ⟨H2, hH2⟩ : ∃ H2 : Heap, H2 = s.heap.mapData s.current (fun d => d ++ fj.data) :=
    ⟨_, rfl⟩
  have hH2j : H2 j = some fj := by
    rw [hH2]
    simp [Heap.mapData, Heap.upd_ne _ _ (Ne.symm hcj), hfj]
  have hH2some : ∀ y, (H2 y).isSome = (s.heap y).isSome := by
    intro y; rw [hH2]; simp
  have hseg2 : Seg H2 none (A ++ s.current :: j :: B) none := by
    rw [hH2]
    exact Seg.mapData _ _ hseg
  obtain ⟨MK, hMK⟩ : ∃ MK : Option Nat, MK =
      if s.mark = some j then some s.current else s.mark := ⟨_, rfl⟩
  obtain ⟨MX, hMX⟩ : ∃ MX : Nat, MX =
      if s.mark = some j then s.mark_x + s.current_x else s.mark_x := ⟨_, rfl⟩
  obtain ⟨FB, hFB⟩ : ∃ FB : Nat, FB = if s.filebot = j then s.current else s.filebot :=
    ⟨_, rfl⟩
  obtain ⟨H3, hH3⟩ : ∃ H3 : Heap, H3 = ((H2.setNext s.current fj.next).setPrevOpt fj.next
      (some s.current)).set j none := ⟨_, rfl⟩
  have hunlink := unlink_node_eq
    (s := { s with
              heap := H2, undotop := u0 :: older, current_undo := some 0, last_action := a,
              mark := MK, mark_x := MX })
    (j := j) (c := s.current) hH2j hfjp (by rw [hH2some]; simp [hc]) hcj
    (by
      intro q hq
      rw [hfjn] at hq
      have hqB := nextOf_mem hq
      refine ⟨?_, fun e => hjB (e ▸ hqB)⟩
      show (H2 q).isSome
      rw [hH2some]
      obtain ⟨n, hn⟩ := hseg.live (show q ∈ A ++ s.current :: j :: B by simp [hqB])
      simp [hn])
  simp only at hunlink
  rw [← hH3, ← hFB] at hunlink
  have hseg3 : Seg H3 none (A ++ s.current :: B) none := by
    rw [hH3, hfjn]
    exact Seg.unlink hnd hseg2
  have hnd3 : (A ++ s.current :: B).Nodup := by
    rw [List.nodup_append] at hnd ⊢
    refine ⟨hnd.1, ?_, fun x hx hy => hnd.2.2 hx ?_⟩
    · exact List.nodup_cons.2 ⟨hcB, h3.2⟩
    · rcases List.mem_cons.1 hy with e | e
      · simp [e]
      · simp [e]
  have hlt3 : ∀ y, y ∈ A ++ s.current :: B → y < s.brk := by
    intro y hy
    apply hlt
    rcases List.mem_append.1 hy with e | e
    · simp [e]
    · rcases List.mem_cons.1 e with e1 | e1
      · simp [e1]
      · simp [e1]
  obtain ⟨hren, hnum5⟩ := renumber_spec
    (s := { s with
              heap := H3, filebot := FB, undotop := u0 :: older, current_undo := some 0,
              last_action := a, mark := MK, mark_x := MX })
    hseg3 hnd3 hlt3
  simp only at hren hnum5
  obtain ⟨H5, hH5⟩ : ∃ H5 : Heap, H5 = H3.renum (s.current :: B) (lastNumber H3 A) :=
    ⟨_, rfl⟩
  rw [← hH5] at hren hnum5
  obtain ⟨ut2, hut2d⟩ : ∃ ut2 : List undo, ut2 =
      { u0 with newsize := s.totsize - 1 } :: older := ⟨_, rfl⟩
  have hut2 : ut2[0]? = some { u0 with newsize := s.totsize - 1 } := by
    rw [hut2d]
    exact List.getElem?_cons_zero
  have hfin := do_deletion_finish_run
    (s := { s with
              heap := H5, filebot := FB, undotop := u0 :: older, current_undo := some 0,
              last_action := a, mark := MK, mark_x := MX })
    (i := 0) (u := u0) rfl (by simp)
  simp only [List.set_cons_zero] at hfin
  rw [← hut2d] at hfin
  have hmod : State.modify
      { s with undotop := u0 :: older, current_undo := some 0, last_action := a } s.current
      (fun n => { n with data := n.data ++ fj.data }) =
      some
        { s with
            heap := H2, undotop := u0 :: older, current_undo := some 0,
            last_action := a } := by
    have hm := modify_live
      (s := { s with undotop := u0 :: older, current_undo := some 0, last_action := a })
      (fun n => { n with data := n.data ++ fj.data }) hc
    rw [hm, hH2]
    rfl
  have hrun : do_deletion s a = some
      { s with
          heap := H5, filebot := FB, undotop := ut2, current_undo := some 0,
          last_action := a, mark := MK, mark_x := MX, totsize := s.totsize - 1,
          modified := true } := by
    unfold do_deletion
    simp only [hc]
    rw [if_neg (by omega), if_pos hx, if_pos hfb]
    have hjoin : do_deletion_join s a = some
        ({ s with
            heap := H5, filebot := FB, undotop := u0 :: older, current_undo := some 0,
            last_action := a, mark := MK, mark_x := MX }, true) := by
      unfold do_deletion_join
      simp only [hc]
      rw [if_neg hguard]
      simp only [hcn, hadd, Option.bind_eq_bind, Option.some_bind, hfj, hmod]
      have e : (if s.mark = some j then
          ({ s with
              heap := H2, undotop := u0 :: older, current_undo := some 0, last_action := a,
              mark := some s.current, mark_x := s.mark_x + s.current_x } : State)
          else
            { s with
              heap := H2, undotop := u0 :: older, current_undo := some 0,
              last_action := a }) =
          { s with
              heap := H2, undotop := u0 :: older, current_undo := some 0, last_action := a,
              mark := MK, mark_x := MX } := by
        rw [hMK, hMX]
        split_ifs <;> rfl
      rw [e, hunlink]
      simp only [Option.some_bind, hren]
    rw [hjoin]
    exact hfin
  have hjlt : j < s.brk := hlt j (by simp)
  have hH3frame : ∀ y, y ∈ A ∨ y ∈ B → dataOf H3 y = dataOf s.heap y ∧
      linenoAt H3 y = linenoAt s.heap y ∧ (H3 y).isSome := by
    intro y hy
    have hyj : y ≠ j := by
      rcases hy with e | e
      · exact fun e1 => hjA (e1 ▸ e)
      · exact fun e1 => hjB (e1 ▸ e)
    have hyc : y ≠ s.current := by
      rcases hy with e | e
      · exact fun e1 => hcA (e1 ▸ e)
      · exact fun e1 => hcB (e1 ▸ e)
    have hlive : (s.heap y).isSome := by
      obtain ⟨n, hn⟩ := hseg.live (show y ∈ A ++ s.current :: j :: B by
        rcases hy with e | e <;> simp [e])
      simp [hn]
    refine ⟨?_, ?_, ?_⟩
    · rw [hH3, dataOf_setHeap_ne _ _ hyj, hH2]
      simp [dataOf_mapData_ne _ _ hyc]
    · rw [hH3, linenoAt_set, if_neg hyj, hH2]
      simp
    · rw [hH3, set_isSome, if_neg hyj, hH2]
      simpa using hlive
  have hH3c : dataOf H3 s.current = c.data ++ fj.data := by
    rw [hH3, dataOf_setHeap_ne _ _ hcj, hH2]
    simp only [dataOf_setPrevOpt, dataOf_setNext]
    rw [dataOf_mapData_same _ (by simp [hc]), dataOf_of_eq hc]
  have hH5data : ∀ y, dataOf H5 y = dataOf H3 y := by
    intro y; rw [hH5]; simp
  have hbot3 : (A ++ s.current :: B).getLast? = some FB := by
    have hb := hE.buf.bot
    rw [hL] at hb
    rw [hFB]
    rcases List.eq_nil_or_concat B with e | ⟨B0, b, e⟩
    · rw [e] at hb ⊢
      have e2 : (A ++ [s.current, j]).getLast? = some j := by
        have : A ++ [s.current, j] = (A ++ [s.current]) ++ [j] := by simp
        rw [this, getLast?_snoc]
      rw [e2] at hb
      simp only [Option.some.injEq] at hb
      rw [if_pos hb.symm]
      exact getLast?_snoc _ _
    · rw [List.concat_eq_append] at e
      rw [e] at hb ⊢
      have e2 : A ++ s.current :: j :: (B0 ++ [b]) = (A ++ s.current :: j :: B0) ++ [b] := by
        simp
      have e3 : A ++ s.current :: (B0 ++ [b]) = (A ++ s.current :: B0) ++ [b] := by simp
      rw [e2, getLast?_snoc] at hb
      simp only [Option.some.injEq] at hb
      have hbj : s.filebot ≠ j := by
        intro e4
        apply hjB
        rw [e, ← e4, ← hb]
        simp
      rw [if_neg hbj, e3, getLast?_snoc, hb]
  refine ⟨_, A, B, j, fj, u0, older, hrun, hL, hcn, hfj, hadd, ?_, ?_,
    fun y hy => by rw [hH5data, (hH3frame y hy).1], by rw [hH5data, hH3c], ?_, ?_⟩
  · rw [hFB, hMK, hMX, hut2d]
  · exact
      { buf :=
          { nodup := hnd3
            seg := by
              show Seg H5 none (A ++ s.current :: B) none
              rw [hH5]
              exact Seg.renum _ _ hseg3
            top := by
              show (A ++ s.current :: B).head? = some s.filetop
              have ht := hE.buf.top
              rw [hL] at ht
              cases A with
              | nil => simpa using ht
              | cons a0 A0 => simpa using ht
            bot := hbot3
            fresh := by
              intro y hy
              have hy2 : s.brk ≤ y := hy
              show H5 y = none
              apply eq_none_of_isSome_eq (b := H3 y) (by rw [hH5]; simp)
              rw [hH3, Heap.set_ne _ _ (by omega)]
              apply eq_none_of_isSome_eq (b := s.heap y) (by rw [hH2]; simp)
              exact hE.buf.fresh y hy2 }
        cur := by simp
        x_le := by
          show s.current_x ≤ (dataOf H5 s.current).length
          rw [hH5data, hH3c, hx]
          simp
        undo := fun _ => ⟨0, _, rfl, hut2⟩ }
  · intro hsz
    show s.totsize - 1 = sizeOf H5 (A ++ s.current :: B)
    have := @sizeOf_join s.heap H5 A B s.current j
      (fun y hy => by rw [hH5data, (hH3frame y (Or.inl hy)).1])
      (fun y hy => by rw [hH5data, (hH3frame y (Or.inr hy)).1])
      (by rw [hH5data, hH3c, dataOf_of_eq hc, dataOf_of_eq hfj])
    rw [← hL] at this
    omega
  · intro hnum
    rw [hL, Numbered.append_iff] at hnum
    rw [Numbered.append_iff]
    have hnumA : Numbered H3 0 A :=
      Numbered.of_frame (fun y hy => (hH3frame y (Or.inl hy)).2.1) hnum.1
    refine ⟨?_, ?_⟩
    · refine Numbered.of_frame ?_ hnumA
      intro y hy
      rw [hH5]
      exact linenoAt_renum_not_mem _ _ _ (fun hm => by
        rcases List.mem_cons.1 hm with e | e
        · exact hcA (e ▸ hy)
        · exact h1.2.2 hy (by simp [e]))
    · have e := lastNumber_numbered hnumA
      rw [e] at hnum5
      simpa using hnum5

/-- Deleting at the end of a line that is not the last: the next line is
joined to it, unless that would eat the magic line. -/
theorem do_deletion_join_spec {s : State} {L : List Nat} (hE : Editable s L) (a : undo_type)
    {c : linestruct}
    (hc : s.heap s.current = some c) (hx : s.current_x = c.data.length)
    (hfb : s.current ≠ s.filebot) :
    ∃ t L1, do_deletion s a = some t ∧ Editable t L1 ∧
      (s.totsize = sizeOf s.heap L → t.totsize = sizeOf t.heap L1) ∧
      (Numbered s.heap 0 L → Numbered t.heap 0 L1) := by
  obtain ⟨u0b, olderb, haddb⟩ := add_undo_eq hc undo_type.BACK
  by_cases hguard : c.next = some s.filebot ∧ s.current_x ≠ 0 ∧ ¬ s.NO_NEWLINES = true
  · -- the magic line is not eaten
    by_cases hback : a = undo_type.BACK
    · have hrun : do_deletion s a = some
          { s with undotop := u0b :: olderb, current_undo := some 0,
                   last_action := undo_type.BACK } := by
        unfold do_deletion
        simp only [hc]
        rw [if_neg (by omega), if_pos hx, if_pos hfb]
        unfold do_deletion_join
        simp only [hc]
        rw [if_pos hguard, if_pos hback, haddb]
      refine ⟨_, L, hrun, ?_, fun h => h, fun h => h⟩
      exact
        { buf :=
            { nodup := hE.buf.nodup
              seg := hE.buf.seg
              top := hE.buf.top
              bot := hE.buf.bot
              fresh := hE.buf.fresh }
          cur := hE.cur
          x_le := hE.x_le
          undo := fun _ => ⟨0, u0b, rfl, by simp⟩ }
    · have hrun : do_deletion s a = some s := by
        unfold do_deletion
        simp only [hc]
        rw [if_neg (by omega), if_pos hx, if_pos hfb]
        unfold do_deletion_join
        simp only [hc]
        rw [if_pos hguard, if_neg hback]
      exact ⟨s, L, hrun, hE, fun h => h, fun h => h⟩
  · -- the two lines are joined
    obtain ⟨t, A, B, j, fj, u0, older, hrun, -, -, -, -, -, hE1, -, -, hsz, hnum⟩ :=
      do_deletion_join_run hE a hc hx hfb hguard
    exact ⟨t, _, hrun, hE1, hsz, hnum⟩

/-- Deleting keeps the buffer editable and keeps the size and numbering
invariants. -/
theorem do_deletion_spec {s : State} {L : List Nat} (hE : Editable s L) (a : undo_type)
    (ha : a = undo_type.DEL ∨ a = undo_type.BACK) :
    ∃ t L1, do_deletion s a = some t ∧ Editable t L1 ∧
      (s.totsize = sizeOf s.heap L → t.totsize = sizeOf t.heap L1) ∧
      (Numbered s.heap 0 L → Numbered t.heap 0 L1) := by
  obtain ⟨c, hc⟩ := hE.buf.seg.live hE.cur
  have hxle := hE.x_le
  rw [dataOf_of_eq hc] at hxle
  by_cases hmid : s.current_x < c.data.length
  · exact do_deletion_mid_spec hE a ha hc hmid
  · have hx : s.current_x = c.data.length := by omega
    by_cases hfb : s.current = s.filebot
    · refine ⟨s, L, ?_, hE, fun h => h, fun h => h⟩
      unfold do_deletion
      simp only [hc]
      rw [if_neg hmid, if_pos hx, if_neg (not_not.2 hfb)]
    · exact do_deletion_join_spec hE a hc hx hfb

/-! ## The invariants in terms of the lines of the buffer -/

theorem Buf.size_invariant_iff {s : State} {L : List Nat} (hb : Buf s L) :
    size_invariant s ↔ s.totsize = sizeOf s.heap L := by
  unfold size_invariant
  rw [hb.text, sizeOf_eq_textSize]
  simp [eq_comm]

theorem addrs_back_seg {h : Heap} {ps : List Nat} {nx : Option Nat}
    (hs : Seg h none ps nx) (fuel : Nat) (hf : ps.length ≤ fuel) :
    addrs_back fuel h (lastOf none ps) = some ps.reverse := by
  induction ps using List.reverseRecOn generalizing nx fuel with
  | nil => cases fuel <;> simp [addrs_back]
  | append_singleton a p ih =>
    rw [Seg.append] at hs
    have h2 := hs.2
    rw [Seg_cons] at h2
    obtain ⟨n, hn, hpv, -⟩ := linksAt_some h2.1
    cases fuel with
    | zero => simp at hf
    | succ fuel =>
      have hlen : a.length ≤ fuel := by simpa using hf
      simp only [lastOf_append_singleton, addrs_back, hn, hpv, ih hs.1 fuel hlen,
        List.reverse_append, List.reverse_cons, List.reverse_nil, List.nil_append,
        List.singleton_append]

theorem Buf.addrs_back {s : State} {ps : List Nat} (hb : Buf s ps) :
    addrs_back s.brk s.heap (some s.filebot) = some ps.reverse := by
  have h := addrs_back_seg hb.seg s.brk hb.length_le
  rwa [lastOf_of_getLast? none hb.bot] at h

theorem numbered_iff (h : Heap) (L : List Nat) : ∀ k : Int,
    Numbered h k L ↔
      L.map (linenoAt h) = (List.range L.length).map (fun (i : Nat) => some (k + (i : Int) + 1)) := by
  induction L with
  | nil => intro k; simp [Numbered]
  | cons p rest ih =>
    intro k
    rw [Numbered, ih (k + 1)]
    simp only [List.map_cons, List.length_cons, List.range_succ_eq_map, List.map_map,
      List.cons.injEq, Nat.cast_zero, add_zero]
    have e : ((fun i : Nat => some (k + (i : Int) + 1)) ∘ Nat.succ) =
        (fun i : Nat => some (k + 1 + (i : Int) + 1)) := by
      funext i
      simp only [Function.comp, Nat.succ_eq_add_one, Nat.cast_add, Nat.cast_one,
        Option.some.injEq]
      ring
    rw [e]

theorem numbered_zero_iff (h : Heap) (L : List Nat) :
    Numbered h 0 L ↔
      L.map (linenoAt h) = (List.range L.length).map (fun (i : Nat) => some ((i : Int) + 1)) := by
  rw [numbered_iff]
  simp

theorem Buf.numbering_invariant_iff {s : State} {L : List Nat} (hb : Buf s L) :
    numbering_invariant s ↔ Numbered s.heap 0 L := by
  unfold numbering_invariant
  rw [hb.addrs, hb.addrs_back, numbered_zero_iff]
  constructor
  · rintro ⟨L1, h1, -, h3⟩
    cases h1
    exact h3
  · intro h
    exact ⟨L, rfl, rfl, h⟩

theorem numbered_from_one_iff {s : State} {E : List Nat} (hs : Seg s.heap none E none)
    (hnd : E.Nodup) (hlt : ∀ y, y ∈ E → y < s.brk) :
    numbered_from_one s E.head? ↔ Numbered s.heap 0 E := by
  unfold numbered_from_one
  have h1 := addrs_from_seg hs s.brk (length_le_of_nodup_lt hnd hlt)
  rw [nextOf_eq_head?] at h1
  rw [h1, numbered_zero_iff]
  constructor
  · rintro ⟨L1, h2, h3⟩
    cases h2
    exact h3
  · intro h
    exact ⟨E, rfl, h⟩

/-- A sequence of edits keeps the buffer editable and keeps the size and
numbering invariants. -/
theorem do_edits_spec (f : Nat → Bool) (edits : List edit) :
    ∀ {s : State} {L : List Nat}, Editable s L →
      ∃ t L1, do_edits f edits s = some t ∧ Editable t L1 ∧
        (s.totsize = sizeOf s.heap L → t.totsize = sizeOf t.heap L1) ∧
        (Numbered s.heap 0 L → Numbered t.heap 0 L1) := by
  induction edits with
  | nil =>
    intro s L hE
    exact ⟨s, L, rfl, hE, fun h => h, fun h => h⟩
  | cons e rest ih =>
    intro s L hE
    have hstep : ∃ t L1, do_edit f s e = some t ∧ Editable t L1 ∧
        (s.totsize = sizeOf s.heap L → t.totsize = sizeOf t.heap L1) ∧
        (Numbered s.heap 0 L → Numbered t.heap 0 L1) := by
      cases e with
      | output bytes allow => exact do_output_spec f hE bytes allow
      | deletion back =>
        apply do_deletion_spec hE
        cases back <;> simp
    obtain ⟨t, L1, hrun, hE1, hsz, hnum⟩ := hstep
    obtain ⟨t2, L2, hrun2, hE2, hsz2, hnum2⟩ := ih hE1
    refine ⟨t2, L2, ?_, hE2, fun h => hsz2 (hsz h), fun h => hnum2 (hnum h)⟩
    unfold do_edits
    rw [hrun]
    exact hrun2

/-! ## Sizes of texts -/

theorem textSize_append_empty {T Z : List (List Nat)} (hT : T ≠ [])
    (hZ : ∀ d, d ∈ Z → d = []) : textSize (T ++ Z) = textSize T + Z.length := by
  have e : (Z.map List.length).sum = 0 := by
    apply List.sum_eq_zero
    intro n hn
    obtain ⟨d, hd, rfl⟩ := List.mem_map.1 hn
    rw [hZ d hd]
    rfl
  have hlen : 0 < T.length := List.length_pos.2 hT
  unfold textSize
  simp only [List.map_append, List.sum_append, e, List.length_append]
  omega

theorem textSize_replace {TA TR TB : List (List Nat)} (x : List Nat) (hR : TR ≠ []) :
    textSize (TA ++ TR ++ TB) + x.length = textSize (TA ++ [x] ++ TB) + textSize TR := by
  have hlen : 0 < TR.length := List.length_pos.2 hR
  unfold textSize
  simp only [List.map_append, List.sum_append, List.length_append, List.map_cons, List.map_nil,
    List.sum_cons, List.sum_nil, List.length_cons, List.length_nil]
  omega

theorem rangeText_size {ds : List (List Nat)} {dt db : List Nat} {top_x bot_x : Nat}
    (hh : ds.head? = some dt) (hl : ds.getLast? = some db) (htx : top_x ≤ dt.length)
    (hbx : bot_x ≤ db.length) (hsame : ds.length = 1 → top_x ≤ bot_x) :
    textSize (rangeText ds top_x bot_x) + (top_x + (db.length - bot_x)) = textSize ds := by
  cases ds with
  | nil => simp at hh
  | cons d rest =>
    simp only [List.head?_cons, Option.some.injEq] at hh
    subst hh
    rcases List.eq_nil_or_concat rest with e | ⟨mid, b, e⟩
    · subst e
      simp only [List.getLast?_singleton, Option.some.injEq] at hl
      subst hl
      have := hsame rfl
      simp only [rangeText, mapLast, mapHead, textSize, List.map_cons, List.map_nil,
        List.sum_cons, List.sum_nil, List.length_drop, List.length_take, List.length_singleton]
      omega
    · rw [List.concat_eq_append] at e
      subst e
      have hl2 : (d :: (mid ++ [b])).getLast? = some b := by
        rw [← List.cons_append, List.getLast?_append]
        simp
      rw [hl2] at hl
      simp only [Option.some.injEq] at hl
      subst hl
      unfold rangeText
      rw [← List.cons_append, mapLast_append_singleton]
      simp only [List.cons_append, mapHead, textSize, List.map_cons, List.map_append,
        List.map_nil, List.sum_cons, List.sum_append, List.sum_nil, List.length_drop,
        List.length_take, List.length_cons, List.length_append, List.length_nil]
      omega

theorem insertText_size {src : List (List Nat)} (c : List Nat) (x : Nat) (hne : src ≠ [])
    (hx : x ≤ c.length) : textSize (insertText c x src) = textSize src + c.length := by
  cases src with
  | nil => exact absurd rfl hne
  | cons d rest =>
    rcases List.eq_nil_or_concat rest with e | ⟨mid, b, e⟩
    · subst e
      simp only [insertText, mapLast, mapHead, textSize, List.map_cons, List.map_nil,
        List.sum_cons, List.sum_nil, List.length_append, List.length_drop, List.length_take,
        List.length_singleton]
      omega
    · rw [List.concat_eq_append] at e
      subst e
      unfold insertText
      rw [← List.cons_append, mapLast_append_singleton]
      simp only [List.cons_append, mapHead, textSize, List.map_cons, List.map_append,
        List.map_nil, List.sum_cons, List.sum_append, List.sum_nil, List.length_append,
        List.length_drop, List.length_take, List.length_cons, List.length_nil]
      omega

theorem insertText_ne_nil {src : List (List Nat)} (c : List Nat) (x : Nat) (hne : src ≠ []) :
    insertText c x src ≠ [] := by
  cases src with
  | nil => exact absurd rfl hne
  | cons d rest =>
    cases rest with
    | nil => simp [insertText, mapLast, mapHead]
    | cons e r => simp [insertText, mapLast, mapHead]

/-- The size of the buffer after `extract_buffer`. -/
theorem ExtractPost.size_after {s t : State} {A R B D : List Nat} {top_x bot_x : Nat}
    {M E : List Nat} {ft fb fto fbo : Option Nat} {top bot : Nat}
    (h : ExtractPre s A R B D fto fbo top top_x bot bot_x)
    (hp : ExtractPost s t A R B D top_x bot_x M E ft fb) :
    sizeOf t.heap (A ++ [s.brk] ++ B ++ M) +
        textSize (rangeText (R.map (dataOf s.heap)) top_x bot_x) =
      sizeOf s.heap (A ++ R ++ B) + M.length := by
  have e1 : A.map (dataOf t.heap) = A.map (dataOf s.heap) :=
    map_congr_mem (fun y hy => hp.data_old y (by simp [hy]))
  have e2 : B.map (dataOf t.heap) = B.map (dataOf s.heap) :=
    map_congr_mem (fun y hy => hp.data_old y (by simp [hy]))
  have e3 := hp.data_new top bot h.head h.last
  obtain ⟨R1, hR1⟩ := eq_cons_of_head? h.head
  have hRne : R.map (dataOf s.heap) ≠ [] := by rw [hR1]; simp
  have hr := @rangeText_size (R.map (dataOf s.heap)) (dataOf s.heap top)
    (dataOf s.heap bot) top_x bot_x
    (by rw [hR1]; simp)
    (by rw [getLast?_map', h.last]; rfl) h.top_le h.bot_le
    (by
      intro hlen
      rw [List.length_map] at hlen
      have htb : top = bot := (head_eq_last_iff (List.nodup_append.1
        (List.nodup_append.1 h.buf.nodup).1).2.1 h.head h.last).2 hlen
      exact le_of_lt (h.nonempty htb))
  have hrep := @textSize_replace (A.map (dataOf s.heap)) (R.map (dataOf s.heap))
    (B.map (dataOf s.heap))
    ((dataOf s.heap top).take top_x ++ (dataOf s.heap bot).drop bot_x) hRne
  have hZ : ∀ d, d ∈ M.map (dataOf t.heap) → d = [] := by
    intro d hd
    obtain ⟨y, hy, rfl⟩ := List.mem_map.1 hd
    exact hp.data_magic y hy
  rw [sizeOf_eq_textSize, sizeOf_eq_textSize, List.map_append,
    textSize_append_empty (by simp) hZ]
  simp only [List.map_append, List.map_cons, List.map_nil, e1, e2, e3, List.length_map]
  simp only [List.map_append] at hrep
  simp only [List.length_append, List.length_take, List.length_drop] at hrep
  have hmin : min top_x (dataOf s.heap top).length = top_x := Nat.min_eq_left h.top_le
  rw [hmin] at hrep
  omega

/-- The size of the buffer after `ingraft_buffer`. -/
theorem IngraftPost.size_pasted {s t : State} {A B Src M : List Nat} {somebuffer : Nat}
    (h : IngraftPre s A B Src somebuffer) (hp : IngraftPost s t A B Src M) :
    sizeOf t.heap (A ++ Src ++ B ++ M) =
      sizeOf s.heap (A ++ [s.current] ++ B) + textSize (Src.map (dataOf s.heap)) + M.length := by
  have e1 : A.map (dataOf t.heap) = A.map (dataOf s.heap) :=
    map_congr_mem (fun y hy => hp.data_old y (by simp [hy]))
  have e2 : B.map (dataOf t.heap) = B.map (dataOf s.heap) :=
    map_congr_mem (fun y hy => hp.data_old y (by simp [hy]))
  have e3 : Src.map (dataOf t.heap) =
      insertText (dataOf s.heap s.current) s.current_x (Src.map (dataOf s.heap)) :=
    hp.data_src
  obtain ⟨S1, hS1⟩ := eq_cons_of_head? h.src_head
  have hSne : Src.map (dataOf s.heap) ≠ [] := by rw [hS1]; simp
  have hins := insertText_size (dataOf s.heap s.current) s.current_x hSne h.x_le
  have hrep := @textSize_replace (A.map (dataOf s.heap))
    (insertText (dataOf s.heap s.current) s.current_x (Src.map (dataOf s.heap)))
    (B.map (dataOf s.heap)) (dataOf s.heap s.current)
    (insertText_ne_nil _ _ hSne)
  have hZ : ∀ d, d ∈ M.map (dataOf t.heap) → d = [] := by
    intro d hd
    obtain ⟨y, hy, rfl⟩ := List.mem_map.1 hd
    exact hp.data_magic y hy
  rw [sizeOf_eq_textSize, sizeOf_eq_textSize, List.map_append,
    textSize_append_empty (by rw [hS1]; simp) hZ]
  simp only [List.map_append, List.map_cons, List.map_nil, e1, e2, e3, List.length_map]
  omega

/-- C8: when the buffer is editable at the cursor and `totsize` equals the sum
of the lengths of all lines plus the number of lines minus one, then the same
equation holds after `do_output` on any bytes, after `do_deletion` as DEL and
as BACK, and after every finite sequence of such inserts and deletes; each of
these operations returns. -/
theorem size_invariant_typing_deleting (is_ascii_cntrl_char : Nat → Bool) (s : State)
    (L : List Nat) (hE : Editable s L) (hS : size_invariant s) :
    (∀ output allow_cntrls, ∃ t,
      do_output is_ascii_cntrl_char s output allow_cntrls = some t ∧ size_invariant t) ∧
    (∃ t, do_deletion s undo_type.DEL = some t ∧ size_invariant t) ∧
    (∃ t, do_deletion s undo_type.BACK = some t ∧ size_invariant t) ∧
    (∀ edits, ∃ t, do_edits is_ascii_cntrl_char edits s = some t ∧ size_invariant t) := by
  have h0 := hE.buf.size_invariant_iff.1 hS
  refine ⟨?_, ?_, ?_, ?_⟩
  · intro output allow
    obtain ⟨t, L1, hrun, hE1, hsz, -⟩ := do_output_spec is_ascii_cntrl_char hE output allow
    exact ⟨t, hrun, hE1.buf.size_invariant_iff.2 (hsz h0)⟩
  · obtain ⟨t, L1, hrun, hE1, hsz, -⟩ := do_deletion_spec hE undo_type.DEL (Or.inl rfl)
    exact ⟨t, hrun, hE1.buf.size_invariant_iff.2 (hsz h0)⟩
  · obtain ⟨t, L1, hrun, hE1, hsz, -⟩ := do_deletion_spec hE undo_type.BACK (Or.inr rfl)
    exact ⟨t, hrun, hE1.buf.size_invariant_iff.2 (hsz h0)⟩
  · intro edits
    obtain ⟨t, L1, hrun, hE1, hsz, -⟩ := do_edits_spec is_ascii_cntrl_char edits hE
    exact ⟨t, hrun, hE1.buf.size_invariant_iff.2 (hsz h0)⟩

/-- The range is part of the text of the buffer. -/
theorem range_le_size {s : State} {A R B D : List Nat} {fto fbo : Option Nat}
    {top top_x bot bot_x : Nat} (h : ExtractPre s A R B D fto fbo top top_x bot bot_x) :
    textSize (rangeText (R.map (dataOf s.heap)) top_x bot_x) ≤ sizeOf s.heap (A ++ R ++ B) := by
  obtain ⟨R1, hR1⟩ := eq_cons_of_head? h.head
  have hRne : R.map (dataOf s.heap) ≠ [] := by rw [hR1]; simp
  have hr := @rangeText_size (R.map (dataOf s.heap)) (dataOf s.heap top)
    (dataOf s.heap bot) top_x bot_x
    (by rw [hR1]; simp)
    (by rw [getLast?_map', h.last]; rfl) h.top_le h.bot_le
    (by
      intro hlen
      rw [List.length_map] at hlen
      have htb : top = bot := (head_eq_last_iff (List.nodup_append.1
        (List.nodup_append.1 h.buf.nodup).1).2.1 h.head h.last).2 hlen
      exact le_of_lt (h.nonempty htb))
  have hrep := @textSize_replace (A.map (dataOf s.heap)) (R.map (dataOf s.heap))
    (B.map (dataOf s.heap)) [] hRne
  rw [sizeOf_eq_textSize]
  simp only [List.map_append] at hrep ⊢
  simp only [List.length_nil] at hrep
  omega

/-- C9: `extract_buffer` takes from `totsize` the size of the range (its
characters plus one per line separator inside it), provided `totsize` is at
least that much, and `ingraft_buffer` adds the size of the inserted lines
(their characters plus `k - 1` separators); each adds `m`, the number of
magic lines it appends (0 or 1).  So when `totsize` is the sum of the line
lengths plus the number of lines minus one before either operation, it is so
afterwards (and then `totsize` is at least the size of the range). -/
theorem size_invariant_extract_ingraft (s : State) (A R B D : List Nat)
    (file_top file_bot : Option Nat) (top top_x bot bot_x : Nat)
    (h : ExtractPre s A R B D file_top file_bot top top_x bot bot_x)
    (s2 : State) (A2 B2 Src : List Nat) (somebuffer : Nat)
    (h2 : IngraftPre s2 A2 B2 Src somebuffer) :
    (∃ t ft fb m T, extract_buffer s file_top file_bot top top_x bot bot_x = some (t, ft, fb) ∧
      buffer_text t = some T ∧ T.length = A.length + 1 + B.length + m ∧ (m = 0 ∨ m = 1) ∧
      (textSize (rangeText (R.map (dataOf s.heap)) top_x bot_x) ≤ s.totsize →
        t.totsize + textSize (rangeText (R.map (dataOf s.heap)) top_x bot_x) =
          s.totsize + m) ∧
      (size_invariant s →
        textSize (rangeText (R.map (dataOf s.heap)) top_x bot_x) ≤ s.totsize ∧
        size_invariant t)) ∧
    (∃ t m T, ingraft_buffer s2 somebuffer = some t ∧
      buffer_text t = some T ∧ T.length = A2.length + Src.length + B2.length + m ∧
      (m = 0 ∨ m = 1) ∧
      t.totsize = s2.totsize + textSize (Src.map (dataOf s2.heap)) + m ∧
      (size_invariant s2 → size_invariant t)) := by
  constructor
  · obtain ⟨t, ft, fb, M, E, hrun, hp⟩ := extract_buffer_spec h
    have hsize := hp.size_after h
    have hrange := range_le_size h
    have htot := hp.totsize
    refine ⟨t, ft, fb, M.length, _, hrun, hp.buf.text, ?_, ?_, ?_, ?_⟩
    · simp only [List.length_map, List.length_append, List.length_singleton]
    · rcases hp.magic with e | e <;> simp [e]
    · intro hle
      omega
    · intro hS
      have h0 := h.buf.size_invariant_iff.1 hS
      have hle : textSize (rangeText (R.map (dataOf s.heap)) top_x bot_x) ≤ s.totsize := by
        have hr := hrange
        omega
      refine ⟨hle, ?_⟩
      apply hp.buf.size_invariant_iff.2
      omega
  · obtain ⟨t, M, hrun, hp⟩ := ingraft_buffer_spec h2
    have hsize := hp.size_pasted h2
    have htot := hp.totsize
    refine ⟨t, M.length, _, hrun, hp.buf.text, ?_, ?_, htot, ?_⟩
    · simp only [List.length_map, List.length_append]
    · rcases hp.magic with e | e <;> simp [e]
    · intro hS
      have h0 := h2.buf.size_invariant_iff.1 hS
      apply hp.buf.size_invariant_iff.2
      omega

theorem ExtractPost.numbered_after {s t : State} {A R B D : List Nat} {top_x bot_x : Nat}
    {M E : List Nat} {ft fb : Option Nat}
    (hp : ExtractPost s t A R B D top_x bot_x M E ft fb) (hA : Numbered s.heap 0 A) :
    Numbered t.heap 0 (A ++ [s.brk] ++ B ++ M) := by
  have e : A ++ [s.brk] ++ B ++ M = A ++ ([s.brk] ++ B ++ M) := by simp
  rw [e, Numbered.append_iff]
  refine ⟨Numbered.of_frame (fun y hy => hp.num_old y hy) hA, ?_⟩
  have := hp.num_new
  rw [lastNumber_numbered hA] at this
  simpa using this

theorem ExtractPost.dest_numbered {s t : State} {A R B D : List Nat} {top_x bot_x : Nat}
    {M E : List Nat} {ft fb : Option Nat}
    (hp : ExtractPost s t A R B D top_x bot_x M E ft fb) (hD : Numbered s.heap 0 D) :
    Numbered t.heap 0 E := by
  have hD0 : Numbered s.heap 0 D.dropLast := by
    have e : D = D.dropLast ++ D.drop (D.length - 1) := by
      rw [List.dropLast_eq_take]
      exact (List.take_append_drop _ _).symm
    rw [e, Numbered.append_iff] at hD
    exact hD.1
  have htake : E.take (D.length - 1) = D.dropLast := by
    rw [hp.dest_shape]
    by_cases hDe : D = []
    · rw [if_pos hDe, hDe]
      simp
    · rw [if_neg hDe, List.dropLast_eq_take, List.take_append_of_le_length (by omega)]
  have e : E = D.dropLast ++ E.drop (D.length - 1) := by
    rw [← htake]
    exact (List.take_append_drop _ _).symm
  rw [e, Numbered.append_iff]
  refine ⟨Numbered.of_frame (fun y hy => hp.dest_num_old y hy) hD0, ?_⟩
  have := hp.dest_num_new
  rw [lastNumber_numbered hD0] at this
  simpa using this

theorem IngraftPost.numbered_pasted {s t : State} {A B Src M : List Nat}
    (hp : IngraftPost s t A B Src M) (hA : Numbered s.heap 0 A) :
    Numbered t.heap 0 (A ++ Src ++ B ++ M) := by
  have e : A ++ Src ++ B ++ M = A ++ (Src ++ B ++ M) := by simp
  rw [e, Numbered.append_iff]
  refine ⟨Numbered.of_frame (fun y hy => hp.num_old y hy) hA, ?_⟩
  have := hp.num_new
  rw [lastNumber_numbered hA] at this
  simpa using this

/-- C10: when the lines of the buffer are numbered 1, 2, ..., n in next-order
and following `prev` from the last line visits them in the exact reverse
order, then the same holds after `do_output`, after `do_deletion` (as DEL and
as BACK), after `extract_buffer` and after `ingraft_buffer`, each of which
returns.  After `extract_buffer` the destination is numbered 1, 2, ... as
well, when it was so before (as every list of lines is; an empty destination
is so). -/
theorem numbering_invariant_preserved (is_ascii_cntrl_char : Nat → Bool) (s : State)
    (hN : numbering_invariant s) :
    (∀ L, Editable s L → ∀ output allow_cntrls, ∃ t,
      do_output is_ascii_cntrl_char s output allow_cntrls = some t ∧ numbering_invariant t) ∧
    (∀ L, Editable s L → ∀ action, action = undo_type.DEL ∨ action = undo_type.BACK →
      ∃ t, do_deletion s action = some t ∧ numbering_invariant t) ∧
    (∀ A R B D file_top file_bot top top_x bot bot_x,
      ExtractPre s A R B D file_top file_bot top top_x bot bot_x →
      ∃ t ft fb, extract_buffer s file_top file_bot top top_x bot bot_x = some (t, ft, fb) ∧
        numbering_invariant t ∧
        (numbered_from_one s file_top → numbered_from_one t ft)) ∧
    (∀ A B Src somebuffer, IngraftPre s A B Src somebuffer →
      ∃ t, ingraft_buffer s somebuffer = some t ∧ numbering_invariant t) := by
  refine ⟨?_, ?_, ?_, ?_⟩
  · intro L hE output allow
    have h0 := hE.buf.numbering_invariant_iff.1 hN
    obtain ⟨t, L1, hrun, hE1, -, hnum⟩ := do_output_spec is_ascii_cntrl_char hE output allow
    exact ⟨t, hrun, hE1.buf.numbering_invariant_iff.2 (hnum h0)⟩
  · intro L hE a ha
    have h0 := hE.buf.numbering_invariant_iff.1 hN
    obtain ⟨t, L1, hrun, hE1, -, hnum⟩ := do_deletion_spec hE a ha
    exact ⟨t, hrun, hE1.buf.numbering_invariant_iff.2 (hnum h0)⟩
  · intro A R B D fto fbo top top_x bot bot_x h
    have h0 := h.buf.numbering_invariant_iff.1 hN
    rw [Numbered.append_iff, Numbered.append_iff] at h0
    obtain ⟨t, ft, fb, M, E, hrun, hp⟩ := extract_buffer_spec h
    refine ⟨t, ft, fb, hrun, hp.buf.numbering_invariant_iff.2 (hp.numbered_after h0.1.1), ?_⟩
    intro hD
    have hDlt : ∀ y, y ∈ D → y < s.brk := by
      intro y hy
      by_contra hge
      obtain ⟨n, hn⟩ := h.dest.live hy
      rw [h.buf.fresh y (Nat.le_of_not_lt hge)] at hn
      cases hn
    have hElt : ∀ y, y ∈ E → y < t.brk := by
      intro y hy
      by_contra hge
      obtain ⟨n, hn⟩ := hp.dest_seg.live hy
      rw [hp.buf.fresh y (Nat.le_of_not_lt hge)] at hn
      cases hn
    rw [h.dest_top, numbered_from_one_iff h.dest h.dest_nodup hDlt] at hD
    rw [hp.dest_top, numbered_from_one_iff hp.dest_seg hp.dest_nodup hElt]
    exact hp.dest_numbered hD
  · intro A B Src sb h
    have h0 := h.buf.numbering_invariant_iff.1 hN
    rw [Numbered.append_iff, Numbered.append_iff] at h0
    obtain ⟨t, M, hrun, hp⟩ := ingraft_buffer_spec h
    exact ⟨t, hrun, hp.buf.numbering_invariant_iff.2 (hp.numbered_pasted h0.1.1)⟩

/-! ## A concrete buffer -/

theorem demoPaste_buf : Buf demoPaste [0, 1, 2, 3] :=
  Buf.of_cells (cellsOf 0 0 none [[1, 2, 3], [4, 5], [6], []] ++ cellsOf 4 0 none [[7, 8], [9]])
    rfl (by decide) (by decide) (by decide) (by decide) (by decide)

theorem demoPaste_extractPre :
    ExtractPre demoPaste [0] [1, 2] [3] [4, 5] (some 4) (some 5) 1 1 2 1 where
  buf := demoPaste_buf
  head := by decide
  last := by decide
  top_le := by decide
  bot_le := by decide
  nonempty := by decide
  edittop := by decide
  mark := by decide
  dest := by decide
  dest_nodup := by decide
  dest_disj := by decide
  dest_top := by decide
  dest_bot := by decide

theorem demoPaste_ingraftPre : IngraftPre demoPaste [0] [2, 3] [4, 5] 4 where
  buf := demoPaste_buf
  x_le := by decide
  mark := by decide
  src := by decide
  src_nodup := by decide
  src_disj := by decide
  src_head := by decide

theorem demoPaste_editable : Editable demoPaste [0, 1, 2, 3] where
  buf := demoPaste_buf
  cur := by decide
  x_le := by decide
  undo := by
    intro h
    exact absurd h (by decide)

theorem demoPaste_size : size_invariant demoPaste := by
  unfold size_invariant
  decide

theorem demoPaste_extract_text {t : State} {ft fb : Option Nat}
    (h : extract_buffer demoPaste (some 4) (some 5) 1 1 2 1 = some (t, ft, fb)) :
    buffer_text t = some [[1, 2, 3], [4], []] := by
  obtain ⟨t0, ft0, fb0, M, E, hrun, hpost⟩ := extract_buffer_spec demoPaste_extractPre
  rw [h] at hrun
  cases hrun
  exact (hpost.text_after demoPaste_extractPre.head demoPaste_extractPre.last).trans (by decide)

theorem demoPaste_ingraft_text {t : State} (h : ingraft_buffer demoPaste 4 = some t) :
    buffer_text t = some [[1, 2, 3], [4, 7, 8], [9, 5], [6], []] := by
  obtain ⟨t0, M, hrun, hpost⟩ := ingraft_buffer_spec demoPaste_ingraftPre
  rw [h] at hrun
  cases hrun
  exact (hpost.text_pasted (by decide)).trans (by decide)

theorem demoPaste_numbering : numbering_invariant demoPaste :=
  ⟨[0, 1, 2, 3], by decide, by decide, by decide⟩

theorem demoPaste_dest_numbered : numbered_from_one demoPaste (some 4) :=
  ⟨[4, 5], by decide, by decide⟩

/-! ## The theorems at the concrete buffer -/

theorem partition_unpartition_restores_witness :
    Buf demoPaste ([0] ++ [1, 2] ++ [3]) ∧
    ∃ s1 p s2, partition_buffer demoPaste 1 1 2 1 = some (s1, p) ∧
      unpartition_buffer { s1 with filepart := some p } = some s2 ∧
      buffer_lines s2 = some [([1, 2, 3], 1), ([4, 5], 2), ([6], 3), ([], 4)] := by
  obtain ⟨s1, p, s2, h1, h2, h3, -⟩ := partition_unpartition_restores demoPaste [0] [1, 2] [3]
    1 1 2 1 demoPaste_buf (by decide) (by decide) (by decide) (by decide) (by decide)
  exact ⟨demoPaste_buf, s1, p, s2, h1, h2, h3.trans (by decide)⟩

theorem extract_buffer_removes_range_witness :
    ExtractPre demoPaste [0] [1, 2] [3] [4, 5] (some 4) (some 5) 1 1 2 1 ∧
    ∃ t ft fb, extract_buffer demoPaste (some 4) (some 5) 1 1 2 1 = some (t, ft, fb) ∧
      buffer_text t = some [[1, 2, 3], [4], []] := by
  obtain ⟨t, ft, fb, h1, -, h3⟩ := extract_buffer_removes_range demoPaste [0] [1, 2] [3] [4, 5]
    (some 4) (some 5) 1 1 2 1 demoPaste_extractPre
  exact ⟨demoPaste_extractPre, t, ft, fb, h1, h3.trans (by decide)⟩

theorem extract_buffer_fills_destination_witness :
    ExtractPre demoPaste [0] [1, 2] [3] [4, 5] (some 4) (some 5) 1 1 2 1 ∧
    ∃ t ft fb, extract_buffer demoPaste (some 4) (some 5) 1 1 2 1 = some (t, ft, fb) ∧
      text_from t ft = some [[7, 8], [9, 5], [6]] ∧ last_from t ft = some fb := by
  obtain ⟨t, ft, fb, h1, h2, -, -, -, -, h7⟩ := extract_buffer_fills_destination demoPaste [0]
    [1, 2] [3] [4, 5] (some 4) (some 5) 1 1 2 1 demoPaste_extractPre
  exact ⟨demoPaste_extractPre, t, ft, fb, h1, h2.trans (by decide), h7⟩

theorem ingraft_buffer_inserts_text_witness :
    IngraftPre demoPaste [0] [2, 3] [4, 5] 4 ∧
    ∃ t, ingraft_buffer demoPaste 4 = some t ∧
      buffer_text t = some [[1, 2, 3], [4, 7, 8], [9, 5], [6], []] := by
  obtain ⟨t, h1, -, -, h4, -⟩ := ingraft_buffer_inserts_text demoPaste [0] [2, 3] [4, 5] 4
    demoPaste_ingraftPre
  exact ⟨demoPaste_ingraftPre, t, h1, h4.trans (by decide)⟩

theorem ingraft_buffer_cursor_at_end_witness :
    IngraftPre demoPaste [0] [2, 3] [4, 5] 4 ∧
    ∃ t, ingraft_buffer demoPaste 4 = some t ∧ t.current = 5 ∧ t.current_x = 1 := by
  obtain ⟨t, h1, h2, -, h4, -⟩ := ingraft_buffer_cursor_at_end demoPaste [0] [2, 3] [4, 5] 4
    demoPaste_ingraftPre
  have h5 : t.current = 5 := by
    have : some 5 = some t.current := h2
    exact (Option.some.inj this).symm
  refine ⟨demoPaste_ingraftPre, t, h1, h5, ?_⟩
  rw [h4, h5]
  decide

theorem copy_from_buffer_keeps_source_witness :
    IngraftPre demoPaste [0] [2, 3] [4, 5] 4 ∧
    (∃ t, copy_from_buffer demoPaste 4 = some t ∧
      lines_from t (some 4) = some [([7, 8], 1), ([9], 2)] ∧
      buffer_text t = some [[1, 2, 3], [4, 7, 8], [9, 5], [6], []]) ∧
    (∃ u u2, do_uncut_text demoPaste = some u ∧ do_uncut_text u = some u2 ∧
      lines_from u u.cutbuffer = some [([7, 8], 1), ([9], 2)] ∧
      lines_from u2 u2.cutbuffer = some [([7, 8], 1), ([9], 2)] ∧
      buffer_text u2 = some [[1, 2, 3], [4, 7, 8], [9, 7, 8], [9, 5], [6], []]) := by
  obtain ⟨⟨t, T, h1, h2, h3, h4, h5⟩, hu⟩ := copy_from_buffer_keeps_source demoPaste [0] [2, 3]
    [4, 5] 4 demoPaste_ingraftPre
  obtain ⟨u, u2, T0, T1, g1, g2, g3, g4, g5, g6, g7, g8, g9, g10, g11⟩ := hu (by decide)
  have e4 : T = [[1, 2, 3], [4, 5], [6], []] := by
    have : some T = some [[1, 2, 3], [4, 5], [6], []] := h4.symm.trans (by decide)
    exact Option.some.inj this
  have e5 : T0 = [[1, 2, 3], [4, 5], [6], []] := by
    have : some T0 = some [[1, 2, 3], [4, 5], [6], []] := g4.symm.trans (by decide)
    exact Option.some.inj this
  refine ⟨demoPaste_ingraftPre, ⟨t, h1, h2.trans (by decide), ?_⟩, u, u2, g1, g8,
    g3.trans (by decide), g10.trans (by decide), ?_⟩
  · rw [h5, e4]
    decide
  · rw [g11, g6, g7, e5]
    decide

theorem size_invariant_typing_deleting_witness :
    Editable demoPaste [0, 1, 2, 3] ∧ size_invariant demoPaste ∧
    (∃ t, do_output ascii_cntrl demoPaste [104, 0, 7, 105] false = some t ∧ size_invariant t) ∧
    (∃ t, do_deletion demoPaste undo_type.DEL = some t ∧ size_invariant t) ∧
    (∃ t, do_deletion demoPaste undo_type.BACK = some t ∧ size_invariant t) ∧
    (∃ t, do_edits ascii_cntrl
        [edit.output [104, 105] false, edit.deletion false, edit.deletion false,
          edit.deletion true, edit.output [33] true] demoPaste = some t ∧
      size_invariant t) :=
  ⟨demoPaste_editable, demoPaste_size,
    (size_invariant_typing_deleting ascii_cntrl demoPaste [0, 1, 2, 3] demoPaste_editable
      demoPaste_size).1 _ _,
    (size_invariant_typing_deleting ascii_cntrl demoPaste [0, 1, 2, 3] demoPaste_editable
      demoPaste_size).2.1,
    (size_invariant_typing_deleting ascii_cntrl demoPaste [0, 1, 2, 3] demoPaste_editable
      demoPaste_size).2.2.1,
    (size_invariant_typing_deleting ascii_cntrl demoPaste [0, 1, 2, 3] demoPaste_editable
      demoPaste_size).2.2.2 _⟩

theorem size_invariant_extract_ingraft_witness :
    ExtractPre demoPaste [0] [1, 2] [3] [4, 5] (some 4) (some 5) 1 1 2 1 ∧
    IngraftPre demoPaste [0] [2, 3] [4, 5] 4 ∧ size_invariant demoPaste ∧
    (∃ t ft fb, extract_buffer demoPaste (some 4) (some 5) 1 1 2 1 = some (t, ft, fb) ∧
      t.totsize = 6 ∧ size_invariant t) ∧
    (∃ t, ingraft_buffer demoPaste 4 = some t ∧ t.totsize = 13 ∧ size_invariant t) := by
  obtain ⟨⟨t, ft, fb, m, T, h1, h2, h3, -, h5, h6⟩, ⟨t2, m2, T2, g1, g2, g3, -, g5, g6⟩⟩ :=
    size_invariant_extract_ingraft demoPaste [0] [1, 2] [3] [4, 5] (some 4) (some 5) 1 1 2 1
      demoPaste_extractPre demoPaste [0] [2, 3] [4, 5] 4 demoPaste_ingraftPre
  have hS := demoPaste_size
  have e1 : T = [[1, 2, 3], [4], []] := by
    have k3 := demoPaste_extract_text h1
    rw [h2] at k3
    exact Option.some.inj k3
  have e2 : T2 = [[1, 2, 3], [4, 7, 8], [9, 5], [6], []] := by
    have k3 := demoPaste_ingraft_text g1
    rw [g2] at k3
    exact Option.some.inj k3
  have hm : m = 0 := by
    rw [e1] at h3
    simp at h3
    omega
  have hm2 : m2 = 0 := by
    rw [e2] at g3
    simp at g3
    omega
  refine ⟨demoPaste_extractPre, demoPaste_ingraftPre, hS, ⟨t, ft, fb, h1, ?_, (h6 hS).2⟩,
    t2, g1, ?_, g6 hS⟩
  · have h7 := h5 (by decide)
    rw [hm] at h7
    have e3 : textSize (rangeText ([1, 2].map (dataOf demoPaste.heap)) 1 1) = 3 := by decide
    have e4 : demoPaste.totsize = 9 := by decide
    omega
  · rw [g5, hm2]
    decide

theorem numbering_invariant_preserved_witness :
    numbering_invariant demoPaste ∧
    (∃ t, do_output ascii_cntrl demoPaste [104, 105] false = some t ∧ numbering_invariant t) ∧
    (∃ t, do_deletion demoPaste undo_type.DEL = some t ∧ numbering_invariant t) ∧
    (∃ t ft fb, extract_buffer demoPaste (some 4) (some 5) 1 1 2 1 = some (t, ft, fb) ∧
      numbering_invariant t ∧ numbered_from_one t ft) ∧
    (∃ t, ingraft_buffer demoPaste 4 = some t ∧ numbering_invariant t) := by
  obtain ⟨h1, h2, h3, h4⟩ := numbering_invariant_preserved ascii_cntrl demoPaste
    demoPaste_numbering
  obtain ⟨t, ft, fb, k1, k2, k3⟩ := h3 [0] [1, 2] [3] [4, 5] (some 4) (some 5) 1 1 2 1
    demoPaste_extractPre
  exact ⟨demoPaste_numbering, h1 [0, 1, 2, 3] demoPaste_editable _ _,
    h2 [0, 1, 2, 3] demoPaste_editable undo_type.DEL (Or.inl rfl),
    ⟨t, ft, fb, k1, k2, k3 demoPaste_dest_numbered⟩,
    h4 [0] [2, 3] [4, 5] 4 demoPaste_ingraftPre⟩

/-! ## Clearing the cutbuffer -/

theorem free_lines_loop_spec {rest : List Nat} :
    ∀ {s : State} {p : Nat} {pv : Option Nat} (fuel : Nat),
      Seg s.heap pv (p :: rest) none → (p :: rest).Nodup → rest.length < fuel →
      ∃ H : Heap, free_lines_loop fuel s p = some { s with heap := H } ∧
        (∀ y, y ∈ p :: rest → H y = none) ∧ (∀ y, y ∉ p :: rest → H y = s.heap y) := by
  induction rest with
  | nil =>
    intro s p pv fuel hs _ hf
    rw [Seg_cons] at hs
    obtain ⟨n, hn, -, hnx⟩ := linksAt_some hs.1
    obtain ⟨k, hk⟩ : ∃ k, fuel = k + 1 := ⟨fuel - 1, by omega⟩
    subst hk
    refine ⟨s.heap.set p none, ?_, ?_, ?_⟩
    · simp only [free_lines_loop, hn]
      have : n.next = none := hnx
      simp only [this, delete_node, hn]
    · intro y hy
      simp only [List.mem_singleton] at hy
      subst hy
      exact Heap.set_same _ _ _
    · intro y hy
      simp only [List.mem_singleton] at hy
      exact Heap.set_ne _ _ hy
  | cons q rest ih =>
    intro s p pv fuel hs hnd hf
    rw [Seg_cons] at hs
    obtain ⟨n, hn, -, hnx⟩ := linksAt_some hs.1
    have hs2 := hs.2
    have hs3 := hs2
    rw [Seg_cons] at hs3
    obtain ⟨m, hm, hmp, -⟩ := linksAt_some hs3.1
    obtain ⟨k, hk⟩ : ∃ k, fuel = k + 1 := ⟨fuel - 1, by omega⟩
    subst hk
    have hpq : p ∉ q :: rest := (List.nodup_cons.1 hnd).1
    have hnd2 : (q :: rest).Nodup := (List.nodup_cons.1 hnd).2
    have hseg1 : Seg (s.heap.set p none) (some p) (q :: rest) none :=
      Seg.frame (fun y hy => linksAt_set_ne _ _ (fun e => hpq (e ▸ hy))) hs2
    obtain ⟨H, hrun, hnone, hframe⟩ := @ih { s with heap := s.heap.set p none } q (some p) k
      hseg1 hnd2 (by simp at hf; omega)
    refine ⟨H, ?_, ?_, ?_⟩
    · have e1 : n.next = some q := hnx
      have e2 : m.prev = some p := hmp
      simp only [free_lines_loop, hn, e1, hm, e2, delete_node]
      exact hrun
    · intro y hy
      rcases List.mem_cons.1 hy with e | hy2
      · subst e
        rw [hframe y hpq]
        exact Heap.set_same _ _ _
      · exact hnone y hy2
    · intro y hy
      have h1 : y ∉ q :: rest := fun h2 => hy (List.mem_cons_of_mem _ h2)
      have h2 : y ≠ p := fun e => hy (e ▸ List.mem_cons_self _ _)
      rw [hframe y h1]
      exact Heap.set_ne _ _ h2

/-- Freeing a standalone list whose lines are below `brk`: exactly its cells
are given up. -/
theorem free_lines_spec {s : State} {D : List Nat} (hs : Seg s.heap none D none)
    (hnd : D.Nodup) (hlt : ∀ y, y ∈ D → y < s.brk) :
    ∃ H : Heap, free_lines s D.head? = some { s with heap := H } ∧
      (∀ y, y ∈ D → H y = none) ∧ (∀ y, y ∉ D → H y = s.heap y) := by
  cases D with
  | nil => exact ⟨s.heap, rfl, fun y hy => absurd hy (List.not_mem_nil y), fun _ _ => rfl⟩
  | cons p rest =>
    have hlen := length_le_of_nodup_lt hnd hlt
    exact free_lines_loop_spec s.brk hs hnd (by simpa using hlen)

theorem CutPre.cut_lt {s : State} {L D : List Nat} (h : CutPre s L D) {y : Nat} (hy : y ∈ D) :
    y < s.brk := by
  by_contra hge
  obtain ⟨n, hn⟩ := h.cut.live hy
  rw [h.buf.fresh y (Nat.le_of_not_lt hge)] at hn
  cases hn

/-- Lines 288-294 of `do_cut_text` when the slate is cleared: the lines of the
cutbuffer are freed and nothing else changes in the heap. -/
theorem do_cut_text_clear_spec {s : State} {L D : List Nat} (h : CutPre s L D)
    (marked cut_till_eof : Bool)
    (hc : s.keep_cutbuffer = false ∨ marked = true ∨ cut_till_eof = true) :
    ∃ H : Heap, do_cut_text_clear s marked cut_till_eof false = some
        { s with heap := H, cutbuffer := none, keep_cutbuffer := !marked && !cut_till_eof } ∧
      (∀ y, y ∈ D → H y = none) ∧ (∀ y, y ∉ D → H y = s.heap y) := by
  obtain ⟨H, hrun, h1, h2⟩ := free_lines_spec h.cut h.cut_nodup (fun y hy => h.cut_lt hy)
  refine ⟨H, ?_, h1, h2⟩
  unfold do_cut_text_clear
  rw [if_pos ⟨rfl, hc⟩, h.cut_top, hrun]

/-- `CutPre` reads only some of the fields of the state, and of the heap only
the cells of the buffer and of the cutbuffer. -/
theorem CutPre.transfer {s s1 : State} {L D D1 : List Nat} (h : CutPre s L D)
    (hh : ∀ y, y ∉ D → s1.heap y = s.heap y) (hb : s1.brk = s.brk)
    (hft : s1.filetop = s.filetop) (hfb : s1.filebot = s.filebot)
    (het : (s1.heap s1.edittop).isSome)
    (hc : s1.current = s.current) (hx : s1.current_x = s.current_x)
    (hm : s1.mark = s.mark) (hmx : s1.mark_x = s.mark_x)
    (hnn : s1.NO_NEWLINES = s.NO_NEWLINES)
    (hseg : Seg s1.heap none D1 none) (hnd : D1.Nodup) (hsub : ∀ y, y ∈ D1 → y ∈ D)
    (htop : s1.cutbuffer = D1.head?) (hbot : D1 ≠ [] → s1.cutbottom = D1.getLast?) :
    CutPre s1 L D1 := by
  have hL : ∀ y, y ∈ L → s1.heap y = s.heap y := fun y hy =>
    hh y (fun hD => h.cut_disj y hD hy)
  have hfbL : s.filebot ∈ L := List.mem_of_getLast?_eq_some h.buf.bot
  exact
    { buf :=
        { nodup := h.buf.nodup
          seg := Seg.frame (fun y hy => linksAt_congr (hL y hy)) h.buf.seg
          top := by rw [hft]; exact h.buf.top
          bot := by rw [hfb]; exact h.buf.bot
          fresh := by
            intro y hy
            rw [hb] at hy
            by_cases hD : y ∈ D
            · have := h.cut_lt hD
              omega
            · rw [hh y hD]
              exact h.buf.fresh y hy }
      cur := by rw [hc]; exact h.cur
      x_le := by rw [hx, hc, dataOf_congr (hL _ h.cur)]; exact h.x_le
      edittop := het
      mark := by
        intro m hm1
        rw [hm] at hm1
        obtain ⟨h1, h2⟩ := h.mark m hm1
        exact ⟨h1, by rw [hmx, dataOf_congr (hL _ h1)]; exact h2⟩
      magic := by
        intro h1
        rw [hnn] at h1
        rw [hfb, dataOf_congr (hL _ hfbL)]
        exact h.magic h1
      cut := hseg
      cut_nodup := hnd
      cut_disj := fun y hy => h.cut_disj y (hsub y hy)
      cut_top := htop
      cut_bot := hbot }

/-! ## Pasting, with the size, the numbers and the cursor -/

/-- What `copy_from_buffer` leaves, in full: the buffer, its text, its size,
the line numbers and the cursor. -/
theorem copy_from_buffer_post {s : State} {A B Src : List Nat} {somebuffer : Nat}
    (h : IngraftPre s A B Src somebuffer) :
    ∃ (t : State) (C M : List Nat), copy_from_buffer s somebuffer = some t ∧
      Buf t (A ++ C ++ B ++ M) ∧ C.length = Src.length ∧ C.getLast? = some t.current ∧
      (∃ T, buffer_text s = some T ∧ buffer_text t = some
        (pasteText T A.length s.current_x (Src.map (dataOf s.heap)) s.NO_NEWLINES)) ∧
      t.totsize = s.totsize + textSize (Src.map (dataOf s.heap)) + M.length ∧
      (∀ y, y ∈ A → linenoAt t.heap y = linenoAt s.heap y) ∧
      Numbered t.heap (lastNumber s.heap A) (C ++ B ++ M) ∧
      (∀ y, y ∈ Src → t.heap y = s.heap y) ∧
      (∀ m, t.mark = some m → (t.heap m).isSome) ∧
      t.current_x = (if Src.length = 1 then s.current_x else 0) +
        ((Src.map (dataOf s.heap)).getLast?.getD []).length ∧
      t = { s with heap := t.heap, brk := t.brk, filetop := t.filetop, filebot := t.filebot,
                   edittop := t.edittop, current := t.current, current_x := t.current_x,
                   mark := t.mark, mark_x := t.mark_x, totsize := t.totsize,
                   filepart := none } := by
  obtain ⟨rest, hSrc⟩ := eq_cons_of_head? h.src_head
  have hSlt : ∀ y, y ∈ Src → y < s.brk := by
    intro y hy
    by_contra hge
    obtain ⟨n, hn⟩ := h.src.live hy
    rw [h.buf.fresh y (Nat.le_of_not_lt hge)] at hn
    cases hn
  obtain ⟨hcopy, hsegC, hdataC, hframeC⟩ := @copy_buffer_spec s somebuffer
    rest none (by rw [← hSrc]; exact h.src) (by rw [← hSrc]; exact h.src_nodup)
    (by rw [← hSrc]; exact hSlt)
  obtain ⟨Hc, hHc⟩ : ∃ Hc : Heap, Hc = copyHeap s.heap s.brk somebuffer rest := ⟨_, rfl⟩
  rw [← hHc] at hcopy hsegC hdataC hframeC
  rw [← hSrc] at hdataC
  obtain ⟨C, hC⟩ : ∃ C : List Nat, C = List.range' s.brk (rest.length + 1) := ⟨_, rfl⟩
  rw [← hC] at hsegC hdataC
  have hClen : C.length = Src.length := by rw [hC, hSrc]; simp
  have hCge : ∀ y, y ∈ C → s.brk ≤ y := by
    intro y hy
    rw [hC, List.mem_range'_1] at hy
    exact hy.1
  have hbuflt : ∀ y, y ∈ A ++ [s.current] ++ B → y < s.brk := fun y hy => h.buf.lt_brk hy
  have hpre1 : IngraftPre { s with heap := Hc, brk := s.brk + (rest.length + 1) } A B C s.brk :=
    { buf :=
        { nodup := h.buf.nodup
          seg := Seg.frame (fun y hy => linksAt_congr (hframeC y (Or.inl (hbuflt y hy))))
            h.buf.seg
          top := h.buf.top
          bot := h.buf.bot
          fresh := by
            intro y hy
            show Hc y = none
            rw [hframeC y (Or.inr hy)]
            exact h.buf.fresh y (le_trans (Nat.le_add_right _ _) hy) }
      x_le := by
        show s.current_x ≤ (dataOf Hc s.current).length
        rw [dataOf_congr (hframeC _ (Or.inl (hbuflt _ (by simp))))]
        exact h.x_le
      mark := by
        intro m hm
        show (Hc m).isSome
        have hl := h.mark m hm
        have hlt : m < s.brk := by
          by_contra hge
          rw [h.buf.fresh m (Nat.le_of_not_lt hge)] at hl
          simp at hl
        rw [hframeC m (Or.inl hlt)]
        exact hl
      src := hsegC
      src_nodup := by rw [hC]; exact List.nodup_range' _ _
      src_disj := by
        intro y hy hm
        have h1 := hCge y hy
        have h2 := hbuflt y hm
        omega
      src_head := by rw [hC]; rfl }
  obtain ⟨t, M, hrun, hpost⟩ := ingraft_buffer_spec hpre1
  have hrun2 : copy_from_buffer s somebuffer = some t := by
    unfold copy_from_buffer
    rw [hcopy]
    exact hrun
  have hMmem : ∀ y, y ∈ M → y = s.brk + (rest.length + 1) := by
    intro y hy
    rcases hpost.magic with e | e
    · rw [e] at hy; cases hy
    · rw [e] at hy; simpa using hy
  have hsrcframe : ∀ y, y ∈ Src → t.heap y = s.heap y := by
    intro y hy
    have hlt := hSlt y hy
    have h1 : y ∉ A ++ [s.current] ++ B ++ C ++ M := by
      intro hm
      rcases List.mem_append.1 hm with h2 | h2
      · rcases List.mem_append.1 h2 with h3 | h3
        · exact h.src_disj y hy h3
        · have := hCge y h3; omega
      · have := hMmem y h2; omega
    rw [hpost.frame y h1]
    exact hframeC y (Or.inl hlt)
  have hbt := hpost.paste_text hpre1
  have hrest := hpost.rest
  have hAframe : ∀ y, y ∈ A → Hc y = s.heap y := fun y hy =>
    hframeC y (Or.inl (hbuflt y (by simp [hy])))
  refine ⟨t, C, M, hrun2, hpost.buf, hClen, hpost.cursor, ?_, ?_, ?_, ?_, hsrcframe,
    hpost.mark, ?_, ?_⟩
  · obtain ⟨T, hT1, hT2⟩ := hbt
    refine ⟨T, ?_, ?_⟩
    · rw [← hT1]
      have e := h.buf.text
      have e1 := hpre1.buf.text
      rw [e]
      rw [e1]
      congr 1
      exact map_congr_mem (fun y hy =>
        (dataOf_congr (hframeC y (Or.inl (hbuflt y hy)))).symm)
    · rw [hT2, hdataC]
  · have := hpost.totsize
    rw [hdataC] at this
    exact this
  · intro y hy
    rw [hpost.num_old y hy]
    exact linenoAt_congr (hAframe y hy)
  · have e : lastNumber Hc A = lastNumber s.heap A := lastNumber_frame hAframe
    rw [← e]
    exact hpost.num_new
  · have e : (Src.map (dataOf s.heap)).getLast?.getD [] = dataOf Hc t.current := by
      rw [← hdataC, getLast?_map', hpost.cursor]
      rfl
    rw [e, hpost.cursor_x, hClen]
  · rw [hrest]

/-- What `do_uncut_text` leaves when the cutbuffer is the list `Src`. -/
theorem do_uncut_text_post {s : State} {A B Src : List Nat} {somebuffer : Nat}
    (h : IngraftPre s A B Src somebuffer) (hcb : s.cutbuffer = some somebuffer) :
    ∃ (t : State) (C M : List Nat), do_uncut_text s = some t ∧
      Buf t (A ++ C ++ B ++ M) ∧ C.length = Src.length ∧ C.getLast? = some t.current ∧
      (∃ T, buffer_text s = some T ∧ buffer_text t = some
        (pasteText T A.length s.current_x (Src.map (dataOf s.heap)) s.NO_NEWLINES)) ∧
      t.totsize = s.totsize + textSize (Src.map (dataOf s.heap)) + M.length ∧
      (∀ y, y ∈ A → linenoAt t.heap y = linenoAt s.heap y) ∧
      Numbered t.heap (lastNumber s.heap A) (C ++ B ++ M) ∧
      (∀ y, y ∈ Src → t.heap y = s.heap y) ∧
      t.current_x = (if Src.length = 1 then s.current_x else 0) +
        ((Src.map (dataOf s.heap)).getLast?.getD []).length ∧
      t.cutbuffer = s.cutbuffer ∧ t.keep_cutbuffer = s.keep_cutbuffer ∧
      t.NO_NEWLINES = s.NO_NEWLINES := by
  obtain ⟨c, hc⟩ := Option.isSome_iff_exists.1 (h.buf.mem_live (x := s.current) (by simp))
  obtain ⟨u, older, hsa⟩ := add_undo_eq hc undo_type.PASTE
  obtain ⟨sa, hsadef⟩ : ∃ sa : State, sa =
      { s with undotop := u :: older, current_undo := some 0,
               last_action := undo_type.PASTE } := ⟨_, rfl⟩
  rw [← hsadef] at hsa
  have hpa : IngraftPre sa A B Src somebuffer := by
    rw [hsadef]
    exact h.of_fields rfl rfl rfl rfl rfl rfl rfl
  obtain ⟨t1, C, M, hrun, hbuf, hlen, hcur, ⟨T, hT1, hT2⟩, htot, hnumA, hnum, hframe, hmark,
    hcx, hrest⟩ := copy_from_buffer_post hpa
  obtain ⟨c1, hc1⟩ := Option.isSome_iff_exists.1
    (hbuf.mem_live (x := t1.current)
      (by
        have := List.mem_of_getLast?_eq_some hcur
        simp [this]))
  have hcu : t1.current_undo = some 0 := by rw [hrest, hsadef]
  have hut0 : t1.undotop = u :: older := by rw [hrest, hsadef]
  have hut : t1.undotop[0]? = some u := by rw [hut0]; simp
  obtain ⟨ut, u1, ht2, -⟩ := update_undo_eq hc1 hcu hut undo_type.PASTE
  have hrun2 : do_uncut_text s = some
      (set_modified { t1 with undotop := ut, current_undo := some 0 }) := by
    unfold do_uncut_text
    rw [hcb]
    simp only [hsa, hrun, ht2]
  have hbt : ∀ a b : State, a.heap = b.heap → a.brk = b.brk → a.filetop = b.filetop →
      buffer_text a = buffer_text b := by
    intro a b e1 e2 e3
    unfold buffer_text
    rw [e1, e2, e3]
  refine ⟨_, C, M, hrun2, ?_, hlen, hcur, ⟨T, ?_, ?_⟩, ?_, ?_, ?_, ?_, ?_, ?_, ?_, ?_⟩
  · exact
      { nodup := hbuf.nodup
        seg := hbuf.seg
        top := hbuf.top
        bot := hbuf.bot
        fresh := hbuf.fresh }
  · rw [← hT1]
    exact hbt _ _ (by rw [hsadef]) (by rw [hsadef]) (by rw [hsadef])
  · have e : buffer_text (set_modified { t1 with undotop := ut, current_undo := some 0 }) =
        buffer_text t1 := hbt _ _ rfl rfl rfl
    rw [e, hT2, hsadef]
  · show t1.totsize = _
    rw [htot, hsadef]
  · intro y hy
    show linenoAt t1.heap y = _
    rw [hnumA y hy, hsadef]
  · have := hnum
    rw [hsadef] at this
    exact this
  · intro y hy
    show t1.heap y = _
    rw [hframe y hy, hsadef]
  · show t1.current_x = _
    rw [hcx, hsadef]
  · show t1.cutbuffer = _
    rw [hrest, hsadef]
  · show t1.keep_cutbuffer = _
    rw [hrest, hsadef]
  · show t1.NO_NEWLINES = _
    rw [hrest, hsadef]

/-! ## Pasting back what was cut -/

/-- Putting the text of a range back where it was taken out gives the lines
that were there. -/
theorem insertText_rangeText {Rd : List (List Nat)} {dt db : List Nat} {top_x bot_x : Nat}
    (hh : Rd.head? = some dt) (hl : Rd.getLast? = some db)
    (ht : top_x ≤ dt.length) (hb : bot_x ≤ db.length) (h1 : Rd.length = 1 → top_x ≤ bot_x) :
    insertText (dt.take top_x ++ db.drop bot_x) top_x (rangeText Rd top_x bot_x) = Rd := by
  have hc1 : (dt.take top_x ++ db.drop bot_x).take top_x = dt.take top_x := by
    rw [List.take_append_of_le_length (by simp [ht])]
    simp
  have hc2 : (dt.take top_x ++ db.drop bot_x).drop top_x = db.drop bot_x := by
    rw [List.drop_append_of_le_length (by simp [ht])]
    simp [ht]
  cases Rd with
  | nil => simp at hh
  | cons d R1 =>
    simp only [List.head?_cons, Option.some.injEq] at hh
    subst hh
    rcases List.eq_nil_or_concat R1 with e | ⟨mid, e0, e⟩
    · subst e
      simp only [List.getLast?_singleton, Option.some.injEq] at hl
      subst hl
      have hle : top_x ≤ bot_x := h1 rfl
      unfold rangeText
      simp only [mapLast, mapHead]
      rw [insertText_single, hc1, hc2]
      have e1 : List.take top_x d = List.take top_x (List.take bot_x d) := by
        rw [List.take_take, Nat.min_eq_left hle]
      rw [e1, List.append_assoc, ← List.append_assoc, List.take_append_drop,
        List.take_append_drop]
    · subst e
      rw [List.concat_eq_append] at hl ⊢
      have hl2 : (d :: (mid ++ [e0])).getLast? = some e0 := by
        rw [← List.cons_append, List.getLast?_append_of_ne_nil _ (by simp)]
        rfl
      rw [hl2] at hl
      simp only [Option.some.injEq] at hl
      subst hl
      unfold rangeText
      rw [← List.cons_append, mapLast_append_singleton]
      simp only [List.cons_append, mapHead]
      rw [insertText_many, hc1, hc2, List.take_append_drop, List.take_append_drop]

theorem take_append_cons_left {α : Type} (a : List α) (x : α) (b : List α) :
    (a ++ x :: b).take a.length = a := by
  simp

theorem drop_append_cons_succ {α : Type} (a : List α) (x : α) (b : List α) :
    (a ++ x :: b).drop (a.length + 1) = b := by
  induction a with
  | nil => rfl
  | cons y a ih => simp

/-- After `extract_buffer` into an empty destination, the text can be pasted
back: the state is one that `ingraft_buffer` can be called with for the lines
that were taken out. -/
theorem ExtractPost.ingraftPre {s0 t s1 : State} {A R B M E : List Nat} {ft fb fbo : Option Nat}
    {top top_x bot bot_x : Nat}
    (hpre : ExtractPre s0 A R B [] none fbo top top_x bot bot_x)
    (hp : ExtractPost s0 t A R B [] top_x bot_x M E ft fb)
    (hh : s1.heap = t.heap) (hb : s1.brk = t.brk) (hft : s1.filetop = t.filetop)
    (hfb : s1.filebot = t.filebot) (hc : s1.current = t.current)
    (hx : s1.current_x = t.current_x) (hm : s1.mark = t.mark ∨ s1.mark = none) :
    IngraftPre s1 A (B ++ M) R top := by
  have hE : E = R := by
    have := hp.dest_shape
    simpa using this
  have hcur : t.current = s0.brk := by rw [hp.rest]
  have hcx : t.current_x = top_x := by rw [hp.rest]
  have hlist : A ++ [s1.current] ++ (B ++ M) = A ++ [s0.brk] ++ B ++ M := by
    rw [hc, hcur]
    simp
  have hlt : ∀ y, y ∈ A ++ R ++ B → y < s0.brk := fun y hy => hpre.buf.lt_brk hy
  exact
    { buf :=
        { nodup := by rw [hlist]; exact hp.buf.nodup
          seg := by rw [hlist, hh]; exact hp.buf.seg
          top := by rw [hlist, hft]; exact hp.buf.top
          bot := by rw [hlist, hfb]; exact hp.buf.bot
          fresh := by rw [hh, hb]; exact hp.buf.fresh }
      x_le := by
        rw [hx, hh, hc, hcx, hcur, hp.data_new top bot hpre.head hpre.last]
        simp only [List.length_append, List.length_take]
        have := hpre.top_le
        omega
      mark := by
        intro m hm1
        rw [hh]
        rcases hm with e | e
        · rw [e] at hm1
          rcases hp.mark with e1 | e1
          · rw [e1] at hm1
            have hl := hpre.mark m hm1
            by_cases hA : m ∈ A ++ [s0.brk] ++ B ++ M
            · exact hp.buf.mem_live hA
            · by_cases hR : m ∈ R
              · obtain ⟨n, hn⟩ := hp.dest_seg.live (by rw [hE]; exact hR)
                rw [hn]; rfl
              · rw [hp.frame m (by
                  intro h1
                  simp only [List.mem_append, List.mem_singleton, List.not_mem_nil,
                    or_false] at h1 hA
                  tauto)]
                exact hl
          · rw [e1.2] at hm1
            cases hm1
            exact hp.buf.mem_live (by simp)
        · rw [e] at hm1
          cases hm1
      src := by rw [hh, ← hE]; exact hp.dest_seg
      src_nodup := by rw [← hE]; exact hp.dest_nodup
      src_disj := by
        intro y hy
        rw [hlist]
        exact hp.dest_disj y (by rw [hE]; exact hy)
      src_head := hpre.head }

/-- The magic line that `extract_buffer` adds, for a buffer that ends with an
empty line when it must end with a line separator: it is added exactly when
the range started inside a line and reached the end of the last line. -/
theorem ExtractPost.magic_extra {s0 t : State} {A R B D M E : List Nat}
    {ft fb fto fbo : Option Nat} {top top_x bot bot_x : Nat}
    (hpre : ExtractPre s0 A R B D fto fbo top top_x bot bot_x)
    (hp : ExtractPost s0 t A R B D top_x bot_x M E ft fb)
    (hmagic : s0.NO_NEWLINES = false → dataOf s0.heap s0.filebot = []) :
    M.map (dataOf t.heap) = round_trip_extra s0 top_x bot := by
  obtain ⟨hndA, hndR, hndB, hAR, hAB, hRB⟩ := nodup_parts hpre.buf.nodup
  have hbR : bot ∈ R := List.mem_of_getLast?_eq_some hpre.last
  have hRne : R ≠ [] := List.ne_nil_of_mem hbR
  have hiff : M ≠ [] ↔ (s0.NO_NEWLINES = false ∧ bot = s0.filebot ∧ 0 < top_x) := by
    rw [hp.magic_iff]
    constructor
    · rintro ⟨hnn, q, hq, hqd⟩
      by_cases hB : B = []
      · subst hB
        simp only [List.append_nil, getLast?_snoc, Option.some.injEq] at hq
        subst hq
        have hbot := hpre.buf.bot
        rw [List.append_nil, List.getLast?_append_of_ne_nil _ hRne, hpre.last] at hbot
        simp only [Option.some.injEq] at hbot
        rw [hp.data_new top bot hpre.head hpre.last, hbot, hmagic hnn] at hqd
        refine ⟨hnn, hbot, ?_⟩
        by_contra h0
        have : top_x = 0 := by omega
        subst this
        simp at hqd
      · exfalso
        rw [List.getLast?_append_of_ne_nil _ hB] at hq
        have hbot := hpre.buf.bot
        rw [List.getLast?_append_of_ne_nil _ hB, hq] at hbot
        simp only [Option.some.injEq] at hbot
        have hqB : q ∈ B := List.mem_of_getLast?_eq_some hq
        rw [hp.data_old q (by simp [hqB]), hbot, hmagic hnn] at hqd
        exact hqd rfl
    · rintro ⟨hnn, hbf, hx⟩
      have hB : B = [] := by
        by_contra hB
        have hbot := hpre.buf.bot
        rw [List.getLast?_append_of_ne_nil _ hB] at hbot
        have := List.mem_of_getLast?_eq_some hbot
        rw [← hbf] at this
        exact hRB bot hbR this
      subst hB
      refine ⟨hnn, s0.brk, by simp, ?_⟩
      rw [hp.data_new top bot hpre.head hpre.last]
      intro e
      have hlen := congrArg List.length e
      simp only [List.length_append, List.length_take, List.length_drop, List.length_nil]
        at hlen
      have := hpre.top_le
      omega
  unfold round_trip_extra
  by_cases hM : M = []
  · rw [if_neg (fun hc => (hiff.2 hc) hM), hM]
    rfl
  · rw [if_pos (hiff.1 hM)]
    rcases hp.magic with e | e
    · exact absurd e hM
    · rw [e]
      simp only [List.map_cons, List.map_nil]
      rw [hp.data_magic _ (by rw [e]; simp)]

/-! ## A cut followed by a paste -/

theorem rangeText_last_length {Rd : List (List Nat)} {dt db : List Nat} {top_x bot_x : Nat}
    (hh : Rd.head? = some dt) (hl : Rd.getLast? = some db)
    (hb : bot_x ≤ db.length) (h1 : Rd.length = 1 → top_x ≤ bot_x) :
    (if Rd.length = 1 then top_x else 0) +
      ((rangeText Rd top_x bot_x).getLast?.getD []).length = bot_x := by
  cases Rd with
  | nil => simp at hh
  | cons d R1 =>
    rcases List.eq_nil_or_concat R1 with e | ⟨mid, e0, e⟩
    · subst e
      simp only [List.getLast?_singleton, Option.some.injEq] at hl
      subst hl
      have hle : top_x ≤ bot_x := h1 rfl
      unfold rangeText
      simp only [mapLast, mapHead, List.length_singleton, if_true, List.getLast?_singleton,
        Option.getD_some, List.length_drop, List.length_take]
      omega
    · subst e
      rw [List.concat_eq_append] at hl ⊢
      have hl2 : (d :: (mid ++ [e0])).getLast? = some e0 := by
        rw [← List.cons_append, List.getLast?_append_of_ne_nil _ (by simp)]
        rfl
      rw [hl2] at hl
      simp only [Option.some.injEq] at hl
      subst hl
      unfold rangeText
      rw [← List.cons_append, mapLast_append_singleton]
      simp only [List.cons_append, mapHead]
      have hl3 : (List.drop top_x d :: (mid ++ [List.take bot_x e0])).getLast? =
          some (List.take bot_x e0) := by
        rw [← List.cons_append, List.getLast?_append_of_ne_nil _ (by simp)]
        rfl
      rw [hl3]
      simp only [List.length_cons, List.length_append, List.length_singleton, Option.getD_some,
        List.length_take]
      rw [if_neg (by omega)]
      omega

theorem buffer_text_congr {a b : State} (e1 : a.heap = b.heap) (e2 : a.brk = b.brk)
    (e3 : a.filetop = b.filetop) : buffer_text a = buffer_text b := by
  unfold buffer_text
  rw [e1, e2, e3]

/-- The heart of the round trip: after `extract_buffer` has moved a range into
an empty cutbuffer, `do_uncut_text` puts the lines back; the buffer gets its
text again, followed by the empty line of `round_trip_extra`, the cursor is at
the end of what was pasted, and the cutbuffer still holds the range. -/
theorem cut_then_paste {s0 t s1 : State} {A R B M E : List Nat} {ft fb fbo : Option Nat}
    {top top_x bot bot_x : Nat}
    (hpre : ExtractPre s0 A R B [] none fbo top top_x bot bot_x)
    (hp : ExtractPost s0 t A R B [] top_x bot_x M E ft fb)
    (hmagic : s0.NO_NEWLINES = false → dataOf s0.heap s0.filebot = [])
    (hh : s1.heap = t.heap) (hb : s1.brk = t.brk) (hft : s1.filetop = t.filetop)
    (hfb : s1.filebot = t.filebot) (hc : s1.current = t.current)
    (hx : s1.current_x = t.current_x) (hm : s1.mark = t.mark ∨ s1.mark = none)
    (hnn : s1.NO_NEWLINES = t.NO_NEWLINES) (htot : s1.totsize = t.totsize)
    (hcb : s1.cutbuffer = ft) :
    ∃ t2, do_uncut_text s1 = some t2 ∧
      buffer_text t2 = some
        ((A ++ R ++ B).map (dataOf s0.heap) ++ round_trip_extra s0 top_x bot) ∧
      (textSize (rangeText (R.map (dataOf s0.heap)) top_x bot_x) ≤ s0.totsize →
        t2.totsize = s0.totsize + (round_trip_extra s0 top_x bot).length) ∧
      linenoAt t2.heap t2.current = some (lastNumber s0.heap A + R.length) ∧
      t2.current_x = bot_x ∧
      text_from t2 t2.cutbuffer = some (rangeText (R.map (dataOf s0.heap)) top_x bot_x) ∧
      t2.keep_cutbuffer = s1.keep_cutbuffer := by
  obtain ⟨hndA, hndR, hndB, hAR, hAB, hRB⟩ := nodup_parts hpre.buf.nodup
  have hE : E = R := by
    have := hp.dest_shape
    simpa using this
  have hft1 : ft = some top := by rw [hp.dest_top, hE, hpre.head]
  have hcb1 : s1.cutbuffer = some top := by rw [hcb, hft1]
  have hI := hp.ingraftPre hpre hh hb hft hfb hc hx hm
  obtain ⟨t2, C, M2, hrun, hbuf2, hlen, hcur, ⟨T1, hT1, hT2⟩, htot2, hnumA, hnum, hframe, hcx,
    hcut2, hkeep2, hnn2⟩ := do_uncut_text_post hI hcb1
  have htx : t.current_x = top_x := by rw [hp.rest]
  have htnn : t.NO_NEWLINES = s0.NO_NEWLINES := by rw [hp.rest]
  -- the text of the lines that were cut
  have hRdata : R.map (dataOf s1.heap) = rangeText (R.map (dataOf s0.heap)) top_x bot_x := by
    have := hp.dest_text
    rw [hE] at this
    rw [hh, this]
    exact appendText_nil_left _
  have hRd1 : (R.map (dataOf s0.heap)).head? = some (dataOf s0.heap top) := by
    rw [List.head?_map, hpre.head]
    rfl
  have hRd2 : (R.map (dataOf s0.heap)).getLast? = some (dataOf s0.heap bot) := by
    rw [getLast?_map', hpre.last]
    rfl
  have hone : (R.map (dataOf s0.heap)).length = 1 → top_x ≤ bot_x := by
    intro hl
    rw [List.length_map] at hl
    exact le_of_lt (hpre.nonempty ((head_eq_last_iff hndR hpre.head hpre.last).2 hl))
  -- the text before the paste
  have e1 : A.map (dataOf t.heap) = A.map (dataOf s0.heap) :=
    map_congr_mem (fun y hy => hp.data_old y (by simp [hy]))
  have e2 : B.map (dataOf t.heap) = B.map (dataOf s0.heap) :=
    map_congr_mem (fun y hy => hp.data_old y (by simp [hy]))
  have e3 := hp.data_new top bot hpre.head hpre.last
  have e4 := hp.magic_extra hpre hmagic
  have hT1eq : T1 = A.map (dataOf s0.heap) ++
      ((dataOf s0.heap top).take top_x ++ (dataOf s0.heap bot).drop bot_x) ::
        (B.map (dataOf s0.heap) ++ round_trip_extra s0 top_x bot) := by
    have h1 : buffer_text s1 = buffer_text t := buffer_text_congr hh hb hft
    rw [h1, hp.buf.text] at hT1
    have h2 := Option.some.inj hT1
    rw [← h2]
    simp only [List.map_append, List.map_cons, List.map_nil, e1, e2, e3, e4, List.append_assoc,
      List.singleton_append, List.cons_append, List.nil_append]
  have hlast0 : s0.NO_NEWLINES = false →
      ((A ++ R ++ B).map (dataOf s0.heap)).getLast? = some [] := by
    intro h0
    rw [getLast?_map', hpre.buf.bot]
    show some (dataOf s0.heap s0.filebot) = some []
    rw [hmagic h0]
  have hfinal : pasteText T1 A.length s1.current_x (R.map (dataOf s1.heap)) s1.NO_NEWLINES =
      (A ++ R ++ B).map (dataOf s0.heap) ++ round_trip_extra s0 top_x bot := by
    have hAlen : A.length = (A.map (dataOf s0.heap)).length := by simp
    unfold pasteText
    rw [hT1eq, hRdata, hx, htx, hnn, htnn]
    rw [getD_append_cons _ _ _ _ hAlen]
    rw [hAlen, take_append_cons_left, drop_append_cons_succ]
    rw [insertText_rangeText hRd1 hRd2 hpre.top_le hpre.bot_le hone]
    have hX : A.map (dataOf s0.heap) ++ R.map (dataOf s0.heap) ++
        (B.map (dataOf s0.heap) ++ round_trip_extra s0 top_x bot) =
        (A ++ R ++ B).map (dataOf s0.heap) ++ round_trip_extra s0 top_x bot := by
      simp
    rw [hX]
    have hno : ¬ (s0.NO_NEWLINES = false ∧
        ((A ++ R ++ B).map (dataOf s0.heap) ++ round_trip_extra s0 top_x bot).getLast? ≠
          some []) := by
      rintro ⟨h0, h1⟩
      apply h1
      unfold round_trip_extra
      split_ifs
      · simp
      · rw [List.append_nil]
        exact hlast0 h0
    rw [if_neg hno, List.append_nil]
  rw [hfinal] at hT2
  -- no second magic line
  have hM2 : M2.length = 0 := by
    have h1 := hbuf2.text
    rw [hT2] at h1
    have h2 := congrArg List.length (Option.some.inj h1)
    have h3 := congrArg List.length e4
    simp only [List.length_append, List.length_map] at h2 h3
    omega
  have hRlive : ∀ y, y ∈ R → (t2.heap y).isSome := by
    intro y hy
    rw [hframe y hy]
    obtain ⟨n, hn⟩ := hI.src.live hy
    rw [hn]
    rfl
  have hsegR : Seg t2.heap none R none :=
    Seg.frame (fun y hy => linksAt_congr (hframe y hy)) hI.src
  have hRlt : ∀ y, y ∈ R → y < t2.brk := by
    intro y hy
    by_contra hge
    have := hRlive y hy
    rw [hbuf2.fresh y (Nat.le_of_not_lt hge)] at this
    simp at this
  refine ⟨t2, hrun, hT2, ?_, ?_, ?_, ?_, hkeep2⟩
  · intro hle
    rw [htot2, hRdata, htot, hp.totsize, hM2]
    have h3 := congrArg List.length e4
    simp only [List.length_map] at h3
    omega
  · have hk : lastNumber s1.heap A = lastNumber s0.heap A := by
      rw [hh]
      exact lastNumber_congr (fun y hy => hp.num_old y hy)
        (fun y hy => hpre.buf.mem_live (by simp [hy]))
        (fun y hy => hp.buf.mem_live (by simp [hy]))
    rw [hk] at hnum
    have hnumC : Numbered t2.heap (lastNumber s0.heap A) C := by
      have e : C ++ (B ++ M) ++ M2 = C ++ ((B ++ M) ++ M2) := by simp
      rw [e, Numbered.append_iff] at hnum
      exact hnum.1
    rw [hnumC.getLast hcur, hlen]
  · rw [hcx, hRdata, hx, htx]
    have := @rangeText_last_length (R.map (dataOf s0.heap)) _ _ top_x bot_x hRd1 hRd2
      hpre.bot_le hone
    rw [List.length_map] at this
    exact this
  · rw [hcut2, hcb1, ← hpre.head, text_from_list hsegR hndR hRlt]
    congr 1
    rw [← hRdata]
    exact map_congr_mem (fun y hy => dataOf_congr ((hframe y hy).trans rfl))

/-! ## The cutting functions and the range that they take -/

theorem mark_order_congr {s s0 : State} (hc : s0.current = s.current)
    (hx : s0.current_x = s.current_x) (hm : s0.mark = s.mark) (hmx : s0.mark_x = s.mark_x)
    (hhc : s0.heap s.current = s.heap s.current)
    (hhm : ∀ m, s.mark = some m → s0.heap m = s.heap m) : mark_order s0 = mark_order s := by
  unfold mark_order
  rw [hm, hc, hx, hmx, hhc]
  cases hmk : s.mark with
  | none => rfl
  | some m =>
    simp only [bind, Option.bind]
    rw [hhm m hmk]

theorem cut_range_congr {s s0 : State} (cut_till_eof : Bool) (hc : s0.current = s.current)
    (hx : s0.current_x = s.current_x) (hfb : s0.filebot = s.filebot)
    (hm : s0.mark = s.mark) (hmx : s0.mark_x = s.mark_x)
    (hcfc : s0.CUT_FROM_CURSOR = s.CUT_FROM_CURSOR)
    (hhc : s0.heap s.current = s.heap s.current) (hhf : s0.heap s.filebot = s.heap s.filebot)
    (hhm : ∀ m, s.mark = some m → s0.heap m = s.heap m) :
    cut_range s0 cut_till_eof = cut_range s cut_till_eof := by
  unfold cut_range
  rw [mark_order_congr hc hx hm hmx hhc hhm, hc, hx, hfb, hm, hcfc, hhc, hhf]

/-- The cutting function that `do_cut_text` chooses calls `extract_buffer`
with the range `cut_range`, and `do_cut_text` turns the mark off after
`cut_marked`. -/
theorem do_cut_text_move_eq (s : State) (cut_till_eof : Bool) {top top_x bot bot_x : Nat}
    (hr : cut_range s cut_till_eof = some (top, top_x, bot, bot_x)) :
    ∃ rsu, do_cut_text_move s cut_till_eof =
      match extract_to_cutbuffer s top top_x bot bot_x with
      | none => none
      | some s1 =>
        some (if cut_till_eof = false ∧ s.mark ≠ none then { s1 with mark := none } else s1,
          rsu) := by
  unfold cut_range at hr
  unfold do_cut_text_move
  by_cases he : cut_till_eof = true
  · rw [if_pos he] at hr ⊢
    unfold cut_to_eof
    cases hfb : s.heap s.filebot with
    | none => rw [hfb] at hr; cases hr
    | some fb =>
      rw [hfb] at hr
      simp only [Option.some.injEq, Prod.mk.injEq] at hr
      obtain ⟨rfl, rfl, rfl, rfl⟩ := hr
      refine ⟨true, ?_⟩
      have e : ¬ (cut_till_eof = false ∧ s.mark ≠ none) := fun h => by simp [he] at h
      cases hx : extract_to_cutbuffer s s.current s.current_x s.filebot fb.data.length <;>
        simp only [hx, if_neg e]
  · rw [if_neg he] at hr ⊢
    have he2 : cut_till_eof = false := by simpa using he
    by_cases hm : s.mark ≠ none
    · rw [if_pos hm] at hr ⊢
      unfold cut_marked
      cases hmo : mark_order s with
      | none => rw [hmo] at hr; cases hr
      | some r =>
        obtain ⟨a, b, c, d, rsu⟩ := r
        rw [hmo] at hr
        simp only [Option.some.injEq, Prod.mk.injEq] at hr
        obtain ⟨rfl, rfl, rfl, rfl⟩ := hr
        refine ⟨rsu, ?_⟩
        simp only [if_pos (And.intro he2 hm)]
        cases extract_to_cutbuffer s a b c d <;> rfl
    · rw [if_neg hm] at hr ⊢
      have e : ¬ (cut_till_eof = false ∧ s.mark ≠ none) := fun h => hm h.2
      simp only [if_neg e]
      refine ⟨true, ?_⟩
      cases hcur : s.heap s.current with
      | none => rw [hcur] at hr; cases hr
      | some c =>
        rw [hcur] at hr
        simp only at hr
        by_cases hcfc : s.CUT_FROM_CURSOR = true
        · rw [if_pos hcfc] at hr ⊢
          unfold cut_to_eol
          rw [hcur]
          simp only
          by_cases hlt : s.current_x < c.data.length
          · rw [if_pos hlt] at hr ⊢
            simp only [Option.some.injEq, Prod.mk.injEq] at hr
            obtain ⟨rfl, rfl, rfl, rfl⟩ := hr
            cases extract_to_cutbuffer s s.current s.current_x s.current c.data.length <;> rfl
          · rw [if_neg hlt] at hr ⊢
            by_cases hfb : s.current ≠ s.filebot
            · rw [if_pos hfb] at hr ⊢
              cases hnx : c.next with
              | none => rw [hnx] at hr; cases hr
              | some nx =>
                rw [hnx] at hr
                simp only [Option.some.injEq, Prod.mk.injEq] at hr ⊢
                obtain ⟨rfl, rfl, rfl, rfl⟩ := hr
                cases extract_to_cutbuffer s s.current s.current_x nx 0 <;> rfl
            · rw [if_neg hfb] at hr ⊢
              simp only [Option.some.injEq, Prod.mk.injEq] at hr
              obtain ⟨rfl, rfl, rfl, rfl⟩ := hr
              have : extract_to_cutbuffer s s.current s.current_x s.current s.current_x =
                  some s := by
                unfold extract_to_cutbuffer extract_buffer
                rw [if_pos ⟨rfl, rfl⟩]
              rw [this]
        · rw [if_neg hcfc] at hr ⊢
          unfold cut_line
          rw [hcur]
          simp only
          by_cases hfb : s.current ≠ s.filebot
          · rw [if_pos hfb] at hr ⊢
            cases hnx : c.next with
            | none => rw [hnx] at hr; cases hr
            | some nx =>
              rw [hnx] at hr
              simp only [Option.some.injEq, Prod.mk.injEq] at hr ⊢
              obtain ⟨rfl, rfl, rfl, rfl⟩ := hr
              cases extract_to_cutbuffer s s.current 0 nx 0 <;> rfl
          · rw [if_neg hfb] at hr ⊢
            simp only [Option.some.injEq, Prod.mk.injEq] at hr
            obtain ⟨rfl, rfl, rfl, rfl⟩ := hr
            cases extract_to_cutbuffer s s.current 0 s.current c.data.length <;> rfl

theorem CutPre.extractPre {s : State} {L D A R B : List Nat} {top top_x bot bot_x : Nat}
    (h : CutPre s L D) (hL : L = A ++ R ++ B) (hhead : R.head? = some top)
    (hlast : R.getLast? = some bot) (ht : top_x ≤ (dataOf s.heap top).length)
    (hb : bot_x ≤ (dataOf s.heap bot).length) (hne : top = bot → top_x < bot_x) :
    ExtractPre s A R B D s.cutbuffer s.cutbottom top top_x bot bot_x where
  buf := hL ▸ h.buf
  head := hhead
  last := hlast
  top_le := ht
  bot_le := hb
  nonempty := hne
  edittop := h.edittop
  mark := fun m hm => h.buf.mem_live (h.mark m hm).1
  dest := h.cut
  dest_nodup := h.cut_nodup
  dest_disj := hL ▸ h.cut_disj
  dest_top := h.cut_top
  dest_bot := h.cut_bot

theorem extract_to_cutbuffer_spec {s : State} {A R B D : List Nat}
    {top top_x bot bot_x : Nat}
    (h : ExtractPre s A R B D s.cutbuffer s.cutbottom top top_x bot bot_x) :
    ∃ t ft fb M E, extract_to_cutbuffer s top top_x bot bot_x =
        some { t with cutbuffer := ft, cutbottom := fb } ∧
      ExtractPost s t A R B D top_x bot_x M E ft fb := by
  obtain ⟨t, ft, fb, M, E, hrun, hp⟩ := extract_buffer_spec h
  refine ⟨t, ft, fb, M, E, ?_, hp⟩
  unfold extract_to_cutbuffer
  rw [hrun]

/-! ## Where the range of a cut lies in the buffer -/

/-- A line of the buffer splits it; its `next` is the line that follows, and
it is the last line exactly when nothing follows. -/
theorem Buf.split_at {s : State} {L : List Nat} (hb : Buf s L) {c : Nat} (hc : c ∈ L) :
    ∃ A B1 n, L = A ++ c :: B1 ∧ s.heap c = some n ∧ n.next = B1.head? ∧
      (c = s.filebot ↔ B1 = []) := by
  obtain ⟨A, B1, rfl⟩ := List.append_of_mem hc
  obtain ⟨n, hn, -, hnx⟩ := linksAt_some hb.seg.links_mid
  refine ⟨A, B1, n, rfl, hn, ?_, ?_⟩
  · rw [hnx]
    exact nextOf_eq_head? B1
  · have hbot := hb.bot
    constructor
    · intro e
      by_contra hne
      have e2 : A ++ c :: B1 = (A ++ [c]) ++ B1 := by simp
      rw [e2, List.getLast?_append_of_ne_nil _ hne] at hbot
      have hm := List.mem_of_getLast?_eq_some hbot
      rw [← e] at hm
      have hnd := hb.nodup
      rw [List.nodup_append] at hnd
      exact (List.nodup_cons.1 hnd.2.1).1 hm
    · intro e
      subst e
      simp only [getLast?_snoc, Option.some.injEq] at hbot
      exact hbot

/-- In a buffer whose lines are numbered from 1, two lines in the order of
their numbers bound a range of the buffer. -/
theorem Numbered.range_of_le {h : Heap} {L : List Nat} (hn : Numbered h 0 L) (hnd : L.Nodup)
    {x y : Nat} (hx : x ∈ L) (hy : y ∈ L) {kx ky : Int} (hkx : linenoAt h x = some kx)
    (hky : linenoAt h y = some ky) (hle : kx ≤ ky) :
    ∃ A R B, L = A ++ R ++ B ∧ R.head? = some x ∧ R.getLast? = some y := by
  obtain ⟨A, L2, rfl⟩ := List.append_of_mem hx
  rw [Numbered.append_iff] at hn
  have hx1 : linenoAt h x = some ((0 : Int) + A.length + 1) := hn.2.1
  rw [hkx] at hx1
  have hkxv : kx = A.length + 1 := by
    have := Option.some.inj hx1
    rw [this]; ring
  rcases List.mem_append.1 hy with hyA | hyL
  · exfalso
    obtain ⟨j, hj, he⟩ := hn.1.mem_lineno hyA
    rw [hky] at he
    have := Option.some.inj he
    omega
  · rcases List.mem_cons.1 hyL with e | hy2
    · subst e
      exact ⟨A, [y], L2, by simp, rfl, rfl⟩
    · obtain ⟨R2, B, rfl⟩ := List.append_of_mem hy2
      refine ⟨A, x :: (R2 ++ [y]), B, by simp, rfl, ?_⟩
      rw [← List.cons_append, getLast?_snoc]

theorem linenoAt_inj_of_numbered {h : Heap} {L : List Nat} (hn : Numbered h 0 L)
    {x y : Nat} (hx : x ∈ L) (hy : y ∈ L) (he : linenoAt h x = linenoAt h y) : x = y := by
  obtain ⟨A, L2, rfl⟩ := List.append_of_mem hx
  rw [Numbered.append_iff] at hn
  have hx1 : linenoAt h x = some ((0 : Int) + A.length + 1) := hn.2.1
  rcases List.mem_append.1 hy with hyA | hyL
  · exfalso
    obtain ⟨j, hj, he2⟩ := hn.1.mem_lineno hyA
    rw [← he, hx1] at he2
    have := Option.some.inj he2
    omega
  · rcases List.mem_cons.1 hyL with e | hy2
    · exact e.symm
    · exfalso
      obtain ⟨j, hj, he2⟩ := hn.2.2.mem_lineno hy2
      rw [← he, hx1] at he2
      have := Option.some.inj he2
      omega

theorem dataOf_length_of_eq {h : Heap} {p : Nat} {n : linestruct} (hp : h p = some n) :
    (dataOf h p).length = n.data.length := by
  rw [dataOf_of_eq hp]

/-- The range of a cut lies in the buffer: the buffer is `A ++ R ++ B` with the
range running from its top line, the first of `R`, to its bottom line, the
last of `R`, and the two offsets are inside these lines and in order. -/
theorem cut_range_decomp {s : State} {L D : List Nat} (h : CutPre s L D) (cut_till_eof : Bool)
    (hnum : cut_till_eof = false → s.mark ≠ none → Numbered s.heap 0 L)
    {top top_x bot bot_x : Nat}
    (hr : cut_range s cut_till_eof = some (top, top_x, bot, bot_x)) :
    ∃ A R B, L = A ++ R ++ B ∧ R.head? = some top ∧ R.getLast? = some bot ∧
      top_x ≤ (dataOf s.heap top).length ∧ bot_x ≤ (dataOf s.heap bot).length ∧
      (top = bot → top_x ≤ bot_x) := by
  obtain ⟨A, B1, c, hL, hc, hnx, hlast⟩ := h.buf.split_at h.cur
  have hxle := h.x_le
  rw [dataOf_length_of_eq hc] at hxle
  unfold cut_range at hr
  by_cases he : cut_till_eof = true
  · rw [if_pos he] at hr
    cases hfb : s.heap s.filebot with
    | none => rw [hfb] at hr; cases hr
    | some fb =>
      rw [hfb] at hr
      simp only [Option.some.injEq, Prod.mk.injEq] at hr
      obtain ⟨rfl, rfl, rfl, rfl⟩ := hr
      refine ⟨A, s.current :: B1, [], by rw [hL]; simp, rfl, ?_, h.x_le, ?_, ?_⟩
      · have := h.buf.bot
        rw [hL, List.getLast?_append_of_ne_nil _ (by simp)] at this
        exact this
      · rw [dataOf_length_of_eq hfb]
      · intro e
        rw [e, hfb] at hc
        cases hc
        exact hxle
  · rw [if_neg he] at hr
    have he2 : cut_till_eof = false := by simpa using he
    by_cases hm : s.mark ≠ none
    · rw [if_pos hm] at hr
      obtain ⟨m, hmk⟩ := Option.ne_none_iff_exists'.1 hm
      obtain ⟨hmL, hmx⟩ := h.mark m hmk
      obtain ⟨mk, hmkn⟩ := Option.isSome_iff_exists.1 (h.buf.mem_live hmL)
      have hN := hnum he2 hm
      have hlc : linenoAt s.heap s.current = some c.lineno := linenoAt_of_eq hc
      have hlm : linenoAt s.heap m = some mk.lineno := linenoAt_of_eq hmkn
      rw [dataOf_length_of_eq hmkn] at hmx
      unfold mark_order at hr
      simp only [hmk, hc, hmkn, bind, Option.bind] at hr
      by_cases hcond : (c.lineno = mk.lineno ∧ s.current_x > s.mark_x) ∨ c.lineno > mk.lineno
      · rw [if_pos hcond] at hr
        simp only [Option.some.injEq, Prod.mk.injEq] at hr
        obtain ⟨rfl, rfl, rfl, rfl⟩ := hr
        obtain ⟨A2, R2, B2, e1, e2, e3⟩ := hN.range_of_le h.buf.nodup hmL h.cur hlm hlc
          (by rcases hcond with h1 | h1 <;> omega)
        refine ⟨A2, R2, B2, e1, e2, e3, ?_, h.x_le, ?_⟩
        · rw [dataOf_length_of_eq hmkn]; exact hmx
        · intro e
          rw [e, hc] at hmkn
          cases hmkn
          rcases hcond with h1 | h1
          · exact le_of_lt h1.2
          · omega
      · rw [if_neg hcond] at hr
        simp only [Option.some.injEq, Prod.mk.injEq] at hr
        obtain ⟨rfl, rfl, rfl, rfl⟩ := hr
        obtain ⟨A2, R2, B2, e1, e2, e3⟩ := hN.range_of_le h.buf.nodup h.cur hmL hlc hlm
          (by
            by_contra hgt
            exact hcond (Or.inr (by omega)))
        refine ⟨A2, R2, B2, e1, e2, e3, h.x_le, ?_, ?_⟩
        · rw [dataOf_length_of_eq hmkn]; exact hmx
        · intro e
          rw [← e, hc] at hmkn
          cases hmkn
          by_contra hgt
          exact hcond (Or.inl ⟨rfl, by omega⟩)
    · rw [if_neg hm, hc] at hr
      simp only at hr
      by_cases hcfc : s.CUT_FROM_CURSOR = true
      · rw [if_pos hcfc] at hr
        by_cases hlt : s.current_x < c.data.length
        · rw [if_pos hlt] at hr
          simp only [Option.some.injEq, Prod.mk.injEq] at hr
          obtain ⟨rfl, rfl, rfl, rfl⟩ := hr
          refine ⟨A, [s.current], B1, by rw [hL]; simp, rfl, rfl, h.x_le, ?_, ?_⟩
          · rw [dataOf_length_of_eq hc]
          · intro _; exact le_of_lt hlt
        · rw [if_neg hlt] at hr
          by_cases hfb : s.current ≠ s.filebot
          · rw [if_pos hfb] at hr
            cases hnx2 : c.next with
            | none => rw [hnx2] at hr; cases hr
            | some nx =>
              rw [hnx2] at hr
              simp only [Option.some.injEq, Prod.mk.injEq] at hr
              obtain ⟨rfl, rfl, rfl, rfl⟩ := hr
              rw [hnx2] at hnx
              obtain ⟨B2, hB2⟩ := eq_cons_of_head? hnx.symm
              refine ⟨A, [s.current, nx], B2, by rw [hL, hB2]; simp, rfl, rfl, h.x_le,
                Nat.zero_le _, ?_⟩
              intro e
              exfalso
              have hnd := h.buf.nodup
              rw [hL, hB2, List.nodup_append] at hnd
              have := (List.nodup_cons.1 hnd.2.1).1
              rw [e] at this
              exact this (by simp)
          · rw [if_neg hfb] at hr
            simp only [Option.some.injEq, Prod.mk.injEq] at hr
            obtain ⟨rfl, rfl, rfl, rfl⟩ := hr
            exact ⟨A, [s.current], B1, by rw [hL]; simp, rfl, rfl, h.x_le, h.x_le,
              fun _ => le_refl _⟩
      · rw [if_neg hcfc] at hr
        by_cases hfb : s.current ≠ s.filebot
        · rw [if_pos hfb] at hr
          cases hnx2 : c.next with
          | none => rw [hnx2] at hr; cases hr
          | some nx =>
            rw [hnx2] at hr
            simp only [Option.some.injEq, Prod.mk.injEq] at hr
            obtain ⟨rfl, rfl, rfl, rfl⟩ := hr
            rw [hnx2] at hnx
            obtain ⟨B2, hB2⟩ := eq_cons_of_head? hnx.symm
            refine ⟨A, [s.current, nx], B2, by rw [hL, hB2]; simp, rfl, rfl, Nat.zero_le _,
              Nat.zero_le _, fun _ => le_refl _⟩
        · rw [if_neg hfb] at hr
          simp only [Option.some.injEq, Prod.mk.injEq] at hr
          obtain ⟨rfl, rfl, rfl, rfl⟩ := hr
          refine ⟨A, [s.current], B1, by rw [hL]; simp, rfl, rfl, Nat.zero_le _, ?_,
            fun _ => Nat.zero_le _⟩
          rw [dataOf_length_of_eq hc]

/-! ## What `do_cut_text` does when it cuts -/

/-- A cut by `do_cut_text` (not copying, not appending for a zap): the
cutbuffer is cleared when the cut does not continue a line cut, and then
`extract_buffer` moves the range `cut_range` to the cutbuffer.  The state `s0`
is the state after the clearing, `D0` the cutbuffer then, and `t` the state
that `extract_buffer` leaves. -/
theorem do_cut_text_cut {s : State} {L D A R B : List Nat} {top top_x bot bot_x : Nat}
    (h : CutPre s L D) (marked cut_till_eof : Bool)
    (hr : cut_range s cut_till_eof = some (top, top_x, bot, bot_x))
    (hL : L = A ++ R ++ B) (hhead : R.head? = some top) (hlast : R.getLast? = some bot)
    (ht : top_x ≤ (dataOf s.heap top).length) (hb : bot_x ≤ (dataOf s.heap bot).length)
    (hne : top = bot → top_x < bot_x)
    (hel : s.keep_cutbuffer = false ∨ marked = true ∨ cut_till_eof = true → s.edittop ∉ D) :
    ∃ (s0 t : State) (D0 M E : List Nat) (ft fb : Option Nat),
      do_cut_text s false marked cut_till_eof false = some
        (set_modified
          { t with
              cutbuffer := ft, cutbottom := fb,
              mark := if cut_till_eof = false ∧ s.mark ≠ none then none else t.mark }) ∧
      CutPre s0 L D0 ∧
      ExtractPre s0 A R B D0 s0.cutbuffer s0.cutbottom top top_x bot bot_x ∧
      ExtractPost s0 t A R B D0 top_x bot_x M E ft fb ∧
      D0 = (if s.keep_cutbuffer = false ∨ marked = true ∨ cut_till_eof = true then [] else D) ∧
      s0.keep_cutbuffer =
        (if s.keep_cutbuffer = false ∨ marked = true ∨ cut_till_eof = true
          then (!marked && !cut_till_eof) else s.keep_cutbuffer) ∧
      (∀ y, y ∉ D → s0.heap y = s.heap y) ∧ (D0 = D → s0.heap = s.heap) ∧
      s0 = { s with heap := s0.heap, cutbuffer := s0.cutbuffer,
                    keep_cutbuffer := s0.keep_cutbuffer } := by
  have htL : top ∈ L := by rw [hL]; simp [mem_of_head? hhead]
  have hbL : bot ∈ L := by rw [hL]; simp [List.mem_of_getLast?_eq_some hlast]
  have hfbL : s.filebot ∈ L := List.mem_of_getLast?_eq_some h.buf.bot
  -- the common part: from the state after the clearing on
  have key : ∀ (s0 : State) (D0 : List Nat), CutPre s0 L D0 →
      (∀ y, y ∈ L → s0.heap y = s.heap y) →
      s0 = { s with heap := s0.heap, cutbuffer := s0.cutbuffer,
                    keep_cutbuffer := s0.keep_cutbuffer } →
      do_cut_text_clear s marked cut_till_eof false = some s0 →
      ∃ (t : State) (M E : List Nat) (ft fb : Option Nat),
        do_cut_text s false marked cut_till_eof false = some
          (set_modified
            { t with
                cutbuffer := ft, cutbottom := fb,
                mark := if cut_till_eof = false ∧ s.mark ≠ none then none else t.mark }) ∧
        ExtractPre s0 A R B D0 s0.cutbuffer s0.cutbottom top top_x bot bot_x ∧
        ExtractPost s0 t A R B D0 top_x bot_x M E ft fb := by
    intro s0 D0 h0 hheap hs0 hclear
    have hcur0 : s0.current = s.current := by rw [hs0]
    have hx0 : s0.current_x = s.current_x := by rw [hs0]
    have hfb0 : s0.filebot = s.filebot := by rw [hs0]
    have hm0 : s0.mark = s.mark := by rw [hs0]
    have hmx0 : s0.mark_x = s.mark_x := by rw [hs0]
    have hcfc0 : s0.CUT_FROM_CURSOR = s.CUT_FROM_CURSOR := by rw [hs0]
    have hr0 : cut_range s0 cut_till_eof = some (top, top_x, bot, bot_x) := by
      rw [cut_range_congr cut_till_eof hcur0 hx0 hfb0 hm0 hmx0 hcfc0 (hheap _ h.cur)
        (hheap _ hfbL) (fun m hm => hheap m (h.mark m hm).1)]
      exact hr
    have hpre0 : ExtractPre s0 A R B D0 s0.cutbuffer s0.cutbottom top top_x bot bot_x :=
      h0.extractPre hL hhead hlast (by rw [dataOf_congr (hheap _ htL)]; exact ht)
        (by rw [dataOf_congr (hheap _ hbL)]; exact hb) hne
    obtain ⟨t, ft, fb, M, E, hrun, hp⟩ := extract_to_cutbuffer_spec hpre0
    obtain ⟨rsu, hmove⟩ := do_cut_text_move_eq s0 cut_till_eof hr0
    rw [hrun] at hmove
    simp only at hmove
    refine ⟨t, M, E, ft, fb, ?_, hpre0, hp⟩
    unfold do_cut_text
    simp only [hclear, hmove, Bool.false_eq_true, if_false]
    rw [hm0]
    congr 2
    split_ifs <;> rfl
  by_cases hclr : s.keep_cutbuffer = false ∨ marked = true ∨ cut_till_eof = true
  · obtain ⟨H, hclear, hnone, hframe⟩ := do_cut_text_clear_spec h marked cut_till_eof hclr
    have hheap : ∀ y, y ∈ L → H y = s.heap y := fun y hy =>
      hframe y (fun hD => h.cut_disj y hD hy)
    have h0 : CutPre
        { s with heap := H, cutbuffer := none,
                 keep_cutbuffer := !marked && !cut_till_eof } L [] :=
      h.transfer hframe rfl rfl rfl
        (by
          show (H s.edittop).isSome
          rw [hframe _ (hel hclr)]
          exact h.edittop)
        rfl rfl rfl rfl rfl trivial
        List.nodup_nil (fun y hy => absurd hy (List.not_mem_nil y)) rfl
        (fun hc => absurd rfl hc)
    obtain ⟨t, M, E, ft, fb, hrun, hpre0, hp⟩ := key _ [] h0 hheap rfl hclear
    refine ⟨_, t, [], M, E, ft, fb, hrun, h0, hpre0, hp, ?_, ?_, hframe, ?_, rfl⟩
    · rw [if_pos hclr]
    · rw [if_pos hclr]
    · intro e
      have hD : D = [] := e.symm
      funext y
      exact hframe y (by rw [hD]; exact List.not_mem_nil y)
  · have hclear : do_cut_text_clear s marked cut_till_eof false = some s := by
      unfold do_cut_text_clear
      rw [if_neg (fun hc => hclr hc.2)]
    obtain ⟨t, M, E, ft, fb, hrun, hpre0, hp⟩ := key s D h (fun _ _ => rfl) rfl hclear
    refine ⟨s, t, D, M, E, ft, fb, hrun, h, hpre0, hp, ?_, ?_, fun _ _ => rfl, fun _ => rfl,
      rfl⟩
    · rw [if_neg hclr]
    · rw [if_neg hclr]

/-! ## The cutting commands -/

/-- `do_cut_text` (not copying, not appending for a zap), as a `CutRun`. -/
theorem do_cut_text_run {s : State} {L D A R B : List Nat} {top top_x bot bot_x : Nat}
    (h : CutPre s L D) (marked cut_till_eof : Bool)
    (hr : cut_range s cut_till_eof = some (top, top_x, bot, bot_x))
    (hL : L = A ++ R ++ B) (hhead : R.head? = some top) (hlast : R.getLast? = some bot)
    (ht : top_x ≤ (dataOf s.heap top).length) (hb : bot_x ≤ (dataOf s.heap bot).length)
    (hne : top = bot → top_x < bot_x)
    (hel : s.keep_cutbuffer = false ∨ marked = true ∨ cut_till_eof = true → s.edittop ∉ D) :
    ∃ (s0 t s3 : State) (D0 M E : List Nat) (ft fb : Option Nat),
      do_cut_text s false marked cut_till_eof false = some s3 ∧
      CutRun s s0 t s3 L D0 A R B M E ft fb top top_x bot bot_x ∧
      D0 = (if s.keep_cutbuffer = false ∨ marked = true ∨ cut_till_eof = true then [] else D) ∧
      s3.keep_cutbuffer =
        (if s.keep_cutbuffer = false ∨ marked = true ∨ cut_till_eof = true
          then (!marked && !cut_till_eof) else s.keep_cutbuffer) ∧
      s3.mark = (if cut_till_eof = false ∧ s.mark ≠ none then none else t.mark) ∧
      s3.undotop = s.undotop ∧ s3.current_undo = s.current_undo ∧
      s3.last_action = s.last_action := by
  obtain ⟨s0, t, D0, M, E, ft, fb, hrun, h0, hpre, hp, hD0, hkeep, hframe, hsame, hs0⟩ :=
    do_cut_text_cut h marked cut_till_eof hr hL hhead hlast ht hb hne hel
  have hrest := hp.rest
  refine ⟨s0, t, _, D0, M, E, ft, fb, hrun, ?_, hD0, ?_, rfl, ?_, ?_, ?_⟩
  · exact
      { list := hL
        pre0 := h0
        pre := hpre
        post := hp
        heapL := fun y hy => hframe y (fun hD => h.cut_disj y hD hy)
        heapD := by
          intro y hy
          by_cases hc : s.keep_cutbuffer = false ∨ marked = true ∨ cut_till_eof = true
          · rw [hD0, if_pos hc] at hy
            cases hy
          · rw [if_neg hc] at hD0
            rw [hsame hD0]
        eq0 := by rw [hs0]
        eq4 := rfl
        mark4 := by
          show (if cut_till_eof = false ∧ s.mark ≠ none then none else t.mark) = t.mark ∨ _
          split_ifs
          · exact Or.inr rfl
          · exact Or.inl rfl }
  · show t.keep_cutbuffer = _
    rw [hrest]
    exact hkeep
  · show t.undotop = _
    rw [hrest, hs0]
  · show t.current_undo = _
    rw [hrest, hs0]
  · show t.last_action = _
    rw [hrest, hs0]

theorem update_undo_shape {s s1 : State} {a : undo_type} (h : update_undo s a = some s1) :
    s1 = { s with undotop := s1.undotop } := by
  unfold update_undo at h
  cases hi : s.current_undo with
  | none => simp [hi] at h
  | some i =>
    cases hu : s.undotop[i]? with
    | none => simp [hi, hu] at h
    | some u =>
      cases hc : s.heap s.current with
      | none => simp [hi, hu, hc] at h
      | some c =>
        simp only [hi, hu, hc, Option.some.injEq] at h
        rw [← h]

theorem CutRun.after_update_undo {s s0 t s3 s4 : State} {L D0 A R B M E : List Nat}
    {ft fb : Option Nat} {top top_x bot bot_x : Nat} {a : undo_type}
    (hc : CutRun s s0 t s3 L D0 A R B M E ft fb top top_x bot bot_x)
    (hu : update_undo s3 a = some s4) :
    CutRun s s0 t s4 L D0 A R B M E ft fb top top_x bot bot_x ∧
      s4.mark = s3.mark ∧ s4.keep_cutbuffer = s3.keep_cutbuffer := by
  have e := update_undo_shape hu
  have e3 := hc.eq4
  refine ⟨?_, by rw [e], by rw [e]⟩
  exact
    { list := hc.list
      pre0 := hc.pre0
      pre := hc.pre
      post := hc.post
      heapL := hc.heapL
      heapD := hc.heapD
      eq0 := hc.eq0
      eq4 := by
        rw [e, e3]
      mark4 := by
        have : s4.mark = s3.mark := by rw [e]
        rw [this]
        exact hc.mark4 }

theorem CutRun.before_undo {s s2 s0 t s4 : State} {L D0 A R B M E : List Nat}
    {ft fb : Option Nat} {top top_x bot bot_x : Nat}
    (hc : CutRun s2 s0 t s4 L D0 A R B M E ft fb top top_x bot bot_x)
    (e : s2 = { s with undotop := s2.undotop, current_undo := s2.current_undo,
                       last_action := s2.last_action }) :
    CutRun s s0 t s4 L D0 A R B M E ft fb top top_x bot bot_x :=
  { list := hc.list
    pre0 := hc.pre0
    pre := hc.pre
    post := hc.post
    heapL := by
      have : s2.heap = s.heap := by rw [e]
      rw [← this]
      exact hc.heapL
    heapD := by
      have : s2.heap = s.heap := by rw [e]
      rw [← this]
      exact hc.heapD
    eq0 := by
      have := hc.eq0
      rw [e] at this
      exact this
    eq4 := hc.eq4
    mark4 := hc.mark4 }

theorem CutPre.of_undo {s s2 : State} {L D : List Nat} (h : CutPre s L D)
    (e : s2 = { s with undotop := s2.undotop, current_undo := s2.current_undo,
                       last_action := s2.last_action }) : CutPre s2 L D := by
  have hh : s2.heap = s.heap := by rw [e]
  have e1 : s2.edittop = s.edittop := by rw [e]
  exact h.transfer (fun y _ => by rw [hh]) (by rw [e]) (by rw [e]) (by rw [e])
    (by rw [e1, hh]; exact h.edittop) (by rw [e]) (by rw [e]) (by rw [e]) (by rw [e])
    (by rw [e]) (by rw [hh]; exact h.cut) h.cut_nodup (fun _ hy => hy)
    (by
      have : s2.cutbuffer = s.cutbuffer := by rw [e]
      rw [this]; exact h.cut_top)
    (by
      have : s2.cutbottom = s.cutbottom := by rw [e]
      rw [this]; exact h.cut_bot)

theorem cut_range_of_undo {s s2 : State} (cut_till_eof : Bool)
    (e : s2 = { s with undotop := s2.undotop, current_undo := s2.current_undo,
                       last_action := s2.last_action }) :
    cut_range s2 cut_till_eof = cut_range s cut_till_eof := by
  have hh : s2.heap = s.heap := by rw [e]
  exact cut_range_congr cut_till_eof (by rw [e]) (by rw [e]) (by rw [e]) (by rw [e]) (by rw [e])
    (by rw [e]) (by rw [hh]) (by rw [hh]) (fun _ _ => by rw [hh])

/-- Lines 381-386 of `do_cut_text_void`: afterwards there is a current undo
record. -/
theorem do_cut_text_void_undo_spec {s : State} {c : linestruct}
    (hc : s.heap s.current = some c)
    (hundo : ∀ i, s.current_undo = some i → ∃ u, s.undotop[i]? = some u) :
    ∃ s2 i u, do_cut_text_void_undo s = some s2 ∧
      s2 = { s with undotop := s2.undotop, current_undo := s2.current_undo,
                    last_action := s2.last_action } ∧
      s2.current_undo = some i ∧ s2.undotop[i]? = some u := by
  obtain ⟨u0, older, hadd⟩ := add_undo_eq hc undo_type.CUT
  have hA : ∃ s2 i u, add_undo s undo_type.CUT = some s2 ∧
      s2 = { s with undotop := s2.undotop, current_undo := s2.current_undo,
                    last_action := s2.last_action } ∧
      s2.current_undo = some i ∧ s2.undotop[i]? = some u :=
    ⟨_, 0, u0, hadd, rfl, rfl, by simp⟩
  unfold do_cut_text_void_undo
  by_cases hla : s.last_action ≠ undo_type.CUT
  · rw [if_pos hla]
    exact hA
  · rw [if_neg hla]
    cases hi : s.current_undo with
    | none => exact hA
    | some i =>
      obtain ⟨u, hu⟩ := hundo i hi
      simp only [hu, hc]
      split_ifs
      · exact hA
      · exact ⟨s, i, u, rfl, rfl, hi, hu⟩

theorem is_cuttable_true {s s1 : State} {tc : Bool} (h : is_cuttable s tc = some (s1, true)) :
    s1 = s ∧ ∃ c, s.heap s.current = some c ∧
      ¬ ((c.next = none ∧ c.data = [] ∧ s.mark = none) ∨
        (s.mark = some s.current ∧ s.mark_x = s.current_x)) ∧
      is_cuttable_cliff s c tc = some false := by
  unfold is_cuttable at h
  cases hc : s.heap s.current with
  | none => simp [hc] at h
  | some c =>
    simp only [hc] at h
    by_cases h1 : (c.next = none ∧ c.data = [] ∧ s.mark = none) ∨
        (s.mark = some s.current ∧ s.mark_x = s.current_x)
    · rw [if_pos h1] at h
      simp at h
    · rw [if_neg h1] at h
      cases h2 : is_cuttable_cliff s c tc with
      | none => simp [h2] at h
      | some b =>
        cases b with
        | true => simp [h2] at h
        | false =>
          simp only [h2, Option.some.injEq, Prod.mk.injEq, and_true] at h
          exact ⟨h.symm, c, rfl, h1, h2⟩

theorem is_cuttable_false {s s1 : State} {tc : Bool} (h : is_cuttable s tc = some (s1, false)) :
    s1 = { s with mark := none } := by
  unfold is_cuttable at h
  cases hc : s.heap s.current with
  | none => simp [hc] at h
  | some c =>
    simp only [hc] at h
    by_cases h1 : (c.next = none ∧ c.data = [] ∧ s.mark = none) ∨
        (s.mark = some s.current ∧ s.mark_x = s.current_x)
    · rw [if_pos h1] at h
      simp only [Option.some.injEq, Prod.mk.injEq, and_true] at h
      exact h.symm
    · rw [if_neg h1] at h
      cases h2 : is_cuttable_cliff s c tc with
      | none => simp [h2] at h
      | some b =>
        cases b with
        | true =>
          simp only [h2, Option.some.injEq, Prod.mk.injEq, and_true] at h
          exact h.symm
        | false => simp [h2] at h

/-! ## The range of a cut that is not refused -/

theorem cut_range_some {s : State} {L D : List Nat} (h : CutPre s L D) (cut_till_eof : Bool) :
    ∃ r, cut_range s cut_till_eof = some r := by
  obtain ⟨A, B1, c, hL, hc, hnx, hlast⟩ := h.buf.split_at h.cur
  obtain ⟨fb, hfb⟩ := Option.isSome_iff_exists.1
    (h.buf.mem_live (List.mem_of_getLast?_eq_some h.buf.bot))
  have hnext : s.current ≠ s.filebot → ∃ nx, c.next = some nx := by
    intro hne
    cases B1 with
    | nil => exact absurd (hlast.2 rfl) hne
    | cons b B2 => exact ⟨b, by rw [hnx]; rfl⟩
  unfold cut_range
  by_cases he : cut_till_eof = true
  · rw [if_pos he, hfb]
    exact ⟨_, rfl⟩
  · rw [if_neg he]
    by_cases hm : s.mark ≠ none
    · rw [if_pos hm]
      obtain ⟨m, hmk⟩ := Option.ne_none_iff_exists'.1 hm
      obtain ⟨mk, hmkn⟩ := Option.isSome_iff_exists.1 (h.buf.mem_live (h.mark m hmk).1)
      unfold mark_order
      simp only [hmk, hc, hmkn, bind, Option.bind]
      split_ifs <;> exact ⟨_, rfl⟩
    · rw [if_neg hm, hc]
      simp only
      by_cases hcfc : s.CUT_FROM_CURSOR = true
      · rw [if_pos hcfc]
        by_cases hlt : s.current_x < c.data.length
        · rw [if_pos hlt]; exact ⟨_, rfl⟩
        · rw [if_neg hlt]
          by_cases hfb2 : s.current ≠ s.filebot
          · rw [if_pos hfb2]
            obtain ⟨nx, e⟩ := hnext hfb2
            rw [e]
            exact ⟨_, rfl⟩
          · rw [if_neg hfb2]; exact ⟨_, rfl⟩
      · rw [if_neg hcfc]
        by_cases hfb2 : s.current ≠ s.filebot
        · rw [if_pos hfb2]
          obtain ⟨nx, e⟩ := hnext hfb2
          rw [e]
          exact ⟨_, rfl⟩
        · rw [if_neg hfb2]; exact ⟨_, rfl⟩

/-- A cut by `do_cut_text_void` that `is_cuttable` lets through takes a range
that is not empty; and when no mark is set, the range does not both start
inside a line and reach the end of a buffer that ends with a magic line. -/
theorem void_range_nonempty {s s1 : State} {L D : List Nat} (h : CutPre s L D)
    (hok : is_cuttable s (s.CUT_FROM_CURSOR && s.mark.isNone) = some (s1, true))
    {top top_x bot bot_x : Nat} (hr : cut_range s false = some (top, top_x, bot, bot_x)) :
    ¬ (top = bot ∧ top_x = bot_x) ∧ (s.mark = none → round_trip_extra s top_x bot = []) := by
  obtain ⟨-, c, hc, hnot, hcliff⟩ := is_cuttable_true hok
  obtain ⟨A, B1, c', hL, hc', hnx, hlast⟩ := h.buf.split_at h.cur
  rw [hc] at hc'
  cases hc'
  have hxle := h.x_le
  rw [dataOf_length_of_eq hc] at hxle
  unfold cut_range at hr
  rw [if_neg (by simp)] at hr
  by_cases hm : s.mark ≠ none
  · rw [if_pos hm] at hr
    refine ⟨?_, fun e => absurd e hm⟩
    obtain ⟨m, hmk⟩ := Option.ne_none_iff_exists'.1 hm
    obtain ⟨mk, hmkn⟩ := Option.isSome_iff_exists.1 (h.buf.mem_live (h.mark m hmk).1)
    unfold mark_order at hr
    simp only [hmk, hc, hmkn, bind, Option.bind] at hr
    rintro ⟨e1, e2⟩
    apply hnot
    right
    split_ifs at hr
    · simp only [Option.some.injEq, Prod.mk.injEq] at hr
      obtain ⟨rfl, rfl, rfl, rfl⟩ := hr
      exact ⟨by rw [hmk, e1], e2⟩
    · simp only [Option.some.injEq, Prod.mk.injEq] at hr
      obtain ⟨rfl, rfl, rfl, rfl⟩ := hr
      exact ⟨by rw [hmk, e1], e2.symm⟩
  · have hmn : s.mark = none := by simpa using hm
    rw [if_neg hm, hc] at hr
    simp only at hr
    by_cases hcfc : s.CUT_FROM_CURSOR = true
    · rw [if_pos hcfc] at hr
      have htc : (s.CUT_FROM_CURSOR && s.mark.isNone) = true := by simp [hcfc, hmn]
      rw [htc] at hcliff
      unfold is_cuttable_cliff at hcliff
      rw [if_pos rfl] at hcliff
      by_cases hlt : s.current_x < c.data.length
      · rw [if_pos hlt] at hr
        simp only [Option.some.injEq, Prod.mk.injEq] at hr
        obtain ⟨rfl, rfl, rfl, rfl⟩ := hr
        refine ⟨fun e => by omega, fun _ => ?_⟩
        unfold round_trip_extra
        rw [if_neg]
        rintro ⟨hnn, hfb, -⟩
        have := h.magic hnn
        rw [← hfb, dataOf_of_eq hc] at this
        rw [this] at hlt
        simp at hlt
      · rw [if_neg hlt] at hr
        have hxe : s.current_x = c.data.length := by omega
        have hat : at_terminator c.data s.current_x = some true := by
          unfold at_terminator
          rw [if_neg hlt, if_pos hxe]
        rw [hat] at hcliff
        simp only at hcliff
        by_cases hfb : s.current ≠ s.filebot
        · rw [if_pos hfb] at hr
          cases hnx2 : c.next with
          | none => rw [hnx2] at hr; cases hr
          | some nx =>
            rw [hnx2] at hr
            simp only [Option.some.injEq, Prod.mk.injEq] at hr
            obtain ⟨rfl, rfl, rfl, rfl⟩ := hr
            have hseg := h.buf.seg
            rw [hL] at hseg
            obtain ⟨hnxB, m, hm1, hm2⟩ := hseg.next_info hc hnx2
            refine ⟨?_, fun _ => ?_⟩
            · rintro ⟨e, -⟩
              have hnd := h.buf.nodup
              rw [hL, List.nodup_append] at hnd
              exact (List.nodup_cons.1 hnd.2.1).1 (e ▸ hnxB)
            · unfold round_trip_extra
              rw [if_neg]
              rintro ⟨hnn, hfb2, -⟩
              rw [if_neg (by simp [hnn]), ← hfb2, hm1] at hcliff
              simp only [Option.some.injEq, decide_eq_false_iff_not] at hcliff
              exact hcliff hm2.symm
        · exfalso
          have hfb2 : s.current = s.filebot := by
            by_contra hne
            exact hfb hne
          by_cases hnn : s.NO_NEWLINES = true
          · rw [if_pos hnn] at hcliff
            simp [hfb2] at hcliff
          · have hnn2 : s.NO_NEWLINES = false := by simpa using hnn
            apply hnot
            left
            refine ⟨?_, ?_, hmn⟩
            · rw [hnx, hlast.1 hfb2]
              rfl
            · have := h.magic hnn2
              rw [← hfb2, dataOf_of_eq hc] at this
              exact this
    · rw [if_neg hcfc] at hr
      by_cases hfb : s.current ≠ s.filebot
      · rw [if_pos hfb] at hr
        cases hnx2 : c.next with
        | none => rw [hnx2] at hr; cases hr
        | some nx =>
          rw [hnx2] at hr
          simp only [Option.some.injEq, Prod.mk.injEq] at hr
          obtain ⟨rfl, rfl, rfl, rfl⟩ := hr
          have hseg := h.buf.seg
          rw [hL] at hseg
          obtain ⟨hnxB, -⟩ := hseg.next_info hc hnx2
          refine ⟨?_, fun _ => ?_⟩
          · rintro ⟨e, -⟩
            have hnd := h.buf.nodup
            rw [hL, List.nodup_append] at hnd
            exact (List.nodup_cons.1 hnd.2.1).1 (e ▸ hnxB)
          · unfold round_trip_extra
            rw [if_neg]
            rintro ⟨-, -, h0⟩
            exact Nat.lt_irrefl _ h0
      · rw [if_neg hfb] at hr
        simp only [Option.some.injEq, Prod.mk.injEq] at hr
        obtain ⟨rfl, rfl, rfl, rfl⟩ := hr
        have hfb2 : s.current = s.filebot := by
          by_contra hne
          exact hfb hne
        refine ⟨?_, fun _ => ?_⟩
        · rintro ⟨-, e⟩
          apply hnot
          left
          refine ⟨?_, List.eq_nil_of_length_eq_zero e.symm, hmn⟩
          rw [hnx, hlast.1 hfb2]
          rfl
        · unfold round_trip_extra
          rw [if_neg]
          rintro ⟨-, -, h0⟩
          exact Nat.lt_irrefl _ h0

/-- When `do_cut_till_eof` does not refuse and yet the range from the cursor
to the end of the buffer is empty, the buffer needs no magic line. -/
theorem eof_range_empty {s : State} {L D : List Nat} (h : CutPre s L D)
    (hok : do_cut_till_eof_refuses s = some false)
    {top top_x bot bot_x : Nat} (hr : cut_range s true = some (top, top_x, bot, bot_x))
    (he : top = bot ∧ top_x = bot_x) : s.NO_NEWLINES = true := by
  unfold cut_range at hr
  rw [if_pos rfl] at hr
  cases hfb : s.heap s.filebot with
  | none => rw [hfb] at hr; cases hr
  | some fb =>
    rw [hfb] at hr
    simp only [Option.some.injEq, Prod.mk.injEq] at hr
    obtain ⟨rfl, rfl, rfl, rfl⟩ := hr
    by_contra hnn
    have hnn2 : s.NO_NEWLINES = false := by simpa using hnn
    have hd := h.magic hnn2
    unfold do_cut_till_eof_refuses at hok
    rw [he.1, hfb] at hok
    rw [dataOf_of_eq hfb] at hd
    simp only [hd, and_self, if_true] at hok
    cases hok

/-! ## `do_cut_text_void` and `do_cut_till_eof` when they cut -/

theorem do_cut_text_void_run {s s1 : State} {L D : List Nat} (h : CutPre s L D)
    (hel : s.keep_cutbuffer = false ∨ s.mark ≠ none → s.edittop ∉ D)
    (hundo : ∀ i, s.current_undo = some i → ∃ u, s.undotop[i]? = some u)
    (hnum : s.mark ≠ none → Numbered s.heap 0 L)
    (hok : is_cuttable s (s.CUT_FROM_CURSOR && s.mark.isNone) = some (s1, true)) :
    ∃ (s0 t s4 : State) (D0 A R B M E : List Nat) (ft fb : Option Nat)
        (top top_x bot bot_x : Nat),
      do_cut_text_void s = some s4 ∧ cut_range s false = some (top, top_x, bot, bot_x) ∧
      CutRun s s0 t s4 L D0 A R B M E ft fb top top_x bot bot_x ∧
      D0 = (if s.keep_cutbuffer = false ∨ s.mark ≠ none then [] else D) ∧
      s4.keep_cutbuffer = s.mark.isNone ∧ s4.mark = none ∧
      (s.mark = none → round_trip_extra s top_x bot = []) ∧
      (∀ j, s4.current_undo = some j → ∃ u, s4.undotop[j]? = some u) := by
  obtain ⟨hs1, c, hc, hnot, hcliff⟩ := is_cuttable_true hok
  obtain ⟨⟨top, top_x, bot, bot_x⟩, hr⟩ := cut_range_some h false
  obtain ⟨hne, hextra⟩ := void_range_nonempty h hok hr
  obtain ⟨A, R, B, hL, hhead, hlast, ht, hb, hle⟩ :=
    cut_range_decomp h false (fun _ hm => hnum hm) hr
  have hne2 : top = bot → top_x < bot_x := fun e =>
    lt_of_le_of_ne (hle e) (fun e2 => hne ⟨e, e2⟩)
  obtain ⟨s2, i, u, hun, hs2, hi, hu⟩ := do_cut_text_void_undo_spec hc hundo
  have h2 : CutPre s2 L D := h.of_undo hs2
  have hr2 : cut_range s2 false = some (top, top_x, bot, bot_x) := by
    rw [cut_range_of_undo false hs2]; exact hr
  have hh2 : s2.heap = s.heap := by rw [hs2]
  have hm2 : s2.mark = s.mark := by rw [hs2]
  have hk2 : s2.keep_cutbuffer = s.keep_cutbuffer := by rw [hs2]
  have he2 : s2.edittop = s.edittop := by rw [hs2]
  have hmarked : s2.mark.isSome = true ↔ s.mark ≠ none := by
    rw [hm2, Option.isSome_iff_ne_none]
  obtain ⟨s0, t, s3, D0, M, E, ft, fb, hrun, hcr, hD0, hkeep, hmark3, hut3, hcu3, hla3⟩ :=
    do_cut_text_run h2 s2.mark.isSome false hr2 hL hhead hlast (by rw [hh2]; exact ht)
      (by rw [hh2]; exact hb) hne2
      (by
        intro hc2
        rw [he2]
        apply hel
        rcases hc2 with h3 | h3 | h3
        · exact Or.inl (by rw [← hk2]; exact h3)
        · exact Or.inr (hmarked.1 h3)
        · cases h3)
  have hcur3 : s3.current = s0.brk := by rw [hcr.eq4, hcr.post.rest]
  have hheap3 : s3.heap = t.heap := by rw [hcr.eq4]
  obtain ⟨c3, hc3⟩ := Option.isSome_iff_exists.1
    (hcr.post.buf.mem_live (x := s0.brk) (by simp))
  rw [← hheap3, ← hcur3] at hc3
  obtain ⟨ut, u1, hupd, hut⟩ := update_undo_eq hc3 (hcu3.trans hi) (by rw [hut3]; exact hu)
    undo_type.CUT
  obtain ⟨hcr4, hmark4, hkeep4⟩ := hcr.after_update_undo hupd
  have hrunv : do_cut_text_void s = some
      { s3 with undotop := ut, current_undo := some i } := by
    unfold do_cut_text_void
    rw [hok]
    simp only [hs1]
    rw [hun]
    simp only [hrun, hupd]
  refine ⟨s0, t, _, D0, A, R, B, M, E, ft, fb, top, top_x, bot, bot_x, hrunv, hr,
    hcr4.before_undo hs2, ?_, ?_, ?_, hextra, ?_⟩
  rotate_left 3
  · intro j hj
    cases hj
    exact ⟨u1, hut⟩
  · rw [hD0, hk2]
    by_cases hmn : s.mark = none
    · have : ¬ (s2.mark.isSome = true) := fun h3 => (hmarked.1 h3) hmn
      simp [this, hmn]
    · have : s2.mark.isSome = true := hmarked.2 hmn
      simp [this, hmn]
  · rw [hkeep4, hkeep, hk2]
    by_cases hmn : s.mark = none
    · have hf : s2.mark.isSome = false := by rw [hm2, hmn]; rfl
      rw [hf, hmn]
      by_cases hk : s.keep_cutbuffer = false
      · simp [hk]
      · have hk3 : s.keep_cutbuffer = true := by simpa using hk
        simp [hk3]
    · have htr : s2.mark.isSome = true := hmarked.2 hmn
      rw [htr]
      cases hmk : s.mark with
      | none => exact absurd hmk hmn
      | some m => simp
  · rw [hmark4, hmark3]
    by_cases hmn : s.mark = none
    · rw [if_neg (fun h3 => h3.2 (by rw [hm2]; exact hmn))]
      have hm0 : s0.mark = none := by rw [hcr.eq0, hm2, hmn]
      rcases hcr.post.mark with e | e
      · rw [e, hm0]
      · exact absurd hm0 e.1
    · rw [if_pos ⟨rfl, by rw [hm2]; exact hmn⟩]

theorem do_cut_till_eof_run {s : State} {L D : List Nat} (h : CutPre s L D)
    (hel : s.edittop ∉ D) (hok : do_cut_till_eof_refuses s = some false)
    {top top_x bot bot_x : Nat} (hr : cut_range s true = some (top, top_x, bot, bot_x))
    (hne : ¬ (top = bot ∧ top_x = bot_x)) :
    ∃ (s0 t s4 : State) (A R B M E : List Nat) (ft fb : Option Nat),
      do_cut_till_eof s = some s4 ∧
      CutRun s s0 t s4 L [] A R B M E ft fb top top_x bot bot_x ∧
      s4.keep_cutbuffer = false := by
  obtain ⟨c, hc⟩ := Option.isSome_iff_exists.1 (h.buf.mem_live h.cur)
  obtain ⟨A, R, B, hL, hhead, hlast, ht, hb, hle⟩ :=
    cut_range_decomp h true (fun e => by cases e) hr
  have hne2 : top = bot → top_x < bot_x := fun e =>
    lt_of_le_of_ne (hle e) (fun e2 => hne ⟨e, e2⟩)
  obtain ⟨u0, older, hadd⟩ := add_undo_eq hc undo_type.CUT_TO_EOF
  obtain ⟨s2, hs2d⟩ : ∃ s2 : State, s2 =
      { s with undotop := u0 :: older, current_undo := some 0,
               last_action := undo_type.CUT_TO_EOF } := ⟨_, rfl⟩
  rw [← hs2d] at hadd
  have hs2 : s2 =
      { s with
          undotop := s2.undotop, current_undo := s2.current_undo,
          last_action := s2.last_action } := by rw [hs2d]
  have hi : s2.current_undo = some 0 := by rw [hs2d]
  have hu : s2.undotop[0]? = some u0 := by rw [hs2d]; simp
  have h2 : CutPre s2 L D := h.of_undo hs2
  have hr2 : cut_range s2 true = some (top, top_x, bot, bot_x) := by
    rw [cut_range_of_undo true hs2]; exact hr
  have hh2 : s2.heap = s.heap := by rw [hs2]
  have he2 : s2.edittop = s.edittop := by rw [hs2]
  obtain ⟨s0, t, s3, D0, M, E, ft, fb, hrun, hcr, hD0, hkeep, hmark3, hut3, hcu3, hla3⟩ :=
    do_cut_text_run h2 false true hr2 hL hhead hlast (by rw [hh2]; exact ht)
      (by rw [hh2]; exact hb) hne2 (fun _ => by rw [he2]; exact hel)
  rw [if_pos (Or.inr (Or.inr rfl))] at hD0 hkeep
  subst hD0
  have hcur3 : s3.current = s0.brk := by rw [hcr.eq4, hcr.post.rest]
  have hheap3 : s3.heap = t.heap := by rw [hcr.eq4]
  obtain ⟨c3, hc3⟩ := Option.isSome_iff_exists.1
    (hcr.post.buf.mem_live (x := s0.brk) (by simp))
  rw [← hheap3, ← hcur3] at hc3
  obtain ⟨ut, u1, hupd, -⟩ := update_undo_eq hc3 (hcu3.trans hi) (by rw [hut3]; exact hu)
    undo_type.CUT_TO_EOF
  obtain ⟨hcr4, hmark4, hkeep4⟩ := hcr.after_update_undo hupd
  have hrunv : do_cut_till_eof s = some
      { s3 with undotop := ut, current_undo := some 0 } := by
    unfold do_cut_till_eof
    rw [hok]
    simp only [hadd, hrun, hupd]
  refine ⟨s0, t, _, A, R, B, M, E, ft, fb, hrunv, hcr4.before_undo hs2, ?_⟩
  rw [hkeep4, hkeep]
  rfl

/-- `do_cut_till_eof` at the very end of a buffer without magic line: nothing
is cut, the cutbuffer is left empty and the buffer is as before. -/
theorem do_cut_till_eof_nothing {s : State} {L D : List Nat} (h : CutPre s L D)
    (hok : do_cut_till_eof_refuses s = some false)
    {top top_x bot bot_x : Nat} (hr : cut_range s true = some (top, top_x, bot, bot_x))
    (he : top = bot ∧ top_x = bot_x) :
    ∃ s4, do_cut_till_eof s = some s4 ∧ do_uncut_text s4 = some s4 ∧
      buffer_text s4 = buffer_text s ∧ s4.totsize = s.totsize ∧ s4.current = s.current ∧
      s4.current_x = s.current_x ∧ linenoAt s4.heap s4.current = linenoAt s.heap s.current ∧
      s4.cutbuffer = none ∧ s4.keep_cutbuffer = false := by
  obtain ⟨c, hc⟩ := Option.isSome_iff_exists.1 (h.buf.mem_live h.cur)
  obtain ⟨u0, older, hadd⟩ := add_undo_eq hc undo_type.CUT_TO_EOF
  obtain ⟨s2, hs2d⟩ : ∃ s2 : State, s2 =
      { s with undotop := u0 :: older, current_undo := some 0,
               last_action := undo_type.CUT_TO_EOF } := ⟨_, rfl⟩
  rw [← hs2d] at hadd
  have hs2 : s2 =
      { s with
          undotop := s2.undotop, current_undo := s2.current_undo,
          last_action := s2.last_action } := by rw [hs2d]
  have h2 : CutPre s2 L D := h.of_undo hs2
  have hh2 : s2.heap = s.heap := by rw [hs2]
  obtain ⟨H, hclear, hnone, hframe⟩ := do_cut_text_clear_spec h2 false true (Or.inr (Or.inr rfl))
  have hHL : ∀ y, y ∈ L → H y = s.heap y := fun y hy => by
    rw [hframe y (fun hD => h.cut_disj y hD hy), hh2]
  obtain ⟨s0, hs0d⟩ : ∃ s0 : State, s0 =
      { s2 with heap := H, cutbuffer := none, keep_cutbuffer := !false && !true } := ⟨_, rfl⟩
  rw [← hs0d] at hclear
  have hfbL : s.filebot ∈ L := List.mem_of_getLast?_eq_some h.buf.bot
  have hr0 : cut_range s0 true = some (top, top_x, bot, bot_x) := by
    rw [← hr]
    apply cut_range_congr true
    · rw [hs0d, hs2d]
    · rw [hs0d, hs2d]
    · rw [hs0d, hs2d]
    · rw [hs0d, hs2d]
    · rw [hs0d, hs2d]
    · rw [hs0d, hs2d]
    · rw [hs0d]; exact hHL _ h.cur
    · rw [hs0d]; exact hHL _ hfbL
    · intro m hm
      rw [hs0d]
      exact hHL _ (h.mark m hm).1
  obtain ⟨rsu, hmove⟩ := do_cut_text_move_eq s0 true hr0
  have hext : extract_to_cutbuffer s0 top top_x bot bot_x = some s0 := by
    unfold extract_to_cutbuffer extract_buffer
    rw [if_pos he]
  rw [hext] at hmove
  simp only at hmove
  have hrun : do_cut_text s2 false false true false = some (set_modified s0) := by
    unfold do_cut_text
    simp only [hclear, hmove, Bool.false_eq_true, if_false]
    congr 2
  have hc0 : (set_modified s0).heap (set_modified s0).current = some c := by
    show s0.heap s0.current = some c
    rw [hs0d]
    show H s2.current = some c
    rw [hs2d]
    show H s.current = some c
    rw [hHL _ h.cur, hc]
  obtain ⟨ut, u1, hupd, -⟩ := update_undo_eq (i := 0) (u := u0) hc0 (by rw [hs0d, hs2d]; rfl)
    (by rw [hs0d, hs2d]; simp [set_modified]) undo_type.CUT_TO_EOF
  have hrunv : do_cut_till_eof s = some
      { set_modified s0 with undotop := ut, current_undo := some 0 } := by
    unfold do_cut_till_eof
    rw [hok]
    simp only [hadd, hrun, hupd]
  have hbuf4 : Buf { set_modified s0 with undotop := ut, current_undo := some 0 } L :=
    { nodup := h.buf.nodup
      seg := by
        show Seg s0.heap none L none
        rw [hs0d]
        exact Seg.frame (fun y hy => linksAt_congr (hHL y hy)) h.buf.seg
      top := by
        show L.head? = some s0.filetop
        rw [hs0d, hs2d]
        exact h.buf.top
      bot := by
        show L.getLast? = some s0.filebot
        rw [hs0d, hs2d]
        exact h.buf.bot
      fresh := by
        intro y hy
        show s0.heap y = none
        have hy2 : s.brk ≤ y := by
          have : s0.brk = s.brk := by rw [hs0d, hs2d]
          rw [← this]
          exact hy
        rw [hs0d]
        show H y = none
        by_cases hD : y ∈ D
        · exact hnone y hD
        · rw [hframe y hD, hh2]
          exact h.buf.fresh y hy2 }
  refine ⟨_, hrunv, ?_, ?_, ?_, ?_, ?_, ?_, ?_, ?_⟩
  · unfold do_uncut_text
    have : (State.cutbuffer { set_modified s0 with undotop := ut, current_undo := some 0 }) =
        none := by
      show s0.cutbuffer = none
      rw [hs0d]
    rw [this]
  · rw [hbuf4.text, h.buf.text]
    congr 1
    apply map_congr_mem
    intro y hy
    apply dataOf_congr
    show s0.heap y = s.heap y
    rw [hs0d]
    exact hHL y hy
  · show s0.totsize = s.totsize
    rw [hs0d, hs2d]
  · show s0.current = s.current
    rw [hs0d, hs2d]
  · show s0.current_x = s.current_x
    rw [hs0d, hs2d]
  · show linenoAt s0.heap s0.current = _
    have e1 : s0.current = s.current := by rw [hs0d, hs2d]
    rw [e1]
    apply linenoAt_congr
    rw [hs0d]
    exact hHL _ h.cur
  · show s0.cutbuffer = none
    rw [hs0d]
  · show s0.keep_cutbuffer = false
    rw [hs0d]
    rfl

/-! ## After a cut -/

theorem CutRun.data_eq {s s0 t s4 : State} {L D0 A R B M E : List Nat} {ft fb : Option Nat}
    {top top_x bot bot_x : Nat}
    (hc : CutRun s s0 t s4 L D0 A R B M E ft fb top top_x bot bot_x) {l : List Nat}
    (hl : ∀ y, y ∈ l → y ∈ L ∨ y ∈ D0) : l.map (dataOf s0.heap) = l.map (dataOf s.heap) :=
  map_congr_mem (fun y hy => by
    rcases hl y hy with h1 | h1
    · exact dataOf_congr (hc.heapL y h1)
    · exact dataOf_congr (hc.heapD y h1))

theorem CutRun.nn0 {s s0 t s4 : State} {L D0 A R B M E : List Nat} {ft fb : Option Nat}
    {top top_x bot bot_x : Nat}
    (hc : CutRun s s0 t s4 L D0 A R B M E ft fb top top_x bot bot_x) :
    s0.NO_NEWLINES = s.NO_NEWLINES ∧ s0.filebot = s.filebot ∧ s0.totsize = s.totsize ∧
      s0.brk = s.brk := by
  have e := hc.eq0
  exact ⟨by rw [e], by rw [e], by rw [e], by rw [e]⟩

/-- The text of the buffer after a cut. -/
theorem CutRun.text_cut {s s0 t s4 : State} {L D0 A R B M E : List Nat} {ft fb : Option Nat}
    {top top_x bot bot_x : Nat}
    (hc : CutRun s s0 t s4 L D0 A R B M E ft fb top top_x bot bot_x) :
    buffer_text s4 = some
      ((A.map (dataOf s.heap) ++
          [(dataOf s.heap top).take top_x ++ (dataOf s.heap bot).drop bot_x] ++
          B.map (dataOf s.heap)) ++
        (if s.NO_NEWLINES = false ∧
            (A.map (dataOf s.heap) ++
              [(dataOf s.heap top).take top_x ++ (dataOf s.heap bot).drop bot_x] ++
              B.map (dataOf s.heap)).getLast? ≠ some [] then [[]] else [])) := by
  have h1 : buffer_text s4 = buffer_text t :=
    buffer_text_congr (by rw [hc.eq4]) (by rw [hc.eq4]) (by rw [hc.eq4])
  rw [h1, hc.post.text_after hc.pre.head hc.pre.last]
  have hL := hc.list
  have htL : top ∈ L := by rw [hL]; simp [mem_of_head? hc.pre.head]
  have hbL : bot ∈ L := by rw [hL]; simp [List.mem_of_getLast?_eq_some hc.pre.last]
  rw [hc.data_eq (l := A) (fun y hy => Or.inl (by rw [hL]; simp [hy])),
    hc.data_eq (l := B) (fun y hy => Or.inl (by rw [hL]; simp [hy])),
    dataOf_congr (hc.heapL _ htL), dataOf_congr (hc.heapL _ hbL), hc.nn0.1]

theorem CutRun.live_lt {s s0 t s4 : State} {L D0 A R B M E : List Nat} {ft fb : Option Nat}
    {top top_x bot bot_x : Nat}
    (hc : CutRun s s0 t s4 L D0 A R B M E ft fb top top_x bot bot_x) {y : Nat}
    (hy : (t.heap y).isSome) : y < t.brk := by
  by_contra hge
  rw [hc.post.buf.fresh y (Nat.le_of_not_lt hge)] at hy
  simp at hy

/-- The text of the cutbuffer after a cut: what was there, continued by the
text of the range. -/
theorem CutRun.cutbuffer_text {s s0 t s4 : State} {L D0 A R B M E : List Nat}
    {ft fb : Option Nat} {top top_x bot bot_x : Nat}
    (hc : CutRun s s0 t s4 L D0 A R B M E ft fb top top_x bot bot_x) :
    text_from s4 s4.cutbuffer = some
      (appendText (D0.map (dataOf s.heap)) (rangeText (R.map (dataOf s.heap)) top_x bot_x)) := by
  have e1 : s4.cutbuffer = E.head? := by rw [hc.eq4]; exact hc.post.dest_top
  have hlt : ∀ y, y ∈ E → y < t.brk := fun y hy => by
    obtain ⟨n, hn⟩ := hc.post.dest_seg.live hy
    exact hc.live_lt (by rw [hn]; rfl)
  have h2 := text_from_list (s := t) hc.post.dest_seg hc.post.dest_nodup hlt
  have h3 : text_from s4 s4.cutbuffer = text_from t E.head? := by
    rw [e1]
    unfold text_from
    have e2 : s4.heap = t.heap := by rw [hc.eq4]
    have e3 : s4.brk = t.brk := by rw [hc.eq4]
    rw [e2, e3]
  rw [h3, h2, hc.post.dest_text,
    hc.data_eq (l := D0) (fun y hy => Or.inr hy),
    hc.data_eq (l := R) (fun y hy => Or.inl (by rw [hc.list]; simp [hy]))]

/-- The state after a cut that started the cutbuffer afresh is again one that
the cutting functions can be called with, once the mark is off. -/
theorem CutRun.cutPre {s s0 t s4 : State} {L A R B M E : List Nat} {ft fb : Option Nat}
    {top top_x bot bot_x : Nat}
    (hc : CutRun s s0 t s4 L [] A R B M E ft fb top top_x bot bot_x)
    (hm : s4.mark = none) : CutPre s4 (A ++ [s0.brk] ++ B ++ M) E := by
  have hp := hc.post
  have hh : s4.heap = t.heap := by rw [hc.eq4]
  have hcur : s4.current = s0.brk := by rw [hc.eq4, hp.rest]
  have hcx : s4.current_x = top_x := by rw [hc.eq4, hp.rest]
  have hE : E = R := by
    have := hp.dest_shape
    simpa using this
  exact
    { buf :=
        { nodup := hp.buf.nodup
          seg := by rw [hh]; exact hp.buf.seg
          top := by
            have : s4.filetop = t.filetop := by rw [hc.eq4]
            rw [this]; exact hp.buf.top
          bot := by
            have : s4.filebot = t.filebot := by rw [hc.eq4]
            rw [this]; exact hp.buf.bot
          fresh := by
            have : s4.brk = t.brk := by rw [hc.eq4]
            rw [hh, this]; exact hp.buf.fresh }
      cur := by rw [hcur]; simp
      x_le := by
        rw [hcx, hh, hcur, hp.data_new top bot hc.pre.head hc.pre.last]
        simp only [List.length_append, List.length_take]
        have := hc.pre.top_le
        omega
      edittop := by
        have e1 : s4.edittop = t.edittop := by rw [hc.eq4]
        rw [hh, e1]
        rcases hp.edittop with e | e
        · rw [e]
          have hl := hc.pre.edittop
          by_cases hA : s0.edittop ∈ A ++ [s0.brk] ++ B ++ M
          · exact hp.buf.mem_live hA
          · by_cases hR : s0.edittop ∈ R
            · obtain ⟨n, hn⟩ := hp.dest_seg.live (by rw [hE]; exact hR)
              rw [hn]; rfl
            · rw [hp.frame _ (by
                intro h1
                simp only [List.mem_append, List.mem_singleton, List.not_mem_nil,
                  or_false] at h1 hA
                tauto)]
              exact hl
        · rw [e]
          exact hp.buf.mem_live (by simp)
      mark := by
        intro m h1
        rw [hm] at h1
        cases h1
      magic := by
        intro hnn
        have e1 : s4.filebot = t.filebot := by rw [hc.eq4]
        have e2 : s4.NO_NEWLINES = s0.NO_NEWLINES := by rw [hc.eq4, hp.rest]
        rw [e2] at hnn
        rw [hh, e1]
        have hbot := hp.buf.bot
        by_cases hM : M = []
        · have hno := (not_congr hp.magic_iff).1 (fun h1 => h1 hM)
          rw [hM, List.append_nil] at hbot
          by_contra hd
          exact hno ⟨hnn, _, hbot, hd⟩
        · rw [List.getLast?_append_of_ne_nil _ hM] at hbot
          exact hp.data_magic _ (List.mem_of_getLast?_eq_some hbot)
      cut := by rw [hh]; exact hp.dest_seg
      cut_nodup := hp.dest_nodup
      cut_disj := hp.dest_disj
      cut_top := by rw [hc.eq4]; exact hp.dest_top
      cut_bot := fun _ => by rw [hc.eq4]; exact hp.dest_bot }

theorem round_trip_extra_congr {s s0 : State} (h1 : s0.NO_NEWLINES = s.NO_NEWLINES)
    (h2 : s0.filebot = s.filebot) (top_x bot : Nat) :
    round_trip_extra s0 top_x bot = round_trip_extra s top_x bot := by
  unfold round_trip_extra
  rw [h1, h2]

/-- The round trip: after a cut that started the cutbuffer afresh,
`do_uncut_text` gives the buffer its text again, followed by the empty line of
`round_trip_extra`; the cursor is at the end of what was cut. -/
theorem CutRun.round_trip {s s0 t s4 : State} {L A R B M E : List Nat} {ft fb : Option Nat}
    {top top_x bot bot_x : Nat}
    (hc : CutRun s s0 t s4 L [] A R B M E ft fb top top_x bot bot_x) (hb : Buf s L) :
    ∃ t2, do_uncut_text s4 = some t2 ∧
      buffer_text t2 = some (L.map (dataOf s.heap) ++ round_trip_extra s top_x bot) ∧
      (size_invariant s → t2.totsize = s.totsize + (round_trip_extra s top_x bot).length) ∧
      linenoAt t2.heap t2.current = some (lastNumber s.heap A + R.length) ∧
      t2.current_x = bot_x ∧
      text_from t2 t2.cutbuffer = some (rangeText (R.map (dataOf s.heap)) top_x bot_x) ∧
      t2.keep_cutbuffer = s4.keep_cutbuffer := by
  have hpre := hc.pre
  have e0 : s0.cutbuffer = none := hpre.dest_top
  rw [e0] at hpre
  obtain ⟨hnn, hfb, htot, hbrk⟩ := hc.nn0
  have e4 := hc.eq4
  obtain ⟨t2, hrun, htext, hsize, hnum, hx, hcut, hkeep⟩ := cut_then_paste hpre hc.post
    hc.pre0.magic (show s4.heap = t.heap by rw [e4]) (by rw [e4]) (by rw [e4]) (by rw [e4]) (by rw [e4])
    (by rw [e4]) hc.mark4 (by rw [e4]) (by rw [e4]) (by rw [e4])
  have hL := hc.list
  have hdL : (A ++ R ++ B).map (dataOf s0.heap) = L.map (dataOf s.heap) := by
    rw [← hL]
    exact hc.data_eq (fun y hy => Or.inl hy)
  have hdR : R.map (dataOf s0.heap) = R.map (dataOf s.heap) :=
    hc.data_eq (fun y hy => Or.inl (by rw [hL]; simp [hy]))
  have hex := round_trip_extra_congr hnn hfb top_x bot
  rw [hdL, hex] at htext
  rw [hdR, hex, htot] at hsize
  rw [hdR] at hcut
  refine ⟨t2, hrun, htext, ?_, ?_, hx, hcut, hkeep⟩
  · intro hinv
    apply hsize
    have h1 := range_le_size hpre
    rw [sizeOf_eq_textSize, hdL, ← sizeOf_eq_textSize,
      ← (hb.size_invariant_iff).1 hinv, hdR] at h1
    exact h1
  · rw [hnum]
    congr 2
    apply lastNumber_frame
    intro y hy
    exact hc.heapL y (by rw [hL]; simp [hy])

/-! ## The round trip of a cutting command and a paste -/

theorem lineno_range_end {h : Heap} {A R B : List Nat} {bot : Nat}
    (hn : Numbered h 0 (A ++ R ++ B)) (hlast : R.getLast? = some bot) :
    linenoAt h bot = some (lastNumber h A + R.length) := by
  obtain ⟨R0, rfl⟩ := eq_append_of_getLast? hlast
  have e : A ++ (R0 ++ [bot]) ++ B = A ++ ((R0 ++ [bot]) ++ B) := by simp
  rw [e, Numbered.append_iff] at hn
  rw [lastNumber_numbered hn.1]
  have h2 := hn.2
  rw [Numbered.append_iff] at h2
  rw [h2.1.last]
  congr 1
  simp
  ring

/-- `do_cut_text_void` that starts the cutbuffer afresh, followed by
`do_uncut_text`. -/
theorem do_cut_text_void_round_trip {s s1 : State} {L D : List Nat} (h : CutPre s L D)
    (het : s.edittop ∈ L)
    (hundo : ∀ i, s.current_undo = some i → ∃ u, s.undotop[i]? = some u)
    (hnum : s.mark ≠ none → Numbered s.heap 0 L)
    (hfresh : s.keep_cutbuffer = false ∨ s.mark ≠ none)
    (hok : is_cuttable s (s.CUT_FROM_CURSOR && s.mark.isNone) = some (s1, true)) :
    ∃ (s4 t2 : State) (A R B : List Nat) (top top_x bot bot_x : Nat),
      do_cut_text_void s = some s4 ∧ do_uncut_text s4 = some t2 ∧
      cut_range s false = some (top, top_x, bot, bot_x) ∧
      L = A ++ R ++ B ∧ R.head? = some top ∧ R.getLast? = some bot ∧
      buffer_text s4 = some
        ((A.map (dataOf s.heap) ++
            [(dataOf s.heap top).take top_x ++ (dataOf s.heap bot).drop bot_x] ++
            B.map (dataOf s.heap)) ++
          (if s.NO_NEWLINES = false ∧
              (A.map (dataOf s.heap) ++
                [(dataOf s.heap top).take top_x ++ (dataOf s.heap bot).drop bot_x] ++
                B.map (dataOf s.heap)).getLast? ≠ some [] then [[]] else [])) ∧
      text_from s4 s4.cutbuffer = some (rangeText (R.map (dataOf s.heap)) top_x bot_x) ∧
      s4.keep_cutbuffer = s.mark.isNone ∧
      buffer_text t2 = some (L.map (dataOf s.heap) ++ round_trip_extra s top_x bot) ∧
      (size_invariant s → t2.totsize = s.totsize + (round_trip_extra s top_x bot).length) ∧
      (Numbered s.heap 0 L → linenoAt t2.heap t2.current = linenoAt s.heap bot) ∧
      t2.current_x = bot_x ∧
      text_from t2 t2.cutbuffer = some (rangeText (R.map (dataOf s.heap)) top_x bot_x) ∧
      (s.mark = none → round_trip_extra s top_x bot = []) := by
  obtain ⟨s0, t, s4, D0, A, R, B, M, E, ft, fb, top, top_x, bot, bot_x, hrun, hr, hcr, hD0,
    hkeep, hmark, hextra, -⟩ := do_cut_text_void_run h
      (fun _ => fun hD => h.cut_disj _ hD het) hundo hnum hok
  rw [if_pos hfresh] at hD0
  subst hD0
  obtain ⟨t2, hrun2, htext, hsize, hnumc, hx, hcut, hkeep2⟩ := hcr.round_trip h.buf
  have hct := hcr.cutbuffer_text
  rw [List.map_nil, appendText_nil_left] at hct
  refine ⟨s4, t2, A, R, B, top, top_x, bot, bot_x, hrun, hrun2, hr, hcr.list, hcr.pre.head,
    hcr.pre.last, hcr.text_cut, hct, hkeep, htext, hsize, ?_, hx, hcut, hextra⟩
  intro hN
  rw [hnumc]
  rw [hcr.list] at hN
  exact (lineno_range_end hN hcr.pre.last).symm

/-- `do_cut_till_eof`, followed by `do_uncut_text`. -/
theorem do_cut_till_eof_round_trip {s : State} {L D : List Nat} (h : CutPre s L D)
    (het : s.edittop ∈ L) (hok : do_cut_till_eof_refuses s = some false) :
    ∃ (s4 t2 : State),
      do_cut_till_eof s = some s4 ∧ do_uncut_text s4 = some t2 ∧
      s4.keep_cutbuffer = false ∧
      buffer_text t2 = some
        (L.map (dataOf s.heap) ++ round_trip_extra s s.current_x s.filebot) ∧
      (size_invariant s →
        t2.totsize = s.totsize + (round_trip_extra s s.current_x s.filebot).length) ∧
      (Numbered s.heap 0 L → linenoAt t2.heap t2.current = linenoAt s.heap s.filebot) ∧
      t2.current_x = (dataOf s.heap s.filebot).length := by
  have hel : s.edittop ∉ D := fun hD => h.cut_disj _ hD het
  obtain ⟨⟨top, top_x, bot, bot_x⟩, hr⟩ := cut_range_some h true
  have hr2 := hr
  unfold cut_range at hr2
  rw [if_pos rfl] at hr2
  obtain ⟨fbn, hfbn⟩ := Option.isSome_iff_exists.1
    (h.buf.mem_live (List.mem_of_getLast?_eq_some h.buf.bot))
  rw [hfbn] at hr2
  simp only [Option.some.injEq, Prod.mk.injEq] at hr2
  obtain ⟨e1, e2, e3, e4⟩ := hr2
  have hlen : (dataOf s.heap s.filebot).length = bot_x := by
    rw [dataOf_length_of_eq hfbn]; exact e4
  by_cases hemp : top = bot ∧ top_x = bot_x
  · have hnn := eof_range_empty h hok hr hemp
    obtain ⟨s4, hrun, hrun2, htext, htot, hcur, hcx, hln, hcb, hkeep⟩ :=
      do_cut_till_eof_nothing h hok hr hemp
    have hex : round_trip_extra s s.current_x s.filebot = [] := by
      unfold round_trip_extra
      rw [if_neg (fun hc => by rw [hnn] at hc; cases hc.1)]
    refine ⟨s4, s4, hrun, hrun2, hkeep, ?_, ?_, ?_, ?_⟩
    · rw [htext, h.buf.text, hex, List.append_nil]
    · intro _
      rw [htot, hex]
      rfl
    · intro _
      rw [hln, e1, hemp.1, ← e3]
    · rw [hcx, e2, hemp.2, hlen]
  · obtain ⟨s0, t, s4, A, R, B, M, E, ft, fb, hrun, hcr, hkeep⟩ :=
      do_cut_till_eof_run h hel hok hr hemp
    obtain ⟨t2, hrun2, htext, hsize, hnumc, hx, hcut, hkeep2⟩ := hcr.round_trip h.buf
    refine ⟨s4, t2, hrun, hrun2, hkeep, ?_, ?_, ?_, ?_⟩
    · rw [htext, ← e2, ← e3]
    · rw [← e2, ← e3] at hsize
      exact hsize
    · intro hN
      rw [hnumc, e3]
      rw [hcr.list] at hN
      exact (lineno_range_end hN hcr.pre.last).symm
    · rw [hx, hlen]

/-! ## The lines of a range of one or two lines -/

theorem range_one {L A R B : List Nat} {top : Nat} (hnd : L.Nodup) (hL : L = A ++ R ++ B)
    (hhead : R.head? = some top) (hlast : R.getLast? = some top) : R = [top] := by
  have hndR : R.Nodup := by
    rw [hL] at hnd
    exact (nodup_parts hnd).2.1
  have hlen := (head_eq_last_iff hndR hhead hlast).1 rfl
  obtain ⟨R1, rfl⟩ := eq_cons_of_head? hhead
  cases R1 with
  | nil => rfl
  | cons x r => simp at hlen

theorem range_two {s : State} {L A R B : List Nat} {top bot : Nat} {c : linestruct}
    (hb : Buf s L) (hL : L = A ++ R ++ B) (hhead : R.head? = some top)
    (hlast : R.getLast? = some bot) (hc : s.heap top = some c) (hnx : c.next = some bot) :
    R = [top, bot] := by
  obtain ⟨R1, rfl⟩ := eq_cons_of_head? hhead
  have hseg := hb.seg
  have hnd := hb.nodup
  rw [hL] at hseg hnd
  have e : A ++ top :: R1 ++ B = A ++ top :: (R1 ++ B) := by simp
  rw [e] at hseg hnd
  have hl := hseg.links_mid
  rw [linksAt_of_eq hc] at hl
  simp only [Option.some.injEq, Prod.mk.injEq] at hl
  have h2 : nextOf (R1 ++ B) none = some bot := by rw [← hl.2, hnx]
  rw [List.nodup_append] at hnd
  have hnd2 := List.nodup_cons.1 hnd.2.1
  cases R1 with
  | nil =>
    exfalso
    simp only [List.getLast?_singleton, Option.some.injEq] at hlast
    obtain ⟨b0, hb0⟩ := nextOf_none_eq_some h2
    simp only [List.nil_append] at hb0
    apply hnd2.1
    rw [List.nil_append, hb0, hlast]
    simp
  | cons r R2 =>
    simp only [List.cons_append, nextOf_cons, Option.some.injEq] at h2
    subst h2
    cases R2 with
    | nil => rfl
    | cons x R3 =>
      exfalso
      have hl2 : (top :: r :: x :: R3).getLast? = (x :: R3).getLast? := by
        simp [List.getLast?_cons_cons]
      rw [hl2] at hlast
      have hm := List.mem_of_getLast?_eq_some hlast
      have hnd3 := hnd2.2
      have := (List.nodup_cons.1 hnd3).1
      exact this (List.mem_append_left B hm)

theorem rangeText_one (d : List Nat) (top_x bot_x : Nat) :
    rangeText [d] top_x bot_x = [(d.take bot_x).drop top_x] := rfl

theorem rangeText_two (d e : List Nat) (top_x bot_x : Nat) :
    rangeText [d, e] top_x bot_x = [d.drop top_x, e.take bot_x] := rfl

/-- `is_cuttable` lets a cut through exactly under the conditions that it
tests, when the mark differs from the cursor. -/
theorem is_cuttable_of_mark {s : State} {L D : List Nat} (h : CutPre s L D) {m : Nat}
    (hm : s.mark = some m) (hd : ¬ (m = s.current ∧ s.mark_x = s.current_x)) :
    is_cuttable s (s.CUT_FROM_CURSOR && s.mark.isNone) = some (s, true) := by
  obtain ⟨c, hc⟩ := Option.isSome_iff_exists.1 (h.buf.mem_live h.cur)
  have htc : (s.CUT_FROM_CURSOR && s.mark.isNone) = false := by simp [hm]
  rw [htc]
  unfold is_cuttable is_cuttable_cliff
  simp only [hc]
  rw [if_neg]
  · simp
  · rintro (⟨-, -, e⟩ | ⟨e1, e2⟩)
    · rw [hm] at e; cases e
    · rw [hm] at e1
      exact hd ⟨Option.some.inj e1, e2⟩

/-! ## Round trips of a cut followed by a paste -/

/-- C11: cutting the current line and pasting at once restores the text and
the size of the buffer.  For every state in which the cutting functions may be
called (`CutPre`), with the top line of the edit window in the buffer, valid
undo records and a `totsize` that is the size of the text, with no mark,
CUT_FROM_CURSOR unset, `keep_cutbuffer` false and a cut that `is_cuttable`
lets through: `do_cut_text_void` and then `do_uncut_text` both return, the
cutbuffer in between holds the cut line (followed by an empty line unless the
cut line is the last one), and afterwards the sequence of line contents and
`totsize` are what they were before the cut. -/
theorem cut_line_paste_round_trip (s s1 : State) (L D : List Nat) (h : CutPre s L D)
    (het : s.edittop ∈ L)
    (hundo : ∀ i, s.current_undo = some i → ∃ u, s.undotop[i]? = some u)
    (hsize : size_invariant s)
    (hmark : s.mark = none) (hcfc : s.CUT_FROM_CURSOR = false)
    (hkeep : s.keep_cutbuffer = false)
    (hok : is_cuttable s (s.CUT_FROM_CURSOR && s.mark.isNone) = some (s1, true)) :
    ∃ (s4 t2 : State) (T : List (List Nat)),
      do_cut_text_void s = some s4 ∧ do_uncut_text s4 = some t2 ∧
      text_from s4 s4.cutbuffer = some
        (if s.current = s.filebot then [dataOf s.heap s.current]
          else [dataOf s.heap s.current, []]) ∧
      buffer_text s = some T ∧ buffer_text t2 = some T ∧ t2.totsize = s.totsize := by
  obtain ⟨s4, t2, A, R, B, top, top_x, bot, bot_x, hrun, hrun2, hr, hL, hhead, hlast, -, hcut,
    -, htext, htot, -, -, -, hextra⟩ :=
    do_cut_text_void_round_trip h het hundo (fun hm => absurd hmark hm) (Or.inl hkeep) hok
  rw [hextra hmark] at htext htot
  rw [List.append_nil] at htext
  refine ⟨s4, t2, L.map (dataOf s.heap), hrun, hrun2, ?_, h.buf.text, htext, htot hsize⟩
  rw [hcut]
  obtain ⟨c, hc⟩ := Option.isSome_iff_exists.1 (h.buf.mem_live h.cur)
  unfold cut_range at hr
  rw [if_neg (by simp), if_neg (fun hm => hm hmark), hc] at hr
  simp only [hcfc, Bool.false_eq_true, if_false] at hr
  by_cases hfb : s.current = s.filebot
  · rw [if_neg (fun hne => hne hfb)] at hr
    rw [if_pos hfb]
    simp only [Option.some.injEq, Prod.mk.injEq] at hr
    obtain ⟨rfl, rfl, rfl, rfl⟩ := hr
    rw [range_one h.buf.nodup hL hhead hlast]
    simp only [List.map_cons, List.map_nil]
    rw [rangeText_one, dataOf_of_eq hc, List.take_length, List.drop_zero]
  · rw [if_pos hfb] at hr
    rw [if_neg hfb]
    cases hnx : c.next with
    | none => rw [hnx] at hr; cases hr
    | some nx =>
      rw [hnx] at hr
      simp only [Option.some.injEq, Prod.mk.injEq] at hr
      obtain ⟨rfl, rfl, rfl, rfl⟩ := hr
      rw [range_two h.buf hL hhead hlast hc hnx]
      simp only [List.map_cons, List.map_nil]
      rw [rangeText_two, List.drop_zero, List.take_zero]

/-- C14: cutting from the cursor to the end of the line and pasting at once
restores the text and the size of the buffer.  For every state in which the
cutting functions may be called (`CutPre`), with the top line of the edit
window in the buffer, valid undo records and a `totsize` that is the size of
the text, with no mark, CUT_FROM_CURSOR set, `keep_cutbuffer` false and a cut
that `is_cuttable` lets through: `do_cut_text_void` and then `do_uncut_text`
both return, the cutbuffer in between holds the rest of the line from the
cursor (or, with the cursor at the end of the line, the line break), and
afterwards the sequence of line contents and `totsize` are what they were
before the cut. -/
theorem cut_to_eol_paste_round_trip (s s1 : State) (L D : List Nat) (h : CutPre s L D)
    (het : s.edittop ∈ L)
    (hundo : ∀ i, s.current_undo = some i → ∃ u, s.undotop[i]? = some u)
    (hsize : size_invariant s)
    (hmark : s.mark = none) (hcfc : s.CUT_FROM_CURSOR = true)
    (hkeep : s.keep_cutbuffer = false)
    (hok : is_cuttable s (s.CUT_FROM_CURSOR && s.mark.isNone) = some (s1, true)) :
    ∃ (s4 t2 : State) (T : List (List Nat)),
      do_cut_text_void s = some s4 ∧ do_uncut_text s4 = some t2 ∧
      text_from s4 s4.cutbuffer = some
        (if s.current_x < (dataOf s.heap s.current).length
          then [(dataOf s.heap s.current).drop s.current_x] else [[], []]) ∧
      buffer_text s = some T ∧ buffer_text t2 = some T ∧ t2.totsize = s.totsize := by
  obtain ⟨s4, t2, A, R, B, top, top_x, bot, bot_x, hrun, hrun2, hr, hL, hhead, hlast, -, hcut,
    -, htext, htot, -, -, -, hextra⟩ :=
    do_cut_text_void_round_trip h het hundo (fun hm => absurd hmark hm) (Or.inl hkeep) hok
  have hne := (void_range_nonempty h hok hr).1
  rw [hextra hmark] at htext htot
  rw [List.append_nil] at htext
  refine ⟨s4, t2, L.map (dataOf s.heap), hrun, hrun2, ?_, h.buf.text, htext, htot hsize⟩
  rw [hcut]
  obtain ⟨c, hc⟩ := Option.isSome_iff_exists.1 (h.buf.mem_live h.cur)
  have hxle := h.x_le
  rw [dataOf_of_eq hc] at hxle
  unfold cut_range at hr
  rw [if_neg (by simp), if_neg (fun hm => hm hmark), hc] at hr
  simp only [hcfc, if_true] at hr
  rw [dataOf_of_eq hc]
  by_cases hx : s.current_x < c.data.length
  · rw [if_pos hx] at hr
    rw [if_pos hx]
    simp only [Option.some.injEq, Prod.mk.injEq] at hr
    obtain ⟨rfl, rfl, rfl, rfl⟩ := hr
    rw [range_one h.buf.nodup hL hhead hlast]
    simp only [List.map_cons, List.map_nil]
    rw [rangeText_one, dataOf_of_eq hc, List.take_length]
  · rw [if_neg hx] at hr
    rw [if_neg hx]
    by_cases hfb : s.current = s.filebot
    · rw [if_neg (fun hn => hn hfb)] at hr
      simp only [Option.some.injEq, Prod.mk.injEq] at hr
      obtain ⟨rfl, rfl, rfl, rfl⟩ := hr
      exact absurd ⟨rfl, rfl⟩ hne
    · rw [if_pos hfb] at hr
      cases hnx : c.next with
      | none => rw [hnx] at hr; cases hr
      | some nx =>
        rw [hnx] at hr
        simp only [Option.some.injEq, Prod.mk.injEq] at hr
        obtain ⟨rfl, rfl, rfl, rfl⟩ := hr
        rw [range_two h.buf hL hhead hlast hc hnx]
        simp only [List.map_cons, List.map_nil]
        rw [rangeText_two, List.take_zero, dataOf_of_eq hc,
          List.drop_eq_nil_of_le (Nat.le_of_not_lt hx)]

/-- C12 (amended): cutting a marked region and pasting at once restores the
text and the size of the buffer, except that one empty line is added at the
end when the buffer must end with a line separator (NO_NEWLINES unset), the
region reaches the end of the last line and starts after the first character
of its first line.  For every state in which the cutting functions may be
called (`CutPre`), with the top line of the edit window in the buffer, valid
undo records, lines numbered from one, a `totsize` that is the size of the
text and the mark set at a position other than the cursor: `do_cut_text_void`
and then `do_uncut_text` both return; with `(top, top_x)` and `(bot, bot_x)`
the ends of the region in buffer order, the text afterwards is the text before
followed by one empty line and `totsize` is one more when NO_NEWLINES is unset,
`bot` is the last line and `0 < top_x`; otherwise both are what they were
before the cut. -/
theorem marked_cut_paste_round_trip (s : State) (L D : List Nat) (m : Nat) (h : CutPre s L D)
    (het : s.edittop ∈ L)
    (hundo : ∀ i, s.current_undo = some i → ∃ u, s.undotop[i]? = some u)
    (hnum : Numbered s.heap 0 L)
    (hsize : size_invariant s)
    (hm : s.mark = some m) (hd : ¬ (m = s.current ∧ s.mark_x = s.current_x)) :
    ∃ (s4 t2 : State) (T : List (List Nat)) (top top_x bot bot_x : Nat),
      cut_range s false = some (top, top_x, bot, bot_x) ∧
      do_cut_text_void s = some s4 ∧ do_uncut_text s4 = some t2 ∧
      buffer_text s = some T ∧
      buffer_text t2 = some
        (if s.NO_NEWLINES = false ∧ bot = s.filebot ∧ 0 < top_x then T ++ [[]] else T) ∧
      t2.totsize =
        (if s.NO_NEWLINES = false ∧ bot = s.filebot ∧ 0 < top_x then s.totsize + 1
          else s.totsize) := by
  obtain ⟨s4, t2, A, R, B, top, top_x, bot, bot_x, hrun, hrun2, hr, -, -, -, -, -,
    -, htext, htot, -, -, -, -⟩ :=
    do_cut_text_void_round_trip h het hundo (fun _ => hnum)
      (Or.inr (by rw [hm]; exact Option.some_ne_none m)) (is_cuttable_of_mark h hm hd)
  have htot2 := htot hsize
  refine ⟨s4, t2, L.map (dataOf s.heap), top, top_x, bot, bot_x, hr, hrun, hrun2, h.buf.text,
    ?_, ?_⟩
  · rw [htext]
    unfold round_trip_extra
    by_cases hc : s.NO_NEWLINES = false ∧ bot = s.filebot ∧ 0 < top_x
    · rw [if_pos hc, if_pos hc]
    · rw [if_neg hc, if_neg hc, List.append_nil]
  · rw [htot2]
    unfold round_trip_extra
    by_cases hc : s.NO_NEWLINES = false ∧ bot = s.filebot ∧ 0 < top_x
    · rw [if_pos hc, if_pos hc]; rfl
    · rw [if_neg hc, if_neg hc]; rfl

/-- C13 (amended): cutting from the cursor to the end of the file and pasting
at once restores the text and the size of the buffer, except that one empty
line is added at the end when the buffer must end with a line separator
(NO_NEWLINES unset) and the cursor is after the first character of its line.
For every state in which the cutting functions may be called (`CutPre`), with
the top line of the edit window in the buffer, a `totsize` that is the size of
the text and a cut that `do_cut_till_eof` does not refuse: `do_cut_till_eof`
and then `do_uncut_text` both return; the text afterwards is the text before
followed by one empty line and `totsize` is one more when NO_NEWLINES is unset
and `0 < current_x`; otherwise both are what they were before the cut. -/
theorem cut_till_eof_paste_round_trip (s : State) (L D : List Nat) (h : CutPre s L D)
    (het : s.edittop ∈ L) (hsize : size_invariant s)
    (hok : do_cut_till_eof_refuses s = some false) :
    ∃ (s4 t2 : State) (T : List (List Nat)),
      do_cut_till_eof s = some s4 ∧ do_uncut_text s4 = some t2 ∧
      buffer_text s = some T ∧
      buffer_text t2 = some
        (if s.NO_NEWLINES = false ∧ 0 < s.current_x then T ++ [[]] else T) ∧
      t2.totsize =
        (if s.NO_NEWLINES = false ∧ 0 < s.current_x then s.totsize + 1 else s.totsize) := by
  obtain ⟨s4, t2, hrun, hrun2, -, htext, htot, -, -⟩ := do_cut_till_eof_round_trip h het hok
  have htot2 := htot hsize
  refine ⟨s4, t2, L.map (dataOf s.heap), hrun, hrun2, h.buf.text, ?_, ?_⟩
  · rw [htext]
    unfold round_trip_extra
    by_cases hc : s.NO_NEWLINES = false ∧ 0 < s.current_x
    · rw [if_pos hc, if_pos ⟨hc.1, rfl, hc.2⟩]
    · rw [if_neg hc, if_neg (fun hc2 => hc ⟨hc2.1, hc2.2.2⟩), List.append_nil]
  · rw [htot2]
    unfold round_trip_extra
    by_cases hc : s.NO_NEWLINES = false ∧ 0 < s.current_x
    · rw [if_pos hc, if_pos ⟨hc.1, rfl, hc.2⟩]; rfl
    · rw [if_neg hc, if_neg (fun hc2 => hc ⟨hc2.1, hc2.2.2⟩)]; rfl

/-- C15 (amended): after a cut followed at once by `do_uncut_text` the cursor
is at the end of the range that was cut, not where it was before the cut.  For
every state in which the cutting functions may be called (`CutPre`), with the
top line of the edit window in the buffer, valid undo records and lines
numbered from one: for a cut to the end of the file that is not refused
(`cut_till_eof` true), and for a cut by `do_cut_text_void` (whole line, marked
region or cut to end of line, by the mark and CUT_FROM_CURSOR) that is not
refused and does not add to an earlier cut, with `(top, top_x, bot, bot_x)`
the range that the cut hands to `extract_buffer`, the cut and the paste both
return and afterwards the cursor has the line number of `bot` and the offset
`bot_x`; that is the position of the cursor before the cut exactly when the
cursor was at the end of the range. -/
theorem cut_paste_cursor_at_range_end (s : State) (L D : List Nat) (cut_till_eof : Bool)
    (h : CutPre s L D) (het : s.edittop ∈ L)
    (hundo : ∀ i, s.current_undo = some i → ∃ u, s.undotop[i]? = some u)
    (hnum : Numbered s.heap 0 L)
    (hok : (cut_till_eof = true ∧ do_cut_till_eof_refuses s = some false) ∨
      (cut_till_eof = false ∧ (s.keep_cutbuffer = false ∨ s.mark ≠ none) ∧
        ∃ s1, is_cuttable s (s.CUT_FROM_CURSOR && s.mark.isNone) = some (s1, true))) :
    ∃ (s4 t2 : State) (top top_x bot bot_x : Nat),
      cut_range s cut_till_eof = some (top, top_x, bot, bot_x) ∧
      (if cut_till_eof = true then do_cut_till_eof s else do_cut_text_void s) = some s4 ∧
      do_uncut_text s4 = some t2 ∧
      linenoAt t2.heap t2.current = linenoAt s.heap bot ∧ t2.current_x = bot_x ∧
      ((linenoAt t2.heap t2.current = linenoAt s.heap s.current ∧
          t2.current_x = s.current_x) ↔ (s.current = bot ∧ s.current_x = bot_x)) := by
  have key : ∀ (t2 : State) (bot bot_x : Nat), bot ∈ L →
      linenoAt t2.heap t2.current = linenoAt s.heap bot → t2.current_x = bot_x →
      ((linenoAt t2.heap t2.current = linenoAt s.heap s.current ∧
          t2.current_x = s.current_x) ↔ (s.current = bot ∧ s.current_x = bot_x)) := by
    intro t2 bot bot_x hbot hln hx
    rw [hln, hx]
    constructor
    · rintro ⟨e1, e2⟩
      exact ⟨(linenoAt_inj_of_numbered hnum hbot h.cur e1).symm, e2.symm⟩
    · rintro ⟨e1, e2⟩
      rw [e1, e2]
      exact ⟨rfl, rfl⟩
  rcases hok with ⟨he, hok⟩ | ⟨he, hfresh, s1, hok⟩
  · subst he
    obtain ⟨s4, t2, hrun, hrun2, -, -, -, hln, hx⟩ := do_cut_till_eof_round_trip h het hok
    obtain ⟨fb, hfb⟩ := Option.isSome_iff_exists.1 (h.buf.mem_live h.buf.filebot_mem)
    have hr : cut_range s true = some (s.current, s.current_x, s.filebot, fb.data.length) := by
      unfold cut_range
      rw [if_pos rfl, hfb]
    rw [dataOf_of_eq hfb] at hx
    exact ⟨s4, t2, s.current, s.current_x, s.filebot, fb.data.length, hr, hrun, hrun2,
      hln hnum, hx, key t2 _ _ h.buf.filebot_mem (hln hnum) hx⟩
  · subst he
    obtain ⟨s4, t2, A, R, B, top, top_x, bot, bot_x, hrun, hrun2, hr, hL, -, hlast, -, -,
      -, -, -, hln, hx, -, -⟩ :=
      do_cut_text_void_round_trip h het hundo (fun _ => hnum) hfresh hok
    have hbot : bot ∈ L := by
      rw [hL]
      exact List.mem_append_left B (List.mem_append_right A (List.mem_of_getLast?_eq_some hlast))
    exact ⟨s4, t2, top, top_x, bot, bot_x, hr, hrun, hrun2, hln hnum, hx,
      key t2 _ _ hbot (hln hnum) hx⟩

/-! ## The concrete states of the cut engine -/

theorem demoPaste_cutPre : CutPre demoPaste [0, 1, 2, 3] [4, 5] where
  buf := demoPaste_buf
  cur := by decide
  x_le := by decide
  edittop := by decide
  mark := by
    intro m hm
    cases hm
  magic := by decide
  cut := by decide
  cut_nodup := by decide
  cut_disj := by decide
  cut_top := by decide
  cut_bot := by decide

theorem demoEol_cutPre : CutPre demoEol [0, 1, 2, 3] [4, 5] where
  buf := Buf.of_cells
    (cellsOf 0 0 none [[1, 2, 3], [4, 5], [6], []] ++ cellsOf 4 0 none [[7, 8], [9]])
    rfl (by decide) (by decide) (by decide) (by decide) (by decide)
  cur := by decide
  x_le := by decide
  edittop := by decide
  mark := by
    intro m hm
    cases hm
  magic := by decide
  cut := by decide
  cut_nodup := by decide
  cut_disj := by decide
  cut_top := by decide
  cut_bot := by decide

theorem demoMark_cutPre : CutPre demoMark [0, 1, 2, 3] [4, 5] where
  buf := Buf.of_cells
    (cellsOf 0 0 none [[1, 2, 3], [4, 5], [6], []] ++ cellsOf 4 0 none [[7, 8], [9]])
    rfl (by decide) (by decide) (by decide) (by decide) (by decide)
  cur := by decide
  x_le := by decide
  edittop := by decide
  mark := by
    intro m hm
    cases hm
    decide
  magic := by decide
  cut := by decide
  cut_nodup := by decide
  cut_disj := by decide
  cut_top := by decide
  cut_bot := by decide

theorem demoZero_cutPre : CutPre demoZero [0, 1, 2, 3] [4, 5] where
  buf := Buf.of_cells
    (cellsOf 0 0 none [[1, 2, 3], [4, 5], [6], []] ++ cellsOf 4 0 none [[7, 8], [9]])
    rfl (by decide) (by decide) (by decide) (by decide) (by decide)
  cur := by decide
  x_le := by decide
  edittop := by decide
  mark := by
    intro m hm
    cases hm
    decide
  magic := by decide
  cut := by decide
  cut_nodup := by decide
  cut_disj := by decide
  cut_top := by decide
  cut_bot := by decide

theorem demoPaste_numbered : Numbered demoPaste.heap 0 [0, 1, 2, 3] :=
  ⟨by decide, by decide, by decide, by decide, trivial⟩

theorem tailMark_buf : Buf tailMark [0, 1] :=
  Buf.of_cells (cellsOf 0 0 none [[97, 98], []] ++ cellsOf 2 0 none [])
    rfl (by decide) (by decide) (by decide) (by decide) (by decide)

theorem tailMark_cutPre : CutPre tailMark [0, 1] [] where
  buf := tailMark_buf
  cur := by decide
  x_le := by decide
  edittop := by decide
  mark := by
    intro m hm
    cases hm
    decide
  magic := by decide
  cut := by decide
  cut_nodup := by decide
  cut_disj := by decide
  cut_top := by decide
  cut_bot := by decide

theorem tailMark_numbered : Numbered tailMark.heap 0 [0, 1] :=
  ⟨by decide, by decide, trivial⟩

theorem tailCut_buf : Buf tailCut [0, 1, 2] :=
  Buf.of_cells (cellsOf 0 0 none [[97, 98], [99, 100], []] ++ cellsOf 3 0 none [])
    rfl (by decide) (by decide) (by decide) (by decide) (by decide)

theorem tailCut_cutPre : CutPre tailCut [0, 1, 2] [] where
  buf := tailCut_buf
  cur := by decide
  x_le := by decide
  edittop := by decide
  mark := by
    intro m hm
    cases hm
  magic := by decide
  cut := by decide
  cut_nodup := by decide
  cut_disj := by decide
  cut_top := by decide
  cut_bot := by decide

theorem helloBuf_buf (x : Nat) : Buf (helloBuf x) [0, 1] :=
  Buf.of_cells (cellsOf 0 0 none [[104, 101, 108, 108, 111], []] ++ cellsOf 2 0 none [])
    rfl (show 2 ≤ 2 by decide) (by decide)
    (show Seg (helloBuf 0).heap none [0, 1] none by decide)
    (show [0, 1].head? = some (helloBuf 0).filetop by decide)
    (show [0, 1].getLast? = some (helloBuf 0).filebot by decide)

theorem helloBuf_cutPre (x : Nat) (hx : x ≤ 5) : CutPre (helloBuf x) [0, 1] [] where
  buf := helloBuf_buf x
  cur := show (helloBuf 0).current ∈ [0, 1] by decide
  x_le := hx
  edittop := show ((helloBuf 0).heap (helloBuf 0).edittop).isSome by decide
  mark := by
    intro m hm
    cases hm
  magic := fun _ => show dataOf (helloBuf 0).heap (helloBuf 0).filebot = [] by decide
  cut := trivial
  cut_nodup := List.nodup_nil
  cut_disj := fun _ hx => absurd hx (List.not_mem_nil _)
  cut_top := rfl
  cut_bot := fun hne => absurd rfl hne

theorem helloBuf_numbered (x : Nat) : Numbered (helloBuf x).heap 0 [0, 1] :=
  ⟨show linenoAt (helloBuf 0).heap 0 = some (0 + 1) by decide,
    show linenoAt (helloBuf 0).heap 1 = some (0 + 1 + 1) by decide, trivial⟩

/-! ## Cutting and pasting the line "hello" -/

theorem parts_of_whole {L A R B : List Nat} (hL : L = A ++ R ++ B) (hlen : L.length = R.length) :
    A = [] ∧ B = [] := by
  have h := congrArg List.length hL
  simp only [List.length_append] at h
  exact ⟨List.length_eq_zero.1 (by omega), List.length_eq_zero.1 (by omega)⟩

theorem helloBuf_round_trip (x : Nat) (hx : x ≤ 5) :
    ∃ (s4 t2 : State),
      do_cut_text_void (helloBuf x) = some s4 ∧ do_uncut_text s4 = some t2 ∧
      text_from s4 s4.cutbuffer = some [[104, 101, 108, 108, 111], []] ∧
      buffer_text s4 = some [[]] ∧
      buffer_text t2 = some [[104, 101, 108, 108, 111], []] ∧
      linenoAt t2.heap t2.current = some 2 ∧ t2.current_x = 0 := by
  have hok : is_cuttable (helloBuf x) ((helloBuf x).CUT_FROM_CURSOR && (helloBuf x).mark.isNone)
      = some (helloBuf x, true) := rfl
  obtain ⟨s4, t2, A, R, B, top, top_x, bot, bot_x, hrun, hrun2, hr, hL, hhead, hlast, hbt, hcut,
    -, htext, -, hln, hcx, -, hextra⟩ :=
    do_cut_text_void_round_trip (helloBuf_cutPre x hx) (show 0 ∈ [0, 1] by decide)
      (fun i hi => by cases hi) (fun _ => helloBuf_numbered x) (Or.inl rfl) hok
  have hr2 : cut_range (helloBuf x) false = some (0, 0, 1, 0) := rfl
  rw [hr2] at hr
  simp only [Option.some.injEq, Prod.mk.injEq] at hr
  obtain ⟨rfl, rfl, rfl, rfl⟩ := hr
  have hc : (helloBuf x).heap 0 = some
      { data := [104, 101, 108, 108, 111], lineno := 1, prev := none, next := some 1 } := rfl
  have hR := range_two (helloBuf_buf x) hL hhead hlast hc rfl
  subst hR
  obtain ⟨rfl, rfl⟩ := parts_of_whole hL rfl
  rw [hextra rfl] at htext
  exact ⟨s4, t2, hrun, hrun2, hcut, hbt, htext, hln (helloBuf_numbered x), hcx⟩

/-- C16 (amended): the scenario of the line "hello".  From the buffer that
holds the line "hello" and the empty line after its separator, with the cursor
at any offset `x` of the first line, no mark and an empty cutbuffer:
`do_cut_text_void` returns and leaves the cutbuffer holding "hello" with its
line break and the buffer consisting of one empty line; `do_uncut_text` then
returns and makes the buffer "hello" and the empty line again, with the cursor
on line 2 at offset 0, the position after the pasted line break (not at
offset 5). -/
theorem hello_cut_paste (x : Nat) (hx : x ≤ 5) :
    (helloBuf x).mark = none ∧ (helloBuf x).cutbuffer = none ∧
    buffer_text (helloBuf x) = some [[104, 101, 108, 108, 111], []] ∧
    linenoAt (helloBuf x).heap (helloBuf x).current = some 1 ∧ (helloBuf x).current_x = x ∧
    ∃ (s4 t2 : State),
      do_cut_text_void (helloBuf x) = some s4 ∧ do_uncut_text s4 = some t2 ∧
      text_from s4 s4.cutbuffer = some [[104, 101, 108, 108, 111], []] ∧
      buffer_text s4 = some [[]] ∧
      buffer_text t2 = some [[104, 101, 108, 108, 111], []] ∧
      linenoAt t2.heap t2.current = some 2 ∧ t2.current_x = 0 :=
  ⟨rfl, rfl, (helloBuf_buf x).text, rfl, rfl, helloBuf_round_trip x hx⟩

/-! ## Round trips that do not restore the state -/

/-- A marked region that starts inside the line "ab" and ends on the magic
line: after the cut and the paste the buffer has one more empty line and
`totsize` is one more. -/
theorem marked_cut_paste_adds_line :
    CutPre tailMark [0, 1] [] ∧ size_invariant tailMark ∧ Numbered tailMark.heap 0 [0, 1] ∧
    tailMark.mark = some 0 ∧ tailMark.mark_x = 1 ∧ tailMark.current = 1 ∧
    tailMark.current_x = 0 ∧
    buffer_text tailMark = some [[97, 98], []] ∧ tailMark.totsize = 3 ∧
    ∃ (s4 t2 : State),
      do_cut_text_void tailMark = some s4 ∧ do_uncut_text s4 = some t2 ∧
      buffer_text t2 = some [[97, 98], [], []] ∧ t2.totsize = 4 := by
  have hsize : size_invariant tailMark := by
    unfold size_invariant
    decide
  obtain ⟨s4, t2, A, R, B, top, top_x, bot, bot_x, hrun, hrun2, hr, -, -, -, -, -,
    -, htext, htot, -, -, -, -⟩ :=
    do_cut_text_void_round_trip tailMark_cutPre (show 0 ∈ [0, 1] by decide)
      (fun i hi => by cases hi) (fun _ => tailMark_numbered) (Or.inr (by decide))
      (is_cuttable_of_mark tailMark_cutPre rfl (by decide))
  have hr2 : cut_range tailMark false = some (0, 1, 1, 0) := by decide
  rw [hr2] at hr
  simp only [Option.some.injEq, Prod.mk.injEq] at hr
  obtain ⟨rfl, rfl, rfl, rfl⟩ := hr
  exact ⟨tailMark_cutPre, hsize, tailMark_numbered, rfl, rfl, rfl, rfl, by decide, rfl, s4, t2,
    hrun, hrun2, htext.trans (by decide), (htot hsize).trans (by decide)⟩

/-- A cut to the end of the file from inside the line "ab": after the cut and
the paste the buffer has one more empty line and `totsize` is one more. -/
theorem cut_till_eof_paste_adds_line :
    CutPre tailCut [0, 1, 2] [] ∧ size_invariant tailCut ∧
    do_cut_till_eof_refuses tailCut = some false ∧
    buffer_text tailCut = some [[97, 98], [99, 100], []] ∧ tailCut.totsize = 6 ∧
    ∃ (s4 t2 : State),
      do_cut_till_eof tailCut = some s4 ∧ do_uncut_text s4 = some t2 ∧
      buffer_text t2 = some [[97, 98], [99, 100], [], []] ∧ t2.totsize = 7 := by
  have hsize : size_invariant tailCut := by
    unfold size_invariant
    decide
  obtain ⟨s4, t2, hrun, hrun2, -, htext, htot, -, -⟩ :=
    do_cut_till_eof_round_trip tailCut_cutPre (show 0 ∈ [0, 1, 2] by decide) (by decide)
  exact ⟨tailCut_cutPre, hsize, by decide, by decide, rfl, s4, t2, hrun, hrun2,
    htext.trans (by decide), (htot hsize).trans (by decide)⟩

/-- Cutting the line "hello" with the cursor at its start and pasting at once:
the cursor was on line 1 and is on line 2 afterwards. -/
theorem cut_paste_moves_cursor :
    linenoAt (helloBuf 0).heap (helloBuf 0).current = some 1 ∧ (helloBuf 0).current_x = 0 ∧
    ∃ (s4 t2 : State),
      do_cut_text_void (helloBuf 0) = some s4 ∧ do_uncut_text s4 = some t2 ∧
      linenoAt t2.heap t2.current = some 2 ∧ t2.current_x = 0 ∧
      linenoAt t2.heap t2.current ≠ linenoAt (helloBuf 0).heap (helloBuf 0).current := by
  obtain ⟨s4, t2, h1, h2, -, -, -, h6, h7⟩ := helloBuf_round_trip 0 (by decide)
  refine ⟨rfl, rfl, s4, t2, h1, h2, h6, h7, ?_⟩
  rw [h6]
  decide

/-- Cutting the line "hello" with the cursor at offset 5 and pasting at once:
the cursor is at offset 0 of line 2 afterwards, not at offset 5. -/
theorem hello_paste_cursor_not_five :
    (helloBuf 5).current_x = 5 ∧
    ∃ (s4 t2 : State),
      do_cut_text_void (helloBuf 5) = some s4 ∧ do_uncut_text s4 = some t2 ∧
      buffer_text t2 = some [[104, 101, 108, 108, 111], []] ∧
      linenoAt t2.heap t2.current = some 2 ∧ t2.current_x = 0 ∧ t2.current_x ≠ 5 := by
  obtain ⟨s4, t2, h1, h2, -, -, h5, h6, h7⟩ := helloBuf_round_trip 5 (by decide)
  refine ⟨rfl, s4, t2, h1, h2, h5, h6, h7, ?_⟩
  rw [h7]
  decide

/-! ## Cutting the current line -/

/-- The last line of a buffer has no next line. -/
theorem Buf.filebot_next {s : State} {L : List Nat} (hb : Buf s L) {c : linestruct}
    (hc : s.heap s.filebot = some c) : c.next = none := by
  obtain ⟨A, B1, n, -, hn, hnx, hiff⟩ := hb.split_at hb.filebot_mem
  rw [hc] at hn
  cases hn
  rw [hnx, hiff.1 rfl]
  rfl

/-- The line of the cursor has a next line unless it is the last one. -/
theorem Buf.next_of_ne_filebot {s : State} {L : List Nat} (hb : Buf s L) {p : Nat} (hp : p ∈ L)
    {c : linestruct} (hc : s.heap p = some c) (hne : p ≠ s.filebot) : ∃ nx, c.next = some nx := by
  obtain ⟨A, B1, n, -, hn, hnx, hiff⟩ := hb.split_at hp
  rw [hc] at hn
  cases hn
  cases B1 with
  | nil => exact absurd (hiff.2 rfl) hne
  | cons b B2 => exact ⟨b, hnx⟩

/-- With no mark, `is_cuttable` without the test for the cliff lets a cut
through unless the cursor is on an empty last line. -/
theorem is_cuttable_line {s : State} {c : linestruct} (hc : s.heap s.current = some c)
    (hmark : s.mark = none) (hcfc : s.CUT_FROM_CURSOR = false)
    (hne : c.next ≠ none ∨ c.data ≠ []) :
    is_cuttable s (s.CUT_FROM_CURSOR && s.mark.isNone) = some (s, true) := by
  have htc : (s.CUT_FROM_CURSOR && s.mark.isNone) = false := by rw [hcfc]; rfl
  rw [htc]
  unfold is_cuttable is_cuttable_cliff
  simp only [hc]
  rw [if_neg]
  · simp
  · rintro (⟨e1, e2, -⟩ | ⟨e1, -⟩)
    · rcases hne with h1 | h1
      · exact h1 e1
      · exact h1 e2
    · rw [hmark] at e1
      cases e1

/-- The text that a cut of the current line removes: the line and its line
break, or the line alone when it is the last one. -/
theorem line_range_text {s : State} {L A R B : List Nat} {top top_x bot bot_x : Nat}
    (hb : Buf s L) (hcur : s.current ∈ L) (hmark : s.mark = none)
    (hcfc : s.CUT_FROM_CURSOR = false)
    (hr : cut_range s false = some (top, top_x, bot, bot_x))
    (hL : L = A ++ R ++ B) (hhead : R.head? = some top) (hlast : R.getLast? = some bot) :
    rangeText (R.map (dataOf s.heap)) top_x bot_x =
      (if s.current = s.filebot then [dataOf s.heap s.current]
        else [dataOf s.heap s.current, []]) := by
  obtain ⟨c, hc⟩ := Option.isSome_iff_exists.1 (hb.mem_live hcur)
  unfold cut_range at hr
  rw [if_neg (by simp), if_neg (fun hm => hm hmark), hc] at hr
  simp only [hcfc, Bool.false_eq_true, if_false] at hr
  by_cases hfb : s.current = s.filebot
  · rw [if_neg (fun hne => hne hfb)] at hr
    rw [if_pos hfb]
    simp only [Option.some.injEq, Prod.mk.injEq] at hr
    obtain ⟨rfl, rfl, rfl, rfl⟩ := hr
    rw [range_one hb.nodup hL hhead hlast]
    simp only [List.map_cons, List.map_nil]
    rw [rangeText_one, dataOf_of_eq hc, List.take_length, List.drop_zero]
  · rw [if_pos hfb] at hr
    rw [if_neg hfb]
    cases hnx : c.next with
    | none => rw [hnx] at hr; cases hr
    | some nx =>
      rw [hnx] at hr
      simp only [Option.some.injEq, Prod.mk.injEq] at hr
      obtain ⟨rfl, rfl, rfl, rfl⟩ := hr
      rw [range_two hb hL hhead hlast hc hnx]
      simp only [List.map_cons, List.map_nil]
      rw [rangeText_two, List.drop_zero, List.take_zero]

/-- After a cut the cutting functions may be called again, also when the
cursor and the top line of the edit window have been moved to other lines of
the buffer. -/
theorem CutRun.cutPre_moved {s s0 t s4 s5 : State} {L D0 A R B M E : List Nat}
    {ft fb : Option Nat} {top top_x bot bot_x : Nat}
    (hc : CutRun s s0 t s4 L D0 A R B M E ft fb top top_x bot bot_x)
    (hm : s4.mark = none)
    (h5 : s5 = { s4 with current := s5.current, current_x := s5.current_x,
                         edittop := s5.edittop, keep_cutbuffer := s5.keep_cutbuffer })
    (hcur : s5.current ∈ A ++ [s0.brk] ++ B ++ M)
    (hx : s5.current_x ≤ (dataOf s4.heap s5.current).length)
    (het : s5.edittop ∈ A ++ [s0.brk] ++ B ++ M) :
    CutPre s5 (A ++ [s0.brk] ++ B ++ M) E := by
  have hp := hc.post
  have hh4 : s4.heap = t.heap := by rw [hc.eq4]
  have hh5 : s5.heap = s4.heap := by rw [h5]
  have hh : s5.heap = t.heap := hh5.trans hh4
  have e4 := hc.eq4
  exact
    { buf :=
        { nodup := hp.buf.nodup
          seg := by rw [hh]; exact hp.buf.seg
          top := by
            have : s5.filetop = t.filetop := by rw [h5, e4]
            rw [this]; exact hp.buf.top
          bot := by
            have : s5.filebot = t.filebot := by rw [h5, e4]
            rw [this]; exact hp.buf.bot
          fresh := by
            have : s5.brk = t.brk := by rw [h5, e4]
            rw [hh, this]; exact hp.buf.fresh }
      cur := hcur
      x_le := by rw [hh5]; exact hx
      edittop := by rw [hh]; exact hp.buf.mem_live het
      mark := by
        intro m h1
        have : s5.mark = s4.mark := by rw [h5]
        rw [this, hm] at h1
        cases h1
      magic := by
        intro hnn
        have e1 : s5.filebot = t.filebot := by rw [h5, e4]
        have e2 : s5.NO_NEWLINES = s0.NO_NEWLINES := by rw [h5, e4, hp.rest]
        rw [e2] at hnn
        rw [hh, e1]
        have hbot := hp.buf.bot
        by_cases hM : M = []
        · have hno := (not_congr hp.magic_iff).1 (fun h1 => h1 hM)
          rw [hM, List.append_nil] at hbot
          by_contra hd
          exact hno ⟨hnn, _, hbot, hd⟩
        · rw [List.getLast?_append_of_ne_nil _ hM] at hbot
          exact hp.data_magic _ (List.mem_of_getLast?_eq_some hbot)
      cut := by rw [hh]; exact hp.dest_seg
      cut_nodup := hp.dest_nodup
      cut_disj := hp.dest_disj
      cut_top := by
        have : s5.cutbuffer = ft := by rw [h5, e4]
        rw [this]; exact hp.dest_top
      cut_bot := fun _ => by
        have : s5.cutbottom = fb := by rw [h5, e4]
        rw [this]; exact hp.dest_bot }

/-- The text of the cutbuffer after a cut is the text of the lines of its
list. -/
theorem CutRun.cutbuffer_lines {s s0 t s4 : State} {L D0 A R B M E : List Nat}
    {ft fb : Option Nat} {top top_x bot bot_x : Nat}
    (hc : CutRun s s0 t s4 L D0 A R B M E ft fb top top_x bot bot_x) :
    E.map (dataOf s4.heap) =
      appendText (D0.map (dataOf s.heap)) (rangeText (R.map (dataOf s.heap)) top_x bot_x) := by
  have hh4 : s4.heap = t.heap := by rw [hc.eq4]
  rw [hh4, hc.post.dest_text]
  have e1 : D0.map (dataOf s0.heap) = D0.map (dataOf s.heap) :=
    hc.data_eq (fun y hy => Or.inr hy)
  have e2 : R.map (dataOf s0.heap) = R.map (dataOf s.heap) :=
    hc.data_eq (fun y hy => Or.inl (by
      rw [hc.list]
      exact List.mem_append_left B (List.mem_append_right A hy)))
  rw [e1, e2]

/-- One cut of the current line by `do_cut_text_void`, with no mark and
CUT_FROM_CURSOR unset: the cutbuffer is emptied first unless `keep_cutbuffer`
is set, the line (and its line break, unless it is the last line) is appended
to it, and `keep_cutbuffer` is set afterwards. -/
theorem line_cut_run {s : State} {L D : List Nat} (h : CutPre s L D)
    (hel : s.keep_cutbuffer = false → s.edittop ∉ D)
    (hundo : ∀ i, s.current_undo = some i → ∃ u, s.undotop[i]? = some u)
    (hmark : s.mark = none) (hcfc : s.CUT_FROM_CURSOR = false)
    {c : linestruct} (hc : s.heap s.current = some c) (hne : c.next ≠ none ∨ c.data ≠ []) :
    ∃ (s0 t s4 : State) (D0 A R B M E : List Nat) (ft fb : Option Nat)
        (top top_x bot bot_x : Nat),
      do_cut_text_void s = some s4 ∧
      CutRun s s0 t s4 L D0 A R B M E ft fb top top_x bot bot_x ∧
      cut_range s false = some (top, top_x, bot, bot_x) ∧
      D0 = (if s.keep_cutbuffer = false then [] else D) ∧
      s4.keep_cutbuffer = true ∧ s4.mark = none ∧ s4.CUT_FROM_CURSOR = false ∧
      (∀ j, s4.current_undo = some j → ∃ u, s4.undotop[j]? = some u) ∧
      text_from s4 s4.cutbuffer = some
        (appendText (D0.map (dataOf s.heap))
          (if s.current = s.filebot then [c.data] else [c.data, []])) ∧
      E.map (dataOf s4.heap) =
        appendText (D0.map (dataOf s.heap))
          (if s.current = s.filebot then [c.data] else [c.data, []]) := by
  obtain ⟨s0, t, s4, D0, A, R, B, M, E, ft, fb, top, top_x, bot, bot_x, hrun, hr, hcr, hD0,
    hkeep, hm4, -, hundo4⟩ :=
    do_cut_text_void_run h
      (fun hk => hel (hk.resolve_right (fun hm => hm hmark))) hundo
      (fun hm => absurd hmark hm) (is_cuttable_line hc hmark hcfc hne)
  have htext := line_range_text h.buf h.cur hmark hcfc hr hcr.list hcr.pre.head hcr.pre.last
  rw [dataOf_of_eq hc] at htext
  have hct := hcr.cutbuffer_text
  have hcl := hcr.cutbuffer_lines
  rw [htext] at hct hcl
  refine ⟨s0, t, s4, D0, A, R, B, M, E, ft, fb, top, top_x, bot, bot_x, hrun, hcr, hr, ?_, ?_,
    hm4, ?_, hundo4, hct, hcl⟩
  · rw [hD0]
    by_cases hk : s.keep_cutbuffer = false
    · rw [if_pos hk, if_pos (Or.inl hk)]
    · rw [if_neg hk, if_neg (fun h1 => h1.elim hk (fun hm => hm hmark))]
  · rw [hkeep, hmark]
    rfl
  · have : s4.CUT_FROM_CURSOR = s.CUT_FROM_CURSOR := by
      rw [hcr.eq4, hcr.post.rest, hcr.eq0]
    rw [this, hcfc]

/-- Two cuts of the current line in a row: the second cut is appended to the
first. -/
theorem two_line_cuts {s : State} {L D : List Nat} (h : CutPre s L D)
    (het : s.edittop ∈ L)
    (hundo : ∀ i, s.current_undo = some i → ∃ u, s.undotop[i]? = some u)
    (hmark : s.mark = none) (hcfc : s.CUT_FROM_CURSOR = false)
    (hkeep : s.keep_cutbuffer = false)
    {ca cb : linestruct} {nb nc : Nat}
    (ha : s.heap s.current = some ca) (hna : ca.next = some nb)
    (hb : s.heap nb = some cb) (hnb : cb.next = some nc) :
    ∃ (s4 s5 : State),
      do_cut_text_void s = some s4 ∧ do_cut_text_void s4 = some s5 ∧
      text_from s4 s4.cutbuffer = some [ca.data, []] ∧
      text_from s5 s5.cutbuffer = some [ca.data, cb.data, []] := by
  have hnf : s.current ≠ s.filebot := by
    intro e
    rw [e] at ha
    rw [h.buf.filebot_next ha] at hna
    cases hna
  obtain ⟨s0, t, s4, D0, A, R, B, M, E, ft, fb, top, top_x, bot, bot_x, hrun, hcr, hr, hD0,
    hk4, hm4, hcfc4, hundo4, hct, hcl⟩ :=
    line_cut_run h (fun _ hD => h.cut_disj _ hD het) hundo hmark hcfc ha
      (Or.inl (by rw [hna]; exact Option.some_ne_none nb))
  rw [if_pos hkeep] at hD0
  subst hD0
  rw [if_neg hnf, List.map_nil, appendText_nil_left] at hct hcl
  -- the range of the first cut
  have hr1 : cut_range s false = some (s.current, 0, nb, 0) := by
    unfold cut_range
    rw [if_neg (by simp), if_neg (fun hm => hm hmark), ha]
    simp only [hcfc, Bool.false_eq_true, if_false]
    rw [if_pos hnf, hna]
  rw [hr1] at hr
  simp only [Option.some.injEq, Prod.mk.injEq] at hr
  obtain ⟨rfl, rfl, rfl, rfl⟩ := hr
  have hR := range_two h.buf hcr.list hcr.pre.head hcr.pre.last ha hna
  -- the state after the first cut
  have h4 : CutPre s4 (A ++ [s0.brk] ++ B ++ M) E := hcr.cutPre hm4
  have hcur4 : s4.current = s0.brk := by rw [hcr.eq4, hcr.post.rest]
  have hh4 : s4.heap = t.heap := by rw [hcr.eq4]
  obtain ⟨c4, hc4⟩ := Option.isSome_iff_exists.1 (h4.buf.mem_live h4.cur)
  have hd4 : c4.data = cb.data := by
    rw [← dataOf_of_eq hc4, hcur4, hh4, hcr.post.data_new _ _ hcr.pre.head hcr.pre.last,
      List.take_zero, List.drop_zero, List.nil_append,
      dataOf_congr (hcr.heapL nb (by rw [hcr.list, hR]; simp)), dataOf_of_eq hb]
  have hB : B ≠ [] := by
    intro e
    have hbot := h.buf.bot
    rw [hcr.list, hR, e, List.append_nil,
      List.getLast?_append_of_ne_nil _ (by simp)] at hbot
    have e2 : nb = s.filebot := by
      have : some nb = some s.filebot := hbot
      exact Option.some.inj this
    rw [e2] at hb
    rw [h.buf.filebot_next hb] at hnb
    cases hnb
  have hnf4 : s4.current ≠ s4.filebot := by
    intro e
    have hbot := h4.buf.bot
    have hnd := h4.buf.nodup
    obtain ⟨b, B1, rfl⟩ := List.exists_cons_of_ne_nil hB
    have hmem : s4.filebot ∈ b :: B1 ++ M := by
      have e3 : A ++ [s0.brk] ++ (b :: B1) ++ M = (A ++ [s0.brk]) ++ (b :: B1 ++ M) := by simp
      rw [e3, List.getLast?_append_of_ne_nil _ (by simp)] at hbot
      exact List.mem_of_getLast?_eq_some hbot
    rw [← e, hcur4] at hmem
    have e3 : A ++ [s0.brk] ++ (b :: B1) ++ M = A ++ s0.brk :: (b :: B1 ++ M) := by simp
    rw [e3] at hnd
    have := (List.nodup_cons.1 (List.nodup_append.1 hnd).2.1).1
    exact this hmem
  obtain ⟨nx4, hnx4⟩ := h4.buf.next_of_ne_filebot h4.cur hc4 hnf4
  obtain ⟨s0b, tb, s5, D0b, Ab, Rb, Bb, Mb, Eb, ftb, fbb, topb, top_xb, botb, bot_xb, hrun2,
    hcr2, -, hD0b, -, -, -, -, hct2, -⟩ :=
    line_cut_run h4 (fun hk => by rw [hk4] at hk; cases hk) hundo4 hm4 hcfc4 hc4
      (Or.inl (by rw [hnx4]; exact Option.some_ne_none nx4))
  rw [if_neg (by rw [hk4]; simp)] at hD0b
  subst hD0b
  rw [hcl, if_neg hnf4, hd4] at hct2
  refine ⟨s4, s5, hrun, hrun2, hct, ?_⟩
  rw [hct2]
  simp [appendText, mapLast]

/-! ## Refused cuts -/

theorem do_cut_text_void_refused {s s1 : State}
    (h : is_cuttable s (s.CUT_FROM_CURSOR && s.mark.isNone) = some (s1, false)) :
    do_cut_text_void s = some { s with mark := none } := by
  have e := is_cuttable_false h
  unfold do_cut_text_void
  rw [h, e]

theorem zap_text_refused (mark_flags : Nat) {s s1 : State}
    (h : is_cuttable s (s.CUT_FROM_CURSOR && s.mark.isNone) = some (s1, false)) :
    zap_text mark_flags s = some { s with mark := none } := by
  have e := is_cuttable_false h
  unfold zap_text
  rw [h, e]

theorem do_cut_till_eof_refused {s : State} (h : do_cut_till_eof_refuses s = some true) :
    do_cut_till_eof s = some s := by
  unfold do_cut_till_eof
  rw [h]

/-! ## Reading a keystroke -/

theorem call_func_of_move (others : funcptr → Session → Option Session) {func : funcptr}
    (hw : wanted_to_move func = true) (e : Session) : call_func others func e = others func e := by
  cases func <;> first | rfl | (simp [wanted_to_move] at hw)

theorem wanted_to_move_ne_cut {func : funcptr} (hw : wanted_to_move func = true) :
    func ≠ funcptr.do_cut_text_void ∧ func ≠ funcptr.do_copy_text ∧
      func ≠ funcptr.do_toggle_void := by
  cases func <;> simp [wanted_to_move] at hw ⊢

theorem do_input_character_shortcut {k : keystroke} {sc : keystruct} (hs : k.shortcut = some sc)
    (e : Session) : do_input_character k e = e := by
  unfold do_input_character
  rw [if_neg (by rw [hs]; simp)]

theorem do_input_flush_empty (is_ascii_cntrl_char : Nat → Bool) {k : keystroke} {e : Session}
    (hp : e.puddle = none) : do_input_flush is_ascii_cntrl_char k e = some e := by
  unfold do_input_flush
  rw [hp]
  split_ifs <;> rfl

/-- What `do_input` does with a keystroke bound to `do_cut_text_void`, when no
typed characters are pending, outside view mode and without Shift. -/
theorem do_input_cut (is_ascii_cntrl_char : Nat → Bool)
    (others : funcptr → Session → Option Session) {k : keystroke} {sc : keystruct}
    {e : Session} {s4 : State}
    (hw : k.winch = false) (hs : k.shortcut = some sc)
    (hf : sc.func = funcptr.do_cut_text_void) (hsh : k.shift_held = false)
    (hp : e.puddle = none) (hv : e.VIEW_MODE = false)
    (hrun : do_cut_text_void e.st = some s4) (hm : s4.mark = none) :
    do_input is_ascii_cntrl_char others k e = some { e with st := s4 } := by
  unfold do_input
  rw [if_neg (by rw [hw]; simp), do_input_character_shortcut hs,
    do_input_flush_empty is_ascii_cntrl_char hp]
  simp only [hs]
  unfold do_input_shortcut
  rw [if_neg (by rw [hv]; simp), if_neg (by rw [hf]; simp)]
  unfold do_input_run
  simp only
  rw [if_neg (by rw [hsh]; simp), hf]
  simp only [call_func, hrun]
  rw [if_neg (by simp [hm])]
  simp

/-- What `do_input` does with a keystroke bound to a cursor-moving command,
when no typed characters are pending, outside view mode, without Shift and
without a mark. -/
theorem do_input_move (is_ascii_cntrl_char : Nat → Bool)
    (others : funcptr → Session → Option Session) {k : keystroke} {sc : keystruct}
    {e e2 : Session}
    (hw : k.winch = false) (hs : k.shortcut = some sc)
    (hf : wanted_to_move sc.func = true) (hsh : k.shift_held = false)
    (hp : e.puddle = none) (hv : e.VIEW_MODE = false)
    (hrun : others sc.func e = some e2) (hm : e2.st.mark = none) :
    do_input is_ascii_cntrl_char others k e =
      some { e2 with st := { e2.st with keep_cutbuffer := false } } := by
  obtain ⟨h1, h2, h3⟩ := wanted_to_move_ne_cut hf
  unfold do_input
  rw [if_neg (by rw [hw]; simp), do_input_character_shortcut hs,
    do_input_flush_empty is_ascii_cntrl_char hp]
  simp only [hs]
  unfold do_input_shortcut
  rw [if_neg (by rw [hv]; simp), if_neg h3]
  unfold do_input_run
  simp only
  rw [if_neg (by rw [hsh]; simp), call_func_of_move others hf, hrun]
  simp only
  rw [if_neg (by simp [hm])]
  simp [h1, h2]

theorem do_input_character_view (k : keystroke) (e : Session) :
    (do_input_character k e).VIEW_MODE = e.VIEW_MODE := by
  unfold do_input_character
  by_cases h1 : k.shortcut = none ∧ k.thrown_out = false
  · rw [if_pos h1]
    simp only
    by_cases h2 : e.VIEW_MODE = true
    · rw [if_pos h2]
      split_ifs <;> rfl
    · rw [if_neg h2]
      split_ifs <;> rfl
  · rw [if_neg h1]

theorem do_input_flush_view {is_ascii_cntrl_char : Nat → Bool} {k : keystroke} {e e1 : Session}
    (h : do_input_flush is_ascii_cntrl_char k e = some e1) : e1.VIEW_MODE = e.VIEW_MODE := by
  unfold do_input_flush at h
  split_ifs at h
  · cases hp : e.puddle with
    | none =>
      rw [hp] at h
      cases h
      rfl
    | some bytes =>
      rw [hp] at h
      simp only at h
      cases ho : do_output is_ascii_cntrl_char e.st bytes false with
      | none => rw [ho] at h; cases h
      | some s =>
        rw [ho] at h
        cases h
        rfl
  · cases h
    rfl

/-- At its end `do_input` clears `keep_cutbuffer`, for every typed character
and for every shortcut that it runs other than cutting, copying and the
toggles of flags other than CUT_FROM_CURSOR. -/
theorem do_input_keep (is_ascii_cntrl_char : Nat → Bool)
    (others : funcptr → Session → Option Session) {k : keystroke} {e e1 : Session}
    (hw : k.winch = false)
    (hfl : do_input_flush is_ascii_cntrl_char k (do_input_character k e) = some e1)
    (hk : k.shortcut = none ∨
      ∃ sc, k.shortcut = some sc ∧ ¬ (e.VIEW_MODE = true ∧ k.okay_for_view = false) ∧
        sc.func ≠ funcptr.do_cut_text_void ∧ sc.func ≠ funcptr.do_copy_text ∧
        (sc.func = funcptr.do_toggle_void → sc.toggle = flag_id.CUT_FROM_CURSOR) ∧
        (sc.func ≠ funcptr.do_toggle_void →
          ∃ e2, do_input_run others k sc.func e1 = some e2)) :
    ∃ e3, do_input is_ascii_cntrl_char others k e = some e3 ∧
      e3.st.keep_cutbuffer = false := by
  have hview : e1.VIEW_MODE = e.VIEW_MODE :=
    (do_input_flush_view hfl).trans (do_input_character_view k e)
  unfold do_input
  rw [if_neg (by rw [hw]; simp), hfl]
  rcases hk with hn | ⟨sc, hs, hv, h1, h2, h3, h4⟩
  · simp only [hn]
    exact ⟨_, rfl, rfl⟩
  · simp only [hs]
    unfold do_input_shortcut
    rw [if_neg (by rw [hview]; exact hv)]
    have hret : decide (sc.func = funcptr.do_cut_text_void ∨ sc.func = funcptr.do_copy_text)
        = false := by simp [h1, h2]
    by_cases ht : sc.func = funcptr.do_toggle_void
    · rw [if_pos ht]
      simp only [h3 ht, hret]
      exact ⟨_, rfl, rfl⟩
    · rw [if_neg ht]
      obtain ⟨e2, he2⟩ := h4 ht
      rw [he2]
      simp only [hret]
      exact ⟨_, rfl, rfl⟩

/-! ## A cut, a cursor movement, and another cut -/

theorem CutRun.buf4 {s s0 t s4 : State} {L D0 A R B M E : List Nat}
    {ft fb : Option Nat} {top top_x bot bot_x : Nat}
    (hc : CutRun s s0 t s4 L D0 A R B M E ft fb top top_x bot bot_x) :
    Buf s4 (A ++ [s0.brk] ++ B ++ M) := by
  have hp := hc.post
  have e4 := hc.eq4
  have hh : s4.heap = t.heap := by rw [e4]
  exact
    { nodup := hp.buf.nodup
      seg := by rw [hh]; exact hp.buf.seg
      top := by
        have : s4.filetop = t.filetop := by rw [e4]
        rw [this]; exact hp.buf.top
      bot := by
        have : s4.filebot = t.filebot := by rw [e4]
        rw [this]; exact hp.buf.bot
      fresh := by
        have : s4.brk = t.brk := by rw [e4]
        rw [hh, this]; exact hp.buf.fresh }

/-- With no mark, `is_cuttable` refuses a cut on an empty last line. -/
theorem is_cuttable_empty_last {s : State} {c : linestruct} (hc : s.heap s.current = some c)
    (hmark : s.mark = none) (hnx : c.next = none) (hd : c.data = []) (tc : Bool) :
    is_cuttable s tc = some ({ s with mark := none }, false) := by
  unfold is_cuttable
  simp only [hc]
  rw [if_pos (Or.inl ⟨hnx, hd, hmark⟩)]

/-- The event sequence cut-line, cursor-movement, cut-line, run by `do_input`:
the movement clears `keep_cutbuffer`, so the second cut empties the cutbuffer
before it adds its line. -/
theorem cut_move_cut (is_ascii_cntrl_char : Nat → Bool)
    (others : funcptr → Session → Option Session) {e : Session} {L D : List Nat}
    {kc km : keystroke} {scc scm : keystruct} {c1 : linestruct}
    (h : CutPre e.st L D) (hel : e.st.keep_cutbuffer = false → e.st.edittop ∉ D)
    (hundo : ∀ i, e.st.current_undo = some i → ∃ u, e.st.undotop[i]? = some u)
    (hmark : e.st.mark = none) (hcfc : e.st.CUT_FROM_CURSOR = false)
    (hp : e.puddle = none) (hv : e.VIEW_MODE = false)
    (hc1 : e.st.heap e.st.current = some c1) (hne1 : c1.next ≠ none ∨ c1.data ≠ [])
    (hkc : kc.winch = false ∧ kc.shortcut = some scc ∧
      scc.func = funcptr.do_cut_text_void ∧ kc.shift_held = false)
    (hkm : km.winch = false ∧ km.shortcut = some scm ∧
      wanted_to_move scm.func = true ∧ km.shift_held = false)
    (hmove : ∀ (e1 : Session) (L1 : List Nat), Buf e1.st L1 →
      ∃ e2, others scm.func e1 = some e2 ∧
        e2 = { e1 with st := { e1.st with current := e2.st.current,
                                          current_x := e2.st.current_x,
                                          edittop := e2.st.edittop } } ∧
        e2.st.current ∈ L1 ∧
        e2.st.current_x ≤ (dataOf e1.st.heap e2.st.current).length ∧
        e2.st.edittop ∈ L1) :
    ∃ (e1 e2 e3 : Session),
      do_input is_ascii_cntrl_char others kc e = some e1 ∧
      do_input is_ascii_cntrl_char others km e1 = some e2 ∧
      do_input is_ascii_cntrl_char others kc e2 = some e3 ∧
      e1.st.keep_cutbuffer = true ∧ e2.st.keep_cutbuffer = false ∧
      text_from e1.st e1.st.cutbuffer = some
        (appendText ((if e.st.keep_cutbuffer = false then [] else D).map (dataOf e.st.heap))
          (if e.st.current = e.st.filebot then [c1.data] else [c1.data, []])) ∧
      (¬ (e2.st.current = e2.st.filebot ∧ dataOf e2.st.heap e2.st.current = []) →
        text_from e3.st e3.st.cutbuffer = some
          (if e2.st.current = e2.st.filebot then [dataOf e2.st.heap e2.st.current]
            else [dataOf e2.st.heap e2.st.current, []])) := by
  obtain ⟨hkc1, hkc2, hkc3, hkc4⟩ := hkc
  obtain ⟨hkm1, hkm2, hkm3, hkm4⟩ := hkm
  -- the first cut
  obtain ⟨s0, t, s4, D0, A, R, B, M, E, ft, fb, top, top_x, bot, bot_x, hrun, hcr, -, hD0,
    hk4, hm4, hcfc4, hundo4, hct, -⟩ := line_cut_run h hel hundo hmark hcfc hc1 hne1
  have hin1 := do_input_cut is_ascii_cntrl_char others hkc1 hkc2 hkc3 hkc4 hp hv hrun hm4
  -- the movement
  obtain ⟨e2, hoth, hshape, hcur, hx, het⟩ := hmove { e with st := s4 } _ hcr.buf4
  have hst2 : e2.st =
      { s4 with
        current := e2.st.current, current_x := e2.st.current_x, edittop := e2.st.edittop } := by
    have := congrArg Session.st hshape
    exact this
  have hm2 : e2.st.mark = none := by rw [hst2]; exact hm4
  have hp2 : e2.puddle = none := by rw [hshape]; exact hp
  have hv2 : e2.VIEW_MODE = false := by rw [hshape]; exact hv
  have hin2 := do_input_move is_ascii_cntrl_char others (e := { e with st := s4 }) hkm1 hkm2
    hkm3 hkm4 hp hv hoth hm2
  -- the state before the second cut
  obtain ⟨s5, hs5⟩ : ∃ s5 : State, s5 = { e2.st with keep_cutbuffer := false } := ⟨_, rfl⟩
  have h5 : s5 =
      { s4 with
        current := s5.current, current_x := s5.current_x, edittop := s5.edittop,
        keep_cutbuffer := s5.keep_cutbuffer } := by
    rw [hs5, hst2]
  have hcur5 : s5.current = e2.st.current := by rw [hs5]
  have het5 : s5.edittop = e2.st.edittop := by rw [hs5]
  have hx5 : s5.current_x = e2.st.current_x := by rw [hs5]
  have hpre5 : CutPre s5 (A ++ [s0.brk] ++ B ++ M) E :=
    hcr.cutPre_moved hm4 h5 (by rw [hcur5]; exact hcur) (by rw [hx5, hcur5]; exact hx)
      (by rw [het5]; exact het)
  have hk5 : s5.keep_cutbuffer = false := by rw [hs5]
  have hm5 : s5.mark = none := by rw [h5]; exact hm4
  have hcfc5 : s5.CUT_FROM_CURSOR = false := by rw [h5]; exact hcfc4
  have hundo5 : ∀ j, s5.current_undo = some j → ∃ u, s5.undotop[j]? = some u := by
    have e1 : s5.current_undo = s4.current_undo := by rw [h5]
    have e2 : s5.undotop = s4.undotop := by rw [h5]
    rw [e1, e2]
    exact hundo4
  obtain ⟨c5, hc5⟩ := Option.isSome_iff_exists.1 (hpre5.buf.mem_live hpre5.cur)
  have hfirst : text_from s4 s4.cutbuffer = some
      (appendText ((if e.st.keep_cutbuffer = false then [] else D).map (dataOf e.st.heap))
        (if e.st.current = e.st.filebot then [c1.data] else [c1.data, []])) := by
    rw [hct, hD0]
  by_cases href : s5.current = s5.filebot ∧ dataOf s5.heap s5.current = []
  · -- the second cut is refused
    have hnx : c5.next = none := by
      have := hc5
      rw [href.1] at this
      exact hpre5.buf.filebot_next this
    have hd : c5.data = [] := by rw [← dataOf_of_eq hc5]; exact href.2
    have hrun3 := do_cut_text_void_refused
      (is_cuttable_empty_last hc5 hm5 hnx hd (s5.CUT_FROM_CURSOR && s5.mark.isNone))
    have hin3 := do_input_cut is_ascii_cntrl_char others
      (e := { e2 with st := s5 }) hkc1 hkc2 hkc3 hkc4 hp2 hv2 hrun3 rfl
    refine ⟨_, _, _, hin1, ?_, hin3, hk4, hk5, hfirst, ?_⟩
    · rw [hin2, hs5]
    · intro hno
      exact absurd href hno
  · -- the second cut goes through
    have hne5 : c5.next ≠ none ∨ c5.data ≠ [] := by
      by_cases hfb : s5.current = s5.filebot
      · right
        intro hd
        exact href ⟨hfb, by rw [dataOf_of_eq hc5]; exact hd⟩
      · left
        obtain ⟨nx, hnx⟩ := hpre5.buf.next_of_ne_filebot hpre5.cur hc5 hfb
        rw [hnx]
        exact Option.some_ne_none nx
    obtain ⟨s0b, tb, s6, D0b, Ab, Rb, Bb, Mb, Eb, ftb, fbb, topb, top_xb, botb, bot_xb, hrun3,
      -, -, hD0b, -, hm6, -, -, hct3, -⟩ :=
      line_cut_run hpre5 (fun _ hD => hpre5.cut_disj _ hD (by rw [het5]; exact het)) hundo5
        hm5 hcfc5 hc5 hne5
    have hin3 := do_input_cut is_ascii_cntrl_char others
      (e := { e2 with st := s5 }) hkc1 hkc2 hkc3 hkc4 hp2 hv2 hrun3 hm6
    rw [if_pos hk5] at hD0b
    rw [hD0b, List.map_nil, appendText_nil_left, ← dataOf_of_eq hc5] at hct3
    refine ⟨_, _, _, hin1, ?_, hin3, hk4, hk5, hfirst, ?_⟩
    · rw [hin2, hs5]
    · intro _
      exact hct3

/-! ## Cutting a region or to the end of the file -/

/-- After a cut the top line of the edit window is a line of the buffer, when
it was one before and the lines are numbered from one. -/
theorem CutRun.edittop_mem {s s0 t s4 : State} {L D0 A R B M E : List Nat}
    {ft fb : Option Nat} {top top_x bot bot_x : Nat}
    (hc : CutRun s s0 t s4 L D0 A R B M E ft fb top top_x bot bot_x)
    (het : s.edittop ∈ L) (hnum : Numbered s.heap 0 L) :
    s4.edittop ∈ A ++ [s0.brk] ++ B ++ M := by
  have e4 : s4.edittop = t.edittop := by rw [hc.eq4]
  have e0 : s0.edittop = s.edittop := by rw [hc.eq0]
  have hnum0 : Numbered s0.heap 0 (A ++ R ++ B) := by
    rw [← hc.list]
    exact Numbered.of_frame (fun y hy => linenoAt_congr (hc.heapL y hy)) hnum
  rw [e4]
  have hbrk : s0.brk ∈ A ++ [s0.brk] ++ B ++ M := by simp
  by_cases hR : s0.edittop ∈ R
  · rw [hc.post.edittop_in 0 hR hnum0]
    exact hbrk
  · rcases hc.post.edittop with e | e
    · rw [e, e0]
      rw [hc.list] at het
      rw [e0] at hR
      simp only [List.mem_append, List.mem_singleton] at het ⊢
      tauto
    · rw [e]
      exact hbrk

/-- A cut by `do_cut_text` with `marked` or `cut_till_eof` set (not copying,
not appending for a zap) starts from an empty cutbuffer. -/
theorem do_cut_text_region {s : State} {L D : List Nat} {top top_x bot bot_x : Nat}
    (h : CutPre s L D) (het : s.edittop ∈ L) (hnum : Numbered s.heap 0 L)
    (marked cut_till_eof : Bool) (hmode : marked = true ∨ cut_till_eof = true)
    (hr : cut_range s cut_till_eof = some (top, top_x, bot, bot_x))
    (hne : ¬ (top = bot ∧ top_x = bot_x)) :
    ∃ (s0 t s3 : State) (A R B M E : List Nat) (ft fb : Option Nat),
      do_cut_text s false marked cut_till_eof false = some s3 ∧
      CutRun s s0 t s3 L [] A R B M E ft fb top top_x bot bot_x ∧
      s3.keep_cutbuffer = false ∧
      s3.mark = (if cut_till_eof = false ∧ s.mark ≠ none then none else t.mark) ∧
      s3.undotop = s.undotop ∧ s3.current_undo = s.current_undo := by
  obtain ⟨A, R, B, hL, hhead, hlast, ht, hb, hle⟩ :=
    cut_range_decomp h cut_till_eof (fun _ _ => hnum) hr
  have hclr : s.keep_cutbuffer = false ∨ marked = true ∨ cut_till_eof = true := Or.inr hmode
  obtain ⟨s0, t, s3, D0, M, E, ft, fb, hrun, hcr, hD0, hkeep, hmark, hut, hcu, -⟩ :=
    do_cut_text_run h marked cut_till_eof hr hL hhead hlast ht hb
      (fun e => lt_of_le_of_ne (hle e) (fun e2 => hne ⟨e, e2⟩))
      (fun _ hD => h.cut_disj _ hD het)
  rw [if_pos hclr] at hD0 hkeep
  subst hD0
  refine ⟨s0, t, s3, A, R, B, M, E, ft, fb, hrun, hcr, ?_, hmark, hut, hcu⟩
  rw [hkeep]
  rcases hmode with e | e
  · rw [e]; rfl
  · rw [e]; simp

/-- After a cut by `do_cut_text` with `marked` or `cut_till_eof` set, a cut of
the current line replaces the cutbuffer. -/
theorem region_then_line_cut {s s0 t s3 : State} {L A R B M E : List Nat}
    {ft fb : Option Nat} {top top_x bot bot_x : Nat}
    (hcr : CutRun s s0 t s3 L [] A R B M E ft fb top top_x bot bot_x)
    (het : s.edittop ∈ L) (hnum : Numbered s.heap 0 L)
    (hk3 : s3.keep_cutbuffer = false) (hm3 : s3.mark = none)
    (hcfc : s.CUT_FROM_CURSOR = false)
    (hundo : ∀ i, s3.current_undo = some i → ∃ u, s3.undotop[i]? = some u)
    {c : linestruct} (hc : s3.heap s3.current = some c) (hne : c.next ≠ none ∨ c.data ≠ []) :
    ∃ s5, do_cut_text_void s3 = some s5 ∧
      text_from s5 s5.cutbuffer = some
        (if s3.current = s3.filebot then [c.data] else [c.data, []]) := by
  have h3 : CutPre s3 (A ++ [s0.brk] ++ B ++ M) E := hcr.cutPre hm3
  have het3 := hcr.edittop_mem het hnum
  have hcfc3 : s3.CUT_FROM_CURSOR = false := by
    have : s3.CUT_FROM_CURSOR = s.CUT_FROM_CURSOR := by
      rw [hcr.eq4, hcr.post.rest, hcr.eq0]
    rw [this, hcfc]
  obtain ⟨s0b, tb, s5, D0b, Ab, Rb, Bb, Mb, Eb, ftb, fbb, topb, top_xb, botb, bot_xb, hrun,
    -, -, hD0b, -, -, -, -, hct, -⟩ :=
    line_cut_run h3 (fun _ hD => h3.cut_disj _ hD het3) hundo hm3 hcfc3 hc hne
  rw [if_pos hk3] at hD0b
  rw [hD0b, List.map_nil, appendText_nil_left] at hct
  exact ⟨s5, hrun, hct⟩

/-! ## Copying a region -/

theorem CutPre.set_nonewlines {s : State} {L D : List Nat} (h : CutPre s L D) :
    CutPre { s with NO_NEWLINES := true } L D :=
  { buf :=
      { nodup := h.buf.nodup
        seg := h.buf.seg
        top := h.buf.top
        bot := h.buf.bot
        fresh := h.buf.fresh }
    cur := h.cur
    x_le := h.x_le
    edittop := h.edittop
    mark := h.mark
    magic := fun hnn => by cases hnn
    cut := h.cut
    cut_nodup := h.cut_nodup
    cut_disj := h.cut_disj
    cut_top := h.cut_top
    cut_bot := h.cut_bot }

/-- A copy by `do_cut_text` with `marked` or `cut_till_eof` set (not appending
for a zap): the cutbuffer is emptied first and holds the text of the range
afterwards. -/
theorem do_cut_text_copy_region {s : State} {L D : List Nat} {top top_x bot bot_x : Nat}
    (h : CutPre s L D) (het : s.edittop ∈ L) (hnum : Numbered s.heap 0 L)
    (marked cut_till_eof : Bool) (hmode : marked = true ∨ cut_till_eof = true)
    (hr : cut_range s cut_till_eof = some (top, top_x, bot, bot_x))
    (hne : ¬ (top = bot ∧ top_x = bot_x)) :
    ∃ (s4 : State) (A R B : List Nat),
      do_cut_text s true marked cut_till_eof false = some s4 ∧
      L = A ++ R ++ B ∧ R.head? = some top ∧ R.getLast? = some bot ∧
      text_from s4 s4.cutbuffer = some (rangeText (R.map (dataOf s.heap)) top_x bot_x) ∧
      s4.keep_cutbuffer = false := by
  obtain ⟨A, R, B, hL, hhead, hlast, ht, hb, hle⟩ :=
    cut_range_decomp h cut_till_eof (fun _ _ => hnum) hr
  have hne2 : top = bot → top_x < bot_x := fun e =>
    lt_of_le_of_ne (hle e) (fun e2 => hne ⟨e, e2⟩)
  have hclr : s.keep_cutbuffer = false ∨ marked = true ∨ cut_till_eof = true := Or.inr hmode
  have hkf : (!marked && !cut_till_eof) = false := by
    rcases hmode with e | e
    · rw [e]; rfl
    · rw [e]; simp
  have htL : top ∈ L := by rw [hL]; simp [mem_of_head? hhead]
  have hbL : bot ∈ L := by rw [hL]; simp [List.mem_of_getLast?_eq_some hlast]
  have hRL : ∀ y, y ∈ R → y ∈ L := fun y hy => by
    rw [hL]
    exact List.mem_append_left B (List.mem_append_right A hy)
  have hfbL : s.filebot ∈ L := List.mem_of_getLast?_eq_some h.buf.bot
  -- the clearing
  obtain ⟨H, hclear, hnone, hframe⟩ := do_cut_text_clear_spec h marked cut_till_eof hclr
  have hheap : ∀ y, y ∈ L → H y = s.heap y := fun y hy =>
    hframe y (fun hD => h.cut_disj y hD hy)
  obtain ⟨s1, hs1⟩ : ∃ s1 : State, s1 =
      { s with heap := H, cutbuffer := none, keep_cutbuffer := !marked && !cut_till_eof } :=
    ⟨_, rfl⟩
  rw [← hs1] at hclear
  have h1 : CutPre s1 L [] := by
    rw [hs1]
    exact h.transfer hframe rfl rfl rfl
      (by
        show (H s.edittop).isSome
        rw [hframe _ (fun hD => h.cut_disj _ hD het)]
        exact h.edittop)
      rfl rfl rfl rfl rfl trivial
      List.nodup_nil (fun y hy => absurd hy (List.not_mem_nil y)) rfl
      (fun hc => absurd rfl hc)
  -- the saving
  obtain ⟨s2, hs2⟩ : ∃ s2 : State, s2 = { s1 with NO_NEWLINES := true } := ⟨_, rfl⟩
  have hsave : do_cut_text_save s1 = some (s2, none, 0) := by
    rw [hs2, hs1]
    rfl
  have h2 : CutPre s2 L [] := by
    rw [hs2]
    exact h1.set_nonewlines
  have hh2 : s2.heap = H := by rw [hs2, hs1]
  have hr2 : cut_range s2 cut_till_eof = some (top, top_x, bot, bot_x) := by
    rw [cut_range_congr cut_till_eof (s := s) (by rw [hs2, hs1]) (by rw [hs2, hs1])
      (by rw [hs2, hs1]) (by rw [hs2, hs1]) (by rw [hs2, hs1]) (by rw [hs2, hs1])
      (by rw [hh2]; exact hheap _ h.cur) (by rw [hh2]; exact hheap _ hfbL)
      (fun m hm => by rw [hh2]; exact hheap m (h.mark m hm).1)]
    exact hr
  have hcb2 : s2.cutbuffer = none := by rw [hs2, hs1]
  have hpre2 : ExtractPre s2 A R B [] s2.cutbuffer s2.cutbottom top top_x bot bot_x :=
    h2.extractPre hL hhead hlast
      (by rw [hh2, dataOf_congr (hheap _ htL)]; exact ht)
      (by rw [hh2, dataOf_congr (hheap _ hbL)]; exact hb) hne2
  obtain ⟨t, ft, fb, M, E, hrun, hp⟩ := extract_to_cutbuffer_spec hpre2
  obtain ⟨rsu, hmove⟩ := do_cut_text_move_eq s2 cut_till_eof hr2
  rw [hrun] at hmove
  simp only at hmove
  have hE : E = R := by
    have := hp.dest_shape
    simpa using this
  obtain ⟨s3, hs3⟩ : ∃ s3 : State, s3 =
      (if cut_till_eof = false ∧ s2.mark ≠ none
        then { ({ t with cutbuffer := ft, cutbottom := fb } : State) with mark := none }
        else { t with cutbuffer := ft, cutbottom := fb }) := ⟨_, rfl⟩
  rw [← hs3] at hmove
  have f1 : s3.heap = t.heap := by rw [hs3]; split_ifs <;> rfl
  have f2 : s3.brk = t.brk := by rw [hs3]; split_ifs <;> rfl
  have f3 : s3.filetop = t.filetop := by rw [hs3]; split_ifs <;> rfl
  have f4 : s3.filebot = t.filebot := by rw [hs3]; split_ifs <;> rfl
  have f5 : s3.current = t.current := by rw [hs3]; split_ifs <;> rfl
  have f6 : s3.current_x = t.current_x := by rw [hs3]; split_ifs <;> rfl
  have f7 : s3.mark = t.mark ∨ s3.mark = none := by
    rw [hs3]
    split_ifs
    · exact Or.inr rfl
    · exact Or.inl rfl
  have f8 : s3.cutbuffer = some top := by
    have : s3.cutbuffer = ft := by rw [hs3]; split_ifs <;> rfl
    rw [this, hp.dest_top, hE, hhead]
  have f9 : s3.keep_cutbuffer = false := by
    have : s3.keep_cutbuffer = t.keep_cutbuffer := by rw [hs3]; split_ifs <;> rfl
    rw [this, hp.rest]
    show s2.keep_cutbuffer = false
    rw [hs2, hs1]
    exact hkf
  have hpre2b : ExtractPre s2 A R B [] none s2.cutbottom top top_x bot bot_x := by
    rw [← hcb2]
    exact hpre2
  have hI : IngraftPre s3 A (B ++ M) R top := hp.ingraftPre hpre2b f1 f2 f3 f4 f5 f6 f7
  obtain ⟨t4, C, M2, hrun4, hbuf4, -, -, -, -, -, -, hframe4, -, -, hshape4⟩ :=
    copy_from_buffer_post hI
  -- the state that `do_cut_text` returns
  obtain ⟨s4, hs4⟩ : ∃ s4 : State, s4 =
      (if (!s.NO_NEWLINES) = true then { t4 with NO_NEWLINES := false } else t4) := ⟨_, rfl⟩
  have hfinal : do_cut_text s true marked cut_till_eof false = some s4 := by
    unfold do_cut_text
    simp only [hclear, hsave, hmove, if_true]
    unfold do_cut_text_copy
    simp only [f8, hrun4]
    rw [hs4]
  have g1 : s4.heap = t4.heap := by rw [hs4]; split_ifs <;> rfl
  have g2 : s4.brk = t4.brk := by rw [hs4]; split_ifs <;> rfl
  have g3 : s4.cutbuffer = some top := by
    have e1 : s4.cutbuffer = t4.cutbuffer := by rw [hs4]; split_ifs <;> rfl
    have e2 : t4.cutbuffer = s3.cutbuffer := by rw [hshape4]
    rw [e1, e2, f8]
  have g4 : s4.keep_cutbuffer = false := by
    have e1 : s4.keep_cutbuffer = t4.keep_cutbuffer := by rw [hs4]; split_ifs <;> rfl
    have e2 : t4.keep_cutbuffer = s3.keep_cutbuffer := by rw [hshape4]
    rw [e1, e2, f9]
  have hheapR : ∀ y, y ∈ R → s4.heap y = t.heap y := fun y hy => by
    rw [g1, hframe4 y hy, f1]
  have hsegR : Seg s4.heap none R none :=
    Seg.frame (fun y hy => linksAt_congr (hheapR y hy)) (hE ▸ hp.dest_seg)
  have hltR : ∀ y, y ∈ R → y < s4.brk := by
    intro y hy
    by_contra hge
    obtain ⟨n, hn⟩ := hsegR.live hy
    rw [g1, hbuf4.fresh y (by rw [← g2]; exact Nat.le_of_not_lt hge)] at hn
    cases hn
  have htext := text_from_list (s := s4) hsegR (hE ▸ hp.dest_nodup) hltR
  rw [hhead] at htext
  refine ⟨s4, A, R, B, hfinal, hL, hhead, hlast, ?_, g4⟩
  rw [g3, htext]
  congr 1
  have e1 : R.map (dataOf s4.heap) = R.map (dataOf t.heap) :=
    map_congr_mem (fun y hy => dataOf_congr (hheapR y hy))
  have e2 := hp.dest_text
  rw [hE, List.map_nil, appendText_nil_left] at e2
  have e3 : R.map (dataOf s2.heap) = R.map (dataOf s.heap) :=
    map_congr_mem (fun y hy => dataOf_congr (by rw [hh2]; exact hheap y (hRL y hy)))
  rw [e1, e2, e3]

/-! ## How the cutbuffer accumulates -/

/-- C17: contiguous line cuts accumulate.  For every state in which the
cutting functions may be called (`CutPre`), with the top line of the edit
window in the buffer, valid undo records, no mark, CUT_FROM_CURSOR unset and
`keep_cutbuffer` false, where the line under the cursor is followed by a line
that is itself followed by a line (so neither of the two is the last line):
`do_cut_text_void` returns twice in a row; after the first call the cutbuffer
holds the first line and an empty line, after the second call it holds the
first line, the second line and an empty line. -/
theorem contiguous_line_cuts_accumulate (s : State) (L D : List Nat) (ca cb : linestruct)
    (nb nc : Nat) (h : CutPre s L D) (het : s.edittop ∈ L)
    (hundo : ∀ i, s.current_undo = some i → ∃ u, s.undotop[i]? = some u)
    (hmark : s.mark = none) (hcfc : s.CUT_FROM_CURSOR = false)
    (hkeep : s.keep_cutbuffer = false)
    (ha : s.heap s.current = some ca) (hna : ca.next = some nb)
    (hb : s.heap nb = some cb) (hnb : cb.next = some nc) :
    ∃ (s4 s5 : State),
      do_cut_text_void s = some s4 ∧ do_cut_text_void s4 = some s5 ∧
      text_from s4 s4.cutbuffer = some [ca.data, []] ∧
      text_from s5 s5.cutbuffer = some [ca.data, cb.data, []] :=
  two_line_cuts h het hundo hmark hcfc hkeep ha hna hb hnb

/-- C18: a non-cut action between cuts resets the accumulation.  First part:
for every keystroke that is not KEY_WINCH, when the output of the pending
typed characters returns, `do_input` returns with `keep_cutbuffer` false if
the keystroke is not a shortcut (a typed character), or is a shortcut that is
not refused in view mode, whose function is neither `do_cut_text_void` nor
`do_copy_text`, that is a toggle only of CUT_FROM_CURSOR, and whose function
(when it is not a toggle) returns.  Second part: for a session whose state the
cutting functions may be called in, with valid undo records, no mark,
CUT_FROM_CURSOR unset, no pending typed characters and outside view mode, with
the cursor on a line that can be cut, the three events cut (a shortcut bound
to `do_cut_text_void`), cursor movement (a shortcut bound to a cursor-moving
command that puts the cursor and the top of the edit window on lines of the
buffer and changes nothing else) and cut again all return; `keep_cutbuffer` is
set after the first cut and false after the movement, and unless the second
cut is refused (cursor on an empty last line) the cutbuffer afterwards holds
only the line that the second cut took (with its line break, unless it is the
last line). -/
theorem non_cut_action_resets_accumulation (is_ascii_cntrl_char : Nat → Bool)
    (others : funcptr → Session → Option Session) :
    (∀ (k : keystroke) (e e1 : Session),
      k.winch = false →
      do_input_flush is_ascii_cntrl_char k (do_input_character k e) = some e1 →
      (k.shortcut = none ∨
        ∃ sc, k.shortcut = some sc ∧ ¬ (e.VIEW_MODE = true ∧ k.okay_for_view = false) ∧
          sc.func ≠ funcptr.do_cut_text_void ∧ sc.func ≠ funcptr.do_copy_text ∧
          (sc.func = funcptr.do_toggle_void → sc.toggle = flag_id.CUT_FROM_CURSOR) ∧
          (sc.func ≠ funcptr.do_toggle_void →
            ∃ e2, do_input_run others k sc.func e1 = some e2)) →
      ∃ e3, do_input is_ascii_cntrl_char others k e = some e3 ∧
        e3.st.keep_cutbuffer = false) ∧
    (∀ (e : Session) (L D : List Nat) (kc km : keystroke) (scc scm : keystruct)
        (c1 : linestruct),
      CutPre e.st L D → (e.st.keep_cutbuffer = false → e.st.edittop ∉ D) →
      (∀ i, e.st.current_undo = some i → ∃ u, e.st.undotop[i]? = some u) →
      e.st.mark = none → e.st.CUT_FROM_CURSOR = false →
      e.puddle = none → e.VIEW_MODE = false →
      e.st.heap e.st.current = some c1 → (c1.next ≠ none ∨ c1.data ≠ []) →
      (kc.winch = false ∧ kc.shortcut = some scc ∧
        scc.func = funcptr.do_cut_text_void ∧ kc.shift_held = false) →
      (km.winch = false ∧ km.shortcut = some scm ∧
        wanted_to_move scm.func = true ∧ km.shift_held = false) →
      (∀ (e1 : Session) (L1 : List Nat), Buf e1.st L1 →
        ∃ e2, others scm.func e1 = some e2 ∧
          e2 = { e1 with st := { e1.st with current := e2.st.current,
                                            current_x := e2.st.current_x,
                                            edittop := e2.st.edittop } } ∧
          e2.st.current ∈ L1 ∧
          e2.st.current_x ≤ (dataOf e1.st.heap e2.st.current).length ∧
          e2.st.edittop ∈ L1) →
      ∃ (e1 e2 e3 : Session),
        do_input is_ascii_cntrl_char others kc e = some e1 ∧
        do_input is_ascii_cntrl_char others km e1 = some e2 ∧
        do_input is_ascii_cntrl_char others kc e2 = some e3 ∧
        e1.st.keep_cutbuffer = true ∧ e2.st.keep_cutbuffer = false ∧
        text_from e1.st e1.st.cutbuffer = some
          (appendText
            ((if e.st.keep_cutbuffer = false then [] else D).map (dataOf e.st.heap))
            (if e.st.current = e.st.filebot then [c1.data] else [c1.data, []])) ∧
        (¬ (e2.st.current = e2.st.filebot ∧ dataOf e2.st.heap e2.st.current = []) →
          text_from e3.st e3.st.cutbuffer = some
            (if e2.st.current = e2.st.filebot then [dataOf e2.st.heap e2.st.current]
              else [dataOf e2.st.heap e2.st.current, []]))) :=
  ⟨fun _ _ _ hw hfl hk => do_input_keep is_ascii_cntrl_char others hw hfl hk,
    fun _ _ _ _ _ _ _ _ h hel hundo hmark hcfc hp hv hc1 hne1 hkc hkm hmove =>
      cut_move_cut is_ascii_cntrl_char others h hel hundo hmark hcfc hp hv hc1 hne1 hkc hkm
        hmove⟩

/-- C19: `do_cut_text` with `append` false and `marked` or `cut_till_eof` true
discards the previous cutbuffer, whatever `keep_cutbuffer` is.  For every state
in which the cutting functions may be called (`CutPre`, with any cutbuffer `D`
and any `keep_cutbuffer`), with the top line of the edit window in the buffer
and lines numbered from one, every `copy_text`, and a non-empty range
`(top, top_x)` to `(bot, bot_x)` that the chosen cutting function hands to
`extract_buffer`: `do_cut_text` returns, the cutbuffer afterwards holds exactly
the text of that range of the buffer, and `keep_cutbuffer` is false.  When the
call was cutting (`copy_text` false) and leaves no mark, CUT_FROM_CURSOR is
unset and the undo records are valid, a cut of the current line by
`do_cut_text_void` that follows at once (and is not refused) returns and
leaves in the cutbuffer only that line (with its line break, unless it is the
last line). -/
theorem region_cut_clears_cutbuffer (s : State) (L D : List Nat)
    (copy_text marked cut_till_eof : Bool) (top top_x bot bot_x : Nat)
    (h : CutPre s L D) (het : s.edittop ∈ L) (hnum : Numbered s.heap 0 L)
    (hmode : marked = true ∨ cut_till_eof = true)
    (hr : cut_range s cut_till_eof = some (top, top_x, bot, bot_x))
    (hne : ¬ (top = bot ∧ top_x = bot_x)) :
    ∃ (s3 : State) (A R B : List Nat),
      do_cut_text s copy_text marked cut_till_eof false = some s3 ∧
      L = A ++ R ++ B ∧ R.head? = some top ∧ R.getLast? = some bot ∧
      text_from s3 s3.cutbuffer = some (rangeText (R.map (dataOf s.heap)) top_x bot_x) ∧
      s3.keep_cutbuffer = false ∧
      (copy_text = false → (cut_till_eof = false ∨ s.mark = none) →
        s.CUT_FROM_CURSOR = false →
        (∀ i, s.current_undo = some i → ∃ u, s.undotop[i]? = some u) →
        ∀ c, s3.heap s3.current = some c → (c.next ≠ none ∨ c.data ≠ []) →
          ∃ s5, do_cut_text_void s3 = some s5 ∧
            text_from s5 s5.cutbuffer = some
              (if s3.current = s3.filebot then [c.data] else [c.data, []])) := by
  cases copy_text with
  | true =>
    obtain ⟨s4, A, R, B, hrun, hL, hhead, hlast, htext, hkeep⟩ :=
      do_cut_text_copy_region h het hnum marked cut_till_eof hmode hr hne
    exact ⟨s4, A, R, B, hrun, hL, hhead, hlast, htext, hkeep, fun hc => by cases hc⟩
  | false =>
    obtain ⟨s0, t, s3, A, R, B, M, E, ft, fb, hrun, hcr, hkeep, hmark, hut, hcu⟩ :=
      do_cut_text_region h het hnum marked cut_till_eof hmode hr hne
    have htext := hcr.cutbuffer_text
    rw [List.map_nil, appendText_nil_left] at htext
    refine ⟨s3, A, R, B, hrun, hcr.list, hcr.pre.head, hcr.pre.last, htext, hkeep, ?_⟩
    intro _ hm hcfc hundo c hc hnec
    have hm3 : s3.mark = none := by
      rw [hmark]
      by_cases hcase : cut_till_eof = false ∧ s.mark ≠ none
      · rw [if_pos hcase]
      · rw [if_neg hcase]
        have hsn : s.mark = none := by
          rcases hm with e | e
          · by_contra hn
            exact hcase ⟨e, hn⟩
          · exact e
        have e0 : s0.mark = s.mark := by rw [hcr.eq0]
        rcases hcr.post.mark with e | ⟨e, -⟩
        · rw [e, e0, hsn]
        · rw [e0] at e
          exact absurd hsn e
    exact region_then_line_cut hcr het hnum hkeep hm3 hcfc
      (by rw [hut, hcu]; exact hundo) hc hnec

/-- C20 (amended): a refused cut changes nothing but the mark.  Whenever
`is_cuttable` refuses (it reports "Nothing was cut"), `do_cut_text_void` and
`zap_text` return the state they were called in with the mark turned off:
the lines, `totsize`, the modified flag, the cursor, the cutbuffer and the
undo stack are as before the call, and the mark is so only when there was
none.  Whenever `do_cut_till_eof` refuses, it returns the state it was called
in, unchanged. -/
theorem refused_cut_clears_only_mark (mark_flags : Nat) (s : State) :
    (∀ s1, is_cuttable s (s.CUT_FROM_CURSOR && s.mark.isNone) = some (s1, false) →
      do_cut_text_void s = some { s with mark := none } ∧
      zap_text mark_flags s = some { s with mark := none }) ∧
    (do_cut_till_eof_refuses s = some true → do_cut_till_eof s = some s) :=
  ⟨fun _ h => ⟨do_cut_text_void_refused h, zap_text_refused mark_flags h⟩,
    do_cut_till_eof_refused⟩

/-- A cut with the mark at the cursor is refused, and the refusal turns the
mark off. -/
theorem refused_cut_turns_mark_off :
    demoZero.mark = some 1 ∧
    is_cuttable demoZero (demoZero.CUT_FROM_CURSOR && demoZero.mark.isNone) =
      some ({ demoZero with mark := none }, false) ∧
    ∃ s1, do_cut_text_void demoZero = some s1 ∧ s1.mark = none ∧ s1.mark ≠ demoZero.mark := by
  have hr : is_cuttable demoZero (demoZero.CUT_FROM_CURSOR && demoZero.mark.isNone) =
      some ({ demoZero with mark := none }, false) := rfl
  refine ⟨rfl, hr, _, do_cut_text_void_refused hr, rfl, ?_⟩
  show (none : Option Nat) ≠ some 1
  exact fun hc => by cases hc

/-! ## The theorems about cutting at the concrete states -/

theorem demoMark_size : size_invariant demoMark := by
  unfold size_invariant
  decide

theorem demoEol_size : size_invariant demoEol := by
  unfold size_invariant
  decide

theorem helloBuf_size : size_invariant (helloBuf 0) := by
  unfold size_invariant
  decide

theorem cut_line_paste_round_trip_witness :
    CutPre demoPaste [0, 1, 2, 3] [4, 5] ∧ size_invariant demoPaste ∧
    demoPaste.mark = none ∧ demoPaste.CUT_FROM_CURSOR = false ∧
    demoPaste.keep_cutbuffer = false ∧
    ∃ (s4 t2 : State),
      do_cut_text_void demoPaste = some s4 ∧ do_uncut_text s4 = some t2 ∧
      text_from s4 s4.cutbuffer = some [[4, 5], []] ∧
      buffer_text demoPaste = some [[1, 2, 3], [4, 5], [6], []] ∧
      buffer_text t2 = some [[1, 2, 3], [4, 5], [6], []] ∧ t2.totsize = 9 := by
  obtain ⟨s4, t2, T, h1, h2, h3, h4, h5, h6⟩ :=
    cut_line_paste_round_trip demoPaste demoPaste [0, 1, 2, 3] [4, 5] demoPaste_cutPre
      (by decide) (fun i hi => by cases hi) demoPaste_size rfl rfl rfl rfl
  have hT : T = [[1, 2, 3], [4, 5], [6], []] :=
    Option.some.inj (h4.symm.trans (by decide))
  rw [hT] at h5
  exact ⟨demoPaste_cutPre, demoPaste_size, rfl, rfl, rfl, s4, t2, h1, h2,
    h3.trans (by decide), by decide, h5, h6.trans (by decide)⟩

theorem marked_cut_paste_round_trip_witness :
    CutPre demoMark [0, 1, 2, 3] [4, 5] ∧ size_invariant demoMark ∧
    demoMark.mark = some 0 ∧ demoMark.mark_x = 2 ∧
    demoMark.current = 1 ∧ demoMark.current_x = 1 ∧
    ∃ (s4 t2 : State),
      do_cut_text_void demoMark = some s4 ∧ do_uncut_text s4 = some t2 ∧
      buffer_text demoMark = some [[1, 2, 3], [4, 5], [6], []] ∧
      buffer_text t2 = some [[1, 2, 3], [4, 5], [6], []] ∧ t2.totsize = 9 := by
  obtain ⟨s4, t2, T, top, top_x, bot, bot_x, hr, h1, h2, h4, h5, h6⟩ :=
    marked_cut_paste_round_trip demoMark [0, 1, 2, 3] [4, 5] 0 demoMark_cutPre
      (by decide) (fun i hi => by cases hi) demoPaste_numbered demoMark_size rfl (by decide)
  have hr2 : cut_range demoMark false = some (0, 2, 1, 1) := by decide
  rw [hr2] at hr
  simp only [Option.some.injEq, Prod.mk.injEq] at hr
  obtain ⟨rfl, rfl, rfl, rfl⟩ := hr
  have hT : T = [[1, 2, 3], [4, 5], [6], []] :=
    Option.some.inj (h4.symm.trans (by decide))
  rw [hT] at h5
  exact ⟨demoMark_cutPre, demoMark_size, rfl, rfl, rfl, rfl, s4, t2, h1, h2, by decide,
    h5.trans (by decide), h6.trans (by decide)⟩

theorem cut_till_eof_paste_round_trip_witness :
    CutPre (helloBuf 0) [0, 1] [] ∧ size_invariant (helloBuf 0) ∧
    do_cut_till_eof_refuses (helloBuf 0) = some false ∧
    ∃ (s4 t2 : State),
      do_cut_till_eof (helloBuf 0) = some s4 ∧ do_uncut_text s4 = some t2 ∧
      buffer_text (helloBuf 0) = some [[104, 101, 108, 108, 111], []] ∧
      buffer_text t2 = some [[104, 101, 108, 108, 111], []] ∧ t2.totsize = 6 := by
  obtain ⟨s4, t2, T, h1, h2, h4, h5, h6⟩ :=
    cut_till_eof_paste_round_trip (helloBuf 0) [0, 1] [] (helloBuf_cutPre 0 (by decide))
      (by decide) helloBuf_size (by decide)
  have hT : T = [[104, 101, 108, 108, 111], []] :=
    Option.some.inj (h4.symm.trans (by decide))
  rw [hT] at h5
  exact ⟨helloBuf_cutPre 0 (by decide), helloBuf_size, by decide, s4, t2, h1, h2, by decide,
    h5.trans (by decide), h6.trans (by decide)⟩

theorem cut_to_eol_paste_round_trip_witness :
    CutPre demoEol [0, 1, 2, 3] [4, 5] ∧ size_invariant demoEol ∧
    demoEol.mark = none ∧ demoEol.CUT_FROM_CURSOR = true ∧ demoEol.keep_cutbuffer = false ∧
    ∃ (s4 t2 : State),
      do_cut_text_void demoEol = some s4 ∧ do_uncut_text s4 = some t2 ∧
      text_from s4 s4.cutbuffer = some [[5]] ∧
      buffer_text demoEol = some [[1, 2, 3], [4, 5], [6], []] ∧
      buffer_text t2 = some [[1, 2, 3], [4, 5], [6], []] ∧ t2.totsize = 9 := by
  obtain ⟨s4, t2, T, h1, h2, h3, h4, h5, h6⟩ :=
    cut_to_eol_paste_round_trip demoEol demoEol [0, 1, 2, 3] [4, 5] demoEol_cutPre
      (by decide) (fun i hi => by cases hi) demoEol_size rfl rfl rfl rfl
  have hT : T = [[1, 2, 3], [4, 5], [6], []] :=
    Option.some.inj (h4.symm.trans (by decide))
  rw [hT] at h5
  exact ⟨demoEol_cutPre, demoEol_size, rfl, rfl, rfl, s4, t2, h1, h2,
    h3.trans (by decide), by decide, h5, h6.trans (by decide)⟩

theorem cut_paste_cursor_at_range_end_witness :
    CutPre demoPaste [0, 1, 2, 3] [4, 5] ∧ Numbered demoPaste.heap 0 [0, 1, 2, 3] ∧
    linenoAt demoPaste.heap demoPaste.current = some 2 ∧ demoPaste.current_x = 1 ∧
    ∃ (s4 t2 : State),
      do_cut_text_void demoPaste = some s4 ∧ do_uncut_text s4 = some t2 ∧
      linenoAt t2.heap t2.current = some 3 ∧ t2.current_x = 0 := by
  obtain ⟨s4, t2, top, top_x, bot, bot_x, hr, h1, h2, h3, h4, -⟩ :=
    cut_paste_cursor_at_range_end demoPaste [0, 1, 2, 3] [4, 5] false demoPaste_cutPre
      (by decide) (fun i hi => by cases hi) demoPaste_numbered
      (Or.inr ⟨rfl, Or.inl rfl, demoPaste, rfl⟩)
  have hr2 : cut_range demoPaste false = some (1, 0, 2, 0) := by decide
  rw [hr2] at hr
  simp only [Option.some.injEq, Prod.mk.injEq] at hr
  obtain ⟨rfl, rfl, rfl, rfl⟩ := hr
  exact ⟨demoPaste_cutPre, demoPaste_numbered, by decide, rfl, s4, t2, h1, h2,
    h3.trans (by decide), h4⟩

theorem hello_cut_paste_witness :
    (helloBuf 5).mark = none ∧ (helloBuf 5).cutbuffer = none ∧
    buffer_text (helloBuf 5) = some [[104, 101, 108, 108, 111], []] ∧
    linenoAt (helloBuf 5).heap (helloBuf 5).current = some 1 ∧ (helloBuf 5).current_x = 5 ∧
    ∃ (s4 t2 : State),
      do_cut_text_void (helloBuf 5) = some s4 ∧ do_uncut_text s4 = some t2 ∧
      text_from s4 s4.cutbuffer = some [[104, 101, 108, 108, 111], []] ∧
      buffer_text s4 = some [[]] ∧
      buffer_text t2 = some [[104, 101, 108, 108, 111], []] ∧
      linenoAt t2.heap t2.current = some 2 ∧ t2.current_x = 0 :=
  hello_cut_paste 5 (by decide)

theorem contiguous_line_cuts_accumulate_witness :
    CutPre demoPaste [0, 1, 2, 3] [4, 5] ∧
    buffer_text demoPaste = some [[1, 2, 3], [4, 5], [6], []] ∧ demoPaste.current = 1 ∧
    ∃ (s4 s5 : State),
      do_cut_text_void demoPaste = some s4 ∧ do_cut_text_void s4 = some s5 ∧
      text_from s4 s4.cutbuffer = some [[4, 5], []] ∧
      text_from s5 s5.cutbuffer = some [[4, 5], [6], []] :=
  ⟨demoPaste_cutPre, by decide, rfl,
    contiguous_line_cuts_accumulate demoPaste [0, 1, 2, 3] [4, 5]
      { data := [4, 5], lineno := 2, next := some 2, prev := some 0 }
      { data := [6], lineno := 3, next := some 3, prev := some 1 } 2 3
      demoPaste_cutPre (by decide) (fun i hi => by cases hi) rfl rfl rfl rfl rfl rfl rfl⟩

theorem demoOthers_moves (f : funcptr) (e1 : Session) (L1 : List Nat) (hb : Buf e1.st L1) :
    ∃ e2, demoOthers f e1 = some e2 ∧
      e2 = { e1 with st := { e1.st with current := e2.st.current,
                                        current_x := e2.st.current_x,
                                        edittop := e2.st.edittop } } ∧
      e2.st.current ∈ L1 ∧
      e2.st.current_x ≤ (dataOf e1.st.heap e2.st.current).length ∧
      e2.st.edittop ∈ L1 :=
  ⟨_, rfl, rfl, hb.filetop_mem, Nat.zero_le _, hb.filetop_mem⟩

theorem non_cut_action_resets_accumulation_witness :
    (∃ e3, do_input ascii_cntrl demoOthers demoKeyChar demoSession = some e3 ∧
      e3.st.keep_cutbuffer = false) ∧
    (∃ e3, do_input ascii_cntrl demoOthers demoKeyTop demoSession = some e3 ∧
      e3.st.keep_cutbuffer = false) ∧
    ∃ (e1 e2 e3 : Session),
      do_input ascii_cntrl demoOthers demoKeyCut demoSession = some e1 ∧
      do_input ascii_cntrl demoOthers demoKeyTop e1 = some e2 ∧
      do_input ascii_cntrl demoOthers demoKeyCut e2 = some e3 ∧
      e1.st.keep_cutbuffer = true ∧ e2.st.keep_cutbuffer = false ∧
      text_from e1.st e1.st.cutbuffer = some [[4, 5], []] ∧
      (¬ (e2.st.current = e2.st.filebot ∧ dataOf e2.st.heap e2.st.current = []) →
        text_from e3.st e3.st.cutbuffer = some
          (if e2.st.current = e2.st.filebot then [dataOf e2.st.heap e2.st.current]
            else [dataOf e2.st.heap e2.st.current, []])) := by
  have hth := non_cut_action_resets_accumulation ascii_cntrl demoOthers
  refine ⟨hth.1 demoKeyChar demoSession _ rfl rfl (Or.inl rfl),
    hth.1 demoKeyTop demoSession demoSession rfl rfl
      (Or.inr ⟨_, rfl, by decide, by decide, by decide, by decide, fun _ => ⟨_, rfl⟩⟩), ?_⟩
  obtain ⟨e1, e2, e3, h1, h2, h3, h4, h5, h6, h7⟩ :=
    hth.2 demoSession [0, 1, 2, 3] [4, 5] demoKeyCut demoKeyTop _ _
      { data := [4, 5], lineno := 2, next := some 2, prev := some 0 }
      demoPaste_cutPre (fun _ => by decide) (fun i hi => by cases hi) rfl rfl rfl rfl rfl
      (Or.inl (by decide)) ⟨rfl, rfl, rfl, rfl⟩ ⟨rfl, rfl, rfl, rfl⟩
      (demoOthers_moves _)
  exact ⟨e1, e2, e3, h1, h2, h3, h4, h5, h6.trans (by decide), h7⟩

theorem region_cut_clears_cutbuffer_witness :
    CutPre demoMark [0, 1, 2, 3] [4, 5] ∧
    text_from demoMark demoMark.cutbuffer = some [[7, 8], [9]] ∧
    cut_range demoMark false = some (0, 2, 1, 1) ∧
    ∃ (s3 : State),
      do_cut_text demoMark false true false false = some s3 ∧
      text_from s3 s3.cutbuffer = some [[3], [4]] ∧ s3.keep_cutbuffer = false := by
  have hr : cut_range demoMark false = some (0, 2, 1, 1) := by decide
  obtain ⟨s3, A, R, B, h1, hL, hhead, hlast, h5, h6, -⟩ :=
    region_cut_clears_cutbuffer demoMark [0, 1, 2, 3] [4, 5] false true false 0 2 1 1
      demoMark_cutPre (by decide) demoPaste_numbered (Or.inl rfl) hr (by decide)
  have hc : demoMark.heap 0 = some
      { data := [1, 2, 3], lineno := 1, next := some 1, prev := none } := rfl
  have hR := range_two demoMark_cutPre.buf hL hhead hlast hc rfl
  rw [hR] at h5
  exact ⟨demoMark_cutPre, by decide, hr, s3, h1, h5.trans (by decide), h6⟩

theorem refused_cut_clears_only_mark_witness :
    is_cuttable demoZero (demoZero.CUT_FROM_CURSOR && demoZero.mark.isNone) =
      some ({ demoZero with mark := none }, false) ∧
    do_cut_text_void demoZero = some { demoZero with mark := none } ∧
    zap_text 0 demoZero = some { demoZero with mark := none } ∧
    do_cut_till_eof_refuses tailMark = some true ∧
    do_cut_till_eof tailMark = some tailMark :=
  ⟨rfl, ((refused_cut_clears_only_mark 0 demoZero).1 _ rfl).1,
    ((refused_cut_clears_only_mark 0 demoZero).1 _ rfl).2, rfl,
    (refused_cut_clears_only_mark 0 tailMark).2 rfl⟩

/-- C21: `is_cuttable(test_cliff)` returns, and it returns FALSE if and only
if (a) the cursor line has no successor, is empty, and no mark is set, or
(b) the mark is set on the cursor line at the cursor offset, or (c) test_cliff
is true, the cursor is at the end of its line, and that line is the last line
when NO_NEWLINES is set or the line just before the last line when
NO_NEWLINES is unset; in every other state it returns TRUE.  The cursor and
the last line are allocated and the cursor is inside its line. -/
theorem is_cuttable_false_iff (s : State) (test_cliff : Bool) (c fb : linestruct)
    (hc : s.heap s.current = some c) (hfb : s.heap s.filebot = some fb)
    (hx : s.current_x ≤ c.data.length) :
    ∃ s1 b, is_cuttable s test_cliff = some (s1, b) ∧
      (b = false ↔
        ((c.next = none ∧ c.data = [] ∧ s.mark = none) ∨
         (s.mark = some s.current ∧ s.mark_x = s.current_x) ∨
         (test_cliff = true ∧ s.current_x = c.data.length ∧
           ((s.NO_NEWLINES = true ∧ s.current = s.filebot) ∨
            (s.NO_NEWLINES = false ∧ some s.current = fb.prev))))) ∧
      (b = true ↔
        ¬ ((c.next = none ∧ c.data = [] ∧ s.mark = none) ∨
         (s.mark = some s.current ∧ s.mark_x = s.current_x) ∨
         (test_cliff = true ∧ s.current_x = c.data.length ∧
           ((s.NO_NEWLINES = true ∧ s.current = s.filebot) ∨
            (s.NO_NEWLINES = false ∧ some s.current = fb.prev))))) := by
  unfold is_cuttable
  simp only [hc]
  by_cases h12 : (c.next = none ∧ c.data = [] ∧ s.mark = none) ∨
      (s.mark = some s.current ∧ s.mark_x = s.current_x)
  · rw [if_pos h12]
    refine ⟨_, false, rfl, ?_, ?_⟩
    · constructor
      · intro _
        rcases h12 with h | h
        · exact Or.inl h
        · exact Or.inr (Or.inl h)
      · intro _
        rfl
    · constructor
      · intro h
        cases h
      · intro h
        exfalso
        apply h
        rcases h12 with h | h
        · exact Or.inl h
        · exact Or.inr (Or.inl h)
  · rw [if_neg h12]
    have hno : ∀ P : Prop, ((c.next = none ∧ c.data = [] ∧ s.mark = none) ∨
        (s.mark = some s.current ∧ s.mark_x = s.current_x) ∨ P) ↔ P := by
      intro P
      constructor
      · intro h
        rcases h with h | h | h
        · exact absurd (Or.inl h) h12
        · exact absurd (Or.inr h) h12
        · exact h
      · intro h
        exact Or.inr (Or.inr h)
    simp only [hno]
    unfold is_cuttable_cliff at_terminator
    cases test_cliff with
    | false =>
      refine ⟨s, true, ?_, ?_, ?_⟩
      · simp
      · simp
      · simp
    | true =>
      by_cases hlt : s.current_x < c.data.length
      · refine ⟨s, true, ?_, ?_, ?_⟩
        · simp [hlt]
        · simp only [true_and]
          constructor
          · intro h
            cases h
          · intro h
            omega
        · simp only [true_and, true_iff]
          intro h
          omega
      · have he : s.current_x = c.data.length := by omega
        by_cases hnn : s.NO_NEWLINES = true
        · by_cases hcf : s.current = s.filebot
          · refine ⟨{ s with mark := none }, false, ?_, ?_, ?_⟩
            · simp [he, hnn, hcf]
            · simp [he, hnn, hcf]
            · simp [he, hnn, hcf]
          · refine ⟨s, true, ?_, ?_, ?_⟩
            · simp [he, hnn, hcf]
            · simp [he, hnn, hcf]
            · simp [he, hnn, hcf]
        · have hnf : s.NO_NEWLINES = false := by simpa using hnn
          by_cases hcp : some s.current = fb.prev
          · refine ⟨{ s with mark := none }, false, ?_, ?_, ?_⟩
            · simp [he, hnf, hfb, hcp]
            · simp [he, hnf, hcp]
            · simp [he, hnf, hcp]
          · refine ⟨s, true, ?_, ?_, ?_⟩
            · simp [he, hnf, hfb, hcp]
            · simp [he, hnf, hcp]
            · simp [he, hnf, hcp]

/-- C22: `do_uncut_text` with an empty (null) cutbuffer returns the state as
it was: buffer lines, totsize, cursor, mark, modified flag and undo stack are
unchanged and no undo record is added. -/
theorem do_uncut_text_empty_cutbuffer (s : State) (h : s.cutbuffer = none) :
    do_uncut_text s = some s ∧
    ∀ t, do_uncut_text s = some t →
      buffer_lines t = buffer_lines s ∧ t.totsize = s.totsize ∧ t.current = s.current ∧
      t.current_x = s.current_x ∧ t.mark = s.mark ∧ t.mark_x = s.mark_x ∧
      t.modified = s.modified ∧ t.undotop = s.undotop ∧ t.current_undo = s.current_undo ∧
      t.last_action = s.last_action := by
  have e : do_uncut_text s = some s := by
    unfold do_uncut_text
    rw [h]
  refine ⟨e, ?_⟩
  intro t ht
  rw [e] at ht
  cases ht
  exact ⟨rfl, rfl, rfl, rfl, rfl, rfl, rfl, rfl, rfl, rfl⟩

/-- C30: after `partition_buffer(top, top_x, bot, bot_x)` under its
precondition (the range `R` runs from `top` to `bot` inside the buffer, the
offsets are within their lines, `top_x <= bot_x` when `top = bot`), the buffer
seen from filetop to filebot is exactly the selected range: filetop is `top`
with no predecessor, filebot is `bot` with no successor, the content of `top`
is its old content from offset `top_x` on, the content of `bot` is its old
content up to offset `bot_x` (the old bytes from `top_x` to `bot_x` when
`top = bot`), the lines strictly between them are unchanged, and the partition
record holds the first `top_x` bytes of old `top` and the bytes of old `bot`
from `bot_x` on. -/
theorem partition_buffer_selects_range {s : State} {A R B : List Nat} {top bot : Nat}
    (top_x bot_x : Nat)
    (hbuf : Buf s (A ++ R ++ B)) (htop : R.head? = some top) (hbot : R.getLast? = some bot)
    (htx : top_x ≤ (dataOf s.heap top).length) (hbx : bot_x ≤ (dataOf s.heap bot).length)
    (hsame : top = bot → top_x ≤ bot_x) :
    ∃ (t : State) (p : partition),
      partition_buffer s top top_x bot bot_x = some (t, p) ∧
      t.filetop = top ∧ t.filebot = bot ∧ Buf t R ∧
      buffer_text t = some (rangeText (R.map (dataOf s.heap)) top_x bot_x) ∧
      dataOf t.heap top =
        (if top = bot then ((dataOf s.heap top).take bot_x).drop top_x
          else (dataOf s.heap top).drop top_x) ∧
      dataOf t.heap bot =
        (if top = bot then ((dataOf s.heap top).take bot_x).drop top_x
          else (dataOf s.heap bot).take bot_x) ∧
      (∀ y, y ∈ R → y ≠ top → y ≠ bot → t.heap y = s.heap y) ∧
      p.top_data = (dataOf s.heap top).take top_x ∧
      p.bot_data = (dataOf s.heap bot).drop bot_x := by
  obtain ⟨p, hp, hparted, hseg, htd, hbd⟩ :=
    partition_buffer_spec top_x bot_x hbuf htop hbot htx hbx hsame
  obtain ⟨_, hndR, _, _, _, _⟩ := nodup_parts hbuf.nodup
  have hlive : ∀ y, y ∈ R → (s.heap y).isSome := by
    intro y hy
    exact hbuf.mem_live (by simp [hy])
  have htR : top ∈ R := List.mem_of_mem_head? htop
  have hbR : bot ∈ R := List.mem_of_mem_getLast? hbot
  have hB : Buf { s with
            filetop := top, filebot := bot,
            heap := (((s.heap.setPrev top none).setNext bot none).mapData bot
                        (List.take bot_x)).mapData top (List.drop top_x) } R :=
    { nodup := hndR
      seg := hseg
      top := htop
      bot := hbot
      fresh := hparted.fresh }
  refine ⟨_, p, hp, rfl, rfl, hB, ?_, ?_, ?_, ?_, htd, hbd⟩
  · rw [hB.text]
    exact congrArg some (mapHead_mapLast_map_partition top_x bot_x hndR htop hbot hlive)
  · show dataOf ((((s.heap.setPrev top none).setNext bot none).mapData bot
        (List.take bot_x)).mapData top (List.drop top_x)) top = _
    rw [dataOf_mapData_same _ (by simpa using hlive top htR)]
    by_cases e : top = bot
    · subst e
      rw [if_pos rfl, dataOf_mapData_same _ (by simpa using hlive top htR)]
      simp
    · rw [if_neg e, dataOf_mapData_ne _ _ e]
      simp
  · show dataOf ((((s.heap.setPrev top none).setNext bot none).mapData bot
        (List.take bot_x)).mapData top (List.drop top_x)) bot = _
    by_cases e : top = bot
    · subst e
      rw [if_pos rfl, dataOf_mapData_same _ (by simpa using hlive top htR),
        dataOf_mapData_same _ (by simpa using hlive top htR)]
      simp
    · rw [if_neg e, dataOf_mapData_ne _ _ (Ne.symm e),
        dataOf_mapData_same _ (by simpa using hlive bot hbR)]
      simp
  · intro y _ hyt hyb
    show ((((s.heap.setPrev top none).setNext bot none).mapData bot
        (List.take bot_x)).mapData top (List.drop top_x)) y = s.heap y
    simp [Heap.mapData, Heap.setPrev, Heap.setNext, Heap.upd_ne, hyt, hyb]

/-! ## The cutting functions called on their own -/

/-- The line `c` of the buffer `A ++ c :: B`: its `next` is the line that
follows, and it is the last line exactly when nothing follows. -/
theorem Buf.at_split {s : State} {A B : List Nat} {c : Nat} (hb : Buf s (A ++ c :: B)) :
    ∃ n, s.heap c = some n ∧ n.next = B.head? ∧ (c = s.filebot ↔ B = []) := by
  obtain ⟨n, hn, -, hnx⟩ := linksAt_some hb.seg.links_mid
  refine ⟨n, hn, ?_, ?_⟩
  · rw [hnx]
    exact nextOf_eq_head? B
  · have hbot := hb.bot
    constructor
    · intro e
      by_contra hne
      have e2 : A ++ c :: B = (A ++ [c]) ++ B := by simp
      rw [e2, List.getLast?_append_of_ne_nil _ hne] at hbot
      have hm := List.mem_of_getLast?_eq_some hbot
      rw [← e] at hm
      have hnd := hb.nodup
      rw [List.nodup_append] at hnd
      exact (List.nodup_cons.1 hnd.2.1).1 hm
    · intro e
      subst e
      simp only [getLast?_snoc, Option.some.injEq] at hbot
      exact hbot

/-- What one call of `extract_buffer` on the cutbuffer leaves: the text of the
buffer, the text of the cutbuffer and the line number of the cursor line. -/
theorem extract_to_cutbuffer_run {s : State} {L D A R B : List Nat}
    {top top_x bot bot_x : Nat}
    (h : CutPre s L D) (hL : L = A ++ R ++ B) (hhead : R.head? = some top)
    (hlast : R.getLast? = some bot) (ht : top_x ≤ (dataOf s.heap top).length)
    (hb : bot_x ≤ (dataOf s.heap bot).length) (hne : top = bot → top_x < bot_x) :
    ∃ (t : State) (M E : List Nat) (ft fb : Option Nat),
      extract_to_cutbuffer s top top_x bot bot_x =
        some { t with cutbuffer := ft, cutbottom := fb } ∧
      ExtractPost s t A R B D top_x bot_x M E ft fb ∧
      M.map (dataOf t.heap) = round_trip_extra s top_x bot ∧
      buffer_text { t with cutbuffer := ft, cutbottom := fb } = some
        (A.map (dataOf s.heap) ++
          [(dataOf s.heap top).take top_x ++ (dataOf s.heap bot).drop bot_x] ++
          B.map (dataOf s.heap) ++ round_trip_extra s top_x bot) ∧
      text_from { t with cutbuffer := ft, cutbottom := fb } ft = some
        (appendText (D.map (dataOf s.heap)) (rangeText (R.map (dataOf s.heap)) top_x bot_x)) ∧
      linenoAt t.heap s.brk = some (lastNumber s.heap A + 1) := by
  have hpre := h.extractPre hL hhead hlast ht hb hne
  obtain ⟨t, ft, fb, M, E, hrun, hp⟩ := extract_to_cutbuffer_spec hpre
  have hM := hp.magic_extra hpre h.magic
  refine ⟨t, M, E, ft, fb, hrun, hp, hM, ?_, ?_, ?_⟩
  · have e0 : buffer_text { t with cutbuffer := ft, cutbottom := fb } = buffer_text t :=
      buffer_text_congr rfl rfl rfl
    have e1 : A.map (dataOf t.heap) = A.map (dataOf s.heap) :=
      map_congr_mem (fun y hy => hp.data_old y (by simp [hy]))
    have e2 : B.map (dataOf t.heap) = B.map (dataOf s.heap) :=
      map_congr_mem (fun y hy => hp.data_old y (by simp [hy]))
    have e3 := hp.data_new top bot hhead hlast
    rw [e0, hp.buf.text]
    simp only [List.map_append, List.map_cons, List.map_nil, e1, e2, e3, hM]
  · have hlt : ∀ y, y ∈ E → y < t.brk := fun y hy => by
      obtain ⟨n, hn⟩ := hp.dest_seg.live hy
      by_contra hge
      rw [hp.buf.fresh y (Nat.le_of_not_lt hge)] at hn
      cases hn
    have h2 := text_from_list (s := t) hp.dest_seg hp.dest_nodup hlt
    rw [← hp.dest_top, hp.dest_text] at h2
    exact h2
  · exact hp.num_new.1

theorem map_eq_nil_of {M : List Nat} {f : Nat → List Nat} (h : M.map f = []) : M = [] := by
  cases M with
  | nil => rfl
  | cons a r => simp at h

theorem ExtractPost.cursor {s t : State} {A R B D : List Nat} {top_x bot_x : Nat}
    {M E : List Nat} {ft fb : Option Nat}
    (hp : ExtractPost s t A R B D top_x bot_x M E ft fb) :
    t.current = s.brk ∧ t.current_x = top_x := by
  have e := hp.rest
  exact ⟨by rw [e], by rw [e]⟩

/-- When the cursor is not on the last line, `cut_line` moves the line and its
separator to the cutbuffer; the line that followed takes its place. -/
theorem cut_line_next {s : State} {A B D : List Nat} {nx : Nat}
    (h : CutPre s (A ++ s.current :: nx :: B) D) :
    ∃ t, cut_line s = some t ∧
      buffer_text t = some (A.map (dataOf s.heap) ++ (nx :: B).map (dataOf s.heap)) ∧
      text_from t t.cutbuffer = some
        (appendText (D.map (dataOf s.heap)) [dataOf s.heap s.current, []]) ∧
      t.current_x = 0 ∧ dataOf t.heap t.current = dataOf s.heap nx ∧
      linenoAt t.heap t.current = some (lastNumber s.heap A + 1) ∧
      Buf t (A ++ t.current :: B) := by
  obtain ⟨c, hc, hnx, hfb⟩ := h.buf.at_split
  have hne : s.current ≠ s.filebot := fun e => by
    have := hfb.1 e
    cases this
  have hnx2 : c.next = some nx := by rw [hnx]; rfl
  have hnd := h.buf.nodup
  have hcn : s.current ≠ nx := by
    intro e
    rw [List.nodup_append] at hnd
    have := (List.nodup_cons.1 hnd.2.1).1
    apply this
    rw [← e]
    simp
  have hL : A ++ s.current :: nx :: B = A ++ [s.current, nx] ++ B := by simp
  obtain ⟨t, M, E, ft, fb, hrun, hp, hM, htext, hcut, hnum⟩ :=
    @extract_to_cutbuffer_run s _ D A [s.current, nx] B s.current 0 nx 0 h hL rfl rfl
      (Nat.zero_le _) (Nat.zero_le _) (fun e => absurd e hcn)
  have hx0 : round_trip_extra s 0 nx = [] := by simp [round_trip_extra]
  rw [hx0] at hM htext
  have hM0 : M = [] := map_eq_nil_of hM
  subst hM0
  obtain ⟨hcur, hcx⟩ := hp.cursor
  refine ⟨{ t with cutbuffer := ft, cutbottom := fb }, ?_, ?_, ?_, hcx, ?_, ?_, ?_⟩
  · unfold cut_line
    simp only [hc, hnx2, if_pos hne]
    exact hrun
  · rw [htext]
    simp
  · rw [hcut]
    simp [rangeText, mapHead, mapLast]
  · show dataOf t.heap t.current = _
    rw [hcur, hp.data_new s.current nx rfl rfl]
    simp
  · show linenoAt t.heap t.current = _
    rw [hcur]
    exact hnum
  · have hb := hp.buf
    exact
      { nodup := by simpa [hcur] using hb.nodup
        seg := by simpa [hcur] using hb.seg
        top := by simpa [hcur] using hb.top
        bot := by simpa [hcur] using hb.bot
        fresh := hb.fresh }

/-- On the last line, `cut_line` moves the content of the line to the
cutbuffer; the line remains, empty. -/
theorem cut_line_last {s : State} {A D : List Nat}
    (h : CutPre s (A ++ [s.current]) D) (hne : dataOf s.heap s.current ≠ []) :
    ∃ t, cut_line s = some t ∧
      buffer_text t = some (A.map (dataOf s.heap) ++ [[]]) ∧
      text_from t t.cutbuffer = some
        (appendText (D.map (dataOf s.heap)) [dataOf s.heap s.current]) ∧
      t.current_x = 0 ∧
      linenoAt t.heap t.current = some (lastNumber s.heap A + 1) ∧
      Buf t (A ++ [t.current]) := by
  obtain ⟨c, hc, -, hfb⟩ := h.buf.at_split
  have he : s.current = s.filebot := hfb.2 rfl
  have hd : dataOf s.heap s.current = c.data := dataOf_of_eq hc
  have hpos : 0 < c.data.length := by
    rw [← hd]
    exact List.length_pos.2 hne
  have hL : A ++ [s.current] = A ++ [s.current] ++ [] := by simp
  obtain ⟨t, M, E, ft, fb, hrun, hp, hM, htext, hcut, hnum⟩ :=
    @extract_to_cutbuffer_run s _ D A [s.current] [] s.current 0 s.current c.data.length h hL
      rfl rfl (Nat.zero_le _) (by rw [hd]) (fun _ => hpos)
  have hx0 : round_trip_extra s 0 s.current = [] := by simp [round_trip_extra]
  rw [hx0] at hM htext
  have hM0 : M = [] := map_eq_nil_of hM
  subst hM0
  obtain ⟨hcur, hcx⟩ := hp.cursor
  refine ⟨{ t with cutbuffer := ft, cutbottom := fb }, ?_, ?_, ?_, hcx, ?_, ?_⟩
  · unfold cut_line
    simp only [hc, if_neg (not_not.2 he)]
    exact hrun
  · rw [htext, hd]
    simp
  · rw [hcut]
    simp [rangeText, mapHead, mapLast, hd]
  · show linenoAt t.heap t.current = _
    rw [hcur]
    exact hnum
  · have hb := hp.buf
    exact
      { nodup := by simpa [hcur] using hb.nodup
        seg := by simpa [hcur] using hb.seg
        top := by simpa [hcur] using hb.top
        bot := by simpa [hcur] using hb.bot
        fresh := hb.fresh }

/-- On an empty last line, `cut_line` changes nothing. -/
theorem cut_line_nothing {s : State} {A D : List Nat}
    (h : CutPre s (A ++ [s.current]) D) (he : dataOf s.heap s.current = []) :
    cut_line s = some s := by
  obtain ⟨c, hc, -, hfb⟩ := h.buf.at_split
  have hcf : s.current = s.filebot := hfb.2 rfl
  have hd : c.data = [] := by rw [← dataOf_of_eq hc]; exact he
  unfold cut_line
  simp only [hc, if_neg (not_not.2 hcf), hd, List.length_nil]
  unfold extract_to_cutbuffer
  rw [extract_buffer_empty_range]

/-! ## `cut_to_eol` called on its own -/

theorem ExtractPost.buf_cursor {s t : State} {A R B D : List Nat} {top_x bot_x : Nat}
    {E : List Nat} {ft fb : Option Nat}
    (hp : ExtractPost s t A R B D top_x bot_x [] E ft fb) :
    Buf { t with cutbuffer := ft, cutbottom := fb } (A ++ t.current :: B) := by
  have hb := hp.buf
  have hcur := hp.cursor.1
  exact
    { nodup := by simpa [hcur] using hb.nodup
      seg := by simpa [hcur] using hb.seg
      top := by simpa [hcur] using hb.top
      bot := by simpa [hcur] using hb.bot
      fresh := hb.fresh }

/-- With the cursor before the end of its line, `cut_to_eol` moves the rest of
the line to the cutbuffer. -/
theorem cut_to_eol_inside {s : State} {A B D : List Nat}
    (h : CutPre s (A ++ s.current :: B) D)
    (hx : s.current_x < (dataOf s.heap s.current).length) :
    ∃ t, cut_to_eol s = some t ∧
      buffer_text t = some (A.map (dataOf s.heap) ++
        [(dataOf s.heap s.current).take s.current_x] ++ B.map (dataOf s.heap)) ∧
      text_from t t.cutbuffer = some
        (appendText (D.map (dataOf s.heap)) [(dataOf s.heap s.current).drop s.current_x]) ∧
      t.current_x = s.current_x ∧
      linenoAt t.heap t.current = some (lastNumber s.heap A + 1) ∧
      Buf t (A ++ t.current :: B) := by
  obtain ⟨c, hc, -, hfb⟩ := h.buf.at_split
  have hd : dataOf s.heap s.current = c.data := dataOf_of_eq hc
  have hL : A ++ s.current :: B = A ++ [s.current] ++ B := by simp
  obtain ⟨t, M, E, ft, fb, hrun, hp, hM, htext, hcut, hnum⟩ :=
    @extract_to_cutbuffer_run s _ D A [s.current] B s.current s.current_x s.current
      c.data.length h hL rfl rfl h.x_le (by rw [hd]) (fun _ => by rw [← hd]; exact hx)
  have hx0 : round_trip_extra s s.current_x s.current = [] := by
    unfold round_trip_extra
    rw [if_neg]
    rintro ⟨hnn, hcf, -⟩
    have := h.magic hnn
    rw [← hcf] at this
    rw [this] at hx
    simp at hx
  rw [hx0] at hM htext
  have hM0 : M = [] := map_eq_nil_of hM
  subst hM0
  obtain ⟨hcur, hcx⟩ := hp.cursor
  refine ⟨{ t with cutbuffer := ft, cutbottom := fb }, ?_, ?_, ?_, hcx, ?_, hp.buf_cursor⟩
  · unfold cut_to_eol
    simp only [hc, if_pos (hd ▸ hx)]
    exact hrun
  · rw [htext]
    simp [hd]
  · rw [hcut]
    simp [rangeText, mapHead, mapLast, hd]
  · show linenoAt t.heap t.current = _
    rw [hcur]
    exact hnum

/-- With the cursor at the end of a line that is not the last, `cut_to_eol`
moves the line separator to the cutbuffer: the next line is joined onto the
current line.  When the buffer must end with a line separator and the next
line was its empty last line, an empty last line is added again. -/
theorem cut_to_eol_join {s : State} {A B D : List Nat} {nx : Nat}
    (h : CutPre s (A ++ s.current :: nx :: B) D)
    (hx : s.current_x = (dataOf s.heap s.current).length) :
    ∃ t, cut_to_eol s = some t ∧
      buffer_text t = some (A.map (dataOf s.heap) ++
        [dataOf s.heap s.current ++ dataOf s.heap nx] ++ B.map (dataOf s.heap) ++
        (if s.NO_NEWLINES = false ∧ B = [] ∧ dataOf s.heap s.current ≠ [] then [[]] else [])) ∧
      text_from t t.cutbuffer = some (appendText (D.map (dataOf s.heap)) [[], []]) ∧
      t.current_x = s.current_x ∧
      linenoAt t.heap t.current = some (lastNumber s.heap A + 1) ∧
      (s.NO_NEWLINES = false → B = [] → dataOf s.heap nx = []) := by
  obtain ⟨c, hc, hnx, hfb⟩ := h.buf.at_split
  have hd : dataOf s.heap s.current = c.data := dataOf_of_eq hc
  have hne : s.current ≠ s.filebot := fun e => by
    have := hfb.1 e
    cases this
  have hnx2 : c.next = some nx := by rw [hnx]; rfl
  have hnd := h.buf.nodup
  have hcn : s.current ≠ nx := by
    intro e
    rw [List.nodup_append] at hnd
    have := (List.nodup_cons.1 hnd.2.1).1
    apply this
    rw [← e]
    simp
  have hL : A ++ s.current :: nx :: B = A ++ [s.current, nx] ++ B := by simp
  have hb2 : Buf s ((A ++ [s.current]) ++ nx :: B) := by
    have := h.buf
    simpa using this
  obtain ⟨n2, -, -, hfb2⟩ := hb2.at_split
  obtain ⟨t, M, E, ft, fb, hrun, hp, hM, htext, hcut, hnum⟩ :=
    @extract_to_cutbuffer_run s _ D A [s.current, nx] B s.current s.current_x nx 0 h hL rfl rfl
      h.x_le (Nat.zero_le _) (fun e => absurd e hcn)
  have hx0 : round_trip_extra s s.current_x nx =
      (if s.NO_NEWLINES = false ∧ B = [] ∧ dataOf s.heap s.current ≠ [] then [[]] else []) := by
    unfold round_trip_extra
    have e1 : (0 < s.current_x) ↔ dataOf s.heap s.current ≠ [] := by
      rw [hx, List.length_pos]
    have e2 : (nx = s.filebot) ↔ B = [] := hfb2
    simp only [e1, e2]
  rw [hx0] at htext
  obtain ⟨hcur, hcx⟩ := hp.cursor
  refine ⟨{ t with cutbuffer := ft, cutbottom := fb }, ?_, ?_, ?_, hcx, ?_, ?_⟩
  · unfold cut_to_eol
    have hnlt : ¬ s.current_x < c.data.length := by rw [hx, hd]; exact lt_irrefl _
    simp only [hc, if_neg hnlt, if_pos hne, hnx2]
    exact hrun
  · rw [htext, hx]
    simp
  · rw [hcut, hx]
    simp [rangeText, mapHead, mapLast]
  · show linenoAt t.heap t.current = _
    rw [hcur]
    exact hnum
  · intro hnn hB
    have := h.magic hnn
    rw [← hfb2.2 hB] at this
    exact this

/-- With the cursor at the end of the last line, `cut_to_eol` changes
nothing. -/
theorem cut_to_eol_nothing {s : State} {A D : List Nat}
    (h : CutPre s (A ++ [s.current]) D)
    (hx : s.current_x = (dataOf s.heap s.current).length) :
    cut_to_eol s = some s := by
  obtain ⟨c, hc, -, hfb⟩ := h.buf.at_split
  have hcf : s.current = s.filebot := hfb.2 rfl
  have hd : dataOf s.heap s.current = c.data := dataOf_of_eq hc
  have hnlt : ¬ s.current_x < c.data.length := by rw [hx, hd]; exact lt_irrefl _
  unfold cut_to_eol
  simp only [hc, if_neg hnlt, if_neg (not_not.2 hcf)]

/-- The number of the cursor line in a buffer whose lines are numbered from 1. -/
theorem Numbered.cursor_lineno {h : Heap} {A B : List Nat} {c : Nat}
    (hn : Numbered h 0 (A ++ c :: B)) :
    linenoAt h c = some (lastNumber h A + 1) := by
  rw [Numbered.append_iff] at hn
  rw [lastNumber_numbered hn.1]
  have := hn.2.1
  rw [this]
  simp

/-- C25: `cut_line` removes the whole current line.  The buffer is
`A ++ current :: B`.  When the cursor line is not the last line (`B` starts
with the line `nx`), the line and its separator are appended to the
cutbuffer, the buffer has one line fewer with all other lines unchanged, and
the cursor is at offset 0 of the line that followed.  When the cursor line is
the last line (`B` is empty), only its content is appended to the cutbuffer,
the line remains as an empty line and the number of lines is unchanged; if it
was empty already, the state is unchanged. -/
theorem cut_line_removes_line {s : State} {A B D : List Nat}
    (h : CutPre s (A ++ s.current :: B) D) :
    ∃ t, cut_line s = some t ∧
      (∀ nx B1, B = nx :: B1 →
        buffer_text t = some (A.map (dataOf s.heap) ++ B.map (dataOf s.heap)) ∧
        text_from t t.cutbuffer = some
          (appendText (D.map (dataOf s.heap)) [dataOf s.heap s.current, []]) ∧
        Buf t (A ++ t.current :: B1) ∧ t.current_x = 0 ∧
        dataOf t.heap t.current = dataOf s.heap nx) ∧
      (B = [] →
        buffer_text t = some (A.map (dataOf s.heap) ++ [[]]) ∧
        Buf t (A ++ [t.current]) ∧
        (dataOf s.heap s.current ≠ [] →
          text_from t t.cutbuffer = some
            (appendText (D.map (dataOf s.heap)) [dataOf s.heap s.current])) ∧
        (dataOf s.heap s.current = [] → t = s)) := by
  cases B with
  | nil =>
    by_cases he : dataOf s.heap s.current = []
    · refine ⟨s, cut_line_nothing h he, ?_, ?_⟩
      · intro nx B1 e
        cases e
      · intro _
        refine ⟨?_, h.buf, fun hne => absurd he hne, fun _ => rfl⟩
        rw [h.buf.text]
        simp [he]
    · obtain ⟨t, hrun, htext, hcut, _, _, hbuf⟩ := cut_line_last h he
      refine ⟨t, hrun, ?_, ?_⟩
      · intro nx B1 e
        cases e
      · intro _
        exact ⟨htext, hbuf, fun _ => hcut, fun e => absurd e he⟩
  | cons nx B1 =>
    obtain ⟨t, hrun, htext, hcut, hx, hdata, _, hbuf⟩ := cut_line_next h
    refine ⟨t, hrun, ?_, ?_⟩
    · intro nx1 B2 e
      cases e
      exact ⟨htext, hcut, hbuf, hx, hdata⟩
    · intro e
      cases e

/-- The cases of `cut_to_eol` at any state, with the cursor at offset `x` of
its line in the buffer `A ++ current :: B` whose lines are numbered from 1.
If `x` is less than the length of the line, the line becomes its first `x`
bytes and the removed tail is appended to the cutbuffer.  If `x` is the length
and the line is not the last (`B` starts with `nx`), the separator is cut and
the content of the next line is joined onto the current line, except when
NO_NEWLINES is unset, the next line is the last line of the buffer and the
current line is not empty: then an empty last line is added again.  If `x` is
the length on the last line, nothing changes.  The cursor stays at the same
line number and offset. -/
theorem cut_to_eol_cases {s : State} {A B D : List Nat}
    (h : CutPre s (A ++ s.current :: B) D)
    (hnum : Numbered s.heap 0 (A ++ s.current :: B)) :
    ∃ t, cut_to_eol s = some t ∧
      (s.current_x < (dataOf s.heap s.current).length →
        buffer_text t = some (A.map (dataOf s.heap) ++
          [(dataOf s.heap s.current).take s.current_x] ++ B.map (dataOf s.heap)) ∧
        text_from t t.cutbuffer = some
          (appendText (D.map (dataOf s.heap))
            [(dataOf s.heap s.current).drop s.current_x])) ∧
      (s.current_x = (dataOf s.heap s.current).length → ∀ nx B1, B = nx :: B1 →
        text_from t t.cutbuffer = some (appendText (D.map (dataOf s.heap)) [[], []]) ∧
        (¬ (s.NO_NEWLINES = false ∧ B1 = [] ∧ dataOf s.heap s.current ≠ []) →
          buffer_text t = some (A.map (dataOf s.heap) ++
            [dataOf s.heap s.current ++ dataOf s.heap nx] ++ B1.map (dataOf s.heap))) ∧
        (s.NO_NEWLINES = false ∧ B1 = [] ∧ dataOf s.heap s.current ≠ [] →
          buffer_text t = some ((A ++ s.current :: B).map (dataOf s.heap)))) ∧
      (s.current_x = (dataOf s.heap s.current).length → B = [] → t = s) ∧
      linenoAt t.heap t.current = linenoAt s.heap s.current ∧
      t.current_x = s.current_x := by
  have hline := hnum.cursor_lineno
  by_cases hx : s.current_x < (dataOf s.heap s.current).length
  · obtain ⟨t, hrun, htext, hcut, hcx, hln, _⟩ := cut_to_eol_inside h hx
    refine ⟨t, hrun, fun _ => ⟨htext, hcut⟩, ?_, ?_, ?_, hcx⟩
    · intro e
      omega
    · intro e
      omega
    · rw [hln, hline]
  · have he : s.current_x = (dataOf s.heap s.current).length :=
      le_antisymm h.x_le (Nat.le_of_not_lt hx)
    cases B with
    | nil =>
      refine ⟨s, cut_to_eol_nothing h he, fun e => absurd e hx, ?_, fun _ _ => rfl, rfl, rfl⟩
      intro _ nx B1 e
      cases e
    | cons nx B1 =>
      obtain ⟨t, hrun, htext, hcut, hcx, hln, hmag⟩ := cut_to_eol_join h he
      refine ⟨t, hrun, fun e => absurd e hx, ?_, ?_, ?_, hcx⟩
      · intro _ nx1 B2 e
        cases e
        refine ⟨hcut, ?_, ?_⟩
        · intro hno
          rw [htext, if_neg hno]
          simp
        · intro hyes
          rw [htext, if_pos hyes]
          obtain ⟨hnn, hB, _⟩ := hyes
          subst hB
          simp [hmag hnn rfl]
      · intro _ e
        cases e
      · rw [hln, hline]

/-- The cliff test of `is_cuttable`: when it lets a cut through with
NO_NEWLINES unset and the cursor at the end of its line, the next line is not
the last line of the buffer. -/
theorem cliff_test_passed {s s1 : State} {A B D : List Nat} {nx : Nat}
    (h : CutPre s (A ++ s.current :: nx :: B) D)
    (hx : s.current_x = (dataOf s.heap s.current).length)
    (hnn : s.NO_NEWLINES = false)
    (hok : is_cuttable s true = some (s1, true)) : B ≠ [] := by
  obtain ⟨-, c, hc, -, hcliff⟩ := is_cuttable_true hok
  obtain ⟨c1, hc1, hnx, -⟩ := h.buf.at_split
  rw [hc] at hc1
  cases hc1
  have hnx2 : c.next = some nx := by rw [hnx]; rfl
  obtain ⟨-, m, hm1, hm2⟩ := h.buf.seg.next_info hc hnx2
  intro hB
  subst hB
  have hfb : s.filebot = nx := by
    have hbot := h.buf.bot
    have e : (A ++ s.current :: [nx]).getLast? = some nx := by simp
    rw [e] at hbot
    exact (Option.some.inj hbot).symm
  have hat : at_terminator c.data s.current_x = some true := by
    unfold at_terminator
    rw [hx, dataOf_of_eq hc]
    simp
  unfold is_cuttable_cliff at hcliff
  rw [if_pos rfl, hat] at hcliff
  simp only at hcliff
  rw [if_neg (by simp [hnn]), hfb, hm1] at hcliff
  simp [hm2] at hcliff

/-- C26: `cut_to_eol` with the cursor at offset `x` of its line, in the
buffer `A ++ current :: B` whose lines are numbered from 1, at the states in
which `do_cut_text` calls it: NO_NEWLINES is set (as `do_copy_text` does
before the cut), or `is_cuttable`, asked for its cliff test, returns TRUE (as
`do_cut_text_void` and `zap_text` require before they cut to the end of the
line).  If `x` is less than the length of the line, the line becomes its first
`x` bytes, the removed tail is appended to the cutbuffer and the number of
lines is unchanged.  If `x` is the length and the line is not the last (`B`
starts with `nx`), only the separator is cut: the content of the next line is
joined onto the current line and the number of lines decreases by one.  If `x`
is the length on the last line, nothing changes.  In every case the cursor
stays at the same line number and offset. -/
theorem cut_to_eol_effect {s : State} {A B D : List Nat}
    (h : CutPre s (A ++ s.current :: B) D)
    (hnum : Numbered s.heap 0 (A ++ s.current :: B))
    (hcall : s.NO_NEWLINES = true ∨ ∃ s1, is_cuttable s true = some (s1, true)) :
    ∃ t, cut_to_eol s = some t ∧
      (s.current_x < (dataOf s.heap s.current).length →
        buffer_text t = some (A.map (dataOf s.heap) ++
          [(dataOf s.heap s.current).take s.current_x] ++ B.map (dataOf s.heap)) ∧
        text_from t t.cutbuffer = some
          (appendText (D.map (dataOf s.heap))
            [(dataOf s.heap s.current).drop s.current_x])) ∧
      (s.current_x = (dataOf s.heap s.current).length → ∀ nx B1, B = nx :: B1 →
        text_from t t.cutbuffer = some (appendText (D.map (dataOf s.heap)) [[], []]) ∧
        buffer_text t = some (A.map (dataOf s.heap) ++
          [dataOf s.heap s.current ++ dataOf s.heap nx] ++ B1.map (dataOf s.heap))) ∧
      (s.current_x = (dataOf s.heap s.current).length → B = [] → t = s) ∧
      linenoAt t.heap t.current = linenoAt s.heap s.current ∧
      t.current_x = s.current_x := by
  obtain ⟨t, hrun, h1, h2, h3, h4, h5⟩ := cut_to_eol_cases h hnum
  refine ⟨t, hrun, h1, ?_, h3, h4, h5⟩
  intro hx nx B1 e
  obtain ⟨hcut, hno, -⟩ := h2 hx nx B1 e
  refine ⟨hcut, hno ?_⟩
  rintro ⟨hnn, hB1, -⟩
  rcases hcall with hc | ⟨s1, hok⟩
  · rw [hnn] at hc
    cases hc
  · subst e
    exact cliff_test_passed h hx hnn hok hB1

/-- Why `cut_to_eol` is stated for the states in which `do_cut_text` calls
it: at a state that `is_cuttable` refuses, the cursor at the end of the line
"hello" that is followed by the empty last line with NO_NEWLINES unset,
`cut_to_eol` cuts the separator and the empty last line is added again, so
that the buffer has the same two lines as before. -/
theorem cut_to_eol_keeps_last_line :
    (helloBuf 5).current_x = (dataOf (helloBuf 5).heap (helloBuf 5).current).length ∧
    (helloBuf 5).current ≠ (helloBuf 5).filebot ∧
    buffer_text (helloBuf 5) = some [[104, 101, 108, 108, 111], []] ∧
    ∃ t, cut_to_eol (helloBuf 5) = some t ∧
      buffer_text t = some [[104, 101, 108, 108, 111], []] := by
  refine ⟨by decide, by decide, ?_, ?_⟩
  · rw [(helloBuf_buf 5).text]
    decide
  · obtain ⟨t, hrun, htext, -⟩ :=
      @cut_to_eol_join (helloBuf 5) [] [] [] 1 (helloBuf_cutPre 5 (le_refl 5)) (by decide)
    refine ⟨t, hrun, ?_⟩
    rw [htext]
    decide

theorem demoAfter_extractPre :
    ExtractPre demoAfter [0] [1, 2] [3] [4, 5] (some 4) (some 5) 1 1 2 0 where
  buf := Buf.of_cells
    (cellsOf 0 0 none [[1, 2, 3], [4, 5], [6], []] ++ cellsOf 4 0 none [[7, 8], [9]])
    rfl (by decide) (by decide) (by decide) (by decide) (by decide)
  head := by decide
  last := by decide
  top_le := by decide
  bot_le := by decide
  nonempty := by decide
  edittop := by decide
  mark := by decide
  dest := by decide
  dest_nodup := by decide
  dest_disj := by decide
  dest_top := by decide
  dest_bot := by decide

/-! ## Cursor and mark after `extract_buffer` -/

/-- The ranges that the cutting functions pass to `extract_buffer`: a mark on
the last line `bot` of the range is not after `bot_x`.  `cut_marked` passes the
mark as one end of the range, `cut_to_eof` passes the end of the last line,
and `cut_line` and `cut_to_eol` are called without a mark. -/
theorem cut_range_mark_within {s : State} {L D : List Nat} (h : CutPre s L D)
    (cut_till_eof : Bool) {top top_x bot bot_x : Nat}
    (hr : cut_range s cut_till_eof = some (top, top_x, bot, bot_x)) :
    ∀ m, s.mark = some m → m = bot → s.mark_x ≤ bot_x := by
  intro m hm hmb
  have hmark := h.mark m hm
  unfold cut_range at hr
  by_cases he : cut_till_eof = true
  · rw [if_pos he] at hr
    cases hfb : s.heap s.filebot with
    | none => rw [hfb] at hr; cases hr
    | some fb =>
      rw [hfb] at hr
      simp only [Option.some.injEq, Prod.mk.injEq] at hr
      obtain ⟨-, -, rfl, rfl⟩ := hr
      have := hmark.2
      rw [hmb, dataOf_of_eq hfb] at this
      exact this
  · rw [if_neg he, if_pos (by rw [hm]; exact Option.some_ne_none m)] at hr
    obtain ⟨c, hc⟩ := Option.isSome_iff_exists.1 (h.buf.mem_live h.cur)
    obtain ⟨mk, hmk⟩ := Option.isSome_iff_exists.1 (h.buf.mem_live hmark.1)
    unfold mark_order at hr
    simp only [hm, hc, hmk, bind, Option.bind] at hr
    split_ifs at hr with hcond
    · simp only [Option.some.injEq, Prod.mk.injEq] at hr
      obtain ⟨rfl, rfl, rfl, rfl⟩ := hr
      rw [hmb, hc] at hmk
      cases hmk
      rcases hcond with ⟨-, hgt⟩ | hgt
      · exact le_of_lt hgt
      · exact absurd hgt (lt_irrefl _)
    · simp only [Option.some.injEq, Prod.mk.injEq] at hr
      obtain ⟨rfl, rfl, rfl, rfl⟩ := hr
      exact le_refl _

/-- C27: after `extract_buffer` on a valid non-empty range of a buffer whose
lines are numbered from 1, the cursor and a mark that was a valid position of
the buffer are valid positions of the buffer: each references a line of the
list `L1` that is reachable from the first line of the buffer, at an offset
that is at most the length of that line.  Stated for the ranges that the
callers of `extract_buffer` pass: a mark on the last line `bot` of the range
is not after `bot_x`. -/
theorem extract_buffer_keeps_positions_valid {s : State} {A R B D : List Nat}
    {fto fbo : Option Nat} {top top_x bot bot_x : Nat}
    (h : ExtractPre s A R B D fto fbo top top_x bot bot_x)
    (hnum : Numbered s.heap 0 (A ++ R ++ B))
    (hmark : ∀ m, s.mark = some m →
      m ∈ A ++ R ++ B ∧ s.mark_x ≤ (dataOf s.heap m).length)
    (hcall : ∀ m, s.mark = some m → m = bot → s.mark_x ≤ bot_x) :
    ∃ (t : State) (ft fb : Option Nat) (L1 : List Nat),
      extract_buffer s fto fbo top top_x bot bot_x = some (t, ft, fb) ∧
      Buf t L1 ∧ addrs_from t.brk t.heap (some t.filetop) = some L1 ∧
      t.current ∈ L1 ∧ t.current_x ≤ (dataOf t.heap t.current).length ∧
      (s.mark = none → t.mark = none) ∧
      (∀ m, s.mark = some m →
        ∃ m1, t.mark = some m1 ∧ m1 ∈ L1 ∧ t.mark_x ≤ (dataOf t.heap m1).length) := by
  obtain ⟨t, ft, fb, M, E, hrun, hp⟩ := extract_buffer_spec h
  have hcur : t.current = s.brk := by rw [hp.rest]
  have hcx : t.current_x = top_x := by rw [hp.rest]
  have hnew := hp.data_new top bot h.head h.last
  have hlen : top_x ≤ (dataOf t.heap s.brk).length := by
    rw [hnew, List.length_append, List.length_take]
    have := h.top_le
    omega
  have hbrk : s.brk ∈ A ++ [s.brk] ++ B ++ M := by simp
  refine ⟨t, ft, fb, _, hrun, hp.buf, hp.buf.addrs, ?_, ?_, ?_, ?_⟩
  · rw [hcur]
    exact hbrk
  · rw [hcur, hcx]
    exact hlen
  · intro hm
    rcases hp.mark with e | ⟨e, -⟩
    · rw [e, hm]
    · exact absurd hm e
  · intro m hm
    obtain ⟨hmL, hmx⟩ := hmark m hm
    obtain ⟨km, kt, kb, e1, e2, e3, hmk, hmkx⟩ := hp.mark_rule m top bot hm h.head h.last
    by_cases hin : kt ≤ km ∧ km ≤ kb ∧ (m ≠ top ∨ top_x ≤ s.mark_x) ∧
        (m ≠ bot ∨ s.mark_x ≤ bot_x)
    · rw [if_pos (Or.inl hin)] at hmk
      rw [if_pos hin] at hmkx
      exact ⟨s.brk, hmk, hbrk, by rw [hmkx]; exact hlen⟩
    · rw [if_neg hin] at hmkx
      have hbot : m ≠ bot ∨ s.mark_x ≤ bot_x := by
        by_cases e : m = bot
        · exact Or.inr (hcall m hm e)
        · exact Or.inl e
      have hnotR : m ∈ R → m = top ∧ s.mark_x < top_x := by
        intro hmR
        obtain ⟨a, b, c, f1, f2, f3, hab, hbc⟩ := Numbered.range_bounds hnum h.head h.last hmR
        have ea : kt = a := Option.some.inj (e2.symm.trans f1)
        have eb : km = b := Option.some.inj (e1.symm.trans f2)
        have ec : kb = c := Option.some.inj (e3.symm.trans f3)
        by_contra hno
        apply hin
        refine ⟨by rw [ea, eb]; exact hab, by rw [eb, ec]; exact hbc, ?_, hbot⟩
        by_cases e : m = top
        · exact Or.inr (Nat.le_of_not_lt (fun hlt => hno ⟨e, hlt⟩))
        · exact Or.inl e
      by_cases hmt : m = top
      · rw [if_pos (Or.inr hmt)] at hmk
        have hmR : m ∈ R := by
          rw [hmt]
          exact List.mem_of_mem_head? h.head
        have hlt := (hnotR hmR).2
        exact ⟨s.brk, hmk, hbrk, by rw [hmkx]; omega⟩
      · rw [if_neg (by
          rintro (h1 | h1)
          · exact hin h1
          · exact hmt h1)] at hmk
        have hmR : m ∉ R := fun hmR => hmt (hnotR hmR).1
        have hAB : m ∈ A ++ B := by
          simp only [List.mem_append] at hmL ⊢
          rcases hmL with (h1 | h1) | h1
          · exact Or.inl h1
          · exact absurd h1 hmR
          · exact Or.inr h1
        refine ⟨m, hmk, ?_, ?_⟩
        · simp only [List.mem_append] at hAB ⊢
          rcases hAB with h1 | h1
          · exact Or.inl (Or.inl (Or.inl h1))
          · exact Or.inl (Or.inr h1)
        · rw [hmkx, hp.data_old m hAB]
          exact hmx

/-- Why the mark must not be on the last line of the range after `bot_x`, as
it never is in the ranges that the cutting functions pass: at such a state
`extract_buffer` leaves the mark off the buffer.  The buffer holds the lines
`[1,2,3]`, `[4,5]`, `[6]` and the empty last line, the mark is at offset 1 of
the third line, and the range runs from offset 1 of the second line to offset
0 of the third line.  Afterwards the buffer is the three lines at the
addresses 0, 6 and 3 with the text `[1,2,3]`, `[4,6]`, `[]`, but the mark
still references the old third line at address 2, which is the last line of
the destination now. -/
theorem extract_buffer_strands_mark :
    demoAfter.mark = some 2 ∧ demoAfter.mark_x = 1 ∧ dataOf demoAfter.heap 2 = [6] ∧
    buffer_text demoAfter = some [[1, 2, 3], [4, 5], [6], []] ∧
    ∃ t ft fb, extract_buffer demoAfter (some 4) (some 5) 1 1 2 0 = some (t, ft, fb) ∧
      Buf t [0, 6, 3] ∧ buffer_text t = some [[1, 2, 3], [4, 6], []] ∧
      t.mark = some 2 ∧ t.mark_x = 1 ∧ 2 ∉ [0, 6, 3] ∧
      text_from t ft = some [[7, 8], [9, 5], []] ∧ dataOf t.heap 2 = [] := by
  refine ⟨rfl, rfl, by decide, ?_, ?_⟩
  · rw [demoAfter_extractPre.buf.text]
    decide
  · obtain ⟨t, ft, fb, M, E, hrun, hp⟩ := extract_buffer_spec demoAfter_extractPre
    have hM : M = [] := by
      by_contra hne
      obtain ⟨-, q, hq, hd⟩ := hp.magic_iff.1 hne
      have e : q = 3 := by
        have : ([0] ++ [demoAfter.brk] ++ [3]).getLast? = some 3 := by decide
        rw [this] at hq
        exact (Option.some.inj hq).symm
      subst e
      rw [hp.data_old 3 (by decide)] at hd
      exact hd (by decide)
    subst hM
    have hE : E = [4, 5, 2] := hp.dest_shape.trans (by decide)
    subst hE
    have hbuf : Buf t [0, 6, 3] := hp.buf
    have htext := hp.dest_text
    have hcut : [4, 5, 2].map (dataOf t.heap) = [[7, 8], [9, 5], []] := htext.trans (by decide)
    obtain ⟨km, kt, kb, h1, h2, h3, hm, hmx⟩ := hp.mark_rule 2 1 2 rfl rfl rfl
    have e1 : km = 3 :=
      (Option.some.inj ((show linenoAt demoAfter.heap 2 = some 3 by decide).symm.trans h1)).symm
    have e2 : kt = 2 :=
      (Option.some.inj ((show linenoAt demoAfter.heap 1 = some 2 by decide).symm.trans h2)).symm
    have e3 : kb = 3 :=
      (Option.some.inj ((show linenoAt demoAfter.heap 2 = some 3 by decide).symm.trans h3)).symm
    subst e1 e2 e3
    have hx1 : demoAfter.mark_x = 1 := rfl
    rw [hx1] at hm hmx
    refine ⟨t, ft, fb, hrun, hbuf, ?_, ?_, ?_, by decide, ?_, ?_⟩
    · exact (hp.text_after rfl rfl).trans (by decide)
    · rw [hm]
      decide
    · rw [hmx]
      decide
    · have hlt : ∀ y, y ∈ [4, 5, 2] → y < t.brk := fun y hy => by
        obtain ⟨n, hn⟩ := hp.dest_seg.live hy
        by_contra hge
        rw [hp.buf.fresh y (Nat.le_of_not_lt hge)] at hn
        cases hn
      have h2 := text_from_list (s := t) hp.dest_seg hp.dest_nodup hlt
      rw [← hp.dest_top, hcut] at h2
      exact h2
    · have h3 : dataOf t.heap 4 = [7, 8] ∧ dataOf t.heap 5 = [9, 5] ∧ dataOf t.heap 2 = [] := by
        simpa using hcut
      exact h3.2.2

/-! ## The undo records of typing -/

/-- When there is no current undo record, or the last action was not an ADD,
or the current record does not end at the cursor, `do_output` adds a new
record. -/
theorem do_output_undo_fresh {s : State} {c : linestruct} (hc : s.heap s.current = some c)
    (hf : s.current_undo = none ∨ s.last_action ≠ undo_type.ADD ∨
      ∃ i u, s.current_undo = some i ∧ s.undotop[i]? = some u ∧
        (u.mark_begin_lineno ≠ c.lineno ∨ u.mark_begin_x ≠ s.current_x)) :
    do_output_undo s = add_undo s undo_type.ADD := by
  unfold do_output_undo
  simp only [hc]
  rcases hf with h | h | ⟨i, u, hi, hu, h⟩
  · simp [h]
  · cases hcu : s.current_undo with
    | none => simp
    | some i =>
      cases hu : s.undotop[i]? with
      | none => simp [hu]
      | some u => simp [hu, h]
  · simp only [hi, hu]
    rw [if_pos]
    simp only [decide_eq_true_eq]
    exact Or.inr h

/-- When the last action was an ADD and the current record ends at the
cursor, `do_output` adds no record. -/
theorem do_output_undo_keep {s : State} {c : linestruct} {i : Nat} {u : undo}
    (hc : s.heap s.current = some c) (hla : s.last_action = undo_type.ADD)
    (hi : s.current_undo = some i) (hu : s.undotop[i]? = some u)
    (h1 : u.mark_begin_lineno = c.lineno) (h2 : u.mark_begin_x = s.current_x) :
    do_output_undo s = some s := by
  unfold do_output_undo
  simp only [hc, hi, hu]
  rw [if_neg]
  simp [hla, h1, h2]

theorem update_undo_add {s : State} {c : linestruct} {i : Nat} {u : undo}
    (hc : s.heap s.current = some c) (hi : s.current_undo = some i)
    (hu : s.undotop[i]? = some u) :
    update_undo s undo_type.ADD = some
      { s with
        undotop := s.undotop.set i
          { u with
            mark_begin_lineno := c.lineno, mark_begin_x := s.current_x,
            newsize := s.totsize } } := by
  unfold update_undo
  simp only [hi, hu, hc]
  rfl

/-- Appending the magic line changes the heap, the last line and the size
only. -/
theorem new_magicline_shape {s t : State} (h : new_magicline s = some t) :
    t = { s with heap := t.heap, brk := t.brk, filebot := t.filebot, totsize := t.totsize } := by
  unfold new_magicline make_new_node State.alloc at h
  cases hfb : s.heap s.filebot with
  | none => simp [hfb] at h
  | some fb =>
    simp only [hfb, Option.bind_eq_bind, Option.some_bind] at h
    unfold State.modify at h
    simp only at h
    cases h1 : (s.heap.set s.brk
        (some { data := [], lineno := fb.lineno + 1, next := none, prev := some s.filebot }))
        s.filebot with
    | none => simp [h1] at h
    | some n1 =>
      simp only [h1, Option.some_bind] at h
      split at h
      · cases h
      · cases h
        rfl

/-- The undo fields after one round of the loop of `do_output`, given what
the test for a new undo item left. -/
theorem do_output_char_undo {s t : State} {L : List Nat} {c : linestruct} {cl b : Nat}
    (hE : Editable s L)
    (hc : s.heap s.current = some c) (h : do_output_char s cl b = some t)
    {ut : List undo} {i : Nat} {la : undo_type} {u : undo}
    (hundo : do_output_undo (set_modified { s with
        heap := s.heap.upd s.current
          (fun n => { n with data := n.data.take s.current_x ++ b :: n.data.drop s.current_x }),
        totsize := s.totsize + 1 }) = some
      { s with
        heap := s.heap.upd s.current
          (fun n => { n with data := n.data.take s.current_x ++ b :: n.data.drop s.current_x }),
        totsize := s.totsize + 1, modified := true,
        undotop := ut, current_undo := some i, last_action := la })
    (hu : ut[i]? = some u) :
    t.undotop = ut.set i
        { u with
          mark_begin_lineno := c.lineno, mark_begin_x := s.current_x + 1,
          newsize := s.totsize + 1 } ∧
      t.current_undo = some i ∧ t.last_action = la ∧ t.current = s.current ∧
      t.current_x = s.current_x + 1 ∧ linenoAt t.heap s.current = some c.lineno := by
  unfold do_output_char at h
  simp only [hc] at h
  split_ifs at h with hcond
  rw [modify_live _ hc] at h
  simp only [set_modified] at hundo
  simp only [set_modified, hundo] at h
  obtain ⟨MX, hMX⟩ : ∃ MX : Nat, MX =
      if some s.current = s.mark ∧ s.current_x < s.mark_x then s.mark_x + 1 else s.mark_x :=
    ⟨_, rfl⟩
  have e : (if some s.current = s.mark ∧ s.current_x < s.mark_x then
      ({ s with
          heap := s.heap.upd s.current
            (fun n => { n with data := n.data.take s.current_x ++ b :: n.data.drop s.current_x }),
          totsize := s.totsize + 1, modified := true, undotop := ut,
          current_undo := some i, last_action := la, mark_x := s.mark_x + 1 } : State)
      else
        { s with
          heap := s.heap.upd s.current
            (fun n => { n with data := n.data.take s.current_x ++ b :: n.data.drop s.current_x }),
          totsize := s.totsize + 1, modified := true, undotop := ut,
          current_undo := some i, last_action := la }) =
      { s with
          heap := s.heap.upd s.current
            (fun n => { n with data := n.data.take s.current_x ++ b :: n.data.drop s.current_x }),
          totsize := s.totsize + 1, modified := true, undotop := ut,
          current_undo := some i, last_action := la, mark_x := MX } := by
    rw [hMX]
    split_ifs <;> rfl
  simp only [e] at h
  have hH1c : (s.heap.upd s.current
      (fun n => { n with data := n.data.take s.current_x ++ b :: n.data.drop s.current_x }))
      s.current =
      some ⟨c.data.take s.current_x ++ b :: c.data.drop s.current_x, c.lineno, c.next, c.prev⟩ := by
    simp [Heap.upd_same, hc]
  have hupd := update_undo_add
    (s := { s with
          heap := s.heap.upd s.current
            (fun n => { n with data := n.data.take s.current_x ++ b :: n.data.drop s.current_x }),
          totsize := s.totsize + 1, modified := true, undotop := ut,
          current_undo := some i, last_action := la, mark_x := MX,
          current_x := s.current_x + 1 }) hH1c rfl hu
  simp only at hupd
  simp only [hupd] at h
  split_ifs at h with hmg
  · have e2 := new_magicline_shape h
    refine ⟨by rw [e2], by rw [e2], by rw [e2], by rw [e2], by rw [e2], ?_⟩
    have hbuf4 : Buf { s with
        heap := s.heap.upd s.current
          (fun n => { n with data := n.data.take s.current_x ++ b :: n.data.drop s.current_x }),
        totsize := s.totsize + 1, modified := true,
        undotop := ut.set i
          { u with
            mark_begin_lineno := c.lineno, mark_begin_x := s.current_x + 1,
            newsize := s.totsize + 1 },
        current_undo := some i, last_action := la, mark_x := MX,
        current_x := s.current_x + 1 } L :=
      { nodup := hE.buf.nodup
        seg := Seg.mapData s.current
          (fun d => d.take s.current_x ++ b :: d.drop s.current_x) hE.buf.seg
        top := hE.buf.top
        bot := hE.buf.bot
        fresh := by
          intro y hy
          exact eq_none_of_isSome_eq (upd_isSome _ _ _ _) (hE.buf.fresh y hy) }
    obtain ⟨H, hnm, -, -, -, hlineno, -, -⟩ := new_magicline_spec hbuf4
    rw [h] at hnm
    cases hnm
    have hcb : s.current ≠ s.brk := Nat.ne_of_lt (hE.buf.lt_brk hE.cur)
    show linenoAt H s.current = _
    rw [hlineno _ hcb]
    simp [linenoAt, hH1c]
  · cases h
    refine ⟨rfl, rfl, rfl, rfl, rfl, ?_⟩
    simp [linenoAt, hH1c]

/-! ## Typing one character -/

/-- The records that `add_undo` keeps below the new one. -/
theorem add_undo_add {s : State} {c : linestruct} (hc : s.heap s.current = some c) :
    add_undo s undo_type.ADD = some
      { s with
        undotop :=
          { type := undo_type.ADD, lineno := c.lineno, begin_x := s.current_x,
            mark_begin_lineno := c.lineno, mark_begin_x := s.current_x,
            wassize := s.totsize, newsize := s.totsize,
            cutbuffer := none, cutbottom := none, xflags := 0 } :: kept_records s,
        current_undo := some 0, last_action := undo_type.ADD } := by
  cases hcu : s.current_undo <;> simp only [add_undo, kept_records, hc, hcu]

/-- Typing one character that is not filtered out: the state afterwards is
editable and numbered again, the cursor has moved one place to the right on
its line, and the current undo record is an ADD record that ends at the
cursor: a new one, put on top of the records that are kept, when the typing
does not continue the current record, and the current record itself, moved
along, when it does. -/
theorem do_output_one (f : Nat → Bool) {s : State} {L : List Nat} (hE : Editable s L)
    (hnum : Numbered s.heap 0 L) {b : Nat} (hb : b ≠ 0) (hf : f b = false) :
    ∃ t L1 c, s.heap s.current = some c ∧ do_output f s [b] false = some t ∧
      Editable t L1 ∧ Numbered t.heap 0 L1 ∧
      t.current = s.current ∧ t.current_x = s.current_x + 1 ∧
      linenoAt t.heap t.current = some c.lineno ∧
      ((s.current_undo = none ∨ s.last_action ≠ undo_type.ADD ∨
          ∃ i u, s.current_undo = some i ∧ s.undotop[i]? = some u ∧
            (u.mark_begin_lineno ≠ c.lineno ∨ u.mark_begin_x ≠ s.current_x)) →
        ∃ u1, t.undotop = u1 :: kept_records s ∧
          t.current_undo = some 0 ∧ t.last_action = undo_type.ADD ∧
          u1.type = undo_type.ADD ∧ u1.mark_begin_lineno = c.lineno ∧
          u1.mark_begin_x = s.current_x + 1) ∧
      (∀ u r, s.last_action = undo_type.ADD → s.current_undo = some 0 → s.undotop = u :: r →
        u.mark_begin_lineno = c.lineno → u.mark_begin_x = s.current_x →
        ∃ u1, t.undotop = u1 :: r ∧ t.current_undo = some 0 ∧
          t.last_action = undo_type.ADD ∧ u1.type = u.type ∧
          u1.mark_begin_lineno = c.lineno ∧ u1.mark_begin_x = s.current_x + 1) := by
  obtain ⟨c, hc⟩ := hE.buf.seg.live hE.cur
  obtain ⟨t, L1, hrun, hE1, hcur, -, -, hnum1⟩ :=
    do_output_char_spec hE c.data.length b (by rw [dataOf_of_eq hc])
  have hout : do_output f s [b] false = some t := by
    unfold do_output
    simp only [hc]
    unfold do_output_loop
    simp only [if_neg hb, hf, hrun]
    simp [do_output_loop]
  have hH1c : (s.heap.upd s.current
      (fun n => { n with data := n.data.take s.current_x ++ b :: n.data.drop s.current_x }))
      s.current =
      some ⟨c.data.take s.current_x ++ b :: c.data.drop s.current_x, c.lineno, c.next, c.prev⟩ := by
    simp [Heap.upd_same, hc]
  refine ⟨t, L1, c, hc, hout, hE1, hnum1 hnum, hcur, ?_, ?_, ?_, ?_⟩
  · obtain ⟨ut, i, u, la, hundo, hut⟩ := do_output_undo_eq
      (s := set_modified { s with
        heap := s.heap.upd s.current
          (fun n => { n with data := n.data.take s.current_x ++ b :: n.data.drop s.current_x }),
        totsize := s.totsize + 1 }) hH1c
    exact (do_output_char_undo hE hc hrun hundo hut).2.2.2.2.1
  · obtain ⟨ut, i, u, la, hundo, hut⟩ := do_output_undo_eq
      (s := set_modified { s with
        heap := s.heap.upd s.current
          (fun n => { n with data := n.data.take s.current_x ++ b :: n.data.drop s.current_x }),
        totsize := s.totsize + 1 }) hH1c
    rw [hcur]
    exact (do_output_char_undo hE hc hrun hundo hut).2.2.2.2.2
  · intro hfresh
    have h1 := do_output_undo_fresh
      (s := set_modified { s with
        heap := s.heap.upd s.current
          (fun n => { n with data := n.data.take s.current_x ++ b :: n.data.drop s.current_x }),
        totsize := s.totsize + 1 }) hH1c hfresh
    rw [add_undo_add hH1c] at h1
    obtain ⟨e1, e2, e3, -⟩ := do_output_char_undo hE hc hrun h1 (List.getElem?_cons_zero)
    refine ⟨{ type := undo_type.ADD, lineno := c.lineno, begin_x := s.current_x,
              mark_begin_lineno := c.lineno, mark_begin_x := s.current_x + 1,
              wassize := s.totsize + 1, newsize := s.totsize + 1,
              cutbuffer := none, cutbottom := none, xflags := 0 }, ?_, e2, e3, rfl, rfl, rfl⟩
    rw [e1]
    rfl
  · intro u r hla hi hut hl hx
    have hu0 : s.undotop[0]? = some u := by rw [hut]; exact List.getElem?_cons_zero
    have h1 := do_output_undo_keep
      (s := set_modified { s with
        heap := s.heap.upd s.current
          (fun n => { n with data := n.data.take s.current_x ++ b :: n.data.drop s.current_x }),
        totsize := s.totsize + 1 }) hH1c hla hi hu0 hl hx
    have h2 : do_output_undo (set_modified { s with
        heap := s.heap.upd s.current
          (fun n => { n with data := n.data.take s.current_x ++ b :: n.data.drop s.current_x }),
        totsize := s.totsize + 1 }) = some
      { s with
        heap := s.heap.upd s.current
          (fun n => { n with data := n.data.take s.current_x ++ b :: n.data.drop s.current_x }),
        totsize := s.totsize + 1, modified := true,
        undotop := s.undotop, current_undo := some 0, last_action := s.last_action } := by
      rw [h1, ← hi]
      rfl
    obtain ⟨e1, e2, e3, -⟩ := do_output_char_undo hE hc hrun h2 hu0
    refine ⟨{ u with
              mark_begin_lineno := c.lineno, mark_begin_x := s.current_x + 1,
              newsize := s.totsize + 1 }, ?_, e2, e3.trans hla, rfl, rfl, rfl⟩
    rw [e1, hut]
    rfl

/-- C28: typing coalesces into one undo record.  In an editable buffer whose
lines are numbered from 1, with no ADD record being continued, inserting three
characters as three separate `do_output` events pushes exactly one undo
record on top of the records that are kept: after each of the three events
the stack is one ADD record followed by the kept records (the second and the
third event update the record of the first), and the cursor has moved on by
one offset in its line.  But when the cursor is moved to
a different position `(p, x)` of the buffer between the second and the third
event, the third event pushes a second ADD record on top of the first.  The
three bytes are not NUL and not filtered out as control characters. -/
theorem typing_coalesces (f : Nat → Bool) {s : State} {L : List Nat} (hE : Editable s L)
    (hnum : Numbered s.heap 0 L) {a b c : Nat}
    (ha : a ≠ 0 ∧ f a = false) (hb : b ≠ 0 ∧ f b = false) (hc : c ≠ 0 ∧ f c = false)
    (hnew : s.current_undo = none ∨ s.last_action ≠ undo_type.ADD) :
    ∃ (s1 s2 s3 : State) (u1 u2 u3 : undo) (L2 : List Nat),
      do_output f s [a] false = some s1 ∧ do_output f s1 [b] false = some s2 ∧
      do_output f s2 [c] false = some s3 ∧
      s1.undotop = u1 :: kept_records s ∧ s2.undotop = u2 :: kept_records s ∧
      s3.undotop = u3 :: kept_records s ∧
      u1.type = undo_type.ADD ∧ u2.type = undo_type.ADD ∧ u3.type = undo_type.ADD ∧
      s1.current_undo = some 0 ∧ s2.current_undo = some 0 ∧ s3.current_undo = some 0 ∧
      s1.current = s.current ∧ s2.current = s.current ∧ s3.current = s.current ∧
      s1.current_x = s.current_x + 1 ∧ s2.current_x = s.current_x + 2 ∧
      s3.current_x = s.current_x + 3 ∧
      Buf s2 L2 ∧
      ∀ p x, p ∈ L2 → x ≤ (dataOf s2.heap p).length → (p ≠ s2.current ∨ x ≠ s2.current_x) →
        ∃ (s3m : State) (u4 : undo),
          do_output f { s2 with current := p, current_x := x } [c] false = some s3m ∧
          s3m.undotop = u4 :: u2 :: kept_records s ∧ u4.type = undo_type.ADD ∧
          s3m.current_undo = some 0 := by
  obtain ⟨s1, L1, c0, hc0, hrun1, hE1, hnum1, hcur1, hx1, hl1, hfresh1, -⟩ :=
    do_output_one f hE hnum ha.1 ha.2
  obtain ⟨u1, hut1, hcu1, hla1, hty1, hml1, hmx1⟩ := hfresh1 (by
    rcases hnew with h | h
    · exact Or.inl h
    · exact Or.inr (Or.inl h))
  obtain ⟨s2, L2, c1, hc1, hrun2, hE2, hnum2, hcur2, hx2, hl2, -, hkeep2⟩ :=
    do_output_one f hE1 hnum1 hb.1 hb.2
  have e1 : c1.lineno = c0.lineno := by
    have := linenoAt_of_eq hc1
    rw [hl1] at this
    exact (Option.some.inj this).symm
  obtain ⟨u2, hut2, hcu2, hla2, hty2, hml2, hmx2⟩ :=
    hkeep2 u1 (kept_records s) hla1 hcu1 hut1 (by rw [hml1, e1]) (by rw [hmx1, hx1])
  obtain ⟨s3, L3, c2, hc2, hrun3, hE3, hnum3, hcur3, hx3, hl3, -, hkeep3⟩ :=
    do_output_one f hE2 hnum2 hc.1 hc.2
  have e2 : c2.lineno = c1.lineno := by
    have := linenoAt_of_eq hc2
    rw [hl2] at this
    exact (Option.some.inj this).symm
  obtain ⟨u3, hut3, hcu3, hla3, hty3, hml3, hmx3⟩ :=
    hkeep3 u2 (kept_records s) hla2 hcu2 hut2 (by rw [hml2, e2]) (by rw [hmx2, hx2])
  refine ⟨s1, s2, s3, u1, u2, u3, L2, hrun1, hrun2, hrun3, hut1, hut2, hut3, hty1,
    hty2.trans hty1, hty3.trans (hty2.trans hty1), hcu1, hcu2, hcu3, hcur1,
    hcur2.trans hcur1, hcur3.trans (hcur2.trans hcur1), hx1, by rw [hx2, hx1],
    by rw [hx3, hx2, hx1], hE2.buf, ?_⟩
  intro p x hp hx hne
  have hEm : Editable { s2 with current := p, current_x := x } L2 :=
    { buf :=
        { nodup := hE2.buf.nodup
          seg := hE2.buf.seg
          top := hE2.buf.top
          bot := hE2.buf.bot
          fresh := hE2.buf.fresh }
      cur := hp
      x_le := hx
      undo := by
        intro h
        exfalso
        have h3 : s2.last_action = undo_type.DEL ∨ s2.last_action = undo_type.BACK := h
        rw [hla2] at h3
        rcases h3 with h3 | h3 <;> cases h3 }
  obtain ⟨s3m, L3m, cm, hcm, hrunm, -, -, -, -, -, hfreshm, -⟩ :=
    do_output_one f hEm hnum2 hc.1 hc.2
  have hcm2 : s2.heap p = some cm := hcm
  obtain ⟨u4, hut4, hcu4, -, hty4, -, -⟩ := hfreshm (by
    refine Or.inr (Or.inr ⟨0, u2, hcu2, ?_, ?_⟩)
    · show s2.undotop[0]? = some u2
      rw [hut2]
      exact List.getElem?_cons_zero
    · show u2.mark_begin_lineno ≠ cm.lineno ∨ u2.mark_begin_x ≠ x
      by_cases hpe : p = s2.current
      · right
        rw [hmx2, ← hx2]
        intro e
        rcases hne with h | h
        · exact h hpe
        · exact h e.symm
      · left
        rw [hml2]
        intro e
        apply hpe
        apply linenoAt_inj_of_numbered hnum2 hp hE2.cur
        rw [linenoAt_of_eq hcm2, hl2, e])
  refine ⟨s3m, u4, hrunm, ?_, hty4, hcu4⟩
  have hk : kept_records { s2 with current := p, current_x := x } = u2 :: kept_records s := by
    unfold kept_records
    simp only [hcu2, List.drop_zero]
    exact hut2
  rw [hut4, hk]

/-! ## Zapping -/

/-- A cut that appends to the cutbuffer (as `zap_text` asks for) leaves the
cutbuffer as it is before it moves the text. -/
theorem do_cut_text_append {s : State} {L D A R B : List Nat} {top top_x bot bot_x : Nat}
    (h : CutPre s L D) (marked : Bool)
    (hr : cut_range s false = some (top, top_x, bot, bot_x))
    (hL : L = A ++ R ++ B) (hhead : R.head? = some top) (hlast : R.getLast? = some bot)
    (ht : top_x ≤ (dataOf s.heap top).length) (hb : bot_x ≤ (dataOf s.heap bot).length)
    (hne : top = bot → top_x < bot_x) :
    ∃ (t : State) (M E : List Nat) (ft fb : Option Nat),
      do_cut_text s false marked false true = some
        (set_modified
          { t with
              cutbuffer := ft, cutbottom := fb,
              mark := if s.mark ≠ none then none else t.mark }) ∧
      ExtractPost s t A R B D top_x bot_x M E ft fb ∧
      buffer_text t = some
        (A.map (dataOf s.heap) ++
          [(dataOf s.heap top).take top_x ++ (dataOf s.heap bot).drop bot_x] ++
          B.map (dataOf s.heap) ++ round_trip_extra s top_x bot) ∧
      text_from t ft = some
        (appendText (D.map (dataOf s.heap)) (rangeText (R.map (dataOf s.heap)) top_x bot_x)) := by
  obtain ⟨t, M, E, ft, fb, hrun, hp, -, htext, hcut, -⟩ :=
    extract_to_cutbuffer_run h hL hhead hlast ht hb hne
  obtain ⟨rsu, hmove⟩ := do_cut_text_move_eq s false hr
  rw [hrun] at hmove
  simp only at hmove
  refine ⟨t, M, E, ft, fb, ?_, hp, htext, hcut⟩
  have hclear : do_cut_text_clear s marked false true = some s := by
    unfold do_cut_text_clear
    rw [if_neg (fun hc => Bool.noConfusion hc.1)]
  unfold do_cut_text
  simp only [hclear, hmove, Bool.false_eq_true, if_false]
  congr 2
  by_cases hm : s.mark ≠ none
  · rw [if_pos ⟨trivial, hm⟩, if_pos hm]
  · rw [if_neg (fun hc => hm hc.2), if_neg hm]

/-- The undo record that `zap_text` works with: a new ZAP record without a
cutbuffer, or the current record when the zap continues it. -/
theorem zap_text_undo_spec (mark_flags : Nat) {s : State} {c : linestruct}
    (hc : s.heap s.current = some c)
    (hundo : ∀ i, s.current_undo = some i → ∃ u, s.undotop[i]? = some u) :
    ∃ s2 i u, zap_text_undo mark_flags s = some s2 ∧
      s2 = { s with undotop := s2.undotop, current_undo := s2.current_undo,
                    last_action := s2.last_action } ∧
      s2.current_undo = some i ∧ s2.undotop[i]? = some u ∧
      ((u.type = undo_type.ZAP ∧ u.cutbuffer = none ∧ u.cutbottom = none) ∨
       (s.last_action = undo_type.ZAP ∧ s.current_undo = some i ∧ s.undotop[i]? = some u)) := by
  have hadd : ∃ s2 u, add_undo s undo_type.ZAP = some s2 ∧
      s2 = { s with undotop := s2.undotop, current_undo := s2.current_undo,
                    last_action := s2.last_action } ∧
      s2.current_undo = some 0 ∧ s2.undotop[0]? = some u ∧
      (u.type = undo_type.ZAP ∧ u.cutbuffer = none ∧ u.cutbottom = none) := by
    unfold add_undo
    rw [hc]
    exact ⟨_, _, rfl, rfl, rfl, List.getElem?_cons_zero, rfl, rfl, rfl⟩
  obtain ⟨sa, ua, ha1, ha2, ha3, ha4, ha5⟩ := hadd
  unfold zap_text_undo
  by_cases hla : s.last_action ≠ undo_type.ZAP
  · rw [if_pos hla]
    exact ⟨sa, 0, ua, ha1, ha2, ha3, ha4, Or.inl ha5⟩
  · rw [if_neg hla]
    cases hcu : s.current_undo with
    | none =>
      simp only
      exact ⟨sa, 0, ua, ha1, ha2, ha3, ha4, Or.inl ha5⟩
    | some i =>
      obtain ⟨u, hu⟩ := hundo i hcu
      simp only [hu, hc]
      split_ifs with hcond
      · exact ⟨sa, 0, ua, ha1, ha2, ha3, ha4, Or.inl ha5⟩
      · exact ⟨s, i, u, rfl, rfl, hcu, hu, Or.inr ⟨not_not.1 hla, rfl, hu⟩⟩

theorem update_undo_zap {s : State} {c : linestruct} {i : Nat} {u : undo}
    (hc : s.heap s.current = some c) (hi : s.current_undo = some i)
    (hu : s.undotop[i]? = some u) :
    update_undo s undo_type.ZAP = some
      { s with
        undotop := s.undotop.set i
          { u with
            mark_begin_lineno := c.lineno, mark_begin_x := s.current_x,
            newsize := s.totsize, cutbuffer := s.cutbuffer, cutbottom := s.cutbottom } } := by
  unfold update_undo
  simp only [hi, hu, hc]
  rfl

/-- In a state that the cutting functions can be called with, `is_cuttable`
returns. -/
theorem is_cuttable_returns {s : State} {L D : List Nat} (h : CutPre s L D) (tc : Bool) :
    ∃ s1 b, is_cuttable s tc = some (s1, b) := by
  obtain ⟨c, hc⟩ := h.buf.seg.live h.cur
  obtain ⟨fb, hfb⟩ := h.buf.seg.live h.buf.filebot_mem
  have hx := h.x_le
  rw [dataOf_of_eq hc] at hx
  unfold is_cuttable
  simp only [hc]
  split_ifs with h12
  · exact ⟨_, _, rfl⟩
  · unfold is_cuttable_cliff at_terminator
    cases tc with
    | false => exact ⟨s, true, by simp⟩
    | true =>
      by_cases hlt : s.current_x < c.data.length
      · exact ⟨s, true, by simp [hlt]⟩
      · have he : s.current_x = c.data.length := by omega
        by_cases hnn : s.NO_NEWLINES = true
        · by_cases hcf : s.current = s.filebot
          · exact ⟨{ s with mark := none }, false, by simp [he, hnn, hcf]⟩
          · exact ⟨s, true, by simp [he, hnn, hcf]⟩
        · have hnf : s.NO_NEWLINES = false := by simpa using hnn
          by_cases hcp : some s.current = fb.prev
          · exact ⟨{ s with mark := none }, false, by simp [he, hnf, hfb, hcp]⟩
          · exact ⟨s, true, by simp [he, hnf, hfb, hcp]⟩

/-- The text of the cutbuffer of a state that the cutting functions can be
called with. -/
theorem CutPre.shared_text {s : State} {L D : List Nat} (h : CutPre s L D) :
    text_from s s.cutbuffer = some (D.map (dataOf s.heap)) := by
  rw [h.cut_top]
  exact text_from_list h.cut h.cut_nodup (fun y hy => h.cut_lt hy)

/-- A list whose nodes are the same in a later heap has the same text there. -/
theorem text_from_later {s t : State} {D : List Nat} (hs : Seg s.heap none D none)
    (hnd : D.Nodup) (hlt : ∀ y, y ∈ D → y < s.brk) (hb : s.brk ≤ t.brk)
    (hh : ∀ y, y ∈ D → t.heap y = s.heap y) :
    text_from t D.head? = some (D.map (dataOf s.heap)) := by
  have hs2 : Seg t.heap none D none :=
    Seg.frame (fun y hy => linksAt_congr (hh y hy)) hs
  rw [text_from_list hs2 hnd (fun y hy => lt_of_lt_of_le (hlt y hy) hb)]
  exact congrArg some (map_congr_mem (fun y hy => dataOf_congr (hh y hy)))

/-- C23: `zap_text` never alters the shared cutbuffer.  In a state that the
cutting functions can be called with (buffer `L`, shared cutbuffer `D`), in
which a ZAP record that the zap would continue has the standalone list `P` as
its private cutbuffer, `zap_text` returns, and whether it removes the marked
region or the current line or is refused, `cutbuffer` and `cutbottom` are the
pointers they were and every line of `D` is as it was, so that the shared
cutbuffer has the same text as before.  When the zap is not refused, the text
of the range that was removed from the buffer is held by the cutbuffer of the
current undo record, a ZAP record, appended to what that record held before
(nothing when the record is new). -/
theorem zap_text_keeps_cutbuffer (mark_flags : Nat) {s : State} {L D P : List Nat}
    (h : CutPre s L D) (hnum : s.mark ≠ none → Numbered s.heap 0 L)
    (hundo : ∀ i, s.current_undo = some i → ∃ u, s.undotop[i]? = some u)
    (hrec : ∀ i u, s.current_undo = some i → s.undotop[i]? = some u →
      s.last_action = undo_type.ZAP → ZapRecord s L D P u) :
    ∃ t, zap_text mark_flags s = some t ∧
      t.cutbuffer = s.cutbuffer ∧ t.cutbottom = s.cutbottom ∧
      (∀ y, y ∈ D → t.heap y = s.heap y) ∧
      text_from s s.cutbuffer = some (D.map (dataOf s.heap)) ∧
      text_from t t.cutbuffer = some (D.map (dataOf s.heap)) ∧
      (∀ s1, is_cuttable s (s.CUT_FROM_CURSOR && s.mark.isNone) = some (s1, true) →
        ∃ (i : Nat) (u : undo) (top top_x bot bot_x : Nat) (A R B : List Nat)
            (held : List (List Nat)),
          t.current_undo = some i ∧ t.undotop[i]? = some u ∧ u.type = undo_type.ZAP ∧
          cut_range s false = some (top, top_x, bot, bot_x) ∧
          L = A ++ R ++ B ∧ R.head? = some top ∧ R.getLast? = some bot ∧
          (held = [] ∨ held = P.map (dataOf s.heap)) ∧
          (s.last_action ≠ undo_type.ZAP → held = []) ∧
          text_from t u.cutbuffer = some
            (appendText held (rangeText (R.map (dataOf s.heap)) top_x bot_x)) ∧
          buffer_text t = some
            (A.map (dataOf s.heap) ++
              [(dataOf s.heap top).take top_x ++ (dataOf s.heap bot).drop bot_x] ++
              B.map (dataOf s.heap) ++ round_trip_extra s top_x bot)) := by
  obtain ⟨s1, b, hcut⟩ := is_cuttable_returns h (s.CUT_FROM_CURSOR && s.mark.isNone)
  cases b with
  | false =>
    refine ⟨{ s with mark := none }, zap_text_refused mark_flags hcut, rfl, rfl,
      fun _ _ => rfl, h.shared_text, h.shared_text, ?_⟩
    intro s2 hok
    rw [hcut] at hok
    cases hok
  | true =>
    obtain ⟨e1, c, hc, -, -⟩ := is_cuttable_true hcut
    rw [e1] at hcut
    obtain ⟨s2, i, u, hzu, e2, hi2, hu2, hkind⟩ := zap_text_undo_spec mark_flags hc hundo
    have hh2 : s2.heap = s.heap := by rw [e2]
    have hb2 : s2.brk = s.brk := by rw [e2]
    have hpre2 : CutPre s2 L D := h.of_undo e2
    -- the private cutbuffer of the record
    obtain ⟨P0, hty, hPseg, hPnd, hPdisj, hPtop, hPbot, hP0, hP0new⟩ :
        ∃ P0 : List Nat, u.type = undo_type.ZAP ∧ Seg s.heap none P0 none ∧ P0.Nodup ∧
          (∀ x, x ∈ P0 → x ∉ L ∧ x ∉ D) ∧ u.cutbuffer = P0.head? ∧
          (P0 ≠ [] → u.cutbottom = P0.getLast?) ∧ (P0 = [] ∨ P0 = P) ∧
          (s.last_action ≠ undo_type.ZAP → P0 = []) := by
      rcases hkind with ⟨ht, hcb, -⟩ | ⟨hla, hcu, hu⟩
      · exact ⟨[], ht, trivial, List.nodup_nil, fun x hx => absurd hx (List.not_mem_nil x),
          hcb, fun hne => absurd rfl hne, Or.inl rfl, fun _ => rfl⟩
      · have hz := hrec i u hcu hu hla
        exact ⟨P, hz.type, hz.seg, hz.nodup, hz.disj, hz.top, hz.bot, Or.inr rfl,
          fun hne => absurd hla hne⟩
    have hpre3 : CutPre { s2 with cutbuffer := u.cutbuffer, cutbottom := u.cutbottom } L P0 :=
      { buf :=
          { nodup := hpre2.buf.nodup
            seg := hpre2.buf.seg
            top := hpre2.buf.top
            bot := hpre2.buf.bot
            fresh := hpre2.buf.fresh }
        cur := hpre2.cur
        x_le := hpre2.x_le
        edittop := hpre2.edittop
        mark := hpre2.mark
        magic := hpre2.magic
        cut := by
          show Seg s2.heap none P0 none
          rw [hh2]
          exact hPseg
        cut_nodup := hPnd
        cut_disj := fun x hx => (hPdisj x hx).1
        cut_top := hPtop
        cut_bot := hPbot }
    obtain ⟨⟨top, top_x, bot, bot_x⟩, hr⟩ := cut_range_some h false
    obtain ⟨A, R, B, hL, hhead, hlast, ht, hb, hle⟩ :=
      cut_range_decomp h false (fun _ => hnum) hr
    have hne0 := (void_range_nonempty h hcut hr).1
    have hne : top = bot → top_x < bot_x := by
      intro e
      have h1 := hle e
      by_contra h2
      exact hne0 ⟨e, by omega⟩
    have hr3 : cut_range { s2 with cutbuffer := u.cutbuffer, cutbottom := u.cutbottom } false =
        some (top, top_x, bot, bot_x) := by
      have h1 : cut_range { s2 with cutbuffer := u.cutbuffer, cutbottom := u.cutbottom } false =
          cut_range s2 false :=
        cut_range_congr false rfl rfl rfl rfl rfl rfl rfl rfl (fun _ _ => rfl)
      rw [h1, cut_range_of_undo false e2]
      exact hr
    obtain ⟨t, M, E, ft, fb, hrun, hp, htext, hcb⟩ :=
      do_cut_text_append hpre3 s2.mark.isSome hr3 hL hhead hlast
        (by show top_x ≤ (dataOf s2.heap top).length; rw [hh2]; exact ht)
        (by show bot_x ≤ (dataOf s2.heap bot).length; rw [hh2]; exact hb) hne
    have hrest := hp.rest
    have htu : t.undotop = s2.undotop := by rw [hrest]
    have htc : t.current_undo = s2.current_undo := by rw [hrest]
    have htcur : t.current = s2.brk := by rw [hrest]
    obtain ⟨c3, hc3⟩ := hp.buf.seg.live (show s2.brk ∈ A ++ [s2.brk] ++ B ++ M by simp)
    have hupd := update_undo_zap
      (s := set_modified
          { t with
              cutbuffer := ft, cutbottom := fb,
              mark := if s2.mark ≠ none then none else t.mark })
      (c := c3) (i := i) (u := u)
      (by show t.heap t.current = some c3; rw [htcur]; exact hc3)
      (by show t.current_undo = some i; rw [htc]; exact hi2)
      (by show t.undotop[i]? = some u; rw [htu]; exact hu2)
    have hilt : i < t.undotop.length := by
      rw [htu]
      by_contra hge
      rw [List.getElem?_eq_none (Nat.le_of_not_lt hge)] at hu2
      cases hu2
    have hrunz : zap_text mark_flags s = some
        { (set_modified
          { t with
              cutbuffer := ft, cutbottom := fb,
              mark := if s2.mark ≠ none then none else t.mark }) with
          undotop := t.undotop.set i
            { u with
              mark_begin_lineno := c3.lineno, mark_begin_x := t.current_x,
              newsize := t.totsize, cutbuffer := ft, cutbottom := fb },
          cutbuffer := s.cutbuffer, cutbottom := s.cutbottom } := by
      have hst : ({ s2 with cutbuffer := u.cutbuffer, cutbottom := u.cutbottom } : State) =
          { s2 with current_undo := some i, cutbuffer := u.cutbuffer,
                    cutbottom := u.cutbottom } := by
        rw [← hi2]
      rw [hst] at hrun
      unfold zap_text
      simp only [hcut, hzu]
      unfold zap_text_cut
      simp only [hi2, hu2, hrun, hupd]
      rfl
    have hDt : ∀ y, y ∈ D → t.heap y = s.heap y := by
      intro y hy
      rw [← hh2]
      apply hp.frame y
      have hyL : y ∉ L := h.cut_disj y hy
      rw [hL] at hyL
      have hyP : y ∉ P0 := fun hP => (hPdisj y hP).2 hy
      have hyb : y < s.brk := h.cut_lt hy
      have hyM : y ∉ M := by
        rcases hp.magic with hM | hM
        · rw [hM]
          exact List.not_mem_nil y
        · rw [hM]
          intro hm
          have : y = s2.brk + 1 := by simpa using hm
          omega
      intro hmem
      simp only [List.mem_append, List.mem_singleton] at hmem hyL
      rcases hmem with ((((hm | hm) | hm) | hm) | hm) | hm
      · exact hyL (Or.inl (Or.inl hm))
      · exact hyL (Or.inl (Or.inr hm))
      · exact hyL (Or.inr hm)
      · exact hyP hm
      · show False
        omega
      · exact hyM hm
    have hbrk : s.brk ≤ t.brk := by
      rw [hrest]
      show s.brk ≤ s2.brk + 1 + M.length
      omega
    refine ⟨_, hrunz, rfl, rfl, hDt, h.shared_text, ?_, ?_⟩
    · show text_from _ s.cutbuffer = _
      rw [h.cut_top]
      exact text_from_later (t := { (set_modified
          { t with
              cutbuffer := ft, cutbottom := fb,
              mark := if s2.mark ≠ none then none else t.mark }) with
          undotop := t.undotop.set i
            { u with
              mark_begin_lineno := c3.lineno, mark_begin_x := t.current_x,
              newsize := t.totsize, cutbuffer := ft, cutbottom := fb },
          cutbuffer := s.cutbuffer, cutbottom := s.cutbottom })
        h.cut h.cut_nodup (fun y hy => h.cut_lt hy) hbrk hDt
    · intro _ _
      refine ⟨i, { u with
              mark_begin_lineno := c3.lineno, mark_begin_x := t.current_x,
              newsize := t.totsize, cutbuffer := ft, cutbottom := fb },
        top, top_x, bot, bot_x, A, R, B, P0.map (dataOf s.heap), ?_, ?_, hty, hr, hL, hhead,
        hlast, ?_, ?_, ?_, ?_⟩
      · show t.current_undo = some i
        rw [htc]
        exact hi2
      · show (t.undotop.set i _)[i]? = some _
        exact List.getElem?_set_self hilt
      · rcases hP0 with e | e
        · left
          rw [e]
          rfl
        · right
          rw [e]
      · intro hla
        rw [hP0new hla]
        rfl
      · show text_from t ft = _
        rw [hcb]
        show some (appendText (P0.map (dataOf s2.heap)) (rangeText (R.map (dataOf s2.heap))
          top_x bot_x)) = _
        rw [hh2]
      · show buffer_text t = _
        rw [htext]
        show some (A.map (dataOf s2.heap) ++
          [(dataOf s2.heap top).take top_x ++ (dataOf s2.heap bot).drop bot_x] ++
          B.map (dataOf s2.heap) ++ round_trip_extra s2 top_x bot) = _
        rw [hh2]
        have e3 : round_trip_extra s2 top_x bot = round_trip_extra s top_x bot := by
          unfold round_trip_extra
          rw [e2]
        rw [e3]

/-! ## Pasting a copy of the end of a list -/

/-- What `copy_from_buffer` leaves when the lines to copy are the last lines
`Src` of a list (their first line may have a predecessor): as for a whole
list, and nothing below `brk` changes outside the buffer. -/
theorem copy_from_buffer_tail {s : State} {A B Src : List Nat} {somebuffer : Nat}
    {pv : Option Nat}
    (hbuf : Buf s (A ++ [s.current] ++ B))
    (hx : s.current_x ≤ (dataOf s.heap s.current).length)
    (hmark : ∀ m, s.mark = some m → (s.heap m).isSome)
    (hsrc : Seg s.heap pv Src none) (hnd : Src.Nodup)
    (hhead : Src.head? = some somebuffer) :
    ∃ (t : State) (C M : List Nat), copy_from_buffer s somebuffer = some t ∧
      Buf t (A ++ C ++ B ++ M) ∧ C.length = Src.length ∧ C.getLast? = some t.current ∧
      (M ≠ [] → s.NO_NEWLINES = false) ∧
      (∃ T, buffer_text s = some T ∧ buffer_text t = some
        (pasteText T A.length s.current_x (Src.map (dataOf s.heap)) s.NO_NEWLINES)) ∧
      t.totsize = s.totsize + textSize (Src.map (dataOf s.heap)) + M.length ∧
      (∀ y, y ∈ A → linenoAt t.heap y = linenoAt s.heap y) ∧
      Numbered t.heap (lastNumber s.heap A) (C ++ B ++ M) ∧
      (∀ y, y < s.brk → y ∉ A ++ [s.current] ++ B → t.heap y = s.heap y) ∧
      s.brk ≤ t.brk ∧ (∀ y, y ∈ C → s.brk ≤ y) ∧
      (∀ m, t.mark = some m → (t.heap m).isSome) ∧
      t.current_x = (if Src.length = 1 then s.current_x else 0) +
        ((Src.map (dataOf s.heap)).getLast?.getD []).length ∧
      t = { s with heap := t.heap, brk := t.brk, filetop := t.filetop, filebot := t.filebot,
                   edittop := t.edittop, current := t.current, current_x := t.current_x,
                   mark := t.mark, mark_x := t.mark_x, totsize := t.totsize,
                   filepart := none } := by
  obtain ⟨rest, hSrc⟩ := eq_cons_of_head? hhead
  have hSlt : ∀ y, y ∈ Src → y < s.brk := by
    intro y hy
    by_contra hge
    obtain ⟨n, hn⟩ := hsrc.live hy
    rw [hbuf.fresh y (Nat.le_of_not_lt hge)] at hn
    cases hn
  obtain ⟨hcopy, hsegC, hdataC, hframeC⟩ := @copy_buffer_spec s somebuffer
    rest pv (by rw [← hSrc]; exact hsrc) (by rw [← hSrc]; exact hnd)
    (by rw [← hSrc]; exact hSlt)
  obtain ⟨Hc, hHc⟩ : ∃ Hc : Heap, Hc = copyHeap s.heap s.brk somebuffer rest := ⟨_, rfl⟩
  rw [← hHc] at hcopy hsegC hdataC hframeC
  rw [← hSrc] at hdataC
  obtain ⟨C, hC⟩ : ∃ C : List Nat, C = List.range' s.brk (rest.length + 1) := ⟨_, rfl⟩
  rw [← hC] at hsegC hdataC
  have hClen : C.length = Src.length := by rw [hC, hSrc]; simp
  have hCge : ∀ y, y ∈ C → s.brk ≤ y := by
    intro y hy
    rw [hC, List.mem_range'_1] at hy
    exact hy.1
  have hbuflt : ∀ y, y ∈ A ++ [s.current] ++ B → y < s.brk := fun y hy => hbuf.lt_brk hy
  have hpre1 : IngraftPre { s with heap := Hc, brk := s.brk + (rest.length + 1) } A B C s.brk :=
    { buf :=
        { nodup := hbuf.nodup
          seg := Seg.frame (fun y hy => linksAt_congr (hframeC y (Or.inl (hbuflt y hy))))
            hbuf.seg
          top := hbuf.top
          bot := hbuf.bot
          fresh := by
            intro y hy
            show Hc y = none
            rw [hframeC y (Or.inr hy)]
            exact hbuf.fresh y (le_trans (Nat.le_add_right _ _) hy) }
      x_le := by
        show s.current_x ≤ (dataOf Hc s.current).length
        rw [dataOf_congr (hframeC _ (Or.inl (hbuflt _ (by simp))))]
        exact hx
      mark := by
        intro m hm
        show (Hc m).isSome
        have hl := hmark m hm
        have hlt : m < s.brk := by
          by_contra hge
          rw [hbuf.fresh m (Nat.le_of_not_lt hge)] at hl
          simp at hl
        rw [hframeC m (Or.inl hlt)]
        exact hl
      src := hsegC
      src_nodup := by rw [hC]; exact List.nodup_range' _ _
      src_disj := by
        intro y hy hm
        have h1 := hCge y hy
        have h2 := hbuflt y hm
        omega
      src_head := by rw [hC]; rfl }
  obtain ⟨t, M, hrun, hpost⟩ := ingraft_buffer_spec hpre1
  have hrun2 : copy_from_buffer s somebuffer = some t := by
    unfold copy_from_buffer
    rw [hcopy]
    exact hrun
  have hMmem : ∀ y, y ∈ M → y = s.brk + (rest.length + 1) := by
    intro y hy
    rcases hpost.magic with e | e
    · rw [e] at hy; cases hy
    · rw [e] at hy; simpa using hy
  have hframe : ∀ y, y < s.brk → y ∉ A ++ [s.current] ++ B → t.heap y = s.heap y := by
    intro y hlt hy
    have h1 : y ∉ A ++ [s.current] ++ B ++ C ++ M := by
      intro hm
      rcases List.mem_append.1 hm with h2 | h2
      · rcases List.mem_append.1 h2 with h3 | h3
        · exact hy h3
        · have := hCge y h3; omega
      · have := hMmem y h2; omega
    rw [hpost.frame y h1]
    exact hframeC y (Or.inl hlt)
  have hbt := hpost.paste_text hpre1
  have hrest := hpost.rest
  have hAframe : ∀ y, y ∈ A → Hc y = s.heap y := fun y hy =>
    hframeC y (Or.inl (hbuflt y (by simp [hy])))
  refine ⟨t, C, M, hrun2, hpost.buf, hClen, hpost.cursor, ?_, ?_, ?_, ?_, ?_, hframe, ?_, hCge,
    hpost.mark, ?_, ?_⟩
  · intro hM
    exact (hpost.magic_iff.1 hM).1
  · obtain ⟨T, hT1, hT2⟩ := hbt
    refine ⟨T, ?_, ?_⟩
    · rw [← hT1]
      have e := hbuf.text
      have e1 := hpre1.buf.text
      rw [e]
      rw [e1]
      congr 1
      exact map_congr_mem (fun y hy =>
        (dataOf_congr (hframeC y (Or.inl (hbuflt y hy)))).symm)
    · rw [hT2, hdataC]
  · have := hpost.totsize
    rw [hdataC] at this
    exact this
  · intro y hy
    rw [hpost.num_old y hy]
    exact linenoAt_congr (hAframe y hy)
  · have e : lastNumber Hc A = lastNumber s.heap A := lastNumber_frame hAframe
    rw [← e]
    exact hpost.num_new
  · rw [hrest]
    show s.brk ≤ s.brk + (rest.length + 1) + M.length
    omega
  · have e : (Src.map (dataOf s.heap)).getLast?.getD [] = dataOf Hc t.current := by
      rw [← hdataC, getLast?_map', hpost.cursor]
      rfl
    rw [e, hpost.cursor_x, hClen]
  · rw [hrest]

theorem length_mapHead (f : List Nat → List Nat) (l : List (List Nat)) :
    (mapHead f l).length = l.length := by
  cases l <;> rfl

theorem length_mapLast (f : List Nat → List Nat) :
    ∀ l : List (List Nat), (mapLast f l).length = l.length
  | [] => rfl
  | [_] => rfl
  | _ :: e :: ds => by
    show (mapLast f (e :: ds)).length + 1 = _
    rw [length_mapLast f (e :: ds)]
    rfl

theorem length_rangeText (ds : List (List Nat)) (top_x bot_x : Nat) :
    (rangeText ds top_x bot_x).length = ds.length := by
  unfold rangeText
  rw [length_mapHead, length_mapLast]

/-- Pasting the text of a range where it was taken out gives the lines of the
range again, when no magic line is added. -/
theorem pasteText_rangeText {Ad Rd Bd : List (List Nat)} {dt db : List Nat}
    {top_x bot_x : Nat}
    (hh : Rd.head? = some dt) (hl : Rd.getLast? = some db)
    (ht : top_x ≤ dt.length) (hb : bot_x ≤ db.length) (h1 : Rd.length = 1 → top_x ≤ bot_x) :
    pasteText (Ad ++ [dt.take top_x ++ db.drop bot_x] ++ Bd) Ad.length top_x
      (rangeText Rd top_x bot_x) true = Ad ++ Rd ++ Bd := by
  unfold pasteText
  have e0 : Ad ++ [dt.take top_x ++ db.drop bot_x] ++ Bd =
      Ad ++ (dt.take top_x ++ db.drop bot_x) :: Bd := by simp
  rw [e0, getD_append_cons _ _ _ _ rfl, take_append_cons_left, drop_append_cons_succ,
    insertText_rangeText hh hl ht hb h1]
  simp

/-! ## Finding a line by its number -/

theorem fsfromline_loop_seg {s : State} {p : Nat} {k : Int} (hk : linenoAt s.heap p = some k) :
    ∀ (ps : List Nat) (pv : Option Nat) (j : Int) (fuel : Nat),
      Seg s.heap pv ps none → Numbered s.heap j ps → ps.length ≤ fuel → p ∈ ps →
      fsfromline_loop fuel s ps.head? k = some p := by
  intro ps
  induction ps with
  | nil =>
    intro pv j fuel _ _ _ hp
    cases hp
  | cons q rest ih =>
    intro pv j fuel hseg hnum hlen hp
    cases fuel with
    | zero => simp at hlen
    | succ fuel =>
      rw [Seg_cons] at hseg
      obtain ⟨n, hn, -, hnx⟩ := linksAt_some hseg.1
      have hq : linenoAt s.heap q = some (j + 1) := hnum.1
      rw [linenoAt_of_eq hn] at hq
      have hql : n.lineno = j + 1 := Option.some.inj hq
      show fsfromline_loop (fuel + 1) s (some q) k = some p
      unfold fsfromline_loop
      simp only [hn]
      by_cases e : q = p
      · subst e
        rw [linenoAt_of_eq hn] at hk
        rw [if_pos (Option.some.inj hk)]
      · have hpr : p ∈ rest := by
          rcases List.mem_cons.1 hp with h1 | h1
          · exact absurd h1.symm e
          · exact h1
        obtain ⟨i, -, hpi⟩ := hnum.2.mem_lineno hpr
        rw [hk] at hpi
        have hkne : n.lineno ≠ k := by
          rw [hql, Option.some.inj hpi]
          omega
        rw [if_neg hkne, hnx]
        have := ih (some q) (j + 1) fuel hseg.2 hnum.2
          (by simp only [List.length_cons] at hlen; omega) hpr
        rw [nextOf_eq_head?]
        exact this

/-- In a buffer whose lines are numbered from 1, `fsfromline` finds the line
that has the given number. -/
theorem fsfromline_numbered {s : State} {L : List Nat} (hb : Buf s L)
    (hn : Numbered s.heap 0 L) {p : Nat} (hp : p ∈ L) {k : Int}
    (hk : linenoAt s.heap p = some k) : fsfromline s k = some p := by
  unfold fsfromline
  rw [← hb.top]
  exact fsfromline_loop_seg hk L none 0 s.brk hb.seg hn hb.length_le hp

/-- In a buffer whose lines are numbered from 1, the line with a number
between 1 and the number of lines. -/
theorem Numbered.exists_lineno {h : Heap} {L : List Nat} :
    ∀ {j : Int}, Numbered h j L → ∀ {k : Int}, j + 1 ≤ k → k ≤ j + L.length →
      ∃ p, p ∈ L ∧ linenoAt h p = some k := by
  induction L with
  | nil =>
    intro j _ k h1 h2
    simp at h2
    omega
  | cons q rest ih =>
    intro j hn k h1 h2
    by_cases e : k = j + 1
    · exact ⟨q, by simp, by rw [e]; exact hn.1⟩
    · obtain ⟨p, hp, hpk⟩ := ih hn.2 (k := k) (by omega)
        (by simp only [List.length_cons, Nat.cast_add, Nat.cast_one] at h2; omega)
      exact ⟨p, by simp [hp], hpk⟩

/-! ## The first half of a copy: the text is moved to the cutbuffer -/

/-- A line of the buffer is not its own successor. -/
theorem Buf.next_ne {s : State} {L : List Nat} (hb : Buf s L) {p nx : Nat} (hp : p ∈ L)
    {c : linestruct} (hc : s.heap p = some c) (hnx : c.next = some nx) : p ≠ nx := by
  obtain ⟨A, B1, n, hL, hn, hnext, -⟩ := hb.split_at hp
  rw [hc] at hn
  cases hn
  rw [hnx] at hnext
  have hm : nx ∈ B1 := mem_of_head? hnext.symm
  intro e
  have hnd := hb.nodup
  rw [hL, List.nodup_append] at hnd
  exact (List.nodup_cons.1 hnd.2.1).1 (e ▸ hm)

/-- An empty range that a cutting function asks for is at the cursor. -/
theorem cut_range_empty {s : State} {L D : List Nat} (h : CutPre s L D) {top x : Nat}
    (hr : cut_range s false = some (top, x, top, x)) :
    top = s.current ∧ x = s.current_x := by
  obtain ⟨c, hc⟩ := h.buf.seg.live h.cur
  have hxle := h.x_le
  rw [dataOf_of_eq hc] at hxle
  unfold cut_range at hr
  rw [if_neg (by simp)] at hr
  by_cases hm : s.mark ≠ none
  · rw [if_pos hm] at hr
    obtain ⟨m, hmk⟩ := Option.ne_none_iff_exists'.1 hm
    obtain ⟨hmL, -⟩ := h.mark m hmk
    obtain ⟨mk, hmkn⟩ := Option.isSome_iff_exists.1 (h.buf.mem_live hmL)
    unfold mark_order at hr
    simp only [hmk, hc, hmkn, bind, Option.bind] at hr
    by_cases hcond : (c.lineno = mk.lineno ∧ s.current_x > s.mark_x) ∨ c.lineno > mk.lineno
    · rw [if_pos hcond] at hr
      simp only [Option.some.injEq, Prod.mk.injEq] at hr
      obtain ⟨-, -, e3, e4⟩ := hr
      exact ⟨e3.symm, e4.symm⟩
    · rw [if_neg hcond] at hr
      simp only [Option.some.injEq, Prod.mk.injEq] at hr
      obtain ⟨e1, e2, -, -⟩ := hr
      exact ⟨e1.symm, e2.symm⟩
  · rw [if_neg hm, hc] at hr
    simp only at hr
    by_cases hcfc : s.CUT_FROM_CURSOR = true
    · rw [if_pos hcfc] at hr
      by_cases hlt : s.current_x < c.data.length
      · rw [if_pos hlt] at hr
        simp only [Option.some.injEq, Prod.mk.injEq] at hr
        exact ⟨hr.1.symm, hr.2.1.symm⟩
      · rw [if_neg hlt] at hr
        by_cases hfb : s.current ≠ s.filebot
        · rw [if_pos hfb] at hr
          cases hnx : c.next with
          | none => rw [hnx] at hr; cases hr
          | some nx =>
            rw [hnx] at hr
            simp only [Option.some.injEq, Prod.mk.injEq] at hr
            exact ⟨hr.1.symm, hr.2.1.symm⟩
        · rw [if_neg hfb] at hr
          simp only [Option.some.injEq, Prod.mk.injEq] at hr
          exact ⟨hr.1.symm, hr.2.1.symm⟩
    · rw [if_neg hcfc] at hr
      by_cases hfb : s.current ≠ s.filebot
      · rw [if_pos hfb] at hr
        cases hnx : c.next with
        | none => rw [hnx] at hr; cases hr
        | some nx =>
          rw [hnx] at hr
          simp only [Option.some.injEq, Prod.mk.injEq] at hr
          obtain ⟨e1, -, e3, -⟩ := hr
          exact absurd (e1.trans e3.symm) (h.buf.next_ne h.cur hc hnx)
      · rw [if_neg hfb] at hr
        simp only [Option.some.injEq, Prod.mk.injEq] at hr
        obtain ⟨e1, e2, -, e4⟩ := hr
        refine ⟨e1.symm, ?_⟩
        omega

/-- Lines 288-294 of `do_cut_text` when copying: the cutbuffer is cleared, or
it is kept. -/
theorem do_cut_text_clear_run {s : State} {L D : List Nat} (h : CutPre s L D)
    (het : s.edittop ∈ L) (marked : Bool) :
    ∃ (s1 : State) (D0 : List Nat),
      do_cut_text_clear s marked false false = some s1 ∧ CutPre s1 L D0 ∧
      (∀ y, y ∈ L → s1.heap y = s.heap y) ∧ (∀ y, y ∈ D0 → s1.heap y = s.heap y) ∧
      D0 = (if s.keep_cutbuffer = false ∨ marked = true then [] else D) ∧
      s1 = { s with heap := s1.heap, cutbuffer := s1.cutbuffer,
                    keep_cutbuffer := s1.keep_cutbuffer } := by
  by_cases hclr : s.keep_cutbuffer = false ∨ marked = true
  · have hclr3 : s.keep_cutbuffer = false ∨ marked = true ∨ false = true := by
      rcases hclr with e | e
      · exact Or.inl e
      · exact Or.inr (Or.inl e)
    obtain ⟨H, hclear, -, hframe⟩ := do_cut_text_clear_spec h marked false hclr3
    have hheap : ∀ y, y ∈ L → H y = s.heap y := fun y hy =>
      hframe y (fun hD => h.cut_disj y hD hy)
    have h0 : CutPre
        { s with heap := H, cutbuffer := none, keep_cutbuffer := !marked && !false } L [] :=
      h.transfer hframe rfl rfl rfl
        (by
          show (H s.edittop).isSome
          rw [hframe _ (fun hD => h.cut_disj _ hD het)]
          exact h.edittop)
        rfl rfl rfl rfl rfl trivial
        List.nodup_nil (fun y hy => absurd hy (List.not_mem_nil y)) rfl
        (fun hc => absurd rfl hc)
    refine ⟨_, [], hclear, h0, hheap, fun y hy => absurd hy (List.not_mem_nil y), ?_, rfl⟩
    rw [if_pos hclr]
  · have hclear : do_cut_text_clear s marked false false = some s := by
      unfold do_cut_text_clear
      rw [if_neg]
      rintro ⟨-, h1 | h1 | h1⟩
      · exact hclr (Or.inl h1)
      · exact hclr (Or.inr h1)
      · cases h1
    refine ⟨s, D, hclear, h, fun _ _ => rfl, fun _ _ => rfl, ?_, rfl⟩
    rw [if_neg hclr]

theorem textSize_empty_range (d : List Nat) (x : Nat) :
    textSize (rangeText [d] x x) = 0 := by
  rw [rangeText_one]
  have : (d.take x).drop x = [] := by
    apply List.drop_eq_nil_of_le
    rw [List.length_take]
    exact Nat.min_le_left _ _
  rw [this]
  rfl

/-- The first half of a copy: with NO_NEWLINES set, the cutting function that
`do_cut_text` chooses moves the text of the range to the cutbuffer, and does
nothing when the range is empty. -/
theorem copy_move {s1 : State} {L D0 A R B : List Nat} {top top_x bot bot_x : Nat}
    (h : CutPre s1 L D0) (hnum : Numbered s1.heap 0 L)
    (hr : cut_range s1 false = some (top, top_x, bot, bot_x))
    (hL : L = A ++ R ++ B) (hhead : R.head? = some top) (hlast : R.getLast? = some bot)
    (ht : top_x ≤ (dataOf s1.heap top).length) (hb : bot_x ≤ (dataOf s1.heap bot).length)
    (hle : top = bot → top_x ≤ bot_x) :
    ∃ (s3 : State) (rsu : Bool) (E : List Nat),
      do_cut_text_move { s1 with NO_NEWLINES := true } false = some (s3, rsu) ∧
      CopyMid s1 s3 A R B D0 E top_x bot_x (dataOf s1.heap top) (dataOf s1.heap bot)
        (rangeText (R.map (dataOf s1.heap)) top_x bot_x) (top = bot ∧ top_x = bot_x) := by
  have h2 : CutPre { s1 with NO_NEWLINES := true } L D0 := h.set_nonewlines
  have hr2 : cut_range { s1 with NO_NEWLINES := true } false = some (top, top_x, bot, bot_x) :=
    (@cut_range_congr s1 { s1 with NO_NEWLINES := true } false rfl rfl rfl rfl rfl rfl rfl rfl
      (fun _ _ => rfl)).trans hr
  obtain ⟨rsu, hmove⟩ := do_cut_text_move_eq { s1 with NO_NEWLINES := true } false hr2
  by_cases hemp : top = bot ∧ top_x = bot_x
  · obtain ⟨e1, e2⟩ := hemp
    subst e1
    subst e2
    obtain ⟨hcur, hcx⟩ := cut_range_empty h hr
    have hR : R = [top] := range_one h.buf.nodup hL hhead hlast
    subst hR
    have hext : extract_to_cutbuffer { s1 with NO_NEWLINES := true } top top_x top top_x =
        some { s1 with NO_NEWLINES := true } := by
      unfold extract_to_cutbuffer
      rw [extract_buffer_empty_range]
    rw [hext] at hmove
    simp only at hmove
    have hs3 : (if True ∧ s1.mark ≠ none
        then ({ s1 with NO_NEWLINES := true, mark := none } : State)
        else { s1 with NO_NEWLINES := true }) =
        { s1 with NO_NEWLINES := true, mark := none } := by
      by_cases hm : s1.mark ≠ none
      · rw [if_pos ⟨trivial, hm⟩]
      · rw [if_neg (fun hc => hm hc.2)]
        have hm2 : s1.mark = none := not_not.1 hm
        rw [← hm2]
    have hmove2 := hmove.trans (congrArg (fun z => some (z, rsu)) hs3)
    refine ⟨_, rsu, D0, hmove2, ?_⟩
    have hnumL := hnum
    rw [hL, List.append_assoc, Numbered.append_iff] at hnumL
    exact
      { buf :=
          { nodup := by
              show (A ++ [s1.current] ++ B).Nodup
              rw [← hcur, ← hL]
              exact h.buf.nodup
            seg := by
              show Seg s1.heap none (A ++ [s1.current] ++ B) none
              rw [← hcur, ← hL]
              exact h.buf.seg
            top := by
              show (A ++ [s1.current] ++ B).head? = some s1.filetop
              rw [← hcur, ← hL]
              exact h.buf.top
            bot := by
              show (A ++ [s1.current] ++ B).getLast? = some s1.filebot
              rw [← hcur, ← hL]
              exact h.buf.bot
            fresh := h.buf.fresh }
        cur_x := hcx.symm
        cur_data := by
          show dataOf s1.heap s1.current = _
          rw [← hcur, List.take_append_drop]
        data_old := fun _ _ => rfl
        mark := rfl
        cut := h.cut
        cut_nodup := h.cut_nodup
        cut_disj := by
          intro y hy
          show y ∉ A ++ [s1.current] ++ B
          rw [← hcur, ← hL]
          exact h.cut_disj y hy
        cut_top := h.cut_top
        cut_shape := ⟨fun _ => rfl, fun hne => absurd ⟨rfl, rfl⟩ hne⟩
        cut_text := ⟨fun _ => rfl, fun hne => absurd ⟨rfl, rfl⟩ hne⟩
        totsize := by
          show s1.totsize = s1.totsize - _
          simp only [List.map_cons, List.map_nil]
          rw [textSize_empty_range]
          rfl
        num_old := fun _ _ => rfl
        num_new := by
          show Numbered s1.heap (lastNumber s1.heap A) ([s1.current] ++ B)
          rw [lastNumber_numbered hnumL.1, ← hcur]
          have := hnumL.2
          simpa using this
        brk := le_refl _
        rest := rfl }
  · have hne : top = bot → top_x < bot_x := fun e =>
      lt_of_le_of_ne (hle e) (fun e2 => hemp ⟨e, e2⟩)
    obtain ⟨t, M, E, ft, fb, hrun, hp, hM, -, -, -⟩ :=
      extract_to_cutbuffer_run h2 hL hhead hlast ht hb hne
    have hx0 : round_trip_extra { s1 with NO_NEWLINES := true } top_x bot = [] := by
      unfold round_trip_extra
      rw [if_neg]
      rintro ⟨hc, -⟩
      cases hc
    rw [hx0] at hM
    have hM0 : M = [] := map_eq_nil_of hM
    subst hM0
    rw [hrun] at hmove
    simp only at hmove
    have hrest := hp.rest
    have htm : s1.mark = none → t.mark = none := by
      intro hm
      rcases hp.mark with e | ⟨e, -⟩
      · rw [e]
        exact hm
      · exact absurd hm e
    have hs3 : (if True ∧ s1.mark ≠ none
        then ({ t with cutbuffer := ft, cutbottom := fb, mark := none } : State)
        else { t with cutbuffer := ft, cutbottom := fb }) =
        { t with cutbuffer := ft, cutbottom := fb, mark := none } := by
      by_cases hm : s1.mark ≠ none
      · rw [if_pos ⟨trivial, hm⟩]
      · rw [if_neg (fun hc => hm hc.2)]
        have hm2 : t.mark = none := htm (not_not.1 hm)
        rw [← hm2]
    have hmove2 := hmove.trans (congrArg (fun z => some (z, rsu)) hs3)
    obtain ⟨hcur, hcx⟩ := hp.cursor
    have hbuf := hp.buf
    refine ⟨_, rsu, E, hmove2, ?_⟩
    exact
      { buf :=
          { nodup := by
              show (A ++ [t.current] ++ B).Nodup
              simpa [hcur] using hbuf.nodup
            seg := by
              show Seg t.heap none (A ++ [t.current] ++ B) none
              simpa [hcur] using hbuf.seg
            top := by
              show (A ++ [t.current] ++ B).head? = some t.filetop
              simpa [hcur] using hbuf.top
            bot := by
              show (A ++ [t.current] ++ B).getLast? = some t.filebot
              simpa [hcur] using hbuf.bot
            fresh := hbuf.fresh }
        cur_x := hcx
        cur_data := by
          show dataOf t.heap t.current = _
          rw [hcur]
          exact hp.data_new top bot hhead hlast
        data_old := hp.data_old
        mark := rfl
        cut := hp.dest_seg
        cut_nodup := hp.dest_nodup
        cut_disj := by
          intro y hy
          show y ∉ A ++ [t.current] ++ B
          have := hp.dest_disj y hy
          simpa [hcur] using this
        cut_top := hp.dest_top
        cut_shape := ⟨fun he => absurd he hemp, fun _ => hp.dest_shape⟩
        cut_text := ⟨fun he => absurd he hemp, fun _ => hp.dest_text⟩
        totsize := by
          show t.totsize = _
          rw [hp.totsize]
          rfl
        num_old := hp.num_old
        num_new := by
          show Numbered t.heap _ ([t.current] ++ B)
          have := hp.num_new
          simpa [hcur] using this
        brk := by
          show s1.brk ≤ t.brk
          rw [hrest]
          show s1.brk ≤ s1.brk + 1 + 0
          omega
        rest := by
          show ({ t with cutbuffer := ft, cutbottom := fb, mark := none } : State) = _
          rw [hrest] }

/-! ## The second half of a copy: the text is pasted back -/

/-- Pasting the text of a range where it was taken out, with NO_NEWLINES
set: the buffer has the lines of the range again. -/
theorem paste_back {s : State} {A B Src : List Nat} {somebuffer : Nat} {pv : Option Nat}
    {Rd : List (List Nat)} {dt db : List Nat} {top_x bot_x : Nat}
    (hbuf : Buf s (A ++ [s.current] ++ B))
    (hcx : s.current_x = top_x)
    (hcd : dataOf s.heap s.current = dt.take top_x ++ db.drop bot_x)
    (hmark : s.mark = none) (hnn : s.NO_NEWLINES = true)
    (hsrc : Seg s.heap pv Src none) (hnd : Src.Nodup)
    (hhead : Src.head? = some somebuffer)
    (htext : Src.map (dataOf s.heap) = rangeText Rd top_x bot_x)
    (hh : Rd.head? = some dt) (hl : Rd.getLast? = some db)
    (ht : top_x ≤ dt.length) (hb : bot_x ≤ db.length) (h1 : Rd.length = 1 → top_x ≤ bot_x) :
    ∃ (t : State) (C : List Nat), copy_from_buffer s somebuffer = some t ∧
      Buf t (A ++ C ++ B) ∧ C.length = Rd.length ∧
      buffer_text t = some (A.map (dataOf s.heap) ++ Rd ++ B.map (dataOf s.heap)) ∧
      t.totsize = s.totsize + textSize (rangeText Rd top_x bot_x) ∧
      (∀ y, y ∈ A → linenoAt t.heap y = linenoAt s.heap y) ∧
      Numbered t.heap (lastNumber s.heap A) (C ++ B) ∧
      (∀ y, y < s.brk → y ∉ A ++ [s.current] ++ B → t.heap y = s.heap y) ∧
      s.brk ≤ t.brk ∧ (∀ y, y ∈ C → s.brk ≤ y) ∧
      t = { s with heap := t.heap, brk := t.brk, filetop := t.filetop, filebot := t.filebot,
                   edittop := t.edittop, current := t.current, current_x := t.current_x,
                   mark := t.mark, mark_x := t.mark_x, totsize := t.totsize,
                   filepart := none } := by
  have hx : s.current_x ≤ (dataOf s.heap s.current).length := by
    rw [hcx, hcd, List.length_append, List.length_take]
    have : min top_x dt.length = top_x := Nat.min_eq_left ht
    omega
  obtain ⟨t, C, M, hrun, hbuf4, hClen, -, hM, ⟨T, hT1, hT2⟩, htot, hnumA, hnum, hframe, hbrk,
    hCge, -, -, hshape⟩ :=
    copy_from_buffer_tail hbuf hx (fun m hm => by rw [hmark] at hm; cases hm) hsrc hnd hhead
  have hM0 : M = [] := by
    by_contra hne
    have := hM hne
    rw [hnn] at this
    cases this
  subst hM0
  have hlenR : (rangeText Rd top_x bot_x).length = Rd.length := length_rangeText _ _ _
  refine ⟨t, C, hrun, by simpa using hbuf4, ?_, ?_, ?_, hnumA, by simpa using hnum, hframe,
    hbrk, hCge, hshape⟩
  · rw [hClen, ← hlenR, ← htext, List.length_map]
  · rw [hT2, htext, hcx, hnn]
    have e := hbuf.text
    rw [hT1] at e
    have e2 := Option.some.inj e
    rw [e2]
    simp only [List.map_append, List.map_cons, List.map_nil, hcd]
    have hAlen : A.length = (A.map (dataOf s.heap)).length := by simp
    rw [hAlen]
    exact congrArg some (pasteText_rangeText hh hl ht hb h1)
  · rw [htot, htext]
    rfl

/-- The lines above the cursor line keep their numbers through the first half
of a copy. -/
theorem CopyMid.numbered_above {s1 s3 : State} {A R B D0 E : List Nat} {top_x bot_x : Nat}
    {dt db : List Nat} {X : List (List Nat)} {empty : Prop}
    (hmid : CopyMid s1 s3 A R B D0 E top_x bot_x dt db X empty)
    (hnumA : Numbered s1.heap 0 A) :
    Numbered s3.heap 0 A ∧ lastNumber s3.heap A = A.length ∧ lastNumber s1.heap A = A.length := by
  have h3 : Numbered s3.heap 0 A := Numbered.of_frame (fun y hy => hmid.num_old y hy) hnumA
  exact ⟨h3, lastNumber_numbered h3, lastNumber_numbered hnumA⟩

theorem CopyMid.cut_below {s1 s3 : State} {A R B D0 E : List Nat} {top_x bot_x : Nat}
    {dt db : List Nat} {X : List (List Nat)} {empty : Prop}
    (hmid : CopyMid s1 s3 A R B D0 E top_x bot_x dt db X empty) {y : Nat} (hy : y ∈ E) :
    y < s3.brk := by
  by_contra hge
  obtain ⟨n, hn⟩ := hmid.cut.live hy
  rw [hmid.buf.fresh y (Nat.le_of_not_lt hge)] at hn
  cases hn

/-- The second half of a copy when the cutbuffer was empty before the copy:
nothing is pasted when the range was empty, and else the whole cutbuffer is
pasted. -/
theorem copy_paste_none {s1 s3 : State} {A R B E : List Nat} {top_x bot_x : Nat}
    {dt db : List Nat} {Rd : List (List Nat)} {empty : Prop}
    (hmid : CopyMid s1 s3 A R B [] E top_x bot_x dt db (rangeText Rd top_x bot_x) empty)
    (hh : Rd.head? = some dt) (hl : Rd.getLast? = some db)
    (ht : top_x ≤ dt.length) (hb : bot_x ≤ db.length) (h1 : Rd.length = 1 → top_x ≤ bot_x)
    (hRlen : R.length = Rd.length)
    (hRe : empty → Rd = [dt.take top_x ++ db.drop bot_x] ∧ rangeText Rd top_x bot_x = [[]])
    (hnumA : Numbered s1.heap 0 A) (cb_len : Nat) (um : Bool)
    (hsz : textSize (rangeText Rd top_x bot_x) ≤ s1.totsize) :
    ∃ (t4 : State) (L5 : List Nat),
      do_cut_text_copy s3 none cb_len um =
        some (if um = true then { t4 with NO_NEWLINES := false } else t4) ∧
      Buf t4 L5 ∧ L5.length = A.length + Rd.length + B.length ∧ Numbered t4.heap 0 L5 ∧
      buffer_text t4 = some (A.map (dataOf s1.heap) ++ Rd ++ B.map (dataOf s1.heap)) ∧
      t4.totsize = s1.totsize ∧
      text_from t4 t4.cutbuffer = some (E.map (dataOf s3.heap)) ∧
      t4 = { s3 with heap := t4.heap, brk := t4.brk, filetop := t4.filetop,
                     filebot := t4.filebot, edittop := t4.edittop, current := t4.current,
                     current_x := t4.current_x, mark := t4.mark, mark_x := t4.mark_x,
                     totsize := t4.totsize, filepart := t4.filepart } := by
  obtain ⟨hn3, hl3, hl1⟩ := hmid.numbered_above hnumA
  have eA : A.map (dataOf s3.heap) = A.map (dataOf s1.heap) :=
    map_congr_mem (fun y hy => hmid.data_old y (by simp [hy]))
  have eB : B.map (dataOf s3.heap) = B.map (dataOf s1.heap) :=
    map_congr_mem (fun y hy => hmid.data_old y (by simp [hy]))
  by_cases hemp : empty
  · have hE : E = [] := hmid.cut_shape.1 hemp
    obtain ⟨hRd, hX⟩ := hRe hemp
    have hcb : s3.cutbuffer = none := by rw [hmid.cut_top, hE]; rfl
    refine ⟨s3, A ++ [s3.current] ++ B, ?_, hmid.buf, ?_, ?_, ?_, ?_, ?_, rfl⟩
    · unfold do_cut_text_copy
      simp only [hcb]
    · rw [hRd]
      simp only [List.length_append, List.length_singleton]
    · rw [List.append_assoc, Numbered.append_iff]
      refine ⟨hn3, ?_⟩
      have := hmid.num_new
      rw [hl1] at this
      simpa using this
    · rw [hmid.buf.text]
      simp only [List.map_append, List.map_cons, List.map_nil, eA, eB, hmid.cur_data, hRd]
    · rw [hmid.totsize, hX]
      rfl
    · rw [hcb, hE]
      simp [text_from, nodes_from]
  · have hE : E = R := by
      have := hmid.cut_shape.2 hemp
      simpa using this
    have htextE : E.map (dataOf s3.heap) = rangeText Rd top_x bot_x := by
      rw [hmid.cut_text.2 hemp]
      exact appendText_nil_left _
    have hRne : R ≠ [] := by
      intro e
      rw [e] at hRlen
      cases Rd with
      | nil => cases hh
      | cons a r => simp at hRlen
    obtain ⟨e0, Er, hEr⟩ : ∃ e0 Er, E = e0 :: Er := by
      rw [hE]
      cases R with
      | nil => exact absurd rfl hRne
      | cons a r => exact ⟨a, r, rfl⟩
    have hcb : s3.cutbuffer = some e0 := by rw [hmid.cut_top, hEr]; rfl
    obtain ⟨t4, C, hrun, hbuf4, hClen, htext4, htot4, hnumA4, hnum4, hframe4, hbrk4, -, hshape4⟩ :=
      paste_back hmid.buf hmid.cur_x hmid.cur_data hmid.mark (by rw [hmid.rest])
        hmid.cut hmid.cut_nodup (by rw [hEr]; rfl) htextE hh hl ht hb h1
    have hEframe : ∀ y, y ∈ E → t4.heap y = s3.heap y := fun y hy =>
      hframe4 y (hmid.cut_below hy) (hmid.cut_disj y hy)
    refine ⟨t4, A ++ C ++ B, ?_, hbuf4, ?_, ?_, ?_, ?_, ?_, ?_⟩
    · unfold do_cut_text_copy
      simp only [hcb, hrun]
    · simp only [List.length_append, hClen]
    · rw [List.append_assoc, Numbered.append_iff]
      refine ⟨Numbered.of_frame (fun y hy => hnumA4 y hy) hn3, ?_⟩
      rw [hl3] at hnum4
      simpa using hnum4
    · rw [htext4, eA, eB]
    · rw [htot4, hmid.totsize]
      omega
    · have e1 : t4.cutbuffer = s3.cutbuffer := by rw [hshape4]
      rw [e1, hmid.cut_top]
      exact text_from_later hmid.cut hmid.cut_nodup (fun y hy => hmid.cut_below hy) hbrk4 hEframe
    · rw [hshape4]

/-- The shape of the cutbuffer between the two halves of a copy that adds to
a cutbuffer: its old lines, the last of them `q` continued by the first line
of the text of the range, and the lines `Rt` with the rest of that text. -/
theorem CopyMid.saved_shape {s1 s3 : State} {A R B D1 E : List Nat} {q : Nat}
    {top_x bot_x : Nat} {dt db : List Nat} {x0 : List Nat} {xs : List (List Nat)}
    {empty : Prop}
    (hmid : CopyMid s1 s3 A R B (D1 ++ [q]) E top_x bot_x dt db (x0 :: xs) empty)
    (hRe : empty → x0 :: xs = [[]]) :
    ∃ Rt, E = D1 ++ q :: Rt ∧ dataOf s3.heap q = dataOf s1.heap q ++ x0 ∧
      Rt.map (dataOf s3.heap) = xs := by
  have hne : D1 ++ [q] ≠ [] := by simp
  have key : ∃ Rt, E = D1 ++ q :: Rt ∧
      E.map (dataOf s3.heap) = D1.map (dataOf s1.heap) ++ (dataOf s1.heap q ++ x0) :: xs := by
    by_cases hemp : empty
    · refine ⟨[], ?_, ?_⟩
      · rw [hmid.cut_shape.1 hemp]
      · rw [hmid.cut_text.1 hemp]
        have := hRe hemp
        simp only [List.cons.injEq] at this
        rw [this.1, this.2]
        simp
    · refine ⟨R.tail, ?_, ?_⟩
      · rw [hmid.cut_shape.2 hemp, if_neg hne]
        simp
      · rw [hmid.cut_text.2 hemp, List.map_append, List.map_cons, List.map_nil,
          appendText_snoc_cons]
        simp
  obtain ⟨Rt, hE, htext⟩ := key
  refine ⟨Rt, hE, ?_⟩
  rw [hE, List.map_append, List.map_cons] at htext
  have hlen : (D1.map (dataOf s3.heap)).length = (D1.map (dataOf s1.heap)).length := by simp
  have h2 := (List.append_inj htext hlen).2
  simp only [List.cons.injEq] at h2
  exact h2

/-- The second half of a copy that adds to a cutbuffer, whose last line was
`q`: the lines from `q` on are pasted, `q` showing only what was added to
it. -/
theorem copy_paste_saved {s1 s3 : State} {A R B D1 E : List Nat} {q : Nat}
    {top_x bot_x : Nat} {dt db : List Nat} {Rd : List (List Nat)} {empty : Prop}
    (hmid : CopyMid s1 s3 A R B (D1 ++ [q]) E top_x bot_x dt db (rangeText Rd top_x bot_x)
      empty)
    (hh : Rd.head? = some dt) (hl : Rd.getLast? = some db)
    (ht : top_x ≤ dt.length) (hb : bot_x ≤ db.length) (h1 : Rd.length = 1 → top_x ≤ bot_x)
    (hRe : empty → Rd = [dt.take top_x ++ db.drop bot_x] ∧ rangeText Rd top_x bot_x = [[]])
    (hnumA : Numbered s1.heap 0 A) (um : Bool)
    (hsz : textSize (rangeText Rd top_x bot_x) ≤ s1.totsize) :
    ∃ (t4 : State) (L5 : List Nat),
      do_cut_text_copy s3 (some q) (dataOf s1.heap q).length um =
        some (if um = true then { t4 with NO_NEWLINES := false } else t4) ∧
      Buf t4 L5 ∧ L5.length = A.length + Rd.length + B.length ∧ Numbered t4.heap 0 L5 ∧
      buffer_text t4 = some (A.map (dataOf s1.heap) ++ Rd ++ B.map (dataOf s1.heap)) ∧
      t4.totsize = s1.totsize ∧
      text_from t4 t4.cutbuffer = some (E.map (dataOf s3.heap)) ∧
      t4 = { s3 with heap := t4.heap, brk := t4.brk, filetop := t4.filetop,
                     filebot := t4.filebot, edittop := t4.edittop, current := t4.current,
                     current_x := t4.current_x, mark := t4.mark, mark_x := t4.mark_x,
                     totsize := t4.totsize, filepart := t4.filepart } := by
  obtain ⟨hn3, hl3, hl1⟩ := hmid.numbered_above hnumA
  have eA : A.map (dataOf s3.heap) = A.map (dataOf s1.heap) :=
    map_congr_mem (fun y hy => hmid.data_old y (by simp [hy]))
  have eB : B.map (dataOf s3.heap) = B.map (dataOf s1.heap) :=
    map_congr_mem (fun y hy => hmid.data_old y (by simp [hy]))
  -- the text of the range has a first line
  obtain ⟨x0, xs, hX⟩ : ∃ x0 xs, rangeText Rd top_x bot_x = x0 :: xs := by
    have hlen := length_rangeText Rd top_x bot_x
    cases hx : rangeText Rd top_x bot_x with
    | nil =>
      rw [hx] at hlen
      cases Rd with
      | nil => cases hh
      | cons a r => simp at hlen
    | cons a r => exact ⟨a, r, rfl⟩
  rw [hX] at hmid hsz
  obtain ⟨Rt, hE, hdq, hRt⟩ := hmid.saved_shape (fun he => by rw [← hX]; exact (hRe he).2)
  have hqE : q ∈ E := by rw [hE]; simp
  have hcb : ∃ e0, s3.cutbuffer = some e0 := by
    rw [hmid.cut_top, hE]
    cases D1 with
    | nil => exact ⟨q, rfl⟩
    | cons a r => exact ⟨a, rfl⟩
  obtain ⟨e0, hcb⟩ := hcb
  obtain ⟨n, hn⟩ := hmid.cut.live hqE
  have hnd : dataOf s3.heap q = n.data := dataOf_of_eq hn
  have hlen : (dataOf s1.heap q).length ≤ n.data.length := by
    rw [← hnd, hdq, List.length_append]
    omega
  have hqbuf : q ∉ A ++ [s3.current] ++ B := hmid.cut_disj q hqE
  have hqcur : s3.current ≠ q := fun e => hqbuf (by rw [← e]; simp)
  -- the heap while the data pointer of `q` is advanced
  obtain ⟨H, hH⟩ : ∃ H : Heap, H = s3.heap.mapData q (List.drop (dataOf s1.heap q).length) :=
    ⟨_, rfl⟩
  have hmod1 : s3.modify q
      (fun l => { l with data := l.data.drop (dataOf s1.heap q).length }) =
      some { s3 with heap := H } := by
    rw [modify_live _ hn, hH]
    rfl
  have hHq : H q = some { n with data := x0 } := by
    rw [hH]
    have : n.data.drop (dataOf s1.heap q).length = x0 := by
      rw [← hnd, hdq, List.drop_left]
    simp [Heap.mapData, Heap.upd_same, hn, this]
  have hHne : ∀ y, y ≠ q → H y = s3.heap y := by
    intro y hy
    rw [hH]
    exact Heap.upd_ne _ _ hy
  have hHdata : ∀ y, y ≠ q → dataOf H y = dataOf s3.heap y := fun y hy =>
    dataOf_congr (hHne y hy)
  have hbufH : Buf { s3 with heap := H } (A ++ [s3.current] ++ B) :=
    { nodup := hmid.buf.nodup
      seg := by
        show Seg H none _ none
        rw [hH]
        exact Seg.mapData _ _ hmid.buf.seg
      top := hmid.buf.top
      bot := hmid.buf.bot
      fresh := by
        intro y hy
        show H y = none
        rw [hH]
        exact eq_none_of_isSome_eq (mapData_isSome _ _ _ _) (hmid.buf.fresh y hy) }
  have hndE := hmid.cut_nodup
  rw [hE] at hndE
  have hsegE := hmid.cut
  rw [hE, Seg.append] at hsegE
  have hsrc : Seg H (lastOf none D1) (q :: Rt) none := by
    rw [hH]
    exact Seg.mapData _ _ hsegE.2
  have hndS : (q :: Rt).Nodup := (List.nodup_append.1 hndE).2.1
  have hRtq : ∀ y, y ∈ Rt → y ≠ q := by
    intro y hy e
    exact (List.nodup_cons.1 hndS).1 (e ▸ hy)
  have htextS : (q :: Rt).map (dataOf H) = rangeText Rd top_x bot_x := by
    rw [hX, List.map_cons, dataOf_of_eq hHq,
      map_congr_mem (fun y hy => hHdata y (hRtq y hy)), hRt]
  obtain ⟨t4, C, hrun, hbuf4, hClen, htext4, htot4, hnumA4, hnum4, hframe4, hbrk4, hCge,
    hshape4⟩ :=
    paste_back (s := { s3 with heap := H }) hbufH hmid.cur_x
      (by
        show dataOf H s3.current = _
        rw [hHdata _ hqcur]
        exact hmid.cur_data)
      hmid.mark
      (by show s3.NO_NEWLINES = true; rw [hmid.rest])
      hsrc hndS rfl htextS hh hl ht hb h1
  have hqlt : q < s3.brk := hmid.cut_below hqE
  have ht4q : t4.heap q = some { n with data := x0 } := by
    rw [hframe4 q hqlt hqbuf]
    exact hHq
  -- the data pointer of `q` is moved back
  obtain ⟨H5, hH5⟩ : ∃ H5 : Heap, H5 = t4.heap.mapData q
      (fun d => n.data.take (dataOf s1.heap q).length ++ d) := ⟨_, rfl⟩
  have hmod2 : t4.modify q
      (fun l => { l with data := n.data.take (dataOf s1.heap q).length ++ l.data }) =
      some { t4 with heap := H5 } := by
    rw [modify_live _ ht4q, hH5]
    rfl
  have hH5q : H5 q = some n := by
    rw [hH5]
    have : n.data.take (dataOf s1.heap q).length ++ x0 = n.data := by
      rw [← hnd, hdq, List.take_left]
    simp [Heap.mapData, Heap.upd_same, ht4q, this]
  have hH5ne : ∀ y, y ≠ q → H5 y = t4.heap y := by
    intro y hy
    rw [hH5]
    exact Heap.upd_ne _ _ hy
  have hqL5 : q ∉ A ++ C ++ B := by
    intro hm
    simp only [List.mem_append] at hm
    rcases hm with (hm | hm) | hm
    · exact hqbuf (by simp [hm])
    · have := hCge q hm
      have h3 : s3.brk ≤ q := this
      omega
    · exact hqbuf (by simp [hm])
  have hbuf5 : Buf { t4 with heap := H5 } (A ++ C ++ B) :=
    { nodup := hbuf4.nodup
      seg := by
        show Seg H5 none _ none
        rw [hH5]
        exact Seg.mapData _ _ hbuf4.seg
      top := hbuf4.top
      bot := hbuf4.bot
      fresh := by
        intro y hy
        show H5 y = none
        rw [hH5]
        exact eq_none_of_isSome_eq (mapData_isSome _ _ _ _) (hbuf4.fresh y hy) }
  have hEframe : ∀ y, y ∈ E → H5 y = s3.heap y := by
    intro y hy
    by_cases e : y = q
    · rw [e, hH5q, hn]
    · rw [hH5ne y e, hframe4 y (hmid.cut_below hy) (hmid.cut_disj y hy)]
      exact hHne y e
  refine ⟨{ t4 with heap := H5 }, A ++ C ++ B, ?_, hbuf5, ?_, ?_, ?_, htot4.trans ?_, ?_, ?_⟩
  · unfold do_cut_text_copy
    simp only [hcb]
    unfold do_cut_text_copy_saved
    simp only [hn, if_pos hlen, hmod1, hrun, hmod2]
  · simp only [List.length_append, hClen]
  · rw [List.append_assoc, Numbered.append_iff]
    have hlin : ∀ y, linenoAt H5 y = linenoAt t4.heap y := by
      intro y
      rw [hH5]
      simp
    have hlinH : ∀ y, linenoAt H y = linenoAt s3.heap y := by
      intro y
      rw [hH]
      simp
    refine ⟨Numbered.of_frame (fun y hy => by
      show linenoAt H5 y = linenoAt s3.heap y
      rw [hlin, hnumA4 y hy]
      exact hlinH y) hn3, ?_⟩
    have hlH : lastNumber H A = A.length := by
      apply lastNumber_numbered
      exact Numbered.of_frame (fun y _ => hlinH y) hn3
    have hnum4b : Numbered t4.heap (↑A.length) (C ++ B) := by
      have := hnum4
      rw [show lastNumber ({ s3 with heap := H } : State).heap A = A.length from hlH] at this
      exact this
    have := @Numbered.of_frame t4.heap H5 _ _ (fun y _ => hlin y) hnum4b
    simpa using this
  · rw [hbuf5.text]
    have e5 : (A ++ C ++ B).map (dataOf H5) = (A ++ C ++ B).map (dataOf t4.heap) :=
      map_congr_mem (fun y hy => dataOf_congr (hH5ne y (fun e => hqL5 (e ▸ hy))))
    show some ((A ++ C ++ B).map (dataOf H5)) = _
    rw [e5, ← hbuf4.text, htext4]
    have eAH : A.map (dataOf H) = A.map (dataOf s1.heap) := by
      rw [← eA]
      exact map_congr_mem (fun y hy => hHdata y (fun e => hqbuf (by rw [← e]; simp [hy])))
    have eBH : B.map (dataOf H) = B.map (dataOf s1.heap) := by
      rw [← eB]
      exact map_congr_mem (fun y hy => hHdata y (fun e => hqbuf (by rw [← e]; simp [hy])))
    show some (A.map (dataOf H) ++ Rd ++ B.map (dataOf H)) = _
    rw [eAH, eBH]
  · show s3.totsize + textSize (rangeText Rd top_x bot_x) = s1.totsize
    rw [hmid.totsize, hX]
    omega
  · have e1 : t4.cutbuffer = s3.cutbuffer := by rw [hshape4]
    show text_from _ t4.cutbuffer = _
    rw [e1, hmid.cut_top]
    exact text_from_later (t := { t4 with heap := H5 }) hmid.cut hmid.cut_nodup
      (fun y hy => hmid.cut_below hy) hbrk4 hEframe
  · rw [hshape4]

/-! ## A copy by `do_cut_text`, from the clearing to the copying back -/

/-- What the cutting functions are called with does not depend on
`keep_cutbuffer`. -/
theorem CutPre.set_keep {s : State} {L D : List Nat} (h : CutPre s L D) (b : Bool) :
    CutPre { s with keep_cutbuffer := b } L D :=
  { buf :=
      { nodup := h.buf.nodup
        seg := h.buf.seg
        top := h.buf.top
        bot := h.buf.bot
        fresh := h.buf.fresh }
    cur := h.cur
    x_le := h.x_le
    edittop := h.edittop
    mark := h.mark
    magic := h.magic
    cut := h.cut
    cut_nodup := h.cut_nodup
    cut_disj := h.cut_disj
    cut_top := h.cut_top
    cut_bot := h.cut_bot }

/-- What `do_cut_text_save` remembers of a cutbuffer with the lines `D0`. -/
theorem do_cut_text_save_run {s1 : State} {L D0 : List Nat} (h : CutPre s1 L D0) :
    (D0 = [] → do_cut_text_save s1 = some ({ s1 with NO_NEWLINES := true }, none, 0)) ∧
    (∀ D1 q, D0 = D1 ++ [q] → do_cut_text_save s1 =
      some ({ s1 with NO_NEWLINES := true }, some q, (dataOf s1.heap q).length)) := by
  constructor
  · intro e
    have hc := h.cut_top
    rw [e] at hc
    unfold do_cut_text_save
    rw [hc]
    rfl
  · intro D1 q e
    have hne : D0 ≠ [] := by rw [e]; simp
    have hc := h.cut_top
    have hbot := h.cut_bot hne
    have hq : q ∈ D0 := by rw [e]; simp
    obtain ⟨n, hn⟩ := h.cut.live hq
    obtain ⟨e0, he0⟩ : ∃ e0, D0.head? = some e0 := by
      cases D0 with
      | nil => exact absurd rfl hne
      | cons a r => exact ⟨a, rfl⟩
    rw [he0] at hc
    rw [e, List.getLast?_concat] at hbot
    unfold do_cut_text_save
    simp only [hc, hbot, hn, dataOf_of_eq hn]

/-- A copy by `do_cut_text`: the text of the buffer, its size and its line
numbering are afterwards what they were, and the cutbuffer holds the text of
the range, after what it held when that was kept. -/
theorem do_cut_text_copy_run {s : State} {L D : List Nat} (h : CutPre s L D)
    (het : s.edittop ∈ L) (hnum : Numbered s.heap 0 L) (hsize : size_invariant s)
    (marked : Bool) {top top_x bot bot_x : Nat}
    (hr : cut_range s false = some (top, top_x, bot, bot_x)) :
    ∃ (s4 : State) (L5 A R B D0 : List Nat),
      do_cut_text s true marked false false = some s4 ∧
      L = A ++ R ++ B ∧ R.head? = some top ∧ R.getLast? = some bot ∧
      D0 = (if s.keep_cutbuffer = false ∨ marked = true then [] else D) ∧
      Buf s4 L5 ∧ L5.length = L.length ∧ Numbered s4.heap 0 L5 ∧
      buffer_text s4 = buffer_text s ∧ s4.totsize = s.totsize ∧
      s4.modified = s.modified ∧ s4.NO_NEWLINES = s.NO_NEWLINES ∧
      text_from s4 s4.cutbuffer = some
        (if top = bot ∧ top_x = bot_x then D0.map (dataOf s.heap)
         else appendText (D0.map (dataOf s.heap))
           (rangeText (R.map (dataOf s.heap)) top_x bot_x)) := by
  obtain ⟨s1, D0, hclear, h1, hheapL, hheapD, hD0, hshape1⟩ :=
    do_cut_text_clear_run h het marked
  have hcurL := h.cur
  have hfbL : s.filebot ∈ L := List.mem_of_getLast?_eq_some h.buf.bot
  have e_cur : s1.current = s.current := by rw [hshape1]
  have e_x : s1.current_x = s.current_x := by rw [hshape1]
  have e_fb : s1.filebot = s.filebot := by rw [hshape1]
  have e_m : s1.mark = s.mark := by rw [hshape1]
  have e_mx : s1.mark_x = s.mark_x := by rw [hshape1]
  have e_cfc : s1.CUT_FROM_CURSOR = s.CUT_FROM_CURSOR := by rw [hshape1]
  have e_tot : s1.totsize = s.totsize := by rw [hshape1]
  have e_mod : s1.modified = s.modified := by rw [hshape1]
  have e_nn : s1.NO_NEWLINES = s.NO_NEWLINES := by rw [hshape1]
  have hr1 : cut_range s1 false = some (top, top_x, bot, bot_x) :=
    (cut_range_congr false e_cur e_x e_fb e_m e_mx e_cfc (hheapL _ hcurL) (hheapL _ hfbL)
      (fun m hm => hheapL m (h.mark m hm).1)).trans hr
  have hnum1 : Numbered s1.heap 0 L :=
    Numbered.of_frame (fun y hy => linenoAt_congr (hheapL y hy)) hnum
  have hdL : L.map (dataOf s1.heap) = L.map (dataOf s.heap) :=
    map_congr_mem (fun y hy => dataOf_congr (hheapL y hy))
  have hdD : D0.map (dataOf s1.heap) = D0.map (dataOf s.heap) :=
    map_congr_mem (fun y hy => dataOf_congr (hheapD y hy))
  obtain ⟨A, R, B, hL, hhead, hlast, ht, hb, hle⟩ :=
    cut_range_decomp h1 false (fun _ _ => hnum1) hr1
  have hRL : ∀ y, y ∈ R → y ∈ L := fun y hy => by
    rw [hL]
    exact List.mem_append_left B (List.mem_append_right A hy)
  have hdR : R.map (dataOf s1.heap) = R.map (dataOf s.heap) :=
    map_congr_mem (fun y hy => dataOf_congr (hheapL y (hRL y hy)))
  obtain ⟨s3, rsu, E, hmove, hmid⟩ := copy_move h1 hnum1 hr1 hL hhead hlast ht hb hle
  -- what the second half needs of the range
  have hhd : (R.map (dataOf s1.heap)).head? = some (dataOf s1.heap top) := by
    obtain ⟨R1, hR1⟩ := eq_cons_of_head? hhead
    rw [hR1]
    rfl
  have hld : (R.map (dataOf s1.heap)).getLast? = some (dataOf s1.heap bot) := by
    rw [getLast?_map', hlast]
    rfl
  have hndR : R.Nodup := by
    have := h.buf.nodup
    rw [hL] at this
    exact (nodup_parts this).2.1
  have h1len : (R.map (dataOf s1.heap)).length = 1 → top_x ≤ bot_x := by
    intro hlen
    rw [List.length_map] at hlen
    exact hle ((head_eq_last_iff hndR hhead hlast).2 hlen)
  have hRe : (top = bot ∧ top_x = bot_x) →
      R.map (dataOf s1.heap) =
        [(dataOf s1.heap top).take top_x ++ (dataOf s1.heap bot).drop bot_x] ∧
      rangeText (R.map (dataOf s1.heap)) top_x bot_x = [[]] := by
    rintro ⟨e1, e2⟩
    rw [← e1] at hlast
    have hR : R = [top] := range_one h.buf.nodup hL hhead hlast
    rw [hR, ← e1, ← e2]
    refine ⟨by simp, ?_⟩
    simp only [List.map_cons, List.map_nil, rangeText_one]
    have : ((dataOf s1.heap top).take top_x).drop top_x = [] := by
      apply List.drop_eq_nil_of_le
      rw [List.length_take]
      omega
    rw [this]
  have hnumA : Numbered s1.heap 0 A := by
    have := hnum1
    rw [hL, List.append_assoc, Numbered.append_iff] at this
    exact this.1
  have htot1 : s1.totsize = sizeOf s1.heap L := h1.buf.size_invariant_iff.1 (by
    unfold size_invariant
    rw [h1.buf.text, hdL, ← h.buf.text, e_tot]
    exact hsize)
  have hsz : textSize (rangeText (R.map (dataOf s1.heap)) top_x bot_x) ≤ s1.totsize := by
    by_cases hemp : top = bot ∧ top_x = bot_x
    · rw [(hRe hemp).2]
      exact Nat.zero_le _
    · have hne2 : top = bot → top_x < bot_x := fun e =>
        lt_of_le_of_ne (hle e) (fun e2 => hemp ⟨e, e2⟩)
      have := range_le_size (h1.extractPre hL hhead hlast ht hb hne2)
      rw [htot1, hL]
      exact this
  have hum : (!s.NO_NEWLINES) = (!s1.NO_NEWLINES) := by rw [e_nn]
  -- the second half
  have hsecond : ∃ (cb_save : Option Nat) (cb_len : Nat) (t4 : State) (L5 : List Nat),
      do_cut_text_save s1 = some ({ s1 with NO_NEWLINES := true }, cb_save, cb_len) ∧
      do_cut_text_copy s3 cb_save cb_len (!s.NO_NEWLINES) =
        some (if (!s.NO_NEWLINES) = true then { t4 with NO_NEWLINES := false } else t4) ∧
      Buf t4 L5 ∧ L5.length = A.length + (R.map (dataOf s1.heap)).length + B.length ∧
      Numbered t4.heap 0 L5 ∧
      buffer_text t4 = some (A.map (dataOf s1.heap) ++ R.map (dataOf s1.heap) ++
        B.map (dataOf s1.heap)) ∧
      t4.totsize = s1.totsize ∧
      text_from t4 t4.cutbuffer = some (E.map (dataOf s3.heap)) ∧
      t4 = { s3 with heap := t4.heap, brk := t4.brk, filetop := t4.filetop,
                     filebot := t4.filebot, edittop := t4.edittop, current := t4.current,
                     current_x := t4.current_x, mark := t4.mark, mark_x := t4.mark_x,
                     totsize := t4.totsize, filepart := t4.filepart } := by
    rcases List.eq_nil_or_concat D0 with e0 | ⟨D1, q, e0⟩
    · subst e0
      obtain ⟨t4, L5, hrun, hrest⟩ := copy_paste_none hmid hhd hld ht hb h1len
        (by simp) hRe hnumA 0 (!s.NO_NEWLINES) hsz
      exact ⟨none, 0, t4, L5, (do_cut_text_save_run h1).1 rfl, hrun, hrest⟩
    · rw [List.concat_eq_append] at e0
      subst e0
      obtain ⟨t4, L5, hrun, hrest⟩ := copy_paste_saved hmid hhd hld ht hb h1len
        hRe hnumA (!s.NO_NEWLINES) hsz
      exact ⟨some q, _, t4, L5, (do_cut_text_save_run h1).2 D1 q rfl, hrun, hrest⟩
  obtain ⟨cb_save, cb_len, t4, L5, hsave, hcopy, hbuf4, hlen4, hnum4, htext4, htot4, hcut4,
    hshape4⟩ := hsecond
  have e4_mod : t4.modified = s.modified := by
    rw [hshape4]
    show s3.modified = _
    rw [hmid.rest]
    exact e_mod
  have e4_nn : t4.NO_NEWLINES = true := by
    rw [hshape4]
    show s3.NO_NEWLINES = _
    rw [hmid.rest]
  have hcuttext : E.map (dataOf s3.heap) =
      (if top = bot ∧ top_x = bot_x then D0.map (dataOf s.heap)
       else appendText (D0.map (dataOf s.heap))
         (rangeText (R.map (dataOf s.heap)) top_x bot_x)) := by
    by_cases hemp : top = bot ∧ top_x = bot_x
    · rw [if_pos hemp, hmid.cut_text.1 hemp, hdD]
    · rw [if_neg hemp, hmid.cut_text.2 hemp, hdD, hdR]
  have hbt : some (A.map (dataOf s1.heap) ++ R.map (dataOf s1.heap) ++
      B.map (dataOf s1.heap)) = buffer_text s := by
    rw [h.buf.text, ← hdL, hL]
    simp
  have hrun : do_cut_text s true marked false false =
      some (if (!s.NO_NEWLINES) = true then { t4 with NO_NEWLINES := false } else t4) := by
    unfold do_cut_text
    simp only [hclear, if_true, hsave, hmove, hcopy]
  cases hnn : s.NO_NEWLINES with
  | false =>
    rw [hnn] at hrun
    refine ⟨{ t4 with NO_NEWLINES := false }, L5, A, R, B, D0, hrun, hL, hhead, hlast, hD0,
      ?_, ?_, hnum4, ?_, htot4.trans e_tot, e4_mod, rfl, ?_⟩
    · exact
        { nodup := hbuf4.nodup
          seg := hbuf4.seg
          top := hbuf4.top
          bot := hbuf4.bot
          fresh := hbuf4.fresh }
    · rw [hlen4, hL]
      simp only [List.length_append, List.length_map]
    · exact htext4.trans hbt
    · rw [← hcuttext]
      exact hcut4
  | true =>
    rw [hnn] at hrun
    refine ⟨t4, L5, A, R, B, D0, hrun, hL, hhead, hlast, hD0,
      hbuf4, ?_, hnum4, htext4.trans hbt, htot4.trans e_tot, e4_mod, e4_nn, ?_⟩
    · rw [hlen4, hL]
      simp only [List.length_append, List.length_map]
    · rw [← hcuttext]
      exact hcut4

/-! ## Copying leaves the buffer as it was -/

/-- The state in which `do_copy_text` calls `do_cut_text`: the state it was
called in, with `keep_cutbuffer` possibly cleared. -/
theorem do_copy_text_before {s : State} {L D : List Nat} (h : CutPre s L D)
    (hsize : size_invariant s) (c : Prop) [Decidable c] :
    ∃ s1 : State, (if c then { s with keep_cutbuffer := false } else s) = s1 ∧
      CutPre s1 L D ∧ s1.heap = s.heap ∧ s1.edittop = s.edittop ∧
      cut_range s1 false = cut_range s false ∧ size_invariant s1 ∧
      s1.keep_cutbuffer = (if c then false else s.keep_cutbuffer) ∧
      s1.totsize = s.totsize ∧ s1.modified = s.modified ∧
      s1.NO_NEWLINES = s.NO_NEWLINES ∧ buffer_text s1 = buffer_text s := by
  by_cases hc : c
  · refine ⟨{ s with keep_cutbuffer := false }, if_pos hc, h.set_keep false, rfl, rfl, ?_,
      hsize, ?_, rfl, rfl, rfl, rfl⟩
    · exact cut_range_congr false rfl rfl rfl rfl rfl rfl rfl rfl (fun _ _ => rfl)
    · rw [if_pos hc]
  · refine ⟨s, if_neg hc, h, rfl, rfl, rfl, hsize, ?_, rfl, rfl, rfl, rfl⟩
    rw [if_neg hc]

/-- In a buffer whose lines are numbered from 1, `fsfromline` finds a line for
every number that a line of a buffer of the same length has. -/
theorem fsfromline_same_length {s t : State} {L L5 : List Nat} (hnum : Numbered s.heap 0 L)
    (hb : Buf t L5) (hn : Numbered t.heap 0 L5) (hlen : L5.length = L.length)
    {p : Nat} (hp : p ∈ L) {n : linestruct} (hpn : s.heap p = some n) :
    ∃ q, q ∈ L5 ∧ fsfromline t n.lineno = some q := by
  obtain ⟨j, hj, hk⟩ := hnum.mem_lineno hp
  rw [linenoAt_of_eq hpn] at hk
  have hk2 : n.lineno = (0 : Int) + j + 1 := Option.some.inj hk
  obtain ⟨q, hq, hqk⟩ := hn.exists_lineno (k := n.lineno) (by omega) (by omega)
  exact ⟨q, hq, fsfromline_numbered hb hn hq hqk⟩

/-- C24: copy is non-destructive.  In every buffer state (the lines `L` with
the cursor and, if one is set, the mark inside them, numbered from 1, with
`totsize` the size of the text, and any cutbuffer `D`), with or without a
mark and whatever `next_contiguous_line` and `keep_cutbuffer` say about
accumulating, `do_copy_text` returns, and afterwards the sequence of line
contents of the buffer, `totsize`, the modified flag and the NO_NEWLINES flag
are what they were before the call.  The cutbuffer then holds the text of the
range that was copied: alone when the mark is set, the cursor is not on
`next_contiguous_line` or `keep_cutbuffer` is off, and appended to the text
that the cutbuffer held otherwise; when the range is empty there is nothing
to add. -/
theorem do_copy_text_non_destructive (next_contiguous_line : Option Nat) {s : State}
    {L D : List Nat} (h : CutPre s L D) (het : s.edittop ∈ L)
    (hnum : Numbered s.heap 0 L) (hsize : size_invariant s) :
    ∃ (t : State) (ncl : Option Nat) (top top_x bot bot_x : Nat) (A R B D0 : List Nat),
      do_copy_text next_contiguous_line s = some (t, ncl) ∧
      cut_range s false = some (top, top_x, bot, bot_x) ∧
      L = A ++ R ++ B ∧ R.head? = some top ∧ R.getLast? = some bot ∧
      D0 = (if s.mark ≠ none ∨ some s.current ≠ next_contiguous_line ∨
              s.keep_cutbuffer = false then [] else D) ∧
      buffer_text t = buffer_text s ∧ t.totsize = s.totsize ∧
      t.modified = s.modified ∧ t.NO_NEWLINES = s.NO_NEWLINES ∧
      text_from t t.cutbuffer = some
        (if top = bot ∧ top_x = bot_x then D0.map (dataOf s.heap)
         else appendText (D0.map (dataOf s.heap))
           (rangeText (R.map (dataOf s.heap)) top_x bot_x)) := by
  obtain ⟨et, het2⟩ := Option.isSome_iff_exists.1 h.edittop
  obtain ⟨c, hc⟩ := Option.isSome_iff_exists.1 (h.buf.mem_live h.cur)
  obtain ⟨⟨top, top_x, bot, bot_x⟩, hr⟩ := cut_range_some h false
  obtain ⟨s1, hs1, h1, e_heap, e_et, e_range, hsize1, e_keep, e_tot, e_mod, e_nn, e_text⟩ :=
    do_copy_text_before h hsize (s.mark.isSome = true ∨ some s.current ≠ next_contiguous_line)
  obtain ⟨s4, L5, A, R, B, D0, hrun, hL, hhead, hlast, hD0, hbuf4, hlen4, hnum4, htext4,
    htot4, hmod4, hnn4, hcut4⟩ :=
    do_cut_text_copy_run h1 (e_et ▸ het) (e_heap ▸ hnum) hsize1 s.mark.isSome
      (e_range.trans hr)
  rw [e_heap] at hcut4
  have hD : D0 = (if s.mark ≠ none ∨ some s.current ≠ next_contiguous_line ∨
      s.keep_cutbuffer = false then [] else D) := by
    rw [hD0, e_keep]
    cases hm : s.mark with
    | none =>
      by_cases hn : some s.current ≠ next_contiguous_line
      · simp [hn]
      · by_cases hk : s.keep_cutbuffer = false
        · simp [hn, hk]
        · simp [hn, hk]
    | some m => simp
  cases hm : s.mark with
  | none =>
    refine ⟨s4, some s4.current, top, top_x, bot, bot_x, A, R, B, D0, ?_, hr, hL, hhead,
      hlast, hm ▸ hD, htext4.trans e_text, htot4.trans e_tot, hmod4.trans e_mod,
      hnn4.trans e_nn, hcut4⟩
    have hsome : s.mark.isSome = false := by rw [hm]; rfl
    unfold do_copy_text
    simp only [het2, hc]
    rw [hs1, hrun]
    simp only [hsome]
    rfl
  | some m =>
    obtain ⟨e, heL, hfe⟩ := fsfromline_same_length hnum hbuf4 hnum4 hlen4 het het2
    have hbuf5 : Buf { s4 with edittop := e } L5 :=
      { nodup := hbuf4.nodup
        seg := hbuf4.seg
        top := hbuf4.top
        bot := hbuf4.bot
        fresh := hbuf4.fresh }
    obtain ⟨c2, hcL, hfc⟩ := fsfromline_same_length (t := { s4 with edittop := e }) hnum
      hbuf5 hnum4 hlen4 h.cur hc
    have hbuf6 : Buf { s4 with edittop := e, current := c2, current_x := s.current_x } L5 :=
      { nodup := hbuf4.nodup
        seg := hbuf4.seg
        top := hbuf4.top
        bot := hbuf4.bot
        fresh := hbuf4.fresh }
    refine ⟨{ s4 with edittop := e, current := c2, current_x := s.current_x }, none,
      top, top_x, bot, bot_x, A, R, B, D0, ?_, hr, hL, hhead,
      hlast, hm ▸ hD, ?_, htot4.trans e_tot, hmod4.trans e_mod, hnn4.trans e_nn, hcut4⟩
    · have hsome : s.mark.isSome = true := by rw [hm]; rfl
      unfold do_copy_text
      simp only [het2, hc]
      rw [hs1, hrun]
      simp only [hsome, do_copy_text_restore, hfe, hfc]
      rfl
    · rw [hbuf6.text, ← e_text, ← htext4, hbuf4.text]

/-! ## The theorems of this part at concrete states -/

theorem is_cuttable_false_iff_witness :
    demoPaste.heap demoPaste.current =
      some { data := [4, 5], lineno := 2, prev := some 0, next := some 2 } ∧
    demoPaste.heap demoPaste.filebot =
      some { data := [], lineno := 4, prev := some 2, next := none } ∧
    demoPaste.current_x ≤ 2 ∧
    (∃ s1, is_cuttable demoPaste false = some (s1, true)) ∧
    (∃ s1, is_cuttable demoZero false = some (s1, false)) := by
  obtain ⟨s1, b, h1, -, h3⟩ := is_cuttable_false_iff demoPaste false
    { data := [4, 5], lineno := 2, prev := some 0, next := some 2 }
    { data := [], lineno := 4, prev := some 2, next := none } rfl rfl (by decide)
  obtain ⟨s2, b2, k1, k2, -⟩ := is_cuttable_false_iff demoZero false
    { data := [4, 5], lineno := 2, prev := some 0, next := some 2 }
    { data := [], lineno := 4, prev := some 2, next := none } rfl rfl (by decide)
  have hb : b = true := h3.2 (by decide)
  have hb2 : b2 = false := k2.2 (by decide)
  rw [hb] at h1
  rw [hb2] at k1
  exact ⟨rfl, rfl, by decide, ⟨s1, h1⟩, ⟨s2, k1⟩⟩

theorem do_uncut_text_empty_cutbuffer_witness :
    (helloBuf 5).cutbuffer = none ∧ do_uncut_text (helloBuf 5) = some (helloBuf 5) :=
  ⟨rfl, (do_uncut_text_empty_cutbuffer (helloBuf 5) rfl).1⟩

theorem zap_text_keeps_cutbuffer_witness :
    CutPre demoPaste [0, 1, 2, 3] [4, 5] ∧ demoPaste.mark = none ∧
    demoPaste.current_undo = none ∧
    ∃ t, zap_text 0 demoPaste = some t ∧ t.cutbuffer = some 4 ∧ t.cutbottom = some 5 ∧
      text_from t t.cutbuffer = some [[7, 8], [9]] ∧
      ∃ i u, t.current_undo = some i ∧ t.undotop[i]? = some u ∧ u.type = undo_type.ZAP ∧
        text_from t u.cutbuffer = some [[4, 5], []] ∧
        buffer_text t = some [[1, 2, 3], [6], []] := by
  obtain ⟨t, hrun, hcb, hbot, -, -, htext, hrec⟩ :=
    zap_text_keeps_cutbuffer 0 (P := []) demoPaste_cutPre (fun hm => absurd rfl hm)
      (fun i hi => by cases hi) (fun i u hi => by cases hi)
  obtain ⟨i, u, top, top_x, bot, bot_x, A, R, B, held, hi, hu, hty, hr, hL, hhead, hlast, -,
    hheld, hut, hbt⟩ := hrec demoPaste rfl
  have hr2 : cut_range demoPaste false = some (1, 0, 2, 0) := by decide
  rw [hr2] at hr
  simp only [Option.some.injEq, Prod.mk.injEq] at hr
  obtain ⟨rfl, rfl, rfl, rfl⟩ := hr
  have hR : R = [1, 2] := range_two demoPaste_buf hL hhead hlast
    (show demoPaste.heap 1 = some
      { data := [4, 5], lineno := 2, prev := some 0, next := some 2 } from rfl) rfl
  subst hR
  have hA : A = [0] ∧ B = [3] := by
    have h0 : ([0] : List Nat) ++ ([1, 2] ++ [3]) = A ++ ([1, 2] ++ B) := by
      rw [← List.append_assoc A, ← hL]
      rfl
    have hlen := congrArg List.length hL
    cases A with
    | nil => simp at h0
    | cons a A1 =>
      cases A1 with
      | nil =>
        simp only [List.singleton_append, List.cons_append, List.nil_append,
          List.cons.injEq] at h0
        exact ⟨by rw [h0.1], by rw [← h0.2.2.2]⟩
      | cons a2 A2 =>
        simp only [List.singleton_append, List.cons_append, List.nil_append,
          List.cons.injEq] at h0
        have := h0.2.1
        have hd := demoPaste_buf.nodup
        rw [hL, ← h0.1, ← this] at hd
        revert hd
        simp
  obtain ⟨rfl, rfl⟩ := hA
  rw [hheld (by decide)] at hut
  exact ⟨demoPaste_cutPre, rfl, rfl, t, hrun, hcb.trans rfl, hbot.trans rfl,
    htext.trans (by decide), i, u, hi, hu, hty, hut.trans (by decide),
    hbt.trans (by decide)⟩

theorem do_copy_text_non_destructive_witness :
    CutPre ({ demoPaste with keep_cutbuffer := true } : State) [0, 1, 2, 3] [4, 5] ∧
    size_invariant ({ demoPaste with keep_cutbuffer := true } : State) ∧
    ∃ t ncl, do_copy_text (some 1) { demoPaste with keep_cutbuffer := true } =
        some (t, ncl) ∧
      buffer_text t = some [[1, 2, 3], [4, 5], [6], []] ∧ t.totsize = 9 ∧
      t.modified = false ∧ t.NO_NEWLINES = false ∧
      text_from t t.cutbuffer = some [[7, 8], [9, 4, 5], []] := by
  have hpre : CutPre ({ demoPaste with keep_cutbuffer := true } : State) [0, 1, 2, 3] [4, 5] :=
    demoPaste_cutPre.set_keep true
  have hbuf : Buf ({ demoPaste with keep_cutbuffer := true } : State) [0, 1, 2, 3] := hpre.buf
  obtain ⟨t, ncl, top, top_x, bot, bot_x, A, R, B, D0, hrun, hr, hL, hhead, hlast, hD0, hbt,
    htot, hmod, hnn, hcut⟩ :=
    do_copy_text_non_destructive (some 1) hpre (by decide) demoPaste_numbered demoPaste_size
  have hr2 : cut_range ({ demoPaste with keep_cutbuffer := true } : State) false =
      some (1, 0, 2, 0) := by decide
  rw [hr2] at hr
  simp only [Option.some.injEq, Prod.mk.injEq] at hr
  obtain ⟨rfl, rfl, rfl, rfl⟩ := hr
  have hR : R = [1, 2] := range_two hbuf hL hhead hlast
    (show demoPaste.heap 1 = some
      { data := [4, 5], lineno := 2, prev := some 0, next := some 2 } from rfl) rfl
  subst hR
  have hD : D0 = [4, 5] := hD0.trans (by decide)
  subst hD
  exact ⟨hpre, demoPaste_size, t, ncl, hrun, hbt.trans (by decide), htot.trans (by decide),
    hmod, hnn, hcut.trans (by decide)⟩

theorem cut_line_removes_line_witness :
    CutPre demoPaste [0, 1, 2, 3] [4, 5] ∧ demoPaste.current = 1 ∧
    ∃ t, cut_line demoPaste = some t ∧
      buffer_text t = some [[1, 2, 3], [6], []] ∧
      text_from t t.cutbuffer = some [[7, 8], [9, 4, 5], []] ∧ t.current_x = 0 ∧
      dataOf t.heap t.current = [6] := by
  obtain ⟨t, hrun, h1, -⟩ := cut_line_removes_line (s := demoPaste) (A := [0]) (B := [2, 3])
    (D := [4, 5]) demoPaste_cutPre
  obtain ⟨hbt, hcut, -, hx, hd⟩ := h1 2 [3] rfl
  exact ⟨demoPaste_cutPre, rfl, t, hrun, hbt.trans (by decide), hcut.trans (by decide), hx,
    hd.trans (by decide)⟩

theorem cut_to_eol_effect_witness :
    CutPre ({ demoPaste with current_x := 2 } : State) [0, 1, 2, 3] [4, 5] ∧
    Numbered demoPaste.heap 0 [0, 1, 2, 3] ∧
    is_cuttable ({ demoPaste with current_x := 2 } : State) true =
      some ({ demoPaste with current_x := 2 }, true) ∧
    dataOf demoPaste.heap 1 = [4, 5] ∧
    ∃ t, cut_to_eol { demoPaste with current_x := 2 } = some t ∧
      buffer_text t = some [[1, 2, 3], [4, 5, 6], []] ∧
      text_from t t.cutbuffer = some [[7, 8], [9], []] ∧
      linenoAt t.heap t.current = some 2 ∧ t.current_x = 2 := by
  have hpre : CutPre ({ demoPaste with current_x := 2 } : State) [0, 1, 2, 3] [4, 5] :=
    { buf :=
        { nodup := demoPaste_buf.nodup
          seg := demoPaste_buf.seg
          top := demoPaste_buf.top
          bot := demoPaste_buf.bot
          fresh := demoPaste_buf.fresh }
      cur := by decide
      x_le := by decide
      edittop := by decide
      mark := by decide
      magic := by decide
      cut := by decide
      cut_nodup := by decide
      cut_disj := by decide
      cut_top := by decide
      cut_bot := by decide }
  obtain ⟨t, hrun, -, h2, -, hln, hx⟩ :=
    cut_to_eol_effect (s := { demoPaste with current_x := 2 }) (A := [0]) (B := [2, 3])
      (D := [4, 5]) hpre demoPaste_numbered (Or.inr ⟨_, rfl⟩)
  obtain ⟨hcut, hbt⟩ := h2 (by decide) 2 [3] rfl
  exact ⟨hpre, demoPaste_numbered, rfl, by decide, t, hrun, hbt.trans (by decide),
    hcut.trans (by decide), hln.trans (by decide), hx.trans rfl⟩

theorem extract_buffer_keeps_positions_valid_witness :
    ExtractPre demoAfter [0] [1, 2] [3] [4, 5] (some 4) (some 5) 1 1 2 1 ∧
    Numbered demoAfter.heap 0 ([0] ++ [1, 2] ++ [3]) ∧
    demoAfter.mark = some 2 ∧ demoAfter.mark_x = 1 ∧
    ∃ t ft fb L1, extract_buffer demoAfter (some 4) (some 5) 1 1 2 1 = some (t, ft, fb) ∧
      Buf t L1 ∧ t.current ∈ L1 ∧ t.current_x ≤ (dataOf t.heap t.current).length ∧
      ∃ m1, t.mark = some m1 ∧ m1 ∈ L1 ∧ t.mark_x ≤ (dataOf t.heap m1).length := by
  have hpre : ExtractPre demoAfter [0] [1, 2] [3] [4, 5] (some 4) (some 5) 1 1 2 1 :=
    { buf := demoAfter_extractPre.buf
      head := by decide
      last := by decide
      top_le := by decide
      bot_le := by decide
      nonempty := by decide
      edittop := by decide
      mark := by decide
      dest := by decide
      dest_nodup := by decide
      dest_disj := by decide
      dest_top := by decide
      dest_bot := by decide }
  obtain ⟨t, ft, fb, L1, hrun, hbuf, -, hc, hcx, -, hm⟩ :=
    extract_buffer_keeps_positions_valid hpre demoPaste_numbered
      (by
        intro m hm
        cases hm
        decide)
      (by
        intro m hm _
        cases hm
        decide)
  exact ⟨hpre, demoPaste_numbered, rfl, rfl, t, ft, fb, L1, hrun, hbuf, hc, hcx, hm 2 rfl⟩

theorem typing_coalesces_witness :
    Editable demoPaste [0, 1, 2, 3] ∧ Numbered demoPaste.heap 0 [0, 1, 2, 3] ∧
    demoPaste.current_undo = none ∧
    ∃ (s1 s2 s3 : State) (u1 u2 u3 : undo),
      do_output ascii_cntrl demoPaste [97] false = some s1 ∧
      do_output ascii_cntrl s1 [98] false = some s2 ∧
      do_output ascii_cntrl s2 [99] false = some s3 ∧
      s1.undotop = [u1] ∧ s2.undotop = [u2] ∧ s3.undotop = [u3] ∧
      u3.type = undo_type.ADD ∧ s3.current = 1 ∧ s3.current_x = 4 ∧
      ∃ (s3m : State) (u4 : undo),
        do_output ascii_cntrl { s2 with current := s2.filebot, current_x := 0 } [99] false =
          some s3m ∧
        s3m.undotop = [u4, u2] := by
  obtain ⟨s1, s2, s3, u1, u2, u3, L2, h1, h2, h3, k1, k2, k3, -, -, t3, -, -, -, -, -, c3,
    -, x2, x3, hb2, hmoved⟩ :=
    typing_coalesces ascii_cntrl demoPaste_editable demoPaste_numbered
      (a := 97) (b := 98) (c := 99) ⟨by decide, by decide⟩ ⟨by decide, by decide⟩
      ⟨by decide, by decide⟩ (Or.inl rfl)
  have hk : kept_records demoPaste = [] := rfl
  rw [hk] at k1 k2 k3 hmoved
  obtain ⟨s3m, u4, hm1, hm2, -⟩ := hmoved s2.filebot 0
    (List.mem_of_getLast?_eq_some hb2.bot) (Nat.zero_le _)
    (Or.inr (by rw [x2]; exact (Nat.succ_ne_zero _).symm))
  exact ⟨demoPaste_editable, demoPaste_numbered, rfl, s1, s2, s3, u1, u2, u3, h1, h2, h3,
    k1, k2, k3, t3, c3, x3, s3m, u4, hm1, hm2⟩

theorem partition_buffer_selects_range_witness :
    Buf demoPaste ([0] ++ [1, 2] ++ [3]) ∧
    (1 : Nat) ≤ (dataOf demoPaste.heap 1).length ∧ (0 : Nat) ≤ (dataOf demoPaste.heap 2).length ∧
    ∃ (t : State) (p : partition),
      partition_buffer demoPaste 1 1 2 0 = some (t, p) ∧
      t.filetop = 1 ∧ t.filebot = 2 ∧
      buffer_text t = some [[5], []] ∧ p.top_data = [4] ∧ p.bot_data = [6] := by
  obtain ⟨t, p, hrun, hft, hfb, -, hbt, -, -, -, htd, hbd⟩ :=
    @partition_buffer_selects_range demoPaste [0] [1, 2] [3] 1 2 1 0 demoPaste_buf rfl rfl
      (by decide) (by decide) (by decide)
  exact ⟨demoPaste_buf, by decide, by decide, t, p, hrun, hft, hfb, hbt.trans (by decide),
    htd.trans (by decide), hbd.trans (by decide)⟩

/-! ## Renumbering -/

theorem setLineno_of_lineno {h : Heap} {p : Nat} {k : Int} (hk : linenoAt h p = some k) :
    h.setLineno p k = h := by
  funext y
  by_cases e : y = p
  · subst e
    cases hq : h y with
    | none => simp [linenoAt, hq] at hk
    | some n =>
      simp only [linenoAt, hq, Option.map_some', Option.some.injEq] at hk
      simp [Heap.setLineno, Heap.upd, hq, ← hk]
  · simp [Heap.setLineno, Heap.upd, e]

/-- Renumbering lines that carry their numbers already changes nothing. -/
theorem renum_of_numbered {h : Heap} {ps : List Nat} :
    ∀ {k : Int}, Numbered h k ps → h.renum ps k = h := by
  induction ps with
  | nil => intro k _; rfl
  | cons p rest ih =>
    intro k hn
    show Heap.renum (h.setLineno p (k + 1)) rest (k + 1) = h
    rw [setLineno_of_lineno hn.1]
    exact ih hn.2

/-- C31: for every line `x` of a finite sequence (the lines `A` before it and
the lines `rest` after it), `renumber(x)` returns and afterwards the number of
`x` is the number of its predecessor plus one (1 when `x` has no
predecessor), the number of every later line is exactly one more than the
number of its predecessor, and the numbers of the lines before `x` as well as
all line contents and links are unchanged (every cell outside `x :: rest` is
as it was); renumbering once more changes nothing. -/
theorem renumber_contract {s : State} {A rest : List Nat} {x : Nat}
    (hseg : Seg s.heap none (A ++ x :: rest) none) (hnd : (A ++ x :: rest).Nodup)
    (hlt : ∀ y, y ∈ A ++ x :: rest → y < s.brk) :
    ∃ (t : State) (k : Int), renumber s x = some t ∧
      (A = [] → k = 0) ∧
      (∀ q, A.getLast? = some q → linenoAt s.heap q = some k) ∧
      linenoAt t.heap x = some (k + 1) ∧
      Numbered t.heap k (x :: rest) ∧
      (∀ y, y ∈ A → linenoAt t.heap y = linenoAt s.heap y) ∧
      (∀ y, y ∉ x :: rest → t.heap y = s.heap y) ∧
      (∀ y, dataAt t.heap y = dataAt s.heap y ∧ linksAt t.heap y = linksAt s.heap y) ∧
      t = { s with heap := t.heap } ∧
      renumber t x = some t := by
  obtain ⟨hrun, hnum⟩ := renumber_spec hseg hnd hlt
  have hxA : ∀ y, y ∈ A → y ∉ x :: rest := fun y hy hm =>
    (List.nodup_append.1 hnd).2.2 hy hm
  have hsegt : Seg (s.heap.renum (x :: rest) (lastNumber s.heap A)) none (A ++ x :: rest)
      none := Seg.renum _ _ hseg
  have hlast : lastNumber (s.heap.renum (x :: rest) (lastNumber s.heap A)) A =
      lastNumber s.heap A :=
    lastNumber_frame (fun y hy => renum_not_mem _ _ _ (hxA y hy))
  obtain ⟨hrun2, -⟩ := renumber_spec
    (s := { s with heap := s.heap.renum (x :: rest) (lastNumber s.heap A) }) hsegt hnd hlt
  refine ⟨_, lastNumber s.heap A, hrun, ?_, ?_, hnum.1, hnum, ?_, ?_, ?_, rfl, ?_⟩
  · intro e
    rw [e]
    rfl
  · intro q hq
    obtain ⟨n, hn⟩ := hseg.live (List.mem_append_left _ (List.mem_of_getLast?_eq_some hq))
    simp [lastNumber, hq, getNode, linenoAt, hn]
  · intro y hy
    exact linenoAt_renum_not_mem _ _ _ (hxA y hy)
  · intro y hy
    exact renum_not_mem _ _ _ hy
  · intro y
    exact ⟨dataAt_renum _ _ _ _, linksAt_renum _ _ _ _⟩
  · rw [hrun2]
    have e : Heap.renum (s.heap.renum (x :: rest) (lastNumber s.heap A)) (x :: rest)
        (lastNumber (s.heap.renum (x :: rest) (lastNumber s.heap A)) A) =
        s.heap.renum (x :: rest) (lastNumber s.heap A) := by
      rw [hlast, renum_of_numbered hnum]
    simp only [e]

/-! ## Where `extract_buffer` leaves the cursor and the mark -/

/-- C34: after `extract_buffer` on a valid non-empty range of a buffer whose
lines are numbered from 1, the cursor is at the start of the removed range,
whatever it was before: at offset `top_x` of a line of the buffer that has the
line number that `top` had (and holds what is left of `top` and `bot`).  A
mark that lay inside the removed range, between `(top, top_x)` and
`(bot, bot_x)` inclusive, is moved to that same position; a mark on the line
`top` before `top_x` keeps its offset and refers to the line that replaced
`top`. -/
theorem extract_buffer_cursor_and_mark {s : State} {A R B D : List Nat}
    {fto fbo : Option Nat} {top top_x bot bot_x : Nat}
    (h : ExtractPre s A R B D fto fbo top top_x bot bot_x)
    (hnum : Numbered s.heap 0 (A ++ R ++ B)) :
    ∃ (t : State) (ft fb : Option Nat) (L1 : List Nat),
      extract_buffer s fto fbo top top_x bot bot_x = some (t, ft, fb) ∧
      Buf t L1 ∧ t.current ∈ L1 ∧
      linenoAt t.heap t.current = linenoAt s.heap top ∧ t.current_x = top_x ∧
      dataOf t.heap t.current =
        (dataOf s.heap top).take top_x ++ (dataOf s.heap bot).drop bot_x ∧
      (∀ m, s.mark = some m → m ∈ R → (m = top → top_x ≤ s.mark_x) →
        (m = bot → s.mark_x ≤ bot_x) → t.mark = some t.current ∧ t.mark_x = top_x) ∧
      (∀ m, s.mark = some m → m = top → s.mark_x < top_x →
        t.mark = some t.current ∧ t.mark_x = s.mark_x) := by
  obtain ⟨t, ft, fb, M, E, hrun, hp⟩ := extract_buffer_spec h
  have hcur : t.current = s.brk := by rw [hp.rest]
  have hcx : t.current_x = top_x := by rw [hp.rest]
  have hnum2 := hnum
  rw [List.append_assoc, Numbered.append_iff] at hnum2
  obtain ⟨R1, hR1⟩ := eq_cons_of_head? h.head
  have htop : linenoAt s.heap top = some ((A.length : Int) + 1) := by
    have := hnum2.2
    rw [hR1] at this
    simpa using this.1
  have hnew : linenoAt t.heap s.brk = some ((A.length : Int) + 1) := by
    have := hp.num_new
    rw [lastNumber_numbered hnum2.1] at this
    exact this.1
  refine ⟨t, ft, fb, _, hrun, hp.buf, ?_, ?_, hcx, ?_, ?_, ?_⟩
  · rw [hcur]
    simp
  · rw [hcur, hnew, htop]
  · rw [hcur]
    exact hp.data_new top bot h.head h.last
  · intro m hm hmR h1 h2
    obtain ⟨km, kt, kb, e1, e2, e3, hmark, hmx⟩ := hp.mark_rule m top bot hm h.head h.last
    obtain ⟨a, b, c, f1, f2, f3, hab, hbc⟩ := Numbered.range_bounds hnum h.head h.last hmR
    have ea : kt = a := Option.some.inj (e2.symm.trans f1)
    have eb : km = b := Option.some.inj (e1.symm.trans f2)
    have ec : kb = c := Option.some.inj (e3.symm.trans f3)
    have hin : kt ≤ km ∧ km ≤ kb ∧ (m ≠ top ∨ top_x ≤ s.mark_x) ∧
        (m ≠ bot ∨ s.mark_x ≤ bot_x) := by
      refine ⟨by rw [ea, eb]; exact hab, by rw [eb, ec]; exact hbc, ?_, ?_⟩
      · by_cases e : m = top
        · exact Or.inr (h1 e)
        · exact Or.inl e
      · by_cases e : m = bot
        · exact Or.inr (h2 e)
        · exact Or.inl e
    rw [hmark, hmx, if_pos (Or.inl hin), if_pos hin, hcur]
    exact ⟨rfl, rfl⟩
  · intro m hm hmt hlt
    obtain ⟨km, kt, kb, e1, e2, e3, hmark, hmx⟩ := hp.mark_rule m top bot hm h.head h.last
    have hnot : ¬ (kt ≤ km ∧ km ≤ kb ∧ (m ≠ top ∨ top_x ≤ s.mark_x) ∧
        (m ≠ bot ∨ s.mark_x ≤ bot_x)) := by
      rintro ⟨-, -, h3, -⟩
      rcases h3 with h3 | h3
      · exact h3 hmt
      · omega
    rw [hmark, hmx, if_pos (Or.inr hmt), if_neg hnot, hcur]
    exact ⟨rfl, rfl⟩

/-! ## The partition record through `extract_buffer` and `ingraft_buffer` -/

theorem modify_filepart {s t : State} {p : Nat} {f : linestruct → linestruct}
    (h : s.modify p f = some t) : t.filepart = s.filepart := by
  unfold State.modify at h
  cases hp : s.heap p with
  | none => rw [hp] at h; cases h
  | some n =>
    rw [hp] at h
    cases h
    rfl

theorem renumber_loop_filepart : ∀ (fuel : Nat) (s : State) (p : Option Nat) (k : Int)
    (t : State), renumber_loop fuel s p k = some t → t.filepart = s.filepart
  | 0, s, none, _, t, h => by
    simp only [renumber_loop, Option.some.injEq] at h
    rw [← h]
  | _ + 1, s, none, _, t, h => by
    simp only [renumber_loop, Option.some.injEq] at h
    rw [← h]
  | 0, _, some _, _, _, h => by simp [renumber_loop] at h
  | fuel + 1, s, some p, k, t, h => by
    cases hp : s.heap p with
    | none => simp [renumber_loop, hp] at h
    | some n =>
      simp only [renumber_loop, hp] at h
      exact renumber_loop_filepart fuel _ n.next (k + 1) t h |>.trans rfl

theorem renumber_filepart {s t : State} {x : Nat} (h : renumber s x = some t) :
    t.filepart = s.filepart := by
  unfold renumber at h
  cases hx : s.heap x with
  | none => simp [hx] at h
  | some n =>
    simp only [hx] at h
    cases hp : n.prev with
    | none =>
      simp only [hp] at h
      exact renumber_loop_filepart _ _ _ _ _ h
    | some q =>
      simp only [hp] at h
      cases hq : s.heap q with
      | none => simp [hq] at h
      | some m =>
        simp only [hq] at h
        exact renumber_loop_filepart _ _ _ _ _ h

theorem new_magicline_filepart {s t : State} (h : new_magicline s = some t) :
    t.filepart = s.filepart := by
  rw [new_magicline_shape h]

theorem renumber_and_magic_filepart {s t : State} {x : Nat}
    (h : renumber_and_magic s x = some t) : t.filepart = s.filepart := by
  unfold renumber_and_magic at h
  cases h1 : renumber s x with
  | none => simp [h1] at h
  | some s1 =>
    simp only [h1] at h
    cases hfb : s1.heap s1.filebot with
    | none => simp [hfb] at h
    | some fb =>
      simp only [hfb] at h
      split_ifs at h
      · rw [new_magicline_filepart h, renumber_filepart h1]
      · cases h
        exact renumber_filepart h1

theorem unpartition_buffer_filepart {s t : State} (h : unpartition_buffer s = some t) :
    t.filepart = none := by
  unfold unpartition_buffer at h
  simp only [Option.bind_eq_bind, Option.bind_eq_some, Option.some.injEq] at h
  obtain ⟨_, _, _, _, _, _, _, _, _, _, _, _, _, _, _, _, _, _, h⟩ := h
  rw [← h]

theorem delete_node_filepart {s t : State} {x : Nat} (h : delete_node s x = some t) :
    t.filepart = s.filepart := by
  unfold delete_node at h
  cases hx : s.heap x with
  | none => simp [hx] at h
  | some n =>
    simp only [hx, Option.some.injEq] at h
    rw [← h]

theorem extract_buffer_move_filepart {s t : State} {file_top file_bot ft fb : Option Nat}
    (h : extract_buffer_move s file_top file_bot = some (t, ft, fb)) :
    t.filepart = s.filepart := by
  unfold extract_buffer_move at h
  cases file_top with
  | none =>
    simp only at h
    cases h1 : renumber s s.filetop with
    | none => simp [h1] at h
    | some s1 =>
      simp only [h1, Option.some.injEq, Prod.mk.injEq] at h
      rw [← h.1]
      exact renumber_filepart h1
  | some q =>
    simp only [Option.bind_eq_bind, Option.bind_eq_some, Option.some.injEq] at h
    obtain ⟨fbs, -, t0, -, s1, h1, t1, -, s2, h2, b, -, ⟨s3, fb3⟩, h3, s4, h4, s5, h5, h6⟩ := h
    simp only [Prod.mk.injEq] at h6
    rw [← h6.1, renumber_filepart h5, delete_node_filepart h4]
    have e3 : s3.filepart = s2.filepart := by
      cases hb : b.next with
      | none =>
        simp only [hb, Option.some.injEq, Prod.mk.injEq] at h3
        rw [← h3.1]
      | some q2 =>
        simp only [hb] at h3
        cases hm : s2.modify q2 (fun n => { n with prev := some fbs }) with
        | none => simp [hm] at h3
        | some s2b =>
          simp only [hm, Option.some.injEq, Prod.mk.injEq] at h3
          rw [← h3.1]
          exact modify_filepart hm
    rw [e3, modify_filepart h2, modify_filepart h1]

theorem extract_buffer_blank_filepart {s t : State} {top_x : Nat} {mi sl : Bool}
    (h : extract_buffer_blank s top_x mi sl = some t) : t.filepart = s.filepart := by
  unfold extract_buffer_blank at h
  simp only [make_new_node, State.alloc] at h
  split at h
  · cases h
  · rename_i s2 hm
    have e := modify_filepart hm
    split_ifs at h <;> (cases h; exact e)

/-- The steps of `extract_buffer` on a range that is not empty: the record
that `partition_buffer` returns is in `filepart` until `unpartition_buffer`
takes it out. -/
theorem extract_buffer_trace {s t : State} {file_top file_bot ft fb : Option Nat}
    {top top_x bot bot_x : Nat}
    (h : extract_buffer s file_top file_bot top top_x bot bot_x = some (t, ft, fb))
    (hne : ¬ (top = bot ∧ top_x = bot_x)) :
    ∃ (s1 : State) (p : partition) (s4 s5 : State) (edittop_inside : Bool),
      partition_buffer s top top_x bot bot_x = some (s1, p) ∧
      s4.filepart = some p ∧ unpartition_buffer s4 = some s5 ∧ s5.filepart = none ∧
      renumber_and_magic (if edittop_inside = true then adjust_viewport s5 else s5) s4.filetop =
        some t ∧
      t.filepart = none := by
  unfold extract_buffer at h
  rw [if_neg hne] at h
  cases h1 : partition_buffer s top top_x bot bot_x with
  | none => simp [h1] at h
  | some r1 =>
    obtain ⟨s1, p⟩ := r1
    simp only [h1] at h
    cases h2 : extract_buffer_inside { s1 with filepart := some p } top_x bot_x with
    | none => simp [h2] at h
    | some r2 =>
      obtain ⟨ei, mi, sl⟩ := r2
      simp only [h2] at h
      cases h3 : get_totsize { s1 with filepart := some p } top bot with
      | none => simp [h3] at h
      | some size =>
        simp only [h3] at h
        cases h4 : extract_buffer_move
            { ({ s1 with filepart := some p } : State) with
              totsize := ({ s1 with filepart := some p } : State).totsize - size }
            file_top file_bot with
        | none => simp [h4] at h
        | some r4 =>
          obtain ⟨s3, ft3, fb3⟩ := r4
          simp only [h4] at h
          cases h5 : extract_buffer_blank s3 top_x mi sl with
          | none => simp [h5] at h
          | some s4 =>
            simp only [h5] at h
            cases h6 : extract_buffer_finish s4 ei with
            | none => simp [h6] at h
            | some s5f =>
              simp only [h6, Option.some.injEq, Prod.mk.injEq] at h
              have h7 := h6
              unfold extract_buffer_finish at h7
              cases h8 : unpartition_buffer s4 with
              | none => simp [h8] at h7
              | some s5 =>
                simp only [h8] at h7
                have e5 := unpartition_buffer_filepart h8
                have e4 : s4.filepart = some p := by
                  rw [extract_buffer_blank_filepart h5, extract_buffer_move_filepart h4]
                rw [h.1] at h7
                refine ⟨s1, p, s4, s5, ei, rfl, e4, h8, e5, h7, ?_⟩
                rw [renumber_and_magic_filepart h7]
                cases ei
                · exact e5
                · exact e5

theorem free_lines_loop_filepart : ∀ (fuel : Nat) (s : State) (src : Nat) (t : State),
    free_lines_loop fuel s src = some t → t.filepart = s.filepart
  | 0, _, _, _, h => by simp [free_lines_loop] at h
  | fuel + 1, s, src, t, h => by
    unfold free_lines_loop at h
    cases hs : s.heap src with
    | none => simp [hs] at h
    | some n =>
      simp only [hs] at h
      cases hn : n.next with
      | none =>
        simp only [hn] at h
        exact delete_node_filepart h
      | some q =>
        simp only [hn] at h
        cases hq : s.heap q with
        | none => simp [hq] at h
        | some m =>
          simp only [hq] at h
          cases hm : m.prev with
          | none => simp [hm] at h
          | some r =>
            simp only [hm] at h
            cases hd : delete_node s r with
            | none => simp [hd] at h
            | some s1 =>
              simp only [hd] at h
              rw [free_lines_loop_filepart fuel s1 q t h, delete_node_filepart hd]

theorem free_lines_filepart {s t : State} {src : Option Nat} (h : free_lines s src = some t) :
    t.filepart = s.filepart := by
  unfold free_lines at h
  cases src with
  | none =>
    simp only [Option.some.injEq] at h
    rw [← h]
  | some p => exact free_lines_loop_filepart _ _ _ _ h

theorem ingraft_buffer_last_filepart : ∀ (fuel : Nat) (s t : State),
    ingraft_buffer_last fuel s = some t → t.filepart = s.filepart
  | 0, _, _, h => by simp [ingraft_buffer_last] at h
  | fuel + 1, s, t, h => by
    unfold ingraft_buffer_last at h
    cases hs : s.heap s.filebot with
    | none => simp [hs] at h
    | some n =>
      simp only [hs] at h
      cases hn : n.next with
      | none =>
        simp only [hn, Option.some.injEq] at h
        rw [← h]
      | some q =>
        simp only [hn] at h
        exact (ingraft_buffer_last_filepart fuel _ t h).trans rfl

theorem ingraft_buffer_cursor_filepart {s t : State} {x : Nat} {rsu sl : Bool}
    (h : ingraft_buffer_cursor s x rsu sl = some t) : t.filepart = s.filepart := by
  cases hfb : s.heap s.filebot with
  | none => simp [ingraft_buffer_cursor, hfb] at h
  | some fb =>
    rw [ingraft_buffer_cursor_eq x rsu sl hfb, Option.some.injEq] at h
    rw [← h]

theorem ingraft_buffer_finish_trace {s t : State} {edittop_inside : Bool}
    (h : ingraft_buffer_finish s edittop_inside = some t) :
    ∃ s6 s7 : State, s6.filepart = s.filepart ∧ unpartition_buffer s6 = some s7 ∧
      renumber_and_magic s7 s6.filetop = some t := by
  unfold ingraft_buffer_finish at h
  cases h5 : get_totsize s s.filetop s.filebot with
  | none => simp [h5] at h
  | some size =>
    simp only [h5] at h
    cases edittop_inside with
    | false =>
      simp only [Bool.false_eq_true, if_false] at h
      cases h6 : unpartition_buffer { s with totsize := s.totsize + size } with
      | none => simp [h6] at h
      | some s7 =>
        simp only [h6] at h
        exact ⟨{ s with totsize := s.totsize + size }, s7, rfl, h6, h⟩
    | true =>
      simp only [if_true] at h
      cases h6 : unpartition_buffer
          { ({ s with totsize := s.totsize + size } : State) with edittop := s.filetop } with
      | none => simp [h6] at h
      | some s7 =>
        simp only [h6] at h
        exact ⟨{ ({ s with totsize := s.totsize + size } : State) with edittop := s.filetop },
          s7, rfl, h6, h⟩

/-- The steps of `ingraft_buffer`: the record that `partition_buffer` returns
is in `filepart` until `unpartition_buffer` takes it out. -/
theorem ingraft_buffer_trace {s t : State} {somebuffer : Nat}
    (h : ingraft_buffer s somebuffer = some t) :
    ∃ (s1 : State) (p : partition) (s6 s7 : State),
      partition_buffer s s.current s.current_x s.current s.current_x = some (s1, p) ∧
      s6.filepart = some p ∧ unpartition_buffer s6 = some s7 ∧ s7.filepart = none ∧
      renumber_and_magic s7 s6.filetop = some t ∧ t.filepart = none := by
  unfold ingraft_buffer at h
  simp only at h
  cases h0 : ingraft_buffer_order s with
  | none => simp [h0] at h
  | some r0 =>
    obtain ⟨rsu, sl⟩ := r0
    simp only [h0] at h
    cases h1 : partition_buffer s s.current s.current_x s.current s.current_x with
    | none => simp [h1] at h
    | some r1 =>
      obtain ⟨s1, p⟩ := r1
      simp only [h1] at h
      cases h2 : free_lines { s1 with filepart := some p } (some s1.filetop) with
      | none => simp [h2] at h
      | some s3 =>
        simp only [h2] at h
        cases h3 : ingraft_buffer_last s3.brk
            { s3 with filetop := somebuffer, filebot := somebuffer } with
        | none => simp [h3] at h
        | some s4 =>
          simp only [h3] at h
          cases h4 : ingraft_buffer_cursor s4 s.current_x rsu sl with
          | none => simp [h4] at h
          | some s5 =>
            simp only [h4] at h
            have e5 : s5.filepart = some p := by
              rw [ingraft_buffer_cursor_filepart h4, ingraft_buffer_last_filepart _ _ _ h3]
              exact free_lines_filepart h2
            obtain ⟨s6, s7, e6, h6, h7⟩ := ingraft_buffer_finish_trace h
            have e7 := unpartition_buffer_filepart h6
            refine ⟨s1, p, s6, s7, rfl, e6.trans e5, h6, e7, h7, ?_⟩
            rw [renumber_and_magic_filepart h7, e7]

/-- C36: no partition outlives an operation.  When `filepart` is null on
entry, `extract_buffer` on an empty range returns at once with `filepart`
null.  On a valid range that is not empty `extract_buffer` returns with
`filepart` null, and so does `ingraft_buffer`, whatever `filepart` was on
entry: each call applies `partition_buffer` once, keeps the record `p` that it
returned in `filepart` up to the state (`s4`, `s6`) in which it applies
`unpartition_buffer`, which takes the record out, and what follows
(renumbering and the magic line) leaves `filepart` null. -/
theorem no_partition_outlives_operation :
    (∀ (s : State) (fto fbo : Option Nat) (top x : Nat), s.filepart = none →
      ∃ t ft fb, extract_buffer s fto fbo top x top x = some (t, ft, fb) ∧
        t.filepart = none) ∧
    (∀ (s : State) (A R B D : List Nat) (fto fbo : Option Nat) (top top_x bot bot_x : Nat),
      ExtractPre s A R B D fto fbo top top_x bot bot_x →
      ∃ (t : State) (ft fb : Option Nat) (s1 : State) (p : partition) (s4 s5 : State)
          (edittop_inside : Bool),
        extract_buffer s fto fbo top top_x bot bot_x = some (t, ft, fb) ∧
        t.filepart = none ∧
        partition_buffer s top top_x bot bot_x = some (s1, p) ∧
        s4.filepart = some p ∧ unpartition_buffer s4 = some s5 ∧ s5.filepart = none ∧
        renumber_and_magic (if edittop_inside = true then adjust_viewport s5 else s5)
          s4.filetop = some t) ∧
    (∀ (s : State) (A B Src : List Nat) (somebuffer : Nat),
      IngraftPre s A B Src somebuffer →
      ∃ (t s1 : State) (p : partition) (s6 s7 : State),
        ingraft_buffer s somebuffer = some t ∧ t.filepart = none ∧
        partition_buffer s s.current s.current_x s.current s.current_x = some (s1, p) ∧
        s6.filepart = some p ∧ unpartition_buffer s6 = some s7 ∧ s7.filepart = none ∧
        renumber_and_magic s7 s6.filetop = some t) := by
  refine ⟨?_, ?_, ?_⟩
  · intro s fto fbo top x hfp
    refine ⟨s, fto, fbo, ?_, hfp⟩
    unfold extract_buffer
    rw [if_pos ⟨rfl, rfl⟩]
  · intro s A R B D fto fbo top top_x bot bot_x h
    obtain ⟨t, ft, fb, M, E, hrun, -⟩ := extract_buffer_spec h
    have hne : ¬ (top = bot ∧ top_x = bot_x) := fun ⟨e1, e2⟩ => by
      have := h.nonempty e1
      omega
    obtain ⟨s1, p, s4, s5, ei, h1, h2, h3, h4, h5, h6⟩ := extract_buffer_trace hrun hne
    exact ⟨t, ft, fb, s1, p, s4, s5, ei, hrun, h6, h1, h2, h3, h4, h5⟩
  · intro s A B Src somebuffer h
    obtain ⟨t, M, hrun, -⟩ := ingraft_buffer_spec h
    obtain ⟨s1, p, s6, s7, h1, h2, h3, h4, h5, h6⟩ := ingraft_buffer_trace hrun
    exact ⟨t, s1, p, s6, s7, hrun, h6, h1, h2, h3, h4, h5⟩

/-! ## The undo records of `do_deletion` -/

/-- The record that `add_undo` starts. -/
theorem add_undo_run {s : State} {c : linestruct} (hc : s.heap s.current = some c)
    (a : undo_type) :
    add_undo s a = some
      { s with
        undotop :=
          { type := a, lineno := c.lineno, begin_x := s.current_x,
            mark_begin_lineno := c.lineno, mark_begin_x := s.current_x,
            wassize := s.totsize, newsize := s.totsize,
            cutbuffer := none, cutbottom := none, xflags := 0 } :: kept_records s,
        current_undo := some 0, last_action := a } := by
  cases hcu : s.current_undo <;> simp only [add_undo, kept_records, hc, hcu]

/-- The record that `update_undo` leaves for an action that is not a zap. -/
theorem update_undo_run {s : State} {c : linestruct} {i : Nat} {u : undo}
    (hc : s.heap s.current = some c) (hi : s.current_undo = some i)
    (hu : s.undotop[i]? = some u) {a : undo_type} (ha : a ≠ undo_type.ZAP) :
    update_undo s a = some
      { s with
        undotop := s.undotop.set i
          { u with
            mark_begin_lineno := c.lineno, mark_begin_x := s.current_x,
            newsize := s.totsize } } := by
  unfold update_undo
  simp only [hi, hu, hc, if_neg ha]

theorem do_deletion_undo_push {s : State} {c : linestruct} (hc : s.heap s.current = some c)
    {a : undo_type}
    (h : a ≠ s.last_action ∨ ∃ i u, s.current_undo = some i ∧ s.undotop[i]? = some u ∧
      c.lineno ≠ u.lineno) :
    do_deletion_undo s a = add_undo s a := by
  unfold do_deletion_undo
  by_cases hne : a ≠ s.last_action
  · rw [if_pos hne]
  · rw [if_neg hne]
    rcases h with h | ⟨i, u, hi, hu, hl⟩
    · exact absurd h hne
    · simp only [hi, hc, hu, if_pos hl]

theorem do_deletion_undo_update {s : State} {c : linestruct} {i : Nat} {u : undo}
    (hc : s.heap s.current = some c) {a : undo_type} (hla : a = s.last_action)
    (hi : s.current_undo = some i) (hu : s.undotop[i]? = some u)
    (hl : c.lineno = u.lineno) :
    do_deletion_undo s a = update_undo s a := by
  unfold do_deletion_undo
  rw [if_neg (not_not.2 hla)]
  simp only [hi, hc, hu, if_neg (not_not.2 hl)]

/-! ## What `do_deletion` does to the text, the cursor and the mark -/

/-- C37: `do_deletion` removes exactly one character of the buffer text at
the cursor, in a well-formed buffer `L` whose lines are numbered from 1 and
whose `totsize` is the size of its text.  When the cursor is inside a line,
that line loses the single byte at offset `current_x` and no other cell of
the heap changes.  When the cursor is at the end of a line that is not the
last (and the magic-line exception does not apply), the content of the next
line `j` is appended to the current line, `j` is removed from the buffer and
the lines are numbered from 1 again.  In both cases `totsize` decreases by
exactly 1 and the cursor (line number, offset) is unchanged; a mark after the
cursor on the same line moves one place to the left, and a mark on the
removed line moves to the current line, shifted by the old length of that
line, so that it designates the same character as before. -/
theorem do_deletion_removes_one_character {s : State} {L : List Nat} (hE : Editable s L)
    (a : undo_type) (ha : a = undo_type.DEL ∨ a = undo_type.BACK)
    (hnum : Numbered s.heap 0 L) (hsize : size_invariant s) {c : linestruct}
    (hc : s.heap s.current = some c) :
    (s.current_x < c.data.length →
      ∃ t, do_deletion s a = some t ∧ Buf t L ∧
        dataOf t.heap s.current =
          c.data.take s.current_x ++ c.data.drop (s.current_x + 1) ∧
        (∀ y, y ≠ s.current → t.heap y = s.heap y) ∧
        linenoAt t.heap s.current = linenoAt s.heap s.current ∧
        t.totsize + 1 = s.totsize ∧ t.current = s.current ∧ t.current_x = s.current_x ∧
        t.mark = s.mark ∧
        t.mark_x = (if s.mark = some s.current ∧ s.current_x < s.mark_x
          then s.mark_x - 1 else s.mark_x)) ∧
    (s.current_x = c.data.length → s.current ≠ s.filebot →
      ¬ (c.next = some s.filebot ∧ s.current_x ≠ 0 ∧ s.NO_NEWLINES = false) →
      ∃ (t : State) (A B : List Nat) (j : Nat),
        do_deletion s a = some t ∧ L = A ++ s.current :: j :: B ∧ c.next = some j ∧
        Buf t (A ++ s.current :: B) ∧ Numbered t.heap 0 (A ++ s.current :: B) ∧
        buffer_text t = some (A.map (dataOf s.heap) ++
          [c.data ++ dataOf s.heap j] ++ B.map (dataOf s.heap)) ∧
        t.totsize + 1 = s.totsize ∧ t.current = s.current ∧ t.current_x = s.current_x ∧
        linenoAt t.heap t.current = linenoAt s.heap s.current ∧
        t.mark = (if s.mark = some j then some s.current else s.mark) ∧
        t.mark_x = (if s.mark = some j then s.mark_x + s.current_x else s.mark_x)) := by
  have htot : s.totsize = sizeOf s.heap L := hE.buf.size_invariant_iff.1 hsize
  constructor
  · intro hmid
    obtain ⟨t, ut, i, u, la, hrun, -, -, ht, hE1, hsz, -⟩ := do_deletion_mid_run hE a ha hc hmid
    have hheap : t.heap = s.heap.mapData s.current
        (fun d => d.take s.current_x ++ d.drop (s.current_x + 1)) := by rw [ht]
    have hdc : dataOf t.heap s.current =
        c.data.take s.current_x ++ c.data.drop (s.current_x + 1) := by
      rw [hheap, dataOf_mapData_same _ (by simp [hc]), dataOf_of_eq hc]
    have hother : ∀ y, y ≠ s.current → t.heap y = s.heap y := by
      intro y hy
      rw [hheap]
      exact Heap.upd_ne _ _ hy
    have hsz2 := @sizeOf_update s.heap t.heap L s.current hE.buf.nodup hE.cur
      (fun y _ hy => dataOf_congr (hother y hy))
    rw [hdc, dataOf_of_eq hc, List.length_append, List.length_take, List.length_drop] at hsz2
    have htt := hsz htot
    refine ⟨t, hrun, hE1.buf, hdc, hother, ?_, ?_, by rw [ht], by rw [ht], by rw [ht], ?_⟩
    · rw [hheap]
      simp
    · omega
    · rw [ht]
  · intro hx hfb hguard
    have hguard2 : ¬ (c.next = some s.filebot ∧ s.current_x ≠ 0 ∧ ¬ s.NO_NEWLINES = true) := by
      intro ⟨h1, h2, h3⟩
      exact hguard ⟨h1, h2, by simpa using h3⟩
    obtain ⟨t, A, B, j, fj, u0, older, hrun, hL, hcn, hfj, -, ht, hE1, hdAB, hdc, hsz, hnumt⟩ :=
      do_deletion_join_run hE a hc hx hfb hguard2
    have hcur : t.current = s.current := by rw [ht]
    have htt := hsz htot
    have hj := @sizeOf_join s.heap t.heap A B s.current j
      (fun y hy => hdAB y (Or.inl hy)) (fun y hy => hdAB y (Or.inr hy))
      (by rw [hdc, dataOf_of_eq hc, dataOf_of_eq hfj])
    rw [← hL] at hj
    have hnt := hnumt hnum
    refine ⟨t, A, B, j, hrun, hL, hcn, hE1.buf, hnt, ?_, by omega, hcur, by rw [ht], ?_,
      by rw [ht], by rw [ht]⟩
    · rw [hE1.buf.text]
      simp only [List.map_append, List.map_cons, List.map_nil, hdc, dataOf_of_eq hfj]
      rw [map_congr_mem (fun y hy => hdAB y (Or.inl hy)),
        map_congr_mem (fun y hy => hdAB y (Or.inr hy))]
      simp
    · rw [hcur]
      have h1 := hnt
      rw [Numbered.append_iff] at h1
      have h2 := hnum
      rw [hL, Numbered.append_iff] at h2
      rw [h1.2.1, h2.2.1]

/-! ## The undo records that `do_deletion` leaves -/

/-- C40: `do_deletion` starts a new undo record exactly as the rule says.
When it deletes a character inside a line: if the action kind differs from
the last action of the buffer, or the line number of the cursor differs from
the line number of the current record `u`, it pushes a new record of that
kind on top of the records that are kept, and otherwise (same kind and same
line number) it updates the current record in its place.  When it joins two
lines it always pushes a new record.  And after each of these deletions,
which are the ones that change the buffer, the stored size `newsize` of the
current record equals the new `totsize`. -/
theorem do_deletion_undo_rule {s : State} {L : List Nat} (hE : Editable s L)
    (a : undo_type) (ha : a = undo_type.DEL ∨ a = undo_type.BACK) {c : linestruct}
    (hc : s.heap s.current = some c) :
    (s.current_x < c.data.length →
      ∃ t, do_deletion s a = some t ∧
        ((a ≠ s.last_action ∨ ∃ i u, s.current_undo = some i ∧ s.undotop[i]? = some u ∧
            c.lineno ≠ u.lineno) →
          ∃ u1, t.undotop = u1 :: kept_records s ∧ t.current_undo = some 0 ∧
            u1.type = a ∧ u1.lineno = c.lineno ∧ t.last_action = a) ∧
        (∀ i u, a = s.last_action → s.current_undo = some i → s.undotop[i]? = some u →
          c.lineno = u.lineno →
          ∃ u1, t.undotop = s.undotop.set i u1 ∧ t.current_undo = some i ∧
            u1.type = u.type ∧ u1.lineno = u.lineno ∧ t.last_action = a) ∧
        ∃ i u1, t.current_undo = some i ∧ t.undotop[i]? = some u1 ∧
          u1.newsize = t.totsize) ∧
    (s.current_x = c.data.length → s.current ≠ s.filebot →
      ¬ (c.next = some s.filebot ∧ s.current_x ≠ 0 ∧ s.NO_NEWLINES = false) →
      ∃ t u1, do_deletion s a = some t ∧
        t.undotop = u1 :: kept_records s ∧ t.current_undo = some 0 ∧
        u1.type = a ∧ u1.lineno = c.lineno ∧ t.last_action = a ∧
        u1.newsize = t.totsize) := by
  have haz : a ≠ undo_type.ZAP := by
    rcases ha with e | e <;> rw [e] <;> decide
  constructor
  · intro hmid
    obtain ⟨t, ut, i, u, la, hrun, hundo, hut, ht, -, -, -⟩ :=
      do_deletion_mid_run hE a ha hc hmid
    have hilt : i < ut.length := by
      by_contra hge
      rw [List.getElem?_eq_none (Nat.le_of_not_lt hge)] at hut
      cases hut
    have e_ut : t.undotop = ut.set i { u with newsize := s.totsize - 1 } := by rw [ht]
    have e_cu : t.current_undo = some i := by rw [ht]
    have e_la : t.last_action = la := by rw [ht]
    have e_tot : t.totsize = s.totsize - 1 := by rw [ht]
    refine ⟨t, hrun, ?_, ?_, ?_⟩
    · intro hpush
      rw [do_deletion_undo_push hc hpush, add_undo_run hc a, Option.some.injEq] at hundo
      have h1 := congrArg State.undotop hundo
      have h2 := congrArg State.current_undo hundo
      have h3 := congrArg State.last_action hundo
      simp only [Option.some.injEq] at h1 h2 h3
      rw [← h2] at hut e_ut e_cu
      rw [← h1] at hut e_ut
      rw [List.getElem?_cons_zero, Option.some.injEq] at hut
      rw [List.set_cons_zero] at e_ut
      refine ⟨_, e_ut, e_cu, ?_, ?_, by rw [e_la, ← h3]⟩
      · rw [← hut]
      · rw [← hut]
    · intro k v hla hk hv hl
      rw [do_deletion_undo_update hc hla hk hv hl, update_undo_run hc hk hv haz,
        Option.some.injEq] at hundo
      have h1 := congrArg State.undotop hundo
      have h2 := congrArg State.current_undo hundo
      have h3 := congrArg State.last_action hundo
      simp only at h1 h2 h3
      rw [hk, Option.some.injEq] at h2
      have hklt : k < s.undotop.length := by
        by_contra hge
        rw [List.getElem?_eq_none (Nat.le_of_not_lt hge)] at hv
        cases hv
      rw [← h2] at hut e_ut e_cu
      rw [← h1] at hut e_ut
      rw [List.getElem?_set_self hklt, Option.some.injEq] at hut
      rw [List.set_set] at e_ut
      refine ⟨_, e_ut, e_cu, ?_, ?_, by rw [e_la, ← h3, hla]⟩
      · rw [← hut]
      · rw [← hut]
    · refine ⟨i, { u with newsize := s.totsize - 1 }, e_cu, ?_, ?_⟩
      · rw [e_ut]
        exact List.getElem?_set_self hilt
      · rw [e_tot]
  · intro hx hfb hguard
    have hguard2 : ¬ (c.next = some s.filebot ∧ s.current_x ≠ 0 ∧ ¬ s.NO_NEWLINES = true) := by
      intro ⟨h1, h2, h3⟩
      exact hguard ⟨h1, h2, by simpa using h3⟩
    obtain ⟨t, A, B, j, fj, u0, older, hrun, -, -, -, hadd, ht, -, -, -, -, -⟩ :=
      do_deletion_join_run hE a hc hx hfb hguard2
    rw [add_undo_run hc a, Option.some.injEq] at hadd
    have h1 := congrArg State.undotop hadd
    simp only [List.cons.injEq] at h1
    refine ⟨t, { u0 with newsize := s.totsize - 1 }, hrun, ?_, by rw [ht], ?_, ?_,
      by rw [ht], ?_⟩
    · rw [ht, h1.2]
    · rw [← h1.1]
    · rw [← h1.1]
    · rw [ht]

/-- C32: delete never eats the magic line.  In a well-formed buffer with
NO_NEWLINES unset, when the cursor is at the end of a non-empty line whose
successor is the last line of the buffer, `do_deletion` (DEL or BACK) returns
and leaves every line of the heap, the ends of the buffer, `totsize`, the cursor, the mark and the modified
flag unchanged (for DEL the whole state, for BACK all but the undo records);
and with the cursor at the end of the last line `do_deletion` returns the
state unchanged. -/
theorem do_deletion_spares_magic_line {s : State} {L : List Nat} (hb : Buf s L)
    (a : undo_type) {c : linestruct}
    (hc : s.heap s.current = some c) (hx : s.current_x = c.data.length) :
    (s.NO_NEWLINES = false → c.data ≠ [] → c.next = some s.filebot →
      ∃ t, do_deletion s a = some t ∧
        t.heap = s.heap ∧ t.filetop = s.filetop ∧ t.filebot = s.filebot ∧
        buffer_lines t = buffer_lines s ∧ t.totsize = s.totsize ∧
        t.current = s.current ∧ t.current_x = s.current_x ∧
        t.mark = s.mark ∧ t.mark_x = s.mark_x ∧ t.modified = s.modified ∧
        (a ≠ undo_type.BACK → t = s)) ∧
    (s.current = s.filebot → do_deletion s a = some s) := by
  constructor
  · intro hnn hne hnext
    have hfb : s.current ≠ s.filebot := by
      intro e
      have := hb.filebot_next (e ▸ hc)
      rw [this] at hnext
      cases hnext
    have hx0 : s.current_x ≠ 0 := by
      rw [hx]
      intro e
      exact hne (List.length_eq_zero.1 e)
    have hguard : c.next = some s.filebot ∧ s.current_x ≠ 0 ∧ ¬ s.NO_NEWLINES = true :=
      ⟨hnext, hx0, by rw [hnn]; decide⟩
    by_cases hback : a = undo_type.BACK
    · have hrun : do_deletion s a = add_undo s undo_type.BACK := by
        unfold do_deletion
        simp only [hc]
        rw [if_neg (by omega), if_pos hx, if_pos hfb]
        unfold do_deletion_join
        simp only [hc]
        rw [if_pos hguard, if_pos hback]
        cases add_undo s undo_type.BACK <;> rfl
      rw [add_undo_run hc] at hrun
      exact ⟨_, hrun, rfl, rfl, rfl, rfl, rfl, rfl, rfl, rfl, rfl, rfl, fun h => absurd hback h⟩
    · have hrun : do_deletion s a = some s := by
        unfold do_deletion
        simp only [hc]
        rw [if_neg (by omega), if_pos hx, if_pos hfb]
        unfold do_deletion_join
        simp only [hc]
        rw [if_pos hguard, if_neg hback]
      exact ⟨s, hrun, rfl, rfl, rfl, rfl, rfl, rfl, rfl, rfl, rfl, rfl, fun _ => rfl⟩
  · intro hfb
    unfold do_deletion
    simp only [hc]
    rw [if_neg (by omega), if_pos hx, if_neg (not_not.2 hfb)]

/-! ## Typing: what `do_output` inserts -/

theorem typed_bytes_cons (f : Nat → Bool) (allow : Bool) (b : Nat) (rest : List Nat) :
    typed_bytes f allow (b :: rest) =
      if ¬ allow = true ∧ f (if b = 0 then 10 else b) = true then typed_bytes f allow rest
      else (if b = 0 then 10 else b) :: typed_bytes f allow rest := by
  unfold typed_bytes
  rw [List.map_cons, List.filter_cons]
  cases allow <;> cases f (if b = 0 then 10 else b) <;> simp

theorem take_succ_insert (d : List Nat) (x b : Nat) (hx : x ≤ d.length) :
    (d.take x ++ b :: d.drop x).take (x + 1) = d.take x ++ [b] ∧
    (d.take x ++ b :: d.drop x).drop (x + 1) = d.drop x := by
  have hl : (d.take x).length = x := by
    rw [List.length_take]
    exact Nat.min_eq_left hx
  have e : d.take x ++ b :: d.drop x = (d.take x ++ [b]) ++ d.drop x := by simp
  have hl2 : (d.take x ++ [b]).length = x + 1 := by
    rw [List.length_append, hl]
    rfl
  constructor
  · rw [e, ← hl2, List.take_left]
  · rw [e, ← hl2, List.drop_left]

/-- The loop of `do_output`, with the state that it leaves: the bytes
`typed_bytes` are inserted at the cursor in their order, the cursor and a mark
after it on the same line move to the right by their number, and `M` is the
magic line that is appended when something was typed on the last line. -/
theorem do_output_loop_run (f : Nat → Bool) (allow : Bool) (output : List Nat) :
    ∀ {s : State} {L : List Nat} (cl : Nat), Editable s L →
      cl = (dataOf s.heap s.current).length →
      ∃ t M, do_output_loop f allow output cl s = some t ∧ Editable t (L ++ M) ∧
        (s.totsize = sizeOf s.heap L → t.totsize = sizeOf t.heap (L ++ M)) ∧
        (Numbered s.heap 0 L → Numbered t.heap 0 (L ++ M)) ∧
        M = (if typed_bytes f allow output ≠ [] ∧ s.filebot = s.current ∧
          ¬ s.NO_NEWLINES = true then [s.brk] else []) ∧
        t.current = s.current ∧
        t.current_x = s.current_x + (typed_bytes f allow output).length ∧
        dataOf t.heap s.current = (dataOf s.heap s.current).take s.current_x ++
          typed_bytes f allow output ++ (dataOf s.heap s.current).drop s.current_x ∧
        (∀ y, y ∈ L → y ≠ s.current → dataOf t.heap y = dataOf s.heap y) ∧
        (∀ y, y ∈ M → dataOf t.heap y = []) ∧
        t.mark = s.mark ∧
        t.mark_x = (if some s.current = s.mark ∧ s.current_x < s.mark_x
          then s.mark_x + (typed_bytes f allow output).length else s.mark_x) ∧
        t.totsize = s.totsize + (typed_bytes f allow output).length + M.length ∧
        t.NO_NEWLINES = s.NO_NEWLINES ∧
        t.filebot = (if typed_bytes f allow output ≠ [] ∧ s.filebot = s.current ∧
          ¬ s.NO_NEWLINES = true then s.brk else s.filebot) ∧
        t.filetop = s.filetop := by
  induction output with
  | nil =>
    intro s L cl hE _
    have hK : typed_bytes f allow [] = [] := rfl
    refine ⟨s, [], rfl, by rw [List.append_nil]; exact hE,
      fun h => by rw [List.append_nil]; exact h, fun h => by rw [List.append_nil]; exact h,
      ?_, rfl, ?_, ?_, fun _ _ _ => rfl, fun y hy => absurd hy (List.not_mem_nil y), rfl, ?_,
      ?_, rfl, ?_, rfl⟩
    · rw [hK, if_neg (fun h => h.1 rfl)]
    · rw [hK]; rfl
    · rw [hK]; simp
    · rw [hK]; simp
    · rw [hK]; rfl
    · rw [hK, if_neg (fun h => h.1 rfl)]
  | cons b rest ih =>
    intro s L cl hE hcl
    rw [typed_bytes_cons]
    unfold do_output_loop
    simp only
    generalize (if b = 0 then 10 else b) = b1
    by_cases hskip : ¬ allow = true ∧ f b1 = true
    · rw [if_pos hskip, if_pos hskip]
      exact ih cl hE hcl
    · rw [if_neg hskip, if_neg hskip]
      obtain ⟨t, M1, hrun, hE1, hcur, hlen, hsz, hnum, hM1, hx1, hd1, ho1, hm1, hmk1, hmx1,
        htot1, hnn1, hbrk1, hfb1, hft1⟩ := do_output_char_run hE cl b1 hcl
      rw [hrun]
      obtain ⟨t2, M2, hrun2, hE2, hsz2, hnum2, hM2, hcur2, hx2, hd2, ho2, hm2, hmk2, hmx2,
        htot2, hnn2, hfb2, hft2⟩ := ih (cl + 1) hE1 hlen.symm
      have hcb : s.current ≠ s.brk := Nat.ne_of_lt (hE.buf.lt_brk hE.cur)
      have hno : ¬ (typed_bytes f allow rest ≠ [] ∧ t.filebot = t.current ∧
          ¬ t.NO_NEWLINES = true) := by
        rintro ⟨-, h2, h3⟩
        rw [hfb1, hcur] at h2
        rw [hnn1] at h3
        by_cases hmg : s.filebot = s.current ∧ ¬ s.NO_NEWLINES = true
        · rw [if_pos hmg] at h2
          exact hcb h2.symm
        · rw [if_neg hmg] at h2
          exact hmg ⟨h2, h3⟩
      rw [if_neg hno] at hM2 hfb2
      subst hM2
      rw [List.append_nil] at hE2 hsz2 hnum2
      have hyes : (b1 :: typed_bytes f allow rest ≠ [] ∧ s.filebot = s.current ∧
          ¬ s.NO_NEWLINES = true) ↔ (s.filebot = s.current ∧ ¬ s.NO_NEWLINES = true) :=
        ⟨fun h => h.2, fun h => ⟨by simp, h⟩⟩
      have hxd : s.current_x ≤ (dataOf s.heap s.current).length := hE.x_le
      obtain ⟨e1, e2⟩ := take_succ_insert (dataOf s.heap s.current) s.current_x b1 hxd
      have hM1mem : ∀ y, y ∈ M1 → y = s.brk := by
        intro y hy
        rw [hM1] at hy
        split_ifs at hy
        · exact List.mem_singleton.1 hy
        · cases hy
      refine ⟨t2, M1, hrun2, hE2, fun h => hsz2 (hsz h), fun h => hnum2 (hnum h), ?_,
        hcur2.trans hcur, ?_, ?_, ?_, ?_, hmk2.trans hmk1, ?_, ?_, hnn2.trans hnn1, ?_,
        hft2.trans hft1⟩
      · rw [hM1]
        by_cases hmg : s.filebot = s.current ∧ ¬ s.NO_NEWLINES = true
        · rw [if_pos hmg, if_pos (hyes.2 hmg)]
        · rw [if_neg hmg, if_neg (fun h => hmg (hyes.1 h))]
      · rw [hx2, hx1, List.length_cons]
        omega
      · rw [hcur] at hd2
        rw [hd2, hx1, hd1, e1, e2]
        simp
      · intro y hy hyc
        rw [hcur] at ho2
        rw [ho2 y (List.mem_append_left _ hy) hyc, ho1 y hy hyc]
      · intro y hy
        have hyb := hM1mem y hy
        rw [hcur] at ho2
        rw [ho2 y (List.mem_append_right _ hy) (fun e => hcb (e ▸ hyb)), hm1 y hy]
      · rw [hmx2, hmx1, hcur, hmk1, hx1, List.length_cons]
        by_cases hc1 : some s.current = s.mark ∧ s.current_x < s.mark_x
        · rw [if_pos hc1, if_pos hc1, if_pos ⟨hc1.1, by omega⟩]
          omega
        · rw [if_neg hc1, if_neg hc1]
          rw [if_neg]
          rintro ⟨h1, h2⟩
          exact hc1 ⟨h1, by omega⟩
      · rw [htot2, htot1, List.length_cons]
        simp only [List.length_nil]
        omega
      · rw [hfb2, hfb1]
        by_cases hmg : s.filebot = s.current ∧ ¬ s.NO_NEWLINES = true
        · rw [if_pos hmg, if_pos (hyes.2 hmg)]
        · rw [if_neg hmg, if_neg (fun h => hmg (hyes.1 h))]

/-! ## What `do_output` inserts -/

/-- With controls not allowed, and 0x0A being a control byte, the bytes that
are inserted are the input without its NUL bytes and its control bytes. -/
theorem typed_bytes_filtered (f : Nat → Bool) (h10 : f 10 = true) (output : List Nat) :
    typed_bytes f false output = output.filter (fun b => decide (b ≠ 0) && !f b) := by
  unfold typed_bytes
  induction output with
  | nil => rfl
  | cons b rest ih =>
    rw [List.map_cons, List.filter_cons, List.filter_cons, ih]
    by_cases hb : b = 0
    · simp [hb, h10]
    · simp [hb]

/-- With controls allowed no byte is left out. -/
theorem typed_bytes_all (f : Nat → Bool) (output : List Nat) :
    typed_bytes f true output = output.map (fun b => if b = 0 then 10 else b) := by
  unfold typed_bytes
  simp

/-- C38: `do_output` inserts exactly the bytes `typed_bytes` of its input, in
their order, at the cursor of a well-formed buffer `L` (single-byte
characters, hard-wrapping off).  With `old` the content of the current line
and `x` the cursor offset, the current line becomes
`old[0..x) ++ typed ++ old[x..]` and no other line of `L` changes, the cursor
offset becomes `x + length(typed)`, `totsize` grows by `length(typed)`, plus 1
for the magic line `M` that is appended when something was typed on the last
line with NO_NEWLINES unset, and a mark on the same line strictly after the
cursor moves right by `length(typed)` (any other mark stays).  With
`allow_cntrls` false, `typed` is the input without its NUL bytes (which are
first turned into 0x0A, a control byte) and without the bytes that
`is_ascii_cntrl_char` reports; with `allow_cntrls` true no byte is dropped,
and each NUL byte is inserted as 0x0A. -/
theorem do_output_inserts_typed_bytes (f : Nat → Bool) {s : State} {L : List Nat}
    (hE : Editable s L) (output : List Nat) (allow : Bool) :
    ∃ (t : State) (M : List Nat),
      do_output f s output allow = some t ∧ Buf t (L ++ M) ∧
      M = (if typed_bytes f allow output ≠ [] ∧ s.current = s.filebot ∧
        s.NO_NEWLINES = false then [s.brk] else []) ∧
      dataOf t.heap s.current = (dataOf s.heap s.current).take s.current_x ++
        typed_bytes f allow output ++ (dataOf s.heap s.current).drop s.current_x ∧
      (∀ y, y ∈ L → y ≠ s.current → dataOf t.heap y = dataOf s.heap y) ∧
      (∀ y, y ∈ M → dataOf t.heap y = []) ∧
      t.current = s.current ∧
      t.current_x = s.current_x + (typed_bytes f allow output).length ∧
      t.totsize = s.totsize + (typed_bytes f allow output).length + M.length ∧
      t.mark = s.mark ∧
      t.mark_x = (if s.mark = some s.current ∧ s.current_x < s.mark_x
        then s.mark_x + (typed_bytes f allow output).length else s.mark_x) ∧
      (allow = false → f 10 = true →
        typed_bytes f allow output = output.filter (fun b => decide (b ≠ 0) && !f b)) ∧
      (allow = true →
        typed_bytes f allow output = output.map (fun b => if b = 0 then 10 else b) ∧
        (typed_bytes f allow output).length = output.length) := by
  obtain ⟨c, hc⟩ := hE.buf.seg.live hE.cur
  obtain ⟨t, M, hrun, hE1, -, -, hM, hcur, hx, hd, ho, hm, hmk, hmx, htot, -, -, -⟩ :=
    do_output_loop_run f allow output c.data.length hE (by rw [dataOf_of_eq hc])
  refine ⟨t, M, ?_, hE1.buf, ?_, hd, ho, hm, hcur, hx, htot, hmk, ?_, ?_, ?_⟩
  · unfold do_output
    simp only [hc]
    exact hrun
  · rw [hM]
    by_cases h : typed_bytes f allow output ≠ [] ∧ s.filebot = s.current ∧
        ¬ s.NO_NEWLINES = true
    · rw [if_pos h, if_pos ⟨h.1, h.2.1.symm, by simpa using h.2.2⟩]
    · rw [if_neg h, if_neg (fun h2 => h ⟨h2.1, h2.2.1.symm, by simp [h2.2.2]⟩)]
  · rw [hmx]
    by_cases h : some s.current = s.mark ∧ s.current_x < s.mark_x
    · rw [if_pos h, if_pos ⟨h.1.symm, h.2⟩]
    · rw [if_neg h, if_neg (fun h2 => h ⟨h2.1.symm, h2.2⟩)]
  · intro ha h10
    subst ha
    exact typed_bytes_filtered f h10 output
  · intro ha
    subst ha
    rw [typed_bytes_all]
    exact ⟨rfl, List.length_map _ _⟩

/-! ## The magic line stays -/

/-- After `renumber_and_magic`-style endings: the last line of a buffer
`T ++ M`, where `M` is the magic line if one was added, is empty. -/
theorem last_line_empty {t : State} {T M : List Nat} (hb : Buf t (T ++ M))
    (hdm : ∀ y, y ∈ M → dataOf t.heap y = [])
    (hM : M = [] → ∀ q, T.getLast? = some q → dataOf t.heap q = []) :
    dataOf t.heap t.filebot = [] := by
  have hbot := hb.bot
  rcases List.eq_nil_or_concat M with e | ⟨M0, m, e⟩
  · rw [e, List.append_nil] at hbot
    exact hM e _ hbot
  · rw [List.concat_eq_append] at e
    rw [e, ← List.append_assoc, getLast?_snoc, Option.some.injEq] at hbot
    rw [← hbot]
    exact hdm m (by rw [e]; simp)

theorem do_output_keeps_magic (f : Nat → Bool) {s : State} {L : List Nat}
    (hE : Editable s L) (output : List Nat) (allow : Bool) (hnn : s.NO_NEWLINES = false)
    (hmag : dataOf s.heap s.filebot = []) :
    ∃ t, do_output f s output allow = some t ∧ t.NO_NEWLINES = false ∧
      dataOf t.heap t.filebot = [] := by
  obtain ⟨c, hc⟩ := hE.buf.seg.live hE.cur
  obtain ⟨t, M, hrun, hE1, -, -, hM, hcur, hx, hd, ho, hm, -, -, -, hnn1, hfb, -⟩ :=
    do_output_loop_run f allow output c.data.length hE (by rw [dataOf_of_eq hc])
  refine ⟨t, ?_, hnn1.trans hnn, ?_⟩
  · unfold do_output
    simp only [hc]
    exact hrun
  · by_cases h : typed_bytes f allow output ≠ [] ∧ s.filebot = s.current ∧
        ¬ s.NO_NEWLINES = true
    · rw [if_pos h] at hM hfb
      rw [hfb]
      exact hm _ (by rw [hM]; simp)
    · rw [if_neg h] at hfb
      rw [hfb]
      by_cases hcf : s.filebot = s.current
      · have hK : typed_bytes f allow output = [] := by
          by_contra hne
          exact h ⟨hne, hcf, by rw [hnn]; decide⟩
        rw [hcf, hd, hK, ← hcf, hmag]
        simp
      · rw [ho _ hE.buf.filebot_mem hcf, hmag]

theorem do_deletion_keeps_magic {s : State} {L : List Nat} (hE : Editable s L)
    (a : undo_type) (ha : a = undo_type.DEL ∨ a = undo_type.BACK)
    (hnn : s.NO_NEWLINES = false) (hmag : dataOf s.heap s.filebot = []) :
    ∃ t, do_deletion s a = some t ∧ t.NO_NEWLINES = false ∧
      dataOf t.heap t.filebot = [] := by
  obtain ⟨c, hc⟩ := hE.buf.seg.live hE.cur
  have hxle := hE.x_le
  rw [dataOf_of_eq hc] at hxle
  by_cases hmid : s.current_x < c.data.length
  · obtain ⟨t, ut, i, u, la, hrun, -, -, ht, -, -, -⟩ := do_deletion_mid_run hE a ha hc hmid
    have hcf : s.filebot ≠ s.current := by
      intro e
      rw [e, dataOf_of_eq hc] at hmag
      rw [hmag] at hmid
      exact Nat.not_lt_zero _ hmid
    have hheap : t.heap = s.heap.mapData s.current
        (fun d => d.take s.current_x ++ d.drop (s.current_x + 1)) := by rw [ht]
    have hfbt : t.filebot = s.filebot := by rw [ht]
    refine ⟨t, hrun, by rw [ht]; exact hnn, ?_⟩
    rw [hheap, hfbt, dataOf_mapData_ne _ _ hcf, hmag]
  · have hx : s.current_x = c.data.length := by omega
    by_cases hfb : s.current = s.filebot
    · refine ⟨s, ?_, hnn, hmag⟩
      unfold do_deletion
      simp only [hc]
      rw [if_neg hmid, if_pos hx, if_neg (not_not.2 hfb)]
    · by_cases hguard : c.next = some s.filebot ∧ s.current_x ≠ 0 ∧ ¬ s.NO_NEWLINES = true
      · by_cases hb : a = undo_type.BACK
        · have hrun2 : do_deletion s a = add_undo s undo_type.BACK := by
            unfold do_deletion
            simp only [hc]
            rw [if_neg hmid, if_pos hx, if_pos hfb]
            unfold do_deletion_join
            simp only [hc]
            rw [if_pos hguard, if_pos hb]
            cases add_undo s undo_type.BACK <;> rfl
          rw [add_undo_run hc] at hrun2
          exact ⟨_, hrun2, hnn, hmag⟩
        · refine ⟨s, ?_, hnn, hmag⟩
          unfold do_deletion
          simp only [hc]
          rw [if_neg hmid, if_pos hx, if_pos hfb]
          unfold do_deletion_join
          simp only [hc]
          rw [if_pos hguard, if_neg hb]
      · obtain ⟨t, A, B, j, fj, u0, older, hrun, hL, hcn, hfj, -, ht, hE1, hdAB, hdc, -, -⟩ :=
          do_deletion_join_run hE a hc hx hfb hguard
        refine ⟨t, hrun, by rw [ht]; exact hnn, ?_⟩
        have hfbt : t.filebot = if s.filebot = j then s.current else s.filebot := by rw [ht]
        rw [hfbt]
        by_cases hj : s.filebot = j
        · rw [if_pos hj, hdc]
          have hx0 : s.current_x = 0 := by
            by_contra hne
            exact hguard ⟨by rw [hcn, hj], hne, by rw [hnn]; decide⟩
          have hc0 : c.data = [] := List.length_eq_zero.1 (by omega)
          rw [hj, dataOf_of_eq hfj] at hmag
          rw [hc0, hmag]
          rfl
        · rw [if_neg hj]
          have hB : s.filebot ∈ B := by
            have hbot := hE.buf.bot
            rw [hL] at hbot
            rcases List.eq_nil_or_concat B with e | ⟨B0, b, e⟩
            · rw [e] at hbot
              have e2 : (A ++ [s.current, j]).getLast? = some j := by
                have : A ++ [s.current, j] = (A ++ [s.current]) ++ [j] := by simp
                rw [this, getLast?_snoc]
              rw [e2, Option.some.injEq] at hbot
              exact absurd hbot.symm hj
            · rw [List.concat_eq_append] at e
              rw [e] at hbot ⊢
              have e2 : A ++ s.current :: j :: (B0 ++ [b]) =
                  (A ++ s.current :: j :: B0) ++ [b] := by simp
              rw [e2, getLast?_snoc, Option.some.injEq] at hbot
              rw [← hbot]
              simp
          rw [hdAB _ (Or.inr hB), hmag]

/-- C33: the magic-line invariant.  When NO_NEWLINES is unset and the last
line of the buffer is empty, the last line is still empty (and NO_NEWLINES
still unset) after `do_output` and after `do_deletion`; and with NO_NEWLINES
unset the last line is empty after `extract_buffer` on any valid range that
is not empty and after `ingraft_buffer` of any non-empty source, while
`extract_buffer` on an empty range leaves the state, and so its empty last
line, as it was.  Each of the operations returns. -/
theorem magic_line_invariant (f : Nat → Bool) :
    (∀ (s : State) (L : List Nat) (output : List Nat) (allow : Bool), Editable s L →
      s.NO_NEWLINES = false → dataOf s.heap s.filebot = [] →
      ∃ t, do_output f s output allow = some t ∧ t.NO_NEWLINES = false ∧
        dataOf t.heap t.filebot = []) ∧
    (∀ (s : State) (L : List Nat) (a : undo_type), Editable s L →
      a = undo_type.DEL ∨ a = undo_type.BACK →
      s.NO_NEWLINES = false → dataOf s.heap s.filebot = [] →
      ∃ t, do_deletion s a = some t ∧ t.NO_NEWLINES = false ∧
        dataOf t.heap t.filebot = []) ∧
    (∀ (s : State) (A R B D : List Nat) (fto fbo : Option Nat) (top top_x bot bot_x : Nat),
      ExtractPre s A R B D fto fbo top top_x bot bot_x → s.NO_NEWLINES = false →
      ∃ t ft fb, extract_buffer s fto fbo top top_x bot bot_x = some (t, ft, fb) ∧
        t.NO_NEWLINES = false ∧ dataOf t.heap t.filebot = []) ∧
    (∀ (s : State) (fto fbo : Option Nat) (top x : Nat),
      s.NO_NEWLINES = false → dataOf s.heap s.filebot = [] →
      ∃ t ft fb, extract_buffer s fto fbo top x top x = some (t, ft, fb) ∧
        t.NO_NEWLINES = false ∧ dataOf t.heap t.filebot = []) ∧
    (∀ (s : State) (A B Src : List Nat) (somebuffer : Nat),
      IngraftPre s A B Src somebuffer → s.NO_NEWLINES = false →
      ∃ t, ingraft_buffer s somebuffer = some t ∧ t.NO_NEWLINES = false ∧
        dataOf t.heap t.filebot = []) := by
  refine ⟨?_, ?_, ?_, ?_, ?_⟩
  · intro s L output allow hE hnn hmag
    exact do_output_keeps_magic f hE output allow hnn hmag
  · intro s L a hE ha hnn hmag
    exact do_deletion_keeps_magic hE a ha hnn hmag
  · intro s A R B D fto fbo top top_x bot bot_x h hnn
    obtain ⟨t, ft, fb, M, E, hrun, hp⟩ := extract_buffer_spec h
    refine ⟨t, ft, fb, hrun, by rw [hp.rest]; exact hnn, ?_⟩
    refine last_line_empty hp.buf hp.data_magic ?_
    intro hM q hq
    by_contra hne
    exact (hp.magic_iff.2 ⟨hnn, q, hq, hne⟩) hM
  · intro s fto fbo top x hnn hmag
    refine ⟨s, fto, fbo, ?_, hnn, hmag⟩
    unfold extract_buffer
    rw [if_pos ⟨rfl, rfl⟩]
  · intro s A B Src somebuffer h hnn
    obtain ⟨t, M, hrun, hp⟩ := ingraft_buffer_spec h
    refine ⟨t, hrun, by rw [hp.rest]; exact hnn, ?_⟩
    refine last_line_empty hp.buf hp.data_magic ?_
    intro hM q hq
    by_contra hne
    exact (hp.magic_iff.2 ⟨hnn, q, hq, hne⟩) hM

/-! ## The mark across `ingraft_buffer` -/

/-- The text of the first inserted line after `ingraft_buffer`. -/
theorem IngraftPost.head_data {s t : State} {A B Src M : List Nat}
    (hpost : IngraftPost s t A B Src M) {hd : Nat} (hhd : Src.head? = some hd) :
    dataOf t.heap hd =
      (dataOf s.heap s.current).take s.current_x ++ dataOf s.heap hd ++
        (if Src.length = 1 then (dataOf s.heap s.current).drop s.current_x else []) := by
  obtain ⟨r, hr⟩ := eq_cons_of_head? hhd
  have h1 := hpost.data_src
  rw [hr] at h1
  rw [hr]
  cases r with
  | nil =>
    simp only [List.map_cons, List.map_nil, mapLast, mapHead, List.cons.injEq, and_true] at h1
    rw [h1]
    simp
  | cons e r1 =>
    simp only [List.map_cons, mapLast, mapHead, List.cons.injEq] at h1
    rw [h1.1]
    simp

/-- Dropping from a line `p ++ d ++ r.drop x`, where `p` has length `n`: the
offset `n + d.length + (m - x)` designates the byte at offset `m` of `r`. -/
theorem drop_after_insert (p d r : List Nat) (x m : Nat) (hxm : x ≤ m) :
    (p ++ d ++ r.drop x).drop (p.length + d.length + (m - x)) = r.drop m := by
  rw [List.append_assoc, Nat.add_assoc, ← List.drop_drop, List.drop_left, ← List.drop_drop,
    List.drop_left, List.drop_drop]
  congr 1
  omega

/-- C35: `ingraft_buffer` keeps the mark attached to the same text.  A mark
on another line than the cursor is unchanged.  A mark on the line of the
cursor, strictly before the cursor, keeps its offset and is on the first line
of the insertion, whose text up to the cursor is that of the original line,
so that the mark designates the same byte.  A mark on the line of the cursor,
at or after the cursor, is on the last inserted line at the offset
`length(last source line) + (mark_x - cursor_x)`, plus `cursor_x` when the
source is one line; it is a valid position of the buffer and the text from the
mark on is the text from the mark on of the original line (offsets below
`2 ^ 64`). -/
theorem ingraft_buffer_keeps_mark {s : State} {A B Src : List Nat} {somebuffer : Nat}
    (h : IngraftPre s A B Src somebuffer) :
    ∃ t M, ingraft_buffer s somebuffer = some t ∧ Buf t (A ++ Src ++ B ++ M) ∧
      (s.mark = none → t.mark = none) ∧
      (∀ m, s.mark = some m → m ≠ s.current →
        t.mark = some m ∧ t.mark_x = s.mark_x ∧
          (m ∈ A ++ B → m ∈ A ++ Src ++ B ++ M ∧ dataOf t.heap m = dataOf s.heap m)) ∧
      (s.mark = some s.current → s.mark_x < s.current_x →
        ∃ hd, Src.head? = some hd ∧ t.mark = some hd ∧ hd ∈ A ++ Src ++ B ++ M ∧
          t.mark_x = s.mark_x ∧ t.mark_x < (dataOf t.heap hd).length ∧
          (dataOf t.heap hd).take s.current_x = (dataOf s.heap s.current).take s.current_x ∧
          (dataOf t.heap hd)[t.mark_x]? = (dataOf s.heap s.current)[s.mark_x]?) ∧
      (s.mark = some s.current → s.current_x ≤ s.mark_x →
        s.mark_x ≤ (dataOf s.heap s.current).length →
        ∃ lst, Src.getLast? = some lst ∧
          (s.mark_x + (dataOf s.heap lst).length < 2 ^ 64 →
            t.mark = some lst ∧ t.current = lst ∧ lst ∈ A ++ Src ++ B ++ M ∧
            t.mark_x = (dataOf s.heap lst).length + (s.mark_x - s.current_x) +
              (if Src.length = 1 then s.current_x else 0) ∧
            t.mark_x = t.current_x + (s.mark_x - s.current_x) ∧
            t.mark_x ≤ (dataOf t.heap lst).length ∧
            (dataOf t.heap lst).drop t.mark_x = (dataOf s.heap s.current).drop s.mark_x)) := by
  obtain ⟨t, M, hrun, hp⟩ := ingraft_buffer_spec h
  obtain ⟨hd0, hhd0⟩ : ∃ hd, Src.head? = some hd := ⟨somebuffer, h.src_head⟩
  have hlenT : ((dataOf s.heap s.current).take s.current_x).length = s.current_x := by
    rw [List.length_take]
    exact Nat.min_eq_left h.x_le
  refine ⟨t, M, hrun, hp.buf, hp.mark_rule.1, ?_, ?_, ?_⟩
  · intro m hm hne
    obtain ⟨h1, -, -⟩ := hp.mark_rule.2 m hm
    refine ⟨(h1 hne).1, (h1 hne).2, fun hmem => ⟨?_, hp.data_old m hmem⟩⟩
    rcases List.mem_append.1 hmem with e | e
    · simp [e]
    · simp [e]
  · intro hm hlt
    obtain ⟨-, h2, -⟩ := hp.mark_rule.2 s.current hm
    obtain ⟨e1, e2⟩ := h2 rfl hlt
    have hdat := hp.head_data hhd0
    have htake : (dataOf t.heap hd0).take s.current_x =
        (dataOf s.heap s.current).take s.current_x := by
      rw [hdat, List.append_assoc, List.take_append_of_le_length (by rw [hlenT]),
        List.take_take, Nat.min_self]
    have hlen : s.current_x ≤ (dataOf t.heap hd0).length := by
      rw [hdat]
      simp only [List.length_append, hlenT]
      omega
    have hmem : hd0 ∈ Src := by
      obtain ⟨r, hr⟩ := eq_cons_of_head? hhd0
      rw [hr]
      simp
    refine ⟨hd0, hhd0, e1.trans hhd0, by simp [hmem], e2, by omega, htake, ?_⟩
    rw [e2]
    have g1 : (dataOf t.heap hd0)[s.mark_x]? =
        ((dataOf t.heap hd0).take s.current_x)[s.mark_x]? := by
      rw [List.getElem?_take_of_lt hlt]
    rw [g1, htake, List.getElem?_take_of_lt hlt]
  · intro hm hle hmx
    obtain ⟨-, -, h3⟩ := hp.mark_rule.2 s.current hm
    obtain ⟨e1, e2⟩ := h3 rfl hle
    refine ⟨t.current, hp.cursor, fun hfit => ?_⟩
    have hmem : t.current ∈ Src := by
      obtain ⟨r, hr⟩ := eq_append_of_getLast? hp.cursor
      rw [hr]
      simp
    have hcx : s.current_x < 2 ^ 64 := by omega
    have hmx1 : t.mark_x = (dataOf s.heap t.current).length + (s.mark_x - s.current_x) +
        (if Src.length = 1 then s.current_x else 0) := by
      rw [e2]
      by_cases hl : Src.length = 1
      · rw [if_pos hl, if_pos hl, Nat.mod_eq_of_lt hfit]
        omega
      · rw [if_neg hl, if_neg hl, Nat.mod_eq_of_lt hcx]
        have e3 : s.mark_x + (dataOf s.heap t.current).length + (2 ^ 64 - s.current_x) =
            ((dataOf s.heap t.current).length + (s.mark_x - s.current_x)) + 2 ^ 64 := by
          omega
        rw [e3, Nat.add_mod_right, Nat.mod_eq_of_lt (by omega)]
        rfl
    have hdat := hp.cursor_data
    have hdrop : (dataOf t.heap t.current).drop t.mark_x =
        (dataOf s.heap s.current).drop s.mark_x := by
      rw [hmx1, hdat]
      by_cases hl : Src.length = 1
      · rw [if_pos hl, if_pos hl]
        have e4 : (dataOf s.heap t.current).length + (s.mark_x - s.current_x) + s.current_x =
            ((dataOf s.heap s.current).take s.current_x).length +
              (dataOf s.heap t.current).length + (s.mark_x - s.current_x) := by
          rw [hlenT]
          omega
        rw [e4]
        exact drop_after_insert _ _ _ _ _ hle
      · rw [if_neg hl, if_neg hl]
        have e4 : (dataOf s.heap t.current).length + (s.mark_x - s.current_x) + 0 =
            ([] : List Nat).length + (dataOf s.heap t.current).length +
              (s.mark_x - s.current_x) := by
          simp
        rw [e4]
        exact drop_after_insert _ _ _ _ _ hle
    have hlen : t.mark_x ≤ (dataOf t.heap t.current).length := by
      by_contra hgt
      have e5 : (dataOf t.heap t.current).drop t.mark_x = [] :=
        List.drop_eq_nil_of_le (by omega)
      have e6 : (dataOf t.heap t.current).length =
          (if Src.length = 1 then s.current_x else 0) + (dataOf s.heap t.current).length +
            ((dataOf s.heap s.current).length - s.current_x) := by
        rw [hdat]
        by_cases hl : Src.length = 1
        · simp only [if_pos hl, List.length_append, hlenT, List.length_drop]
        · simp only [if_neg hl, List.length_append, List.length_nil, List.length_drop]
      rw [hmx1] at hgt
      omega
    refine ⟨e1.trans hp.cursor, rfl, by simp [hmem], hmx1, ?_, hlen, hdrop⟩
    rw [hmx1, hp.cursor_x]
    omega

/-! ## What a cut that is not refused removes -/

/-- A range that is not empty holds at least one character. -/
theorem rangeText_size_pos {ds : List (List Nat)} {dt db : List Nat} {top_x bot_x : Nat}
    (hh : ds.head? = some dt) (hl : ds.getLast? = some db) (htx : top_x ≤ dt.length)
    (hbx : bot_x ≤ db.length) (hsame : ds.length = 1 → top_x < bot_x) :
    1 ≤ textSize (rangeText ds top_x bot_x) := by
  have hr := rangeText_size hh hl htx hbx (fun e => le_of_lt (hsame e))
  cases ds with
  | nil => simp at hh
  | cons d rest =>
    simp only [List.head?_cons, Option.some.injEq] at hh
    subst hh
    rcases List.eq_nil_or_concat rest with e | ⟨mid, b, e⟩
    · subst e
      simp only [List.getLast?_singleton, Option.some.injEq] at hl
      subst hl
      have h1 := hsame rfl
      have e2 : textSize [d] = d.length := by simp [textSize]
      rw [e2] at hr
      omega
    · rw [List.concat_eq_append] at e
      subst e
      have hl2 : (d :: (mid ++ [b])).getLast? = some b := by
        rw [← List.cons_append, List.getLast?_append]
        simp
      rw [hl2] at hl
      simp only [Option.some.injEq] at hl
      subst hl
      have e2 : textSize (d :: (mid ++ [b])) =
          d.length + (mid.map List.length).sum + b.length + (mid.length + 1) := by
        simp only [textSize, List.map_cons, List.map_append, List.map_nil, List.sum_cons,
          List.sum_append, List.sum_nil, List.length_cons, List.length_append, List.length_nil]
        omega
      rw [e2] at hr
      omega

/-- A range of one character that ends at the start of an empty last line is
the line separator after the end of the line before it. -/
theorem separator_range {ds : List (List Nat)} {dt : List Nat} {top_x : Nat}
    (hh : ds.head? = some dt) (hl : ds.getLast? = some []) (htx : top_x ≤ dt.length)
    (hlen : ds.length ≠ 1) (hone : textSize (rangeText ds top_x 0) = 1) :
    ds = [dt, []] ∧ top_x = dt.length := by
  have hr := rangeText_size hh hl htx (Nat.zero_le _) (fun e => absurd e hlen)
  rw [hone] at hr
  cases ds with
  | nil => simp at hh
  | cons d rest =>
    simp only [List.head?_cons, Option.some.injEq] at hh
    subst hh
    rcases List.eq_nil_or_concat rest with e | ⟨mid, b, e⟩
    · subst e
      exact absurd rfl hlen
    · rw [List.concat_eq_append] at e
      subst e
      have hl2 : (d :: (mid ++ [b])).getLast? = some b := by
        rw [← List.cons_append, List.getLast?_append]
        simp
      rw [hl2] at hl
      simp only [Option.some.injEq] at hl
      subst hl
      have e2 : textSize (d :: (mid ++ [([] : List Nat)])) =
          d.length + (mid.map List.length).sum + (mid.length + 1) := by
        simp only [textSize, List.map_cons, List.map_append, List.map_nil, List.sum_cons,
          List.sum_append, List.sum_nil, List.length_cons, List.length_append, List.length_nil]
        omega
      rw [e2] at hr
      simp only [List.length_nil] at hr
      have hm : mid = [] := List.length_eq_zero.1 (by omega)
      subst hm
      simp only [List.map_nil, List.sum_nil, List.length_nil] at hr
      exact ⟨rfl, by omega⟩

/-- The account of `do_cut_text_void` when `is_cuttable` lets it cut: the
size of the buffer goes down by the size of the range and up by the magic line
that `extract_buffer` adds, and the state after the cut meets the size
invariant. -/
theorem do_cut_text_void_account {s s1 : State} {L D : List Nat} (h : CutPre s L D)
    (het : s.edittop ∈ L)
    (hundo : ∀ i, s.current_undo = some i → ∃ u, s.undotop[i]? = some u)
    (hnum : s.mark ≠ none → Numbered s.heap 0 L) (hsize : size_invariant s)
    (hok : is_cuttable s (s.CUT_FROM_CURSOR && s.mark.isNone) = some (s1, true)) :
    ∃ (s4 : State) (A R B : List Nat) (top top_x bot bot_x : Nat),
      do_cut_text_void s = some s4 ∧ cut_range s false = some (top, top_x, bot, bot_x) ∧
      L = A ++ R ++ B ∧ R.head? = some top ∧ R.getLast? = some bot ∧
      top_x ≤ (dataOf s.heap top).length ∧ bot_x ≤ (dataOf s.heap bot).length ∧
      (R.length = 1 → top_x < bot_x) ∧
      s4.totsize + textSize (rangeText (R.map (dataOf s.heap)) top_x bot_x) =
        s.totsize + (round_trip_extra s top_x bot).length ∧
      size_invariant s4 ∧
      buffer_text s4 = some
        ((A.map (dataOf s.heap) ++
            [(dataOf s.heap top).take top_x ++ (dataOf s.heap bot).drop bot_x] ++
            B.map (dataOf s.heap)) ++
          (if s.NO_NEWLINES = false ∧
              (A.map (dataOf s.heap) ++
                [(dataOf s.heap top).take top_x ++ (dataOf s.heap bot).drop bot_x] ++
                B.map (dataOf s.heap)).getLast? ≠ some [] then [[]] else [])) ∧
      (s.mark ≠ none → text_from s4 s4.cutbuffer =
        some (rangeText (R.map (dataOf s.heap)) top_x bot_x)) ∧
      (s.mark = none → round_trip_extra s top_x bot = []) := by
  obtain ⟨s0, t, s4, D0, A, R, B, M, E, ft, fb, top, top_x, bot, bot_x, hrun, hr, hc, hD0, -,
    -, hextra, -⟩ := do_cut_text_void_run h (fun _ hD => h.cut_disj _ hD het) hundo hnum hok
  have hpre := hc.pre
  have hp := hc.post
  obtain ⟨hnn0, hfb0, hts0, hbrk0⟩ := hc.nn0
  obtain ⟨-, hndR, -, -, -, -⟩ := nodup_parts hpre.buf.nodup
  have hRL : ∀ y, y ∈ R → y ∈ L := fun y hy => by
    rw [hc.list]
    exact List.mem_append_left B (List.mem_append_right A hy)
  have eR : R.map (dataOf s0.heap) = R.map (dataOf s.heap) :=
    hc.data_eq (fun y hy => Or.inl (hRL y hy))
  have eL : L.map (dataOf s0.heap) = L.map (dataOf s.heap) :=
    hc.data_eq (fun y hy => Or.inl hy)
  have etop : dataOf s0.heap top = dataOf s.heap top :=
    dataOf_congr (hc.heapL top (hRL top (List.mem_of_mem_head? hpre.head)))
  have ebot : dataOf s0.heap bot = dataOf s.heap bot :=
    dataOf_congr (hc.heapL bot (hRL bot (List.mem_of_getLast?_eq_some hpre.last)))
  have f1 : s4.totsize = t.totsize := by rw [hc.eq4]
  have f2 := hp.totsize
  have f4 := range_le_size hpre
  have f5 : sizeOf s0.heap (A ++ R ++ B) = sizeOf s.heap L := by
    rw [← hc.list, sizeOf_eq_textSize, sizeOf_eq_textSize, eL]
  have f6 : s.totsize = sizeOf s.heap L := (h.buf.size_invariant_iff).1 hsize
  have hM := ExtractPost.magic_extra hpre hp hc.pre0.magic
  have hrte : round_trip_extra s0 top_x bot = round_trip_extra s top_x bot := by
    unfold round_trip_extra
    rw [hnn0, hfb0]
  have f7 : M.length = (round_trip_extra s top_x bot).length := by
    rw [← hrte, ← hM, List.length_map]
  have f9 := ExtractPost.size_after hpre hp
  have hh4 : s4.heap = t.heap := by rw [hc.eq4]
  rw [eR] at f2 f4 f9
  have hsame : R.length = 1 → top_x < bot_x := fun e =>
    hpre.nonempty ((head_eq_last_iff hndR hpre.head hpre.last).2 e)
  refine ⟨s4, A, R, B, top, top_x, bot, bot_x, hrun, hr, hc.list, hpre.head, hpre.last,
    etop ▸ hpre.top_le, ebot ▸ hpre.bot_le, hsame, by omega, ?_, hc.text_cut, ?_, hextra⟩
  · rw [hc.buf4.size_invariant_iff, hh4]
    omega
  · intro hm
    have e := hc.cutbuffer_text
    rw [hD0, if_pos (Or.inr hm)] at e
    rw [e]
    cases hrt : rangeText (R.map (dataOf s.heap)) top_x bot_x with
    | nil => rfl
    | cons r rs => simp [appendText]

/-- C39: a cut that is not refused takes a range of at least one character.
For a buffer that meets the size and magic-line invariants, when `is_cuttable`
returns TRUE for the test that `do_cut_text_void` passes it,
`do_cut_text_void` returns, and `totsize` after the cut is strictly smaller
than before and the text of the buffer differs, except when NO_NEWLINES is
unset and the range is exactly the line separator between the end of a
non-empty line and the empty last line: then the mark is set, the separator
goes to the cutbuffer, `extract_buffer` adds the magic line again, and
`totsize` and the text of the buffer are as before. -/
theorem cut_removes_something {s s1 : State} {L D : List Nat} (h : CutPre s L D)
    (het : s.edittop ∈ L)
    (hundo : ∀ i, s.current_undo = some i → ∃ u, s.undotop[i]? = some u)
    (hnum : s.mark ≠ none → Numbered s.heap 0 L) (hsize : size_invariant s)
    (hok : is_cuttable s (s.CUT_FROM_CURSOR && s.mark.isNone) = some (s1, true)) :
    ∃ (s4 : State) (A R B : List Nat) (top top_x bot bot_x : Nat),
      do_cut_text_void s = some s4 ∧ cut_range s false = some (top, top_x, bot, bot_x) ∧
      L = A ++ R ++ B ∧ R.head? = some top ∧ R.getLast? = some bot ∧
      1 ≤ textSize (rangeText (R.map (dataOf s.heap)) top_x bot_x) ∧
      size_invariant s4 ∧
      (¬ (s.NO_NEWLINES = false ∧ bot = s.filebot ∧ 0 < top_x ∧
          textSize (rangeText (R.map (dataOf s.heap)) top_x bot_x) = 1) →
        s4.totsize < s.totsize ∧ buffer_text s4 ≠ buffer_text s) ∧
      (s.NO_NEWLINES = false ∧ bot = s.filebot ∧ 0 < top_x ∧
          textSize (rangeText (R.map (dataOf s.heap)) top_x bot_x) = 1 →
        s.mark ≠ none ∧ R.map (dataOf s.heap) = [dataOf s.heap top, []] ∧
          top_x = (dataOf s.heap top).length ∧ bot_x = 0 ∧
          text_from s4 s4.cutbuffer = some [[], []] ∧
          s4.totsize = s.totsize ∧ buffer_text s4 = buffer_text s) := by
  obtain ⟨s4, A, R, B, top, top_x, bot, bot_x, hrun, hr, hL, hhead, hlast, htx, hbx, hsame,
    hacc, hsize4, htext, hcut, hextra⟩ := do_cut_text_void_account h het hundo hnum hsize hok
  have hdh : (R.map (dataOf s.heap)).head? = some (dataOf s.heap top) := by
    rw [List.head?_map, hhead]
    rfl
  have hdl : (R.map (dataOf s.heap)).getLast? = some (dataOf s.heap bot) := by
    rw [getLast?_map', hlast]
    rfl
  have hpos := rangeText_size_pos hdh hdl htx hbx (by rw [List.length_map]; exact hsame)
  refine ⟨s4, A, R, B, top, top_x, bot, bot_x, hrun, hr, hL, hhead, hlast, hpos, hsize4, ?_, ?_⟩
  · intro hex
    have hlt : s4.totsize < s.totsize := by
      by_cases hc : s.NO_NEWLINES = false ∧ bot = s.filebot ∧ 0 < top_x
      · have hne : textSize (rangeText (R.map (dataOf s.heap)) top_x bot_x) ≠ 1 :=
          fun e => hex ⟨hc.1, hc.2.1, hc.2.2, e⟩
        unfold round_trip_extra at hacc
        rw [if_pos hc] at hacc
        simp only [List.length_singleton] at hacc
        omega
      · unfold round_trip_extra at hacc
        rw [if_neg hc] at hacc
        simp only [List.length_nil] at hacc
        omega
    refine ⟨hlt, fun e => ?_⟩
    have h1 : (buffer_text s4).map textSize = some s4.totsize := hsize4
    have h2 : (buffer_text s).map textSize = some s.totsize := hsize
    rw [e, h2] at h1
    simp only [Option.some.injEq] at h1
    omega
  · rintro ⟨hnn, hbf, h0, hone⟩
    have hmk : s.mark ≠ none := fun e => by
      have h1 := hextra e
      unfold round_trip_extra at h1
      rw [if_pos ⟨hnn, hbf, h0⟩] at h1
      cases h1
    have hdb : dataOf s.heap bot = [] := by
      rw [hbf]
      exact h.magic hnn
    have hbx0 : bot_x = 0 := by
      rw [hdb] at hbx
      simpa using hbx
    subst hbx0
    rw [hdb] at hdl
    have hlen : (R.map (dataOf s.heap)).length ≠ 1 := by
      rw [List.length_map]
      intro e
      exact absurd (hsame e) (Nat.not_lt_zero _)
    obtain ⟨hR2, htx2⟩ := separator_range hdh hdl htx hlen hone
    have hB : B = [] := by
      by_contra hBne
      obtain ⟨B0, b, hb⟩ : ∃ B0 b, B = B0 ++ [b] := by
        rcases List.eq_nil_or_concat B with e | ⟨B0, b, e⟩
        · exact absurd e hBne
        · exact ⟨B0, b, by rw [e, List.concat_eq_append]⟩
      have hlastL := h.buf.bot
      rw [hL, hb, ← List.append_assoc] at hlastL
      simp at hlastL
      obtain ⟨-, -, -, -, -, hRB⟩ := nodup_parts (hL ▸ h.buf.nodup)
      refine hRB bot (List.mem_of_getLast?_eq_some hlast) ?_
      rw [hbf, ← hlastL, hb]
      simp
    subst hB
    have hacc2 := hacc
    unfold round_trip_extra at hacc2
    rw [if_pos ⟨hnn, hbf, h0⟩, hone] at hacc2
    simp only [List.length_singleton] at hacc2
    have hdne : dataOf s.heap top ≠ [] := fun e => by
      rw [e] at htx2
      simp at htx2
      omega
    refine ⟨hmk, hR2, htx2, rfl, ?_, by omega, ?_⟩
    · rw [hcut hmk, hR2, htx2]
      simp [rangeText, mapLast, mapHead]
    · rw [htext, h.buf.text, hL, hdb, htx2]
      simp only [List.map_append, List.map_nil, List.append_nil, List.take_length,
        List.drop_zero, hR2]
      rw [if_pos ⟨hnn, by simpa using hdne⟩]
      simp

/-- The cut of a marked region that holds only the line separator before the
magic line: the buffer holds "ab" and the magic line, the mark is at the end
of "ab" and the cursor on the magic line.  The state meets the size and
magic-line invariants, `is_cuttable` returns TRUE, and after the cut `totsize`
and the text of the buffer are what they were. -/
theorem marked_separator_cut_removes_nothing :
    CutPre cliffMark [0, 1] [] ∧ size_invariant cliffMark ∧
    cliffMark.NO_NEWLINES = false ∧ dataOf cliffMark.heap cliffMark.filebot = [] ∧
    is_cuttable cliffMark (cliffMark.CUT_FROM_CURSOR && cliffMark.mark.isNone) =
      some (cliffMark, true) ∧
    buffer_text cliffMark = some [[97, 98], []] ∧ cliffMark.totsize = 3 ∧
    ∃ s4 : State, do_cut_text_void cliffMark = some s4 ∧
      ¬ (s4.totsize < cliffMark.totsize) ∧ s4.totsize = 3 ∧
      buffer_text s4 = buffer_text cliffMark := by
  have hbuf : Buf cliffMark [0, 1] :=
    Buf.of_cells (cellsOf 0 0 none [[97, 98], []] ++ cellsOf 2 0 none [])
      rfl (by decide) (by decide) (by decide) (by decide) (by decide)
  have hpre : CutPre cliffMark [0, 1] [] :=
    { buf := hbuf
      cur := by decide
      x_le := by decide
      edittop := by decide
      mark := by
        intro m hm
        cases hm
        decide
      magic := by decide
      cut := by decide
      cut_nodup := by decide
      cut_disj := by decide
      cut_top := by decide
      cut_bot := by decide }
  have hnumd : Numbered cliffMark.heap 0 [0, 1] := ⟨by decide, by decide, trivial⟩
  have hsize : size_invariant cliffMark := by
    unfold size_invariant
    decide
  have hok := is_cuttable_of_mark hpre (m := 0) rfl (by decide)
  obtain ⟨s4, A, R, B, top, top_x, bot, bot_x, hrun, hr, hL, hhead, hlast, -, -, -,
    hacc, -, htext, -, -⟩ := do_cut_text_void_account hpre (show 0 ∈ [0, 1] by decide)
      (fun i hi => by cases hi) (fun _ => hnumd) hsize hok
  have hr2 : cut_range cliffMark false = some (0, 2, 1, 0) := by decide
  rw [hr2] at hr
  simp only [Option.some.injEq, Prod.mk.injEq] at hr
  obtain ⟨rfl, rfl, rfl, rfl⟩ := hr
  have hR : R = [0, 1] := range_two hbuf hL hhead hlast
    (show cliffMark.heap 0 = some
      { data := [97, 98], lineno := 1, prev := none, next := some 1 } from rfl) rfl
  subst hR
  have hlen := congrArg List.length hL
  simp only [List.length_append, List.length_cons, List.length_nil] at hlen
  have hA : A = [] := List.length_eq_zero.1 (by omega)
  have hB : B = [] := List.length_eq_zero.1 (by omega)
  subst hA
  subst hB
  have e1 : textSize (rangeText ([0, 1].map (dataOf cliffMark.heap)) 2 0) = 1 := by decide
  have e2 : (round_trip_extra cliffMark 2 1).length = 1 := by decide
  rw [e1, e2] at hacc
  have e3 : cliffMark.totsize = 3 := rfl
  rw [e3] at hacc
  have e4 : s4.totsize = 3 := by omega
  refine ⟨hpre, hsize, rfl, by decide, hok, by decide, rfl, s4, hrun, by rw [e4, e3]; omega, e4,
    ?_⟩
  rw [htext]
  decide

/-! ## The theorems of the last part at concrete states -/

theorem renumber_contract_witness :
    Seg demoPaste.heap none ([0] ++ 1 :: [2, 3]) none ∧ ([0] ++ 1 :: [2, 3]).Nodup ∧
    (∀ y, y ∈ [0] ++ 1 :: [2, 3] → y < demoPaste.brk) ∧
    ∃ t, renumber demoPaste 1 = some t ∧ linenoAt t.heap 1 = some 2 ∧
      Numbered t.heap 1 [1, 2, 3] ∧ renumber t 1 = some t := by
  obtain ⟨t, k, hrun, -, hk, hx, hnum, -, -, -, -, hidem⟩ :=
    @renumber_contract demoPaste [0] [2, 3] 1 demoPaste_buf.seg (by decide) (by decide)
  have e : k = 1 := by
    have h1 := hk 0 rfl
    have h2 : linenoAt demoPaste.heap 0 = some 1 := by decide
    rw [h2] at h1
    exact (Option.some.inj h1).symm
  subst e
  exact ⟨demoPaste_buf.seg, by decide, by decide, t, hrun, hx, hnum, hidem⟩

theorem do_deletion_spares_magic_line_witness :
    Buf (helloBuf 5) [0, 1] ∧ (helloBuf 5).current_x = 5 ∧ (helloBuf 5).NO_NEWLINES = false ∧
    do_deletion (helloBuf 5) undo_type.DEL = some (helloBuf 5) := by
  obtain ⟨t, hrun, -, -, -, -, -, -, -, -, -, -, hts⟩ :=
    (do_deletion_spares_magic_line (helloBuf_buf 5) undo_type.DEL
      (c := { data := [104, 101, 108, 108, 111], lineno := 1, prev := none, next := some 1 })
      rfl rfl).1 rfl (by decide) rfl
  rw [hts (by decide)] at hrun
  exact ⟨helloBuf_buf 5, rfl, rfl, hrun⟩

theorem magic_line_invariant_witness :
    Editable demoPaste [0, 1, 2, 3] ∧ demoPaste.NO_NEWLINES = false ∧
    dataOf demoPaste.heap demoPaste.filebot = [] ∧
    (∃ t, do_output ascii_cntrl demoPaste [97] false = some t ∧ t.NO_NEWLINES = false ∧
      dataOf t.heap t.filebot = []) ∧
    (∃ t, ingraft_buffer demoPaste 4 = some t ∧ t.NO_NEWLINES = false ∧
      dataOf t.heap t.filebot = []) :=
  ⟨demoPaste_editable, rfl, by decide,
    (magic_line_invariant ascii_cntrl).1 demoPaste [0, 1, 2, 3] [97] false demoPaste_editable
      rfl (by decide),
    (magic_line_invariant ascii_cntrl).2.2.2.2 demoPaste [0] [2, 3] [4, 5] 4
      demoPaste_ingraftPre rfl⟩

theorem extract_buffer_cursor_and_mark_witness :
    ExtractPre demoPaste [0] [1, 2] [3] [4, 5] (some 4) (some 5) 1 1 2 1 ∧
    Numbered demoPaste.heap 0 ([0] ++ [1, 2] ++ [3]) ∧
    ∃ t ft fb, extract_buffer demoPaste (some 4) (some 5) 1 1 2 1 = some (t, ft, fb) ∧
      linenoAt t.heap t.current = some 2 ∧ t.current_x = 1 ∧
      dataOf t.heap t.current = [4] := by
  obtain ⟨t, ft, fb, L1, hrun, -, -, hln, hx, hd, -, -⟩ :=
    extract_buffer_cursor_and_mark demoPaste_extractPre demoPaste_numbered
  exact ⟨demoPaste_extractPre, demoPaste_numbered, t, ft, fb, hrun, hln.trans (by decide), hx,
    hd.trans (by decide)⟩

theorem ingraft_buffer_keeps_mark_witness :
    IngraftPre demoZero [0] [2, 3] [4, 5] 4 ∧ demoZero.mark = some demoZero.current ∧
    demoZero.mark_x = 1 ∧ demoZero.current_x = 1 ∧ dataOf demoZero.heap 1 = [4, 5] ∧
    ∃ t, ingraft_buffer demoZero 4 = some t ∧ t.mark = some 5 ∧ t.mark_x = 1 ∧
      (dataOf t.heap 5).drop t.mark_x = [5] := by
  have hpre : IngraftPre demoZero [0] [2, 3] [4, 5] 4 :=
    { buf := demoZero_cutPre.buf
      x_le := by decide
      mark := by
        intro m hm
        cases hm
        decide
      src := by decide
      src_nodup := by decide
      src_disj := by decide
      src_head := by decide }
  obtain ⟨t, M, hrun, -, -, -, -, h4⟩ := ingraft_buffer_keeps_mark hpre
  obtain ⟨lst, hl, h5⟩ := h4 rfl (le_refl _) (by decide)
  obtain rfl : 5 = lst := Option.some.inj hl
  obtain ⟨hm, -, -, hmx, -, -, hdrop⟩ := h5 (by decide)
  have e : t.mark_x = 1 := hmx.trans (by decide)
  exact ⟨hpre, rfl, rfl, rfl, by decide, t, hrun, hm, e, hdrop.trans (by decide)⟩

theorem no_partition_outlives_operation_witness :
    ExtractPre demoPaste [0] [1, 2] [3] [4, 5] (some 4) (some 5) 1 1 2 1 ∧
    IngraftPre demoPaste [0] [2, 3] [4, 5] 4 ∧ demoPaste.filepart = none ∧
    (∃ t ft fb, extract_buffer demoPaste (some 4) (some 5) 1 1 2 1 = some (t, ft, fb) ∧
      t.filepart = none) ∧
    (∃ t, ingraft_buffer demoPaste 4 = some t ∧ t.filepart = none) := by
  obtain ⟨t, ft, fb, -, -, -, -, -, hrun, hfp, -⟩ :=
    no_partition_outlives_operation.2.1 demoPaste [0] [1, 2] [3] [4, 5] (some 4) (some 5)
      1 1 2 1 demoPaste_extractPre
  obtain ⟨t2, -, -, -, -, hrun2, hfp2, -⟩ :=
    no_partition_outlives_operation.2.2 demoPaste [0] [2, 3] [4, 5] 4 demoPaste_ingraftPre
  exact ⟨demoPaste_extractPre, demoPaste_ingraftPre, rfl, ⟨t, ft, fb, hrun, hfp⟩,
    ⟨t2, hrun2, hfp2⟩⟩

theorem do_deletion_removes_one_character_witness :
    Editable demoPaste [0, 1, 2, 3] ∧ Numbered demoPaste.heap 0 [0, 1, 2, 3] ∧
    size_invariant demoPaste ∧ demoPaste.current = 1 ∧ demoPaste.current_x = 1 ∧
    demoPaste.totsize = 9 ∧
    ∃ t, do_deletion demoPaste undo_type.DEL = some t ∧ dataOf t.heap 1 = [4] ∧
      t.totsize + 1 = 9 ∧ t.current = 1 ∧ t.current_x = 1 := by
  obtain ⟨t, hrun, -, hd, -, -, hts, hc, hx, -, -⟩ :=
    (do_deletion_removes_one_character demoPaste_editable undo_type.DEL (Or.inl rfl)
      demoPaste_numbered demoPaste_size
      (c := { data := [4, 5], lineno := 2, prev := some 0, next := some 2 }) rfl).1
      (by decide)
  exact ⟨demoPaste_editable, demoPaste_numbered, demoPaste_size, rfl, rfl, rfl, t, hrun,
    hd.trans (by decide), hts, hc, hx⟩

theorem do_output_inserts_typed_bytes_witness :
    Editable demoPaste [0, 1, 2, 3] ∧ dataOf demoPaste.heap demoPaste.current = [4, 5] ∧
    demoPaste.current_x = 1 ∧ demoPaste.totsize = 9 ∧
    ∃ t, do_output ascii_cntrl demoPaste [97, 0, 7, 98] false = some t ∧
      dataOf t.heap demoPaste.current = [4, 97, 98, 5] ∧ t.current_x = 3 ∧
      t.totsize = 11 := by
  obtain ⟨t, M, hrun, -, hM, hd, -, -, -, hx, hts, -, -, -, -⟩ :=
    do_output_inserts_typed_bytes ascii_cntrl demoPaste_editable [97, 0, 7, 98] false
  have hM2 : M = [] := hM.trans (by decide)
  subst hM2
  exact ⟨demoPaste_editable, by decide, rfl, rfl, t, hrun, hd.trans (by decide),
    hx.trans (by decide), hts.trans (by decide)⟩

theorem cut_removes_something_witness :
    CutPre demoPaste [0, 1, 2, 3] [4, 5] ∧ size_invariant demoPaste ∧
    is_cuttable demoPaste (demoPaste.CUT_FROM_CURSOR && demoPaste.mark.isNone) =
      some (demoPaste, true) ∧
    ∃ s4, do_cut_text_void demoPaste = some s4 ∧ s4.totsize < demoPaste.totsize ∧
      buffer_text s4 ≠ buffer_text demoPaste := by
  have hok : is_cuttable demoPaste (demoPaste.CUT_FROM_CURSOR && demoPaste.mark.isNone) =
      some (demoPaste, true) := rfl
  obtain ⟨s4, A, R, B, top, top_x, bot, bot_x, hrun, hr, -, -, -, -, -, hlt, -⟩ :=
    cut_removes_something demoPaste_cutPre (show 0 ∈ [0, 1, 2, 3] by decide)
      (fun i hi => by cases hi) (fun _ => demoPaste_numbered) demoPaste_size hok
  have hr2 : cut_range demoPaste false = some (1, 0, 2, 0) := by decide
  rw [hr2] at hr
  simp only [Option.some.injEq, Prod.mk.injEq] at hr
  obtain ⟨rfl, rfl, rfl, rfl⟩ := hr
  obtain ⟨h1, h2⟩ := hlt (fun hex => absurd hex.2.2.1 (by decide))
  exact ⟨demoPaste_cutPre, demoPaste_size, hok, s4, hrun, h1, h2⟩

theorem do_deletion_undo_rule_witness :
    Editable demoPaste [0, 1, 2, 3] ∧ demoPaste.last_action = undo_type.OTHER ∧
    demoPaste.undotop = [] ∧
    ∃ t u1, do_deletion demoPaste undo_type.DEL = some t ∧ t.undotop = [u1] ∧
      t.current_undo = some 0 ∧ u1.type = undo_type.DEL ∧ u1.lineno = 2 ∧
      t.last_action = undo_type.DEL := by
  obtain ⟨t, hrun, hpush, -, -⟩ :=
    (do_deletion_undo_rule demoPaste_editable undo_type.DEL (Or.inl rfl)
      (c := { data := [4, 5], lineno := 2, prev := some 0, next := some 2 }) rfl).1
      (by decide)
  obtain ⟨u1, hu, hcu, hty, hln, hla⟩ := hpush (Or.inl (by decide))
  exact ⟨demoPaste_editable, rfl, rfl, t, u1, hrun, hu, hcu, hty, hln, hla⟩

end Nano
